import Mathlib

/-!
# xv6-riscv labs 2020: physical page allocator and page-table engine

A shallow embedding of `kernel/kalloc.c` and of the page-table code of
`kernel/vm.c`.  The kernel state is passed explicitly: the per-CPU free
lists, the per-frame reference counters and physical memory (as 64-bit
words).  A `panic` is the result `none`.
-/

namespace Xv6

/-! ## Constants and macros of riscv.h -/

/-- Modelled from the spec: `PGSIZE` of riscv.h (not under src); kalloc.c says the
allocator hands out whole 4096-byte pages and vm.c documents a 12-bit page offset. -/
def PGSIZE : Nat := 4096

/-- Modelled from the spec: `PGROUNDUP` of riscv.h (not under src), rounding a 64-bit
address up to the next multiple of `PGSIZE`, in `uint64` arithmetic. -/
def PGROUNDUP (sz : Nat) : Nat := ((sz + PGSIZE - 1) % 2 ^ 64) / PGSIZE * PGSIZE

/-- Modelled from the spec: `PGROUNDDOWN` of riscv.h (not under src). -/
def PGROUNDDOWN (a : Nat) : Nat := a / PGSIZE * PGSIZE

/-- Constants that kalloc.c takes from param.h, memlayout.h and the linker script,
none of which is under src: the number of CPUs, the symbol `end`, `PHYSTOP` and
`PGCOUNT`. -/
structure Layout where
  NCPU : Nat
  kend : Nat
  PHYSTOP : Nat
  PGCOUNT : Nat

/-! ## Kernel state -/

/-- The state the allocator and the page-table code work on.
`freelist c` is the list of frames reachable from `kmem.freelist[c]` through the
`next` pointers, head first; `ref` is the reference-count table; `mem` is physical
memory, one 64-bit word per 8-byte aligned physical address. -/
structure KState where
  freelist : Nat → List Nat
  ref : Nat → Nat
  mem : Nat → Nat

/-- Memory with the word at address `p` replaced by `v`. -/
def KState.write (s : KState) (p v : Nat) : KState :=
  { s with mem := fun a => if a = p then v else s.mem a }

/-- The 64-bit word whose eight bytes all equal `c`. -/
def fillWord (c : Nat) : Nat := (c % 256) * 0x0101010101010101

/-- The call `memset(pa, c, PGSIZE)`. -/
def memset (pa c : Nat) (s : KState) : KState :=
  { s with mem := fun a => if pa ≤ a ∧ a < pa + PGSIZE then fillWord c else s.mem a }

/-- The call `memmove(dst, src, PGSIZE)` for two page-aligned frames. -/
def memmovePage (dst src : Nat) (s : KState) : KState :=
  { s with mem := fun a => if dst ≤ a ∧ a < dst + PGSIZE then s.mem (src + (a - dst)) else s.mem a }

/-- The macro `cpu_map(addr)` of kalloc.c. -/
def cpu_map (L : Layout) (addr : Nat) : Nat := (addr / PGSIZE) % L.NCPU

/-- Modelled from the spec: the macro `refcount(pa)` (not under src).  The spec's
page refcount table is a dense array of small unsigned counters indexed by frame
number; `kinit` writes the table through a `char` pointer, one byte per counter. -/
def refcount (pa : Nat) (s : KState) : Nat := s.ref (pa / PGSIZE)

/-- Modelled from the spec: the macro `inc_refcount(pa)` (not under src): the
frame's byte counter is incremented by one. -/
def inc_refcount (pa : Nat) (s : KState) : KState :=
  { s with ref := fun i => if i = pa / PGSIZE then (s.ref i + 1) % 256 else s.ref i }

/-- Modelled from the spec: the macro `dec_refcount(pa)` (not under src): the
frame's byte counter is decremented by one. -/
def dec_refcount (pa : Nat) (s : KState) : KState :=
  { s with ref := fun i => if i = pa / PGSIZE then (s.ref i + 255) % 256 else s.ref i }

/-- The free list of CPU `c` replaced by `l`. -/
def KState.setList (s : KState) (c : Nat) (l : List Nat) : KState :=
  { s with freelist := fun i => if i = c then l else s.freelist i }

/-! ## kalloc.c -/

/-- The function `kfree`: `none` is `panic("kfree")`. -/
def kfree (L : Layout) (pa : Nat) (s : KState) : Option KState :=
  if pa % PGSIZE ≠ 0 ∨ pa < L.kend ∨ pa ≥ L.PHYSTOP then none
  else
    let s1 := dec_refcount pa s
    if refcount pa s1 ≠ 0 then some s1
    else
      let s2 := memset pa 1 s1
      let s3 := s2.write pa ((s2.freelist (cpu_map L pa)).headD 0)
      some (s3.setList (cpu_map L pa) (pa :: s3.freelist (cpu_map L pa)))

/-- The loop of `freerange`; `none` is a panic of `kfree` or the fuel running out. -/
def freerangeLoop (L : Layout) (pa_end : Nat) : Nat → Nat → KState → Option KState
  | 0, _, _ => none
  | fuel + 1, p, s =>
    if p + PGSIZE ≤ pa_end then
      match kfree L p s with
      | none => none
      | some s1 => freerangeLoop L pa_end fuel (p + PGSIZE) s1
    else some s

/-- The function `freerange`. -/
def freerange (L : Layout) (pa_start pa_end : Nat) (s : KState) : Option KState :=
  freerangeLoop L pa_end ((pa_end - PGROUNDUP pa_start) / PGSIZE + 1) (PGROUNDUP pa_start) s

/-- The `while` loop of `kinit`: the counters `end[k]`, ..., `end[1]` are set to 1. -/
def kinitRefs : Nat → (Nat → Nat) → (Nat → Nat)
  | 0, ref => ref
  | k + 1, ref => kinitRefs k (fun i => if i = k + 1 then 1 else ref i)

/-- The function `kinit`. -/
def kinit (L : Layout) (s : KState) : Option KState :=
  freerange L (L.kend + L.PGCOUNT) L.PHYSTOP { s with ref := kinitRefs L.PGCOUNT s.ref }

/-- The state at boot: empty free lists, zeroed counters and memory. -/
def boot : KState := { freelist := fun _ => [], ref := fun _ => 0, mem := fun _ => 0 }

/-- The function `kget`. -/
def kget (cpuid : Nat) (s : KState) : Option Nat × KState :=
  match s.freelist cpuid with
  | [] => (none, s)
  | r :: rest => (some r, s.setList cpuid rest)

/-- The `for` loop of `ksteal`, started at `i`; `none` is the fuel running out. -/
def kstealLoop (L : Layout) (cpuid : Nat) : Nat → Nat → KState → Option (Option Nat × KState)
  | 0, _, _ => none
  | fuel + 1, i, s =>
    if i = cpuid then some (none, s)
    else
      let i1 := if i = L.NCPU then 0 else i
      if i = L.NCPU ∧ i1 = cpuid then some (none, s)
      else
        match kget i1 s with
        | (some r, s1) => some (some r, s1)
        | (none, s1) => kstealLoop L cpuid fuel (i1 + 1) s1

/-- The function `ksteal`; the loop body runs at most `NCPU` times. -/
def ksteal (L : Layout) (cpuid : Nat) (s : KState) : Option (Option Nat × KState) :=
  kstealLoop L cpuid (L.NCPU + 1) (cpuid + 1) s

/-- The function `kalloc` run on CPU `cpu`; the outer `none` is `ksteal` running out
of fuel, which `ksteal_total` excludes. -/
def kalloc (L : Layout) (cpu : Nat) (s : KState) : Option (Option Nat × KState) :=
  let r0 := kget cpu s
  let r1 := match r0 with
    | (some r, s1) => some (some r, s1)
    | (none, s1) => ksteal L cpu s1
  match r1 with
  | none => none
  | some (none, s2) => some (none, s2)
  | some (some r, s2) => some (some r, memset r 5 (inc_refcount r s2))

/-- What the stealing scan finds: nothing, every other list being empty, or the head
of the first non-empty list at distance `d` from `c`. -/
def StealResult (L : Layout) (c : Nat) (s : KState) (r : Option Nat) (s' : KState) : Prop :=
  (r = none ∧ s' = s ∧ ∀ e, 1 ≤ e → e < L.NCPU → s.freelist ((c + e) % L.NCPU) = []) ∨
  (∃ d f rest, r = some f ∧ 1 ≤ d ∧ d < L.NCPU ∧
    (∀ e, 1 ≤ e → e < d → s.freelist ((c + e) % L.NCPU) = []) ∧
    s.freelist ((c + d) % L.NCPU) = f :: rest ∧
    s' = s.setList ((c + d) % L.NCPU) rest)

/-- What `kalloc` does, in full: either nothing (every list is empty), or the head `f`
of list `j` is unlinked, its counter incremented and its page filled with junk. -/
def KallocResult (L : Layout) (c : Nat) (s : KState) (r : Option Nat) (s' : KState) : Prop :=
  (r = none ∧ s' = s ∧ ∀ i, i < L.NCPU → s.freelist i = []) ∨
  (∃ j f rest, r = some f ∧ j < L.NCPU ∧ s.freelist j = f :: rest ∧
    s' = memset f 5 (inc_refcount f (s.setList j rest)) ∧
    ((j = c) ∨ (s.freelist c = [] ∧ ∃ d, 1 ≤ d ∧ d < L.NCPU ∧ j = (c + d) % L.NCPU ∧
      ∀ e, 1 ≤ e → e < d → s.freelist ((c + e) % L.NCPU) = [])))

/-- Number of occurrences of frame `f` over the free lists of all CPUs. -/
def occ (L : Layout) (s : KState) (f : Nat) : Nat :=
  ((List.range L.NCPU).map (fun c => (s.freelist c).count f)).sum

/-- A small machine: two CPUs, the kernel ends at 4096, four counters, memory up to
16384, so that the usable frames are 8192 and 12288. -/
def L0 : Layout := { NCPU := 2, kend := 4096, PHYSTOP := 16384, PGCOUNT := 4 }

/-- The state `kinit` leaves on the machine `L0`. -/
def s0 : KState := (kinit L0 boot).getD boot

/-- Modelled from the spec: the valid bit V of a page-table entry (riscv.h is not
under src; the bit positions are those of the RISC-V privileged architecture). -/
def PTE_V : Nat := 1

/-- Modelled from the spec: the read permission bit R. -/
def PTE_R : Nat := 2

/-- Modelled from the spec: the write permission bit W. -/
def PTE_W : Nat := 4

/-- Modelled from the spec: the execute permission bit X. -/
def PTE_X : Nat := 8

/-- Modelled from the spec: the user permission bit U. -/
def PTE_U : Nat := 16

/-- Modelled from the spec: the software copy-on-write marker C (riscv.h is not under
src); taken to be the first of the two bits the architecture reserves for software. -/
def PTE_C : Nat := 256

/-- Modelled from the spec: `PA2PTE` of riscv.h, `(pa >> 12) << 10` on `uint64`. -/
def PA2PTE (pa : Nat) : Nat := (((pa % 2 ^ 64) >>> 12) <<< 10) % 2 ^ 64

/-- Modelled from the spec: `PTE2PA` of riscv.h, `(pte >> 10) << 12` on `uint64`. -/
def PTE2PA (pte : Nat) : Nat := ((pte >>> 10) <<< 12) % 2 ^ 64

/-- Modelled from the spec: `PTE_FLAGS` of riscv.h, the low ten bits of an entry. -/
def PTE_FLAGS (pte : Nat) : Nat := pte &&& 0x3FF

/-- Modelled from the spec: `PX(level, va)` of riscv.h, the nine index bits of `va`
for the page-table level, as documented above `walk` in vm.c. -/
def PX (level va : Nat) : Nat := (va >>> (12 + 9 * level)) &&& 0x1FF

/-- Modelled from the spec: `MAXVA` of riscv.h, one bit less than the Sv39 maximum. -/
def MAXVA : Nat := 1 <<< (9 + 9 + 9 + 12 - 1)

/-- Modelled from the spec: `PLIC` of memlayout.h (not under src), the address below
which the per-process kernel page table shadows user pages. -/
def PLIC : Nat := 0x0c000000

/-- Modelled from the spec: `IS_COW` (not under src): the leaf is present and marked
C. -/
def IS_COW (pte : Nat) : Bool := pte &&& PTE_V ≠ 0 ∧ pte &&& PTE_C ≠ 0

/-- Modelled from the spec: `COW_FLAGS` (not under src): the flags of the entry with W
cleared and C set. -/
def COW_FLAGS (pte : Nat) : Nat := (PTE_FLAGS pte &&& (0x3FF - PTE_W)) ||| PTE_C

/-- Modelled from the spec: `COW_WFLAGS` (not under src): the flags of the entry with
full write permission, that is W set and C cleared. -/
def COW_WFLAGS (pte : Nat) : Nat := (PTE_FLAGS pte &&& (0x3FF - PTE_C)) ||| PTE_W

/-- One entry of `p->vma[]` (`struct virtual_memory_area` of proc.h, not under src):
the fields that vm.c reads and writes. -/
structure Vma where
  valid : Nat
  vm_start : Nat
  vm_end : Nat
  vm_prot : Nat
  vm_flag : Nat
  file : Nat
  offset : Nat

/-- The fields of `struct proc` (proc.h, not under src) that vm.c reads and writes.
The array `vma` is indexed like the C array; the value at an index past its end stands
for whatever follows the array in memory. -/
structure Proc where
  sz : Nat
  vma_bound : Nat
  kernel_pagetable : Nat
  pagetable : Nat
  ustack : Nat
  vma : Nat → Vma := fun _ => ⟨0, 0, 0, 0, 0, 0, 0⟩
  killed : Nat := 0

/-- An upper bound on the number of times a loop over pages can call `walk` without
a panic: the number of pages below `MAXVA`, plus one. -/
def PAGE_FUEL : Nat := MAXVA / PGSIZE + 1

/-- The conversion of a page count held in an `int` back to `uint64`. -/
def int_to_uint64 (x : Nat) : Nat :=
  if x % 2 ^ 32 < 2 ^ 31 then x % 2 ^ 32 else x % 2 ^ 32 + (2 ^ 64 - 2 ^ 32)

/-! ## vm.c -/

/-- One iteration of the loop of `walk` at `level`: the next-level page table, or
`none` when it is absent and cannot be (or is not to be) allocated. -/
def walkStep (L : Layout) (cpu : Nat) (alloc : Bool) (level pagetable va : Nat) (s : KState) :
    Option (Option Nat × KState) :=
  let pte := pagetable + 8 * PX level va
  if s.mem pte &&& PTE_V ≠ 0 then some (some (PTE2PA (s.mem pte)), s)
  else if alloc = false then some (none, s)
  else
    match kalloc L cpu s with
    | none => none
    | some (none, s1) => some (none, s1)
    | some (some pg, s1) =>
      some (some pg, (memset pg 0 s1).write pte (PA2PTE pg ||| PTE_V))

/-- The function `walk`: the address of the leaf entry for `va`, or null; the outer
`none` is `panic("walk")`. -/
def walk (L : Layout) (cpu : Nat) (pagetable va : Nat) (alloc : Bool) (s : KState) :
    Option (Option Nat × KState) :=
  if va ≥ MAXVA then none
  else
    match walkStep L cpu alloc 2 pagetable va s with
    | none => none
    | some (none, s1) => some (none, s1)
    | some (some pt1, s1) =>
      match walkStep L cpu alloc 1 pt1 va s1 with
      | none => none
      | some (none, s2) => some (none, s2)
      | some (some pt0, s2) => some (some (pt0 + 8 * PX 0 va), s2)

/-- The function `walkaddr`. -/
def walkaddr (L : Layout) (cpu : Nat) (pagetable va : Nat) (s : KState) : Nat :=
  if va ≥ MAXVA then 0
  else
    match walk L cpu pagetable va false s with
    | some (some pte, _) =>
      if s.mem pte &&& PTE_V = 0 then 0
      else if s.mem pte &&& PTE_U = 0 then 0
      else PTE2PA (s.mem pte)
    | _ => 0

/-- The loop of `mappages`; the result is the return value (0 or -1) and the state,
`none` is a panic (`walk` or `remap`) or the fuel running out. -/
def mappagesLoop (L : Layout) (cpu : Nat) (pagetable last perm : Nat) :
    Nat → Nat → Nat → KState → Option (Int × KState)
  | 0, _, _, _ => none
  | fuel + 1, a, pa, s =>
    match walk L cpu pagetable a true s with
    | none => none
    | some (none, s1) => some (-1, s1)
    | some (some pte, s1) =>
      if s1.mem pte &&& PTE_V ≠ 0 then none
      else
        let s2 := s1.write pte (PA2PTE pa ||| perm ||| PTE_V)
        if a = last then some (0, s2)
        else mappagesLoop L cpu pagetable last perm fuel (a + PGSIZE) ((pa + PGSIZE) % 2 ^ 64) s2

/-- The function `mappages`. -/
def mappages (L : Layout) (cpu : Nat) (pagetable va size pa perm : Nat) (s : KState) :
    Option (Int × KState) :=
  mappagesLoop L cpu pagetable (PGROUNDDOWN ((va + size + (2 ^ 64 - 1)) % 2 ^ 64)) perm
    PAGE_FUEL (PGROUNDDOWN va) pa s

/-- The loop of `uvmunmap` up to the address `stop`; `none` is a panic or the fuel
running out. -/
def uvmunmapLoop (L : Layout) (cpu : Nat) (pagetable stop : Nat) (do_free : Bool) :
    Nat → Nat → KState → Option KState
  | 0, _, _ => none
  | fuel + 1, a, s =>
    if a < stop then
      match walk L cpu pagetable a false s with
      | none => none
      | some (none, s1) => uvmunmapLoop L cpu pagetable stop do_free fuel (a + PGSIZE) s1
      | some (some pte, s1) =>
        if s1.mem pte &&& PTE_V = 0 then
          uvmunmapLoop L cpu pagetable stop do_free fuel (a + PGSIZE) s1
        else if PTE_FLAGS (s1.mem pte) = PTE_V then none
        else
          match (if do_free then kfree L (PTE2PA (s1.mem pte)) s1 else some s1) with
          | none => none
          | some s2 =>
            uvmunmapLoop L cpu pagetable stop do_free fuel (a + PGSIZE) (s2.write pte 0)
    else some s

/-- The function `uvmunmap`. -/
def uvmunmap (L : Layout) (cpu : Nat) (pagetable va npages : Nat) (do_free : Bool)
    (s : KState) : Option KState :=
  if va % PGSIZE ≠ 0 then none
  else uvmunmapLoop L cpu pagetable ((va + npages * PGSIZE) % 2 ^ 64) do_free PAGE_FUEL va s

/-- The function `uvmdealloc`: the new size and the state. -/
def uvmdealloc (L : Layout) (cpu : Nat) (pagetable oldsz newsz : Nat) (s : KState) :
    Option (Nat × KState) :=
  if newsz ≥ oldsz then some (oldsz, s)
  else if PGROUNDUP newsz < PGROUNDUP oldsz then
    match uvmunmap L cpu pagetable (PGROUNDUP newsz)
        (int_to_uint64 ((PGROUNDUP oldsz - PGROUNDUP newsz) / PGSIZE)) true s with
    | none => none
    | some s1 => some (newsz, s1)
  else some (newsz, s)

/-- The growth loop of `proc_usermapping`. -/
def usermapLoop (L : Layout) (cpu : Nat) (p : Proc) (desva : Nat) :
    Nat → Nat → KState → Option KState
  | 0, _, _ => none
  | fuel + 1, va, s =>
    if va < desva then
      match walk L cpu p.pagetable va false s with
      | none => none
      | some (none, s1) => usermapLoop L cpu p desva fuel (va + PGSIZE) s1
      | some (some pte, s1) =>
        if PTE_FLAGS (s1.mem pte) &&& PTE_V = 0 then
          usermapLoop L cpu p desva fuel (va + PGSIZE) s1
        else
          match mappages L cpu p.kernel_pagetable va PGSIZE (PTE2PA (s1.mem pte))
              (PTE_FLAGS (s1.mem pte) &&& (2 ^ 64 - 1 - PTE_U)) s1 with
          | some (0, s2) => usermapLoop L cpu p desva fuel (va + PGSIZE) s2
          | _ => none
    else some s

/-- The function `proc_usermapping`. -/
def proc_usermapping (L : Layout) (cpu : Nat) (p : Proc) (oldsz newsz : Nat) (s : KState) :
    Option KState :=
  if newsz > PGROUNDUP p.sz then none
  else if newsz ≥ p.vma_bound ∨ oldsz ≥ p.vma_bound then some s
  else
    let newsz1 := if newsz > PLIC then PLIC else newsz
    let oldsz1 := if oldsz > PLIC then PLIC else oldsz
    if oldsz1 > newsz1 then
      uvmunmap L cpu p.kernel_pagetable (PGROUNDUP newsz1)
        ((PGROUNDUP oldsz1 - PGROUNDUP newsz1) / PGSIZE) false s
    else if oldsz1 < newsz1 then
      usermapLoop L cpu p (PGROUNDUP newsz1) PAGE_FUEL (PGROUNDUP oldsz1) s
    else some s

/-- The loop of `uvmalloc`, `oldsz` being already rounded up; the result is the
return value and the state. -/
def uvmallocLoop (L : Layout) (cpu : Nat) (p : Proc) (pagetable oldsz newsz : Nat) :
    Nat → Nat → KState → Option (Nat × KState)
  | 0, _, _ => none
  | fuel + 1, a, s =>
    if a < newsz then
      match kalloc L cpu s with
      | none => none
      | some (none, s1) =>
        match uvmdealloc L cpu pagetable a oldsz s1 with
        | none => none
        | some (_, s2) => some (0, s2)
      | some (some mem, s1) =>
        match walk L cpu pagetable a false s1 with
        | none => none
        | some (pte, s2) =>
          if pte.isSome ∧ IS_COW (s2.mem (pte.getD 0)) then
            let flags := COW_WFLAGS (s2.mem (pte.getD 0))
            let s3 := memmovePage mem (PTE2PA (s2.mem (pte.getD 0))) s2
            match uvmunmap L cpu pagetable a 1 true s3 with
            | none => none
            | some s4 =>
              match proc_usermapping L cpu p (a + PGSIZE) a s4 with
              | none => none
              | some s5 =>
                match mappages L cpu pagetable a PGSIZE mem flags s5 with
                | none => none
                | some (r, s6) =>
                  if r ≠ 0 then
                    match kfree L mem s6 with
                    | none => none
                    | some s7 => some (0, s7)
                  else uvmallocLoop L cpu p pagetable oldsz newsz fuel (a + PGSIZE) s6
          else
            let s3 := memset mem 0 s2
            match mappages L cpu pagetable a PGSIZE mem (PTE_W ||| PTE_X ||| PTE_R ||| PTE_U) s3 with
            | none => none
            | some (r, s4) =>
              if r ≠ 0 then
                match kfree L mem s4 with
                | none => none
                | some s5 =>
                  match uvmdealloc L cpu pagetable a oldsz s5 with
                  | none => none
                  | some (_, s6) => some (0, s6)
              else uvmallocLoop L cpu p pagetable oldsz newsz fuel (a + PGSIZE) s4
    else some (newsz, s)

/-- The function `uvmalloc`, `p` being the process `myproc()` returns. -/
def uvmalloc (L : Layout) (cpu : Nat) (p : Proc) (pagetable oldsz newsz : Nat) (s : KState) :
    Option (Nat × KState) :=
  if newsz < oldsz then some (oldsz, s)
  else uvmallocLoop L cpu p pagetable (PGROUNDUP oldsz) newsz PAGE_FUEL (PGROUNDUP oldsz) s

/-- The label `err` of `copy`: the child is unmapped below `i` and -1 is returned. -/
def copyErr (L : Layout) (cpu : Nat) (new i : Nat) (s : KState) : Option (Int × KState) :=
  match uvmunmap L cpu new 0 (i / PGSIZE) true s with
  | none => none
  | some s1 => some (-1, s1)

/-- The loop of `copy`. -/
def copyLoop (L : Layout) (cpu : Nat) (p : Proc) (old new copy_end : Nat) :
    Nat → Nat → KState → Option (Int × KState)
  | 0, _, _ => none
  | fuel + 1, i, s =>
    if i < copy_end then
      match walk L cpu old i false s with
      | none => none
      | some (none, s1) => copyLoop L cpu p old new copy_end fuel (i + PGSIZE) s1
      | some (some pte, s1) =>
        if s1.mem pte &&& PTE_V = 0 then
          copyLoop L cpu p old new copy_end fuel (i + PGSIZE) s1
        else
          let pa := PTE2PA (s1.mem pte)
          if i = p.ustack then
            let flags := PTE_FLAGS (s1.mem pte)
            match kalloc L cpu s1 with
            | none => none
            | some (none, s2) => copyErr L cpu new i s2
            | some (some mem, s2) =>
              match mappages L cpu new i PGSIZE mem flags (memmovePage mem pa s2) with
              | none => none
              | some (r, s3) =>
                if r ≠ 0 then
                  match kfree L mem s3 with
                  | none => none
                  | some s4 => copyErr L cpu new i s4
                else copyLoop L cpu p old new copy_end fuel (i + PGSIZE) s3
          else
            let s2 := s1.write pte (PA2PTE pa ||| COW_FLAGS (s1.mem pte))
            match mappages L cpu new i PGSIZE pa (COW_FLAGS (s2.mem pte)) s2 with
            | none => none
            | some (r, s3) =>
              if r ≠ 0 then copyErr L cpu new i s3
              else copyLoop L cpu p old new copy_end fuel (i + PGSIZE) (inc_refcount pa s3)
    else some (0, s)

/-- The function `copy`, `p` being the process `myproc()` returns. -/
def copy (L : Layout) (cpu : Nat) (p : Proc) (old new begin copy_end : Nat) (s : KState) :
    Option (Int × KState) :=
  copyLoop L cpu p old new copy_end PAGE_FUEL begin s

/-- The function `uvmcopy`. -/
def uvmcopy (L : Layout) (cpu : Nat) (p : Proc) (old new sz : Nat) (s : KState) :
    Option (Int × KState) :=
  copy L cpu p old new 0 sz s

/-- The function `uvmcreate`. -/
def uvmcreate (L : Layout) (cpu : Nat) (s : KState) : Option (Option Nat × KState) :=
  match kalloc L cpu s with
  | none => none
  | some (none, s1) => some (none, s1)
  | some (some pagetable, s1) => some (some pagetable, memset pagetable 0 s1)

/-! ## Reading a page table out of memory -/

/-- The level-1 page-table page that the root `pt` designates for `va`, if the root
entry is valid. -/
def l1page (m : Nat → Nat) (pt va : Nat) : Option Nat :=
  if m (pt + 8 * PX 2 va) &&& PTE_V ≠ 0 then some (PTE2PA (m (pt + 8 * PX 2 va))) else none

/-- The level-0 page-table page for `va`, if both upper entries are valid. -/
def l0page (m : Nat → Nat) (pt va : Nat) : Option Nat :=
  match l1page m pt va with
  | none => none
  | some p1 =>
    if m (p1 + 8 * PX 1 va) &&& PTE_V ≠ 0 then some (PTE2PA (m (p1 + 8 * PX 1 va))) else none

/-- The address of the leaf entry for `va`: what `walk` returns without allocating. -/
def slot (m : Nat → Nat) (pt va : Nat) : Option Nat :=
  match l0page m pt va with
  | none => none
  | some p0 => some (p0 + 8 * PX 0 va)

/-- The leaf entry for `va`, read as 0 when an upper level is missing. -/
def pteval (m : Nat → Nat) (pt va : Nat) : Nat :=
  match slot m pt va with
  | none => 0
  | some p => m p

/-- The pages that make up the page table rooted at `pt`. -/
def IsPtPage (m : Nat → Nat) (pt q : Nat) : Prop :=
  q = pt ∨ (∃ va, l1page m pt va = some q) ∨ (∃ va, l0page m pt va = some q)

/-- The page table rooted at `pt` is a tree: its pages are pairwise distinct. -/
structure PT (m : Nat → Nat) (pt : Nat) : Prop where
  root_aligned : pt % PGSIZE = 0
  l1_ne_root : ∀ va q, l1page m pt va = some q → q ≠ pt
  l0_ne_root : ∀ va q, l0page m pt va = some q → q ≠ pt
  l1_inj : ∀ va va' q, l1page m pt va = some q → l1page m pt va' = some q →
    PX 2 va = PX 2 va'
  l0_ne_l1 : ∀ va va' q, l0page m pt va = some q → l1page m pt va' ≠ some q
  l0_inj : ∀ va va' q, l0page m pt va = some q → l0page m pt va' = some q →
    PX 2 va = PX 2 va' ∧ PX 1 va = PX 1 va'

/-- Frame `f` is on the free list of some CPU. -/
def IsFree (L : Layout) (s : KState) (f : Nat) : Prop :=
  ∃ c, c < L.NCPU ∧ f ∈ s.freelist c

/-- The free frames are page-aligned 64-bit addresses, none is listed twice. -/
structure FreeOk (L : Layout) (s : KState) : Prop where
  aligned : ∀ f, IsFree L s f → f % PGSIZE = 0
  lt : ∀ f, IsFree L s f → f < 2 ^ 64
  once : ∀ f, occ L s f ≤ 1

/-- The page table rooted at `pt` is a tree none of whose pages is free. -/
structure Sep (L : Layout) (s : KState) (pt : Nat) : Prop where
  tree : PT s.mem pt
  free : FreeOk L s
  apart : ∀ f, IsFree L s f → ¬ IsPtPage s.mem pt f

/-- The frame rule of the page-table code: a page-aligned frame that is neither free
nor part of the table keeps its status, its reference count and its contents. -/
def Untouched (L : Layout) (pt : Nat) (s s' : KState) : Prop :=
  ∀ g, g % PGSIZE = 0 → ¬ IsFree L s g → ¬ IsPtPage s.mem pt g →
    ¬ IsFree L s' g ∧ ¬ IsPtPage s'.mem pt g ∧ refcount g s' = refcount g s ∧
    ∀ a, g ≤ a → a < g + PGSIZE → s'.mem a = s.mem a

/-- The state `s'` comes from `s` by growing the page table rooted at `pt`: frames
are taken from the free lists and become pages of the table, and memory changes
inside pages of the table only. -/
structure PtGrow (L : Layout) (pt : Nat) (s s' : KState) : Prop where
  sep : Sep L s' pt
  untouched : Untouched L pt s s'
  suffix : ∀ c, s'.freelist c <:+ s.freelist c
  pages_mono : ∀ q, IsPtPage s.mem pt q → IsPtPage s'.mem pt q
  pages_new : ∀ q, IsPtPage s'.mem pt q →
    IsPtPage s.mem pt q ∨ (IsFree L s q ∧ ¬ IsFree L s' q)
  alloc_is_page : ∀ f, IsFree L s f → ¬ IsFree L s' f → IsPtPage s'.mem pt f
  ref_free : ∀ f, IsFree L s' f → refcount f s' = refcount f s
  ref_new : ∀ f, IsFree L s f → ¬ IsFree L s' f → refcount f s' = (refcount f s + 1) % 256
  ref_old : ∀ q, IsPtPage s.mem pt q → refcount q s' = refcount q s

/-- The effect of a successful `kalloc` on a state with sound free lists. -/
structure Popped (L : Layout) (s : KState) (f : Nat) (s1 : KState) : Prop where
  was_free : IsFree L s f
  not_free : ¬ IsFree L s1 f
  free_iff : ∀ g, IsFree L s1 g ↔ IsFree L s g ∧ g ≠ f
  ok : FreeOk L s1
  suffix : ∀ c, s1.freelist c <:+ s.freelist c
  mem_eq : ∀ a, s1.mem a = if f ≤ a ∧ a < f + PGSIZE then fillWord 5 else s.mem a
  ref_eq : ∀ i, s1.ref i = if i = f / PGSIZE then (s.ref i + 1) % 256 else s.ref i

/-- A machine with one CPU: the kernel ends at 4096 and memory at 65536. -/
def L1 : Layout := { NCPU := 1, kend := 4096, PHYSTOP := 65536, PGCOUNT := 16 }

/-- A state of `L1` with zeroed memory, so that the page at 61440 is an empty root page
table, with three free frames; the root and the frame 20480 are allocated. -/
def sEmpty : KState :=
  { freelist := fun c => if c = 0 then [8192, 12288, 16384] else [],
    ref := fun i => if i = 15 ∨ i = 5 then 1 else 0,
    mem := fun _ => 0 }

/-- The state `sEmpty` after `mappages` has mapped page 0 to the frame 20480, readable
and writable by the user. -/
def sMapped : KState :=
  ((mappages L1 0 61440 0 PGSIZE 20480 (PTE_R ||| PTE_W ||| PTE_U) sEmpty).getD (0, sEmpty)).2

/-- A state of `L1` with zeroed memory and a single free frame. -/
def sOneFree : KState :=
  { freelist := fun c => if c = 0 then [8192] else [],
    ref := fun i => if i = 15 then 1 else 0,
    mem := fun _ => 0 }

/-- The state `sOneFree` after `mappages` has failed to map page 0. -/
def sFailed : KState :=
  ((mappages L1 0 61440 0 PGSIZE 20480 (PTE_R ||| PTE_W ||| PTE_U) sOneFree).getD (0, sOneFree)).2

/-- A process whose user page table is the root at 61440 and whose kernel page table
is the zeroed page at 57344; its size is one page. -/
def pEx : Proc :=
  { sz := PGSIZE, vma_bound := MAXVA, kernel_pagetable := 57344, pagetable := 61440,
    ustack := 8192 }

/-- The state `sEmpty` after `uvmalloc` has grown the address space from 0 to one
page. -/
def sGrown : KState :=
  ((uvmalloc L1 0 pEx 61440 0 PGSIZE sEmpty).getD (0, sEmpty)).2

/-- A state in which page 0 is a copy-on-write page: `sEmpty` after `mappages` has
mapped page 0 to the frame 20480 with the flags `R|U|C`, the frame being shared with
another address space (count 2). -/
def sCow : KState :=
  inc_refcount 20480
    ((mappages L1 0 61440 0 PGSIZE 20480 (PTE_R ||| PTE_U ||| PTE_C) sEmpty).getD (0, sEmpty)).2

/-- The state `sCow` after `uvmalloc` has replaced page 0 by a private copy. -/
def sCowCopied : KState :=
  ((uvmalloc L1 0 pEx 61440 0 PGSIZE sCow).getD (0, sCow)).2

/-- The state `sCowCopied` after `uvmdealloc` back to size 0. -/
def sCowUndone : KState :=
  ((uvmdealloc L1 0 61440 PGSIZE 0 sCowCopied).getD (0, sCowCopied)).2

/-- A state of `L1` with zeroed memory and four free frames; the roots at 61440 and
57344 and the frame 20480 are allocated. -/
def sFork : KState :=
  { freelist := fun c => if c = 0 then [8192, 12288, 16384, 24576] else [],
    ref := fun i => if i = 15 ∨ i = 14 ∨ i = 5 then 1 else 0,
    mem := fun _ => 0 }

/-- The state `sFork` after `mappages` has mapped page 0 of the table at 61440 to the
frame 20480, readable and writable by the user. -/
def sParent : KState :=
  ((mappages L1 0 61440 0 PGSIZE 20480 (PTE_R ||| PTE_W ||| PTE_U) sFork).getD (0, sFork)).2

/-- The state `sParent` after `uvmcopy` from the table at 61440 into the empty table at
57344. -/
def sForked : KState :=
  ((uvmcopy L1 0 pEx 61440 57344 PGSIZE sParent).getD (0, sParent)).2

/-- The state `sEmpty` after `uvmalloc` has failed to grow the address space from 0 to
two pages: the second call of `kalloc` finds no frame. -/
def sRolled : KState :=
  ((uvmalloc L1 0 pEx 61440 0 (2 * PGSIZE) sEmpty).getD (0, sEmpty)).2

/-- The leaf entry for `va` is valid. -/
def Mapped (m : Nat → Nat) (pt va : Nat) : Prop := pteval m pt va &&& PTE_V ≠ 0

/-- The frame the leaf entry for `va` points to. -/
def frameOf (m : Nat → Nat) (pt va : Nat) : Nat := PTE2PA (pteval m pt va)

/-- The page-aligned addresses of the range `[a, stop)`. -/
def InRange (a stop va : Nat) : Prop := a ≤ va ∧ va < stop ∧ va % PGSIZE = 0

/-- Frame `g` is mapped by a page of the range that `uvmunmap` frees. -/
def WasFreed (m : Nat → Nat) (pt a stop : Nat) (do_free : Bool) (g : Nat) : Prop :=
  do_free = true ∧ ∃ va, InRange a stop va ∧ Mapped m pt va ∧ frameOf m pt va = g

/-- What `uvmunmap` with `do_free` needs of the pages of the range: their frames are
allocated (not free, and free frames have count 0), are not pages of the table, and
no frame is mapped twice in the range. -/
structure UnmapPre (L : Layout) (pt a stop : Nat) (do_free : Bool) (s : KState) : Prop where
  free_zero : do_free = true → ∀ f, IsFree L s f → refcount f s = 0
  owned : do_free = true → ∀ va, InRange a stop va → Mapped s.mem pt va →
    ¬ IsFree L s (frameOf s.mem pt va) ∧ ¬ IsPtPage s.mem pt (frameOf s.mem pt va)
  distinct : do_free = true → ∀ va va', InRange a stop va → InRange a stop va' →
    Mapped s.mem pt va → Mapped s.mem pt va' →
    frameOf s.mem pt va = frameOf s.mem pt va' → va = va'

/-- The state `s'` comes from `s` by unmapping the pages of `[a, stop)`. -/
structure Unmapped (L : Layout) (pt a stop : Nat) (do_free : Bool) (s s' : KState) : Prop where
  sep : Sep L s' pt
  below : ∀ va, InRange a stop va → va < MAXVA
  l1 : ∀ va, l1page s'.mem pt va = l1page s.mem pt va
  l0 : ∀ va, l0page s'.mem pt va = l0page s.mem pt va
  cleared : ∀ va, InRange a stop va →
    pteval s'.mem pt va = if pteval s.mem pt va &&& PTE_V ≠ 0 then 0 else pteval s.mem pt va
  outside : ∀ va, va < MAXVA → ¬ (a ≤ va ∧ va < stop) →
    pteval s'.mem pt va = pteval s.mem pt va
  nofree : do_free = false → s'.ref = s.ref ∧ s'.freelist = s.freelist
  freed : ∀ g, WasFreed s.mem pt a stop do_free g →
    refcount g s' = (refcount g s + 255) % 256 ∧ (IsFree L s' g ↔ refcount g s' = 0)
  other : ∀ g, g % PGSIZE = 0 → ¬ WasFreed s.mem pt a stop do_free g →
    refcount g s' = refcount g s ∧ (IsFree L s' g ↔ IsFree L s g)
  mem_other : ∀ g, g % PGSIZE = 0 → ¬ WasFreed s.mem pt a stop do_free g →
    ¬ IsPtPage s.mem pt g → ∀ x, g ≤ x → x < g + PGSIZE → s'.mem x = s.mem x
  free_zero : do_free = true → ∀ f, IsFree L s' f → refcount f s' = 0

/-- What keeps `uvmunmap` from a panic on the pages of `[a, stop)`: a valid entry is a
leaf, and when frames are freed its frame is one `kfree` accepts. -/
def UnmapSafe (L : Layout) (pt a stop : Nat) (do_free : Bool) (s : KState) : Prop :=
  ∀ va, InRange a stop va → Mapped s.mem pt va →
    PTE_FLAGS (pteval s.mem pt va) ≠ PTE_V ∧
    (do_free = true → L.kend ≤ frameOf s.mem pt va ∧ frameOf s.mem pt va < L.PHYSTOP)

/-- The permission bits `uvmalloc` gives a zero-filled page. -/
def ZERO_PERM : Nat := PTE_W ||| PTE_X ||| PTE_R ||| PTE_U

/-- Invariant of the loop of `uvmalloc`, started in `s0` on a range none of whose pages
is mapped, when it is about to handle page `a`: each page of `[lo, a)` is mapped,
readable, writable and executable by the user, to a frame of its own that was free in
`s0`, now has count 1 and holds zeroes; no other leaf has changed; every frame that was
free in `s0` is still free, or a page of the table, or one of these frames. -/
structure GrownZ (L : Layout) (pt lo a : Nat) (s0 s : KState) : Prop where
  sep : Sep L s pt
  free_zero : ∀ f, IsFree L s f → refcount f s = 0
  free_sub : ∀ f, IsFree L s f → IsFree L s0 f
  outside : ∀ va, va < MAXVA → ¬ (lo ≤ va ∧ va < a) →
    pteval s.mem pt va = pteval s0.mem pt va
  below : ∀ va, InRange lo a va → va < MAXVA
  page : ∀ va, InRange lo a va →
    pteval s.mem pt va = PA2PTE (frameOf s.mem pt va) ||| ZERO_PERM ||| PTE_V ∧
    IsFree L s0 (frameOf s.mem pt va) ∧ ¬ IsFree L s (frameOf s.mem pt va) ∧
    ¬ IsPtPage s.mem pt (frameOf s.mem pt va) ∧ refcount (frameOf s.mem pt va) s = 1 ∧
    ∀ x, frameOf s.mem pt va ≤ x → x < frameOf s.mem pt va + PGSIZE → s.mem x = 0
  distinct : ∀ va va', InRange lo a va → InRange lo a va' →
    frameOf s.mem pt va = frameOf s.mem pt va' → va = va'
  frames : ∀ f, IsFree L s0 f →
    IsFree L s f ∨ IsPtPage s.mem pt f ∨ ∃ va, InRange lo a va ∧ frameOf s.mem pt va = f

/-- Every free frame is one that `kfree` accepts. -/
def FreeValid (L : Layout) (s : KState) : Prop :=
  ∀ f, IsFree L s f → L.kend ≤ f ∧ f < L.PHYSTOP

/-- The outcome of a failed `uvmalloc` on a range none of whose pages was mapped: no
page of the range is mapped, no leaf outside the range has changed, and every frame
that was free before is free again with count 0, unless it has become a page of the
table. -/
structure RolledBack (L : Layout) (pt lo hi : Nat) (s0 s' : KState) : Prop where
  sep : Sep L s' pt
  range : ∀ va, InRange lo hi va → ¬ Mapped s'.mem pt va
  outside : ∀ va, va < MAXVA → ¬ (lo ≤ va ∧ va < hi) →
    pteval s'.mem pt va = pteval s0.mem pt va
  frames : ∀ f, IsFree L s0 f →
    (IsFree L s' f ∧ refcount f s' = 0) ∨ IsPtPage s'.mem pt f

/-! ## The loop invariant of `copy` -/

/-- What `copy` needs of the pages of `[0, sz)` that it turns into copy-on-write pages
(the valid ones other than the user stack page `u`): their frames are allocated, no
frame is mapped by two of them, and no reference count is at its maximum. -/
structure CopyPre (L : Layout) (u old sz : Nat) (s : KState) : Prop where
  alloc : ∀ va, InRange 0 sz va → Mapped s.mem old va → va ≠ u →
    ¬ IsFree L s (frameOf s.mem old va)
  distinct : ∀ va va', InRange 0 sz va → InRange 0 sz va' → Mapped s.mem old va →
    Mapped s.mem old va' → va ≠ u → va' ≠ u →
    frameOf s.mem old va = frameOf s.mem old va' → va = va'
  room : ∀ va, InRange 0 sz va → Mapped s.mem old va → va ≠ u →
    refcount (frameOf s.mem old va) s < 255

/-- The state `s` that `copy` has reached from `s0` when the pages below `i` are done:
both tables are well formed and share no page; a page that was valid in `old` and is
not the user stack page `u` has the same leaf in both tables, the old frame with the
flags `COW_FLAGS`, and its frame's count is one higher; every other leaf of `old` is
unchanged, and so is every leaf of `new` for a page that is not done or was not valid
in `old`. -/
structure Copied (L : Layout) (u old new i : Nat) (s0 s : KState) : Prop where
  sep_old : Sep L s old
  sep_new : Sep L s new
  apart : ∀ q, IsPtPage s.mem old q → ¬ IsPtPage s.mem new q
  free_sub : ∀ f, IsFree L s f → IsFree L s0 f
  old_done : ∀ va, InRange 0 i va → Mapped s0.mem old va → va ≠ u →
    pteval s.mem old va = PA2PTE (frameOf s0.mem old va) ||| COW_FLAGS (pteval s0.mem old va)
  old_rest : ∀ va, va % PGSIZE = 0 → va < MAXVA →
    (i ≤ va ∨ va = u ∨ ¬ Mapped s0.mem old va) →
    pteval s.mem old va = pteval s0.mem old va
  new_done : ∀ va, InRange 0 i va → Mapped s0.mem old va → va ≠ u →
    pteval s.mem new va = pteval s.mem old va
  new_rest : ∀ va, va % PGSIZE = 0 → va < MAXVA → (i ≤ va ∨ ¬ Mapped s0.mem old va) →
    pteval s.mem new va = pteval s0.mem new va
  ref_done : ∀ va, InRange 0 i va → Mapped s0.mem old va → va ≠ u →
    refcount (frameOf s0.mem old va) s = refcount (frameOf s0.mem old va) s0 + 1
  ref_rest : ∀ f, f % PGSIZE = 0 → ¬ IsFree L s0 f →
    (∀ va, InRange 0 i va → Mapped s0.mem old va → va ≠ u → frameOf s0.mem old va ≠ f) →
    refcount f s = refcount f s0

/-! ## The loop invariant of `uvmalloc` -/

/-- What `uvmalloc` needs of the state it starts in: the user table `pt` and the
kernel table `kpt` are well formed and share no page, free frames have count 0, and
the pages of `[lo, hi)` that are mapped already (the copy-on-write pages) have frames
that are allocated, are no page of either table, and are mapped by one page each. -/
structure UvmPre (L : Layout) (pt kpt lo hi : Nat) (s : KState) : Prop where
  sep : Sep L s pt
  sepk : Sep L s kpt
  apart : ∀ q, IsPtPage s.mem kpt q → ¬ IsPtPage s.mem pt q
  free_zero : ∀ f, IsFree L s f → refcount f s = 0
  owned : ∀ va, InRange lo hi va → va < MAXVA → Mapped s.mem pt va →
    ¬ IsFree L s (frameOf s.mem pt va) ∧ ¬ IsPtPage s.mem pt (frameOf s.mem pt va) ∧
    ¬ IsPtPage s.mem kpt (frameOf s.mem pt va)
  distinct : ∀ va va', InRange lo hi va → InRange lo hi va' → va < MAXVA → va' < MAXVA →
    Mapped s.mem pt va → Mapped s.mem pt va' →
    frameOf s.mem pt va = frameOf s.mem pt va' → va = va'

/-- The state `s` that `uvmalloc` has reached from `s0` when the pages of `[lo, a)`
are done: each of them is mapped to a frame of its own that is allocated with count
1; no leaf outside `[lo, a)` has changed; every frame that was free at the start is
free, is a page of the table, or is the frame of a page of `[lo, a)`; and the frames
of the pages still to come are as `UvmPre` wants them. -/
structure Grown (L : Layout) (pt kpt lo a hi : Nat) (s0 s : KState) : Prop where
  sep : Sep L s pt
  sepk : Sep L s kpt
  apart : ∀ q, IsPtPage s.mem kpt q → ¬ IsPtPage s.mem pt q
  free_zero : ∀ f, IsFree L s f → refcount f s = 0
  outside : ∀ va, va < MAXVA → ¬ (lo ≤ va ∧ va < a) →
    pteval s.mem pt va = pteval s0.mem pt va
  below : ∀ va, InRange lo a va → va < MAXVA
  page : ∀ va, InRange lo a va →
    Mapped s.mem pt va ∧ ¬ IsFree L s (frameOf s.mem pt va) ∧
    ¬ IsPtPage s.mem pt (frameOf s.mem pt va) ∧ refcount (frameOf s.mem pt va) s = 1
  distinct : ∀ va va', InRange lo a va → InRange lo a va' →
    frameOf s.mem pt va = frameOf s.mem pt va' → va = va'
  frames : ∀ f, IsFree L s0 f →
    IsFree L s f ∨ IsPtPage s.mem pt f ∨ ∃ va, InRange lo a va ∧ frameOf s.mem pt va = f
  rest : ∀ va, InRange a hi va → va < MAXVA → Mapped s0.mem pt va →
    ¬ IsFree L s (frameOf s0.mem pt va) ∧ ¬ IsPtPage s.mem pt (frameOf s0.mem pt va) ∧
    ¬ IsPtPage s.mem kpt (frameOf s0.mem pt va) ∧
    ∀ va', InRange lo a va' → frameOf s.mem pt va' ≠ frameOf s0.mem pt va

/-! ## The child table during `copy` -/

/-- What `copy` needs of the child table `new`: free frames have count 0, no page of
`[0, sz)` is mapped in `new`, and the frames of the pages of `old` that become
copy-on-write pages are no pages of `new`. -/
structure ChildPre (L : Layout) (u old new sz : Nat) (s : KState) : Prop where
  free_zero : ∀ f, IsFree L s f → refcount f s = 0
  empty : ∀ va, InRange 0 sz va → ¬ Mapped s.mem new va
  notpage : ∀ va, InRange 0 sz va → Mapped s.mem old va → va ≠ u →
    ¬ IsPtPage s.mem new (frameOf s.mem old va)

/-- The effect on the child table `new` of one iteration of `copy`, from `s` to `s3`:
the table has grown by frames that were free and now have count 1, the frames `T`
apart every frame that was free is free or a page of `new`, and a frame that was
neither free nor a page of a table keeps its count and its contents. -/
structure ChildStep (L : Layout) (old new : Nat) (T : Nat → Prop) (s s3 : KState) : Prop where
  sep : Sep L s3 new
  sep_old : Sep L s3 old
  apart : ∀ q, IsPtPage s3.mem old q → ¬ IsPtPage s3.mem new q
  free_sub : ∀ f, IsFree L s3 f → IsFree L s f
  free_zero : ∀ f, IsFree L s3 f → refcount f s3 = 0
  pages : ∀ q, IsPtPage s3.mem new q →
    IsPtPage s.mem new q ∨ (IsFree L s q ∧ refcount q s3 = 1)
  pages_mono : ∀ q, IsPtPage s.mem new q → IsPtPage s3.mem new q
  old_pages : ∀ q, IsPtPage s3.mem old q ↔ IsPtPage s.mem old q
  frames : ∀ f, IsFree L s f → IsFree L s3 f ∨ IsPtPage s3.mem new f ∨ T f
  ref : ∀ g, g % PGSIZE = 0 → ¬ IsFree L s g → refcount g s3 = refcount g s
  keep : ∀ g, g % PGSIZE = 0 → ¬ IsFree L s g → ¬ IsPtPage s.mem new g →
    ¬ IsPtPage s.mem old g → ∀ x, g ≤ x → x < g + PGSIZE → s3.mem x = s.mem x

/-- The child table `new` in the state `s` that `copy` has reached from `s0` when the
pages below `i` are done: a page that was valid in `old` and is not the user stack page
`u` is mapped to the frame of `old` with the flags `COW_FLAGS`, and the count of that
frame is one higher; the user stack page is mapped to a frame of its own that was free
and has count 1; no other leaf of `new` has changed; every frame that was free is free,
a page of `new`, or the copy of the user stack; the pages that `new` has gained were
free and have count 1; a frame that was neither free nor a page of a table keeps its
contents. -/
structure Child (L : Layout) (u old new i : Nat) (s0 s : KState) : Prop where
  sep : Sep L s new
  free_sub : ∀ f, IsFree L s f → IsFree L s0 f
  free_zero : ∀ f, IsFree L s f → refcount f s = 0
  pages : ∀ q, IsPtPage s.mem new q →
    IsPtPage s0.mem new q ∨ (IsFree L s0 q ∧ refcount q s = 1)
  pages_mono : ∀ q, IsPtPage s0.mem new q → IsPtPage s.mem new q
  old_pages : ∀ q, IsPtPage s.mem old q ↔ IsPtPage s0.mem old q
  cow : ∀ va, InRange 0 i va → Mapped s0.mem old va → va ≠ u →
    pteval s.mem new va = PA2PTE (frameOf s0.mem old va) ||| COW_FLAGS (pteval s0.mem old va)
  stack : InRange 0 i u → Mapped s0.mem old u →
    Mapped s.mem new u ∧ IsFree L s0 (frameOf s.mem new u) ∧
    ¬ IsFree L s (frameOf s.mem new u) ∧ refcount (frameOf s.mem new u) s = 1 ∧
    ¬ IsPtPage s.mem new (frameOf s.mem new u)
  rest : ∀ va, va % PGSIZE = 0 → va < MAXVA → (i ≤ va ∨ ¬ Mapped s0.mem old va) →
    pteval s.mem new va = pteval s0.mem new va
  ref_cow : ∀ va, InRange 0 i va → Mapped s0.mem old va → va ≠ u →
    refcount (frameOf s0.mem old va) s = refcount (frameOf s0.mem old va) s0 + 1
  ref_rest : ∀ f, f % PGSIZE = 0 → ¬ IsFree L s0 f →
    (∀ va, InRange 0 i va → Mapped s0.mem old va → va ≠ u → frameOf s0.mem old va ≠ f) →
    refcount f s = refcount f s0
  frames : ∀ f, IsFree L s0 f → IsFree L s f ∨ IsPtPage s.mem new f ∨
    (InRange 0 i u ∧ Mapped s0.mem old u ∧ f = frameOf s.mem new u)
  keep : ∀ g, g % PGSIZE = 0 → ¬ IsFree L s0 g → ¬ IsPtPage s0.mem new g →
    ¬ IsPtPage s0.mem old g → ∀ x, g ≤ x → x < g + PGSIZE → s.mem x = s0.mem x

/-! ## vm.c: memory-mapped regions -/

/-- The constants `NVMA` (param.h), `TRAPFRAME` (memlayout.h) and `PROT_READ`,
`PROT_WRITE`, `PROT_EXEC` (fcntl.h), none of them under src. -/
structure VmaLayout where
  NVMA : Nat
  TRAPFRAME : Nat
  PROT_READ : Nat := 1
  PROT_WRITE : Nat := 2
  PROT_EXEC : Nat := 4

/-- The function `in_Interval`. -/
def in_Interval (target : Nat) (vma : Vma) : Bool :=
  target ≥ vma.vm_start ∧ target < vma.vm_end

/-- The loop of `mmap_valid` from index `i` with `n` entries to go: the value of the
`int i` when the loop is left. -/
def mmapScan (p : Proc) (va : Nat) : Nat → Nat → Int
  | 0, i => (i : Int)
  | n + 1, i =>
    if in_Interval va (p.vma i) then -(i : Int)
    else if (p.vma i).valid = 0 then (i : Int)
    else mmapScan p va n (i + 1)

/-- The function `mmap_valid`: the index of the region that holds `va`, or -1. -/
def mmap_valid (V : VmaLayout) (p : Proc) (va : Nat) : Int :=
  if va < p.vma_bound ∨ va ≥ V.TRAPFRAME then -1
  else
    let i := mmapScan p va V.NVMA 0
    if i > 0 then -1
    else if i < 0 then -i
    else if (p.vma 0).valid ≠ 0 ∧ in_Interval va (p.vma 0) then 0
    else -1

/-- The function `vma_swap` on the entries `i` and `j` of the table. -/
def vma_swap (vma : Nat → Vma) (i j : Nat) : Nat → Vma :=
  fun k => if k = i then vma j else if k = j then vma i else vma k

/-- The first loop of `map_vma` from index `i` with `n` entries to go: the index of
the first entry that is not valid, or `NVMA`. -/
def firstInvalid (vma : Nat → Vma) : Nat → Nat → Nat
  | 0, i => i
  | n + 1, i => if (vma i).valid = 0 then i else firstInvalid vma n (i + 1)

/-- The second loop of `map_vma` from index `j` with `n` entries to go: whether
`begin` or `end - 1` lies in one of the entries. -/
def mapScan (vma : Nat → Vma) (begin stop : Nat) : Nat → Nat → Bool
  | 0, _ => false
  | n + 1, j =>
    if in_Interval begin (vma j) || in_Interval ((stop + (2 ^ 64 - 1)) % 2 ^ 64) (vma j)
    then true
    else mapScan vma begin stop n (j + 1)

/-- The loop of `map_vma` that moves the entry at index `i` toward index 0 while its
start is above its left neighbour's. -/
def bubble (vma : Nat → Vma) : Nat → Nat → Vma
  | 0 => vma
  | i + 1 =>
    if (vma (i + 1)).vm_start > (vma i).vm_start then bubble (vma_swap vma (i + 1) i) i
    else vma

/-- The loop that looks for the first entry that is not valid when `vma_bound` is
recomputed: the value of the `int i` when the loop is left. -/
def boundScan (vma : Nat → Vma) : Nat → Nat → Int
  | 0, i => (i : Int)
  | n + 1, i => if (vma i).valid = 0 then -(i : Int) else boundScan vma n (i + 1)

/-- The end of `map_vma` (and of `unmap_vma`): the new `vma_bound`; `none` is the
panic. With a full table the entry past the end of the array is read. -/
def vma_rebound (V : VmaLayout) (vma : Nat → Vma) : Option Nat :=
  let i := boundScan vma V.NVMA 0
  if i < 0 then
    let k := (-i - 1).toNat
    if (vma k).valid ≠ 0 then some (vma k).vm_start else none
  else if i > 0 then
    if i ≠ (V.NVMA : Int) then none else some (vma V.NVMA).vm_start
  else some V.TRAPFRAME

/-- The function `map_vma`; `filedup(f)` gives back `f`. The result is the return
value and the process, `none` is the panic. -/
def map_vma (V : VmaLayout) (p : Proc) (begin stop prot flags f offset : Nat) :
    Option (Int × Proc) :=
  let i := firstInvalid p.vma V.NVMA 0
  if mapScan p.vma begin stop i 0 then some (-1, p)
  else if i = V.NVMA then some (-1, p)
  else if begin ≥ stop then some (-1, p)
  else
    let e : Vma := ⟨1, begin, stop, prot, flags, f, offset⟩
    let vma1 : Nat → Vma := fun k => if k = i then e else p.vma k
    let vma2 := bubble vma1 i
    match vma_rebound V vma2 with
    | none => none
    | some b => some (0, { p with vma := vma2, vma_bound := b })

/-! ## vm.c: page faults -/

/-- The functions of files not under src that vm.c calls, taken as parameters:
`readi(f->ip, 1, va, offset, len)` of fs.c on the file `f` (the value returned and
the memory it leaves), and `copyin_new`, `copyinstr_new` of vmcopyin.c (the value
returned and the destination buffer they leave). A kernel buffer is the function
from the offset in it to the byte there. -/
structure Ext where
  readi : Nat → Nat → Nat → Nat → Proc → KState → Int × KState
  copyin_new : Proc → Nat → (Nat → Nat) → Nat → Nat → KState → Int × (Nat → Nat)
  copyinstr_new : Proc → Nat → (Nat → Nat) → Nat → Nat → KState → Int × (Nat → Nat)

/-- The byte at physical address `a`: memory is little-endian. -/
def readByte (s : KState) (a : Nat) : Nat := s.mem (a - a % 8) / 256 ^ (a % 8) % 256

/-- Memory with the byte at physical address `a` replaced by the `char` value `b`. -/
def writeByte (s : KState) (a b : Nat) : KState :=
  s.write (a - a % 8)
    (s.mem (a - a % 8) - readByte s a * 256 ^ (a % 8) + b % 256 * 256 ^ (a % 8))

/-- The call `memmove(dst, src + off, n)` from a kernel buffer into physical memory. -/
def memmoveOut (dst : Nat) (src : Nat → Nat) (off : Nat) : Nat → KState → KState
  | 0, s => s
  | n + 1, s => writeByte (memmoveOut dst src off n s) (dst + n) (src (off + n))

/-- The call `memmove(dst + off, src, n)` from physical memory into a kernel buffer. -/
def memmoveIn (dst : Nat → Nat) (off src n : Nat) (s : KState) : Nat → Nat :=
  fun k => if off ≤ k ∧ k < off + n then readByte s (src + (k - off)) else dst k

/-- The function `load_vma`; the result is the return value and the state, `none` is
a panic. -/
def load_vma (L : Layout) (cpu : Nat) (V : VmaLayout) (E : Ext) (p : Proc) (va : Nat)
    (index : Int) (s : KState) : Option (Int × KState) :=
  let vma := p.vma index.toNat
  let offset := (va + (2 ^ 64 - vma.vm_start % 2 ^ 64) + vma.offset) % 2 ^ 32
  let len0 := (vma.vm_end + (2 ^ 64 - va % 2 ^ 64)) % 2 ^ 32
  let len := if len0 < PGSIZE then len0 else PGSIZE
  if offset < vma.offset % 2 ^ 32 then some (-1, s)
  else
    let r := E.readi vma.file va offset len p s
    if r.1 ≤ 0 then some (-1, r.2)
    else
      match walk L cpu p.pagetable va false r.2 with
      | none => none
      | some (none, s1) => some (-1, s1)
      | some (some pte, s1) =>
        if s1.mem pte &&& PTE_V = 0 then none
        else
          let pa := PTE2PA (s1.mem pte)
          let perm := (if vma.vm_prot &&& V.PROT_READ ≠ 0 then PTE_R else 0)
            ||| (if vma.vm_prot &&& V.PROT_WRITE ≠ 0 then PTE_W else 0)
            ||| (if vma.vm_prot &&& V.PROT_EXEC ≠ 0 then PTE_X else 0)
          some (0, s1.write pte (PA2PTE pa ||| perm ||| PTE_V ||| PTE_U))

/-- The function `page_fault_handler`, `p` being also the process `myproc()` returns;
the result is the return value, the process and the state, `none` is a panic. -/
def page_fault_handler (L : Layout) (cpu : Nat) (V : VmaLayout) (E : Ext) (p : Proc)
    (va : Nat) (s : KState) : Option (Int × Proc × KState) :=
  let mmap_index := mmap_valid V p va
  if (va < p.sz ∨ mmap_index ≠ -1) ∧ va ≠ (p.ustack + (2 ^ 64 - PGSIZE)) % 2 ^ 64 then
    match uvmalloc L cpu p p.pagetable va ((va + PGSIZE) % 2 ^ 64) s with
    | none => none
    | some (r, s1) =>
      if r ≠ 0 then
        if va < p.sz then
          match proc_usermapping L cpu p va ((va + PGSIZE) % 2 ^ 64) s1 with
          | none => none
          | some s2 => some (0, p, s2)
        else
          match load_vma L cpu V E p va mmap_index s1 with
          | none => none
          | some (r2, s2) =>
            if r2 = -1 then some (1, { p with killed := 1 }, s2) else some (0, p, s2)
      else some (1, { p with killed := 1 }, s1)
  else some (-1, p, s)

/-! ## vm.c: copies between kernel and user memory -/

/-- The part of an iteration of the loop of `copyout` that finds the frame of the
page `va0`: the frame, or null for `return -1`, with the process and the state;
`none` is a panic. -/
def copyoutPage (L : Layout) (cpu : Nat) (V : VmaLayout) (E : Ext) (pagetable : Nat)
    (p : Proc) (va0 : Nat) (s : KState) : Option (Option Nat × Proc × KState) :=
  let pa0 := walkaddr L cpu pagetable va0 s
  if va0 < MAXVA then
    match walk L cpu pagetable va0 false s with
    | none => none
    | some (pte, _) =>
      if pa0 = 0 ∨ (pte.isSome ∧ IS_COW (s.mem (pte.getD 0))) then
        match page_fault_handler L cpu V E p (PGROUNDDOWN va0) s with
        | none => none
        | some (ret, p1, s1) =>
          if ret = 0 then some (some (walkaddr L cpu pagetable va0 s1), p1, s1)
          else some (none, p1, s1)
      else some (some pa0, p, s)
  else some (none, p, s)

/-- The loop of `copyout`, `off` being how far `src` has advanced; every iteration
copies at least one byte, so `len` iterations are enough. -/
def copyoutLoop (L : Layout) (cpu : Nat) (V : VmaLayout) (E : Ext) (pagetable : Nat)
    (src : Nat → Nat) : Nat → Proc → Nat → Nat → Nat → KState → Option (Int × Proc × KState)
  | 0, p, _, _, len, s => if len > 0 then none else some (0, p, s)
  | fuel + 1, p, dstva, off, len, s =>
    if len > 0 then
      let va0 := PGROUNDDOWN dstva
      match copyoutPage L cpu V E pagetable p va0 s with
      | none => none
      | some (none, p1, s1) => some (-1, p1, s1)
      | some (some pa0, p1, s1) =>
        let n := if PGSIZE - (dstva - va0) > len then len else PGSIZE - (dstva - va0)
        copyoutLoop L cpu V E pagetable src fuel p1 ((va0 + PGSIZE) % 2 ^ 64) (off + n)
          (len - n) (memmoveOut (pa0 + (dstva - va0)) src off n s1)
    else some (0, p, s)

/-- The function `copyout`, `p` being the process `myproc()` returns and `src` the
kernel buffer. -/
def copyout (L : Layout) (cpu : Nat) (V : VmaLayout) (E : Ext) (p : Proc)
    (pagetable dstva : Nat) (src : Nat → Nat) (len : Nat) (s : KState) :
    Option (Int × Proc × KState) :=
  copyoutLoop L cpu V E pagetable src len p dstva 0 len s

/-- The part of an iteration of the loops of `copyin` and `copyinstr` that finds the
frame of the page `va0`. -/
def copyinPage (L : Layout) (cpu : Nat) (V : VmaLayout) (E : Ext) (pagetable : Nat)
    (p : Proc) (va0 : Nat) (s : KState) : Option (Option Nat × Proc × KState) :=
  let pa0 := walkaddr L cpu pagetable va0 s
  if pa0 = 0 then
    match page_fault_handler L cpu V E p (PGROUNDDOWN va0) s with
    | none => none
    | some (ret, p1, s1) =>
      if ret = 0 then some (some (walkaddr L cpu pagetable va0 s1), p1, s1)
      else some (none, p1, s1)
  else some (some pa0, p, s)

/-- The walk-based loop of `copyin`, `off` being how far `dst` has advanced; the
result is the return value, the destination buffer, the process and the state. -/
def copyinLoop (L : Layout) (cpu : Nat) (V : VmaLayout) (E : Ext) (pagetable : Nat) :
    Nat → Proc → (Nat → Nat) → Nat → Nat → Nat → KState →
    Option (Int × (Nat → Nat) × Proc × KState)
  | 0, p, dst, _, _, len, s => if len > 0 then none else some (0, dst, p, s)
  | fuel + 1, p, dst, off, srcva, len, s =>
    if len > 0 then
      let va0 := PGROUNDDOWN srcva
      match copyinPage L cpu V E pagetable p va0 s with
      | none => none
      | some (none, p1, s1) => some (-1, dst, p1, s1)
      | some (some pa0, p1, s1) =>
        let n := if PGSIZE - (srcva - va0) > len then len else PGSIZE - (srcva - va0)
        copyinLoop L cpu V E pagetable fuel p1 (memmoveIn dst off (pa0 + (srcva - va0)) n s1)
          (off + n) ((va0 + PGSIZE) % 2 ^ 64) (len - n) s1
    else some (0, dst, p, s)

/-- The function `copyin`, `p` being the process `myproc()` returns and `dst` the
kernel buffer. -/
def copyin (L : Layout) (cpu : Nat) (V : VmaLayout) (E : Ext) (p : Proc)
    (pagetable : Nat) (dst : Nat → Nat) (srcva len : Nat) (s : KState) :
    Option (Int × (Nat → Nat) × Proc × KState) :=
  if srcva < PLIC then
    if (srcva + len) % 2 ^ 64 ≤ PLIC then
      some ((E.copyin_new p pagetable dst srcva len s).1,
        (E.copyin_new p pagetable dst srcva len s).2, p, s)
    else
      let copy_len := PLIC - srcva
      let r := E.copyin_new p pagetable dst srcva copy_len s
      if r.1 = -1 then some (-1, r.2, p, s)
      else copyinLoop L cpu V E pagetable (len - copy_len) p r.2 copy_len PLIC
        (len - copy_len) s
  else copyinLoop L cpu V E pagetable len p dst 0 srcva len s

/-- The inner loop of `copyinstr` over `n` bytes from physical address `q`: whether
the terminator was met, the destination buffer, how far it has advanced, and `max`. -/
def copyinstrBytes (s : KState) : Nat → Nat → (Nat → Nat) → Nat → Nat →
    Bool × (Nat → Nat) × Nat × Nat
  | 0, _, dst, off, max => (false, dst, off, max)
  | n + 1, q, dst, off, max =>
    if readByte s q = 0 then (true, fun k => if k = off then 0 else dst k, off, max)
    else copyinstrBytes s n (q + 1) (fun k => if k = off then readByte s q else dst k)
      (off + 1) (max - 1)

/-- The walk-based loop of `copyinstr`; every iteration that does not meet the
terminator consumes at least one byte of `max`, so `max` iterations are enough. -/
def copyinstrLoop (L : Layout) (cpu : Nat) (V : VmaLayout) (E : Ext) (pagetable : Nat) :
    Nat → Proc → (Nat → Nat) → Nat → Nat → Nat → KState →
    Option (Int × (Nat → Nat) × Proc × KState)
  | 0, p, dst, _, _, max, s => if max > 0 then none else some (-1, dst, p, s)
  | fuel + 1, p, dst, off, srcva, max, s =>
    if max > 0 then
      let va0 := PGROUNDDOWN srcva
      match copyinPage L cpu V E pagetable p va0 s with
      | none => none
      | some (none, p1, s1) => some (-1, dst, p1, s1)
      | some (some pa0, p1, s1) =>
        let n := if PGSIZE - (srcva - va0) > max then max else PGSIZE - (srcva - va0)
        let r := copyinstrBytes s1 n (pa0 + (srcva - va0)) dst off max
        if r.1 then some (0, r.2.1, p1, s1)
        else copyinstrLoop L cpu V E pagetable fuel p1 r.2.1 r.2.2.1
          ((va0 + PGSIZE) % 2 ^ 64) r.2.2.2 s1
    else some (-1, dst, p, s)

/-- The function `copyinstr`, `p` being the process `myproc()` returns and `dst` the
kernel buffer. -/
def copyinstr (L : Layout) (cpu : Nat) (V : VmaLayout) (E : Ext) (p : Proc)
    (pagetable : Nat) (dst : Nat → Nat) (srcva max : Nat) (s : KState) :
    Option (Int × (Nat → Nat) × Proc × KState) :=
  if srcva < PLIC then
    if (srcva + max) % 2 ^ 64 ≤ PLIC then
      let r := E.copyinstr_new p pagetable dst srcva max s
      if r.1 = 1 then some (-1, r.2, p, s) else some (r.1, r.2, p, s)
    else
      let copy_len := PLIC - srcva
      let r := E.copyinstr_new p pagetable dst srcva copy_len s
      if r.1 = -1 then some (-1, r.2, p, s)
      else if r.1 = 1 then
        copyinstrLoop L cpu V E pagetable (max - copy_len) p r.2 copy_len PLIC
          (max - copy_len) s
      else some (0, r.2, p, s)
  else copyinstrLoop L cpu V E pagetable max p dst 0 srcva max s

/-! ## vm.c: freeing a page table -/

/-- A table of sixteen regions below the trapframe page, which xv6 puts two pages
below `MAXVA`. -/
def V1 : VmaLayout := { NVMA := 16, TRAPFRAME := MAXVA - 2 * PGSIZE }

/-- A process with one region, the page two pages below the trapframe. -/
def pVma : Proc :=
  { sz := 4 * PGSIZE, vma_bound := MAXVA - 4 * PGSIZE, kernel_pagetable := 57344,
    pagetable := 61440, ustack := 8192,
    vma := fun i => if i = 0 then ⟨1, MAXVA - 4 * PGSIZE, MAXVA - 3 * PGSIZE, 3, 0, 7, 0⟩
      else ⟨0, 0, 0, 0, 0, 0, 0⟩ }

/-- Functions outside vm.c that do nothing: `readi` reads no byte, `copyin_new` and
`copyinstr_new` return 0 and leave the buffer as it is. -/
def E0 : Ext :=
  { readi := fun _ _ _ _ _ s => (0, s),
    copyin_new := fun _ _ dst _ _ _ => (0, dst),
    copyinstr_new := fun _ _ dst _ _ _ => (0, dst) }

/-- A state in which the page of the region of `pVma` is a copy-on-write page, as
`copy_vma` leaves it: `sEmpty` after `mappages` has mapped that page to the frame 20480
with the flags `R|U|C`, the frame being shared with another address space (count 2). -/
def sVmaCow : KState :=
  inc_refcount 20480
    ((mappages L1 0 61440 (MAXVA - 4 * PGSIZE) PGSIZE 20480 (PTE_R ||| PTE_U ||| PTE_C)
      sEmpty).getD (0, sEmpty)).2

/-- A state of `L1` with zeroed memory and six free frames; the roots at 61440 and
57344 are allocated. -/
def sLazy : KState :=
  { freelist := fun c => if c = 0 then [8192, 12288, 16384, 24576, 28672, 32768] else [],
    ref := fun i => if i = 15 ∨ i = 14 then 1 else 0,
    mem := fun _ => 0 }

/-- A process of four pages none of which is mapped yet, with the stack in the last
page and the guard page below it, and no region. -/
def pLazy : Proc :=
  { sz := 4 * PGSIZE, vma_bound := MAXVA - 2 * PGSIZE, kernel_pagetable := 57344,
    pagetable := 61440, ustack := 3 * PGSIZE }

/-- The state `sLazy` after `page_fault_handler` has handled a fault at address 1. -/
def sLazyOff : KState :=
  ((page_fault_handler L1 0 V1 E0 pLazy 1 sLazy).getD (0, pLazy, sLazy)).2.2

/-- The state `sLazy` after `page_fault_handler` has handled a fault at page 0. -/
def sLazyZero : KState :=
  ((page_fault_handler L1 0 V1 E0 pLazy 0 sLazy).getD (0, pLazy, sLazy)).2.2

/-- A state of `L1` with zeroed memory and four free frames; the roots at 61440 and
57344 and the frames 20480 and 28672 are allocated. -/
def sFork2 : KState :=
  { freelist := fun c => if c = 0 then [8192, 12288, 16384, 24576] else [],
    ref := fun i => if i = 15 ∨ i = 14 ∨ i = 5 ∨ i = 7 then 1 else 0,
    mem := fun _ => 0 }

/-- The state `sFork2` after `mappages` has mapped page 0 of the table at 61440 to the
frame 20480. -/
def sParent1 : KState :=
  ((mappages L1 0 61440 0 PGSIZE 20480 (PTE_R ||| PTE_W ||| PTE_U) sFork2).getD (0, sFork2)).2

/-- The state `sParent1` after `mappages` has mapped page 1 of the table at 61440 to
the frame 28672: two free frames are left. -/
def sParent2 : KState :=
  ((mappages L1 0 61440 PGSIZE PGSIZE 28672 (PTE_R ||| PTE_W ||| PTE_U) sParent1).getD
    (0, sParent1)).2

/-- A process of two pages whose user stack is page 1. -/
def pStack : Proc :=
  { sz := 2 * PGSIZE, vma_bound := MAXVA, kernel_pagetable := 53248, pagetable := 61440,
    ustack := PGSIZE }

/-- The state `sParent2` after `uvmcopy` into the empty table at 57344 has failed: page
0 takes the two free frames for the pages of the child table, and `kalloc` finds no
frame for the copy of the user stack. -/
def sCopyFailed : KState :=
  ((uvmcopy L1 0 pStack 61440 57344 (2 * PGSIZE) sParent2).getD (0, sParent2)).2

/-- A state of `L1` with zeroed memory and four free frames; the roots at 61440 and
57344 and the frame 28672 are allocated, and the frame 20480 has count 2. -/
def sShare0 : KState :=
  { freelist := fun c => if c = 0 then [8192, 12288, 16384, 24576] else [],
    ref := fun i => if i = 5 then 2 else if i = 15 ∨ i = 14 ∨ i = 7 then 1 else 0,
    mem := fun _ => 0 }

/-- The state `sShare0` after `mappages` has mapped, in the table at 61440, page 1 to
the frame 20480 and page 2 to the frame 28672 and, in the table at 57344, page 0 to the
frame 20480: the two tables share that frame and no frame is free. -/
def sShare : KState :=
  ((mappages L1 0 57344 0 PGSIZE 20480 (PTE_R ||| PTE_U)
    ((mappages L1 0 61440 (2 * PGSIZE) PGSIZE 28672 (PTE_R ||| PTE_W ||| PTE_U)
      ((mappages L1 0 61440 PGSIZE PGSIZE 20480 (PTE_R ||| PTE_W ||| PTE_U) sShare0).getD
        (0, sShare0)).2).getD (0, sShare0)).2).getD (0, sShare0)).2

/-- A process of three pages whose user stack is page 2. -/
def pShare : Proc :=
  { sz := 3 * PGSIZE, vma_bound := MAXVA, kernel_pagetable := 53248, pagetable := 61440,
    ustack := 2 * PGSIZE }

/-- The state `sShare` after `uvmcopy` into the table at 57344 has failed at the stack
page. -/
def sShareFailed : KState :=
  ((uvmcopy L1 0 pShare 61440 57344 (3 * PGSIZE) sShare).getD (0, sShare)).2

/-! ## The table of regions -/

/-- Address `va` lies in a valid region of the table. -/
def InVma (V : VmaLayout) (p : Proc) (va : Nat) : Prop :=
  ∃ i, i < V.NVMA ∧ (p.vma i).valid ≠ 0 ∧ in_Interval va (p.vma i) = true

/-- What `mmap_valid` needs of the table of regions: the valid entries come first,
an entry that is not valid holds no address, and the valid regions lie in
`[vma_bound, TRAPFRAME)`. -/
structure VmaOk (V : VmaLayout) (p : Proc) : Prop where
  packed : ∀ i j, i < j → j < V.NVMA → (p.vma j).valid ≠ 0 → (p.vma i).valid ≠ 0
  empty : ∀ i, i < V.NVMA → (p.vma i).valid = 0 → (p.vma i).vm_end ≤ (p.vma i).vm_start
  bound : ∀ i, i < V.NVMA → (p.vma i).valid ≠ 0 →
    p.vma_bound ≤ (p.vma i).vm_start ∧ (p.vma i).vm_end ≤ V.TRAPFRAME

/-! ## User memory as the walk-based loops read it -/

/-- The pages from `va0` on are resolved in order, as the loops of `copyin` and
`copyinstr` do: `resolveSeq j va0 p s` is the outcome for page `j` after the pages
before it have been resolved. The result `some (none, _)` is a page that cannot be
resolved (this one or an earlier one), `none` is a panic. -/
def resolveSeq (L : Layout) (cpu : Nat) (V : VmaLayout) (E : Ext) (pagetable : Nat) :
    Nat → Nat → Proc → KState → Option (Option Nat × Proc × KState)
  | 0, va0, p, s => copyinPage L cpu V E pagetable p va0 s
  | j + 1, va0, p, s =>
    match copyinPage L cpu V E pagetable p va0 s with
    | some (some _, p1, s1) => resolveSeq L cpu V E pagetable j ((va0 + PGSIZE) % 2 ^ 64) p1 s1
    | r => r

/-- The byte `k` of user memory from the address `srcva` on, read in the frame of its
page when that page has been resolved; `none` when the page is not resolved. -/
def userByteAt (L : Layout) (cpu : Nat) (V : VmaLayout) (E : Ext) (pagetable : Nat)
    (p : Proc) (s : KState) (srcva k : Nat) : Option Nat :=
  match resolveSeq L cpu V E pagetable ((srcva % PGSIZE + k) / PGSIZE) (PGROUNDDOWN srcva)
      p s with
  | some (some pa, _, s1) => some (readByte s1 (pa + (srcva % PGSIZE + k) % PGSIZE))
  | _ => none

/-! ## The user string as `copyinstr` reads it -/

/-- The byte `k` of user memory from the address `srcva` on, as the walk-based loops
read it: `none` is a panic while its page or an earlier one is resolved, `some none` a
page that cannot be resolved. -/
def userRead (L : Layout) (cpu : Nat) (V : VmaLayout) (E : Ext) (pagetable : Nat)
    (p : Proc) (s : KState) (srcva k : Nat) : Option (Option Nat) :=
  match resolveSeq L cpu V E pagetable ((srcva % PGSIZE + k) / PGSIZE) (PGROUNDDOWN srcva)
      p s with
  | none => none
  | some (none, _, _) => some none
  | some (some pa, _, s1) => some (some (readByte s1 (pa + (srcva % PGSIZE + k) % PGSIZE)))

/-- Modelled from the spec: a string copy with a budget of `n` bytes from the byte `k`
on, `rd i` being the byte `i` of the user string (`some none` when its page cannot be
resolved, `none` for a panic). It returns 0 when it has met and copied the terminator,
-1 on a page that cannot be resolved, and 1 when the budget has run out; byte `i` of the
string goes to byte `i` of the destination. -/
def strScan (rd : Nat → Option (Option Nat)) :
    Nat → Nat → (Nat → Nat) → Option (Int × (Nat → Nat))
  | 0, _, dst => some (1, dst)
  | n + 1, k, dst =>
    match rd k with
    | none => none
    | some none => some (-1, dst)
    | some (some b) =>
      if b = 0 then some (0, fun i => if i = k then 0 else dst i)
      else strScan rd n (k + 1) (fun i => if i = k then b else dst i)

/-- The byte `k` of the user string at `srcva` as `copyinstr` reads it: through
`copyinstr_new` below `PLIC`, where `ub k` is the byte and `none` is a fault, and through
the walk-based loop from `PLIC` on. -/
def strRead (L : Layout) (cpu : Nat) (V : VmaLayout) (E : Ext) (pagetable : Nat)
    (p : Proc) (s : KState) (ub : Nat → Option Nat) (srcva k : Nat) : Option (Option Nat) :=
  if srcva < PLIC then
    if k < PLIC - srcva then some (ub k)
    else userRead L cpu V E pagetable p s PLIC (k - (PLIC - srcva))
  else userRead L cpu V E pagetable p s srcva k

/-! ## An example with a page at `PLIC` -/

/-- The state `sEmpty` after `mappages` has mapped the page at `PLIC` to the frame
20480, readable and writable by the user. -/
def sPlic : KState :=
  ((mappages L1 0 61440 PLIC PGSIZE 20480 (PTE_R ||| PTE_W ||| PTE_U) sEmpty).getD
    (0, sEmpty)).2

/-- The byte at the user address `va + k` in the frame that the table `pt` of the
machine `L1` maps its page to. -/
def ubL1 (pt : Nat) (s : KState) (va k : Nat) : Nat :=
  readByte s (walkaddr L1 0 pt (PGROUNDDOWN (va + k)) s + (va + k) % PGSIZE)

/-- Functions outside vm.c for the machine `L1`: `readi` reads no byte, `copyin_new`
and `copyinstr_new` read the bytes in the frames that the user table maps. -/
def E1 : Ext :=
  { readi := fun _ _ _ _ _ s => (0, s),
    copyin_new := fun _ pt dst va n s => (0, fun k => if k < n then ubL1 pt s va k else dst k),
    copyinstr_new := fun _ pt dst va n s =>
      (strScan (fun k => some (some (ubL1 pt s va k))) n 0 dst).getD (1, dst) }

/-! ## Example: a write after a fork -/

/-- A state of `L1` with zeroed memory and seven free frames; the roots at 61440, 57344
and 53248 and the frame 20480 are allocated. -/
def sFork3 : KState :=
  { freelist := fun c => if c = 0 then [8192, 12288, 16384, 24576, 28672, 32768, 36864] else [],
    ref := fun i => if i = 15 ∨ i = 14 ∨ i = 13 ∨ i = 5 then 1 else 0,
    mem := fun _ => 0 }

/-- The state `sFork3` after `mappages` has mapped page 2 of the table at 61440 to the
frame 20480, readable and writable by the user. -/
def sXMap1 : KState :=
  ((mappages L1 0 61440 (2 * PGSIZE) PGSIZE 20480 (PTE_R ||| PTE_W ||| PTE_U) sFork3).getD
    (0, sFork3)).2

/-- The state `sXMap1` after `mappages` has mapped page 2 of the table at 53248 to the
frame 20480, as `proc_usermapping` does for the kernel table of a process. -/
def sXMap2 : KState :=
  ((mappages L1 0 53248 (2 * PGSIZE) PGSIZE 20480 (PTE_R ||| PTE_W) sXMap1).getD (0, sXMap1)).2

/-- A parent with four pages of which page 2 is mapped, to the frame 20480 that starts
with the byte 88 (the letter X), and the empty table at 57344 of the child, whose kernel
table at 53248 shadows page 2 already: `sXMap2` after the byte has been written. -/
def sXFork : KState := writeByte sXMap2 20480 88

/-- The parent: four pages, the user stack in page 1 and the guard page below it. -/
def pXParent : Proc :=
  { sz := 4 * PGSIZE, vma_bound := MAXVA - 2 * PGSIZE, kernel_pagetable := 49152,
    pagetable := 61440, ustack := PGSIZE }

/-- The child of `pXParent`. -/
def pXChild : Proc :=
  { sz := 4 * PGSIZE, vma_bound := MAXVA - 2 * PGSIZE, kernel_pagetable := 53248,
    pagetable := 57344, ustack := PGSIZE }

/-- The state `sXFork` after `uvmcopy` from the parent to the child. -/
def sXForked : KState :=
  ((uvmcopy L1 0 pXParent 61440 57344 (4 * PGSIZE) sXFork).getD (0, sXFork)).2

/-- The state `sXForked` after the child has written the byte 89 (the letter Y) to the
address 8192 with `copyout`. -/
def sXWritten : KState :=
  ((copyout L1 0 V1 E0 pXChild 57344 (2 * PGSIZE) (fun _ => 89) 1 sXForked).getD
    (0, pXChild, sXForked)).2.2

/-! ## Page faults during a copy to user memory -/

/-- What the proofs need of `readi` (fs.c, not under src) when `load_vma` calls it on
the page `va` that `uvmalloc` has just mapped: it leaves the allocator as it is and
writes into the frame of that page only. -/
def ReadiFrame (E : Ext) : Prop :=
  ∀ (f va off len : Nat) (p : Proc) (s : KState),
    (E.readi f va off len p s).2.freelist = s.freelist ∧
    (E.readi f va off len p s).2.ref = s.ref ∧
    ∀ x, ¬ (frameOf s.mem p.pagetable va ≤ x ∧ x < frameOf s.mem p.pagetable va + PGSIZE) →
      (E.readi f va off len p s).2.mem x = s.mem x

/-- The user pages of `[lo, hi)` of the process `p` are well formed: `UvmPre` holds, and
a page that is mapped is a user page whose frame is not at address 0; no free frame is
at address 0. -/
structure UserOk (L : Layout) (p : Proc) (lo hi : Nat) (s : KState) : Prop where
  pre : UvmPre L p.pagetable p.kernel_pagetable lo hi s
  user : ∀ va, InRange lo hi va → va < MAXVA → Mapped s.mem p.pagetable va →
    pteval s.mem p.pagetable va &&& PTE_U ≠ 0
  frame_nz : ∀ va, InRange lo hi va → va < MAXVA → Mapped s.mem p.pagetable va →
    frameOf s.mem p.pagetable va ≠ 0
  free_nz : ¬ IsFree L s 0

/-- The effect of a page fault on the page `a` that has been resolved, from `s` to `s'`:
the page is mapped, as a user page, to the frame `mem` that was free and is now
allocated; no other leaf of the user table has changed; a frame that was allocated and
was no page of either table is still so and keeps its contents, unless it is the frame
that page `a` was mapped to; and only that frame can have become free. -/
structure Faulted (L : Layout) (pt kpt a mem : Nat) (s s' : KState) : Prop where
  was_free : IsFree L s mem
  sep : Sep L s' pt
  sepk : Sep L s' kpt
  apart : ∀ q, IsPtPage s'.mem kpt q → ¬ IsPtPage s'.mem pt q
  free_zero : ∀ f, IsFree L s' f → refcount f s' = 0
  valid : Mapped s'.mem pt a
  user : pteval s'.mem pt a &&& PTE_U ≠ 0
  frame : frameOf s'.mem pt a = mem
  others : ∀ va, va < MAXVA → ¬ (a ≤ va ∧ va < a + PGSIZE) →
    pteval s'.mem pt va = pteval s.mem pt va
  fresh : ¬ IsFree L s' mem ∧ ¬ IsPtPage s'.mem pt mem ∧ ¬ IsPtPage s'.mem kpt mem
  keep : ∀ g, g % PGSIZE = 0 → ¬ IsFree L s g → ¬ IsPtPage s.mem pt g →
    ¬ IsPtPage s.mem kpt g → (Mapped s.mem pt a → g ≠ frameOf s.mem pt a) →
    ¬ IsFree L s' g ∧ ¬ IsPtPage s'.mem pt g ∧ ¬ IsPtPage s'.mem kpt g ∧
    ∀ x, g ≤ x → x < g + PGSIZE → s'.mem x = s.mem x
  free_sub : ∀ g, IsFree L s' g →
    IsFree L s g ∨ (Mapped s.mem pt a ∧ g = frameOf s.mem pt a)

/-! ## vm.c: unmapping a region -/

/-- Modelled from the spec: the dirty bit D of a page-table entry (riscv.h is not under
src; the bit position is that of the RISC-V privileged architecture). -/
def PTE_D : Nat := 128

/-- What `unmap_vma` uses of files not under src: `writei(f->ip, 1, va, offset, len)`
of fs.c on the file `f` (the value returned and the memory it leaves), and the constant
`MAP_SHARED` of fcntl.h. -/
structure FsExt where
  writei : Nat → Nat → Nat → Nat → Proc → KState → Int × KState
  MAP_SHARED : Nat := 1

/-- The calls that `unmap_vma` makes into the file system, in order: `writei` on a file
with its arguments, and `fileclose` of a file. -/
inductive FileOp where
  | write (f va offset len : Nat)
  | close (f : Nat)
deriving DecidableEq

/-- The loop of `unmap_vma` over the pages of the range, from the address `i` on; `e` is
the region after it has been shrunk. The result is whether the loop has run to its end
(`false` is the `return -1` after `writei`), the state and the calls into the file
system; `none` is a panic or the fuel running out. -/
def unmapVmaLoop (L : Layout) (cpu : Nat) (F : FsExt) (p : Proc) (e : Vma) (stop : Nat) :
    Nat → Nat → Nat → KState → List FileOp → Option (Bool × KState × List FileOp)
  | 0, _, _, _, _ => none
  | fuel + 1, i, offset, s, log =>
    if i < stop then
      let pagebound := if PGROUNDUP (i + 1) < stop then PGROUNDUP (i + 1) else stop
      let writelen := (pagebound + (2 ^ 64 - i)) % 2 ^ 32
      match walk L cpu p.pagetable i false s with
      | none => none
      | some (pte, s1) =>
        if pte.isNone ∨ s1.mem (pte.getD 0) &&& PTE_V = 0 then
          unmapVmaLoop L cpu F p e stop fuel ((i + writelen) % 2 ^ 64)
            ((offset + writelen) % 2 ^ 32) s1 log
        else
          let wb := e.vm_flag &&& F.MAP_SHARED ≠ 0 ∧ s1.mem (pte.getD 0) &&& PTE_D ≠ 0
          let r := if wb then F.writei e.file i offset writelen p s1 else (0, s1)
          let log1 := if wb then log ++ [FileOp.write e.file i offset writelen] else log
          if r.1 < 0 then some (false, r.2, log1)
          else if i < PGROUNDDOWN e.vm_start ∨ i > PGROUNDUP e.vm_end then
            match uvmunmap L cpu p.pagetable (PGROUNDDOWN i) 1 true r.2 with
            | none => none
            | some s2 =>
              unmapVmaLoop L cpu F p e stop fuel ((i + writelen) % 2 ^ 64)
                ((offset + writelen) % 2 ^ 32) s2 log1
          else
            unmapVmaLoop L cpu F p e stop fuel ((i + writelen) % 2 ^ 64)
              ((offset + writelen) % 2 ^ 32) r.2 log1
    else some (true, s, log)

/-- The loop of `unmap_vma` that closes the gap an invalidated entry leaves, `base`
being the index of that entry: the test is made on `vma[i]`, where `vma` points to the
entry `base`, so on the entry `base + i` of the table. `none` is the fuel running out. -/
def vmaCompact (V : VmaLayout) (base : Nat) : Nat → Nat → (Nat → Vma) → Option (Nat → Vma)
  | 0, i, vma => if i ≠ V.NVMA ∧ (vma (base + i)).valid ≠ 0 then none else some vma
  | fuel + 1, i, vma =>
    if i ≠ V.NVMA ∧ (vma (base + i)).valid ≠ 0 then
      vmaCompact V base fuel (i + 1) (vma_swap vma (i - 1) i)
    else some vma

/-- The function `unmap_vma` for an index that is -1 or the index of an entry of the
table. The result is the return value, the process, the state and the calls into the
file system; `none` is a panic. -/
def unmap_vma (L : Layout) (cpu : Nat) (V : VmaLayout) (F : FsExt) (p : Proc)
    (begin stop : Nat) (vma_index : Int) (s : KState) :
    Option (Int × Proc × KState × List FileOp) :=
  let idx := vma_index.toNat
  let vma := p.vma idx
  if vma_index = -1 then some (-1, p, s, [])
  else if vma.vm_start > begin ∨ vma.vm_end < stop ∨ stop < begin then some (-1, p, s, [])
  else if vma.vm_start ≠ begin ∧ vma.vm_end ≠ stop then some (-1, p, s, [])
  else
    let offset := (begin + (2 ^ 64 - vma.vm_start % 2 ^ 64) + vma.offset) % 2 ^ 32
    let e : Vma := if vma.vm_start = begin then { vma with vm_start := stop }
      else { vma with vm_end := begin }
    let p1 : Proc := { p with vma := fun k => if k = idx then e else p.vma k }
    match unmapVmaLoop L cpu F p1 e stop PAGE_FUEL (PGROUNDDOWN begin) offset s [] with
    | none => none
    | some (false, s1, log) => some (-1, p1, s1, log)
    | some (true, s1, log) =>
      let r : Option (Proc × KState × List FileOp) :=
        if e.vm_start = e.vm_end then
          let s2 := if e.vm_start > PGROUNDDOWN e.vm_start
            then uvmunmap L cpu p.pagetable (PGROUNDDOWN e.vm_start) 1 true s1 else some s1
          match s2 with
          | none => none
          | some s3 =>
            match vmaCompact V idx V.NVMA (idx + 1)
                (fun k => if k = idx then { e with valid := 0 } else p.vma k) with
            | none => none
            | some vma2 => some ({ p1 with vma := vma2 }, s3, log ++ [FileOp.close e.file])
        else some (p1, s1, log)
      match r with
      | none => none
      | some (p2, s3, log2) =>
        match vma_rebound V p2.vma with
        | none => none
        | some b => some (0, { p2 with vma_bound := b }, s3, log2)

/-! ## Examples: tables of regions -/

/-- A file system whose `writei` writes nothing and returns 0. -/
def F0 : FsExt := { writei := fun _ _ _ _ _ s => (0, s) }

/-- A process whose table holds the three one-page regions below the trapframe, the
highest first. -/
def pVma3 : Proc :=
  { sz := 4 * PGSIZE, vma_bound := MAXVA - 5 * PGSIZE, kernel_pagetable := 57344,
    pagetable := 61440, ustack := 8192,
    vma := fun i => if i < 3 then
        ⟨1, MAXVA - (i + 3) * PGSIZE, MAXVA - (i + 2) * PGSIZE, 3, 0, 7 + i, 0⟩
      else ⟨0, 0, 0, 0, 0, 0, 0⟩ }

/-- A process whose table of sixteen entries holds fifteen one-page regions below the
trapframe, the highest first; `x` is what lies behind the table. -/
def pVma15 (x : Vma) : Proc :=
  { sz := 4 * PGSIZE, vma_bound := MAXVA - 17 * PGSIZE, kernel_pagetable := 57344,
    pagetable := 61440, ustack := 8192,
    vma := fun i => if i < 15 then
        ⟨1, MAXVA - (i + 3) * PGSIZE, MAXVA - (i + 2) * PGSIZE, 3, 0, 7, 0⟩
      else if i = 16 then x else ⟨0, 0, 0, 0, 0, 0, 0⟩ }

/-- A process with one region of three pages below the trapframe. -/
def pVmaTail : Proc :=
  { sz := 4 * PGSIZE, vma_bound := MAXVA - 5 * PGSIZE, kernel_pagetable := 57344,
    pagetable := 61440, ustack := 8192,
    vma := fun i => if i = 0 then ⟨1, MAXVA - 5 * PGSIZE, MAXVA - 2 * PGSIZE, 3, 0, 7, 0⟩
      else ⟨0, 0, 0, 0, 0, 0, 0⟩ }

/-- The state `sFork2` after `mappages` has mapped the second page of the region of
`pVmaTail` to the frame 20480 and the third to the frame 28672. -/
def sVmaTail : KState :=
  ((mappages L1 0 61440 (MAXVA - 3 * PGSIZE) PGSIZE 28672 (PTE_R ||| PTE_W ||| PTE_U)
    ((mappages L1 0 61440 (MAXVA - 4 * PGSIZE) PGSIZE 20480 (PTE_R ||| PTE_W ||| PTE_U)
      sFork2).getD (0, sFork2)).2).getD (0, sFork2)).2

/-- The process `pVma3` after `unmap_vma` has unmapped its middle region. -/
def pVma3Unmapped : Proc :=
  ((unmap_vma L1 0 V1 F0 pVma3 (MAXVA - 4 * PGSIZE) (MAXVA - 3 * PGSIZE) 1 sEmpty).getD
    (0, pVma3, sEmpty, [])).2.1

/-- The process `pVma15` after `map_vma` has added a sixteenth region below the others. -/
def pVma16 (x : Vma) : Proc :=
  ((map_vma V1 (pVma15 x) (MAXVA - 18 * PGSIZE) (MAXVA - 17 * PGSIZE) 3 0 7 0).getD
    (0, pVma15 x)).2

/-- The process `pVmaTail` after `unmap_vma` has unmapped the last two pages of its
region. -/
def pVmaTailUnmapped : Proc :=
  ((unmap_vma L1 0 V1 F0 pVmaTail (MAXVA - 4 * PGSIZE) (MAXVA - 2 * PGSIZE) 0 sVmaTail).getD
    (0, pVmaTail, sVmaTail, [])).2.1

/-- The state `sVmaTail` after that call of `unmap_vma`. -/
def sVmaTailUnmapped : KState :=
  ((unmap_vma L1 0 V1 F0 pVmaTail (MAXVA - 4 * PGSIZE) (MAXVA - 2 * PGSIZE) 0 sVmaTail).getD
    (0, pVmaTail, sVmaTail, [])).2.2.1

/-- Functions outside vm.c for a file that is long enough: `readi` reads as many bytes
as it is asked for, without a change of the kernel state that is modelled. -/
def ELong : Ext :=
  { readi := fun _ _ _ len _ s => (len, s),
    copyin_new := fun _ _ dst _ _ _ => (0, dst),
    copyinstr_new := fun _ _ dst _ _ _ => (0, dst) }

/-- A process with one region of 4 GiB that ends at the trapframe. -/
def pVmaBig : Proc :=
  { sz := 4 * PGSIZE, vma_bound := MAXVA - 2 * PGSIZE - 2 ^ 32, kernel_pagetable := 57344,
    pagetable := 61440, ustack := 8192,
    vma := fun i => if i = 0 then ⟨1, MAXVA - 2 * PGSIZE - 2 ^ 32, MAXVA - 2 * PGSIZE, 3, 0, 7, 0⟩
      else ⟨0, 0, 0, 0, 0, 0, 0⟩ }

/-- The state `sEmpty` after `mappages` has mapped the first page of the region of
`pVmaBig` to the frame 20480, as `uvmalloc` maps a page. -/
def sVmaBig : KState :=
  ((mappages L1 0 61440 (MAXVA - 2 * PGSIZE - 2 ^ 32) PGSIZE 20480
    (PTE_W ||| PTE_X ||| PTE_R ||| PTE_U) sEmpty).getD (0, sEmpty)).2

/-- A process with one region of one page, readable and writable. -/
def pVmaOne : Proc :=
  { sz := 4 * PGSIZE, vma_bound := MAXVA - 3 * PGSIZE, kernel_pagetable := 57344,
    pagetable := 61440, ustack := 8192,
    vma := fun i => if i = 0 then ⟨1, MAXVA - 3 * PGSIZE, MAXVA - 2 * PGSIZE, 3, 0, 7, 0⟩
      else ⟨0, 0, 0, 0, 0, 0, 0⟩ }

/-- The state `sEmpty` after `mappages` has mapped the page of the region of `pVmaOne`
to the frame 20480, as `uvmalloc` maps a page. -/
def sVmaOne : KState :=
  ((mappages L1 0 61440 (MAXVA - 3 * PGSIZE) PGSIZE 20480
    (PTE_W ||| PTE_X ||| PTE_R ||| PTE_U) sEmpty).getD (0, sEmpty)).2

/-! ## bio.c: the buffer cache -/

/-- The constant `NBUCKET` of bio.c. -/
def NBUCKET : Nat := 13

/-- A value of type `struct buf *`: the address of `bcache.buf[i]`, of the sentinel
`bcache.head[k]` of an active list, of the sentinel `bcache.unused_buf[k]` of an unused
list, or the null pointer. -/
inductive BNode where
  | buf (i : Nat)
  | head (k : Nat)
  | unused (k : Nat)
  | null
deriving DecidableEq

/-- The state the buffer cache works on: the fields `next`, `prev`, `dev`, `blockno`,
`valid`, `refcnt` and `data` of every `struct buf` of `bcache` (buffers and sentinels),
and the buffers that the disk driver has been asked to read, the latest first
(`virtio_disk_rw` is not under src). Locks are not modelled. -/
structure BState where
  next : BNode → BNode
  prev : BNode → BNode
  dev : BNode → Nat
  blockno : BNode → Nat
  valid : BNode → Nat
  refcnt : BNode → Nat
  data : BNode → Nat → Nat
  reads : List BNode

/-- The assignment `x->next = v`. -/
def BState.setNext (s : BState) (x v : BNode) : BState :=
  { s with next := fun y => if y = x then v else s.next y }

/-- The assignment `x->prev = v`. -/
def BState.setPrev (s : BState) (x v : BNode) : BState :=
  { s with prev := fun y => if y = x then v else s.prev y }

/-- The assignment `x->dev = v`. -/
def BState.setDev (s : BState) (x : BNode) (v : Nat) : BState :=
  { s with dev := fun y => if y = x then v else s.dev y }

/-- The assignment `x->blockno = v`. -/
def BState.setBlockno (s : BState) (x : BNode) (v : Nat) : BState :=
  { s with blockno := fun y => if y = x then v else s.blockno y }

/-- The assignment `x->valid = v`. -/
def BState.setValid (s : BState) (x : BNode) (v : Nat) : BState :=
  { s with valid := fun y => if y = x then v else s.valid y }

/-- The assignment `x->refcnt = v`. -/
def BState.setRefcnt (s : BState) (x : BNode) (v : Nat) : BState :=
  { s with refcnt := fun y => if y = x then v else s.refcnt y }

/-- The function `hash`. -/
def hash (_dev blockno : Nat) : Nat := blockno % NBUCKET

/-- The four assignments of `bucket_insert` and of `unused_insert` that put `b` behind
the sentinel `h`; `none` is a null pointer that is dereferenced. -/
def insertAfter (h b : BNode) (s : BState) : Option BState :=
  let s1 := s.setNext b (s.next h)
  let s2 := s1.setPrev b h
  if s2.next h = BNode.null then none
  else
    let s3 := s2.setPrev (s2.next h) b
    some (s3.setNext h b)

/-- The function `bucket_insert`; `none` is the panic or a null pointer that is
dereferenced. -/
def bucket_insert (bucket : Nat) (b : BNode) (s : BState) : Option BState :=
  if bucket ≥ 13 then none else insertAfter (BNode.head bucket) b s

/-- The function `unused_insert`: the bucket is the index of the buffer in `bcache.buf`
modulo `NBUCKET`. -/
def unused_insert (b : BNode) (s : BState) : Option BState :=
  match b with
  | BNode.buf i => insertAfter (BNode.unused (i % NBUCKET)) b s
  | _ => none

/-- The two assignments that take `r` out of its list; `none` is a null pointer that is
dereferenced. -/
def unlink (r : BNode) (s : BState) : Option BState :=
  if s.prev r = BNode.null then none
  else
    let s1 := s.setNext (s.prev r) (s.next r)
    if s1.next r = BNode.null then none
    else some (s1.setPrev (s1.next r) (s1.prev r))

/-- The function `unused_fetch`: the last buffer of the unused list of the bucket, taken
out of the list, or null when the list is empty. -/
def unused_fetch (bucket : Nat) (s : BState) : Option (BNode × BState) :=
  let r := s.prev (BNode.unused bucket)
  if r ≠ BNode.unused bucket then
    if r = BNode.null then none
    else
      match unlink r s with
      | none => none
      | some s2 => some (r, (s2.setPrev r BNode.null).setNext r BNode.null)
  else some (BNode.null, s)

/-- The loop of `unused_steal` from bucket `i` on; `none` is a null pointer that is
dereferenced or the fuel running out. -/
def unusedStealLoop (bucket : Nat) : Nat → Nat → BState → Option (BNode × BState)
  | 0, _, _ => none
  | fuel + 1, i, s =>
    if i ≠ bucket then
      match unused_fetch i s with
      | none => none
      | some (b, s1) =>
        if b ≠ BNode.null then some (b, s1)
        else unusedStealLoop bucket fuel ((i + 1) % NBUCKET) s1
    else some (BNode.null, s)

/-- The function `unused_steal`. -/
def unused_steal (bucket : Nat) (s : BState) : Option (BNode × BState) :=
  unusedStealLoop bucket NBUCKET ((bucket + 1) % NBUCKET) s

/-- The function `unused_get`. -/
def unused_get (bucket : Nat) (s : BState) : Option (BNode × BState) :=
  match unused_fetch bucket s with
  | none => none
  | some (b, s1) => if b = BNode.null then unused_steal bucket s1 else some (b, s1)

/-- The memory of `bcache` before `binit`: static storage, all zero. -/
def bzero : BState :=
  { next := fun _ => BNode.null, prev := fun _ => BNode.null, dev := fun _ => 0,
    blockno := fun _ => 0, valid := fun _ => 0, refcnt := fun _ => 0, data := fun _ _ => 0,
    reads := [] }

/-- The loop of `binit` that makes the active lists of the buckets below `n` empty. -/
def binitHeads : Nat → BState → BState
  | 0, s => s
  | n + 1, s =>
    ((binitHeads n s).setPrev (BNode.head n) (BNode.head n)).setNext (BNode.head n) (BNode.head n)

/-- The loop of `binit` that makes the unused lists of the buckets below `n` empty. -/
def binitUnused : Nat → BState → BState
  | 0, s => s
  | n + 1, s =>
    ((binitUnused n s).setPrev (BNode.unused n) (BNode.unused n)).setNext (BNode.unused n)
      (BNode.unused n)

/-- The last loop of `binit`: the buffers below `n` are put on unused lists, in the
order of their indices. -/
def binitBufs : Nat → BState → Option BState
  | 0, s => some s
  | n + 1, s =>
    match binitBufs n s with
    | none => none
    | some s1 => unused_insert (BNode.buf n) s1

/-- The function `binit`, `NBUF` (param.h, not under src) being the number of buffers. -/
def binit (NBUF : Nat) (s : BState) : Option BState :=
  binitBufs NBUF (binitUnused NBUCKET (binitHeads NBUCKET s))

/-- The loop of `bget` over the active list of the bucket, from `b` on: the buffer that
holds the block, or null at the end of the list; `none` is a null pointer that is
dereferenced or the fuel running out. -/
def bgetScan (s : BState) (bucket dev blockno : Nat) : Nat → BNode → Option BNode
  | 0, _ => none
  | fuel + 1, b =>
    if b = BNode.head bucket then some BNode.null
    else if b = BNode.null then none
    else if s.dev b = dev ∧ s.blockno b = blockno then some b
    else bgetScan s bucket dev blockno fuel (s.next b)

/-- The function `bget`; the loop over the active list sees at most `NBUF` buffers.
The result is the buffer and the state, `none` is `panic("bget: no buffers")` (or a null
pointer that is dereferenced). -/
def bget (NBUF : Nat) (dev blockno : Nat) (s : BState) : Option (BNode × BState) :=
  let hash_bucket := hash dev blockno
  match bgetScan s hash_bucket dev blockno (NBUF + 1) (s.next (BNode.head hash_bucket)) with
  | none => none
  | some b =>
    if b ≠ BNode.null then
      some (b, s.setRefcnt b ((s.refcnt b + 1) % 2 ^ 32))
    else
      match unused_get hash_bucket s with
      | none => none
      | some (b1, s1) =>
        if b1 ≠ BNode.null then
          let s2 := (((s1.setDev b1 dev).setBlockno b1 blockno).setValid b1 0).setRefcnt b1 1
          match bucket_insert hash_bucket b1 s2 with
          | none => none
          | some s3 => some (b1, s3)
        else none

/-- Modelled from the spec: `virtio_disk_rw(b, 0)` (virtio_disk.c is not under src): the
disk driver is asked to read the block of `b`; the data of `b` become the contents
`disk dev blockno` of its block, and the request is recorded. -/
def virtio_disk_read (disk : Nat → Nat → Nat → Nat) (b : BNode) (s : BState) : BState :=
  { s with data := fun y => if y = b then disk (s.dev b) (s.blockno b) else s.data y,
           reads := b :: s.reads }

/-- The function `bread`. -/
def bread (NBUF : Nat) (disk : Nat → Nat → Nat → Nat) (dev blockno : Nat) (s : BState) :
    Option (BNode × BState) :=
  match bget NBUF dev blockno s with
  | none => none
  | some (b, s1) =>
    if s1.valid b = 0 then
      let s2 := virtio_disk_read disk b s1
      some (b, s2.setValid b 1)
    else some (b, s1)

/-- The function `brelse`, `held` being what `holdingsleep(&b->lock)` returns
(sleeplock.c is not under src); `none` is `panic("brelse")` or a null pointer that is
dereferenced. -/
def brelse ( held : Bool) (b : BNode) (s : BState) : Option BState :=
  if !held then none
  else
    let s1 := s.setRefcnt b ((s.refcnt b + (2 ^ 32 - 1)) % 2 ^ 32)
    if s1.refcnt b = 0 then
      if s1.next b = BNode.null then none
      else
        let s2 := s1.setPrev (s1.next b) (s1.prev b)
        if s2.prev b = BNode.null then none
        else unused_insert b (s2.setNext (s2.prev b) (s2.next b))
    else some s1

/-- The function `bpin`. -/
def bpin (b : BNode) (s : BState) : BState :=
  s.setRefcnt b ((s.refcnt b + 1) % 2 ^ 32)

/-- The function `bunpin`. -/
def bunpin (b : BNode) (s : BState) : BState :=
  s.setRefcnt b ((s.refcnt b + (2 ^ 32 - 1)) % 2 ^ 32)

/-! ## bio.c: the lists of the buffer cache -/

/-- The nodes `l`, in this order, lie between `x` and `z`: each node is the `next` of the
one before it and the `prev` of the one behind it. -/
def Path (s : BState) : BNode → List BNode → BNode → Prop
  | x, [], z => s.next x = z ∧ s.prev z = x
  | x, y :: l, z => s.next x = y ∧ s.prev y = x ∧ Path s y l z

/-- The list of the sentinel `h` is a doubly-linked ring through `h` that holds the
buffers `bcache.buf[i]` for `i` in `l`, from `h->next` (the most recent end) on. -/
def Ring (s : BState) (h : BNode) (l : List Nat) : Prop :=
  Path s h (l.map BNode.buf) h

/-- The sentinels of the `2 * NBUCKET` lists. -/
def isSentinel : BNode → Bool
  | BNode.head k => decide (k < NBUCKET)
  | BNode.unused k => decide (k < NBUCKET)
  | _ => false

/-- The lists of the buffer cache: `L h` are the indices of the buffers on the list of
the sentinel `h`; every list is a ring without repetition, and no buffer is on two
lists. -/
structure BLists (s : BState) (L : BNode → List Nat) : Prop where
  ring : ∀ h, isSentinel h = true → Ring s h (L h)
  nodup : ∀ h, (L h).Nodup
  disj : ∀ h h1 i, i ∈ L h → i ∈ L h1 → h = h1
  sent : ∀ h i, i ∈ L h → isSentinel h = true

/-- The lists hold exactly the buffers `bcache.buf[i]` with `i < n`. -/
def BRep (n : Nat) (s : BState) (L : BNode → List Nat) : Prop :=
  BLists s L ∧ ∀ i, i < n ↔ ∃ h, i ∈ L h

/-- The blocks of the active lists: a buffer of the active list of bucket `k` has a
block number with `blockno % NBUCKET = k`, and no two buffers of the active lists hold
the same block. -/
structure BIdent (s : BState) (L : BNode → List Nat) : Prop where
  bucket : ∀ k i, i ∈ L (BNode.head k) → s.blockno (BNode.buf i) % NBUCKET = k
  unique : ∀ k k1 i j, i ∈ L (BNode.head k) → j ∈ L (BNode.head k1) →
    s.dev (BNode.buf i) = s.dev (BNode.buf j) →
    s.blockno (BNode.buf i) = s.blockno (BNode.buf j) → i = j

/-- The reference counts of the lists: a buffer is on an unused list exactly when its
reference count is 0. -/
def BCount (s : BState) (L : BNode → List Nat) : Prop :=
  ∀ h i, i ∈ L h → ((∃ k, h = BNode.unused k) ↔ s.refcnt (BNode.buf i) = 0)

/-- The states of the buffer cache that `binit`, `bget`, `bread` and `brelse` reach from
the zeroed static memory, with `NBUF` buffers and the disk contents `disk`: `brelse` is
called on a buffer that is held (its reference count is at least 1), and `bget` and
`bread` are called while the reference counts, of type `uint`, are below the largest
value `2 ^ 32 - 1`. -/
inductive BReach (NBUF : Nat) (disk : Nat → Nat → Nat → Nat) : BState → Prop
  | binit (s : BState) : binit NBUF bzero = some s → BReach NBUF disk s
  | bget (s s1 : BState) (dev blockno : Nat) (b : BNode) : BReach NBUF disk s →
      (∀ i, i < NBUF → s.refcnt (BNode.buf i) < 2 ^ 32 - 1) →
      bget NBUF dev blockno s = some (b, s1) →
      BReach NBUF disk s1
  | bread (s s1 : BState) (dev blockno : Nat) (b : BNode) : BReach NBUF disk s →
      (∀ i, i < NBUF → s.refcnt (BNode.buf i) < 2 ^ 32 - 1) →
      bread NBUF disk dev blockno s = some (b, s1) →
      BReach NBUF disk s1
  | brelse (s s1 : BState) (i : Nat) : BReach NBUF disk s → i < NBUF →
      1 ≤ s.refcnt (BNode.buf i) → brelse true (BNode.buf i) s = some s1 →
      BReach NBUF disk s1

/-- The states of the buffer cache that `binit`, `bget`, `bread`, `brelse`, `bpin` and
`bunpin` reach from the zeroed static memory: `brelse` and `bunpin` are called on a
buffer that is held, with a reference count of at least 1. -/
inductive BReachPin (NBUF : Nat) (disk : Nat → Nat → Nat → Nat) : BState → Prop
  | binit (s : BState) : binit NBUF bzero = some s → BReachPin NBUF disk s
  | bget (s s1 : BState) (dev blockno : Nat) (b : BNode) : BReachPin NBUF disk s →
      bget NBUF dev blockno s = some (b, s1) → BReachPin NBUF disk s1
  | bread (s s1 : BState) (dev blockno : Nat) (b : BNode) : BReachPin NBUF disk s →
      bread NBUF disk dev blockno s = some (b, s1) → BReachPin NBUF disk s1
  | brelse (s s1 : BState) (i : Nat) : BReachPin NBUF disk s → i < NBUF →
      1 ≤ s.refcnt (BNode.buf i) → brelse true (BNode.buf i) s = some s1 →
      BReachPin NBUF disk s1
  | bpin (s : BState) (i : Nat) : BReachPin NBUF disk s → i < NBUF →
      BReachPin NBUF disk (bpin (BNode.buf i) s)
  | bunpin (s : BState) (i : Nat) : BReachPin NBUF disk s → i < NBUF →
      1 ≤ s.refcnt (BNode.buf i) → BReachPin NBUF disk (bunpin (BNode.buf i) s)

/-- The fields of the buffers other than the links are the same in both states, and so
are the requests to the disk driver. -/
def SameBlocks (s s1 : BState) : Prop :=
  s1.dev = s.dev ∧ s1.blockno = s.blockno ∧ s1.valid = s.valid ∧ s1.refcnt = s.refcnt ∧
    s1.data = s.data ∧ s1.reads = s.reads

/-- The lists after the buffer `i` has gone from the list of `h0` to the head of the list
of `h1`. -/
def moveTo (L : BNode → List Nat) (h0 h1 : BNode) (i : Nat) : BNode → List Nat :=
  Function.update (Function.update L h0 ((L h0).erase i)) h1
    (i :: Function.update L h0 ((L h0).erase i) h1)

/-- The first buffer of the list `l` that holds the block `(dev, blockno)`. -/
def findBlock (s : BState) (dev blockno : Nat) (l : List Nat) : Option Nat :=
  l.find? (fun i => decide (s.dev (BNode.buf i) = dev ∧ s.blockno (BNode.buf i) = blockno))

/-! ## bio.c: example states -/

/-- A disk for the examples: the byte `j` of the block `blockno` of the device `dev`. -/
def disk0 : Nat → Nat → Nat → Nat := fun dev blockno j => (dev + blockno + j) % 256

/-- The buffer cache with 30 buffers after `binit`. -/
def sB0 : BState := (binit 30 bzero).getD bzero

/-- The state `sB0` after `bread(1, 0)`. -/
def sB1 : BState := ((bread 30 disk0 1 0 sB0).map Prod.snd).getD bzero

/-- The state `sB1` after `brelse` of the buffer that `bread(1, 0)` returned. -/
def sB2 : BState := (brelse true (BNode.buf 0) sB1).getD bzero

/-- The state `sB1` after `bpin` of the buffer that `bread(1, 0)` returned. -/
def sB3 : BState := bpin (BNode.buf 0) sB1

/-- The calls `bread(dev, 0)`, ..., `bread(dev, n - 1)` one after the other, no buffer
being released: the buffers that are returned, each with its `dev` and `blockno`, and the
state at the end. -/
def breadAll (NBUF : Nat) (disk : Nat → Nat → Nat → Nat) (dev : Nat) :
    Nat → BState → Option (List (BNode × Nat × Nat) × BState)
  | 0, s => some ([], s)
  | n + 1, s =>
    match breadAll NBUF disk dev n s with
    | none => none
    | some (l, s1) =>
      match bread NBUF disk dev n s1 with
      | none => none
      | some (b, s2) => some (l ++ [(b, s2.dev b, s2.blockno b)], s2)

/-- A buffer cache without buffers after `binit`. -/
def sBNone : BState := (binit 0 bzero).getD bzero

/-- The state `sEmpty` after `mappages` has mapped page 0 to the frame 20480 with the
permission `PTE_U` alone: the entry is valid, carries the U bit, and has none of the bits
R, W and X. -/
def sUserOnly : KState :=
  ((mappages L1 0 61440 0 PGSIZE 20480 PTE_U sEmpty).getD (0, sEmpty)).2

/-- The state `sEmpty` after `mappages` has mapped page 0 to the frame 20480 with no
permission bit at all: the flags of the entry are `PTE_V` alone. -/
def sBare : KState :=
  ((mappages L1 0 61440 0 PGSIZE 20480 0 sEmpty).getD (0, sEmpty)).2

/-- The `for` loop of `ksteal` with a log: next to the result of `kstealLoop` it returns
the CPUs whose lists were passed to `kget`, in the order of the calls. -/
def kstealLoopLog (L : Layout) (cpuid : Nat) :
    Nat → Nat → KState → Option (List Nat × Option Nat × KState)
  | 0, _, _ => none
  | fuel + 1, i, s =>
    if i = cpuid then some ([], none, s)
    else
      let i1 := if i = L.NCPU then 0 else i
      if i = L.NCPU ∧ i1 = cpuid then some ([], none, s)
      else
        match kget i1 s with
        | (some r, s1) => some ([i1], some r, s1)
        | (none, s1) =>
          (kstealLoopLog L cpuid fuel (i1 + 1) s1).map (fun x => (i1 :: x.1, x.2))

/-- The function `ksteal` with the log of its calls of `kget`. -/
def kstealLog (L : Layout) (cpuid : Nat) (s : KState) :
    Option (List Nat × Option Nat × KState) :=
  kstealLoopLog L cpuid (L.NCPU + 1) (cpuid + 1) s

/-- A machine with four CPUs. -/
def L4 : Layout := { NCPU := 4, kend := 4096, PHYSTOP := 65536, PGCOUNT := 16 }

/-- A state of `L4` in which the lists of the CPUs 2 and 3 are empty and the lists of the
CPUs 0 and 1 hold frames. -/
def sSteal : KState :=
  { freelist := fun c => if c = 0 then [8192, 12288] else if c = 1 then [16384] else [],
    ref := fun _ => 0,
    mem := fun _ => 0 }

/-- The loop of `unused_steal` with a log: next to the result of `unusedStealLoop` it
returns the buckets that were passed to `unused_fetch`, in the order of the calls. -/
def unusedStealLoopLog (bucket : Nat) : Nat → Nat → BState → Option (List Nat × BNode × BState)
  | 0, _, _ => none
  | fuel + 1, i, s =>
    if i ≠ bucket then
      match unused_fetch i s with
      | none => none
      | some (b, s1) =>
        if b ≠ BNode.null then some ([i], b, s1)
        else (unusedStealLoopLog bucket fuel ((i + 1) % NBUCKET) s1).map
          (fun x => (i :: x.1, x.2))
    else some ([], BNode.null, s)

/-- The function `unused_get` with the log of its calls of `unused_fetch`, those of
`unused_steal` included. -/
def unused_getLog (bucket : Nat) (s : BState) : Option (List Nat × BNode × BState) :=
  match unused_fetch bucket s with
  | none => none
  | some (b, s1) =>
    if b = BNode.null then
      (unusedStealLoopLog bucket NBUCKET ((bucket + 1) % NBUCKET) s1).map
        (fun x => (bucket :: x.1, x.2))
    else some ([bucket], b, s1)

/-- The buffer cache after `binit` with three buffers: the unused lists of the buckets 0,
1 and 2 hold one buffer each, and the other lists are empty. -/
def sBFew : BState := (binit 3 bzero).getD bzero

/-- The buffers of the unused lists have no reference. -/
def BIdle (s : BState) (L : BNode → List Nat) : Prop :=
  ∀ k i, i ∈ L (BNode.unused k) → s.refcnt (BNode.buf i) = 0

/-- The states of the buffer cache that `binit`, `bget`, `bread`, `brelse`, `bpin` and
`bunpin` reach from the zeroed static memory when `brelse`, `bpin` and `bunpin` are
called by a holder of the buffer, so that its reference count is at least 1. -/
inductive BReachHeld (NBUF : Nat) (disk : Nat → Nat → Nat → Nat) : BState → Prop
  | binit (s : BState) : binit NBUF bzero = some s → BReachHeld NBUF disk s
  | bget (s s1 : BState) (dev blockno : Nat) (b : BNode) : BReachHeld NBUF disk s →
      bget NBUF dev blockno s = some (b, s1) → BReachHeld NBUF disk s1
  | bread (s s1 : BState) (dev blockno : Nat) (b : BNode) : BReachHeld NBUF disk s →
      bread NBUF disk dev blockno s = some (b, s1) → BReachHeld NBUF disk s1
  | brelse (s s1 : BState) (i : Nat) : BReachHeld NBUF disk s → i < NBUF →
      1 ≤ s.refcnt (BNode.buf i) → brelse true (BNode.buf i) s = some s1 →
      BReachHeld NBUF disk s1
  | bpin (s : BState) (i : Nat) : BReachHeld NBUF disk s → i < NBUF →
      1 ≤ s.refcnt (BNode.buf i) → BReachHeld NBUF disk (bpin (BNode.buf i) s)
  | bunpin (s : BState) (i : Nat) : BReachHeld NBUF disk s → i < NBUF →
      1 ≤ s.refcnt (BNode.buf i) → BReachHeld NBUF disk (bunpin (BNode.buf i) s)

/-- A state of `L1` with zeroed memory and four free frames: the pages at 61440 and 57344
are empty root page tables; they and the frame 20480 are allocated. -/
def sRoomy : KState :=
  { freelist := fun c => if c = 0 then [8192, 12288, 16384, 24576] else [],
    ref := fun i => if i = 15 ∨ i = 14 ∨ i = 5 then 1 else 0,
    mem := fun _ => 0 }

/-- The state `sRoomy` after `mappages` has mapped page 0 of the table at 61440 to the
frame 20480, readable and writable by the user. -/
def sRoomyMapped : KState :=
  ((mappages L1 0 61440 0 PGSIZE 20480 (PTE_R ||| PTE_W ||| PTE_U) sRoomy).getD (0, sRoomy)).2

/-- The state `sRoomyMapped` after `proc_usermapping(p, 0, PGSIZE)` for the process
`pEx`: the kernel table at 57344 shadows page 0. -/
def sShadow : KState := (proc_usermapping L1 0 pEx 0 PGSIZE sRoomyMapped).getD sRoomyMapped

/-! ## Freeing the pages of a table -/

/-- A state of `L1` with zeroed memory and two free frames; the root at 61440 and the
frames 20480 and 24576 are allocated. -/
def sTwoFree : KState :=
  { freelist := fun c => if c = 0 then [8192, 12288] else [],
    ref := fun i => if i = 15 ∨ i = 5 ∨ i = 6 then 1 else 0,
    mem := fun _ => 0 }

/-- The state `sTwoFree` after `mappages` has mapped page 511, the last page of the first
level-0 table, to the frame 20480: the two free frames have become the level-1 and the
level-0 page. -/
def sTwoFirst : KState :=
  ((mappages L1 0 61440 (511 * PGSIZE) PGSIZE 20480 (PTE_R ||| PTE_W ||| PTE_U)
    sTwoFree).getD (0, sTwoFree)).2

/-- The state `sTwoFree` after `mappages` of the pages 511 and 512 has failed at page
512, for whose level-0 page no frame is left. -/
def sTwoFailed : KState :=
  ((mappages L1 0 61440 (511 * PGSIZE) (2 * PGSIZE) 20480 (PTE_R ||| PTE_W ||| PTE_U)
    sTwoFree).getD (0, sTwoFree)).2

/-- A process whose table holds one valid region, the page five pages below `MAXVA`, in
entry 0, and in entry 1 an entry that is not valid but still holds the addresses of the
page above it. -/
def pStale : Proc :=
  { sz := 4 * PGSIZE, vma_bound := MAXVA - 5 * PGSIZE, kernel_pagetable := 57344,
    pagetable := 61440, ustack := 8192,
    vma := fun i => if i = 0 then ⟨1, MAXVA - 5 * PGSIZE, MAXVA - 4 * PGSIZE, 3, 0, 7, 0⟩
      else if i = 1 then ⟨0, MAXVA - 4 * PGSIZE, MAXVA - 3 * PGSIZE, 3, 0, 8, 0⟩
      else ⟨0, 0, 0, 0, 0, 0, 0⟩ }

/-- A process whose one valid region, of two pages, ends one page above the trapframe
of `V1`. -/
def pHigh : Proc :=
  { sz := 4 * PGSIZE, vma_bound := MAXVA - 3 * PGSIZE, kernel_pagetable := 57344,
    pagetable := 61440, ustack := 8192,
    vma := fun i => if i = 0 then ⟨1, MAXVA - 3 * PGSIZE, MAXVA - PGSIZE, 3, 0, 7, 0⟩
      else ⟨0, 0, 0, 0, 0, 0, 0⟩ }

/-! ## Theorems: the page allocator -/

theorem kget_nil (c : Nat) (s : KState) (h : s.freelist c = []) : kget c s = (none, s) := by
  simp [kget, h]

theorem kget_cons (c f : Nat) (rest : List Nat) (s : KState) (h : s.freelist c = f :: rest) :
    kget c s = (some f, s.setList c rest) := by
  simp [kget, h]

theorem add_mod_cases (c d N : Nat) (hc : c < N) (hd : d < N) :
    (c + d) % N = if c + d < N then c + d else c + d - N := by
  split
  · next h => exact Nat.mod_eq_of_lt h
  · next h =>
    have h1 : c + d = (c + d - N) + N := by omega
    rw [h1, Nat.add_mod_right, Nat.mod_eq_of_lt (by omega)]
    omega

theorem kstealLoop_spec (L : Layout) (c : Nat) (s : KState) (hc : c < L.NCPU) :
    ∀ fuel d, 1 ≤ d → d ≤ L.NCPU → L.NCPU + 1 ≤ fuel + d →
      (∀ e, 1 ≤ e → e < d → s.freelist ((c + e) % L.NCPU) = []) →
      ∃ r s', kstealLoop L c fuel (if c + d ≤ L.NCPU then c + d else c + d - L.NCPU) s
          = some (r, s') ∧ StealResult L c s r s' := by
  intro fuel
  induction fuel with
  | zero => intro d h1 h2 h3; omega
  | succ fuel ih =>
    intro d h1 h2 h3 hemp
    by_cases hdN : d = L.NCPU
    · -- the scan is back at `c`
      subst hdN
      refine ⟨none, s, ?_, Or.inl ⟨rfl, rfl, hemp⟩⟩
      unfold kstealLoop
      by_cases hc0 : c = 0
      · subst hc0; simp
      · have : ¬ (c + L.NCPU ≤ L.NCPU) := by omega
        simp [this]
    · have hd : d < L.NCPU := by omega
      have hmod := add_mod_cases c d L.NCPU hc hd
      unfold kstealLoop
      by_cases hle : c + d ≤ L.NCPU
      · simp only [hle, if_true]
        have hne : ¬ (c + d = c) := by omega
        simp only [hne, if_false]
        by_cases heq : c + d = L.NCPU
        · -- wrap around to CPU 0
          have hi1 : (c + d) % L.NCPU = 0 := by rw [hmod, if_neg (by omega)]; omega
          have hc0 : ¬ ((0 : Nat) = c) := by omega
          simp only [heq, if_true, true_and, hc0, if_false]
          cases hl : s.freelist 0 with
          | nil =>
            rw [kget_nil 0 s hl]
            have := ih (d + 1) (by omega) (by omega) (by omega) (by
              intro e he1 he2
              by_cases hed : e = d
              · subst hed; rw [hi1]; exact hl
              · exact hemp e he1 (by omega))
            have hgt : ¬ (c + (d + 1) ≤ L.NCPU) := by omega
            simp only [hgt, if_false] at this
            have h01 : c + (d + 1) - L.NCPU = 0 + 1 := by omega
            rw [h01] at this
            exact this
          | cons f rest =>
            rw [kget_cons 0 f rest s hl]
            exact ⟨some f, _, rfl, Or.inr ⟨d, f, rest, rfl, h1, hd, hemp, by rw [hi1]; exact hl, by rw [hi1]⟩⟩
        · have hlt : c + d < L.NCPU := by omega
          have hi1 : (c + d) % L.NCPU = c + d := by rw [hmod, if_pos hlt]
          simp only [heq, if_false, false_and]
          cases hl : s.freelist (c + d) with
          | nil =>
            rw [kget_nil _ s hl]
            have := ih (d + 1) (by omega) (by omega) (by omega) (by
              intro e he1 he2
              by_cases hed : e = d
              · subst hed; rw [hi1]; exact hl
              · exact hemp e he1 (by omega))
            have hgt : c + (d + 1) ≤ L.NCPU := by omega
            simp only [hgt, if_true] at this
            exact this
          | cons f rest =>
            rw [kget_cons _ f rest s hl]
            exact ⟨some f, _, rfl, Or.inr ⟨d, f, rest, rfl, h1, hd, hemp, by rw [hi1]; exact hl, by rw [hi1]⟩⟩
      · simp only [hle, if_false]
        have hne : ¬ (c + d - L.NCPU = c) := by omega
        have hneN : ¬ (c + d - L.NCPU = L.NCPU) := by omega
        have hi1 : (c + d) % L.NCPU = c + d - L.NCPU := by
          rw [hmod, if_neg (by omega)]
        simp only [hne, if_false, hneN, false_and]
        cases hl : s.freelist (c + d - L.NCPU) with
        | nil =>
          rw [kget_nil _ s hl]
          have := ih (d + 1) (by omega) (by omega) (by omega) (by
            intro e he1 he2
            by_cases hed : e = d
            · subst hed; rw [hi1]; exact hl
            · exact hemp e he1 (by omega))
          have hgt : ¬ (c + (d + 1) ≤ L.NCPU) := by omega
          simp only [hgt, if_false] at this
          have h01 : c + (d + 1) - L.NCPU = c + d - L.NCPU + 1 := by omega
          rw [h01] at this
          exact this
        | cons f rest =>
          rw [kget_cons _ f rest s hl]
          exact ⟨some f, _, rfl, Or.inr ⟨d, f, rest, rfl, h1, hd, hemp, by rw [hi1]; exact hl, by rw [hi1]⟩⟩

theorem ksteal_spec (L : Layout) (c : Nat) (s : KState) (hc : c < L.NCPU) :
    ∃ r s', ksteal L c s = some (r, s') ∧ StealResult L c s r s' := by
  have := kstealLoop_spec L c s hc (L.NCPU + 1) 1 (by omega) (by omega) (by omega)
    (by intro e h1 h2; omega)
  have hle : c + 1 ≤ L.NCPU := by omega
  simp only [hle, if_true] at this
  exact this

theorem setList_same (s : KState) (c : Nat) (l : List Nat) : (s.setList c l).freelist c = l := by
  simp [KState.setList]

theorem setList_other (s : KState) (c i : Nat) (l : List Nat) (h : i ≠ c) :
    (s.setList c l).freelist i = s.freelist i := by
  simp [KState.setList, h]

theorem memset_freelist (pa v : Nat) (s : KState) : (memset pa v s).freelist = s.freelist := rfl
theorem inc_refcount_freelist (pa : Nat) (s : KState) : (inc_refcount pa s).freelist = s.freelist := rfl
theorem dec_refcount_freelist (pa : Nat) (s : KState) : (dec_refcount pa s).freelist = s.freelist := rfl

theorem other_cpu_reached (c i N : Nat) (hc : c < N) (hi : i < N) (hne : i ≠ c) :
    ∃ e, 1 ≤ e ∧ e < N ∧ (c + e) % N = i := by
  by_cases h : c < i
  · exact ⟨i - c, by omega, by omega, by rw [show c + (i - c) = i by omega]; exact Nat.mod_eq_of_lt hi⟩
  · refine ⟨i + N - c, by omega, by omega, ?_⟩
    rw [show c + (i + N - c) = i + N by omega, Nat.add_mod_right]
    exact Nat.mod_eq_of_lt hi

/-- C1: run on CPU `c < NCPU`, `kalloc` returns; it returns null exactly when every
per-CPU free list is empty; when the list of `c` is non-empty it returns its head;
otherwise it returns the head of the first non-empty list in the order `c+1`,
`c+2`, ... modulo `NCPU`; in both cases exactly that head is removed from that list
and every other list is unchanged. -/
theorem kalloc_returns (L : Layout) (c : Nat) (s : KState) (hc : c < L.NCPU) :
    ∃ r s', kalloc L c s = some (r, s') ∧
      (r = none ↔ ∀ i, i < L.NCPU → s.freelist i = []) ∧
      (∀ f rest, s.freelist c = f :: rest →
        r = some f ∧ s'.freelist c = rest ∧ ∀ i, i ≠ c → s'.freelist i = s.freelist i) ∧
      (s.freelist c = [] → ∀ f, r = some f →
        ∃ d rest, 1 ≤ d ∧ d < L.NCPU ∧
          (∀ e, 1 ≤ e → e < d → s.freelist ((c + e) % L.NCPU) = []) ∧
          s.freelist ((c + d) % L.NCPU) = f :: rest ∧
          s'.freelist ((c + d) % L.NCPU) = rest ∧
          ∀ i, i ≠ (c + d) % L.NCPU → s'.freelist i = s.freelist i) := by
  cases hl : s.freelist c with
  | cons f rest =>
    refine ⟨some f, memset f 5 (inc_refcount f (s.setList c rest)), ?_, ?_, ?_, ?_⟩
    · simp [kalloc, kget_cons c f rest s hl]
    · constructor
      · intro h; cases h
      · intro h; rw [h c hc] at hl; cases hl
    · intro f1 rest1 h
      cases h
      refine ⟨rfl, ?_, ?_⟩
      · simp [memset_freelist, inc_refcount_freelist, setList_same]
      · intro i hi
        simp [memset_freelist, inc_refcount_freelist, setList_other _ _ _ _ hi]
    · intro h; cases h
  | nil =>
    obtain ⟨r, s1, hst, hres⟩ := ksteal_spec L c s hc
    rcases hres with ⟨hr, hs1, hemp⟩ | ⟨d, f, rest, hr, hd1, hd2, hemp, hhead, hs1⟩
    · subst hr; rw [hs1] at hst
      refine ⟨none, s, ?_, ?_, ?_, ?_⟩
      · simp [kalloc, kget_nil c s hl, hst]
      · constructor
        · intro _ i hi
          by_cases hic : i = c
          · subst hic; exact hl
          · obtain ⟨e, he1, he2, he3⟩ := other_cpu_reached c i L.NCPU hc hi hic
            rw [← he3]; exact hemp e he1 he2
        · intro _; rfl
      · intro f rest h; cases h
      · intro _ f h; cases h
    · subst hr; subst hs1
      refine ⟨some f, memset f 5 (inc_refcount f (s.setList ((c + d) % L.NCPU) rest)), ?_, ?_, ?_, ?_⟩
      · simp [kalloc, kget_nil c s hl, hst]
      · constructor
        · intro h; cases h
        · intro h
          rw [h _ (Nat.mod_lt _ (by omega))] at hhead; cases hhead
      · intro f1 rest1 h; cases h
      · intro _ f1 h
        cases h
        refine ⟨d, rest, hd1, hd2, hemp, hhead, ?_, ?_⟩
        · simp [memset_freelist, inc_refcount_freelist, setList_same]
        · intro i hi
          simp [memset_freelist, inc_refcount_freelist, setList_other _ _ _ _ hi]

theorem sum_map_update (F G : Nat → Nat) (c : Nat) (h : ∀ i, i ≠ c → F i = G i) :
    ∀ N, c < N → ((List.range N).map F).sum + G c = ((List.range N).map G).sum + F c := by
  intro N
  induction N with
  | zero => intro h0; omega
  | succ n ih =>
    intro hc
    rw [List.range_succ]
    simp only [List.map_append, List.sum_append, List.map_cons, List.map_nil, List.sum_cons,
      List.sum_nil, Nat.add_zero]
    by_cases hcn : c = n
    · subst hcn
      have : (List.range c).map F = (List.range c).map G := by
        apply List.map_congr_left
        intro i hi
        exact h i (by have := List.mem_range.mp hi; omega)
      rw [this]; omega
    · have := ih (by omega)
      have hn := h n (by omega)
      omega

theorem occ_setList (L : Layout) (s : KState) (c : Nat) (l : List Nat) (g : Nat)
    (hc : c < L.NCPU) :
    occ L (s.setList c l) g + (s.freelist c).count g = occ L s g + l.count g := by
  have := sum_map_update (fun i => ((s.setList c l).freelist i).count g)
    (fun i => (s.freelist i).count g) c
    (by intro i hi; simp [KState.setList, hi]) L.NCPU hc
  simp only [setList_same] at this
  exact this

theorem count_le_occ (L : Layout) (s : KState) (c f : Nat) (hc : c < L.NCPU) :
    (s.freelist c).count f ≤ occ L s f := by
  have := sum_map_update (fun i => if i = c then 0 else (s.freelist i).count f)
    (fun i => (s.freelist i).count f) c (by intro i hi; simp [hi]) L.NCPU hc
  simp only [if_true] at this
  unfold occ
  omega

theorem occ_pos_of_mem (L : Layout) (s : KState) (c f : Nat) (hc : c < L.NCPU)
    (h : f ∈ s.freelist c) : 1 ≤ occ L s f := by
  have h1 := count_le_occ L s c f hc
  have h2 : 0 < (s.freelist c).count f := List.count_pos_iff.mpr h
  omega

theorem mem_of_occ_pos (L : Layout) (s : KState) (f : Nat) (h : 1 ≤ occ L s f) :
    ∃ c, c < L.NCPU ∧ f ∈ s.freelist c := by
  unfold occ at h
  by_contra hno
  have : ((List.range L.NCPU).map (fun c => (s.freelist c).count f)).sum = 0 := by
    apply List.sum_eq_zero
    intro x hx
    obtain ⟨c, hc, rfl⟩ := List.mem_map.mp hx
    have hc := List.mem_range.mp hc
    by_contra h0
    exact hno ⟨c, hc, List.count_pos_iff.mp (Nat.pos_of_ne_zero h0)⟩
  omega

theorem occ_congr (L : Layout) (s s' : KState) (h : s'.freelist = s.freelist) (f : Nat) :
    occ L s' f = occ L s f := by
  unfold occ; rw [h]

/-- The state `kfree` leaves when the counter reaches zero. -/
theorem kfree_cases (L : Layout) (pa : Nat) (s s' : KState) (h : kfree L pa s = some s') :
    pa % PGSIZE = 0 ∧ L.kend ≤ pa ∧ pa < L.PHYSTOP ∧
    ((refcount pa (dec_refcount pa s) ≠ 0 ∧ s' = dec_refcount pa s) ∨
     (refcount pa (dec_refcount pa s) = 0 ∧ s'.ref = (dec_refcount pa s).ref ∧
      s'.freelist = (s.setList (cpu_map L pa) (pa :: s.freelist (cpu_map L pa))).freelist)) := by
  unfold kfree at h
  split at h
  · cases h
  · next hv =>
    have hv1 : pa % PGSIZE = 0 ∧ L.kend ≤ pa ∧ pa < L.PHYSTOP := by omega
    refine ⟨hv1.1, hv1.2.1, hv1.2.2, ?_⟩
    simp only at h
    split at h
    · next hr => left; exact ⟨hr, by cases h; rfl⟩
    · next hr =>
      right
      refine ⟨by simpa using hr, ?_, ?_⟩
      · cases h; rfl
      · cases h; rfl

theorem kfree_valid (L : Layout) (pa : Nat) (s : KState)
    (h1 : pa % PGSIZE = 0) (h2 : L.kend ≤ pa) (h3 : pa < L.PHYSTOP) :
    kfree L pa s =
      if refcount pa (dec_refcount pa s) ≠ 0 then some (dec_refcount pa s)
      else some (((memset pa 1 (dec_refcount pa s)).write pa
          ((s.freelist (cpu_map L pa)).headD 0)).setList (cpu_map L pa)
            (pa :: s.freelist (cpu_map L pa))) := by
  unfold kfree
  have : ¬ (pa % PGSIZE ≠ 0 ∨ pa < L.kend ∨ pa ≥ L.PHYSTOP) := by omega
  rw [if_neg this]
  rfl

theorem refcount_dec_same (pa : Nat) (s : KState) :
    refcount pa (dec_refcount pa s) = (refcount pa s + 255) % 256 := by
  simp [refcount, dec_refcount]

theorem refcount_inc_same (pa : Nat) (s : KState) :
    refcount pa (inc_refcount pa s) = (refcount pa s + 1) % 256 := by
  simp [refcount, inc_refcount]

theorem frame_ne (f g : Nat) (hf : f % PGSIZE = 0) (hg : g % PGSIZE = 0) (h : f ≠ g) :
    f / PGSIZE ≠ g / PGSIZE := by
  unfold PGSIZE at *; omega

theorem ref_inc_other (pa g : Nat) (s : KState) (h : g / PGSIZE ≠ pa / PGSIZE) :
    (inc_refcount pa s).ref (g / PGSIZE) = s.ref (g / PGSIZE) := by
  simp [inc_refcount, h]

theorem kalloc_result (L : Layout) (c : Nat) (s : KState) (hc : c < L.NCPU) :
    ∃ r s', kalloc L c s = some (r, s') ∧ KallocResult L c s r s' := by
  cases hl : s.freelist c with
  | cons f rest =>
    refine ⟨some f, memset f 5 (inc_refcount f (s.setList c rest)), ?_, ?_⟩
    · simp [kalloc, kget_cons c f rest s hl]
    · exact Or.inr ⟨c, f, rest, rfl, hc, hl, rfl, Or.inl rfl⟩
  | nil =>
    obtain ⟨r, s1, hst, hres⟩ := ksteal_spec L c s hc
    rcases hres with ⟨hr, hs1, hemp⟩ | ⟨d, f, rest, hr, hd1, hd2, hemp, hhead, hs1⟩
    · subst hr; rw [hs1] at hst
      refine ⟨none, s, ?_, Or.inl ⟨rfl, rfl, ?_⟩⟩
      · simp [kalloc, kget_nil c s hl, hst]
      · intro i hi
        by_cases hic : i = c
        · subst hic; exact hl
        · obtain ⟨e, he1, he2, he3⟩ := other_cpu_reached c i L.NCPU hc hi hic
          rw [← he3]; exact hemp e he1 he2
    · subst hr; subst hs1
      refine ⟨some f, memset f 5 (inc_refcount f (s.setList ((c + d) % L.NCPU) rest)), ?_, ?_⟩
      · simp [kalloc, kget_nil c s hl, hst]
      · exact Or.inr ⟨(c + d) % L.NCPU, f, rest, rfl, Nat.mod_lt _ (by omega), hhead, rfl,
          Or.inr ⟨hl, d, hd1, hd2, rfl, hemp⟩⟩

theorem kalloc_result_of_eq (L : Layout) (c : Nat) (s s' : KState) (r : Option Nat)
    (hc : c < L.NCPU) (h : kalloc L c s = some (r, s')) : KallocResult L c s r s' := by
  obtain ⟨r1, s1, h1, h2⟩ := kalloc_result L c s hc
  rw [h1] at h
  cases h
  exact h2

/-- C1 (witness): the claim at CPU 0 of the machine `L0` right after `kinit`. -/
theorem kalloc_returns_witness :
    ∃ r s', kalloc L0 0 s0 = some (r, s') ∧
      (r = none ↔ ∀ i, i < L0.NCPU → s0.freelist i = []) ∧
      (∀ f rest, s0.freelist 0 = f :: rest →
        r = some f ∧ s'.freelist 0 = rest ∧ ∀ i, i ≠ 0 → s'.freelist i = s0.freelist i) ∧
      (s0.freelist 0 = [] → ∀ f, r = some f →
        ∃ d rest, 1 ≤ d ∧ d < L0.NCPU ∧
          (∀ e, 1 ≤ e → e < d → s0.freelist ((0 + e) % L0.NCPU) = []) ∧
          s0.freelist ((0 + d) % L0.NCPU) = f :: rest ∧
          s'.freelist ((0 + d) % L0.NCPU) = rest ∧
          ∀ i, i ≠ (0 + d) % L0.NCPU → s'.freelist i = s0.freelist i) :=
  kalloc_returns L0 0 s0 (by decide)

theorem and_bit_ne_zero (x k : Nat) : (x &&& 2 ^ k ≠ 0) ↔ x.testBit k = true := by
  rw [Nat.and_two_pow]
  cases h : x.testBit k <;> simp

theorem PX_eq (l va : Nat) : PX l va = (va / 2 ^ (12 + 9 * l)) % 512 := by
  unfold PX
  have := Nat.and_pow_two_sub_one_eq_mod (va >>> (12 + 9 * l)) 9
  norm_num at this
  rw [this, Nat.shiftRight_eq_div_pow]

theorem PX_lt (l va : Nat) : PX l va < 512 := by
  rw [PX_eq]; omega

theorem PX2_eq (va : Nat) : PX 2 va = (va / 1073741824) % 512 := by
  rw [PX_eq]; norm_num

theorem PX1_eq (va : Nat) : PX 1 va = (va / 2097152) % 512 := by
  rw [PX_eq]; norm_num

theorem PX0_eq (va : Nat) : PX 0 va = (va / 4096) % 512 := by
  rw [PX_eq]; norm_num

/-- Below `2^39` the three indices determine the page. -/
theorem PX_inj (va va' : Nat) (h : va < 2 ^ 39) (h' : va' < 2 ^ 39)
    (h2 : PX 2 va = PX 2 va') (h1 : PX 1 va = PX 1 va') (h0 : PX 0 va = PX 0 va') :
    va / PGSIZE = va' / PGSIZE := by
  rw [PX2_eq, PX2_eq] at h2
  rw [PX1_eq, PX1_eq] at h1
  rw [PX0_eq, PX0_eq] at h0
  unfold PGSIZE
  omega

theorem PX_congr (l va va' : Nat) (h : va / PGSIZE = va' / PGSIZE) : PX l va = PX l va' := by
  rw [PX_eq, PX_eq]
  have e : ∀ x, x / 2 ^ (12 + 9 * l) = x / PGSIZE / 2 ^ (9 * l) := by
    intro x
    rw [Nat.pow_add, Nat.div_div_eq_div_mul]
    rfl
  rw [e va, e va', h]

theorem MAXVA_eq : MAXVA = 274877906944 := by decide

theorem PTE2PA_aligned (x : Nat) : PTE2PA x % PGSIZE = 0 := by
  unfold PTE2PA PGSIZE
  rw [Nat.shiftLeft_eq]
  omega

theorem PTE2PA_lt (x : Nat) : PTE2PA x < 2 ^ 64 := by
  unfold PTE2PA
  exact Nat.mod_lt _ (by norm_num)

theorem PA2PTE_eq (g : Nat) (h2 : g < 2 ^ 64) :
    PA2PTE g = 2 ^ 10 * (g / 4096) := by
  unfold PA2PTE
  rw [Nat.shiftLeft_eq, Nat.shiftRight_eq_div_pow, Nat.mod_eq_of_lt h2]
  have : g / 2 ^ 12 * 2 ^ 10 < 2 ^ 64 := by omega
  rw [Nat.mod_eq_of_lt this]
  norm_num
  omega

theorem pte_make (g f : Nat) (h2 : g < 2 ^ 64) (hf : f < 1024) :
    PA2PTE g ||| f = 1024 * (g / 4096) + f := by
  rw [PA2PTE_eq g h2]
  have := @Nat.mul_add_lt_is_or 10 f (by omega) (g / 4096)
  rw [← this]

theorem PTE2PA_make (g f : Nat) (h1 : g % PGSIZE = 0) (h2 : g < 2 ^ 64) (hf : f < 1024) :
    PTE2PA (PA2PTE g ||| f) = g := by
  rw [pte_make g f h2 hf]
  unfold PTE2PA
  unfold PGSIZE at h1
  rw [Nat.shiftLeft_eq, Nat.shiftRight_eq_div_pow]
  have : (1024 * (g / 4096) + f) / 2 ^ 10 = g / 4096 := by omega
  rw [this]
  omega

theorem PTE_FLAGS_eq (x : Nat) : PTE_FLAGS x = x % 1024 := by
  unfold PTE_FLAGS
  have := Nat.and_pow_two_sub_one_eq_mod x 10
  norm_num at this
  exact this

theorem PTE_FLAGS_make (g f : Nat) (h2 : g < 2 ^ 64) (hf : f < 1024) :
    PTE_FLAGS (PA2PTE g ||| f) = f := by
  rw [pte_make g f h2 hf, PTE_FLAGS_eq]
  omega

theorem testBit_make (g f k : Nat) (h2 : g < 2 ^ 64) (hk : k < 10) :
    (PA2PTE g ||| f).testBit k = f.testBit k := by
  rw [Nat.testBit_or]
  have : (PA2PTE g).testBit k = false := by
    rw [PA2PTE_eq g h2, Nat.mul_comm, ← Nat.shiftLeft_eq, Nat.testBit_shiftLeft]
    simp; omega
  rw [this]; simp

theorem valid_iff (x : Nat) : (x &&& PTE_V ≠ 0) ↔ x.testBit 0 = true :=
  and_bit_ne_zero x 0

theorem user_iff (x : Nat) : (x &&& PTE_U ≠ 0) ↔ x.testBit 4 = true :=
  and_bit_ne_zero x 4

theorem or_V_lt (perm : Nat) (h : perm < 1024) : perm ||| PTE_V < 1024 :=
  @Nat.or_lt_two_pow perm PTE_V 10 h (by decide)

theorem leaf_valid (pa perm : Nat) : (PA2PTE pa ||| perm ||| PTE_V) &&& PTE_V ≠ 0 := by
  rw [valid_iff, Nat.testBit_or]
  simp [PTE_V]

theorem leaf_eq (pa perm : Nat) :
    PA2PTE pa ||| perm ||| PTE_V = PA2PTE pa ||| (perm ||| PTE_V) := Nat.or_assoc _ _ _

theorem leaf_user (pa perm : Nat) (h : perm &&& PTE_U ≠ 0) :
    (PA2PTE pa ||| perm ||| PTE_V) &&& PTE_U ≠ 0 := by
  rw [user_iff] at *
  rw [Nat.testBit_or, Nat.testBit_or, h]
  simp

theorem leaf_pa (pa perm : Nat) (h1 : pa % PGSIZE = 0) (h2 : pa < 2 ^ 64) (hp : perm < 1024) :
    PTE2PA (PA2PTE pa ||| perm ||| PTE_V) = pa := by
  rw [leaf_eq]; exact PTE2PA_make pa _ h1 h2 (or_V_lt perm hp)

theorem leaf_flags (pa perm : Nat) (h2 : pa < 2 ^ 64) (hp : perm < 1024) :
    PTE_FLAGS (PA2PTE pa ||| perm ||| PTE_V) = perm ||| PTE_V := by
  rw [leaf_eq]; exact PTE_FLAGS_make pa _ h2 (or_V_lt perm hp)

theorem zero_not_valid : ¬ ((0 : Nat) &&& PTE_V ≠ 0) := by decide

theorem fillWord_zero : fillWord 0 = 0 := by decide

/-! ## Theorems: reading a page table -/

theorem l1page_aligned (m : Nat → Nat) (pt va q : Nat) (h : l1page m pt va = some q) :
    q % PGSIZE = 0 ∧ q < 2 ^ 64 := by
  unfold l1page at h
  split at h
  · cases h; exact ⟨PTE2PA_aligned _, PTE2PA_lt _⟩
  · cases h

theorem l0page_aligned (m : Nat → Nat) (pt va q : Nat) (h : l0page m pt va = some q) :
    q % PGSIZE = 0 ∧ q < 2 ^ 64 := by
  unfold l0page at h
  split at h
  · cases h
  · split at h
    · cases h; exact ⟨PTE2PA_aligned _, PTE2PA_lt _⟩
    · cases h

theorem l0page_l1 (m : Nat → Nat) (pt va q : Nat) (h : l0page m pt va = some q) :
    ∃ p1, l1page m pt va = some p1 ∧ m (p1 + 8 * PX 1 va) &&& PTE_V ≠ 0 ∧
      q = PTE2PA (m (p1 + 8 * PX 1 va)) := by
  unfold l0page at h
  split at h
  · cases h
  · next p1 h1 =>
    split at h
    · next hv => cases h; exact ⟨p1, h1, hv, rfl⟩
    · cases h

theorem l1page_congr (m m' : Nat → Nat) (pt : Nat)
    (h : ∀ a, pt ≤ a → a < pt + PGSIZE → m' a = m a) (va : Nat) :
    l1page m' pt va = l1page m pt va := by
  unfold l1page
  have := PX_lt 2 va
  rw [h (pt + 8 * PX 2 va) (by omega) (by unfold PGSIZE; omega)]

theorem l0page_congr (m m' : Nat → Nat) (pt : Nat)
    (h1 : ∀ va, l1page m' pt va = l1page m pt va)
    (h : ∀ va q, l1page m pt va = some q → ∀ a, q ≤ a → a < q + PGSIZE → m' a = m a)
    (va : Nat) : l0page m' pt va = l0page m pt va := by
  unfold l0page
  rw [h1 va]
  cases hl : l1page m pt va with
  | none => rfl
  | some p1 =>
    have := PX_lt 1 va
    simp only
    rw [h va p1 hl (p1 + 8 * PX 1 va) (by omega) (by unfold PGSIZE; omega)]

theorem slot_congr (m m' : Nat → Nat) (pt : Nat)
    (h0 : ∀ va, l0page m' pt va = l0page m pt va) (va : Nat) :
    slot m' pt va = slot m pt va := by
  unfold slot; rw [h0 va]

theorem slot_some (m : Nat → Nat) (pt va p : Nat) (h : slot m pt va = some p) :
    ∃ p0, l0page m pt va = some p0 ∧ p = p0 + 8 * PX 0 va := by
  unfold slot at h
  split at h
  · cases h
  · next p0 h0 => cases h; exact ⟨p0, h0, rfl⟩

theorem slot_of_l0 (m : Nat → Nat) (pt va p0 : Nat) (h : l0page m pt va = some p0) :
    slot m pt va = some (p0 + 8 * PX 0 va) := by
  unfold slot; rw [h]

theorem slot_none_of_l0 (m : Nat → Nat) (pt va : Nat) (h : l0page m pt va = none) :
    slot m pt va = none := by
  unfold slot; rw [h]

theorem pteval_of_slot (m : Nat → Nat) (pt va p : Nat) (h : slot m pt va = some p) :
    pteval m pt va = m p := by
  unfold pteval; rw [h]

theorem pteval_of_none (m : Nat → Nat) (pt va : Nat) (h : slot m pt va = none) :
    pteval m pt va = 0 := by
  unfold pteval; rw [h]

theorem pteval_congr (m m' : Nat → Nat) (pt : Nat)
    (h0 : ∀ va, l0page m' pt va = l0page m pt va)
    (h : ∀ va q, l0page m pt va = some q → ∀ a, q ≤ a → a < q + PGSIZE → m' a = m a)
    (va : Nat) : pteval m' pt va = pteval m pt va := by
  unfold pteval
  rw [slot_congr m m' pt h0 va]
  cases hs : slot m pt va with
  | none => rfl
  | some p =>
    obtain ⟨p0, hp0, rfl⟩ := slot_some m pt va p hs
    have := PX_lt 0 va
    exact h va p0 hp0 _ (by omega) (by unfold PGSIZE; omega)

theorem PT_congr (m m' : Nat → Nat) (pt : Nat)
    (h1 : ∀ va, l1page m' pt va = l1page m pt va)
    (h0 : ∀ va, l0page m' pt va = l0page m pt va) (h : PT m pt) : PT m' pt := by
  refine ⟨h.root_aligned, ?_, ?_, ?_, ?_, ?_⟩
  · intro va q hq; rw [h1] at hq; exact h.l1_ne_root va q hq
  · intro va q hq; rw [h0] at hq; exact h.l0_ne_root va q hq
  · intro va va' q hq hq'; rw [h1] at hq hq'; exact h.l1_inj va va' q hq hq'
  · intro va va' q hq; rw [h0] at hq; rw [h1]; exact h.l0_ne_l1 va va' q hq
  · intro va va' q hq hq'; rw [h0] at hq hq'; exact h.l0_inj va va' q hq hq'

theorem IsPtPage_congr (m m' : Nat → Nat) (pt : Nat)
    (h1 : ∀ va, l1page m' pt va = l1page m pt va)
    (h0 : ∀ va, l0page m' pt va = l0page m pt va) (q : Nat) :
    IsPtPage m' pt q ↔ IsPtPage m pt q := by
  unfold IsPtPage
  simp only [h1, h0]

theorem IsPtPage_aligned (m : Nat → Nat) (pt q : Nat) (hpt : pt % PGSIZE = 0)
    (h : IsPtPage m pt q) : q % PGSIZE = 0 := by
  rcases h with h | ⟨va, h⟩ | ⟨va, h⟩
  · rw [h]; exact hpt
  · exact (l1page_aligned m pt va q h).1
  · exact (l0page_aligned m pt va q h).1

/-- Memory that agrees on every page of the table gives the same table. -/
theorem views_frame (m m' : Nat → Nat) (pt : Nat)
    (h : ∀ q, IsPtPage m pt q → ∀ a, q ≤ a → a < q + PGSIZE → m' a = m a) :
    (∀ va, l1page m' pt va = l1page m pt va) ∧ (∀ va, l0page m' pt va = l0page m pt va) ∧
    (∀ va, pteval m' pt va = pteval m pt va) := by
  have h1 : ∀ va, l1page m' pt va = l1page m pt va :=
    l1page_congr m m' pt (h pt (Or.inl rfl))
  have h0 : ∀ va, l0page m' pt va = l0page m pt va :=
    l0page_congr m m' pt h1 (fun va q hq => h q (Or.inr (Or.inl ⟨va, hq⟩)))
  exact ⟨h1, h0, pteval_congr m m' pt h0 (fun va q hq => h q (Or.inr (Or.inr ⟨va, hq⟩)))⟩

/-- Two page-aligned pages that differ do not share an address. -/
theorem page_apart (q g a : Nat) (hq : q % PGSIZE = 0) (hg : g % PGSIZE = 0) (hne : q ≠ g)
    (h1 : q ≤ a) (h2 : a < q + PGSIZE) : ¬ (g ≤ a ∧ a < g + PGSIZE) := by
  unfold PGSIZE at *; omega

theorem walkStep_false (L : Layout) (cpu level pagetable va : Nat) (s : KState) :
    walkStep L cpu false level pagetable va s =
      some (if s.mem (pagetable + 8 * PX level va) &&& PTE_V ≠ 0
        then some (PTE2PA (s.mem (pagetable + 8 * PX level va))) else none, s) := by
  unfold walkStep
  by_cases h : s.mem (pagetable + 8 * PX level va) &&& PTE_V ≠ 0
  · rw [if_pos h, if_pos h]
  · rw [if_neg h, if_neg h]; rfl

/-- Without allocation `walk` does not change the state and returns the leaf slot. -/
theorem walk_false (L : Layout) (cpu pt va : Nat) (s : KState) (h : va < MAXVA) :
    walk L cpu pt va false s = some (slot s.mem pt va, s) := by
  unfold walk
  rw [if_neg (by omega), walkStep_false]
  unfold slot l0page l1page
  by_cases h2 : s.mem (pt + 8 * PX 2 va) &&& PTE_V ≠ 0
  · rw [if_pos h2]
    simp only
    rw [walkStep_false]
    by_cases h1 : s.mem (PTE2PA (s.mem (pt + 8 * PX 2 va)) + 8 * PX 1 va) &&& PTE_V ≠ 0
    · rw [if_pos h1]
    · rw [if_neg h1]
  · rw [if_neg h2]

theorem walkaddr_eq (L : Layout) (cpu pt va : Nat) (s : KState) :
    walkaddr L cpu pt va s =
      if va ≥ MAXVA then 0
      else if pteval s.mem pt va &&& PTE_V = 0 then 0
      else if pteval s.mem pt va &&& PTE_U = 0 then 0
      else PTE2PA (pteval s.mem pt va) := by
  unfold walkaddr
  by_cases h : va ≥ MAXVA
  · simp [h]
  · rw [if_neg h, if_neg h, walk_false L cpu pt va s (by omega)]
    unfold pteval
    cases hs : slot s.mem pt va with
    | none => simp
    | some p => simp

/-! ## Theorems: updating a page table -/

theorem l1page_px (m : Nat → Nat) (pt va va' : Nat) (h : PX 2 va' = PX 2 va) :
    l1page m pt va' = l1page m pt va := by
  unfold l1page; rw [h]

theorem l0page_px (m : Nat → Nat) (pt va va' : Nat) (h2 : PX 2 va' = PX 2 va)
    (h1 : PX 1 va' = PX 1 va) : l0page m pt va' = l0page m pt va := by
  unfold l0page; rw [l1page_px m pt va va' h2, h1]

theorem slot_px (m : Nat → Nat) (pt va va' : Nat) (h2 : PX 2 va' = PX 2 va)
    (h1 : PX 1 va' = PX 1 va) (h0 : PX 0 va' = PX 0 va) : slot m pt va' = slot m pt va := by
  unfold slot; rw [l0page_px m pt va va' h2 h1, h0]

/-- The leaf entry depends on the page of the address only. -/
theorem pteval_page (m : Nat → Nat) (pt va va' : Nat) (h : va' / PGSIZE = va / PGSIZE) :
    pteval m pt va' = pteval m pt va := by
  unfold pteval
  rw [slot_px m pt va va' (PX_congr 2 _ _ h) (PX_congr 1 _ _ h) (PX_congr 0 _ _ h)]

/-- In a tree two addresses below `MAXVA` with the same leaf slot lie in one page. -/
theorem slot_inj (m : Nat → Nat) (pt va va' p : Nat) (hpt : PT m pt)
    (hva : va < MAXVA) (hva' : va' < MAXVA)
    (h : slot m pt va = some p) (h' : slot m pt va' = some p) :
    va' / PGSIZE = va / PGSIZE := by
  obtain ⟨p0, hp0, e⟩ := slot_some m pt va p h
  obtain ⟨p0', hp0', e'⟩ := slot_some m pt va' p h'
  have a0 := (l0page_aligned m pt va p0 hp0).1
  have a0' := (l0page_aligned m pt va' p0' hp0').1
  have b := PX_lt 0 va
  have b' := PX_lt 0 va'
  have hpp : p0' = p0 := by unfold PGSIZE at *; omega
  have hx0 : PX 0 va' = PX 0 va := by omega
  rw [hpp] at hp0'
  obtain ⟨hx2, hx1⟩ := hpt.l0_inj va va' p0 hp0 hp0'
  rw [MAXVA_eq] at hva hva'
  exact PX_inj va' va (by omega) (by omega) hx2.symm hx1.symm hx0

/-- Writing a leaf entry changes that entry and nothing else of the table. -/
theorem leaf_write_views (m : Nat → Nat) (pt va p v : Nat) (hpt : PT m pt)
    (hs : slot m pt va = some p) :
    (∀ va', l1page (fun a => if a = p then v else m a) pt va' = l1page m pt va') ∧
    (∀ va', l0page (fun a => if a = p then v else m a) pt va' = l0page m pt va') ∧
    (∀ va', pteval (fun a => if a = p then v else m a) pt va' =
      if slot m pt va' = some p then v else pteval m pt va') := by
  obtain ⟨p0, hp0, e⟩ := slot_some m pt va p hs
  have a0 := (l0page_aligned m pt va p0 hp0).1
  have b := PX_lt 0 va
  have hroot := hpt.root_aligned
  have h1 : ∀ va', l1page (fun a => if a = p then v else m a) pt va' = l1page m pt va' := by
    apply l1page_congr
    intro a ha1 ha2
    have hne := hpt.l0_ne_root va p0 hp0
    have : a ≠ p := by unfold PGSIZE at *; omega
    simp [this]
  have h0 : ∀ va', l0page (fun a => if a = p then v else m a) pt va' = l0page m pt va' := by
    apply l0page_congr _ _ _ h1
    intro va' q hq a ha1 ha2
    have hne : p0 ≠ q := fun hh => hpt.l0_ne_l1 va va' p0 hp0 (hh ▸ hq)
    have aq := (l1page_aligned m pt va' q hq).1
    have : a ≠ p := by unfold PGSIZE at *; omega
    simp [this]
  refine ⟨h1, h0, ?_⟩
  intro va'
  unfold pteval
  rw [slot_congr _ _ pt h0 va']
  cases hs' : slot m pt va' with
  | none => simp
  | some p' =>
    by_cases hpp : p' = p
    · subst hpp; simp
    · simp [hpp]

/-- Overwriting a page that is not part of the table leaves the table as it is. -/
theorem views_other_page (m m' : Nat → Nat) (pt g : Nat) (hroot : pt % PGSIZE = 0)
    (hg : g % PGSIZE = 0) (hfresh : ¬ IsPtPage m pt g)
    (h : ∀ a, ¬ (g ≤ a ∧ a < g + PGSIZE) → m' a = m a) :
    (∀ va, l1page m' pt va = l1page m pt va) ∧ (∀ va, l0page m' pt va = l0page m pt va) ∧
    (∀ va, pteval m' pt va = pteval m pt va) := by
  apply views_frame
  intro q hq a ha1 ha2
  apply h
  have hqa := IsPtPage_aligned m pt q hroot hq
  have hne : q ≠ g := fun hh => hfresh (hh ▸ hq)
  exact page_apart q g a hqa hg hne ha1 ha2

theorem interior_valid (g : Nat) : (PA2PTE g ||| PTE_V) &&& PTE_V ≠ 0 := by
  rw [valid_iff, Nat.testBit_or]
  simp [PTE_V]

theorem interior_pa (g : Nat) (h1 : g % PGSIZE = 0) (h2 : g < 2 ^ 64) :
    PTE2PA (PA2PTE g ||| PTE_V) = g :=
  PTE2PA_make g PTE_V h1 h2 (by decide)

/-- Installing a fresh zeroed page `g` under an invalid root entry. -/
theorem install_l1 (m m' : Nat → Nat) (pt va g : Nat) (hpt : PT m pt)
    (hinv : ¬ (m (pt + 8 * PX 2 va) &&& PTE_V ≠ 0))
    (hg : g % PGSIZE = 0) (hg64 : g < 2 ^ 64) (hfresh : ¬ IsPtPage m pt g)
    (hw : m' (pt + 8 * PX 2 va) = PA2PTE g ||| PTE_V)
    (hz : ∀ a, g ≤ a → a < g + PGSIZE → m' a = 0)
    (he : ∀ a, a ≠ pt + 8 * PX 2 va → ¬ (g ≤ a ∧ a < g + PGSIZE) → m' a = m a) :
    (∀ va', l1page m' pt va' = if PX 2 va' = PX 2 va then some g else l1page m pt va') ∧
    (∀ va', l0page m' pt va' = if PX 2 va' = PX 2 va then none else l0page m pt va') ∧
    (∀ va', pteval m' pt va' = pteval m pt va') := by
  have hroot := hpt.root_aligned
  have hgpt : g ≠ pt := fun hh => hfresh (Or.inl hh)
  have hold : ∀ va', PX 2 va' = PX 2 va → l1page m pt va' = none := by
    intro va' hx
    unfold l1page; rw [hx, if_neg hinv]
  have h1 : ∀ va', l1page m' pt va' = if PX 2 va' = PX 2 va then some g else l1page m pt va' := by
    intro va'
    by_cases hx : PX 2 va' = PX 2 va
    · rw [if_pos hx]
      unfold l1page
      rw [hx, hw, if_pos (interior_valid g), interior_pa g hg hg64]
    · rw [if_neg hx]
      unfold l1page
      have b := PX_lt 2 va'
      have b' := PX_lt 2 va
      rw [he (pt + 8 * PX 2 va') (by omega) (by unfold PGSIZE at *; omega)]
  have h0 : ∀ va', l0page m' pt va' = if PX 2 va' = PX 2 va then none else l0page m pt va' := by
    intro va'
    unfold l0page
    rw [h1 va']
    by_cases hx : PX 2 va' = PX 2 va
    · rw [if_pos hx, if_pos hx]
      simp only
      have b := PX_lt 1 va'
      rw [hz (g + 8 * PX 1 va') (by omega) (by unfold PGSIZE; omega)]
      rw [if_neg zero_not_valid]
    · rw [if_neg hx, if_neg hx]
      cases hl : l1page m pt va' with
      | none => rfl
      | some p1 =>
        simp only
        have ap := (l1page_aligned m pt va' p1 hl).1
        have hp1 : p1 ≠ pt := hpt.l1_ne_root va' p1 hl
        have hp1g : p1 ≠ g := fun hh => hfresh (Or.inr (Or.inl ⟨va', hh ▸ hl⟩))
        have b := PX_lt 1 va'
        have b' := PX_lt 2 va
        rw [he (p1 + 8 * PX 1 va') (by unfold PGSIZE at *; omega)
          (by unfold PGSIZE at *; omega)]
  refine ⟨h1, h0, ?_⟩
  intro va'
  by_cases hx : PX 2 va' = PX 2 va
  · rw [pteval_of_none m' pt va' (slot_none_of_l0 _ _ _ (by rw [h0, if_pos hx]))]
    have : l0page m pt va' = none := by unfold l0page; rw [hold va' hx]
    rw [pteval_of_none m pt va' (slot_none_of_l0 _ _ _ this)]
  · have e0 : l0page m' pt va' = l0page m pt va' := by rw [h0, if_neg hx]
    unfold pteval slot
    rw [e0]
    cases hl : l0page m pt va' with
    | none => rfl
    | some p0 =>
      simp only
      have ap := (l0page_aligned m pt va' p0 hl).1
      have hp0 : p0 ≠ pt := hpt.l0_ne_root va' p0 hl
      have hp0g : p0 ≠ g := fun hh => hfresh (Or.inr (Or.inr ⟨va', hh ▸ hl⟩))
      have b := PX_lt 0 va'
      have b' := PX_lt 2 va
      exact he (p0 + 8 * PX 0 va') (by unfold PGSIZE at *; omega)
        (by unfold PGSIZE at *; omega)

theorem install_l1_tree (m m' : Nat → Nat) (pt va g : Nat) (hpt : PT m pt)
    (hinv : ¬ (m (pt + 8 * PX 2 va) &&& PTE_V ≠ 0)) (hfresh : ¬ IsPtPage m pt g)
    (h1 : ∀ va', l1page m' pt va' = if PX 2 va' = PX 2 va then some g else l1page m pt va')
    (h0 : ∀ va', l0page m' pt va' = if PX 2 va' = PX 2 va then none else l0page m pt va') :
    PT m' pt ∧ (∀ q, IsPtPage m' pt q ↔ IsPtPage m pt q ∨ q = g) := by
  have hgpt : g ≠ pt := fun hh => hfresh (Or.inl hh)
  have hold : ∀ va', PX 2 va' = PX 2 va → l1page m pt va' = none := by
    intro va' hx
    unfold l1page; rw [hx, if_neg hinv]
  have l1cases : ∀ va' q, l1page m' pt va' = some q →
      (PX 2 va' = PX 2 va ∧ q = g) ∨ (PX 2 va' ≠ PX 2 va ∧ l1page m pt va' = some q) := by
    intro va' q hq
    rw [h1] at hq
    by_cases hx : PX 2 va' = PX 2 va
    · rw [if_pos hx] at hq; cases hq; exact Or.inl ⟨hx, rfl⟩
    · rw [if_neg hx] at hq; exact Or.inr ⟨hx, hq⟩
  have l0cases : ∀ va' q, l0page m' pt va' = some q →
      PX 2 va' ≠ PX 2 va ∧ l0page m pt va' = some q := by
    intro va' q hq
    rw [h0] at hq
    by_cases hx : PX 2 va' = PX 2 va
    · rw [if_pos hx] at hq; cases hq
    · rw [if_neg hx] at hq; exact ⟨hx, hq⟩
  constructor
  · refine ⟨hpt.root_aligned, ?_, ?_, ?_, ?_, ?_⟩
    · intro va' q hq
      rcases l1cases va' q hq with ⟨_, e⟩ | ⟨_, e⟩
      · rw [e]; exact hgpt
      · exact hpt.l1_ne_root va' q e
    · intro va' q hq
      exact hpt.l0_ne_root va' q (l0cases va' q hq).2
    · intro a b q ha hb
      rcases l1cases a q ha with ⟨xa, ea⟩ | ⟨xa, ea⟩
      · rcases l1cases b q hb with ⟨xb, eb⟩ | ⟨xb, eb⟩
        · rw [xa, xb]
        · exact absurd (Or.inr (Or.inl ⟨b, ea ▸ eb⟩)) hfresh
      · rcases l1cases b q hb with ⟨xb, eb⟩ | ⟨xb, eb⟩
        · exact absurd (Or.inr (Or.inl ⟨a, eb ▸ ea⟩)) hfresh
        · exact hpt.l1_inj a b q ea eb
    · intro a b q ha hb
      have ha' := (l0cases a q ha).2
      rcases l1cases b q hb with ⟨xb, eb⟩ | ⟨xb, eb⟩
      · exact hfresh (Or.inr (Or.inr ⟨a, eb ▸ ha'⟩))
      · exact hpt.l0_ne_l1 a b q ha' eb
    · intro a b q ha hb
      exact hpt.l0_inj a b q (l0cases a q ha).2 (l0cases b q hb).2
  · intro q
    constructor
    · rintro (h | ⟨va', h⟩ | ⟨va', h⟩)
      · exact Or.inl (Or.inl h)
      · rcases l1cases va' q h with ⟨_, e⟩ | ⟨_, e⟩
        · exact Or.inr e
        · exact Or.inl (Or.inr (Or.inl ⟨va', e⟩))
      · exact Or.inl (Or.inr (Or.inr ⟨va', (l0cases va' q h).2⟩))
    · rintro ((h | ⟨va', h⟩ | ⟨va', h⟩) | h)
      · exact Or.inl h
      · refine Or.inr (Or.inl ⟨va', ?_⟩)
        rw [h1]
        by_cases hx : PX 2 va' = PX 2 va
        · rw [hold va' hx] at h; cases h
        · rw [if_neg hx]; exact h
      · refine Or.inr (Or.inr ⟨va', ?_⟩)
        rw [h0]
        by_cases hx : PX 2 va' = PX 2 va
        · have : l0page m pt va' = none := by unfold l0page; rw [hold va' hx]
          rw [this] at h; cases h
        · rw [if_neg hx]; exact h
      · refine Or.inr (Or.inl ⟨va, ?_⟩)
        rw [h1, if_pos rfl, h]

/-- Installing a fresh zeroed page `g` under an invalid entry of the level-1 page. -/
theorem install_l0 (m m' : Nat → Nat) (pt va p1 g : Nat) (hpt : PT m pt)
    (hl1 : l1page m pt va = some p1)
    (hinv : ¬ (m (p1 + 8 * PX 1 va) &&& PTE_V ≠ 0))
    (hg : g % PGSIZE = 0) (hg64 : g < 2 ^ 64) (hfresh : ¬ IsPtPage m pt g)
    (hw : m' (p1 + 8 * PX 1 va) = PA2PTE g ||| PTE_V)
    (hz : ∀ a, g ≤ a → a < g + PGSIZE → m' a = 0)
    (he : ∀ a, a ≠ p1 + 8 * PX 1 va → ¬ (g ≤ a ∧ a < g + PGSIZE) → m' a = m a) :
    (∀ va', l1page m' pt va' = l1page m pt va') ∧
    (∀ va', l0page m' pt va' =
      if PX 2 va' = PX 2 va ∧ PX 1 va' = PX 1 va then some g else l0page m pt va') ∧
    (∀ va', pteval m' pt va' = pteval m pt va') := by
  have hroot := hpt.root_aligned
  have hgpt : g ≠ pt := fun hh => hfresh (Or.inl hh)
  have ap1 := (l1page_aligned m pt va p1 hl1).1
  have hp1pt : p1 ≠ pt := hpt.l1_ne_root va p1 hl1
  have hp1g : p1 ≠ g := fun hh => hfresh (Or.inr (Or.inl ⟨va, hh ▸ hl1⟩))
  have bva := PX_lt 1 va
  have h1 : ∀ va', l1page m' pt va' = l1page m pt va' := by
    apply l1page_congr
    intro a ha1 ha2
    exact he a (by unfold PGSIZE at *; omega) (by unfold PGSIZE at *; omega)
  have hold : ∀ va', PX 2 va' = PX 2 va → PX 1 va' = PX 1 va → l0page m pt va' = none := by
    intro va' hx2 hx1
    unfold l0page
    rw [l1page_px m pt va va' hx2, hl1]
    simp only
    rw [hx1, if_neg hinv]
  have h0 : ∀ va', l0page m' pt va' =
      if PX 2 va' = PX 2 va ∧ PX 1 va' = PX 1 va then some g else l0page m pt va' := by
    intro va'
    by_cases hx : PX 2 va' = PX 2 va ∧ PX 1 va' = PX 1 va
    · rw [if_pos hx]
      unfold l0page
      rw [h1 va', l1page_px m pt va va' hx.1, hl1]
      simp only
      rw [hx.2, hw, if_pos (interior_valid g), interior_pa g hg hg64]
    · rw [if_neg hx]
      unfold l0page
      rw [h1 va']
      cases hl : l1page m pt va' with
      | none => rfl
      | some q =>
        simp only
        have aq := (l1page_aligned m pt va' q hl).1
        have hqg : q ≠ g := fun hh => hfresh (Or.inr (Or.inl ⟨va', hh ▸ hl⟩))
        have b := PX_lt 1 va'
        have hne : q + 8 * PX 1 va' ≠ p1 + 8 * PX 1 va := by
          intro heq
          have hq1 : q = p1 := by unfold PGSIZE at *; omega
          have hx1 : PX 1 va' = PX 1 va := by omega
          rw [hq1] at hl
          exact hx ⟨hpt.l1_inj va' va p1 hl hl1, hx1⟩
        rw [he (q + 8 * PX 1 va') hne (by unfold PGSIZE at *; omega)]
  refine ⟨h1, h0, ?_⟩
  intro va'
  by_cases hx : PX 2 va' = PX 2 va ∧ PX 1 va' = PX 1 va
  · have e0 : l0page m' pt va' = some g := by rw [h0, if_pos hx]
    rw [pteval_of_slot m' pt va' _ (slot_of_l0 _ _ _ _ e0)]
    have b := PX_lt 0 va'
    rw [hz (g + 8 * PX 0 va') (by omega) (by unfold PGSIZE; omega)]
    rw [pteval_of_none m pt va' (slot_none_of_l0 _ _ _ (hold va' hx.1 hx.2))]
  · have e0 : l0page m' pt va' = l0page m pt va' := by rw [h0, if_neg hx]
    unfold pteval slot
    rw [e0]
    cases hl : l0page m pt va' with
    | none => rfl
    | some p0 =>
      simp only
      have ap := (l0page_aligned m pt va' p0 hl).1
      have hp0g : p0 ≠ g := fun hh => hfresh (Or.inr (Or.inr ⟨va', hh ▸ hl⟩))
      have hp0p1 : p0 ≠ p1 := fun hh => hpt.l0_ne_l1 va' va p0 hl (hh ▸ hl1)
      have b := PX_lt 0 va'
      exact he (p0 + 8 * PX 0 va') (by unfold PGSIZE at *; omega)
        (by unfold PGSIZE at *; omega)

theorem install_l0_tree (m m' : Nat → Nat) (pt va p1 g : Nat) (hpt : PT m pt)
    (hl1 : l1page m pt va = some p1)
    (hinv : ¬ (m (p1 + 8 * PX 1 va) &&& PTE_V ≠ 0)) (hfresh : ¬ IsPtPage m pt g)
    (h1 : ∀ va', l1page m' pt va' = l1page m pt va')
    (h0 : ∀ va', l0page m' pt va' =
      if PX 2 va' = PX 2 va ∧ PX 1 va' = PX 1 va then some g else l0page m pt va') :
    PT m' pt ∧ (∀ q, IsPtPage m' pt q ↔ IsPtPage m pt q ∨ q = g) := by
  have hgpt : g ≠ pt := fun hh => hfresh (Or.inl hh)
  have hold : ∀ va', PX 2 va' = PX 2 va → PX 1 va' = PX 1 va → l0page m pt va' = none := by
    intro va' hx2 hx1
    unfold l0page
    rw [l1page_px m pt va va' hx2, hl1]
    simp only
    rw [hx1, if_neg hinv]
  have l0cases : ∀ va' q, l0page m' pt va' = some q →
      ((PX 2 va' = PX 2 va ∧ PX 1 va' = PX 1 va) ∧ q = g) ∨
      (¬ (PX 2 va' = PX 2 va ∧ PX 1 va' = PX 1 va) ∧ l0page m pt va' = some q) := by
    intro va' q hq
    rw [h0] at hq
    by_cases hx : PX 2 va' = PX 2 va ∧ PX 1 va' = PX 1 va
    · rw [if_pos hx] at hq; cases hq; exact Or.inl ⟨hx, rfl⟩
    · rw [if_neg hx] at hq; exact Or.inr ⟨hx, hq⟩
  constructor
  · refine ⟨hpt.root_aligned, ?_, ?_, ?_, ?_, ?_⟩
    · intro va' q hq; rw [h1] at hq; exact hpt.l1_ne_root va' q hq
    · intro va' q hq
      rcases l0cases va' q hq with ⟨_, e⟩ | ⟨_, e⟩
      · rw [e]; exact hgpt
      · exact hpt.l0_ne_root va' q e
    · intro a b q ha hb; rw [h1] at ha hb; exact hpt.l1_inj a b q ha hb
    · intro a b q ha hb
      rw [h1] at hb
      rcases l0cases a q ha with ⟨_, e⟩ | ⟨_, e⟩
      · exact hfresh (Or.inr (Or.inl ⟨b, e ▸ hb⟩))
      · exact hpt.l0_ne_l1 a b q e hb
    · intro a b q ha hb
      rcases l0cases a q ha with ⟨xa, ea⟩ | ⟨xa, ea⟩
      · rcases l0cases b q hb with ⟨xb, eb⟩ | ⟨xb, eb⟩
        · exact ⟨by rw [xa.1, xb.1], by rw [xa.2, xb.2]⟩
        · exact absurd (Or.inr (Or.inr ⟨b, ea ▸ eb⟩)) hfresh
      · rcases l0cases b q hb with ⟨xb, eb⟩ | ⟨xb, eb⟩
        · exact absurd (Or.inr (Or.inr ⟨a, eb ▸ ea⟩)) hfresh
        · exact hpt.l0_inj a b q ea eb
  · intro q
    constructor
    · rintro (h | ⟨va', h⟩ | ⟨va', h⟩)
      · exact Or.inl (Or.inl h)
      · rw [h1] at h; exact Or.inl (Or.inr (Or.inl ⟨va', h⟩))
      · rcases l0cases va' q h with ⟨_, e⟩ | ⟨_, e⟩
        · exact Or.inr e
        · exact Or.inl (Or.inr (Or.inr ⟨va', e⟩))
    · rintro ((h | ⟨va', h⟩ | ⟨va', h⟩) | h)
      · exact Or.inl h
      · exact Or.inr (Or.inl ⟨va', by rw [h1]; exact h⟩)
      · refine Or.inr (Or.inr ⟨va', ?_⟩)
        rw [h0]
        by_cases hx : PX 2 va' = PX 2 va ∧ PX 1 va' = PX 1 va
        · rw [hold va' hx.1 hx.2] at h; cases h
        · rw [if_neg hx]; exact h
      · refine Or.inr (Or.inr ⟨va, ?_⟩)
        rw [h0, if_pos ⟨rfl, rfl⟩, h]

/-! ## Theorems: allocation and the page table -/

theorem IsFree_setList_pop (L : Layout) (s : KState) (j f : Nat) (rest : List Nat)
    (hj : j < L.NCPU) (hl : s.freelist j = f :: rest) (hok : FreeOk L s) :
    IsFree L s f ∧ ¬ IsFree L (s.setList j rest) f ∧
    (∀ g, IsFree L (s.setList j rest) g ↔ IsFree L s g ∧ g ≠ f) ∧
    (∀ g, occ L (s.setList j rest) g ≤ occ L s g) := by
  have hfm : f ∈ s.freelist j := by rw [hl]; exact List.mem_cons_self _ _
  have hocc : ∀ g, occ L (s.setList j rest) g + (if g = f then 1 else 0) = occ L s g := by
    intro g
    have h1 := occ_setList L s j rest g hj
    rw [hl, List.count_cons] at h1
    by_cases hg : g = f
    · subst hg; simp at h1; simp; omega
    · have : ¬ (f == g) = true := by simp; exact fun h => hg h.symm
      simp [this] at h1; simp [hg]; omega
  have hnot : ¬ IsFree L (s.setList j rest) f := by
    rintro ⟨c, hc, hm⟩
    have := occ_pos_of_mem L _ c f hc hm
    have := hocc f
    have := hok.once f
    simp at *
    omega
  refine ⟨⟨j, hj, hfm⟩, hnot, ?_, ?_⟩
  · intro g
    constructor
    · rintro ⟨c, hc, hm⟩
      have hgf : g ≠ f := fun hh => hnot (hh ▸ ⟨c, hc, hm⟩)
      refine ⟨⟨c, hc, ?_⟩, hgf⟩
      by_cases hcj : c = j
      · subst hcj; rw [setList_same] at hm; rw [hl]; exact List.mem_cons_of_mem _ hm
      · rw [setList_other _ _ _ _ hcj] at hm; exact hm
    · rintro ⟨⟨c, hc, hm⟩, hgf⟩
      refine ⟨c, hc, ?_⟩
      by_cases hcj : c = j
      · subst hcj
        rw [setList_same]
        rw [hl] at hm
        rcases List.mem_cons.mp hm with h | h
        · exact absurd h hgf
        · exact h
      · rw [setList_other _ _ _ _ hcj]; exact hm
  · intro g
    have := hocc g
    omega

theorem IsFree_congr (L : Layout) (s s' : KState) (h : s'.freelist = s.freelist) (f : Nat) :
    IsFree L s' f ↔ IsFree L s f := by
  unfold IsFree; rw [h]

theorem setList_suffix (s : KState) (j f : Nat) (rest : List Nat)
    (hl : s.freelist j = f :: rest) (c : Nat) :
    (s.setList j rest).freelist c <:+ s.freelist c := by
  by_cases hcj : c = j
  · subst hcj; rw [setList_same, hl]; exact List.suffix_cons _ _
  · rw [setList_other _ _ _ _ hcj]

theorem IsFree_of_suffix (L : Layout) (s s' : KState)
    (h : ∀ c, s'.freelist c <:+ s.freelist c) (f : Nat) (hf : IsFree L s' f) : IsFree L s f := by
  obtain ⟨c, hc, hm⟩ := hf
  exact ⟨c, hc, (h c).subset hm⟩

theorem kalloc_some (L : Layout) (cpu : Nat) (s s1 : KState) (f : Nat) (hc : cpu < L.NCPU)
    (hok : FreeOk L s) (h : kalloc L cpu s = some (some f, s1)) : Popped L s f s1 := by
  rcases kalloc_result_of_eq L cpu s s1 (some f) hc h with ⟨hr, _, _⟩ | ⟨j, f', rest, hr, hj, hl, hs, _⟩
  · cases hr
  · cases hr
    obtain ⟨p1, p2, p3, p4⟩ := IsFree_setList_pop L s j f rest hj hl hok
    have hfl : s1.freelist = (s.setList j rest).freelist := by rw [hs]; rfl
    have hiff : ∀ g, IsFree L s1 g ↔ IsFree L (s.setList j rest) g := IsFree_congr L _ _ hfl
    refine ⟨p1, ?_, ?_, ?_, ?_, ?_, ?_⟩
    · rw [hiff]; exact p2
    · intro g; rw [hiff]; exact p3 g
    · refine ⟨?_, ?_, ?_⟩
      · intro g hg; exact hok.aligned g ((p3 g).mp ((hiff g).mp hg)).1
      · intro g hg; exact hok.lt g ((p3 g).mp ((hiff g).mp hg)).1
      · intro g
        rw [occ_congr L _ s1 hfl g]
        exact Nat.le_trans (p4 g) (hok.once g)
    · intro c; rw [hfl]; exact setList_suffix s j f rest hl c
    · intro a; rw [hs]; rfl
    · intro i; rw [hs]; rfl

theorem kalloc_none (L : Layout) (cpu : Nat) (s s1 : KState) (hc : cpu < L.NCPU)
    (h : kalloc L cpu s = some (none, s1)) :
    s1 = s ∧ ∀ i, i < L.NCPU → s.freelist i = [] := by
  rcases kalloc_result_of_eq L cpu s s1 none hc h with ⟨_, hs, he⟩ | ⟨j, f', rest, hr, _⟩
  · exact ⟨hs, he⟩
  · cases hr

theorem kalloc_ne_none (L : Layout) (cpu : Nat) (s : KState) (hc : cpu < L.NCPU) :
    kalloc L cpu s ≠ none := by
  obtain ⟨r, s', h, _⟩ := kalloc_result L cpu s hc
  rw [h]; exact fun hh => by cases hh

theorem PtGrow_refl (L : Layout) (pt : Nat) (s : KState) (h : Sep L s pt) : PtGrow L pt s s := by
  refine ⟨h, ?_, ?_, ?_, ?_, ?_, ?_, ?_, ?_⟩
  · intro g _ h1 h2; exact ⟨h1, h2, rfl, fun _ _ _ => rfl⟩
  · intro c; exact List.suffix_refl _
  · intro q hq; exact hq
  · intro q hq; exact Or.inl hq
  · intro f h1 h2; exact absurd h1 h2
  · intro f _; rfl
  · intro f h1 h2; exact absurd h1 h2
  · intro q _; rfl

theorem PtGrow_trans (L : Layout) (pt : Nat) (s s1 s2 : KState)
    (h1 : PtGrow L pt s s1) (h2 : PtGrow L pt s1 s2) : PtGrow L pt s s2 := by
  have hsuf : ∀ c, s2.freelist c <:+ s.freelist c :=
    fun c => List.IsSuffix.trans (h2.suffix c) (h1.suffix c)
  refine ⟨h2.sep, ?_, hsuf, ?_, ?_, ?_, ?_, ?_, ?_⟩
  · intro g hg hf hp
    obtain ⟨a1, a2, a3, a4⟩ := h1.untouched g hg hf hp
    obtain ⟨b1, b2, b3, b4⟩ := h2.untouched g hg a1 a2
    exact ⟨b1, b2, by rw [b3, a3], fun a x y => by rw [b4 a x y, a4 a x y]⟩
  · intro q hq; exact h2.pages_mono q (h1.pages_mono q hq)
  · intro q hq
    rcases h2.pages_new q hq with h | ⟨hf, hnf⟩
    · rcases h1.pages_new q h with h' | ⟨hf', _⟩
      · exact Or.inl h'
      · exact Or.inr ⟨hf', fun hh => h2.sep.apart q hh hq⟩
    · exact Or.inr ⟨IsFree_of_suffix L s s1 h1.suffix q hf, hnf⟩
  · intro f hf hnf
    by_cases hm : IsFree L s1 f
    · exact h2.alloc_is_page f hm hnf
    · exact h2.pages_mono f (h1.alloc_is_page f hf hm)
  · intro f hf
    have hf1 := IsFree_of_suffix L s1 s2 h2.suffix f hf
    rw [h2.ref_free f hf, h1.ref_free f hf1]
  · intro f hf hnf
    by_cases hm : IsFree L s1 f
    · rw [h2.ref_new f hm hnf, h1.ref_free f hm]
    · rw [h2.ref_old f (h1.alloc_is_page f hf hm), h1.ref_new f hf hm]
  · intro q hq
    rw [h2.ref_old q (h1.pages_mono q hq), h1.ref_old q hq]

/-- The three ways an iteration of `walk` with allocation can go. -/
theorem walkStep_alloc_cases (L : Layout) (cpu level pg va : Nat) (s s' : KState)
    (r : Option Nat) (hc : cpu < L.NCPU) (hok : FreeOk L s)
    (h : walkStep L cpu true level pg va s = some (r, s')) :
    (s.mem (pg + 8 * PX level va) &&& PTE_V ≠ 0 ∧
      r = some (PTE2PA (s.mem (pg + 8 * PX level va))) ∧ s' = s) ∨
    (¬ (s.mem (pg + 8 * PX level va) &&& PTE_V ≠ 0) ∧ r = none ∧ s' = s ∧
      ∀ i, i < L.NCPU → s.freelist i = []) ∨
    (¬ (s.mem (pg + 8 * PX level va) &&& PTE_V ≠ 0) ∧ ∃ g s1, r = some g ∧ Popped L s g s1 ∧
      s' = (memset g 0 s1).write (pg + 8 * PX level va) (PA2PTE g ||| PTE_V)) := by
  unfold walkStep at h
  by_cases hv : s.mem (pg + 8 * PX level va) &&& PTE_V ≠ 0
  · rw [if_pos hv] at h
    cases h
    exact Or.inl ⟨hv, rfl, rfl⟩
  · rw [if_neg hv] at h
    simp only [Bool.true_eq_false, if_false] at h
    cases hk : kalloc L cpu s with
    | none => exact absurd hk (kalloc_ne_none L cpu s hc)
    | some res =>
      obtain ⟨ro, s1⟩ := res
      rw [hk] at h
      cases ro with
      | none =>
        cases h
        obtain ⟨e1, e2⟩ := kalloc_none L cpu s _ hc hk
        exact Or.inr (Or.inl ⟨hv, rfl, e1, e2⟩)
      | some g =>
        cases h
        exact Or.inr (Or.inr ⟨hv, g, s1, rfl, kalloc_some L cpu s s1 g hc hok hk, rfl⟩)

/-- Memory after a fresh page `g` is hooked under the entry at `e` of page `pg`. -/
theorem install_mem (s s1 : KState) (L : Layout) (g pg e : Nat) (hp : Popped L s g s1)
    (hpg : pg % PGSIZE = 0) (hg : g % PGSIZE = 0) (hne : pg ≠ g) (he : e < PGSIZE) :
    ((memset g 0 s1).write (pg + e) (PA2PTE g ||| PTE_V)).mem (pg + e) = PA2PTE g ||| PTE_V ∧
    (∀ a, g ≤ a → a < g + PGSIZE →
      ((memset g 0 s1).write (pg + e) (PA2PTE g ||| PTE_V)).mem a = 0) ∧
    (∀ a, a ≠ pg + e → ¬ (g ≤ a ∧ a < g + PGSIZE) →
      ((memset g 0 s1).write (pg + e) (PA2PTE g ||| PTE_V)).mem a = s.mem a) := by
  refine ⟨?_, ?_, ?_⟩
  · simp [KState.write]
  · intro a h1 h2
    have : a ≠ pg + e := by unfold PGSIZE at *; omega
    simp [KState.write, memset, this, h1, h2, fillWord_zero]
  · intro a h1 h2
    simp only [KState.write, memset, if_neg h1, if_neg h2]
    rw [hp.mem_eq a, if_neg h2]

/-- Hooking a freshly allocated, zeroed page under an invalid entry of a page of the
table grows the table. -/
theorem PtGrow_install (L : Layout) (pt : Nat) (s s1 : KState) (g pg e : Nat)
    (hsep : Sep L s pt) (hp : Popped L s g s1) (hpg : IsPtPage s.mem pt pg) (he : e < PGSIZE)
    (htree : PT ((memset g 0 s1).write (pg + e) (PA2PTE g ||| PTE_V)).mem pt)
    (hpages : ∀ q, IsPtPage ((memset g 0 s1).write (pg + e) (PA2PTE g ||| PTE_V)).mem pt q ↔
      IsPtPage s.mem pt q ∨ q = g) :
    PtGrow L pt s ((memset g 0 s1).write (pg + e) (PA2PTE g ||| PTE_V)) := by
  have hga : g % PGSIZE = 0 := hsep.free.aligned g hp.was_free
  have hgnp : ¬ IsPtPage s.mem pt g := hsep.apart g hp.was_free
  have hpga : pg % PGSIZE = 0 := IsPtPage_aligned s.mem pt pg hsep.tree.root_aligned hpg
  have hne : pg ≠ g := fun hh => hgnp (hh ▸ hpg)
  obtain ⟨_, _, hme⟩ := install_mem s s1 L g pg e hp hpga hga hne he
  have hfl : ((memset g 0 s1).write (pg + e) (PA2PTE g ||| PTE_V)).freelist = s1.freelist := rfl
  have hfree : ∀ f, IsFree L ((memset g 0 s1).write (pg + e) (PA2PTE g ||| PTE_V)) f ↔
      IsFree L s f ∧ f ≠ g := by
    intro f; rw [IsFree_congr L _ _ hfl f]; exact hp.free_iff f
  have href : ∀ f, f % PGSIZE = 0 → f ≠ g →
      refcount f ((memset g 0 s1).write (pg + e) (PA2PTE g ||| PTE_V)) = refcount f s := by
    intro f hf hfg
    show s1.ref (f / PGSIZE) = s.ref (f / PGSIZE)
    rw [hp.ref_eq, if_neg (frame_ne f g hf hga hfg)]
  refine ⟨⟨htree, ?_, ?_⟩, ?_, ?_, ?_, ?_, ?_, ?_, ?_, ?_⟩
  · exact ⟨fun f hf => hp.ok.aligned f ((IsFree_congr L _ _ hfl f).mp hf),
      fun f hf => hp.ok.lt f ((IsFree_congr L _ _ hfl f).mp hf),
      fun f => by rw [occ_congr L _ _ hfl f]; exact hp.ok.once f⟩
  · intro f hf hpf
    obtain ⟨h1, h2⟩ := (hfree f).mp hf
    rcases (hpages f).mp hpf with h | h
    · exact hsep.apart f h1 h
    · exact h2 h
  · intro g' hg' hnf hnp
    have hg'g : g' ≠ g := fun hh => hnf (hh ▸ hp.was_free)
    refine ⟨fun hh => hnf ((hfree g').mp hh).1, ?_, href g' hg' hg'g, ?_⟩
    · intro hh
      rcases (hpages g').mp hh with h | h
      · exact hnp h
      · exact hg'g h
    · intro a ha1 ha2
      apply hme
      · have : pg ≠ g' := fun hh => hnp (hh ▸ hpg)
        unfold PGSIZE at *; omega
      · exact page_apart g' g a hg' hga hg'g ha1 ha2
  · intro c; exact hp.suffix c
  · intro q hq; exact (hpages q).mpr (Or.inl hq)
  · intro q hq
    rcases (hpages q).mp hq with h | h
    · exact Or.inl h
    · rw [h]; exact Or.inr ⟨hp.was_free, fun hh => ((hfree g).mp hh).2 rfl⟩
  · intro f hf hnf
    by_cases hfg : f = g
    · rw [hfg]; exact (hpages g).mpr (Or.inr rfl)
    · exact absurd ((hfree f).mpr ⟨hf, hfg⟩) hnf
  · intro f hf
    obtain ⟨h1, h2⟩ := (hfree f).mp hf
    exact href f (hsep.free.aligned f h1) h2
  · intro f hf hnf
    have hfg : f = g := by
      by_contra hfg
      exact hnf ((hfree f).mpr ⟨hf, hfg⟩)
    rw [hfg]
    show s1.ref (g / PGSIZE) = (s.ref (g / PGSIZE) + 1) % 256
    rw [hp.ref_eq, if_pos rfl]
  · intro q hq
    have hqg : q ≠ g := fun hh => hgnp (hh ▸ hq)
    exact href q (IsPtPage_aligned s.mem pt q hsep.tree.root_aligned hq) hqg

theorem px_off (l va : Nat) : 8 * PX l va < PGSIZE := by
  have := PX_lt l va
  unfold PGSIZE; omega

/-- The first iteration of `walk` with allocation. -/
theorem walkStep2_alloc (L : Layout) (cpu pt va : Nat) (s s' : KState) (r : Option Nat)
    (hc : cpu < L.NCPU) (hsep : Sep L s pt)
    (h : walkStep L cpu true 2 pt va s = some (r, s')) :
    PtGrow L pt s s' ∧ (∀ va', pteval s'.mem pt va' = pteval s.mem pt va') ∧
    (∀ p1, r = some p1 → l1page s'.mem pt va = some p1) ∧
    (r = none → ∀ i, i < L.NCPU → s'.freelist i = []) := by
  rcases walkStep_alloc_cases L cpu 2 pt va s s' r hc hsep.free h with
    ⟨hv, hr, hs⟩ | ⟨hv, hr, hs, hemp⟩ | ⟨hv, g, s1, hr, hp, hs⟩
  · subst hs
    refine ⟨PtGrow_refl L pt _ hsep, fun _ => rfl, ?_, ?_⟩
    · intro p1 hp1; rw [hr] at hp1; cases hp1
      unfold l1page; rw [if_pos hv]
    · intro hh; rw [hr] at hh; cases hh
  · subst hs
    exact ⟨PtGrow_refl L pt _ hsep, fun _ => rfl, (fun p1 hp1 => by rw [hr] at hp1; cases hp1),
      fun _ => hemp⟩
  · have hga : g % PGSIZE = 0 := hsep.free.aligned g hp.was_free
    have hg64 : g < 2 ^ 64 := hsep.free.lt g hp.was_free
    have hgnp : ¬ IsPtPage s.mem pt g := hsep.apart g hp.was_free
    have hne : pt ≠ g := fun hh => hgnp (Or.inl hh.symm)
    obtain ⟨mw, mz, me⟩ := install_mem s s1 L g pt (8 * PX 2 va) hp hsep.tree.root_aligned
      hga hne (px_off 2 va)
    obtain ⟨v1, v0, vp⟩ := install_l1 s.mem s'.mem pt va g hsep.tree hv hga hg64 hgnp
      (by rw [hs]; exact mw) (by rw [hs]; exact mz) (by rw [hs]; exact me)
    obtain ⟨t1, t2⟩ := install_l1_tree s.mem s'.mem pt va g hsep.tree hv hgnp v1 v0
    refine ⟨?_, vp, ?_, ?_⟩
    · rw [hs]
      exact PtGrow_install L pt s s1 g pt (8 * PX 2 va) hsep hp (Or.inl rfl) (px_off 2 va)
        (by rw [← hs]; exact t1) (by rw [← hs]; exact t2)
    · intro p1 hp1; rw [hr] at hp1; cases hp1
      rw [v1, if_pos rfl]
    · intro hh; rw [hr] at hh; cases hh

/-- The second iteration of `walk` with allocation. -/
theorem walkStep1_alloc (L : Layout) (cpu pt va p1 : Nat) (s s' : KState) (r : Option Nat)
    (hc : cpu < L.NCPU) (hsep : Sep L s pt) (hl1 : l1page s.mem pt va = some p1)
    (h : walkStep L cpu true 1 p1 va s = some (r, s')) :
    PtGrow L pt s s' ∧ (∀ va', pteval s'.mem pt va' = pteval s.mem pt va') ∧
    (∀ p0, r = some p0 → l0page s'.mem pt va = some p0) ∧
    (r = none → ∀ i, i < L.NCPU → s'.freelist i = []) := by
  rcases walkStep_alloc_cases L cpu 1 p1 va s s' r hc hsep.free h with
    ⟨hv, hr, hs⟩ | ⟨hv, hr, hs, hemp⟩ | ⟨hv, g, s1, hr, hp, hs⟩
  · subst hs
    refine ⟨PtGrow_refl L pt _ hsep, fun _ => rfl, ?_, ?_⟩
    · intro p0 hp0; rw [hr] at hp0; cases hp0
      unfold l0page; rw [hl1]; simp only; rw [if_pos hv]
    · intro hh; rw [hr] at hh; cases hh
  · subst hs
    exact ⟨PtGrow_refl L pt _ hsep, fun _ => rfl, (fun p0 hp0 => by rw [hr] at hp0; cases hp0),
      fun _ => hemp⟩
  · have hga : g % PGSIZE = 0 := hsep.free.aligned g hp.was_free
    have hg64 : g < 2 ^ 64 := hsep.free.lt g hp.was_free
    have hgnp : ¬ IsPtPage s.mem pt g := hsep.apart g hp.was_free
    have hp1 : IsPtPage s.mem pt p1 := Or.inr (Or.inl ⟨va, hl1⟩)
    have hne : p1 ≠ g := fun hh => hgnp (hh ▸ hp1)
    obtain ⟨mw, mz, me⟩ := install_mem s s1 L g p1 (8 * PX 1 va) hp
      (l1page_aligned s.mem pt va p1 hl1).1 hga hne (px_off 1 va)
    obtain ⟨v1, v0, vp⟩ := install_l0 s.mem s'.mem pt va p1 g hsep.tree hl1 hv hga hg64 hgnp
      (by rw [hs]; exact mw) (by rw [hs]; exact mz) (by rw [hs]; exact me)
    obtain ⟨t1, t2⟩ := install_l0_tree s.mem s'.mem pt va p1 g hsep.tree hl1 hv hgnp v1 v0
    refine ⟨?_, vp, ?_, ?_⟩
    · rw [hs]
      exact PtGrow_install L pt s s1 g p1 (8 * PX 1 va) hsep hp hp1 (px_off 1 va)
        (by rw [← hs]; exact t1) (by rw [← hs]; exact t2)
    · intro p0 hp0; rw [hr] at hp0; cases hp0
      rw [v0, if_pos ⟨rfl, rfl⟩]
    · intro hh; rw [hr] at hh; cases hh

/-- The effect of `walk` with allocation: the table grows, no leaf entry changes, and
the slot returned is the leaf slot of `va`; null is returned only when every free list
is empty. -/
theorem walk_alloc (L : Layout) (cpu pt va : Nat) (s s' : KState) (r : Option Nat)
    (hc : cpu < L.NCPU) (hsep : Sep L s pt)
    (h : walk L cpu pt va true s = some (r, s')) :
    va < MAXVA ∧ PtGrow L pt s s' ∧ (∀ va', pteval s'.mem pt va' = pteval s.mem pt va') ∧
    (∀ p, r = some p → slot s'.mem pt va = some p) ∧
    (r = none → ∀ i, i < L.NCPU → s'.freelist i = []) := by
  unfold walk at h
  by_cases hva : va ≥ MAXVA
  · rw [if_pos hva] at h; cases h
  · rw [if_neg hva] at h
    refine ⟨by omega, ?_⟩
    cases h2 : walkStep L cpu true 2 pt va s with
    | none => rw [h2] at h; cases h
    | some res2 =>
      obtain ⟨r2, s2⟩ := res2
      obtain ⟨g2, e2, l2, n2⟩ := walkStep2_alloc L cpu pt va s s2 r2 hc hsep h2
      rw [h2] at h
      cases r2 with
      | none =>
        cases h
        exact ⟨g2, e2, (fun p hp => by cases hp), fun _ => n2 rfl⟩
      | some p1 =>
        simp only at h
        have hl1 := l2 p1 rfl
        cases h1 : walkStep L cpu true 1 p1 va s2 with
        | none => rw [h1] at h; cases h
        | some res1 =>
          obtain ⟨r1, s1⟩ := res1
          obtain ⟨g1, e1, l1, n1⟩ := walkStep1_alloc L cpu pt va p1 s2 s1 r1 hc g2.sep hl1 h1
          rw [h1] at h
          cases r1 with
          | none =>
            cases h
            exact ⟨PtGrow_trans L pt s s2 _ g2 g1, (fun va' => by rw [e1, e2]),
              (fun p hp => by cases hp), fun _ => n1 rfl⟩
          | some p0 =>
            cases h
            refine ⟨PtGrow_trans L pt s s2 _ g2 g1, (fun va' => by rw [e1, e2]), ?_,
              fun hh => by cases hh⟩
            intro p hp; cases hp
            exact slot_of_l0 _ _ _ _ (l1 p0 rfl)

/-! ## Theorems: mappages -/

/-- Writing a leaf entry keeps the table a tree and touches no other frame. -/
theorem PtGrow_leaf_write (L : Layout) (pt va p v : Nat) (s : KState) (hsep : Sep L s pt)
    (hs : slot s.mem pt va = some p) : PtGrow L pt s (s.write p v) := by
  obtain ⟨v1, v0, _⟩ := leaf_write_views s.mem pt va p v hsep.tree hs
  have hpg : ∀ q, IsPtPage (s.write p v).mem pt q ↔ IsPtPage s.mem pt q :=
    IsPtPage_congr s.mem (s.write p v).mem pt v1 v0
  obtain ⟨p0, hp0, e⟩ := slot_some s.mem pt va p hs
  have ap0 := (l0page_aligned s.mem pt va p0 hp0).1
  have hp0p : IsPtPage s.mem pt p0 := Or.inr (Or.inr ⟨va, hp0⟩)
  have b := PX_lt 0 va
  refine ⟨⟨PT_congr s.mem _ pt v1 v0 hsep.tree, ⟨hsep.free.aligned, hsep.free.lt, hsep.free.once⟩,
    fun f hf hp => hsep.apart f hf ((hpg f).mp hp)⟩, ?_, fun c => List.suffix_refl _,
    fun q hq => (hpg q).mpr hq, fun q hq => Or.inl ((hpg q).mp hq),
    fun f h1 h2 => absurd h1 h2, fun f _ => rfl, fun f h1 h2 => absurd h1 h2, fun q _ => rfl⟩
  intro g hg hnf hnp
  refine ⟨hnf, fun hh => hnp ((hpg g).mp hh), rfl, ?_⟩
  intro a ha1 ha2
  have hne : p0 ≠ g := fun hh => hnp (hh ▸ hp0p)
  have : a ≠ p := by unfold PGSIZE at *; omega
  simp [KState.write, this]

/-- What the loop of `mappages` has done when it returns: it has written the first `k`
pages of the range, all of which were invalid before, and nothing else; it returns 0
after the last page, and -1 when `walk` finds every free list empty. -/
theorem mappagesLoop_spec (L : Layout) (cpu pt last perm : Nat) (hc : cpu < L.NCPU)
    (hlast : last % PGSIZE = 0) :
    ∀ fuel a pa s r s', Sep L s pt → a % PGSIZE = 0 → a ≤ last →
      mappagesLoop L cpu pt last perm fuel a pa s = some (r, s') →
      PtGrow L pt s s' ∧
      ∃ k, a + k * PGSIZE ≤ last + PGSIZE ∧
        (∀ j, j < k → a + j * PGSIZE < MAXVA ∧
          pteval s.mem pt (a + j * PGSIZE) &&& PTE_V = 0 ∧
          pteval s'.mem pt (a + j * PGSIZE) =
            PA2PTE (pa + j * PGSIZE) ||| perm ||| PTE_V) ∧
        (∀ va', va' < MAXVA → (∀ j, j < k → va' / PGSIZE ≠ (a + j * PGSIZE) / PGSIZE) →
          pteval s'.mem pt va' = pteval s.mem pt va') ∧
        (r = 0 → a + k * PGSIZE = last + PGSIZE) ∧
        (r ≠ 0 → r = -1 ∧ a + k * PGSIZE ≤ last ∧ ∀ i, i < L.NCPU → s'.freelist i = []) := by
  intro fuel
  induction fuel with
  | zero => intro a pa s r s' _ _ _ h; simp [mappagesLoop] at h
  | succ fuel ih =>
    intro a pa s r s' hsep ha hle h
    unfold mappagesLoop at h
    cases hw : walk L cpu pt a true s with
    | none => rw [hw] at h; cases h
    | some res =>
      obtain ⟨rw_, s1⟩ := res
      obtain ⟨hmax, g1, e1, sl, emp⟩ := walk_alloc L cpu pt a s s1 rw_ hc hsep hw
      rw [hw] at h
      cases rw_ with
      | none =>
        cases h
        refine ⟨g1, 0, by omega, fun j hj => by omega, fun va' _ _ => e1 va', ?_, ?_⟩
        · intro hh; cases hh
        · intro _; exact ⟨rfl, by omega, emp rfl⟩
      | some p =>
        simp only at h
        have hslot := sl p rfl
        by_cases hv : s1.mem p &&& PTE_V ≠ 0
        · rw [if_pos hv] at h; cases h
        · rw [if_neg hv] at h
          have hinv : pteval s.mem pt a &&& PTE_V = 0 := by
            rw [← e1 a, pteval_of_slot _ _ _ _ hslot]
            exact not_not.mp hv
          have g2 := PtGrow_leaf_write L pt a p (PA2PTE pa ||| perm ||| PTE_V) s1 g1.sep hslot
          obtain ⟨_, _, vp⟩ := leaf_write_views s1.mem pt a p (PA2PTE pa ||| perm ||| PTE_V)
            g1.sep.tree hslot
          have hnew : ∀ va', pteval (s1.write p (PA2PTE pa ||| perm ||| PTE_V)).mem pt va' =
              if slot s1.mem pt va' = some p then PA2PTE pa ||| perm ||| PTE_V
              else pteval s1.mem pt va' := vp
          have hself : pteval (s1.write p (PA2PTE pa ||| perm ||| PTE_V)).mem pt a =
              PA2PTE pa ||| perm ||| PTE_V := by rw [hnew, if_pos hslot]
          have hother : ∀ va', va' < MAXVA → va' / PGSIZE ≠ a / PGSIZE →
              pteval (s1.write p (PA2PTE pa ||| perm ||| PTE_V)).mem pt va' =
                pteval s.mem pt va' := by
            intro va' hva' hne
            rw [hnew, if_neg, e1]
            intro hh
            exact hne (slot_inj s1.mem pt a va' p g1.sep.tree hmax hva' hslot hh)
          have g12 := PtGrow_trans L pt s s1 _ g1 g2
          by_cases hal : a = last
          · rw [if_pos hal] at h
            cases h
            refine ⟨g12, 1, by omega, ?_, ?_, ?_, ?_⟩
            · intro j hj
              have : j = 0 := by omega
              subst this
              simp only [Nat.zero_mul, Nat.add_zero]
              exact ⟨hmax, hinv, hself⟩
            · intro va' hva' hne
              exact hother va' hva' (by have := hne 0 (by omega); simpa using this)
            · intro _; omega
            · intro hh; exact absurd rfl hh
          · rw [if_neg hal] at h
            have ha' : (a + PGSIZE) % PGSIZE = 0 := by unfold PGSIZE at *; omega
            have hle' : a + PGSIZE ≤ last := by unfold PGSIZE at *; omega
            obtain ⟨g3, k, hk1, hk2, hk3, hk4, hk5⟩ :=
              ih (a + PGSIZE) ((pa + PGSIZE) % 2 ^ 64) _ r s' g2.sep ha' hle' h
            refine ⟨PtGrow_trans L pt s _ s' g12 g3, k + 1, by
              rw [Nat.add_mul]; omega, ?_, ?_, ?_, ?_⟩
            · intro j hj
              cases j with
              | zero =>
                simp only [Nat.zero_mul, Nat.add_zero]
                refine ⟨hmax, hinv, ?_⟩
                rw [hk3 a hmax, hself]
                intro j _
                unfold PGSIZE at *; omega
              | succ j =>
                obtain ⟨b1, b2, b3⟩ := hk2 j (by omega)
                have eaddr : a + (j + 1) * PGSIZE = a + PGSIZE + j * PGSIZE := by
                  rw [Nat.add_mul]; omega
                rw [eaddr]
                refine ⟨b1, ?_, ?_⟩
                · rw [← hother _ b1 (by unfold PGSIZE at *; omega)]
                  exact b2
                · rw [b3]
                  have : PA2PTE ((pa + PGSIZE) % 2 ^ 64 + j * PGSIZE)
                      = PA2PTE (pa + (j + 1) * PGSIZE) := by
                    unfold PA2PTE
                    have : ((pa + PGSIZE) % 2 ^ 64 + j * PGSIZE) % 2 ^ 64
                        = (pa + (j + 1) * PGSIZE) % 2 ^ 64 := by
                      rw [Nat.add_mul]; omega
                    rw [this]
                  rw [this]
            · intro va' hva' hne
              rw [hk3 va' hva', hother va' hva']
              · have := hne 0 (by omega)
                simpa using this
              · intro j hj
                have := hne (j + 1) (by omega)
                have eaddr : a + (j + 1) * PGSIZE = a + PGSIZE + j * PGSIZE := by
                  rw [Nat.add_mul]; omega
                rw [eaddr] at this
                exact this
            · intro hr
              have := hk4 hr
              rw [Nat.add_mul]; omega
            · intro hr
              obtain ⟨c1, c2, c3⟩ := hk5 hr
              exact ⟨c1, by rw [Nat.add_mul]; omega, c3⟩

theorem mappages_eq (L : Layout) (cpu pt va size pa perm : Nat) (s : KState)
    (hva : va % PGSIZE = 0) (hsize : 0 < size) (hmax : va + size ≤ 2 ^ 64) :
    mappages L cpu pt va size pa perm s =
      mappagesLoop L cpu pt (PGROUNDDOWN (va + size - 1)) perm PAGE_FUEL va pa s := by
  unfold mappages
  have h1 : (va + size + (2 ^ 64 - 1)) % 2 ^ 64 = va + size - 1 := by omega
  have h2 : PGROUNDDOWN va = va := by unfold PGROUNDDOWN PGSIZE at *; omega
  rw [h1, h2]

theorem PA2PTE_mod (x : Nat) : PA2PTE (x % 2 ^ 64) = PA2PTE x := by
  unfold PA2PTE; rw [Nat.mod_mod]

/-- The leaf that `mappages` writes translates to the frame, in `uint64` arithmetic. -/
theorem leaf_walkaddr (L : Layout) (cpu pt va x perm : Nat) (s : KState)
    (hva : va < MAXVA) (hx : x % PGSIZE = 0) (hperm : perm < 1024) (hU : perm &&& PTE_U ≠ 0)
    (h : pteval s.mem pt va = PA2PTE x ||| perm ||| PTE_V) :
    walkaddr L cpu pt va s = x % 2 ^ 64 := by
  rw [walkaddr_eq, if_neg (by omega), h]
  rw [← PA2PTE_mod x]
  rw [if_neg (leaf_valid _ _), if_neg (leaf_user _ _ hU)]
  exact leaf_pa _ _ (by unfold PGSIZE at *; omega) (Nat.mod_lt _ (by norm_num)) hperm

theorem walkaddr_congr (L : Layout) (cpu pt va : Nat) (s s' : KState)
    (h : pteval s'.mem pt va = pteval s.mem pt va) :
    walkaddr L cpu pt va s' = walkaddr L cpu pt va s := by
  rw [walkaddr_eq, walkaddr_eq, h]

/-- C4: for a well-formed page table `pt` (a tree none of whose pages is free, the
free frames being distinct aligned 64-bit addresses), page-aligned `va` and `pa`,
`size > 0` with `va + size <= MAXVA` and permission bits `perm` that contain `PTE_U`:
if `mappages` returns 0, then `walkaddr(pt, va + k*PGSIZE)` is `pa + k*PGSIZE` (in
`uint64` arithmetic) for every `k` with `k*PGSIZE < size`, and `walkaddr(pt, a)` is
unchanged for every page `a` outside `[va, va+size)`. -/
theorem mappages_walkaddr (L : Layout) (cpu pt va size pa perm : Nat) (s s' : KState)
    (hc : cpu < L.NCPU) (hsep : Sep L s pt)
    (hva : va % PGSIZE = 0) (hpa : pa % PGSIZE = 0)
    (hsize : 0 < size) (hmax : va + size ≤ MAXVA)
    (hperm : perm < 1024) (hU : perm &&& PTE_U ≠ 0)
    (h : mappages L cpu pt va size pa perm s = some (0, s')) :
    (∀ k, k * PGSIZE < size →
      walkaddr L cpu pt (va + k * PGSIZE) s' = (pa + k * PGSIZE) % 2 ^ 64) ∧
    (∀ a, a % PGSIZE = 0 → (a < va ∨ va + size ≤ a) →
      walkaddr L cpu pt a s' = walkaddr L cpu pt a s) := by
  rw [MAXVA_eq] at hmax
  rw [mappages_eq L cpu pt va size pa perm s hva hsize (by omega)] at h
  have hlast : PGROUNDDOWN (va + size - 1) % PGSIZE = 0 := by
    unfold PGROUNDDOWN PGSIZE; omega
  have hle : va ≤ PGROUNDDOWN (va + size - 1) := by
    unfold PGROUNDDOWN PGSIZE at *; omega
  obtain ⟨_, kk, hk1, hk2, hk3, hk4, _⟩ :=
    mappagesLoop_spec L cpu pt _ perm hc hlast PAGE_FUEL va pa s 0 s' hsep hva hle h
  have hkk := hk4 rfl
  constructor
  · intro k hk
    have hklt : k < kk := by
      by_contra hcon
      have : kk * PGSIZE ≤ k * PGSIZE := Nat.mul_le_mul_right _ (by omega)
      unfold PGROUNDDOWN PGSIZE at *; omega
    obtain ⟨b1, _, b3⟩ := hk2 k hklt
    exact leaf_walkaddr L cpu pt _ _ perm s' b1 (by unfold PGSIZE at *; omega) hperm hU b3
  · intro a ha hout
    by_cases hamax : a < MAXVA
    · apply walkaddr_congr
      apply hk3 a hamax
      intro j hj
      have : (j + 1) * PGSIZE ≤ kk * PGSIZE := Nat.mul_le_mul_right _ (by omega)
      rw [Nat.add_mul] at this
      unfold PGROUNDDOWN PGSIZE at *; omega
    · rw [walkaddr_eq, walkaddr_eq, if_pos (by omega), if_pos (by omega)]

/-- A run of the loop of `mappages` that returns -1 splits in two: the loop over the
first `k` pages returns 0 in a state `sk` (for `k = 0` no page is mapped and `sk` is the
initial state), and `walk` for page `k`, started in `sk`, returns null and leaves the
final state. -/
theorem mappagesLoop_split (L : Layout) (cpu pt last perm : Nat) (hlast : last % PGSIZE = 0) :
    ∀ fuel a pa s s', a % PGSIZE = 0 → a ≤ last →
      mappagesLoop L cpu pt last perm fuel a pa s = some (-1, s') →
      ∃ k sk, (k = 0 → sk = s) ∧
        (0 < k → mappagesLoop L cpu pt (a + (k - 1) * PGSIZE) perm fuel a pa s
          = some (0, sk)) ∧
        a + k * PGSIZE ≤ last ∧
        walk L cpu pt (a + k * PGSIZE) true sk = some (none, s') := by
  intro fuel
  induction fuel with
  | zero => intro a pa s s' _ _ h; simp [mappagesLoop] at h
  | succ fuel ih =>
    intro a pa s s' ha hle h
    unfold mappagesLoop at h
    cases hw : walk L cpu pt a true s with
    | none => rw [hw] at h; cases h
    | some res =>
      obtain ⟨rw_, s1⟩ := res
      rw [hw] at h
      cases rw_ with
      | none =>
        simp only [Option.some.injEq, Prod.mk.injEq, true_and] at h
        subst h
        refine ⟨0, s, fun _ => rfl, fun hk => absurd hk (by decide), by omega, ?_⟩
        simp only [Nat.zero_mul, Nat.add_zero]
        exact hw
      | some p =>
        simp only at h
        by_cases hv : s1.mem p &&& PTE_V ≠ 0
        · rw [if_pos hv] at h; cases h
        · rw [if_neg hv] at h
          by_cases hal : a = last
          · rw [if_pos hal] at h
            simp only [Option.some.injEq, Prod.mk.injEq] at h
            exact absurd h.1 (by decide)
          · rw [if_neg hal] at h
            obtain ⟨k, sk, h0, h1, h2, h3⟩ := ih _ _ _ _
              (by unfold PGSIZE at *; omega) (by unfold PGSIZE at *; omega) h
            refine ⟨k + 1, sk, fun hk => absurd hk (by omega), fun _ => ?_, ?_, ?_⟩
            · unfold mappagesLoop
              rw [hw]
              simp only
              rw [if_neg hv]
              by_cases hk : k = 0
              · subst hk
                simp only [Nat.add_sub_cancel, Nat.zero_mul, Nat.add_zero, if_true]
                rw [h0 rfl]
              · have e : a + (k + 1 - 1) * PGSIZE = a + PGSIZE + (k - 1) * PGSIZE := by
                  have : k = (k - 1) + 1 := by omega
                  rw [Nat.add_sub_cancel]
                  nth_rewrite 1 [this]
                  rw [Nat.add_mul]; omega
                have hne : a ≠ a + (k + 1 - 1) * PGSIZE := by
                  rw [e]; unfold PGSIZE; omega
                rw [if_neg hne, e]
                exact h1 (by omega)
            · rw [Nat.add_mul]; omega
            · have e : a + (k + 1) * PGSIZE = a + PGSIZE + k * PGSIZE := by
                rw [Nat.add_mul]; omega
              rw [e]
              exact h3

/-- C6: let `mappages` on a well-formed page table return -1. Then there is a page `k` of
the range at which `walk` could not allocate: `mappages` of the first `k` pages alone
returns 0 in a state `sk` (for `k = 0` nothing is mapped and `sk` is the initial state),
and `walk` for page `k`, started in `sk`, returns null, every free list being empty, and
leaves the final state. In the final state the first `k` pages are still mapped, page `j`
by the leaf `PA2PTE(pa + j*PGSIZE) | perm | V`, that is to `pa + j*PGSIZE` with the flags
`perm|V`, and every other leaf is as before the call: nothing is rolled back. And
whatever `mappages` returns, every leaf that was valid before the call is unchanged, the
pages it has written having been invalid before (on a valid leaf it panics). -/
theorem mappages_failure (L : Layout) (cpu pt va size pa perm : Nat) (s s' : KState) (r : Int)
    (hc : cpu < L.NCPU) (hsep : Sep L s pt)
    (hva : va % PGSIZE = 0) (hpa : pa % PGSIZE = 0)
    (hsize : 0 < size) (hmax : va + size ≤ 2 ^ 64) (hperm : perm < 1024)
    (h : mappages L cpu pt va size pa perm s = some (r, s')) :
    (r = -1 → ∃ k sk, k * PGSIZE < size ∧
      (k = 0 → sk = s) ∧
      (0 < k → mappages L cpu pt va (k * PGSIZE) pa perm s = some (0, sk)) ∧
      walk L cpu pt (va + k * PGSIZE) true sk = some (none, s') ∧
      (∀ i, i < L.NCPU → s'.freelist i = []) ∧
      (∀ j, j < k →
        pteval s.mem pt (va + j * PGSIZE) &&& PTE_V = 0 ∧
        pteval s'.mem pt (va + j * PGSIZE) = PA2PTE (pa + j * PGSIZE) ||| perm ||| PTE_V ∧
        PTE2PA (pteval s'.mem pt (va + j * PGSIZE)) = (pa + j * PGSIZE) % 2 ^ 64 ∧
        PTE_FLAGS (pteval s'.mem pt (va + j * PGSIZE)) = perm ||| PTE_V) ∧
      (∀ va', va' < MAXVA → (∀ j, j < k → va' / PGSIZE ≠ (va + j * PGSIZE) / PGSIZE) →
        pteval s'.mem pt va' = pteval s.mem pt va')) ∧
    (∀ va', va' < MAXVA → pteval s.mem pt va' &&& PTE_V ≠ 0 →
      pteval s'.mem pt va' = pteval s.mem pt va') := by
  rw [mappages_eq L cpu pt va size pa perm s hva hsize hmax] at h
  have hlast : PGROUNDDOWN (va + size - 1) % PGSIZE = 0 := by
    unfold PGROUNDDOWN PGSIZE; omega
  have hle : va ≤ PGROUNDDOWN (va + size - 1) := by
    unfold PGROUNDDOWN PGSIZE at *; omega
  constructor
  · intro hr
    subst hr
    obtain ⟨k, sk, h0, h1, h2, h3⟩ :=
      mappagesLoop_split L cpu pt _ perm hlast PAGE_FUEL va pa s s' hva hle h
    have hk : k * PGSIZE < size := by unfold PGROUNDDOWN PGSIZE at *; omega
    -- the first `k` pages, in the state `sk`
    have hpre : Sep L sk pt ∧
        (∀ j, j < k → pteval s.mem pt (va + j * PGSIZE) &&& PTE_V = 0 ∧
          pteval sk.mem pt (va + j * PGSIZE) = PA2PTE (pa + j * PGSIZE) ||| perm ||| PTE_V) ∧
        (∀ va', va' < MAXVA → (∀ j, j < k → va' / PGSIZE ≠ (va + j * PGSIZE) / PGSIZE) →
          pteval sk.mem pt va' = pteval s.mem pt va') := by
      by_cases hk0 : k = 0
      · rw [h0 hk0]
        exact ⟨hsep, fun j hj => absurd hj (by omega), fun _ _ _ => rfl⟩
      · have hp := h1 (by omega)
        have hl1 : (va + (k - 1) * PGSIZE) % PGSIZE = 0 := by unfold PGSIZE at *; omega
        obtain ⟨g, kk, _, b2, b3, b4, _⟩ :=
          mappagesLoop_spec L cpu pt _ perm hc hl1 PAGE_FUEL va pa s 0 sk hsep hva
            (by omega) hp
        have hkk : kk = k := by
          have := b4 rfl
          unfold PGSIZE at *; omega
        subst hkk
        exact ⟨g.sep, fun j hj => (b2 j hj).2, b3⟩
    obtain ⟨hsk, p2, p3⟩ := hpre
    obtain ⟨_, _, e1, _, emp⟩ := walk_alloc L cpu pt _ sk s' none hc hsk h3
    refine ⟨k, sk, hk, h0, ?_, h3, emp rfl, ?_, ?_⟩
    · intro hk0
      rw [mappages_eq L cpu pt va (k * PGSIZE) pa perm s hva (by unfold PGSIZE; omega)
        (by omega)]
      have e : PGROUNDDOWN (va + k * PGSIZE - 1) = va + (k - 1) * PGSIZE := by
        unfold PGROUNDDOWN PGSIZE at *; omega
      rw [e]
      exact h1 hk0
    · intro j hj
      obtain ⟨b2, b3⟩ := p2 j hj
      have b4 : pteval s'.mem pt (va + j * PGSIZE) =
          PA2PTE (pa + j * PGSIZE) ||| perm ||| PTE_V := by rw [e1]; exact b3
      refine ⟨b2, b4, ?_, ?_⟩
      · rw [b4, ← PA2PTE_mod]
        exact leaf_pa _ _ (by unfold PGSIZE at *; omega) (Nat.mod_lt _ (by norm_num)) hperm
      · rw [b4, ← PA2PTE_mod]
        exact leaf_flags _ _ (Nat.mod_lt _ (by norm_num)) hperm
    · intro va' hva' hne
      rw [e1]
      exact p3 va' hva' hne
  · obtain ⟨_, kk, _, hk2, hk3, _, _⟩ :=
      mappagesLoop_spec L cpu pt _ perm hc hlast PAGE_FUEL va pa s r s' hsep hva hle h
    intro va' hva' hvalid
    apply hk3 va' hva'
    intro j hj heq
    obtain ⟨_, b2, _⟩ := hk2 j hj
    rw [pteval_page s.mem pt va' (va + j * PGSIZE) heq.symm] at b2
    exact hvalid b2

/-- A zeroed memory holds an empty page table at any aligned root. -/
theorem PT_zero (m : Nat → Nat) (pt : Nat) (hm : ∀ a, m a = 0) (hpt : pt % PGSIZE = 0) :
    PT m pt ∧ ∀ q, IsPtPage m pt q ↔ q = pt := by
  have h1 : ∀ va, l1page m pt va = none := by
    intro va; unfold l1page; rw [hm, if_neg zero_not_valid]
  have h0 : ∀ va, l0page m pt va = none := by
    intro va; unfold l0page; rw [h1]
  constructor
  · refine ⟨hpt, ?_, ?_, ?_, ?_, ?_⟩
    · intro va q h; rw [h1] at h; cases h
    · intro va q h; rw [h0] at h; cases h
    · intro va va' q h; rw [h1] at h; cases h
    · intro va va' q h; rw [h0] at h; cases h
    · intro va va' q h; rw [h0] at h; cases h
  · intro q
    unfold IsPtPage
    simp [h1, h0]

/-- On a machine with one CPU whose free list holds distinct aligned frames, none of
them the root, a zeroed memory gives a well-formed empty page table. -/
theorem Sep_zero (L : Layout) (s : KState) (pt : Nat) (hN : L.NCPU = 1)
    (hm : ∀ a, s.mem a = 0) (hpt : pt % PGSIZE = 0) (hnd : (s.freelist 0).Nodup)
    (hal : ∀ f, f ∈ s.freelist 0 → f % PGSIZE = 0 ∧ f < 2 ^ 64 ∧ f ≠ pt) : Sep L s pt := by
  obtain ⟨t1, t2⟩ := PT_zero s.mem pt hm hpt
  have hfree : ∀ f, IsFree L s f → f ∈ s.freelist 0 := by
    rintro f ⟨c, hc, hmem⟩
    have : c = 0 := by omega
    subst this; exact hmem
  refine ⟨t1, ⟨fun f hf => (hal f (hfree f hf)).1, fun f hf => (hal f (hfree f hf)).2.1, ?_⟩, ?_⟩
  · intro f
    unfold occ
    rw [hN]
    simp only [List.range_succ, List.range_zero, List.nil_append, List.map_cons, List.map_nil,
      List.sum_cons, List.sum_nil, Nat.add_zero]
    exact List.nodup_iff_count_le_one.mp hnd f
  · intro f hf hp
    exact (hal f (hfree f hf)).2.2 ((t2 f).mp hp)

theorem Sep_sEmpty : Sep L1 sEmpty 61440 :=
  Sep_zero L1 sEmpty 61440 rfl (fun _ => rfl) (by decide) (by decide) (by decide)

theorem Sep_sOneFree : Sep L1 sOneFree 61440 :=
  Sep_zero L1 sOneFree 61440 rfl (fun _ => rfl) (by decide) (by decide) (by decide)

/-- C4 (witness): mapping page 0 of an empty table of `L1` to the frame 20480. -/
theorem mappages_walkaddr_witness :
    (∀ k, k * PGSIZE < PGSIZE →
      walkaddr L1 0 61440 (0 + k * PGSIZE) sMapped = (20480 + k * PGSIZE) % 2 ^ 64) ∧
    (∀ a, a % PGSIZE = 0 → (a < 0 ∨ 0 + PGSIZE ≤ a) →
      walkaddr L1 0 61440 a sMapped = walkaddr L1 0 61440 a sEmpty) :=
  mappages_walkaddr L1 0 61440 0 PGSIZE 20480 (PTE_R ||| PTE_W ||| PTE_U) sEmpty sMapped
    (by decide) Sep_sEmpty (by decide) (by decide) (by decide) (by decide) (by decide)
    (by decide) rfl

theorem Sep_sTwoFree : Sep L1 sTwoFree 61440 :=
  Sep_zero L1 sTwoFree 61440 rfl (fun _ => rfl) (by decide) (by decide) (by decide)

/-- C6 (witness): with two free frames, `mappages` of the pages 511 and 512 of an empty
table maps page 511, for which `walk` takes both frames, and fails at page 512, which
needs another level-0 page: it returns -1, the failing page is page 1 of the range, and
page 511 is still mapped to the frame 20480 with the flags `R|W|U|V`. -/
theorem mappages_failure_witness :
    mappages L1 0 61440 (511 * PGSIZE) (2 * PGSIZE) 20480 (PTE_R ||| PTE_W ||| PTE_U) sTwoFree
      = some (-1, sTwoFailed) ∧
    mappages L1 0 61440 (511 * PGSIZE) PGSIZE 20480 (PTE_R ||| PTE_W ||| PTE_U) sTwoFree
      = some (0, sTwoFirst) ∧
    walk L1 0 61440 (511 * PGSIZE + PGSIZE) true sTwoFirst = some (none, sTwoFailed) ∧
    pteval sTwoFree.mem 61440 (511 * PGSIZE) &&& PTE_V = 0 ∧
    pteval sTwoFailed.mem 61440 (511 * PGSIZE) =
      PA2PTE 20480 ||| (PTE_R ||| PTE_W ||| PTE_U) ||| PTE_V ∧
    PTE2PA (pteval sTwoFailed.mem 61440 (511 * PGSIZE)) = 20480 ∧
    PTE_FLAGS (pteval sTwoFailed.mem 61440 (511 * PGSIZE)) =
      (PTE_R ||| PTE_W ||| PTE_U) ||| PTE_V := by
  have e : mappages L1 0 61440 (511 * PGSIZE) (2 * PGSIZE) 20480 (PTE_R ||| PTE_W ||| PTE_U)
      sTwoFree = some (-1, sTwoFailed) := rfl
  have e1 : mappages L1 0 61440 (511 * PGSIZE) PGSIZE 20480 (PTE_R ||| PTE_W ||| PTE_U)
      sTwoFree = some (0, sTwoFirst) := rfl
  obtain ⟨k, sk, hk, h0, h1, h2, _, h4, _⟩ :=
    (mappages_failure L1 0 61440 (511 * PGSIZE) (2 * PGSIZE) 20480
      (PTE_R ||| PTE_W ||| PTE_U) sTwoFree sTwoFailed (-1) (by decide) Sep_sTwoFree
      (by decide) (by decide) (by decide) (by decide) (by decide) e).1 rfl
  have hk1 : k = 1 := by
    by_contra hne
    have hk0 : k = 0 := by unfold PGSIZE at hk; omega
    subst hk0
    rw [h0 rfl] at h2
    have h5 := congrArg (fun o => (o.map Prod.fst).isSome && (o.map Prod.fst == some none)) h2
    revert h5
    decide
  subst hk1
  have h1' := h1 (by decide)
  rw [Nat.one_mul, e1] at h1'
  simp only [Option.some.injEq, Prod.mk.injEq, true_and] at h1'
  subst h1'
  rw [Nat.one_mul] at h2
  obtain ⟨a1, a2, a3, a4⟩ := h4 0 (by decide)
  simp only [Nat.zero_mul, Nat.add_zero] at a1 a2 a3 a4
  exact ⟨e, e1, h2, a1, a2, a3, a4⟩

/-! ## Theorems: freeing frames and the page table -/

theorem kfree_mem (L : Layout) (pa : Nat) (s s' : KState) (h : kfree L pa s = some s')
    (a : Nat) (ha : ¬ (pa ≤ a ∧ a < pa + PGSIZE)) : s'.mem a = s.mem a := by
  unfold kfree at h
  split at h
  · cases h
  · simp only at h
    split at h
    · cases h; rfl
    · cases h
      have hne : a ≠ pa := by unfold PGSIZE at *; omega
      simp [KState.setList, KState.write, memset, hne, ha, dec_refcount]

theorem kfree_ref (L : Layout) (pa : Nat) (s s' : KState) (h : kfree L pa s = some s')
    (i : Nat) : s'.ref i = if i = pa / PGSIZE then (s.ref i + 255) % 256 else s.ref i := by
  obtain ⟨_, _, _, hcase⟩ := kfree_cases L pa s s' h
  rcases hcase with ⟨_, hs⟩ | ⟨_, hs, _⟩
  · rw [hs]; rfl
  · rw [hs]; rfl

/-- The effect of `kfree` on a frame that is not free, in a state whose free frames
are sound. -/
theorem kfree_effect (L : Layout) (hN : 0 < L.NCPU) (f : Nat) (s s' : KState)
    (hok : FreeOk L s) (hf64 : f < 2 ^ 64) (hnf : ¬ IsFree L s f)
    (h : kfree L f s = some s') :
    FreeOk L s' ∧ f % PGSIZE = 0 ∧
    (∀ g, IsFree L s' g ↔ IsFree L s g ∨ (g = f ∧ refcount f s' = 0)) ∧
    refcount f s' = (refcount f s + 255) % 256 ∧
    (∀ g, g % PGSIZE = 0 → g ≠ f → refcount g s' = refcount g s) := by
  obtain ⟨hal, hlo, hhi, hcase⟩ := kfree_cases L f s s' h
  have href := kfree_ref L f s s' h
  have hrf : refcount f s' = (refcount f s + 255) % 256 := by
    unfold refcount; rw [href, if_pos rfl]
  have hro : ∀ g, g % PGSIZE = 0 → g ≠ f → refcount g s' = refcount g s := by
    intro g hg hgf
    unfold refcount; rw [href, if_neg (frame_ne g f hg hal hgf)]
  have hrd : refcount f (dec_refcount f s) = refcount f s' := by
    rw [hrf, refcount_dec_same]
  rcases hcase with ⟨hnz, hs⟩ | ⟨hz, _, hsl⟩
  · have hfl : s'.freelist = s.freelist := by rw [hs]; rfl
    refine ⟨⟨fun g hg => hok.aligned g ((IsFree_congr L s s' hfl g).mp hg),
      fun g hg => hok.lt g ((IsFree_congr L s s' hfl g).mp hg),
      fun g => by rw [occ_congr L s s' hfl g]; exact hok.once g⟩, hal, ?_, hrf, hro⟩
    intro g
    rw [IsFree_congr L s s' hfl g]
    constructor
    · intro hg; exact Or.inl hg
    · rintro (hg | ⟨_, h0⟩)
      · exact hg
      · rw [← hrd] at h0; exact absurd h0 hnz
  · have hcm : cpu_map L f < L.NCPU := Nat.mod_lt _ hN
    have hz' : refcount f s' = 0 := by rw [← hrd]; exact hz
    have hocc0 : occ L s f = 0 := by
      by_contra h0
      exact hnf (mem_of_occ_pos L s f (by omega))
    have hocc : ∀ g, occ L s' g = occ L s g + (if g = f then 1 else 0) := by
      intro g
      have h1 := occ_setList L s (cpu_map L f) (f :: s.freelist (cpu_map L f)) g hcm
      rw [occ_congr L _ s' hsl g]
      rw [List.count_cons] at h1
      by_cases hg : g = f
      · subst hg; simp at h1; simp; omega
      · have : ¬ (f == g) = true := by simp; exact fun h => hg h.symm
        simp [this] at h1; simp [hg]; omega
    have hiff : ∀ g, IsFree L s' g ↔ IsFree L s g ∨ g = f := by
      intro g
      constructor
      · rintro ⟨c, hc, hm⟩
        rw [hsl] at hm
        by_cases hcc : c = cpu_map L f
        · subst hcc
          rw [setList_same] at hm
          rcases List.mem_cons.mp hm with h | h
          · exact Or.inr h
          · exact Or.inl ⟨_, hc, h⟩
        · rw [setList_other _ _ _ _ hcc] at hm
          exact Or.inl ⟨c, hc, hm⟩
      · rintro (⟨c, hc, hm⟩ | hg)
        · refine ⟨c, hc, ?_⟩
          rw [hsl]
          by_cases hcc : c = cpu_map L f
          · subst hcc; rw [setList_same]; exact List.mem_cons_of_mem _ hm
          · rw [setList_other _ _ _ _ hcc]; exact hm
        · refine ⟨cpu_map L f, hcm, ?_⟩
          rw [hsl, setList_same, hg]; exact List.mem_cons_self _ _
    refine ⟨⟨?_, ?_, ?_⟩, hal, ?_, hrf, hro⟩
    · intro g hg
      rcases (hiff g).mp hg with h | h
      · exact hok.aligned g h
      · rw [h]; exact hal
    · intro g hg
      rcases (hiff g).mp hg with h | h
      · exact hok.lt g h
      · rw [h]; exact hf64
    · intro g
      rw [hocc]
      by_cases hg : g = f
      · subst hg; simp; omega
      · simp [hg]; exact hok.once g
    · intro g
      rw [hiff]
      constructor
      · rintro (h | h)
        · exact Or.inl h
        · exact Or.inr ⟨h, hz'⟩
      · rintro (h | ⟨h, _⟩)
        · exact Or.inl h
        · exact Or.inr h

theorem InRange_single (a va : Nat) (ha : a % PGSIZE = 0) :
    InRange a (a + PGSIZE) va ↔ va = a := by
  unfold InRange PGSIZE at *
  constructor
  · rintro ⟨h1, h2, h3⟩; omega
  · intro h; subst h; omega

theorem frameOf_aligned (m : Nat → Nat) (pt va : Nat) : frameOf m pt va % PGSIZE = 0 :=
  PTE2PA_aligned _

theorem frameOf_lt (m : Nat → Nat) (pt va : Nat) : frameOf m pt va < 2 ^ 64 :=
  PTE2PA_lt _

/-- Two addresses, one inside an aligned range of pages and one outside, lie in
different pages. -/
theorem page_ne_of_outside (a stop va va' : Nat) (ha : a % PGSIZE = 0)
    (hs : stop % PGSIZE = 0) (hin : InRange a stop va) (hout : ¬ (a ≤ va' ∧ va' < stop)) :
    va' / PGSIZE ≠ va / PGSIZE := by
  unfold InRange PGSIZE at *
  omega

/-- An unmapped page of a well-formed table: `uvmunmap` skips it. -/
theorem Unmapped_skip (L : Layout) (pt a : Nat) (do_free : Bool) (s : KState)
    (hsep : Sep L s pt) (ha : a % PGSIZE = 0) (hmax : a < MAXVA)
    (hpre : UnmapPre L pt a (a + PGSIZE) do_free s)
    (hnm : ¬ Mapped s.mem pt a) : Unmapped L pt a (a + PGSIZE) do_free s s := by
  have hnw : ∀ g, ¬ WasFreed s.mem pt a (a + PGSIZE) do_free g := by
    rintro g ⟨_, va, hin, hm, _⟩
    rw [(InRange_single a va ha).mp hin] at hm
    exact hnm hm
  refine ⟨hsep, ?_, fun _ => rfl, fun _ => rfl, ?_, fun _ _ _ => rfl, fun _ => ⟨rfl, rfl⟩,
    fun g hg => absurd hg (hnw g), fun g _ _ => ⟨rfl, Iff.rfl⟩, fun _ _ _ _ _ _ _ => rfl,
    hpre.free_zero⟩
  · intro va hin; rw [(InRange_single a va ha).mp hin]; exact hmax
  · intro va hin
    rw [(InRange_single a va ha).mp hin]
    unfold Mapped at hnm
    rw [if_neg hnm]

/-- A mapped page of a well-formed table: `uvmunmap` frees its frame if asked to and
clears the leaf. -/
theorem Unmapped_page (L : Layout) (hN : 0 < L.NCPU) (pt a p : Nat) (do_free : Bool)
    (s s1 : KState) (hsep : Sep L s pt) (ha : a % PGSIZE = 0) (hmax : a < MAXVA)
    (hpre : UnmapPre L pt a (a + PGSIZE) do_free s)
    (hslot : slot s.mem pt a = some p) (hv : s.mem p &&& PTE_V ≠ 0)
    (hk : (if do_free = true then kfree L (PTE2PA (s.mem p)) s else some s) = some s1) :
    Unmapped L pt a (a + PGSIZE) do_free s (s1.write p 0) := by
  have hpv : pteval s.mem pt a = s.mem p := pteval_of_slot _ _ _ _ hslot
  have hmapped : Mapped s.mem pt a := by unfold Mapped; rw [hpv]; exact hv
  have hfr : frameOf s.mem pt a = PTE2PA (s.mem p) := by unfold frameOf; rw [hpv]
  have hin : InRange a (a + PGSIZE) a := (InRange_single a a ha).mpr rfl
  have hwf : ∀ g, WasFreed s.mem pt a (a + PGSIZE) do_free g →
      do_free = true ∧ g = PTE2PA (s.mem p) := by
    rintro g ⟨hd, va, hin', _, hf⟩
    rw [(InRange_single a va ha).mp hin', hfr] at hf
    exact ⟨hd, hf.symm⟩
  -- the state after the optional `kfree`
  have hmid : Sep L s1 pt ∧ (∀ va, l1page s1.mem pt va = l1page s.mem pt va) ∧
      (∀ va, l0page s1.mem pt va = l0page s.mem pt va) ∧
      (∀ va, pteval s1.mem pt va = pteval s.mem pt va) ∧
      (do_free = false → s1 = s) ∧
      (do_free = true → refcount (PTE2PA (s.mem p)) s1
          = (refcount (PTE2PA (s.mem p)) s + 255) % 256 ∧
        (∀ g, IsFree L s1 g ↔ IsFree L s g ∨
          (g = PTE2PA (s.mem p) ∧ refcount (PTE2PA (s.mem p)) s1 = 0)) ∧
        (∀ g, g % PGSIZE = 0 → g ≠ PTE2PA (s.mem p) → refcount g s1 = refcount g s) ∧
        (∀ x, ¬ (PTE2PA (s.mem p) ≤ x ∧ x < PTE2PA (s.mem p) + PGSIZE) →
          s1.mem x = s.mem x)) := by
    cases hd : do_free with
    | false =>
      rw [hd] at hk
      simp only [Bool.false_eq_true, if_false] at hk
      cases hk
      exact ⟨hsep, fun _ => rfl, fun _ => rfl, fun _ => rfl, fun _ => rfl,
        fun h => by cases h⟩
    | true =>
      rw [hd] at hk
      simp only [if_true] at hk
      obtain ⟨o1, o2⟩ := hpre.owned hd a hin hmapped
      rw [hfr] at o1 o2
      obtain ⟨e1, e2, e3, e4, e5⟩ := kfree_effect L hN _ s s1 hsep.free (PTE2PA_lt _) o1 hk
      have hmem := kfree_mem L _ s s1 hk
      obtain ⟨w1, w0, wp⟩ := views_other_page s.mem s1.mem pt _ hsep.tree.root_aligned
        (PTE2PA_aligned _) o2 hmem
      refine ⟨⟨PT_congr s.mem s1.mem pt w1 w0 hsep.tree, e1, ?_⟩, w1, w0, wp,
        (fun h => by cases h), fun _ => ⟨e4, e3, e5, hmem⟩⟩
      intro g hg hp
      have hp' := (IsPtPage_congr s.mem s1.mem pt w1 w0 g).mp hp
      rcases (e3 g).mp hg with h | ⟨h, _⟩
      · exact hsep.apart g h hp'
      · exact o2 (h ▸ hp')
  obtain ⟨sep1, m1, m0, mp, mf, mt⟩ := hmid
  have hslot1 : slot s1.mem pt a = some p := by rw [slot_congr s.mem s1.mem pt m0 a]; exact hslot
  have g2 := PtGrow_leaf_write L pt a p 0 s1 sep1 hslot1
  obtain ⟨x1, x0, xp⟩ := leaf_write_views s1.mem pt a p 0 sep1.tree hslot1
  have hnew : ∀ va, pteval (s1.write p 0).mem pt va =
      if slot s1.mem pt va = some p then 0 else pteval s1.mem pt va := xp
  have hpg1 : ∀ q, IsPtPage s1.mem pt q ↔ IsPtPage s.mem pt q :=
    IsPtPage_congr s.mem s1.mem pt m1 m0
  refine ⟨g2.sep, ?_, fun va => by rw [← m1 va]; exact x1 va,
    fun va => by rw [← m0 va]; exact x0 va, ?_, ?_, ?_, ?_, ?_, ?_, ?_⟩
  · intro va hin'; rw [(InRange_single a va ha).mp hin']; exact hmax
  · intro va hin'
    rw [(InRange_single a va ha).mp hin', hnew, if_pos hslot1, hpv, if_pos hv]
  · intro va hva hout
    rw [hnew, if_neg, mp]
    intro hh
    have := slot_inj s1.mem pt a va p sep1.tree hmax hva hslot1 hh
    exact page_ne_of_outside a (a + PGSIZE) a va ha (by unfold PGSIZE at *; omega) hin hout this
  · intro hd
    rw [mf hd]
    exact ⟨rfl, rfl⟩
  · intro g hg
    obtain ⟨hd, hgf⟩ := hwf g hg
    obtain ⟨t1, t2, _, _⟩ := mt hd
    obtain ⟨o1, _⟩ := hpre.owned hd a hin hmapped
    rw [hfr] at o1
    rw [hgf]
    refine ⟨t1, ?_⟩
    show IsFree L s1 _ ↔ refcount _ s1 = 0
    rw [t2]
    constructor
    · rintro (h | ⟨_, h⟩)
      · exact absurd h o1
      · exact h
    · intro h; exact Or.inr ⟨rfl, h⟩
  · intro g hg hnw
    cases hd : do_free with
    | false => rw [mf hd]; exact ⟨rfl, Iff.rfl⟩
    | true =>
      obtain ⟨_, t2, t3, _⟩ := mt hd
      have hgf : g ≠ PTE2PA (s.mem p) := by
        intro hh
        exact hnw ⟨hd, a, hin, hmapped, by rw [hfr, hh]⟩
      refine ⟨t3 g hg hgf, ?_⟩
      show IsFree L s1 g ↔ IsFree L s g
      rw [t2]
      constructor
      · rintro (h | ⟨h, _⟩)
        · exact h
        · exact absurd h hgf
      · intro h; exact Or.inl h
  · intro g hg hnw hnp x hx1 hx2
    obtain ⟨p0, hp0, e⟩ := slot_some s.mem pt a p hslot
    have ap0 := (l0page_aligned s.mem pt a p0 hp0).1
    have hp0g : p0 ≠ g := fun hh => hnp (hh ▸ Or.inr (Or.inr ⟨a, hp0⟩))
    have b := PX_lt 0 a
    have hxp : x ≠ p := by unfold PGSIZE at *; omega
    have e1 : (s1.write p 0).mem x = s1.mem x := by simp [KState.write, hxp]
    rw [e1]
    cases hd : do_free with
    | false => rw [mf hd]
    | true =>
      obtain ⟨_, _, _, t4⟩ := mt hd
      have hgf : g ≠ PTE2PA (s.mem p) := by
        intro hh
        exact hnw ⟨hd, a, hin, hmapped, by rw [hfr, hh]⟩
      exact t4 x (page_apart g _ x hg (PTE2PA_aligned _) hgf hx1 hx2)
  · intro hd g hg
    obtain ⟨_, t2, t3, _⟩ := mt hd
    obtain ⟨o1, _⟩ := hpre.owned hd a hin hmapped
    rw [hfr] at o1
    have hg1 : IsFree L s1 g := hg
    show refcount g s1 = 0
    rcases (t2 g).mp hg1 with h | ⟨h, h0⟩
    · have hgf : g ≠ PTE2PA (s.mem p) := fun hh => o1 (hh ▸ h)
      rw [t3 g (hsep.free.aligned g h) hgf]
      exact hpre.free_zero hd g h
    · rw [h]; exact h0

theorem Mapped_congr (m m' : Nat → Nat) (pt va : Nat) (h : pteval m' pt va = pteval m pt va) :
    Mapped m' pt va ↔ Mapped m pt va := by
  unfold Mapped; rw [h]

theorem frameOf_congr (m m' : Nat → Nat) (pt va : Nat) (h : pteval m' pt va = pteval m pt va) :
    frameOf m' pt va = frameOf m pt va := by
  unfold frameOf; rw [h]

/-- After the pages of `[a, b)` are unmapped, the pages of `[b, c)` still meet the
precondition of `uvmunmap`. -/
theorem UnmapPre_rest (L : Layout) (pt a b c : Nat) (do_free : Bool) (s s1 : KState)
    (hab : a ≤ b) (hpre : UnmapPre L pt a c do_free s)
    (hmaxc : ∀ va, InRange b c va → va < MAXVA)
    (hu : Unmapped L pt a b do_free s s1) : UnmapPre L pt b c do_free s1 := by
  have hsame : ∀ va, InRange b c va → pteval s1.mem pt va = pteval s.mem pt va := by
    intro va hin
    exact hu.outside va (hmaxc va hin) (by unfold InRange at hin; omega)
  have hwide : ∀ va, InRange b c va → InRange a c va := by
    intro va hin; unfold InRange at *; omega
  refine ⟨hu.free_zero, ?_, ?_⟩
  · intro hd va hin hm
    have hm0 : Mapped s.mem pt va := (Mapped_congr _ _ pt va (hsame va hin)).mp hm
    rw [frameOf_congr _ _ pt va (hsame va hin)]
    obtain ⟨o1, o2⟩ := hpre.owned hd va (hwide va hin) hm0
    have hnw : ¬ WasFreed s.mem pt a b do_free (frameOf s.mem pt va) := by
      rintro ⟨_, va', hin', hm', hf'⟩
      have := hpre.distinct hd va' va (by unfold InRange at *; omega) (hwide va hin) hm' hm0 hf'
      unfold InRange at *; omega
    obtain ⟨_, r2⟩ := hu.other _ (frameOf_aligned _ _ _) hnw
    exact ⟨fun hh => o1 (r2.mp hh),
      fun hh => o2 ((IsPtPage_congr s.mem s1.mem pt hu.l1 hu.l0 _).mp hh)⟩
  · intro hd va va' hin hin' hm hm' hf
    rw [frameOf_congr _ _ pt va (hsame va hin), frameOf_congr _ _ pt va' (hsame va' hin')] at hf
    exact hpre.distinct hd va va' (hwide va hin) (hwide va' hin')
      ((Mapped_congr _ _ pt va (hsame va hin)).mp hm)
      ((Mapped_congr _ _ pt va' (hsame va' hin')).mp hm') hf

/-- Unmapping `[a, b)` and then `[b, c)` unmaps `[a, c)`. -/
theorem Unmapped_trans (L : Layout) (pt a b c : Nat) (do_free : Bool) (s s1 s2 : KState)
    (hab : a ≤ b) (hbc : b ≤ c) (hpre : UnmapPre L pt a c do_free s)
    (h1 : Unmapped L pt a b do_free s s1) (h2 : Unmapped L pt b c do_free s1 s2) :
    Unmapped L pt a c do_free s s2 := by
  have hsame : ∀ va, InRange b c va → pteval s1.mem pt va = pteval s.mem pt va := by
    intro va hin
    exact h1.outside va (h2.below va hin) (by unfold InRange at hin; omega)
  have hsplit : ∀ va, InRange a c va → InRange a b va ∨ InRange b c va := by
    intro va hin; unfold InRange at *; omega
  have hpg1 : ∀ q, IsPtPage s1.mem pt q ↔ IsPtPage s.mem pt q :=
    IsPtPage_congr s.mem s1.mem pt h1.l1 h1.l0
  -- a frame freed in the first part is not freed in the second, and conversely
  have hw2 : ∀ g, WasFreed s1.mem pt b c do_free g → WasFreed s.mem pt a c do_free g ∧
      ¬ WasFreed s.mem pt a b do_free g := by
    rintro g ⟨hd, va, hin, hm, hf⟩
    have hm0 : Mapped s.mem pt va := (Mapped_congr _ _ pt va (hsame va hin)).mp hm
    have hf0 : frameOf s.mem pt va = g := by rw [← frameOf_congr _ _ pt va (hsame va hin)]; exact hf
    refine ⟨⟨hd, va, by unfold InRange at *; omega, hm0, hf0⟩, ?_⟩
    rintro ⟨_, va', hin', hm', hf'⟩
    have := hpre.distinct hd va' va (by unfold InRange at *; omega)
      (by unfold InRange at *; omega) hm' hm0 (by rw [hf', hf0])
    unfold InRange at *; omega
  have hw1 : ∀ g, WasFreed s.mem pt a b do_free g → WasFreed s.mem pt a c do_free g ∧
      ¬ WasFreed s1.mem pt b c do_free g := by
    intro g hg
    obtain ⟨hd, va, hin, hm, hf⟩ := hg
    refine ⟨⟨hd, va, by unfold InRange at *; omega, hm, hf⟩, ?_⟩
    intro hh
    exact (hw2 g hh).2 ⟨hd, va, hin, hm, hf⟩
  have hwc : ∀ g, WasFreed s.mem pt a c do_free g →
      WasFreed s.mem pt a b do_free g ∨ WasFreed s1.mem pt b c do_free g := by
    rintro g ⟨hd, va, hin, hm, hf⟩
    rcases hsplit va hin with h | h
    · exact Or.inl ⟨hd, va, h, hm, hf⟩
    · exact Or.inr ⟨hd, va, h, (Mapped_congr _ _ pt va (hsame va h)).mpr hm,
        by rw [frameOf_congr _ _ pt va (hsame va h)]; exact hf⟩
  have hgal : ∀ g, WasFreed s.mem pt a c do_free g → g % PGSIZE = 0 := by
    rintro g ⟨_, va, _, _, hf⟩; rw [← hf]; exact frameOf_aligned _ _ _
  refine ⟨h2.sep, ?_, fun va => by rw [h2.l1, h1.l1], fun va => by rw [h2.l0, h1.l0],
    ?_, ?_, ?_, ?_, ?_, ?_, h2.free_zero⟩
  · intro va hin
    rcases hsplit va hin with h | h
    · exact h1.below va h
    · exact h2.below va h
  · intro va hin
    rcases hsplit va hin with h | h
    · rw [h2.outside va (h1.below va h) (by unfold InRange at h; omega)]
      exact h1.cleared va h
    · rw [h2.cleared va h, hsame va h]
  · intro va hva hout
    rw [h2.outside va hva (by omega), h1.outside va hva (by omega)]
  · intro hd
    obtain ⟨x1, x2⟩ := h1.nofree hd
    obtain ⟨y1, y2⟩ := h2.nofree hd
    exact ⟨by rw [y1, x1], by rw [y2, x2]⟩
  · intro g hg
    rcases hwc g hg with h | h
    · obtain ⟨r1, r2⟩ := h1.freed g h
      obtain ⟨q1, q2⟩ := h2.other g (hgal g hg) (hw1 g h).2
      rw [q1]
      exact ⟨r1, by rw [q2]; exact r2⟩
    · obtain ⟨r1, r2⟩ := h2.freed g h
      obtain ⟨q1, _⟩ := h1.other g (hgal g hg) (hw2 g h).2
      have e : refcount g s2 = (refcount g s + 255) % 256 := by rw [r1, q1]
      exact ⟨e, r2⟩
  · intro g hg hnw
    have n1 : ¬ WasFreed s.mem pt a b do_free g := fun hh => hnw (hw1 g hh).1
    have n2 : ¬ WasFreed s1.mem pt b c do_free g := fun hh => hnw (hw2 g hh).1
    obtain ⟨r1, r2⟩ := h1.other g hg n1
    obtain ⟨q1, q2⟩ := h2.other g hg n2
    exact ⟨by rw [q1, r1], by rw [q2, r2]⟩
  · intro g hg hnw hnp x hx1 hx2
    have n1 : ¬ WasFreed s.mem pt a b do_free g := fun hh => hnw (hw1 g hh).1
    have n2 : ¬ WasFreed s1.mem pt b c do_free g := fun hh => hnw (hw2 g hh).1
    rw [h2.mem_other g hg n2 (fun hh => hnp ((hpg1 g).mp hh)) x hx1 hx2,
      h1.mem_other g hg n1 hnp x hx1 hx2]

/-- An empty range: nothing is unmapped. -/
theorem Unmapped_nil (L : Layout) (pt a stop : Nat) (do_free : Bool) (s : KState)
    (hsep : Sep L s pt) (hpre : UnmapPre L pt a stop do_free s) (h : stop ≤ a) :
    Unmapped L pt a stop do_free s s := by
  have hno : ∀ va, ¬ InRange a stop va := by
    intro va hin; unfold InRange at hin; omega
  refine ⟨hsep, fun va hin => absurd hin (hno va), fun _ => rfl, fun _ => rfl,
    fun va hin => absurd hin (hno va), fun _ _ _ => rfl, fun _ => ⟨rfl, rfl⟩, ?_,
    fun g _ _ => ⟨rfl, Iff.rfl⟩, fun _ _ _ _ _ _ _ => rfl, hpre.free_zero⟩
  rintro g ⟨_, va, hin, _⟩
  exact absurd hin (hno va)

theorem UnmapPre_sub (L : Layout) (pt a stop a' stop' : Nat) (do_free : Bool) (s : KState)
    (h1 : a ≤ a') (h2 : stop' ≤ stop) (hpre : UnmapPre L pt a stop do_free s) :
    UnmapPre L pt a' stop' do_free s := by
  have hw : ∀ va, InRange a' stop' va → InRange a stop va := by
    intro va hin; unfold InRange at *; omega
  exact ⟨hpre.free_zero, fun hd va hin hm => hpre.owned hd va (hw va hin) hm,
    fun hd va va' hin hin' hm hm' hf => hpre.distinct hd va va' (hw va hin) (hw va' hin') hm hm' hf⟩

theorem walk_panic (L : Layout) (cpu pt va : Nat) (alloc : Bool) (s : KState) (h : va ≥ MAXVA) :
    walk L cpu pt va alloc s = none := by
  unfold walk; rw [if_pos h]

/-- When the loop of `uvmunmap` returns, every page it visited is below `MAXVA`. -/
theorem uvmunmapLoop_below (L : Layout) (cpu pt stop : Nat) (do_free : Bool) :
    ∀ fuel a s s', a % PGSIZE = 0 →
      uvmunmapLoop L cpu pt stop do_free fuel a s = some s' →
      ∀ va, InRange a stop va → va < MAXVA := by
  intro fuel
  induction fuel with
  | zero => intro a s s' _ h; simp [uvmunmapLoop] at h
  | succ fuel ih =>
    intro a s s' ha h va hin
    unfold uvmunmapLoop at h
    by_cases hlt : a < stop
    · rw [if_pos hlt] at h
      by_cases hmax : a < MAXVA
      · have ha' : (a + PGSIZE) % PGSIZE = 0 := by unfold PGSIZE at *; omega
        by_cases hva : va = a
        · rw [hva]; exact hmax
        · have hin' : InRange (a + PGSIZE) stop va := by
            unfold InRange PGSIZE at *; omega
          rw [walk_false L cpu pt a s hmax] at h
          cases hs : slot s.mem pt a with
          | none => rw [hs] at h; exact ih _ _ _ ha' h va hin'
          | some p =>
            rw [hs] at h
            simp only at h
            split at h
            · exact ih _ _ _ ha' h va hin'
            · split at h
              · cases h
              · split at h
                · cases h
                · exact ih _ _ _ ha' h va hin'
      · rw [walk_panic L cpu pt a false s (by omega)] at h; cases h
    · unfold InRange at hin; omega

/-- The loop of `uvmunmap`, when it returns, has unmapped the pages of `[a, stop)`. -/
theorem uvmunmapLoop_spec (L : Layout) (hN : 0 < L.NCPU) (cpu pt stop : Nat) (do_free : Bool)
    (hstop : stop % PGSIZE = 0) :
    ∀ fuel a s s', Sep L s pt → a % PGSIZE = 0 → UnmapPre L pt a stop do_free s →
      uvmunmapLoop L cpu pt stop do_free fuel a s = some s' →
      Unmapped L pt a stop do_free s s' := by
  intro fuel
  induction fuel with
  | zero => intro a s s' _ _ _ h; simp [uvmunmapLoop] at h
  | succ fuel ih =>
    intro a s s' hsep ha hpre h
    have hbelow := uvmunmapLoop_below L cpu pt stop do_free (fuel + 1) a s s' ha h
    unfold uvmunmapLoop at h
    by_cases hlt : a < stop
    · rw [if_pos hlt] at h
      by_cases hmax : a < MAXVA
      · rw [walk_false L cpu pt a s hmax] at h
        have ha' : (a + PGSIZE) % PGSIZE = 0 := by unfold PGSIZE at *; omega
        have hle : a + PGSIZE ≤ stop := by unfold PGSIZE at *; omega
        have hpre1 := UnmapPre_sub L pt a stop a (a + PGSIZE) do_free s (Nat.le_refl _) hle hpre
        have finish : ∀ s1, Unmapped L pt a (a + PGSIZE) do_free s s1 →
            uvmunmapLoop L cpu pt stop do_free fuel (a + PGSIZE) s1 = some s' →
            Unmapped L pt a stop do_free s s' := by
          intro s1 hu hrest
          have hpre2 := UnmapPre_rest L pt a (a + PGSIZE) stop do_free s s1 (by omega) hpre
            (fun va hin => hbelow va (by unfold InRange at *; omega)) hu
          exact Unmapped_trans L pt a (a + PGSIZE) stop do_free s s1 s' (by omega) hle hpre hu
            (ih (a + PGSIZE) s1 s' hu.sep ha' hpre2 hrest)
        cases hs : slot s.mem pt a with
        | none =>
          rw [hs] at h
          have hnm : ¬ Mapped s.mem pt a := by
            unfold Mapped; rw [pteval_of_none _ _ _ hs]; exact zero_not_valid
          exact finish s (Unmapped_skip L pt a do_free s hsep ha hmax hpre1 hnm) h
        | some p =>
          rw [hs] at h
          simp only at h
          by_cases hv : s.mem p &&& PTE_V = 0
          · rw [if_pos hv] at h
            have hnm : ¬ Mapped s.mem pt a := by
              unfold Mapped; rw [pteval_of_slot _ _ _ _ hs]; exact not_not.mpr hv
            exact finish s (Unmapped_skip L pt a do_free s hsep ha hmax hpre1 hnm) h
          · rw [if_neg hv] at h
            split at h
            · cases h
            · cases hk : (if do_free = true then kfree L (PTE2PA (s.mem p)) s else some s) with
              | none => rw [hk] at h; cases h
              | some s2 =>
                rw [hk] at h
                exact finish _ (Unmapped_page L hN pt a p do_free s s2 hsep ha hmax hpre1 hs hv hk) h
      · rw [walk_panic L cpu pt a false s (by omega)] at h; cases h
    · rw [if_neg hlt] at h
      cases h
      exact Unmapped_nil L pt a stop do_free s hsep hpre (by omega)

theorem kfree_total (L : Layout) (pa : Nat) (s : KState)
    (h1 : pa % PGSIZE = 0) (h2 : L.kend ≤ pa) (h3 : pa < L.PHYSTOP) :
    ∃ s', kfree L pa s = some s' := by
  rw [kfree_valid L pa s h1 h2 h3]
  split
  · exact ⟨_, rfl⟩
  · exact ⟨_, rfl⟩

/-- The loop of `uvmunmap` returns when the range lies below `MAXVA` and its valid
entries are leaves with frames that `kfree` accepts; absent pages are skipped. -/
theorem uvmunmapLoop_total (L : Layout) (hN : 0 < L.NCPU) (cpu pt stop : Nat) (do_free : Bool)
    (hstop : stop % PGSIZE = 0) (hmaxs : stop ≤ MAXVA) :
    ∀ fuel a s, Sep L s pt → a % PGSIZE = 0 → UnmapPre L pt a stop do_free s →
      UnmapSafe L pt a stop do_free s → (stop - a) / PGSIZE < fuel →
      ∃ s', uvmunmapLoop L cpu pt stop do_free fuel a s = some s' := by
  intro fuel
  induction fuel with
  | zero => intro a s _ _ _ _ h; exact absurd h (Nat.not_lt_zero _)
  | succ fuel ih =>
    intro a s hsep ha hpre hsafe hfuel
    unfold uvmunmapLoop
    by_cases hlt : a < stop
    · rw [if_pos hlt]
      have hmax : a < MAXVA := by omega
      rw [walk_false L cpu pt a s hmax]
      have ha' : (a + PGSIZE) % PGSIZE = 0 := by unfold PGSIZE at *; omega
      have hle : a + PGSIZE ≤ stop := by unfold PGSIZE at *; omega
      have hfuel' : (stop - (a + PGSIZE)) / PGSIZE < fuel := by
        unfold PGSIZE at *; omega
      have hin : InRange a stop a := by unfold InRange; omega
      have hpre1 := UnmapPre_sub L pt a stop a (a + PGSIZE) do_free s (Nat.le_refl _) hle hpre
      have next : ∀ s1, Unmapped L pt a (a + PGSIZE) do_free s s1 →
          ∃ s', uvmunmapLoop L cpu pt stop do_free fuel (a + PGSIZE) s1 = some s' := by
        intro s1 hu
        have hb : ∀ va, InRange (a + PGSIZE) stop va → va < MAXVA := by
          intro va hv; unfold InRange at hv; omega
        have hpre2 := UnmapPre_rest L pt a (a + PGSIZE) stop do_free s s1 (by omega) hpre hb hu
        refine ih (a + PGSIZE) s1 hu.sep ha' hpre2 ?_ hfuel'
        intro va hv hm
        have e := hu.outside va (hb va hv) (by unfold InRange at hv; omega)
        have hm0 : Mapped s.mem pt va := (Mapped_congr _ _ pt va e).mp hm
        rw [e, frameOf_congr _ _ pt va e]
        exact hsafe va (by unfold InRange at *; omega) hm0
      cases hs : slot s.mem pt a with
      | none =>
        have hnm : ¬ Mapped s.mem pt a := by
          unfold Mapped; rw [pteval_of_none _ _ _ hs]; exact zero_not_valid
        exact next s (Unmapped_skip L pt a do_free s hsep ha hmax hpre1 hnm)
      | some p =>
        simp only
        have hpv : pteval s.mem pt a = s.mem p := pteval_of_slot _ _ _ _ hs
        by_cases hv : s.mem p &&& PTE_V = 0
        · rw [if_pos hv]
          have hnm : ¬ Mapped s.mem pt a := by
            unfold Mapped; rw [hpv]; exact not_not.mpr hv
          exact next s (Unmapped_skip L pt a do_free s hsep ha hmax hpre1 hnm)
        · rw [if_neg hv]
          have hm : Mapped s.mem pt a := by unfold Mapped; rw [hpv]; exact hv
          obtain ⟨f1, f2⟩ := hsafe a hin hm
          rw [hpv] at f1
          rw [if_neg f1]
          have hk : ∃ s2, (if do_free = true then kfree L (PTE2PA (s.mem p)) s else some s)
              = some s2 := by
            cases hd : do_free with
            | false => exact ⟨s, by simp⟩
            | true =>
              obtain ⟨k1, k2⟩ := f2 hd
              unfold frameOf at k1 k2
              rw [hpv] at k1 k2
              simp only [if_true]
              exact kfree_total L _ s (PTE2PA_aligned _) k1 k2
          obtain ⟨s2, hk2⟩ := hk
          rw [hk2]
          exact next _ (Unmapped_page L hN pt a p do_free s s2 hsep ha hmax hpre1 hs hv hk2)
    · rw [if_neg hlt]; exact ⟨s, rfl⟩

theorem page_fuel (stop a : Nat) (h : stop ≤ MAXVA) : (stop - a) / PGSIZE < PAGE_FUEL := by
  rw [MAXVA_eq] at h
  have : PAGE_FUEL = 67108865 := by decide
  rw [this]
  unfold PGSIZE
  omega

theorem walkaddr_of_invalid (L : Layout) (cpu pt va : Nat) (s : KState)
    (h : pteval s.mem pt va &&& PTE_V = 0) : walkaddr L cpu pt va s = 0 := by
  rw [walkaddr_eq]
  split
  · rfl
  · simp [h]

theorem range_page (va n i : Nat) (hva : va % PGSIZE = 0) (hi : i < n) :
    InRange va (va + n * PGSIZE) (va + i * PGSIZE) := by
  have : (i + 1) * PGSIZE ≤ n * PGSIZE := Nat.mul_le_mul_right _ (by omega)
  rw [Nat.add_mul] at this
  unfold InRange PGSIZE at *
  omega

/-- C5: for a well-formed page table, a page-aligned `va` and a count `n` of pages
(the range within the 64-bit address space; when frames are freed, the frames mapped in
the range are allocated, are not pages of the table and are mapped once in the
range): when `uvmunmap` returns, `walkaddr` is 0 on each of the `n` pages; the leaf
entries of pages outside the range are unchanged; with `do_free` the reference count
of each frame that was mapped in the range has been decremented once (as a byte), and
the frame is on a free list exactly when the count has become 0; without `do_free` no
count and no free list changes.  Moreover `uvmunmap` does return whenever the range
lies below `MAXVA` and every valid entry in it is a leaf whose frame `kfree` accepts:
pages whose interior level or leaf is absent are skipped without error. -/
theorem uvmunmap_spec (L : Layout) (cpu pt va n : Nat) (do_free : Bool) (s : KState)
    (hN : 0 < L.NCPU) (hsep : Sep L s pt) (hva : va % PGSIZE = 0)
    (hrange : va + n * PGSIZE < 2 ^ 64)
    (hpre : UnmapPre L pt va (va + n * PGSIZE) do_free s) :
    (∀ s', uvmunmap L cpu pt va n do_free s = some s' →
      (∀ i, i < n → walkaddr L cpu pt (va + i * PGSIZE) s' = 0 ∧
        pteval s'.mem pt (va + i * PGSIZE) &&& PTE_V = 0) ∧
      (∀ va', va' < MAXVA → ¬ (va ≤ va' ∧ va' < va + n * PGSIZE) →
        pteval s'.mem pt va' = pteval s.mem pt va') ∧
      (do_free = true → ∀ i, i < n → Mapped s.mem pt (va + i * PGSIZE) →
        refcount (frameOf s.mem pt (va + i * PGSIZE)) s'
          = (refcount (frameOf s.mem pt (va + i * PGSIZE)) s + 255) % 256 ∧
        (1 ≤ refcount (frameOf s.mem pt (va + i * PGSIZE)) s →
          refcount (frameOf s.mem pt (va + i * PGSIZE)) s < 256 →
          refcount (frameOf s.mem pt (va + i * PGSIZE)) s' + 1
            = refcount (frameOf s.mem pt (va + i * PGSIZE)) s) ∧
        (IsFree L s' (frameOf s.mem pt (va + i * PGSIZE)) ↔
          refcount (frameOf s.mem pt (va + i * PGSIZE)) s' = 0)) ∧
      (do_free = false → s'.ref = s.ref ∧ s'.freelist = s.freelist)) ∧
    (va + n * PGSIZE ≤ MAXVA → UnmapSafe L pt va (va + n * PGSIZE) do_free s →
      ∃ s', uvmunmap L cpu pt va n do_free s = some s') := by
  have hstop : (va + n * PGSIZE) % PGSIZE = 0 := by
    rw [Nat.add_mod, Nat.mul_mod_left, hva]; rfl
  have huv : uvmunmap L cpu pt va n do_free s =
      uvmunmapLoop L cpu pt (va + n * PGSIZE) do_free PAGE_FUEL va s := by
    unfold uvmunmap
    rw [if_neg (by omega), Nat.mod_eq_of_lt hrange]
  rw [huv]
  constructor
  · intro s' h
    have hu := uvmunmapLoop_spec L hN cpu pt _ do_free hstop PAGE_FUEL va s s' hsep hva hpre h
    refine ⟨?_, hu.outside, ?_, hu.nofree⟩
    · intro i hi
      have hin := range_page va n i hva hi
      have hinv : pteval s'.mem pt (va + i * PGSIZE) &&& PTE_V = 0 := by
        rw [hu.cleared _ hin]
        split
        · rfl
        · next hh => exact not_not.mp hh
      exact ⟨walkaddr_of_invalid L cpu pt _ s' hinv, hinv⟩
    · intro hd i hi hm
      obtain ⟨r1, r2⟩ := hu.freed _ ⟨hd, va + i * PGSIZE, range_page va n i hva hi, hm, rfl⟩
      refine ⟨r1, ?_, r2⟩
      intro h1 h2
      rw [r1]; omega
  · intro hmax hsafe
    exact uvmunmapLoop_total L hN cpu pt _ do_free hstop hmax PAGE_FUEL va s hsep hva hpre hsafe
      (page_fuel _ _ hmax)

/-- The example state `sMapped`: the table has grown from `sEmpty` and page 0 holds the
leaf for frame 20480. -/
theorem sMapped_facts :
    PtGrow L1 61440 sEmpty sMapped ∧
    pteval sMapped.mem 61440 0 = PA2PTE 20480 ||| (PTE_R ||| PTE_W ||| PTE_U) ||| PTE_V := by
  have h : mappages L1 0 61440 0 PGSIZE 20480 (PTE_R ||| PTE_W ||| PTE_U) sEmpty
      = some (0, sMapped) := rfl
  rw [mappages_eq L1 0 61440 0 PGSIZE 20480 _ sEmpty (by decide) (by decide) (by decide)] at h
  obtain ⟨g, k, _, hk2, _, hk4, _⟩ := mappagesLoop_spec L1 0 61440 _ _ (by decide) (by decide)
    PAGE_FUEL 0 20480 sEmpty 0 sMapped Sep_sEmpty (by decide) (by decide) h
  have hk := hk4 rfl
  have hk1 : k = 1 := by
    have e : PGROUNDDOWN (0 + PGSIZE - 1) = 0 := by decide
    rw [e] at hk
    unfold PGSIZE at hk
    omega
  obtain ⟨_, _, b3⟩ := hk2 0 (by omega)
  simp only [Nat.zero_mul, Nat.add_zero] at b3
  exact ⟨g, b3⟩

theorem sMapped_pre : Sep L1 sMapped 61440 ∧ Mapped sMapped.mem 61440 0 ∧
    frameOf sMapped.mem 61440 0 = 20480 ∧ refcount 20480 sMapped = 1 ∧
    UnmapPre L1 61440 0 (0 + 1 * PGSIZE) true sMapped ∧
    UnmapSafe L1 61440 0 (0 + 1 * PGSIZE) true sMapped := by
  obtain ⟨g, hp⟩ := sMapped_facts
  have hfree : ∀ f, IsFree L1 sEmpty f → f = 8192 ∨ f = 12288 ∨ f = 16384 := by
    rintro f ⟨c, hc, hm⟩
    have : c = 0 := by unfold L1 at hc; simp at hc; exact hc
    subst this
    simpa [sEmpty] using hm
  have hnf : ¬ IsFree L1 sEmpty 20480 := by
    intro h; rcases hfree _ h with h | h | h <;> omega
  have hnp : ¬ IsPtPage sEmpty.mem 61440 20480 := by
    intro h
    have := ((PT_zero sEmpty.mem 61440 (fun _ => rfl) (by decide)).2 20480).mp h
    omega
  obtain ⟨u1, u2, u3, _⟩ := g.untouched 20480 (by decide) hnf hnp
  have hm : Mapped sMapped.mem 61440 0 := by
    unfold Mapped; rw [hp]; exact leaf_valid _ _
  have hf : frameOf sMapped.mem 61440 0 = 20480 := by
    unfold frameOf; rw [hp]
    exact leaf_pa 20480 _ (by decide) (by decide) (by decide)
  have hone : ∀ va, InRange 0 (0 + 1 * PGSIZE) va → va = 0 := by
    intro va hin; unfold InRange PGSIZE at hin; omega
  refine ⟨g.sep, hm, hf, by rw [u3]; decide, ⟨?_, ?_, ?_⟩, ?_⟩
  · intro _ f hfr
    rw [g.ref_free f hfr]
    rcases hfree f (IsFree_of_suffix L1 sEmpty sMapped g.suffix f hfr) with h | h | h <;>
      (rw [h]; decide)
  · intro _ va hin _
    rw [hone va hin, hf]
    exact ⟨u1, u2⟩
  · intro _ va va' hin hin' _ _ _
    rw [hone va hin, hone va' hin']
  · intro va hin _
    rw [hone va hin, hf, hp]
    refine ⟨?_, fun _ => by decide⟩
    rw [leaf_flags 20480 _ (by decide) (by decide)]
    decide

/-- C5 (witness): unmapping and freeing the one mapped page of `sMapped`: the call
returns, page 0 no longer translates, and frame 20480, whose count was 1, has count 0
and is on a free list. -/
theorem uvmunmap_spec_witness :
    ∃ s', uvmunmap L1 0 61440 0 1 true sMapped = some s' ∧
      walkaddr L1 0 61440 (0 + 0 * PGSIZE) s' = 0 ∧
      refcount 20480 s' = 0 ∧ IsFree L1 s' 20480 := by
  obtain ⟨hsep, hm, hf, hr, hpre, hsafe⟩ := sMapped_pre
  obtain ⟨h1, h2⟩ := uvmunmap_spec L1 0 61440 0 1 true sMapped (by decide) hsep (by decide)
    (by decide) hpre
  obtain ⟨s', hs'⟩ := h2 (by decide) hsafe
  obtain ⟨c1, _, c3, _⟩ := h1 s' hs'
  obtain ⟨d1, _, d3⟩ := c3 rfl 0 (by omega) (by simpa using hm)
  simp only [Nat.zero_mul, Nat.add_zero] at d1 d3
  rw [hf] at d1 d3
  rw [hr] at d1
  have e : refcount 20480 s' = 0 := by rw [d1]
  exact ⟨s', hs', (c1 0 (by omega)).1, e, d3.mpr e⟩

/-! ## Theorems: frames outside a page table -/

/-- A table is unaffected by a step that keeps the memory of its pages and frees no
page of it. -/
theorem Sep_frame (L : Layout) (s s' : KState) (pt : Nat) (hsep : Sep L s pt)
    (hok : FreeOk L s') (hfree : ∀ f, IsFree L s' f → ¬ IsPtPage s.mem pt f)
    (hmem : ∀ q, IsPtPage s.mem pt q → ∀ x, q ≤ x → x < q + PGSIZE → s'.mem x = s.mem x) :
    Sep L s' pt ∧ (∀ va, l1page s'.mem pt va = l1page s.mem pt va) ∧
    (∀ va, l0page s'.mem pt va = l0page s.mem pt va) ∧
    (∀ va, pteval s'.mem pt va = pteval s.mem pt va) ∧
    (∀ q, IsPtPage s'.mem pt q ↔ IsPtPage s.mem pt q) := by
  obtain ⟨v1, v0, vp⟩ := views_frame s.mem s'.mem pt hmem
  have hpg := IsPtPage_congr s.mem s'.mem pt v1 v0
  exact ⟨⟨PT_congr s.mem s'.mem pt v1 v0 hsep.tree, hok,
    fun f hf hp => hfree f hf ((hpg f).mp hp)⟩, v1, v0, vp, hpg⟩

/-- Taking a frame from the free lists leaves a table as it is. -/
theorem Sep_popped (L : Layout) (s s1 : KState) (pt g : Nat) (hsep : Sep L s pt)
    (hp : Popped L s g s1) :
    Sep L s1 pt ∧ (∀ va, l1page s1.mem pt va = l1page s.mem pt va) ∧
    (∀ va, l0page s1.mem pt va = l0page s.mem pt va) ∧
    (∀ va, pteval s1.mem pt va = pteval s.mem pt va) ∧
    (∀ q, IsPtPage s1.mem pt q ↔ IsPtPage s.mem pt q) := by
  have hga := hsep.free.aligned g hp.was_free
  have hgnp := hsep.apart g hp.was_free
  apply Sep_frame L s s1 pt hsep hp.ok
  · intro f hf; exact hsep.apart f ((hp.free_iff f).mp hf).1
  · intro q hq x hx1 hx2
    have hqa := IsPtPage_aligned s.mem pt q hsep.tree.root_aligned hq
    have hne : q ≠ g := fun hh => hgnp (hh ▸ hq)
    rw [hp.mem_eq x, if_neg (page_apart q g x hqa hga hne hx1 hx2)]

/-- Writing into a frame that is not a page of the table leaves the table as it is. -/
theorem Sep_page_write (L : Layout) (s s' : KState) (pt g : Nat) (hsep : Sep L s pt)
    (hg : g % PGSIZE = 0) (hgnp : ¬ IsPtPage s.mem pt g)
    (hfl : s'.freelist = s.freelist)
    (hmem : ∀ x, ¬ (g ≤ x ∧ x < g + PGSIZE) → s'.mem x = s.mem x) :
    Sep L s' pt ∧ (∀ va, l1page s'.mem pt va = l1page s.mem pt va) ∧
    (∀ va, l0page s'.mem pt va = l0page s.mem pt va) ∧
    (∀ va, pteval s'.mem pt va = pteval s.mem pt va) ∧
    (∀ q, IsPtPage s'.mem pt q ↔ IsPtPage s.mem pt q) := by
  have hiff : ∀ f, IsFree L s' f ↔ IsFree L s f := IsFree_congr L s s' hfl
  apply Sep_frame L s s' pt hsep
  · exact ⟨fun f hf => hsep.free.aligned f ((hiff f).mp hf),
      fun f hf => hsep.free.lt f ((hiff f).mp hf),
      fun f => by rw [occ_congr L s s' hfl f]; exact hsep.free.once f⟩
  · intro f hf; exact hsep.apart f ((hiff f).mp hf)
  · intro q hq x hx1 hx2
    have hqa := IsPtPage_aligned s.mem pt q hsep.tree.root_aligned hq
    have hne : q ≠ g := fun hh => hgnp (hh ▸ hq)
    exact hmem x (page_apart q g x hqa hg hne hx1 hx2)

/-- Growing one table leaves another table, whose pages are not pages of the first,
as it is. -/
theorem PtGrow_other (L : Layout) (pt pt2 : Nat) (s s' : KState) (hg : PtGrow L pt s s')
    (hsep2 : Sep L s pt2) (hap : ∀ q, IsPtPage s.mem pt2 q → ¬ IsPtPage s.mem pt q) :
    Sep L s' pt2 ∧ (∀ va, l1page s'.mem pt2 va = l1page s.mem pt2 va) ∧
    (∀ va, l0page s'.mem pt2 va = l0page s.mem pt2 va) ∧
    (∀ va, pteval s'.mem pt2 va = pteval s.mem pt2 va) ∧
    (∀ q, IsPtPage s'.mem pt2 q ↔ IsPtPage s.mem pt2 q) ∧
    (∀ q, IsPtPage s'.mem pt2 q → ¬ IsPtPage s'.mem pt q) := by
  have hfr := Sep_frame L s s' pt2 hsep2 hg.sep.free
    (fun f hf => hsep2.apart f (IsFree_of_suffix L s s' hg.suffix f hf))
    (fun q hq x hx1 hx2 =>
      (hg.untouched q (IsPtPage_aligned s.mem pt2 q hsep2.tree.root_aligned hq)
        (fun hh => hsep2.apart q hh hq) (hap q hq)).2.2.2 x hx1 hx2)
  obtain ⟨a1, a2, a3, a4, a5⟩ := hfr
  refine ⟨a1, a2, a3, a4, a5, ?_⟩
  intro q hq hq'
  have hq0 := (a5 q).mp hq
  rcases hg.pages_new q hq' with h | ⟨h, _⟩
  · exact hap q hq0 h
  · exact hsep2.apart q h hq0

theorem walkStep_present (L : Layout) (cpu level pg va : Nat) (alloc : Bool) (s : KState)
    (h : s.mem (pg + 8 * PX level va) &&& PTE_V ≠ 0) :
    walkStep L cpu alloc level pg va s =
      some (some (PTE2PA (s.mem (pg + 8 * PX level va))), s) := by
  unfold walkStep; rw [if_pos h]

/-- When the leaf slot of `va` exists, `walk` returns it without allocating. -/
theorem walk_present (L : Layout) (cpu pt va p : Nat) (alloc : Bool) (s : KState)
    (hva : va < MAXVA) (h : slot s.mem pt va = some p) :
    walk L cpu pt va alloc s = some (some p, s) := by
  obtain ⟨p0, hp0, e⟩ := slot_some s.mem pt va p h
  obtain ⟨p1, hp1, hv1, e1⟩ := l0page_l1 s.mem pt va p0 hp0
  have hv2 : s.mem (pt + 8 * PX 2 va) &&& PTE_V ≠ 0 ∧
      p1 = PTE2PA (s.mem (pt + 8 * PX 2 va)) := by
    unfold l1page at hp1
    split at hp1
    · next hv => cases hp1; exact ⟨hv, rfl⟩
    · cases hp1
  unfold walk
  rw [if_neg (by omega), walkStep_present L cpu 2 pt va alloc s hv2.1]
  simp only
  rw [← hv2.2, walkStep_present L cpu 1 p1 va alloc s hv1]
  simp only
  rw [← e1, e]

theorem walkStep_total (L : Layout) (cpu level pg va : Nat) (alloc : Bool) (s : KState)
    (hc : cpu < L.NCPU) : walkStep L cpu alloc level pg va s ≠ none := by
  unfold walkStep
  by_cases hv : s.mem (pg + 8 * PX level va) &&& PTE_V ≠ 0
  · simp only [if_pos hv]
    exact fun h => by cases h
  · simp only [if_neg hv]
    by_cases ha : alloc = false
    · rw [if_pos ha]
      exact fun h => by cases h
    · rw [if_neg ha]
      cases hk : kalloc L cpu s with
      | none => exact absurd hk (kalloc_ne_none L cpu s hc)
      | some res =>
        obtain ⟨r, s1⟩ := res
        cases r with
        | none => exact fun h => by cases h
        | some g => exact fun h => by cases h

/-- Below `MAXVA`, `walk` does not panic. -/
theorem walk_total (L : Layout) (cpu pt va : Nat) (alloc : Bool) (s : KState)
    (hc : cpu < L.NCPU) (hva : va < MAXVA) : walk L cpu pt va alloc s ≠ none := by
  unfold walk
  rw [if_neg (by omega)]
  cases h2 : walkStep L cpu alloc 2 pt va s with
  | none => exact absurd h2 (walkStep_total L cpu 2 pt va alloc s hc)
  | some res2 =>
    obtain ⟨r2, s2⟩ := res2
    cases r2 with
    | none => exact fun h => by cases h
    | some p1 =>
      simp only
      cases h1 : walkStep L cpu alloc 1 p1 va s2 with
      | none => exact absurd h1 (walkStep_total L cpu 1 p1 va alloc s2 hc)
      | some res1 =>
        obtain ⟨r1, s1⟩ := res1
        cases r1 with
        | none => exact fun h => by cases h
        | some p0 => exact fun h => by cases h

theorem PAGE_FUEL_pos : ∃ n, PAGE_FUEL = n + 1 := ⟨67108864, by decide⟩

/-- `mappages` of one page whose leaf is not valid: it returns, having grown the table;
with 0 the leaf for `va` holds the new entry and no other leaf has changed, with -1
no leaf has changed and every free list is empty. -/
theorem mappages_page (L : Layout) (cpu pt va f perm : Nat) (s : KState)
    (hc : cpu < L.NCPU) (hsep : Sep L s pt) (hva : va % PGSIZE = 0) (hmax : va < MAXVA)
    (hinv : ¬ Mapped s.mem pt va) :
    ∃ r s', mappages L cpu pt va PGSIZE f perm s = some (r, s') ∧ PtGrow L pt s s' ∧
      ((r = 0 ∧ pteval s'.mem pt va = PA2PTE f ||| perm ||| PTE_V ∧
        ∀ va', va' < MAXVA → va' / PGSIZE ≠ va / PGSIZE →
          pteval s'.mem pt va' = pteval s.mem pt va') ∨
       (r = -1 ∧ (∀ va', va' < MAXVA → pteval s'.mem pt va' = pteval s.mem pt va') ∧
        ∀ i, i < L.NCPU → s'.freelist i = [])) := by
  have hva64 : va + PGSIZE ≤ 2 ^ 64 := by rw [MAXVA_eq] at hmax; unfold PGSIZE; omega
  have hlast : PGROUNDDOWN (va + PGSIZE - 1) = va := by
    unfold PGROUNDDOWN PGSIZE at *; omega
  have heq := mappages_eq L cpu pt va PGSIZE f perm s hva (by decide) hva64
  rw [hlast] at heq
  -- the call returns
  have htot : ∃ r s', mappagesLoop L cpu pt va perm PAGE_FUEL va f s = some (r, s') := by
    obtain ⟨n, hn⟩ := PAGE_FUEL_pos
    rw [hn]
    unfold mappagesLoop
    cases hw : walk L cpu pt va true s with
    | none => exact absurd hw (walk_total L cpu pt va true s hc hmax)
    | some res =>
      obtain ⟨rw_, s1⟩ := res
      cases rw_ with
      | none => exact ⟨-1, s1, rfl⟩
      | some p =>
        obtain ⟨_, _, e1, sl, _⟩ := walk_alloc L cpu pt va s s1 (some p) hc hsep hw
        have hslot := sl p rfl
        have hnv : ¬ (s1.mem p &&& PTE_V ≠ 0) := by
          intro hh
          apply hinv
          unfold Mapped
          rw [← e1 va, pteval_of_slot _ _ _ _ hslot]
          exact hh
        simp only
        rw [if_neg hnv]
        simp only [if_true]
        exact ⟨0, _, rfl⟩
  obtain ⟨r, s', hres⟩ := htot
  obtain ⟨g, k, hk1, hk2, hk3, hk4, hk5⟩ := mappagesLoop_spec L cpu pt va perm hc hva
    PAGE_FUEL va f s r s' hsep hva (Nat.le_refl _) hres
  refine ⟨r, s', by rw [heq]; exact hres, g, ?_⟩
  by_cases hr : r = 0
  · left
    have hk := hk4 hr
    have hk1' : k = 1 := by unfold PGSIZE at hk; omega
    subst hk1'
    obtain ⟨_, _, b3⟩ := hk2 0 (by omega)
    simp only [Nat.zero_mul, Nat.add_zero] at b3
    refine ⟨hr, b3, ?_⟩
    intro va' hva' hne
    apply hk3 va' hva'
    intro j hj
    have : j = 0 := by omega
    subst this
    simpa using hne
  · right
    obtain ⟨c1, c2, c3⟩ := hk5 hr
    have hk0 : k = 0 := by
      by_contra hk0
      have : 1 * PGSIZE ≤ k * PGSIZE := Nat.mul_le_mul_right _ (by omega)
      unfold PGSIZE at this c2
      omega
    subst hk0
    exact ⟨c1, fun va' hva' => hk3 va' hva' (fun j hj => by omega), c3⟩

/-! ## Theorems: uvmalloc on an unmapped range -/

theorem GrownZ_init (L : Layout) (pt lo : Nat) (s : KState) (hsep : Sep L s pt)
    (hfz : ∀ f, IsFree L s f → refcount f s = 0) : GrownZ L pt lo lo s s := by
  have hno : ∀ va, ¬ InRange lo lo va := by
    intro va h; unfold InRange at h; omega
  exact ⟨hsep, hfz, fun _ h => h, fun _ _ _ => rfl, fun va h => absurd h (hno va),
    fun va h => absurd h (hno va), fun va _ h => absurd h (hno va), fun f hf => Or.inl hf⟩

theorem ZERO_PERM_lt : ZERO_PERM < 1024 := by decide

theorem InRange_succ (lo a va : Nat) (ha : a % PGSIZE = 0) (h : InRange lo (a + PGSIZE) va) :
    InRange lo a va ∨ va = a := by
  unfold InRange PGSIZE at *; omega

/-- The state after `uvmalloc` has taken a frame `mem` and zeroed it. -/
theorem zeroed_frame (L : Layout) (pt mem : Nat) (s s1 : KState) (hsep : Sep L s pt)
    (hp : Popped L s mem s1) :
    Sep L (memset mem 0 s1) pt ∧
    (∀ va, pteval (memset mem 0 s1).mem pt va = pteval s.mem pt va) ∧
    (∀ q, IsPtPage (memset mem 0 s1).mem pt q ↔ IsPtPage s.mem pt q) ∧
    (∀ g, IsFree L (memset mem 0 s1) g ↔ IsFree L s g ∧ g ≠ mem) ∧
    refcount mem (memset mem 0 s1) = (refcount mem s + 1) % 256 ∧
    (∀ g, g % PGSIZE = 0 → g ≠ mem → refcount g (memset mem 0 s1) = refcount g s) ∧
    (∀ x, mem ≤ x → x < mem + PGSIZE → (memset mem 0 s1).mem x = 0) ∧
    (∀ x, ¬ (mem ≤ x ∧ x < mem + PGSIZE) → (memset mem 0 s1).mem x = s.mem x) := by
  have hma := hsep.free.aligned mem hp.was_free
  have hmnp := hsep.apart mem hp.was_free
  obtain ⟨sep1, _, _, p1, g1⟩ := Sep_popped L s s1 pt mem hsep hp
  obtain ⟨sep3, _, _, p3, g3⟩ := Sep_page_write L s1 (memset mem 0 s1) pt mem sep1 hma
    (fun hh => hmnp ((g1 mem).mp hh)) rfl
    (fun x hx => by simp [memset, hx])
  refine ⟨sep3, fun va => by rw [p3, p1], fun q => by rw [g3, g1], hp.free_iff, ?_, ?_, ?_, ?_⟩
  · show s1.ref (mem / PGSIZE) = _
    rw [hp.ref_eq, if_pos rfl]; rfl
  · intro g hg hne
    show s1.ref (g / PGSIZE) = _
    rw [hp.ref_eq, if_neg (frame_ne g mem hg hma hne)]; rfl
  · intro x h1 h2
    simp [memset, h1, h2, fillWord_zero]
  · intro x hx
    show (memset mem 0 s1).mem x = _
    simp only [memset, if_neg hx]
    rw [hp.mem_eq, if_neg hx]

/-- One successful iteration of `uvmalloc` on an unmapped page. -/
theorem GrownZ_step (L : Layout) (pt lo a mem : Nat) (s0 s s1 s4 : KState)
    (hG : GrownZ L pt lo a s0 s) (ha : a % PGSIZE = 0) (hlo : lo ≤ a) (hmax : a < MAXVA)
    (hp : Popped L s mem s1)
    (hg : PtGrow L pt (memset mem 0 s1) s4)
    (hleaf : pteval s4.mem pt a = PA2PTE mem ||| ZERO_PERM ||| PTE_V)
    (hoth : ∀ va', va' < MAXVA → va' / PGSIZE ≠ a / PGSIZE →
      pteval s4.mem pt va' = pteval (memset mem 0 s1).mem pt va') :
    GrownZ L pt lo (a + PGSIZE) s0 s4 := by
  obtain ⟨sep3, p3, g3, f3, r3, ro3, z3, m3⟩ := zeroed_frame L pt mem s s1 hG.sep hp
  have hma := hG.sep.free.aligned mem hp.was_free
  have hm64 := hG.sep.free.lt mem hp.was_free
  have hmnf3 : ¬ IsFree L (memset mem 0 s1) mem := fun hh => ((f3 mem).mp hh).2 rfl
  have hmnp3 : ¬ IsPtPage (memset mem 0 s1).mem pt mem :=
    fun hh => hG.sep.apart mem hp.was_free ((g3 mem).mp hh)
  obtain ⟨u1, u2, u3, u4⟩ := hg.untouched mem hma hmnf3 hmnp3
  have hfa : frameOf s4.mem pt a = mem := by
    unfold frameOf; rw [hleaf]
    exact leaf_pa mem ZERO_PERM hma hm64 ZERO_PERM_lt
  -- an old page keeps its leaf
  have hold : ∀ va, InRange lo a va → pteval s4.mem pt va = pteval s.mem pt va := by
    intro va hin
    rw [hoth va (hG.below va hin) (by unfold InRange PGSIZE at *; omega), p3]
  have holdf : ∀ va, InRange lo a va → frameOf s4.mem pt va = frameOf s.mem pt va :=
    fun va hin => frameOf_congr _ _ pt va (hold va hin)
  -- the frame of an old page is untouched
  have hkeep : ∀ va, InRange lo a va →
      ¬ IsFree L s4 (frameOf s.mem pt va) ∧ ¬ IsPtPage s4.mem pt (frameOf s.mem pt va) ∧
      refcount (frameOf s.mem pt va) s4 = 1 ∧ frameOf s.mem pt va ≠ mem ∧
      ∀ x, frameOf s.mem pt va ≤ x → x < frameOf s.mem pt va + PGSIZE → s4.mem x = 0 := by
    intro va hin
    obtain ⟨_, _, c3, c4, c5, c6⟩ := hG.page va hin
    have hne : frameOf s.mem pt va ≠ mem := fun hh => c3 (hh ▸ hp.was_free)
    have hfal := frameOf_aligned s.mem pt va
    obtain ⟨w1, w2, w3, w4⟩ := hg.untouched _ hfal
      (fun hh => c3 ((f3 _).mp hh).1) (fun hh => c4 ((g3 _).mp hh))
    refine ⟨w1, w2, by rw [w3, ro3 _ hfal hne]; exact c5, hne, ?_⟩
    intro x hx1 hx2
    rw [w4 x hx1 hx2, m3 x (page_apart _ mem x hfal hma hne hx1 hx2)]
    exact c6 x hx1 hx2
  refine ⟨hg.sep, ?_, ?_, ?_, ?_, ?_, ?_, ?_⟩
  · intro f hf
    have hf3 := IsFree_of_suffix L _ s4 hg.suffix f hf
    obtain ⟨hfs, hne⟩ := (f3 f).mp hf3
    rw [hg.ref_free f hf, ro3 f (hG.sep.free.aligned f hfs) hne]
    exact hG.free_zero f hfs
  · intro f hf
    exact hG.free_sub f ((f3 f).mp (IsFree_of_suffix L _ s4 hg.suffix f hf)).1
  · intro va hva hout
    rw [hoth va hva (by unfold PGSIZE at *; omega), p3]
    exact hG.outside va hva (by omega)
  · intro va hin
    rcases InRange_succ lo a va ha hin with h | h
    · exact hG.below va h
    · rw [h]; exact hmax
  · intro va hin
    rcases InRange_succ lo a va ha hin with h | h
    · obtain ⟨c1, c2, _, _, _, _⟩ := hG.page va h
      obtain ⟨k1, k2, k3, _, k5⟩ := hkeep va h
      rw [holdf va h, hold va h]
      exact ⟨c1, c2, k1, k2, k3, k5⟩
    · rw [h, hfa]
      refine ⟨hleaf, hG.free_sub mem hp.was_free, u1, u2, ?_, ?_⟩
      · rw [u3, r3, hG.free_zero mem hp.was_free]
      · intro x hx1 hx2
        rw [u4 x hx1 hx2]; exact z3 x hx1 hx2
  · intro va va' hin hin' hf
    rcases InRange_succ lo a va ha hin with h | h
    · rcases InRange_succ lo a va' ha hin' with h' | h'
      · rw [holdf va h, holdf va' h'] at hf
        exact hG.distinct va va' h h' hf
      · rw [h', hfa, holdf va h] at hf
        exact absurd hf (hkeep va h).2.2.2.1
    · rcases InRange_succ lo a va' ha hin' with h' | h'
      · rw [h, hfa, holdf va' h'] at hf
        exact absurd hf.symm (hkeep va' h').2.2.2.1
      · rw [h, h']
  · intro f hf
    rcases hG.frames f hf with h | h | ⟨va, hin, hva⟩
    · by_cases hfm : f = mem
      · right; right
        exact ⟨a, by unfold InRange PGSIZE at *; omega, by rw [hfa, hfm]⟩
      · by_cases hf4 : IsFree L s4 f
        · exact Or.inl hf4
        · right; left
          exact hg.alloc_is_page f ((f3 f).mpr ⟨h, hfm⟩) hf4
    · right; left
      exact hg.pages_mono f ((g3 f).mpr h)
    · right; right
      exact ⟨va, by unfold InRange PGSIZE at *; omega, by rw [holdf va hin]; exact hva⟩

/-- A failed iteration of `uvmalloc` on an unmapped page: `mappages` has mapped
nothing and the frame is given back. -/
theorem GrownZ_fail (L : Layout) (hN : 0 < L.NCPU) (pt lo a mem : Nat) (s0 s s1 s4 s5 : KState)
    (hG : GrownZ L pt lo a s0 s) (hp : Popped L s mem s1)
    (hg : PtGrow L pt (memset mem 0 s1) s4)
    (hsame : ∀ va', va' < MAXVA → pteval s4.mem pt va' = pteval (memset mem 0 s1).mem pt va')
    (hk : kfree L mem s4 = some s5) : GrownZ L pt lo a s0 s5 := by
  obtain ⟨sep3, p3, g3, f3, r3, ro3, z3, m3⟩ := zeroed_frame L pt mem s s1 hG.sep hp
  have hma := hG.sep.free.aligned mem hp.was_free
  have hm64 := hG.sep.free.lt mem hp.was_free
  have hmnf3 : ¬ IsFree L (memset mem 0 s1) mem := fun hh => ((f3 mem).mp hh).2 rfl
  have hmnp3 : ¬ IsPtPage (memset mem 0 s1).mem pt mem :=
    fun hh => hG.sep.apart mem hp.was_free ((g3 mem).mp hh)
  obtain ⟨u1, u2, u3, u4⟩ := hg.untouched mem hma hmnf3 hmnp3
  obtain ⟨e1, _, e3, e4, e5⟩ := kfree_effect L hN mem s4 s5 hg.sep.free hm64 u1 hk
  have hkm := kfree_mem L mem s4 s5 hk
  have hr5 : refcount mem s5 = 0 := by
    rw [e4, u3, r3, hG.free_zero mem hp.was_free]
  obtain ⟨sep5, _, _, p5, g5⟩ := Sep_frame L s4 s5 pt hg.sep e1
    (by
      intro f hf
      rcases (e3 f).mp hf with h | ⟨h, _⟩
      · exact hg.sep.apart f h
      · rw [h]; exact u2)
    (by
      intro q hq x hx1 hx2
      have hqa := IsPtPage_aligned s4.mem pt q hg.sep.tree.root_aligned hq
      have hne : q ≠ mem := fun hh => u2 (hh ▸ hq)
      exact hkm x (page_apart q mem x hqa hma hne hx1 hx2))
  have hpv : ∀ va, va < MAXVA → pteval s5.mem pt va = pteval s.mem pt va := by
    intro va hva; rw [p5, hsame va hva, p3]
  have hkeep : ∀ va, InRange lo a va →
      ¬ IsFree L s5 (frameOf s.mem pt va) ∧ ¬ IsPtPage s5.mem pt (frameOf s.mem pt va) ∧
      refcount (frameOf s.mem pt va) s5 = 1 ∧
      ∀ x, frameOf s.mem pt va ≤ x → x < frameOf s.mem pt va + PGSIZE → s5.mem x = 0 := by
    intro va hin
    obtain ⟨_, _, c3, c4, c5, c6⟩ := hG.page va hin
    have hne : frameOf s.mem pt va ≠ mem := fun hh => c3 (hh ▸ hp.was_free)
    have hfal := frameOf_aligned s.mem pt va
    obtain ⟨w1, w2, w3, w4⟩ := hg.untouched _ hfal
      (fun hh => c3 ((f3 _).mp hh).1) (fun hh => c4 ((g3 _).mp hh))
    refine ⟨?_, fun hh => w2 ((g5 _).mp hh), ?_, ?_⟩
    · intro hh
      rcases (e3 _).mp hh with h | ⟨h, _⟩
      · exact w1 h
      · exact hne h
    · rw [e5 _ hfal hne, w3, ro3 _ hfal hne]; exact c5
    · intro x hx1 hx2
      rw [hkm x (page_apart _ mem x hfal hma hne hx1 hx2), w4 x hx1 hx2,
        m3 x (page_apart _ mem x hfal hma hne hx1 hx2)]
      exact c6 x hx1 hx2
  refine ⟨sep5, ?_, ?_, ?_, hG.below, ?_, ?_, ?_⟩
  · intro f hf
    rcases (e3 f).mp hf with h | ⟨h, _⟩
    · have hf3 := IsFree_of_suffix L _ s4 hg.suffix f h
      obtain ⟨hfs, hne⟩ := (f3 f).mp hf3
      rw [e5 f (hG.sep.free.aligned f hfs) hne, hg.ref_free f h,
        ro3 f (hG.sep.free.aligned f hfs) hne]
      exact hG.free_zero f hfs
    · rw [h]; exact hr5
  · intro f hf
    rcases (e3 f).mp hf with h | ⟨h, _⟩
    · exact hG.free_sub f ((f3 f).mp (IsFree_of_suffix L _ s4 hg.suffix f h)).1
    · rw [h]; exact hG.free_sub mem hp.was_free
  · intro va hva hout
    rw [hpv va hva]; exact hG.outside va hva hout
  · intro va hin
    have hv := hpv va (hG.below va hin)
    obtain ⟨c1, c2, _, _, _, _⟩ := hG.page va hin
    obtain ⟨k1, k2, k3, k4⟩ := hkeep va hin
    rw [frameOf_congr _ _ pt va hv, hv]
    exact ⟨c1, c2, k1, k2, k3, k4⟩
  · intro va va' hin hin' hf
    rw [frameOf_congr _ _ pt va (hpv va (hG.below va hin)),
      frameOf_congr _ _ pt va' (hpv va' (hG.below va' hin'))] at hf
    exact hG.distinct va va' hin hin' hf
  · intro f hf
    rcases hG.frames f hf with h | h | ⟨va, hin, hva⟩
    · by_cases hfm : f = mem
      · left; exact (e3 f).mpr (Or.inr ⟨hfm, hr5⟩)
      · by_cases hf4 : IsFree L s4 f
        · left; exact (e3 f).mpr (Or.inl hf4)
        · right; left
          exact (g5 f).mpr (hg.alloc_is_page f ((f3 f).mpr ⟨h, hfm⟩) hf4)
    · right; left
      exact (g5 f).mpr (hg.pages_mono f ((g3 f).mpr h))
    · right; right
      exact ⟨va, hin, by rw [frameOf_congr _ _ pt va (hpv va (hG.below va hin))]; exact hva⟩

theorem PGROUNDUP_aligned (a : Nat) (ha : a % PGSIZE = 0) (h : a ≤ MAXVA) : PGROUNDUP a = a := by
  rw [MAXVA_eq] at h
  unfold PGROUNDUP PGSIZE at *
  omega

theorem PGROUNDUP_mod (x : Nat) : PGROUNDUP x % PGSIZE = 0 := by
  unfold PGROUNDUP PGSIZE; omega

theorem int_to_uint64_small (x : Nat) (h : x < 2 ^ 31) : int_to_uint64 x = x := by
  unfold int_to_uint64
  have : x % 2 ^ 32 = x := Nat.mod_eq_of_lt (by omega)
  rw [this, if_pos h]

/-- The call `uvmdealloc(pt, a, lo)` for page-aligned `lo < a <= MAXVA` runs the loop of
`uvmunmap` over `[lo, a)`, freeing. -/
theorem uvmdealloc_eq (L : Layout) (cpu pt a lo : Nat) (s : KState)
    (ha : a % PGSIZE = 0) (hlo : lo % PGSIZE = 0) (hlt : lo < a) (hmax : a ≤ MAXVA) :
    uvmdealloc L cpu pt a lo s =
      match uvmunmapLoop L cpu pt a true PAGE_FUEL lo s with
      | none => none
      | some s1 => some (lo, s1) := by
  unfold uvmdealloc
  rw [if_neg (by omega), PGROUNDUP_aligned a ha hmax, PGROUNDUP_aligned lo hlo (by omega),
    if_pos hlt]
  have hn : (a - lo) / PGSIZE < 2 ^ 31 := by
    rw [MAXVA_eq] at hmax; unfold PGSIZE; omega
  rw [int_to_uint64_small _ hn]
  have hstop : lo + (a - lo) / PGSIZE * PGSIZE = a := by
    unfold PGSIZE at *; omega
  unfold uvmunmap
  rw [if_neg (by omega), hstop, Nat.mod_eq_of_lt (by rw [MAXVA_eq] at hmax; omega)]

theorem GrownZ_pre (L : Layout) (pt lo a : Nat) (s0 s : KState) (hG : GrownZ L pt lo a s0 s) :
    UnmapPre L pt lo a true s := by
  refine ⟨fun _ => hG.free_zero, ?_, ?_⟩
  · intro _ va hin _
    obtain ⟨_, _, c3, c4, _, _⟩ := hG.page va hin
    exact ⟨c3, c4⟩
  · intro _ va va' hin hin' _ _ hf
    exact hG.distinct va va' hin hin' hf

theorem GrownZ_mapped (L : Layout) (pt lo a va : Nat) (s0 s : KState)
    (hG : GrownZ L pt lo a s0 s) (hin : InRange lo a va) :
    Mapped s.mem pt va ∧ PTE_FLAGS (pteval s.mem pt va) = ZERO_PERM ||| PTE_V := by
  obtain ⟨c1, _, _, _, _, _⟩ := hG.page va hin
  constructor
  · unfold Mapped; rw [c1]; exact leaf_valid _ _
  · rw [c1]
    exact leaf_flags _ _ (frameOf_lt _ _ _) ZERO_PERM_lt

/-- Undoing the pages that `uvmalloc` has mapped so far: the range is rolled back, and
the frame of every page that was mapped is free again with count 0. -/
theorem GrownZ_dealloc (L : Layout) (hN : 0 < L.NCPU) (cpu pt lo a hi : Nat) (s0 s : KState)
    (hG : GrownZ L pt lo a s0 s) (ha : a % PGSIZE = 0) (hlo : lo % PGSIZE = 0)
    (hle : lo ≤ a) (hhi : a ≤ hi) (hmaxh : hi ≤ MAXVA)
    (hun : ∀ va, InRange lo hi va → ¬ Mapped s0.mem pt va)
    (hfv : FreeValid L s0) :
    ∃ r s', uvmdealloc L cpu pt a lo s = some (r, s') ∧ RolledBack L pt lo hi s0 s' ∧
      ∀ va, InRange lo a va →
        IsFree L s' (frameOf s.mem pt va) ∧ refcount (frameOf s.mem pt va) s' = 0 := by
  have hmax : a ≤ MAXVA := by omega
  by_cases hlt : lo < a
  · rw [uvmdealloc_eq L cpu pt a lo s ha hlo hlt hmax]
    have hpre := GrownZ_pre L pt lo a s0 s hG
    have hsafe : UnmapSafe L pt lo a true s := by
      intro va hin _
      obtain ⟨_, hfl⟩ := GrownZ_mapped L pt lo a va s0 s hG hin
      obtain ⟨_, c2, _, _, _, _⟩ := hG.page va hin
      refine ⟨by rw [hfl]; decide, fun _ => hfv _ c2⟩
    obtain ⟨s', hs'⟩ := uvmunmapLoop_total L hN cpu pt a true ha hmax PAGE_FUEL lo s hG.sep hlo
      hpre hsafe (page_fuel _ _ hmax)
    have hu := uvmunmapLoop_spec L hN cpu pt a true ha PAGE_FUEL lo s s' hG.sep hlo hpre hs'
    rw [hs']
    refine ⟨lo, s', rfl, ⟨hu.sep, ?_, ?_, ?_⟩, ?_⟩
    · intro va hin hm
      have hvm : va < MAXVA := by unfold InRange at hin; omega
      by_cases hva : va < a
      · have hin' : InRange lo a va := by unfold InRange at *; omega
        have hmp := (GrownZ_mapped L pt lo a va s0 s hG hin').1
        unfold Mapped at hm hmp
        rw [hu.cleared va hin', if_pos hmp] at hm
        exact zero_not_valid hm
      · unfold Mapped at hm
        rw [hu.outside va hvm (by omega), hG.outside va hvm (by omega)] at hm
        exact hun va hin hm
    · intro va hva hout
      by_cases hx : lo ≤ va ∧ va < a
      · omega
      · rw [hu.outside va hva hx, hG.outside va hva hx]
    · intro f hf
      rcases hG.frames f hf with h | h | ⟨va, hin, hva⟩
      · have hnw : ¬ WasFreed s.mem pt lo a true f := by
          rintro ⟨_, va, hin, _, hfe⟩
          obtain ⟨_, _, c3, _, _, _⟩ := hG.page va hin
          exact c3 (hfe ▸ h)
        obtain ⟨o1, o2⟩ := hu.other f (hG.sep.free.aligned f h) hnw
        left
        exact ⟨o2.mpr h, by rw [o1]; exact hG.free_zero f h⟩
      · right
        exact (IsPtPage_congr s.mem s'.mem pt hu.l1 hu.l0 f).mpr h
      · obtain ⟨_, _, _, _, c5, _⟩ := hG.page va hin
        rw [hva] at c5
        obtain ⟨q1, q2⟩ := hu.freed f ⟨rfl, va, hin,
          (GrownZ_mapped L pt lo a va s0 s hG hin).1, hva⟩
        have e : refcount f s' = 0 := by rw [q1, c5]
        exact Or.inl ⟨q2.mpr e, e⟩
    · intro va hin
      obtain ⟨_, _, _, _, c5, _⟩ := hG.page va hin
      obtain ⟨q1, q2⟩ := hu.freed _ ⟨rfl, va, hin,
        (GrownZ_mapped L pt lo a va s0 s hG hin).1, rfl⟩
      have e : refcount (frameOf s.mem pt va) s' = 0 := by rw [q1, c5]
      exact ⟨q2.mpr e, e⟩
  · have hal : a = lo := by omega
    subst hal
    unfold uvmdealloc
    rw [if_pos (Nat.le_refl _)]
    refine ⟨a, s, rfl, ⟨hG.sep, ?_, ?_, ?_⟩, fun va hin => by unfold InRange at hin; omega⟩
    · intro va hin hm
      have hvm : va < MAXVA := by unfold InRange at hin; omega
      unfold Mapped at hm
      rw [hG.outside va hvm (by omega)] at hm
      exact hun va hin hm
    · intro va hva hout
      exact hG.outside va hva (by omega)
    · intro f hf
      rcases hG.frames f hf with h | h | ⟨va, hin, _⟩
      · exact Or.inl ⟨h, hG.free_zero f h⟩
      · exact Or.inr h
      · unfold InRange at hin; omega

theorem IS_COW_valid (x : Nat) (h : IS_COW x = true) : x &&& PTE_V ≠ 0 := by
  unfold IS_COW at h
  simp only [decide_eq_true_eq] at h
  exact h.1

/-- The loop of `uvmalloc` on a range below `MAXVA` none of whose pages is mapped: it
returns, either the new size with every page of the range mapped to a fresh zeroed
frame, or 0 with the range rolled back. -/
theorem uvmallocLoop_zero (L : Layout) (cpu : Nat) (p : Proc) (pt lo hi : Nat) (s0 : KState)
    (hc : cpu < L.NCPU) (hlo : lo % PGSIZE = 0) (hmaxh : hi ≤ MAXVA)
    (hun : ∀ va, InRange lo hi va → ¬ Mapped s0.mem pt va) (hfv : FreeValid L s0) :
    ∀ fuel a s, GrownZ L pt lo a s0 s → a % PGSIZE = 0 → lo ≤ a → a < hi + PGSIZE →
      (hi + PGSIZE - 1 - a) / PGSIZE < fuel →
      ∃ r s', uvmallocLoop L cpu p pt lo hi fuel a s = some (r, s') ∧
        ((r = hi ∧ ∃ a', a' % PGSIZE = 0 ∧ hi ≤ a' ∧ a' < hi + PGSIZE ∧
            GrownZ L pt lo a' s0 s') ∨
         (r = 0 ∧ 0 < hi ∧ RolledBack L pt lo hi s0 s')) := by
  have hN : 0 < L.NCPU := by omega
  intro fuel
  induction fuel with
  | zero => intro a s _ _ _ _ h; exact absurd h (Nat.not_lt_zero _)
  | succ fuel ih =>
    intro a s hG ha hle hup hfuel
    unfold uvmallocLoop
    by_cases hlt : a < hi
    · rw [if_pos hlt]
      have hmax : a < MAXVA := by omega
      have hina : InRange lo hi a := by unfold InRange; omega
      cases hk : kalloc L cpu s with
      | none => exact absurd hk (kalloc_ne_none L cpu s hc)
      | some res =>
        obtain ⟨ro, s1⟩ := res
        cases ro with
        | none =>
          obtain ⟨e1, _⟩ := kalloc_none L cpu s s1 hc hk
          subst e1
          obtain ⟨r, s', hd, hrb, _⟩ := GrownZ_dealloc L hN cpu pt lo a hi s0 s1 hG ha hlo hle
            (by omega) hmaxh hun hfv
          simp only
          rw [hd]
          exact ⟨0, s', rfl, Or.inr ⟨rfl, by omega, hrb⟩⟩
        | some mem =>
          have hp := kalloc_some L cpu s s1 mem hc hG.sep.free hk
          obtain ⟨sep1, _, _, p1, _⟩ := Sep_popped L s s1 pt mem hG.sep hp
          simp only
          rw [walk_false L cpu pt a s1 hmax]
          simp only
          have hnm1 : ¬ Mapped s1.mem pt a := by
            unfold Mapped
            rw [p1, hG.outside a hmax (by omega)]
            exact hun a hina
          have hcond : ¬ ((slot s1.mem pt a).isSome = true ∧
              IS_COW (s1.mem ((slot s1.mem pt a).getD 0)) = true) := by
            rintro ⟨h1, h2⟩
            cases hs : slot s1.mem pt a with
            | none => rw [hs] at h1; cases h1
            | some q =>
              rw [hs] at h2
              apply hnm1
              unfold Mapped
              rw [pteval_of_slot _ _ _ _ hs]
              exact IS_COW_valid _ h2
          rw [if_neg hcond]
          obtain ⟨sep3, p3, g3, f3, r3, ro3, z3, m3⟩ := zeroed_frame L pt mem s s1 hG.sep hp
          have hnm3 : ¬ Mapped (memset mem 0 s1).mem pt a := by
            unfold Mapped
            rw [p3, hG.outside a hmax (by omega)]
            exact hun a hina
          obtain ⟨r, s4, hm, hg, hcase⟩ := mappages_page L cpu pt a mem
            (PTE_W ||| PTE_X ||| PTE_R ||| PTE_U) (memset mem 0 s1) hc sep3 ha hmax hnm3
          rw [hm]
          simp only
          rcases hcase with ⟨hr, hleaf, hoth⟩ | ⟨hr, hsame, _⟩
          · rw [if_neg (by rw [hr]; decide)]
            have hG' := GrownZ_step L pt lo a mem s0 s s1 s4 hG ha hle hmax hp hg hleaf hoth
            have hf : (hi + PGSIZE - 1 - (a + PGSIZE)) / PGSIZE < fuel := by
              have e : hi + PGSIZE - 1 - a = (hi + PGSIZE - 1 - (a + PGSIZE)) + PGSIZE := by
                unfold PGSIZE; omega
              rw [e, Nat.add_div_right _ (by unfold PGSIZE; omega)] at hfuel
              omega
            exact ih (a + PGSIZE) s4 hG' (by unfold PGSIZE at *; omega) (by omega) (by omega) hf
          · rw [if_pos (by rw [hr]; decide)]
            have hmv := hfv mem (hG.free_sub mem hp.was_free)
            obtain ⟨s5, hk5⟩ := kfree_total L mem s4 (hG.sep.free.aligned mem hp.was_free)
              hmv.1 hmv.2
            rw [hk5]
            simp only
            have hG5 := GrownZ_fail L hN pt lo a mem s0 s s1 s4 s5 hG hp hg hsame hk5
            obtain ⟨r', s', hd, hrb, _⟩ := GrownZ_dealloc L hN cpu pt lo a hi s0 s5 hG5 ha hlo hle
              (by omega) hmaxh hun hfv
            rw [hd]
            exact ⟨0, s', rfl, Or.inr ⟨rfl, by omega, hrb⟩⟩
    · rw [if_neg hlt]
      exact ⟨hi, s, rfl, Or.inl ⟨rfl, a, ha, by omega, hup, hG⟩⟩

theorem pteval_zero (m : Nat → Nat) (pt va : Nat) (hm : ∀ a, m a = 0) : pteval m pt va = 0 := by
  apply pteval_of_none
  unfold slot l0page l1page
  rw [hm, if_neg zero_not_valid]

theorem sEmpty_free (f : Nat) (h : IsFree L1 sEmpty f) : f = 8192 ∨ f = 12288 ∨ f = 16384 := by
  obtain ⟨c, hc, hm⟩ := h
  have : c = 0 := by unfold L1 at hc; simp at hc; exact hc
  subst this
  simpa [sEmpty] using hm

theorem sEmpty_free_zero (f : Nat) (h : IsFree L1 sEmpty f) : refcount f sEmpty = 0 := by
  rcases sEmpty_free f h with h | h | h <;> (rw [h]; decide)

theorem sEmpty_FreeValid : FreeValid L1 sEmpty := by
  intro f h
  rcases sEmpty_free f h with h | h | h <;> (rw [h]; decide)

/-- When the loop of `uvmalloc` returns a new size other than 0, every page it visited
is below `MAXVA`. -/
theorem uvmallocLoop_below (L : Layout) (cpu : Nat) (p : Proc) (pt lo hi : Nat) :
    ∀ fuel a s s', a % PGSIZE = 0 →
      uvmallocLoop L cpu p pt lo hi fuel a s = some (hi, s') →
      ∀ va, InRange a hi va → va < MAXVA := by
  intro fuel
  induction fuel with
  | zero => intro a s s' _ h; simp [uvmallocLoop] at h
  | succ fuel ih =>
    intro a s s' ha h va hin
    unfold uvmallocLoop at h
    have hlt : a < hi := by unfold InRange at hin; omega
    rw [if_pos hlt] at h
    have hrest : ∀ s4, uvmallocLoop L cpu p pt lo hi fuel (a + PGSIZE) s4 = some (hi, s') →
        a < MAXVA → va < MAXVA := by
      intro s4 h4 hm
      by_cases hva : va = a
      · omega
      · exact ih (a + PGSIZE) s4 s' (by unfold PGSIZE at *; omega) h4 va
          (by unfold InRange PGSIZE at *; omega)
    by_cases hm : a < MAXVA
    · split at h
      · cases h
      · split at h
        · cases h
        · simp only [Option.some.injEq, Prod.mk.injEq] at h
          omega
      · split at h
        · cases h
        · split at h
          · dsimp only at h
            split at h
            · cases h
            · split at h
              · cases h
              · split at h
                · cases h
                · split at h
                  · split at h
                    · cases h
                    · simp only [Option.some.injEq, Prod.mk.injEq] at h
                      omega
                  · exact hrest _ h hm
          · dsimp only at h
            split at h
            · cases h
            · split at h
              · split at h
                · cases h
                · split at h
                  · cases h
                  · simp only [Option.some.injEq, Prod.mk.injEq] at h
                    omega
              · exact hrest _ h hm
    · split at h
      · cases h
      · split at h
        · cases h
        · simp only [Option.some.injEq, Prod.mk.injEq] at h
          omega
      · rw [walk_panic L cpu pt a false _ (by omega)] at h
        cases h

theorem PGROUNDUP_idem (x : Nat) : PGROUNDUP (PGROUNDUP x) = PGROUNDUP x := by
  unfold PGROUNDUP PGSIZE; omega

/-- The call `uvmdealloc(pt, b, a)` leaves the state that `uvmdealloc` leaves on the
rounded sizes, and returns `a`. -/
theorem uvmdealloc_round (L : Layout) (cpu pt b a : Nat) (s : KState) (hab : a ≤ b)
    (hb : b ≤ MAXVA) :
    uvmdealloc L cpu pt b a s =
      (uvmdealloc L cpu pt (PGROUNDUP b) (PGROUNDUP a) s).map (fun x => (a, x.2)) := by
  rw [MAXVA_eq] at hb
  unfold uvmdealloc
  rw [PGROUNDUP_idem, PGROUNDUP_idem]
  by_cases h1 : a ≥ b
  · have : a = b := by omega
    subst this
    rw [if_pos h1, if_pos (Nat.le_refl _)]
    rfl
  · rw [if_neg h1]
    by_cases h2 : PGROUNDUP a < PGROUNDUP b
    · rw [if_pos h2, if_neg (by omega), if_pos h2]
      cases uvmunmap L cpu pt (PGROUNDUP a)
        (int_to_uint64 ((PGROUNDUP b - PGROUNDUP a) / PGSIZE)) true s <;> rfl
    · rw [if_neg h2, if_pos (by omega)]
      rfl

/-- C9 (amended): `uvmalloc(pt, a, b)` on a range none of whose pages is mapped,
returning `b`, followed by `uvmdealloc(pt, b, a)`. The second call returns `a`;
afterwards no page of `[PGROUNDUP(a), b)` is mapped, the frame that `uvmalloc` had
mapped at each page of the range is on a free list with count 0, every frame that was
free before `uvmalloc` is free again with count 0 unless it has become a page of the
table, and a page is mapped exactly when it was before `uvmalloc`. -/
theorem uvmalloc_uvmdealloc (L : Layout) (cpu : Nat) (p : Proc) (pt a b : Nat)
    (s s1 : KState) (hc : cpu < L.NCPU) (hsep : Sep L s pt)
    (hfz : ∀ f, IsFree L s f → refcount f s = 0) (hfv : FreeValid L s)
    (hab : a ≤ b) (hb : b < 2 ^ 64)
    (hun : ∀ va, InRange (PGROUNDUP a) b va → ¬ Mapped s.mem pt va)
    (h : uvmalloc L cpu p pt a b s = some (b, s1)) :
    ∃ s2, uvmdealloc L cpu pt b a s1 = some (a, s2) ∧
      (∀ va, InRange (PGROUNDUP a) b va → ¬ Mapped s2.mem pt va) ∧
      (∀ va, InRange (PGROUNDUP a) b va →
        IsFree L s2 (frameOf s1.mem pt va) ∧ refcount (frameOf s1.mem pt va) s2 = 0) ∧
      (∀ f, IsFree L s f → (IsFree L s2 f ∧ refcount f s2 = 0) ∨ IsPtPage s2.mem pt f) ∧
      (∀ va, va < MAXVA → va % PGSIZE = 0 →
        (Mapped s2.mem pt va ↔ Mapped s.mem pt va)) := by
  have hN : 0 < L.NCPU := by omega
  have hlo : PGROUNDUP a % PGSIZE = 0 := PGROUNDUP_mod a
  unfold uvmalloc at h
  rw [if_neg (by omega)] at h
  by_cases hne : PGROUNDUP a < b
  · have hlast : InRange (PGROUNDUP a) b ((b - 1) / PGSIZE * PGSIZE) := by
      unfold InRange PGSIZE at *; omega
    have hbelow := uvmallocLoop_below L cpu p pt (PGROUNDUP a) b PAGE_FUEL (PGROUNDUP a) s s1
      hlo h _ hlast
    have hmax : b ≤ MAXVA := by
      rw [MAXVA_eq] at *; unfold PGSIZE at hbelow; omega
    have hup : PGROUNDUP a < b + PGSIZE := by omega
    have hfuel : (b + PGSIZE - 1 - PGROUNDUP a) / PGSIZE < PAGE_FUEL := by
      have e : PAGE_FUEL = 67108865 := by decide
      rw [e]
      rw [MAXVA_eq] at hmax
      unfold PGSIZE
      omega
    obtain ⟨r, s', he, hcase⟩ := uvmallocLoop_zero L cpu p pt (PGROUNDUP a) b s hc hlo
      hmax hun hfv PAGE_FUEL (PGROUNDUP a) s (GrownZ_init L pt _ s hsep hfz) hlo
      (Nat.le_refl _) hup hfuel
    rw [h] at he
    simp only [Option.some.injEq, Prod.mk.injEq] at he
    obtain ⟨he1, he2⟩ := he
    subst he1 he2
    rcases hcase with ⟨_, a', ha', hle', hlt', hG⟩ | ⟨h0, hpos, _⟩
    · have hra : PGROUNDUP b = a' := by
        rw [MAXVA_eq] at hmax
        unfold PGROUNDUP PGSIZE at *
        omega
      have hmax' : a' ≤ MAXVA := by
        rw [MAXVA_eq] at *; unfold PGSIZE at *; omega
      have hin : ∀ va, InRange (PGROUNDUP a) b va → InRange (PGROUNDUP a) a' va := by
        intro va hv; unfold InRange at *; omega
      have hin' : ∀ va, InRange (PGROUNDUP a) a' va → InRange (PGROUNDUP a) b va := by
        intro va hv; unfold InRange PGSIZE at *; omega
      obtain ⟨r, s2, hd, hrb, hfr⟩ := GrownZ_dealloc L hN cpu pt (PGROUNDUP a) a' a' s s1 hG
        ha' hlo (by omega) (Nat.le_refl _) hmax' (fun va hv => hun va (hin' va hv)) hfv
      refine ⟨s2, ?_, ?_, ?_, hrb.frames, ?_⟩
      · rw [uvmdealloc_round L cpu pt b a s1 hab hmax, hra, hd]
        rfl
      · intro va hv
        exact hrb.range va (hin va hv)
      · intro va hv
        exact hfr va (hin va hv)
      · intro va hvm hal
        by_cases hv : InRange (PGROUNDUP a) b va
        · exact ⟨fun hm => absurd hm (hrb.range va (hin va hv)), fun hm => absurd hm (hun va hv)⟩
        · unfold Mapped
          rw [hrb.outside va hvm (by unfold InRange PGSIZE at *; omega)]
    · omega
  · obtain ⟨n, hn⟩ := PAGE_FUEL_pos
    rw [hn] at h
    unfold uvmallocLoop at h
    rw [if_neg hne] at h
    simp only [Option.some.injEq, Prod.mk.injEq, true_and] at h
    subst h
    have hno : ∀ va, ¬ InRange (PGROUNDUP a) b va := by
      intro va hv; unfold InRange at hv; omega
    refine ⟨s, ?_, fun va hv => absurd hv (hno va), fun va hv => absurd hv (hno va),
      fun f hf => Or.inl ⟨hf, hfz f hf⟩, fun _ _ _ => Iff.rfl⟩
    unfold uvmdealloc
    by_cases h1 : a ≥ b
    · have : a = b := by omega
      subst this
      rw [if_pos h1]
    · rw [if_neg h1, if_neg]
      unfold PGROUNDUP PGSIZE at *
      omega

theorem Sep_sCow : Sep L1 sCow 61440 := by
  have hun : ¬ Mapped sEmpty.mem 61440 0 := by
    intro h
    unfold Mapped at h
    rw [pteval_zero sEmpty.mem 61440 0 (fun _ => rfl)] at h
    exact zero_not_valid h
  obtain ⟨r, s', he, hg, _⟩ := mappages_page L1 0 61440 0 20480 (PTE_R ||| PTE_U ||| PTE_C)
    sEmpty (by decide) Sep_sEmpty (by decide) (by decide) hun
  have e : mappages L1 0 61440 0 PGSIZE 20480 (PTE_R ||| PTE_U ||| PTE_C) sEmpty
      = some (0, ((mappages L1 0 61440 0 PGSIZE 20480 (PTE_R ||| PTE_U ||| PTE_C)
          sEmpty).getD (0, sEmpty)).2) := rfl
  rw [e] at he
  simp only [Option.some.injEq, Prod.mk.injEq] at he
  obtain ⟨_, he2⟩ := he
  have h := hg.sep
  rw [← he2] at h
  exact ⟨h.tree, ⟨h.free.aligned, h.free.lt, h.free.once⟩, h.apart⟩

/-- C9 (counterexample): in the state `sCow` page 0 is a copy-on-write page.
`uvmalloc(pt, 0, PGSIZE)` returns `PGSIZE`, having replaced the page by a private copy,
and the following `uvmdealloc(pt, PGSIZE, 0)` returns 0 and unmaps it: page 0, mapped
before `uvmalloc`, is not mapped afterwards. -/
theorem cow_page_unmapped_by_roundtrip :
    Sep L1 sCow 61440 ∧
    IS_COW (pteval sCow.mem 61440 0) = true ∧
    uvmalloc L1 0 pEx 61440 0 PGSIZE sCow = some (PGSIZE, sCowCopied) ∧
    uvmdealloc L1 0 61440 PGSIZE 0 sCowCopied = some (0, sCowUndone) ∧
    Mapped sCow.mem 61440 0 ∧ ¬ Mapped sCowUndone.mem 61440 0 := by
  refine ⟨Sep_sCow, by decide, rfl, rfl, ?_, ?_⟩
  · unfold Mapped; decide
  · unfold Mapped; decide

/-- C9 (witness): growing the empty address space of `sEmpty` to one page and shrinking
it again: `uvmdealloc` returns 0, page 0 is not mapped, and the frame 8192 that
`uvmalloc` had mapped is on a free list with count 0. -/
theorem uvmalloc_uvmdealloc_witness :
    uvmalloc L1 0 pEx 61440 0 PGSIZE sEmpty = some (PGSIZE, sGrown) ∧
    ∃ s2, uvmdealloc L1 0 61440 PGSIZE 0 sGrown = some (0, s2) ∧
      ¬ Mapped s2.mem 61440 0 ∧ IsFree L1 s2 8192 ∧ refcount 8192 s2 = 0 := by
  have hun : ∀ va, InRange (PGROUNDUP 0) PGSIZE va → ¬ Mapped sEmpty.mem 61440 va := by
    intro va _ h
    unfold Mapped at h
    rw [pteval_zero sEmpty.mem 61440 va (fun _ => rfl)] at h
    exact zero_not_valid h
  have e : uvmalloc L1 0 pEx 61440 0 PGSIZE sEmpty = some (PGSIZE, sGrown) := rfl
  obtain ⟨s2, h1, h2, h3, _⟩ := uvmalloc_uvmdealloc L1 0 pEx 61440 0 PGSIZE sEmpty sGrown
    (by decide) Sep_sEmpty sEmpty_free_zero sEmpty_FreeValid (by decide) (by decide) hun e
  have hin : InRange (PGROUNDUP 0) PGSIZE 0 := by unfold InRange; decide
  have hf : frameOf sGrown.mem 61440 0 = 8192 := by decide
  have h3' := h3 0 hin
  rw [hf] at h3'
  exact ⟨e, s2, h1, h2 0 hin, h3'.1, h3'.2⟩

/-- `mappages` of one page whose leaf is valid does not return (`panic("remap")`). -/
theorem mappages_remap (L : Layout) (cpu pt va f perm : Nat) (s : KState)
    (hva : va % PGSIZE = 0) (hmax : va < MAXVA) (hm : Mapped s.mem pt va) :
    mappages L cpu pt va PGSIZE f perm s = none := by
  have hva64 : va + PGSIZE ≤ 2 ^ 64 := by rw [MAXVA_eq] at hmax; unfold PGSIZE; omega
  rw [mappages_eq L cpu pt va PGSIZE f perm s hva (by decide) hva64]
  obtain ⟨n, hn⟩ := PAGE_FUEL_pos
  rw [hn]
  unfold mappagesLoop
  cases hs : slot s.mem pt va with
  | none =>
    unfold Mapped at hm
    rw [pteval_of_none _ _ _ hs] at hm
    exact absurd hm zero_not_valid
  | some p =>
    rw [walk_present L cpu pt va p true s hmax hs]
    unfold Mapped at hm
    rw [pteval_of_slot _ _ _ _ hs] at hm
    simp only
    rw [if_pos hm]

/-- A state with the same memory and free lists has the same page tables. -/
theorem Sep_ref (L : Layout) (s s' : KState) (pt : Nat) (hm : s'.mem = s.mem)
    (hf : s'.freelist = s.freelist) (h : Sep L s pt) : Sep L s' pt := by
  have hiff := IsFree_congr L s s' hf
  refine ⟨by rw [hm]; exact h.tree, ⟨fun f hf' => h.free.aligned f ((hiff f).mp hf'),
    fun f hf' => h.free.lt f ((hiff f).mp hf'), fun f => by rw [occ_congr L s s' hf]; exact h.free.once f⟩,
    fun f hf' => by rw [hm]; exact h.apart f ((hiff f).mp hf')⟩

/-- Growing a page table leaves the reference count of every frame that is not free. -/
theorem PtGrow_ref (L : Layout) (pt : Nat) (s s' : KState) (hg : PtGrow L pt s s') (f : Nat)
    (hf : f % PGSIZE = 0) (hnf : ¬ IsFree L s f) : refcount f s' = refcount f s := by
  by_cases hp : IsPtPage s.mem pt f
  · exact hg.ref_old f hp
  · exact (hg.untouched f hf hnf hp).2.2.1

theorem COW_FLAGS_lt (x : Nat) : COW_FLAGS x < 1024 := by
  unfold COW_FLAGS
  exact @Nat.or_lt_two_pow _ _ 10
    (Nat.lt_of_le_of_lt Nat.and_le_right (by decide)) (by decide)

theorem COW_FLAGS_testBit (x k : Nat) (hk : k < 10) :
    (COW_FLAGS x).testBit k = ((x.testBit k && decide (k ≠ 2)) || decide (k = 8)) := by
  unfold COW_FLAGS PTE_W PTE_C
  rw [Nat.testBit_or, Nat.testBit_and, PTE_FLAGS_eq]
  have m : (x % 1024).testBit k = x.testBit k := by
    have h := Nat.testBit_mod_two_pow x 10 k
    simp only [hk, decide_True, Bool.true_and] at h
    exact h
  have a : Nat.testBit (0x3FF - 4) k = decide (k ≠ 2) := by
    interval_cases k <;> decide
  have b : Nat.testBit 256 k = decide (k = 8) := by
    interval_cases k <;> decide
  rw [m, a, b]

/-- The entry that `copy` writes into both tables for a valid entry `x`: it is valid,
not writable and marked C, carries the frame of `x`, and `COW_FLAGS` leaves its flags
as they are. -/
theorem cow_entry (x : Nat) (hv : x &&& PTE_V ≠ 0) :
    PTE2PA (PA2PTE (PTE2PA x) ||| COW_FLAGS x) = PTE2PA x ∧
    PTE_FLAGS (PA2PTE (PTE2PA x) ||| COW_FLAGS x) = COW_FLAGS x ∧
    COW_FLAGS (PA2PTE (PTE2PA x) ||| COW_FLAGS x) = COW_FLAGS x ∧
    PA2PTE (PTE2PA x) ||| COW_FLAGS x ||| PTE_V = PA2PTE (PTE2PA x) ||| COW_FLAGS x ∧
    (PA2PTE (PTE2PA x) ||| COW_FLAGS x) &&& PTE_V ≠ 0 ∧
    (PA2PTE (PTE2PA x) ||| COW_FLAGS x) &&& PTE_W = 0 ∧
    (PA2PTE (PTE2PA x) ||| COW_FLAGS x) &&& PTE_C ≠ 0 := by
  have hl := PTE2PA_lt x
  have hc := COW_FLAGS_lt x
  have hfl : PTE_FLAGS (PA2PTE (PTE2PA x) ||| COW_FLAGS x) = COW_FLAGS x :=
    PTE_FLAGS_make _ _ hl hc
  have hidem : COW_FLAGS (PA2PTE (PTE2PA x) ||| COW_FLAGS x) = COW_FLAGS x := by
    apply Nat.eq_of_testBit_eq
    intro k
    by_cases hk : k < 10
    · rw [COW_FLAGS_testBit _ k hk, testBit_make _ _ k hl hk, COW_FLAGS_testBit _ k hk]
      cases x.testBit k <;> cases decide (k ≠ 2) <;> cases decide (k = 8) <;> rfl
    · rw [Nat.testBit_lt_two_pow (Nat.lt_of_lt_of_le (COW_FLAGS_lt _)
          (Nat.pow_le_pow_right (show 0 < 2 by decide) (by omega : 10 ≤ k))),
        Nat.testBit_lt_two_pow (Nat.lt_of_lt_of_le hc
          (Nat.pow_le_pow_right (show 0 < 2 by decide) (by omega : 10 ≤ k)))]
  have hv0 : (COW_FLAGS x).testBit 0 = true := by
    rw [COW_FLAGS_testBit x 0 (by decide), (valid_iff x).mp hv]; rfl
  have hvalid : (PA2PTE (PTE2PA x) ||| COW_FLAGS x).testBit 0 = true := by
    rw [testBit_make _ _ 0 hl (by decide), hv0]
  refine ⟨PTE2PA_make _ _ (PTE2PA_aligned x) hl hc, hfl, hidem, ?_, ?_, ?_, ?_⟩
  · apply Nat.eq_of_testBit_eq
    intro k
    rw [Nat.testBit_or]
    by_cases hk : k = 0
    · subst hk; rw [hvalid]; rfl
    · have : PTE_V.testBit k = false := by
        unfold PTE_V
        cases h : Nat.testBit 1 k
        · rfl
        · exact absurd (Nat.testBit_one_eq_true_iff_self_eq_zero.mp h) hk
      rw [this, Bool.or_false]
  · exact (valid_iff _).mpr hvalid
  · have e : (PA2PTE (PTE2PA x) ||| COW_FLAGS x).testBit 2 = false := by
      rw [testBit_make _ _ 2 hl (by decide), COW_FLAGS_testBit x 2 (by decide)]
      cases x.testBit 2 <;> rfl
    unfold PTE_W
    by_contra hcon
    exact absurd ((and_bit_ne_zero _ 2).mp hcon) (by rw [e]; decide)
  · have e : (PA2PTE (PTE2PA x) ||| COW_FLAGS x).testBit 8 = true := by
      rw [testBit_make _ _ 8 hl (by decide), COW_FLAGS_testBit x 8 (by decide)]
      cases x.testBit 8 <;> rfl
    unfold PTE_C
    exact (and_bit_ne_zero _ 8).mpr e

/-- One iteration of `copy` on a page that becomes copy-on-write: the leaf of `old` is
rewritten to `v` and `mappages` maps the page in `new`. -/
theorem copy_cow_step (L : Layout) (cpu old new i pte v pa perm : Nat) (s s3 : KState)
    (hc : cpu < L.NCPU) (hso : Sep L s old) (hsn : Sep L s new)
    (hap : ∀ q, IsPtPage s.mem old q → ¬ IsPtPage s.mem new q)
    (hi : i % PGSIZE = 0) (hmax : i < MAXVA) (hslot : slot s.mem old i = some pte)
    (hm : mappages L cpu new i PGSIZE pa perm (s.write pte v) = some (0, s3)) :
    Sep L s3 old ∧ Sep L s3 new ∧ (∀ q, IsPtPage s3.mem old q → ¬ IsPtPage s3.mem new q) ∧
    (∀ f, IsFree L s3 f → IsFree L s f) ∧
    pteval s3.mem old i = v ∧
    (∀ va, va < MAXVA → va / PGSIZE ≠ i / PGSIZE →
      pteval s3.mem old va = pteval s.mem old va) ∧
    pteval s3.mem new i = PA2PTE pa ||| perm ||| PTE_V ∧ ¬ Mapped s.mem new i ∧
    (∀ va, va < MAXVA → va / PGSIZE ≠ i / PGSIZE →
      pteval s3.mem new va = pteval s.mem new va) ∧
    (∀ f, f % PGSIZE = 0 → ¬ IsFree L s f → refcount f s3 = refcount f s) := by
  have g1 : PtGrow L old s (s.write pte v) := PtGrow_leaf_write L old i pte v s hso hslot
  obtain ⟨_, _, lw⟩ := leaf_write_views s.mem old i pte v hso.tree hslot
  obtain ⟨n1, _, _, n4, _, n6⟩ := PtGrow_other L old new s (s.write pte v) g1 hsn
    (fun q hq hq' => hap q hq' hq)
  have hnm : ¬ Mapped (s.write pte v).mem new i := by
    intro hmp
    rw [mappages_remap L cpu new i pa perm _ hi hmax hmp] at hm
    cases hm
  obtain ⟨r, s', he, g2, hcase⟩ := mappages_page L cpu new i pa perm (s.write pte v) hc n1 hi
    hmax hnm
  rw [hm] at he
  simp only [Option.some.injEq, Prod.mk.injEq] at he
  obtain ⟨he1, he2⟩ := he
  subst he2
  rcases hcase with ⟨_, c2, c3⟩ | ⟨hr, _⟩
  · obtain ⟨o1, _, _, o4, _, o6⟩ := PtGrow_other L new old (s.write pte v) s3 g2 g1.sep
      (fun q hq hq' => n6 q hq' hq)
    refine ⟨o1, g2.sep, o6, ?_, ?_, ?_, ?_, ?_, ?_, ?_⟩
    · intro f hf
      exact IsFree_of_suffix L s (s.write pte v) (fun c => List.suffix_refl _) f
        (IsFree_of_suffix L _ s3 g2.suffix f hf)
    · rw [o4 i]
      have := lw i
      rw [if_pos hslot] at this
      exact this
    · intro va hva hne
      rw [o4 va]
      have := lw va
      rw [if_neg (fun hh => hne (slot_inj s.mem old i va pte hso.tree hmax hva hslot hh))] at this
      exact this
    · exact c2
    · intro hmp
      apply hnm
      unfold Mapped at *
      rw [n4 i]
      exact hmp
    · intro va hva hne
      rw [c3 va hva hne, n4 va]
    · intro f hf hnf
      exact PtGrow_ref L new (s.write pte v) s3 g2 f hf hnf
  · rw [hr] at he1
    cases he1

/-- One iteration of `copy` on the user stack page: a frame is taken, filled from the
parent's frame and mapped in `new`; `old` is left alone. -/
theorem copy_ustack_step (L : Layout) (cpu old new i mem pa flags : Nat) (s s1 s3 : KState)
    (hc : cpu < L.NCPU) (hso : Sep L s old) (hsn : Sep L s new)
    (hap : ∀ q, IsPtPage s.mem old q → ¬ IsPtPage s.mem new q)
    (hi : i % PGSIZE = 0) (hmax : i < MAXVA)
    (hk : kalloc L cpu s = some (some mem, s1))
    (hm : mappages L cpu new i PGSIZE mem flags (memmovePage mem pa s1) = some (0, s3)) :
    Sep L s3 old ∧ Sep L s3 new ∧ (∀ q, IsPtPage s3.mem old q → ¬ IsPtPage s3.mem new q) ∧
    (∀ f, IsFree L s3 f → IsFree L s f) ∧
    (∀ va, pteval s3.mem old va = pteval s.mem old va) ∧
    (∀ va, va < MAXVA → va / PGSIZE ≠ i / PGSIZE →
      pteval s3.mem new va = pteval s.mem new va) ∧
    (∀ f, f % PGSIZE = 0 → ¬ IsFree L s f → refcount f s3 = refcount f s) := by
  have hp := kalloc_some L cpu s s1 mem hc hso.free hk
  have hma := hso.free.aligned mem hp.was_free
  obtain ⟨a1, _, _, a4, a5⟩ := Sep_popped L s s1 old mem hso hp
  obtain ⟨b1, _, _, b4, b5⟩ := Sep_popped L s s1 new mem hsn hp
  have hout : ∀ x, ¬ (mem ≤ x ∧ x < mem + PGSIZE) →
      (memmovePage mem pa s1).mem x = s1.mem x := by
    intro x hx
    unfold memmovePage
    simp only
    rw [if_neg hx]
  obtain ⟨c1, _, _, c4, c5⟩ := Sep_page_write L s1 (memmovePage mem pa s1) old mem a1 hma
    (fun h => hso.apart mem hp.was_free ((a5 mem).mp h)) rfl hout
  obtain ⟨d1, _, _, d4, d5⟩ := Sep_page_write L s1 (memmovePage mem pa s1) new mem b1 hma
    (fun h => hsn.apart mem hp.was_free ((b5 mem).mp h)) rfl hout
  have hnm : ¬ Mapped (memmovePage mem pa s1).mem new i := by
    intro hmp
    rw [mappages_remap L cpu new i mem flags _ hi hmax hmp] at hm
    cases hm
  obtain ⟨r, s', he, g2, hcase⟩ := mappages_page L cpu new i mem flags (memmovePage mem pa s1)
    hc d1 hi hmax hnm
  rw [hm] at he
  simp only [Option.some.injEq, Prod.mk.injEq] at he
  obtain ⟨he1, he2⟩ := he
  subst he2
  rcases hcase with ⟨_, _, e3⟩ | ⟨hr, _⟩
  · have hap2 : ∀ q, IsPtPage (memmovePage mem pa s1).mem old q →
        ¬ IsPtPage (memmovePage mem pa s1).mem new q := by
      intro q hq hq'
      exact hap q ((a5 q).mp ((c5 q).mp hq)) ((b5 q).mp ((d5 q).mp hq'))
    obtain ⟨o1, _, _, o4, _, o6⟩ := PtGrow_other L new old (memmovePage mem pa s1) s3 g2 c1 hap2
    have hfree2 : ∀ f, IsFree L (memmovePage mem pa s1) f → IsFree L s f := by
      intro f hf
      exact ((hp.free_iff f).mp ((IsFree_congr L s1 (memmovePage mem pa s1) rfl f).mp hf)).1
    refine ⟨o1, g2.sep, o6, ?_, ?_, ?_, ?_⟩
    · intro f hf
      exact hfree2 f (IsFree_of_suffix L _ s3 g2.suffix f hf)
    · intro va
      rw [o4 va, c4 va, a4 va]
    · intro va hva hne
      rw [e3 va hva hne, d4 va, b4 va]
    · intro f hf hnf
      rw [PtGrow_ref L new (memmovePage mem pa s1) s3 g2 f hf (fun h => hnf (hfree2 f h))]
      have hne : f ≠ mem := fun h => hnf (h ▸ hp.was_free)
      show s1.ref (f / PGSIZE) = s.ref (f / PGSIZE)
      rw [hp.ref_eq, if_neg (frame_ne f mem hf hma hne)]
  · rw [hr] at he1
    cases he1

theorem Copied_init (L : Layout) (u old new : Nat) (s : KState) (hso : Sep L s old)
    (hsn : Sep L s new) (hap : ∀ q, IsPtPage s.mem old q → ¬ IsPtPage s.mem new q) :
    Copied L u old new 0 s s := by
  have hno : ∀ va, ¬ InRange 0 0 va := by
    intro va h; unfold InRange at h; omega
  exact ⟨hso, hsn, hap, fun _ h => h, fun va h => absurd h (hno va), fun _ _ _ _ => rfl,
    fun va h => absurd h (hno va), fun _ _ _ _ => rfl, fun va h => absurd h (hno va),
    fun _ _ _ _ => rfl⟩

theorem page_ne_of_lt (va i : Nat) (hva : va % PGSIZE = 0) (hi : i % PGSIZE = 0) (h : va ≠ i) :
    va / PGSIZE ≠ i / PGSIZE := by
  unfold PGSIZE at *; omega

/-- The loop of `copy` passes over a page that is not valid in `old`. -/
theorem Copied_skip (L : Layout) (u old new i : Nat) (s0 s : KState)
    (hC : Copied L u old new i s0 s) (hi : i % PGSIZE = 0)
    (hnm : ¬ Mapped s0.mem old i) : Copied L u old new (i + PGSIZE) s0 s := by
  have hsplit : ∀ va, InRange 0 (i + PGSIZE) va → Mapped s0.mem old va → InRange 0 i va := by
    intro va h hm
    rcases InRange_succ 0 i va hi h with h' | h'
    · exact h'
    · exact absurd (h' ▸ hm) hnm
  refine ⟨hC.sep_old, hC.sep_new, hC.apart, hC.free_sub, ?_, ?_, ?_, ?_, ?_, ?_⟩
  · intro va h hm hu; exact hC.old_done va (hsplit va h hm) hm hu
  · intro va h1 h2 h3
    exact hC.old_rest va h1 h2 (by rcases h3 with h | h | h; left; omega; right; left; exact h; right; right; exact h)
  · intro va h hm hu; exact hC.new_done va (hsplit va h hm) hm hu
  · intro va h1 h2 h3
    exact hC.new_rest va h1 h2 (by rcases h3 with h | h; left; omega; right; exact h)
  · intro va h hm hu; exact hC.ref_done va (hsplit va h hm) hm hu
  · intro f h1 h2 h3
    apply hC.ref_rest f h1 h2
    intro va h hm hu
    exact h3 va (by unfold InRange at *; omega) hm hu

/-- The loop of `copy` after the user stack page. -/
theorem Copied_ustack (L : Layout) (u old new : Nat) (s0 s s3 : KState)
    (sz : Nat) (hpre : CopyPre L u old sz s0) (husz : u < sz) (hM : Mapped s0.mem old u)
    (hC : Copied L u old new u s0 s) (hi : u % PGSIZE = 0) (hmax : u < MAXVA)
    (hso : Sep L s3 old) (hsn : Sep L s3 new)
    (hap : ∀ q, IsPtPage s3.mem old q → ¬ IsPtPage s3.mem new q)
    (hfree : ∀ f, IsFree L s3 f → IsFree L s f)
    (hold : ∀ va, pteval s3.mem old va = pteval s.mem old va)
    (hnew : ∀ va, va < MAXVA → va / PGSIZE ≠ u / PGSIZE →
      pteval s3.mem new va = pteval s.mem new va)
    (href : ∀ f, f % PGSIZE = 0 → ¬ IsFree L s f → refcount f s3 = refcount f s) :
    Copied L u old new (u + PGSIZE) s0 s3 := by
  have hP : 0 < PGSIZE := by decide
  have hsplit : ∀ va, InRange 0 (u + PGSIZE) va → va ≠ u → InRange 0 u va := by
    intro va h hne
    rcases InRange_succ 0 u va hi h with h' | h'
    · exact h'
    · exact absurd h' hne
  have hlt : ∀ va, InRange 0 u va → va < MAXVA ∧ va / PGSIZE ≠ u / PGSIZE := by
    intro va h
    unfold InRange at h
    exact ⟨by omega, page_ne_of_lt va u h.2.2 hi (by omega)⟩
  refine ⟨hso, hsn, hap, fun f hf => hC.free_sub f (hfree f hf), ?_, ?_, ?_, ?_, ?_, ?_⟩
  · intro va h hm hu
    rw [hold va]
    exact hC.old_done va (hsplit va h hu) hm hu
  · intro va h1 h2 h3
    rw [hold va]
    by_cases hvu : va = u
    · exact hC.old_rest va h1 h2 (Or.inr (Or.inl hvu))
    · exact hC.old_rest va h1 h2
        (by rcases h3 with h | h | h; left; omega; right; left; exact h; right; right; exact h)
  · intro va h hm hu
    have hin := hsplit va h hu
    rw [hold va, hnew va (hlt va hin).1 (hlt va hin).2]
    exact hC.new_done va hin hm hu
  · intro va h1 h2 h3
    rcases h3 with h | h
    · rw [hnew va h2 (page_ne_of_lt va u h1 hi (by omega))]
      exact hC.new_rest va h1 h2 (Or.inl (by omega))
    · by_cases hvu : va = u
      · exact absurd (hvu ▸ hM) h
      · rw [hnew va h2 (page_ne_of_lt va u h1 hi hvu)]
        exact hC.new_rest va h1 h2 (Or.inr h)
  · intro va h hm hu
    have hin := hsplit va h hu
    have hnf : ¬ IsFree L s (frameOf s0.mem old va) := fun hf =>
      hpre.alloc va (by unfold InRange at *; omega) hm hu (hC.free_sub _ hf)
    rw [href _ (frameOf_aligned _ _ _) hnf]
    exact hC.ref_done va hin hm hu
  · intro f h1 h2 h3
    rw [href f h1 (fun h => h2 (hC.free_sub f h))]
    apply hC.ref_rest f h1 h2
    intro va h hm hu
    exact h3 va (by unfold InRange at *; omega) hm hu

/-- The loop of `copy` after a page that has become copy-on-write. -/
theorem Copied_cow (L : Layout) (u old new i sz : Nat) (s0 s s3 : KState)
    (hpre : CopyPre L u old sz s0) (hisz : i < sz) (hM : Mapped s0.mem old i) (hu : i ≠ u)
    (hC : Copied L u old new i s0 s) (hi : i % PGSIZE = 0) (hmax : i < MAXVA)
    (hso : Sep L s3 old) (hsn : Sep L s3 new)
    (hap : ∀ q, IsPtPage s3.mem old q → ¬ IsPtPage s3.mem new q)
    (hfree : ∀ f, IsFree L s3 f → IsFree L s f)
    (hold_i : pteval s3.mem old i =
      PA2PTE (frameOf s0.mem old i) ||| COW_FLAGS (pteval s0.mem old i))
    (hold : ∀ va, va < MAXVA → va / PGSIZE ≠ i / PGSIZE →
      pteval s3.mem old va = pteval s.mem old va)
    (hnew_i : pteval s3.mem new i = pteval s3.mem old i)
    (hnew : ∀ va, va < MAXVA → va / PGSIZE ≠ i / PGSIZE →
      pteval s3.mem new va = pteval s.mem new va)
    (href : ∀ f, f % PGSIZE = 0 → ¬ IsFree L s f → refcount f s3 = refcount f s) :
    Copied L u old new (i + PGSIZE) s0 (inc_refcount (frameOf s0.mem old i) s3) := by
  have hP : 0 < PGSIZE := by decide
  have hin_i : InRange 0 sz i := by unfold InRange; omega
  have hlt : ∀ va, InRange 0 i va → va < MAXVA ∧ va / PGSIZE ≠ i / PGSIZE ∧ InRange 0 sz va := by
    intro va h
    unfold InRange at *
    exact ⟨by omega, page_ne_of_lt va i h.2.2 hi (by omega), by omega⟩
  have hnf : ∀ va, InRange 0 sz va → Mapped s0.mem old va → va ≠ u →
      ¬ IsFree L s (frameOf s0.mem old va) := fun va h hm hvu hf =>
    hpre.alloc va h hm hvu (hC.free_sub _ hf)
  have hinc : ∀ f, f % PGSIZE = 0 → f ≠ frameOf s0.mem old i →
      refcount f (inc_refcount (frameOf s0.mem old i) s3) = refcount f s3 := by
    intro f hf hne
    exact ref_inc_other _ f s3 (frame_ne f _ hf (frameOf_aligned _ _ _) hne)
  refine ⟨Sep_ref L s3 _ old rfl rfl hso, Sep_ref L s3 _ new rfl rfl hsn, hap,
    fun f hf => hC.free_sub f (hfree f hf), ?_, ?_, ?_, ?_, ?_, ?_⟩
  · intro va h hm hvu
    rcases InRange_succ 0 i va hi h with h' | h'
    · show pteval s3.mem old va = _
      rw [hold va (hlt va h').1 (hlt va h').2.1]
      exact hC.old_done va h' hm hvu
    · rw [h']; exact hold_i
  · intro va h1 h2 h3
    have hne : va ≠ i := by
      rcases h3 with h | h | h
      · omega
      · omega
      · exact fun hh => h (hh ▸ hM)
    show pteval s3.mem old va = _
    rw [hold va h2 (page_ne_of_lt va i h1 hi hne)]
    exact hC.old_rest va h1 h2
      (by rcases h3 with h | h | h; left; omega; right; left; exact h; right; right; exact h)
  · intro va h hm hvu
    show pteval s3.mem new va = pteval s3.mem old va
    rcases InRange_succ 0 i va hi h with h' | h'
    · rw [hnew va (hlt va h').1 (hlt va h').2.1, hold va (hlt va h').1 (hlt va h').2.1]
      exact hC.new_done va h' hm hvu
    · rw [h']; exact hnew_i
  · intro va h1 h2 h3
    have hne : va ≠ i := by
      rcases h3 with h | h
      · omega
      · exact fun hh => h (hh ▸ hM)
    show pteval s3.mem new va = _
    rw [hnew va h2 (page_ne_of_lt va i h1 hi hne)]
    exact hC.new_rest va h1 h2 (by rcases h3 with h | h; left; omega; right; exact h)
  · intro va h hm hvu
    rcases InRange_succ 0 i va hi h with h' | h'
    · have hne : frameOf s0.mem old va ≠ frameOf s0.mem old i := by
        intro he
        have := hpre.distinct va i (hlt va h').2.2 hin_i hm hM hvu hu he
        unfold InRange at h'; omega
      rw [hinc _ (frameOf_aligned _ _ _) hne,
        href _ (frameOf_aligned _ _ _) (hnf va (hlt va h').2.2 hm hvu)]
      exact hC.ref_done va h' hm hvu
    · rw [h', refcount_inc_same, href _ (frameOf_aligned _ _ _) (hnf i hin_i hM hu),
        hC.ref_rest _ (frameOf_aligned _ _ _) (hpre.alloc i hin_i hM hu)]
      · have := hpre.room i hin_i hM hu
        omega
      · intro va' hv' hm' hvu' he
        have := hpre.distinct va' i (hlt va' hv').2.2 hin_i hm' hM hvu' hu he
        unfold InRange at hv'; omega
  · intro f h1 h2 h3
    have hne : f ≠ frameOf s0.mem old i := fun hh =>
      h3 i (by unfold InRange at *; omega) hM hu hh.symm
    rw [hinc f h1 hne, href f h1 (fun h => h2 (hC.free_sub f h))]
    apply hC.ref_rest f h1 h2
    intro va h hm hvu
    exact h3 va (by unfold InRange at *; omega) hm hvu

theorem copyErr_ne_zero (L : Layout) (cpu new i : Nat) (s s' : KState) :
    copyErr L cpu new i s ≠ some (0, s') := by
  unfold copyErr
  split
  · exact fun h => by cases h
  · intro h
    simp only [Option.some.injEq, Prod.mk.injEq] at h
    exact absurd h.1 (by decide)

/-- When `copy` returns 0 the invariant `Copied` holds up to the end of the range. -/
theorem copyLoop_spec (L : Layout) (cpu : Nat) (p : Proc) (old new sz : Nat) (s0 : KState)
    (hc : cpu < L.NCPU) (hpre : CopyPre L p.ustack old sz s0) :
    ∀ fuel i s s', Copied L p.ustack old new i s0 s → i % PGSIZE = 0 → i ≤ MAXVA →
      copyLoop L cpu p old new sz fuel i s = some (0, s') →
      ∃ i', sz ≤ i' ∧ i' ≤ MAXVA ∧ Copied L p.ustack old new i' s0 s' := by
  intro fuel
  induction fuel with
  | zero => intro i s s' _ _ _ h; simp [copyLoop] at h
  | succ fuel ih =>
    intro i s s' hC hi hle h
    unfold copyLoop at h
    by_cases hlt : i < sz
    · rw [if_pos hlt] at h
      by_cases hmax : i < MAXVA
      · have hnext : i + PGSIZE ≤ MAXVA := by
          rw [MAXVA_eq] at *; unfold PGSIZE at *; omega
        have hi' : (i + PGSIZE) % PGSIZE = 0 := by unfold PGSIZE at *; omega
        have hold_i := hC.old_rest i hi hmax (Or.inl (Nat.le_refl _))
        rw [walk_false L cpu old i s hmax] at h
        cases hs : slot s.mem old i with
        | none =>
          rw [hs] at h
          simp only at h
          have hnm : ¬ Mapped s0.mem old i := by
            unfold Mapped
            rw [← hold_i, pteval_of_none _ _ _ hs]
            exact zero_not_valid
          exact ih _ s s' (Copied_skip L _ old new i s0 s hC hi hnm) hi' hnext h
        | some pte =>
          rw [hs] at h
          simp only at h
          have hx : s.mem pte = pteval s0.mem old i := by
            rw [← hold_i, pteval_of_slot _ _ _ _ hs]
          rw [hx] at h
          by_cases hval : pteval s0.mem old i &&& PTE_V = 0
          · rw [if_pos hval] at h
            have hnm : ¬ Mapped s0.mem old i := fun hm => hm hval
            exact ih _ s s' (Copied_skip L _ old new i s0 s hC hi hnm) hi' hnext h
          · rw [if_neg hval] at h
            have hM : Mapped s0.mem old i := hval
            by_cases hu : i = p.ustack
            · rw [if_pos hu] at h
              cases hk : kalloc L cpu s with
              | none => rw [hk] at h; cases h
              | some res =>
                obtain ⟨ro, s1⟩ := res
                rw [hk] at h
                cases ro with
                | none => exact absurd h (copyErr_ne_zero L cpu new i s1 s')
                | some mem =>
                  simp only at h
                  cases hm : mappages L cpu new i PGSIZE mem (PTE_FLAGS (pteval s0.mem old i))
                      (memmovePage mem (PTE2PA (pteval s0.mem old i)) s1) with
                  | none => rw [hm] at h; cases h
                  | some res2 =>
                    obtain ⟨r, s3⟩ := res2
                    rw [hm] at h
                    simp only at h
                    by_cases hr : r ≠ 0
                    · rw [if_pos hr] at h
                      split at h
                      · cases h
                      · exact absurd h (copyErr_ne_zero L cpu new i _ s')
                    · rw [if_neg hr] at h
                      have hr0 : r = 0 := by
                        by_contra hh; exact hr hh
                      subst hr0
                      obtain ⟨t1, t2, t3, t4, t5, t6, t7⟩ := copy_ustack_step L cpu old new i
                        mem _ _ s s1 s3 hc hC.sep_old hC.sep_new hC.apart hi hmax hk hm
                      subst hu
                      exact ih _ s3 s' (Copied_ustack L _ old new s0 s s3 sz hpre hlt hM hC hi hmax
                        t1 t2 t3 t4 t5 t6 t7) hi' hnext h
            · rw [if_neg hu] at h
              have hw : (s.write pte (PA2PTE (PTE2PA (pteval s0.mem old i)) |||
                  COW_FLAGS (pteval s0.mem old i))).mem pte =
                  PA2PTE (PTE2PA (pteval s0.mem old i)) ||| COW_FLAGS (pteval s0.mem old i) := by
                unfold KState.write
                simp only [if_true]
              rw [hw] at h
              obtain ⟨_, _, e3, e4, _, _, _⟩ := cow_entry (pteval s0.mem old i) hval
              rw [e3] at h
              cases hm : mappages L cpu new i PGSIZE (PTE2PA (pteval s0.mem old i))
                  (COW_FLAGS (pteval s0.mem old i))
                  (s.write pte (PA2PTE (PTE2PA (pteval s0.mem old i)) |||
                    COW_FLAGS (pteval s0.mem old i))) with
              | none => rw [hm] at h; cases h
              | some res2 =>
                obtain ⟨r, s3⟩ := res2
                rw [hm] at h
                simp only at h
                by_cases hr : r ≠ 0
                · rw [if_pos hr] at h
                  exact absurd h (copyErr_ne_zero L cpu new i _ s')
                · rw [if_neg hr] at h
                  have hr0 : r = 0 := by
                    by_contra hh; exact hr hh
                  subst hr0
                  obtain ⟨t1, t2, t3, t4, t5, t6, t7, _, t9, t10⟩ := copy_cow_step L cpu old new
                    i pte _ _ _ s s3 hc hC.sep_old hC.sep_new hC.apart hi hmax hs hm
                  rw [e4] at t7
                  exact ih _ _ s' (Copied_cow L _ old new i sz s0 s s3 hpre hlt hM hu hC hi hmax
                    t1 t2 t3 t4 t5 t6 (by rw [t7, t5]) t9 t10) hi' hnext h
      · rw [walk_panic L cpu old i false s (by omega)] at h
        cases h
    · rw [if_neg hlt] at h
      simp only [Option.some.injEq, Prod.mk.injEq, true_and] at h
      subst h
      exact ⟨i, by omega, hle, hC⟩

theorem cow_entry_bits (x k : Nat) (hk : k < 10) (h2 : k ≠ 2) (h8 : k ≠ 8) :
    (PA2PTE (PTE2PA x) ||| COW_FLAGS x).testBit k = x.testBit k := by
  rw [testBit_make _ _ k (PTE2PA_lt x) hk, COW_FLAGS_testBit x k hk]
  simp [h2, h8]

/-- C10 (amended): when `uvmcopy(old, new, sz)` returns 0, for every page `va` of
`[0, sz)` that had a valid leaf in `old` and is not the user stack page: the leaves of
`old` and `new` at `va` are valid and point to the frame the leaf of `old` pointed to,
both have W cleared and C set, both have the same flags, which apart from W and C are
the flags the leaf of `old` had, and the reference count of the frame is one higher
than before the call; and for a page with no valid leaf in `old` the leaf of `new` is
the one it was before the call (so there is none when there was none). The tables are
well formed and share no page, and the pages turned copy-on-write satisfy `CopyPre`. -/
theorem uvmcopy_cow (L : Layout) (cpu : Nat) (p : Proc) (old new sz : Nat) (s s' : KState)
    (hc : cpu < L.NCPU) (hso : Sep L s old) (hsn : Sep L s new)
    (hap : ∀ q, IsPtPage s.mem old q → ¬ IsPtPage s.mem new q)
    (hpre : CopyPre L p.ustack old sz s)
    (h : uvmcopy L cpu p old new sz s = some (0, s')) :
    (∀ va, InRange 0 sz va → Mapped s.mem old va → va ≠ p.ustack →
      Mapped s'.mem old va ∧ Mapped s'.mem new va ∧
      frameOf s'.mem old va = frameOf s.mem old va ∧
      frameOf s'.mem new va = frameOf s.mem old va ∧
      pteval s'.mem old va &&& PTE_W = 0 ∧ pteval s'.mem new va &&& PTE_W = 0 ∧
      pteval s'.mem old va &&& PTE_C ≠ 0 ∧ pteval s'.mem new va &&& PTE_C ≠ 0 ∧
      PTE_FLAGS (pteval s'.mem new va) = PTE_FLAGS (pteval s'.mem old va) ∧
      (∀ k, k < 10 → k ≠ 2 → k ≠ 8 →
        (pteval s'.mem old va).testBit k = (pteval s.mem old va).testBit k) ∧
      refcount (frameOf s.mem old va) s' = refcount (frameOf s.mem old va) s + 1) ∧
    (∀ va, InRange 0 sz va → ¬ Mapped s.mem old va →
      pteval s'.mem new va = pteval s.mem new va) := by
  unfold uvmcopy copy at h
  obtain ⟨i', h1, h2, hC⟩ := copyLoop_spec L cpu p old new sz s hc hpre PAGE_FUEL 0 s s'
    (Copied_init L _ old new s hso hsn hap) (by decide) (Nat.zero_le _) h
  have hin : ∀ va, InRange 0 sz va → InRange 0 i' va ∧ va < MAXVA := by
    intro va hv; unfold InRange at *; exact ⟨by omega, by omega⟩
  constructor
  · intro va hv hm hu
    have ho := hC.old_done va (hin va hv).1 hm hu
    have hn := hC.new_done va (hin va hv).1 hm hu
    obtain ⟨e1, _, _, _, e5, e6, e7⟩ := cow_entry (pteval s.mem old va) hm
    have ho' : pteval s'.mem old va =
        PA2PTE (PTE2PA (pteval s.mem old va)) ||| COW_FLAGS (pteval s.mem old va) := ho
    refine ⟨?_, ?_, ?_, ?_, ?_, ?_, ?_, ?_, ?_, ?_, ?_⟩
    · unfold Mapped; rw [ho']; exact e5
    · unfold Mapped; rw [hn, ho']; exact e5
    · unfold frameOf; rw [ho']; exact e1
    · unfold frameOf; rw [hn, ho']; exact e1
    · rw [ho']; exact e6
    · rw [hn, ho']; exact e6
    · rw [ho']; exact e7
    · rw [hn, ho']; exact e7
    · rw [hn]
    · intro k hk hk2 hk8
      rw [ho']
      exact cow_entry_bits _ k hk hk2 hk8
    · exact hC.ref_done va (hin va hv).1 hm hu
  · intro va hv hnm
    exact hC.new_rest va hv.2.2 (hin va hv).2 (Or.inr hnm)

/-- C10 (counterexample): `uvmcopy` from the empty table at 57344 into the table at
61440 of `sMapped`, which maps page 0: the call returns 0 and page 0, which has no
valid leaf in `old`, still has one in `new`. -/
theorem uvmcopy_child_mapped :
    uvmcopy L1 0 pEx 57344 61440 PGSIZE sMapped = some (0, sMapped) ∧
    InRange 0 PGSIZE 0 ∧
    ¬ Mapped sMapped.mem 57344 0 ∧ Mapped sMapped.mem 61440 0 := by
  refine ⟨rfl, by unfold InRange; decide, ?_, ?_⟩
  · unfold Mapped; decide
  · unfold Mapped; decide

theorem sParent_facts :
    Sep L1 sParent 61440 ∧ Sep L1 sParent 57344 ∧
    (∀ q, IsPtPage sParent.mem 61440 q → ¬ IsPtPage sParent.mem 57344 q) ∧
    CopyPre L1 pEx.ustack 61440 PGSIZE sParent := by
  have hso : Sep L1 sFork 61440 :=
    Sep_zero L1 sFork 61440 rfl (fun _ => rfl) (by decide) (by decide) (by decide)
  have hsn : Sep L1 sFork 57344 :=
    Sep_zero L1 sFork 57344 rfl (fun _ => rfl) (by decide) (by decide) (by decide)
  have hun : ¬ Mapped sFork.mem 61440 0 := by
    intro h
    unfold Mapped at h
    rw [pteval_zero sFork.mem 61440 0 (fun _ => rfl)] at h
    exact zero_not_valid h
  obtain ⟨r, s', he, hg, _⟩ := mappages_page L1 0 61440 0 20480 (PTE_R ||| PTE_W ||| PTE_U)
    sFork (by decide) hso (by decide) (by decide) hun
  have e : mappages L1 0 61440 0 PGSIZE 20480 (PTE_R ||| PTE_W ||| PTE_U) sFork
      = some (0, sParent) := rfl
  rw [e] at he
  simp only [Option.some.injEq, Prod.mk.injEq] at he
  obtain ⟨_, he2⟩ := he
  subst he2
  have hap0 : ∀ q, IsPtPage sFork.mem 57344 q → ¬ IsPtPage sFork.mem 61440 q := by
    intro q h1 h2
    have a := ((PT_zero sFork.mem 57344 (fun _ => rfl) (by decide)).2 q).mp h1
    have b := ((PT_zero sFork.mem 61440 (fun _ => rfl) (by decide)).2 q).mp h2
    omega
  obtain ⟨o1, _, _, _, _, o6⟩ := PtGrow_other L1 61440 57344 sFork sParent hg hsn hap0
  have hfree : ∀ f, IsFree L1 sParent f → f ≠ 20480 := by
    intro f hf
    obtain ⟨c, hc, hm⟩ := IsFree_of_suffix L1 sFork sParent hg.suffix f hf
    have : c = 0 := by unfold L1 at hc; simp at hc; exact hc
    subst this
    have hm' : f = 8192 ∨ f = 12288 ∨ f = 16384 ∨ f = 24576 := by simpa [sFork] using hm
    omega
  have hone : ∀ va, InRange 0 PGSIZE va → va = 0 := by
    intro va hin; unfold InRange PGSIZE at hin; omega
  have hf : frameOf sParent.mem 61440 0 = 20480 := by decide
  refine ⟨hg.sep, o1, fun q h1 h2 => o6 q h2 h1, ⟨?_, ?_, ?_⟩⟩
  · intro va hin _ _ hfr
    rw [hone va hin, hf] at hfr
    exact hfree _ hfr rfl
  · intro va va' hin hin' _ _ _ _ _
    rw [hone va hin, hone va' hin']
  · intro va hin _ _
    rw [hone va hin, hf]
    decide

/-- C10 (witness): `uvmcopy` from the table at 61440 of `sParent`, which maps page 0
to the frame 20480 with `R|W|U`, into the empty table at 57344: the call returns 0,
both leaves point to 20480 with W cleared and C set, and the count of 20480 goes from
1 to 2. -/
theorem uvmcopy_cow_witness :
    uvmcopy L1 0 pEx 61440 57344 PGSIZE sParent = some (0, sForked) ∧
    frameOf sForked.mem 61440 0 = 20480 ∧ frameOf sForked.mem 57344 0 = 20480 ∧
    pteval sForked.mem 61440 0 &&& PTE_W = 0 ∧ pteval sForked.mem 57344 0 &&& PTE_W = 0 ∧
    pteval sForked.mem 61440 0 &&& PTE_C ≠ 0 ∧ pteval sForked.mem 57344 0 &&& PTE_C ≠ 0 ∧
    refcount 20480 sParent = 1 ∧ refcount 20480 sForked = 2 := by
  obtain ⟨hso, hsn, hap, hpre⟩ := sParent_facts
  have e : uvmcopy L1 0 pEx 61440 57344 PGSIZE sParent = some (0, sForked) := rfl
  obtain ⟨h1, _⟩ := uvmcopy_cow L1 0 pEx 61440 57344 PGSIZE sParent sForked (by decide)
    hso hsn hap hpre e
  have hf : frameOf sParent.mem 61440 0 = 20480 := by decide
  have hr : refcount 20480 sParent = 1 := by decide
  obtain ⟨_, _, a3, a4, a5, a6, a7, a8, _, _, a11⟩ := h1 0 (by unfold InRange; decide)
    (by unfold Mapped; decide) (by decide)
  rw [hf] at a3 a4 a11
  rw [hr] at a11
  exact ⟨e, a3, a4, a5, a6, a7, a8, hr, a11⟩

/-- `mappages` of one page whose leaf slot exists and is not valid writes the leaf and
returns 0. -/
theorem mappages_present (L : Layout) (cpu pt va f perm p : Nat) (s : KState)
    (hva : va % PGSIZE = 0) (hmax : va < MAXVA) (hs : slot s.mem pt va = some p)
    (hnv : ¬ (s.mem p &&& PTE_V ≠ 0)) :
    mappages L cpu pt va PGSIZE f perm s = some (0, s.write p (PA2PTE f ||| perm ||| PTE_V)) := by
  have hva64 : va + PGSIZE ≤ 2 ^ 64 := by rw [MAXVA_eq] at hmax; unfold PGSIZE; omega
  have hlast : PGROUNDDOWN (va + PGSIZE - 1) = va := by
    unfold PGROUNDDOWN PGSIZE at *; omega
  rw [mappages_eq L cpu pt va PGSIZE f perm s hva (by decide) hva64, hlast]
  obtain ⟨n, hn⟩ := PAGE_FUEL_pos
  rw [hn]
  unfold mappagesLoop
  rw [walk_present L cpu pt va p true s hmax hs]
  simp only
  rw [if_neg hnv]
  simp only [if_true]

/-- The call `uvmunmap` without freeing on a well-formed table `kpt`: reference counts
and free lists are unchanged, and so is the memory of every page that is not a page of
`kpt`. -/
theorem uvmunmap_nofree (L : Layout) (hN : 0 < L.NCPU) (cpu kpt va n : Nat) (s s' : KState)
    (hsep : Sep L s kpt) (h : uvmunmap L cpu kpt va n false s = some s') :
    Sep L s' kpt ∧ s'.ref = s.ref ∧ s'.freelist = s.freelist ∧
    (∀ q, IsPtPage s'.mem kpt q ↔ IsPtPage s.mem kpt q) ∧
    ∀ g, g % PGSIZE = 0 → ¬ IsPtPage s.mem kpt g →
      ∀ x, g ≤ x → x < g + PGSIZE → s'.mem x = s.mem x := by
  unfold uvmunmap at h
  by_cases hva : va % PGSIZE ≠ 0
  · rw [if_pos hva] at h; cases h
  · rw [if_neg hva] at h
    have hva' : va % PGSIZE = 0 := by omega
    have hstop : ((va + n * PGSIZE) % 2 ^ 64) % PGSIZE = 0 := by
      unfold PGSIZE at *; omega
    have hpre : UnmapPre L kpt va ((va + n * PGSIZE) % 2 ^ 64) false s :=
      ⟨(fun hh => by cases hh), (fun hh => by cases hh), (fun hh => by cases hh)⟩
    have hu := uvmunmapLoop_spec L hN cpu kpt _ false hstop PAGE_FUEL va s s' hsep hva' hpre h
    obtain ⟨hr, hf⟩ := hu.nofree rfl
    refine ⟨hu.sep, hr, hf, IsPtPage_congr s.mem s'.mem kpt hu.l1 hu.l0, ?_⟩
    intro g hg hnp x hx1 hx2
    exact hu.mem_other g hg (fun hw => by cases hw.1) hnp x hx1 hx2

/-- The call `proc_usermapping(p, a + PGSIZE, a)` that `uvmalloc` makes: reference
counts and free lists are unchanged, and so is the memory of every page that is not a
page of the kernel table. -/
theorem usermapping_shrink (L : Layout) (hN : 0 < L.NCPU) (cpu : Nat) (p : Proc) (a : Nat)
    (s s' : KState) (hsep : Sep L s p.kernel_pagetable)
    (h : proc_usermapping L cpu p (a + PGSIZE) a s = some s') :
    Sep L s' p.kernel_pagetable ∧ s'.ref = s.ref ∧ s'.freelist = s.freelist ∧
    (∀ q, IsPtPage s'.mem p.kernel_pagetable q ↔ IsPtPage s.mem p.kernel_pagetable q) ∧
    ∀ g, g % PGSIZE = 0 → ¬ IsPtPage s.mem p.kernel_pagetable g →
      ∀ x, g ≤ x → x < g + PGSIZE → s'.mem x = s.mem x := by
  have hsame : s' = s → Sep L s' p.kernel_pagetable ∧ s'.ref = s.ref ∧
      s'.freelist = s.freelist ∧
      (∀ q, IsPtPage s'.mem p.kernel_pagetable q ↔ IsPtPage s.mem p.kernel_pagetable q) ∧
      ∀ g, g % PGSIZE = 0 → ¬ IsPtPage s.mem p.kernel_pagetable g →
        ∀ x, g ≤ x → x < g + PGSIZE → s'.mem x = s.mem x := by
    intro e; rw [e]; exact ⟨hsep, rfl, rfl, fun _ => Iff.rfl, fun _ _ _ _ _ _ => rfl⟩
  have hP : 0 < PGSIZE := by decide
  unfold proc_usermapping at h
  by_cases h1 : a > PGROUNDUP p.sz
  · rw [if_pos h1] at h; cases h
  · rw [if_neg h1] at h
    by_cases h2 : a ≥ p.vma_bound ∨ a + PGSIZE ≥ p.vma_bound
    · rw [if_pos h2] at h; cases h; exact hsame rfl
    · rw [if_neg h2] at h
      dsimp only at h
      have hge : ¬ ((if a + PGSIZE > PLIC then PLIC else a + PGSIZE) <
          (if a > PLIC then PLIC else a)) := by
        split <;> split <;> omega
      by_cases h3 : (if a + PGSIZE > PLIC then PLIC else a + PGSIZE) >
          (if a > PLIC then PLIC else a)
      · rw [if_pos h3] at h
        exact uvmunmap_nofree L hN cpu _ _ _ s s' hsep h
      · rw [if_neg h3, if_neg hge] at h
        cases h; exact hsame rfl

theorem Grown_init (L : Layout) (pt kpt lo hi : Nat) (s : KState)
    (h : UvmPre L pt kpt lo hi s) : Grown L pt kpt lo lo hi s s := by
  have hno : ∀ va, ¬ InRange lo lo va := by
    intro va h; unfold InRange at h; omega
  refine ⟨h.sep, h.sepk, h.apart, h.free_zero, fun _ _ _ => rfl,
    fun va hv => absurd hv (hno va), fun va hv => absurd hv (hno va),
    fun va _ hv => absurd hv (hno va), fun f hf => Or.inl hf, ?_⟩
  intro va hv hm hmp
  obtain ⟨a1, a2, a3⟩ := h.owned va hv hm hmp
  exact ⟨a1, a2, a3, fun va' hv' => absurd hv' (hno va')⟩

/-- One successful iteration of `uvmalloc`. The state `s5` is the one in which
`mappages` is called: the frame `mem` is allocated with count 1, the leaf of page `a`
may have been cleared and the frame `fo` may have been freed, nothing else differs from
`s`; in `s6` the table has grown and page `a` is mapped to `mem`. -/
theorem Grown_map (L : Layout) (pt kpt lo a hi mem fo perm : Nat) (s0 s s5 s6 : KState)
    (hG : Grown L pt kpt lo a hi s0 s) (ha : a % PGSIZE = 0) (hlo : lo ≤ a)
    (hmax : a < MAXVA)
    (hmf : IsFree L s mem) (hmnf : ¬ IsFree L s5 mem) (hmnp : ¬ IsPtPage s5.mem pt mem)
    (hmr : refcount mem s5 = 1) (hperm : perm < 1024)
    (hfo : fo = mem ∨ ¬ IsFree L s fo)
    (hfo_done : ∀ va, InRange lo a va → frameOf s.mem pt va ≠ fo)
    (hfo_rest : ∀ va, InRange (a + PGSIZE) hi va → va < MAXVA → Mapped s0.mem pt va →
      frameOf s0.mem pt va ≠ fo)
    (hsepk : Sep L s5 kpt)
    (hap : ∀ q, IsPtPage s5.mem kpt q → ¬ IsPtPage s5.mem pt q)
    (hfz : ∀ f, IsFree L s5 f → refcount f s5 = 0)
    (hpv : ∀ va, va < MAXVA → va / PGSIZE ≠ a / PGSIZE →
      pteval s5.mem pt va = pteval s.mem pt va)
    (hpg : ∀ q, IsPtPage s5.mem pt q ↔ IsPtPage s.mem pt q)
    (hpgk : ∀ q, IsPtPage s5.mem kpt q ↔ IsPtPage s.mem kpt q)
    (hfree : ∀ g, g ≠ mem → g ≠ fo → (IsFree L s5 g ↔ IsFree L s g))
    (href : ∀ g, g % PGSIZE = 0 → g ≠ mem → g ≠ fo → refcount g s5 = refcount g s)
    (hg : PtGrow L pt s5 s6)
    (hleaf : pteval s6.mem pt a = PA2PTE mem ||| perm ||| PTE_V)
    (hoth : ∀ va, va < MAXVA → va / PGSIZE ≠ a / PGSIZE →
      pteval s6.mem pt va = pteval s5.mem pt va) :
    Grown L pt kpt lo (a + PGSIZE) hi s0 s6 := by
  have hP : 0 < PGSIZE := by decide
  have hma := hG.sep.free.aligned mem hmf
  have hm64 := hG.sep.free.lt mem hmf
  obtain ⟨u1, u2, u3, _⟩ := hg.untouched mem hma hmnf hmnp
  obtain ⟨k1, _, _, _, k5, k6⟩ := PtGrow_other L pt kpt s5 s6 hg hsepk hap
  have hfa : frameOf s6.mem pt a = mem := by
    unfold frameOf; rw [hleaf]
    exact leaf_pa mem perm hma hm64 hperm
  have hne_page : ∀ va, InRange lo a va → va / PGSIZE ≠ a / PGSIZE := by
    intro va hin; unfold InRange PGSIZE at *; omega
  have hold : ∀ va, InRange lo a va → pteval s6.mem pt va = pteval s.mem pt va := by
    intro va hin
    rw [hoth va (hG.below va hin) (hne_page va hin), hpv va (hG.below va hin) (hne_page va hin)]
  have holdf : ∀ va, InRange lo a va → frameOf s6.mem pt va = frameOf s.mem pt va :=
    fun va hin => frameOf_congr _ _ pt va (hold va hin)
  -- a frame that is allocated in `s`, is no page of the table and is not `fo`
  have hkeep : ∀ f, f % PGSIZE = 0 → ¬ IsFree L s f → ¬ IsPtPage s.mem pt f → f ≠ fo →
      ¬ IsFree L s6 f ∧ ¬ IsPtPage s6.mem pt f ∧ refcount f s6 = refcount f s ∧ f ≠ mem := by
    intro f hf h1 h2 h3
    have hne : f ≠ mem := fun hh => h1 (hh ▸ hmf)
    obtain ⟨w1, w2, w3, _⟩ := hg.untouched f hf (fun hh => h1 ((hfree f hne h3).mp hh))
      (fun hh => h2 ((hpg f).mp hh))
    exact ⟨w1, w2, by rw [w3, href f hf hne h3], hne⟩
  refine ⟨hg.sep, k1, k6, ?_, ?_, ?_, ?_, ?_, ?_, ?_⟩
  · intro f hf
    rw [hg.ref_free f hf]
    exact hfz f (IsFree_of_suffix L _ s6 hg.suffix f hf)
  · intro va hva hout
    have hne : va / PGSIZE ≠ a / PGSIZE := by unfold PGSIZE at *; omega
    rw [hoth va hva hne, hpv va hva hne]
    exact hG.outside va hva (by omega)
  · intro va hin
    rcases InRange_succ lo a va ha hin with h | h
    · exact hG.below va h
    · rw [h]; exact hmax
  · intro va hin
    rcases InRange_succ lo a va ha hin with h | h
    · obtain ⟨c1, c2, c3, c4⟩ := hG.page va h
      obtain ⟨w1, w2, w3, _⟩ := hkeep _ (frameOf_aligned _ _ _) c2 c3 (hfo_done va h)
      rw [holdf va h]
      refine ⟨?_, w1, w2, by rw [w3]; exact c4⟩
      unfold Mapped; rw [hold va h]; exact c1
    · rw [h, hfa]
      refine ⟨?_, u1, u2, by rw [u3]; exact hmr⟩
      unfold Mapped; rw [hleaf]; exact leaf_valid _ _
  · intro va va' hin hin' hf
    have hnm : ∀ v, InRange lo a v → frameOf s.mem pt v ≠ mem := fun v hv hh =>
      (hG.page v hv).2.1 (hh ▸ hmf)
    rcases InRange_succ lo a va ha hin with h | h
    · rcases InRange_succ lo a va' ha hin' with h' | h'
      · rw [holdf va h, holdf va' h'] at hf
        exact hG.distinct va va' h h' hf
      · rw [h', hfa, holdf va h] at hf
        exact absurd hf (hnm va h)
    · rcases InRange_succ lo a va' ha hin' with h' | h'
      · rw [h, hfa, holdf va' h'] at hf
        exact absurd hf.symm (hnm va' h')
      · rw [h, h']
  · intro f hf
    rcases hG.frames f hf with h | h | ⟨va, hin, hva⟩
    · by_cases hfm : f = mem
      · right; right
        exact ⟨a, by unfold InRange PGSIZE at *; omega, by rw [hfa, hfm]⟩
      · have hnfo : f ≠ fo := by
          rcases hfo with e | e
          · rw [e]; exact hfm
          · exact fun hh => e (hh ▸ h)
        by_cases hf6 : IsFree L s6 f
        · exact Or.inl hf6
        · right; left
          exact hg.alloc_is_page f ((hfree f hfm hnfo).mpr h) hf6
    · right; left
      exact hg.pages_mono f ((hpg f).mpr h)
    · right; right
      exact ⟨va, by unfold InRange PGSIZE at *; omega, by rw [holdf va hin]; exact hva⟩
  · intro va hin hvm hmp
    obtain ⟨r1, r2, r3, r4⟩ := hG.rest va (by unfold InRange at *; omega) hvm hmp
    obtain ⟨w1, w2, _, w4⟩ := hkeep _ (frameOf_aligned _ _ _) r1 r2 (hfo_rest va hin hvm hmp)
    refine ⟨w1, w2, fun hh => r3 ((hpgk _).mp ((k5 _).mp hh)), ?_⟩
    intro va' hin'
    rcases InRange_succ lo a va' ha hin' with h | h
    · rw [holdf va' h]; exact r4 va' h
    · rw [h, hfa]; exact fun hh => w4 hh.symm

theorem COW_WFLAGS_lt (x : Nat) : COW_WFLAGS x < 1024 := by
  unfold COW_WFLAGS
  exact @Nat.or_lt_two_pow _ _ 10
    (Nat.lt_of_le_of_lt Nat.and_le_right (by decide)) (by decide)

/-- One successful iteration of `uvmalloc` in the zero-fill branch. -/
theorem Grown_zero (L : Layout) (pt kpt lo a hi mem : Nat) (s0 s s1 s4 : KState)
    (hG : Grown L pt kpt lo a hi s0 s) (ha : a % PGSIZE = 0) (hlo : lo ≤ a)
    (hmax : a < MAXVA) (hp : Popped L s mem s1)
    (hg : PtGrow L pt (memset mem 0 s1) s4)
    (hleaf : pteval s4.mem pt a =
      PA2PTE mem ||| (PTE_W ||| PTE_X ||| PTE_R ||| PTE_U) ||| PTE_V)
    (hoth : ∀ va, va < MAXVA → va / PGSIZE ≠ a / PGSIZE →
      pteval s4.mem pt va = pteval (memset mem 0 s1).mem pt va) :
    Grown L pt kpt lo (a + PGSIZE) hi s0 s4 := by
  obtain ⟨_, p3, g3, f3, r3, ro3, _, _⟩ := zeroed_frame L pt mem s s1 hG.sep hp
  obtain ⟨k3, _, gk3, _, _, _, _, _⟩ := zeroed_frame L kpt mem s s1 hG.sepk hp
  apply Grown_map L pt kpt lo a hi mem mem _ s0 s (memset mem 0 s1) s4 hG ha hlo hmax
    hp.was_free (fun hh => ((f3 mem).mp hh).2 rfl)
    (fun hh => hG.sep.apart mem hp.was_free ((g3 mem).mp hh))
    (by rw [r3, hG.free_zero mem hp.was_free]) (by decide) (Or.inl rfl)
    (fun va hin hh => (hG.page va hin).2.1 (hh ▸ hp.was_free))
    (fun va hin hvm hmp hh =>
      (hG.rest va (by unfold InRange at *; omega) hvm hmp).1 (hh ▸ hp.was_free))
    k3 (fun q hq hq' => hG.apart q ((gk3 q).mp hq) ((g3 q).mp hq'))
    ?_ (fun va _ _ => p3 va) g3 gk3 (fun g hg _ => by rw [f3 g]; exact and_iff_left hg)
    (fun g hg hne _ => ro3 g hg hne) hg hleaf hoth
  intro f hf
  obtain ⟨hfs, hne⟩ := (f3 f).mp hf
  rw [ro3 f (hG.sep.free.aligned f hfs) hne]
  exact hG.free_zero f hfs

/-- One iteration of `uvmalloc` in the copy-on-write branch: `mappages` returns 0 and
the invariant holds for the next page. -/
theorem Grown_cow (L : Layout) (hN : 0 < L.NCPU) (cpu : Nat) (p : Proc)
    (pt lo a hi mem pte : Nat) (s0 s s1 s4 s5 s6 : KState) (r : Int)
    (hpre : UvmPre L pt p.kernel_pagetable lo hi s0)
    (hG : Grown L pt p.kernel_pagetable lo a hi s0 s) (ha : a % PGSIZE = 0) (hlo : lo ≤ a)
    (hlt : a < hi) (hmax : a < MAXVA) (hp : Popped L s mem s1)
    (hslot : slot s1.mem pt a = some pte) (hcow : IS_COW (s1.mem pte) = true)
    (hun : uvmunmap L cpu pt a 1 true (memmovePage mem (PTE2PA (s1.mem pte)) s1) = some s4)
    (hum : proc_usermapping L cpu p (a + PGSIZE) a s4 = some s5)
    (hm : mappages L cpu pt a PGSIZE mem (COW_WFLAGS (s1.mem pte)) s5 = some (r, s6)) :
    r = 0 ∧ Grown L pt p.kernel_pagetable lo (a + PGSIZE) hi s0 s6 := by
  have hP : 0 < PGSIZE := by decide
  have hma := hG.sep.free.aligned mem hp.was_free
  have hina : InRange a hi a := by unfold InRange; omega
  -- after kalloc
  obtain ⟨a1, _, al0, a4, a5⟩ := Sep_popped L s s1 pt mem hG.sep hp
  obtain ⟨b1, _, _, _, b5⟩ := Sep_popped L s s1 p.kernel_pagetable mem hG.sepk hp
  have hx : s1.mem pte = pteval s0.mem pt a := by
    rw [← pteval_of_slot _ _ _ _ hslot, a4 a, hG.outside a hmax (by omega)]
  have hval : pteval s0.mem pt a &&& PTE_V ≠ 0 := by
    rw [← hx]; exact IS_COW_valid _ hcow
  have hfo : PTE2PA (s1.mem pte) = frameOf s0.mem pt a := by
    unfold frameOf; rw [hx]
  rw [hfo] at hun
  obtain ⟨r1, r2, r3, r4⟩ := hG.rest a hina hmax hval
  have hfoa := frameOf_aligned s0.mem pt a
  have hne : mem ≠ frameOf s0.mem pt a := fun hh => r1 (hh ▸ hp.was_free)
  -- after memmove
  have hout : ∀ x, ¬ (mem ≤ x ∧ x < mem + PGSIZE) →
      (memmovePage mem (frameOf s0.mem pt a) s1).mem x = s1.mem x := by
    intro x hx'
    unfold memmovePage
    simp only
    rw [if_neg hx']
  obtain ⟨c1, _, cl0, c4, c5⟩ := Sep_page_write L s1 (memmovePage mem (frameOf s0.mem pt a) s1)
    pt mem a1 hma (fun h => hG.sep.apart mem hp.was_free ((a5 mem).mp h)) rfl hout
  obtain ⟨d1, _, _, _, d5⟩ := Sep_page_write L s1 (memmovePage mem (frameOf s0.mem pt a) s1)
    p.kernel_pagetable mem b1 hma (fun h => hG.sepk.apart mem hp.was_free ((b5 mem).mp h))
    rfl hout
  have hfree3 : ∀ g, IsFree L (memmovePage mem (frameOf s0.mem pt a) s1) g ↔
      IsFree L s g ∧ g ≠ mem := fun g => hp.free_iff g
  have href3 : ∀ g, g % PGSIZE = 0 → g ≠ mem →
      refcount g (memmovePage mem (frameOf s0.mem pt a) s1) = refcount g s := by
    intro g hg hgm
    show s1.ref (g / PGSIZE) = _
    rw [hp.ref_eq, if_neg (frame_ne g mem hg hma hgm)]; rfl
  have hpv3 : pteval (memmovePage mem (frameOf s0.mem pt a) s1).mem pt a =
      pteval s0.mem pt a := by
    rw [c4 a, a4 a, hG.outside a hmax (by omega)]
  have hm3 : Mapped (memmovePage mem (frameOf s0.mem pt a) s1).mem pt a := by
    unfold Mapped; rw [hpv3]; exact hval
  have hf3 : frameOf (memmovePage mem (frameOf s0.mem pt a) s1).mem pt a =
      frameOf s0.mem pt a := frameOf_congr _ _ pt a hpv3
  -- after uvmunmap
  unfold uvmunmap at hun
  rw [if_neg (by omega)] at hun
  have hstop : (a + 1 * PGSIZE) % 2 ^ 64 = a + PGSIZE := by
    rw [MAXVA_eq] at hmax; unfold PGSIZE; omega
  rw [hstop] at hun
  have hupre : UnmapPre L pt a (a + PGSIZE) true (memmovePage mem (frameOf s0.mem pt a) s1) := by
    refine ⟨?_, ?_, ?_⟩
    · intro _ f hf
      obtain ⟨hfs, hfm⟩ := (hfree3 f).mp hf
      rw [href3 f (hG.sep.free.aligned f hfs) hfm]
      exact hG.free_zero f hfs
    · intro _ va hin _
      rw [(InRange_single a va ha).mp hin, hf3]
      exact ⟨fun hh => r1 ((hfree3 _).mp hh).1, fun hh => r2 ((a5 _).mp ((c5 _).mp hh))⟩
    · intro _ va va' hin hin' _ _ _
      rw [(InRange_single a va ha).mp hin, (InRange_single a va' ha).mp hin']
  have hu := uvmunmapLoop_spec L hN cpu pt (a + PGSIZE) true (by unfold PGSIZE at *; omega)
    PAGE_FUEL a _ s4 c1 ha hupre hun
  have hwf : ∀ g, WasFreed (memmovePage mem (frameOf s0.mem pt a) s1).mem pt a (a + PGSIZE)
      true g ↔ g = frameOf s0.mem pt a := by
    intro g
    constructor
    · rintro ⟨_, va, hin, _, hf⟩
      rw [(InRange_single a va ha).mp hin, hf3] at hf
      exact hf.symm
    · intro hg
      exact ⟨rfl, a, (InRange_single a a ha).mpr rfl, hm3, by rw [hf3, hg]⟩
  have e5 := IsPtPage_congr _ s4.mem pt hu.l1 hu.l0
  have hcl : pteval s4.mem pt a = 0 := by
    have hm3' : pteval (memmovePage mem (frameOf s0.mem pt a) s1).mem pt a &&& PTE_V ≠ 0 := hm3
    rw [hu.cleared a ((InRange_single a a ha).mpr rfl), if_pos hm3']
  have hfree4 : ∀ g, g ≠ frameOf s0.mem pt a → (IsFree L s4 g ↔ IsFree L s g ∧ g ≠ mem) := by
    intro g hg
    by_cases hal : g % PGSIZE = 0
    · rw [(hu.other g hal (fun hh => hg ((hwf g).mp hh))).2]
      exact hfree3 g
    · constructor
      · intro hh; exact absurd (hu.sep.free.aligned g hh) hal
      · intro hh; exact absurd (hG.sep.free.aligned g hh.1) hal
  have href4 : ∀ g, g % PGSIZE = 0 → g ≠ mem → g ≠ frameOf s0.mem pt a →
      refcount g s4 = refcount g s := by
    intro g hg hgm hgf
    rw [(hu.other g hg (fun hh => hgf ((hwf g).mp hh))).1]
    exact href3 g hg hgm
  have hk4 : ∀ f, IsFree L s4 f → ¬ IsPtPage (memmovePage mem (frameOf s0.mem pt a) s1).mem
      p.kernel_pagetable f := by
    intro f hf hh
    by_cases hfe : f = frameOf s0.mem pt a
    · rw [hfe] at hh
      exact r3 ((b5 _).mp ((d5 _).mp hh))
    · exact d1.apart f ((hfree3 f).mpr ((hfree4 f hfe).mp hf)) hh
  obtain ⟨f1, _, _, _, f5⟩ := Sep_frame L _ s4 p.kernel_pagetable d1 hu.sep.free hk4
    (by
      intro q hq x hx1 hx2
      have hqa := IsPtPage_aligned _ p.kernel_pagetable q d1.tree.root_aligned hq
      have hqk : IsPtPage s.mem p.kernel_pagetable q := (b5 q).mp ((d5 q).mp hq)
      have hqne : q ≠ frameOf s0.mem pt a := fun hh => r3 (hh ▸ hqk)
      exact hu.mem_other q hqa (fun hh => hqne ((hwf q).mp hh))
        (fun hh => hG.apart q hqk ((a5 q).mp ((c5 q).mp hh))) x hx1 hx2)
  -- after proc_usermapping
  obtain ⟨g1, gr, gf, g5, gm⟩ := usermapping_shrink L hN cpu p a s4 s5 f1 hum
  have hfree5 := IsFree_congr L s4 s5 gf
  have hpt4 : ∀ q, IsPtPage s4.mem pt q ↔ IsPtPage s.mem pt q := fun q => by
    rw [e5 q, c5 q, a5 q]
  have hkp4 : ∀ q, IsPtPage s4.mem p.kernel_pagetable q ↔ IsPtPage s.mem p.kernel_pagetable q :=
    fun q => by rw [f5 q, d5 q, b5 q]
  obtain ⟨h1, _, hl0, h4, h5⟩ := Sep_frame L s4 s5 pt hu.sep g1.free
    (fun f hf => hu.sep.apart f ((hfree5 f).mp hf))
    (by
      intro q hq x hx1 hx2
      have hqa := IsPtPage_aligned _ pt q hu.sep.tree.root_aligned hq
      exact gm q hqa (fun hh => hG.apart q ((hkp4 q).mp hh) ((hpt4 q).mp hq)) x hx1 hx2)
  -- mappages writes the leaf
  have hslot5 : slot s5.mem pt a = some pte := by
    rw [slot_congr _ _ pt hl0 a, slot_congr _ _ pt hu.l0 a, slot_congr _ _ pt cl0 a]
    exact hslot
  have hleaf0 : s5.mem pte = 0 := by
    rw [← pteval_of_slot _ _ _ _ hslot5, h4 a, hcl]
  rw [mappages_present L cpu pt a mem _ pte s5 ha hmax hslot5
    (by rw [hleaf0]; exact zero_not_valid)] at hm
  simp only [Option.some.injEq, Prod.mk.injEq] at hm
  obtain ⟨hr, hs6⟩ := hm
  subst hs6
  refine ⟨hr.symm, ?_⟩
  have hgw := PtGrow_leaf_write L pt a pte (PA2PTE mem ||| COW_WFLAGS (s1.mem pte) ||| PTE_V)
    s5 h1 hslot5
  obtain ⟨_, _, lw⟩ := leaf_write_views s5.mem pt a pte
    (PA2PTE mem ||| COW_WFLAGS (s1.mem pte) ||| PTE_V) h1.tree hslot5
  apply Grown_map L pt p.kernel_pagetable lo a hi mem (frameOf s0.mem pt a)
    (COW_WFLAGS (s1.mem pte)) s0 s s5 _ hG ha hlo hmax hp.was_free
    (fun hh => ((hfree4 mem hne).mp ((hfree5 mem).mp hh)).2 rfl)
    (fun hh => hG.sep.apart mem hp.was_free ((hpt4 mem).mp ((h5 mem).mp hh)))
    ?_ (COW_WFLAGS_lt _) (Or.inr r1) r4 ?_ g1
    (fun q hq hq' => hG.apart q ((hkp4 q).mp ((g5 q).mp hq)) ((hpt4 q).mp ((h5 q).mp hq')))
    ?_ ?_ (fun q => by rw [h5 q, hpt4 q]) (fun q => by rw [g5 q, hkp4 q]) ?_ ?_ hgw ?_ ?_
  · -- count of mem
    show s5.ref (mem / PGSIZE) = 1
    rw [gr]
    have := (hu.other mem hma (fun hh => hne ((hwf mem).mp hh))).1
    unfold refcount at this
    rw [this]
    show s1.ref (mem / PGSIZE) = 1
    rw [hp.ref_eq, if_pos rfl]
    have := hG.free_zero mem hp.was_free
    unfold refcount at this
    rw [this]
  · intro va hin hvm hmp hh
    have := hpre.distinct va a (by unfold InRange at *; omega) (by unfold InRange at *; omega)
      hvm hmax hmp hval hh
    unfold InRange at hin; omega
  · intro f hf
    show s5.ref (f / PGSIZE) = 0
    rw [gr]
    exact hu.free_zero rfl f ((hfree5 f).mp hf)
  · intro va hvm hne'
    rw [h4 va, hu.outside va hvm (by unfold PGSIZE at *; omega), c4 va, a4 va]
  · intro g hgm hgf
    rw [hfree5 g, hfree4 g hgf]
    exact and_iff_left hgm
  · intro g hg hgm hgf
    show s5.ref (g / PGSIZE) = _
    rw [gr]
    exact href4 g hg hgm hgf
  · have := lw a
    rw [if_pos hslot5] at this
    exact this
  · intro va hvm hne'
    have := lw va
    rw [if_neg (fun hh => hne' (slot_inj s5.mem pt a va pte h1.tree hmax hvm hslot5 hh))] at this
    exact this

/-- A failed iteration of `uvmalloc` in the zero-fill branch: `mappages` has mapped
nothing and `kfree` has given the frame back. -/
theorem Grown_fail (L : Layout) (hN : 0 < L.NCPU) (pt kpt lo a hi mem : Nat)
    (s0 s s1 s4 s5 : KState)
    (hG : Grown L pt kpt lo a hi s0 s) (hp : Popped L s mem s1)
    (hg : PtGrow L pt (memset mem 0 s1) s4)
    (hsame : ∀ va', va' < MAXVA → pteval s4.mem pt va' = pteval (memset mem 0 s1).mem pt va')
    (hk : kfree L mem s4 = some s5) : Grown L pt kpt lo a hi s0 s5 := by
  obtain ⟨sep3, p3, g3, f3, r3, ro3, _, _⟩ := zeroed_frame L pt mem s s1 hG.sep hp
  obtain ⟨k3, _, gk3, _, _, _, _, _⟩ := zeroed_frame L kpt mem s s1 hG.sepk hp
  have hma := hG.sep.free.aligned mem hp.was_free
  have hm64 := hG.sep.free.lt mem hp.was_free
  have hmnf3 : ¬ IsFree L (memset mem 0 s1) mem := fun hh => ((f3 mem).mp hh).2 rfl
  have hmnp3 : ¬ IsPtPage (memset mem 0 s1).mem pt mem :=
    fun hh => hG.sep.apart mem hp.was_free ((g3 mem).mp hh)
  obtain ⟨u1, u2, u3, _⟩ := hg.untouched mem hma hmnf3 hmnp3
  obtain ⟨k1, _, _, _, k5, k6⟩ := PtGrow_other L pt kpt _ s4 hg k3
    (fun q hq hq' => hG.apart q ((gk3 q).mp hq) ((g3 q).mp hq'))
  obtain ⟨e1, _, e3, e4, e5⟩ := kfree_effect L hN mem s4 s5 hg.sep.free hm64 u1 hk
  have hkm := kfree_mem L mem s4 s5 hk
  have hr5 : refcount mem s5 = 0 := by
    rw [e4, u3, r3, hG.free_zero mem hp.was_free]
  have hmk4 : ¬ IsPtPage s4.mem kpt mem := fun hh =>
    hG.sepk.apart mem hp.was_free ((gk3 mem).mp ((k5 mem).mp hh))
  obtain ⟨sep5, _, _, p5, g5⟩ := Sep_frame L s4 s5 pt hg.sep e1
    (by
      intro f hf
      rcases (e3 f).mp hf with h | ⟨h, _⟩
      · exact hg.sep.apart f h
      · rw [h]; exact u2)
    (by
      intro q hq x hx1 hx2
      have hqa := IsPtPage_aligned s4.mem pt q hg.sep.tree.root_aligned hq
      have hne : q ≠ mem := fun hh => u2 (hh ▸ hq)
      exact hkm x (page_apart q mem x hqa hma hne hx1 hx2))
  obtain ⟨sepk5, _, _, _, gk5⟩ := Sep_frame L s4 s5 kpt k1 e1
    (by
      intro f hf
      rcases (e3 f).mp hf with h | ⟨h, _⟩
      · exact k1.apart f h
      · rw [h]; exact hmk4)
    (by
      intro q hq x hx1 hx2
      have hqa := IsPtPage_aligned s4.mem kpt q k1.tree.root_aligned hq
      have hne : q ≠ mem := fun hh => hmk4 (hh ▸ hq)
      exact hkm x (page_apart q mem x hqa hma hne hx1 hx2))
  have hpv : ∀ va, va < MAXVA → pteval s5.mem pt va = pteval s.mem pt va := by
    intro va hva; rw [p5, hsame va hva, p3]
  -- a frame that is allocated in `s` and is no page of the table
  have hkeep : ∀ f, f % PGSIZE = 0 → ¬ IsFree L s f → ¬ IsPtPage s.mem pt f →
      ¬ IsFree L s5 f ∧ ¬ IsPtPage s5.mem pt f ∧ refcount f s5 = refcount f s := by
    intro f hfal c3 c4
    have hne : f ≠ mem := fun hh => c3 (hh ▸ hp.was_free)
    obtain ⟨w1, w2, w3, _⟩ := hg.untouched f hfal
      (fun hh => c3 ((f3 _).mp hh).1) (fun hh => c4 ((g3 _).mp hh))
    refine ⟨?_, fun hh => w2 ((g5 _).mp hh), ?_⟩
    · intro hh
      rcases (e3 _).mp hh with h | ⟨h, _⟩
      · exact w1 h
      · exact hne h
    · rw [e5 _ hfal hne, w3, ro3 _ hfal hne]
  have hfr : ∀ va, InRange lo a va → frameOf s5.mem pt va = frameOf s.mem pt va :=
    fun va hin => frameOf_congr _ _ pt va (hpv va (hG.below va hin))
  refine ⟨sep5, sepk5, ?_, ?_, ?_, hG.below, ?_, ?_, ?_, ?_⟩
  · intro q hq hq'
    exact k6 q ((gk5 q).mp hq) ((g5 q).mp hq')
  · intro f hf
    rcases (e3 f).mp hf with h | ⟨h, _⟩
    · have hf3 := IsFree_of_suffix L _ s4 hg.suffix f h
      obtain ⟨hfs, hne⟩ := (f3 f).mp hf3
      rw [e5 f (hG.sep.free.aligned f hfs) hne, hg.ref_free f h,
        ro3 f (hG.sep.free.aligned f hfs) hne]
      exact hG.free_zero f hfs
    · rw [h]; exact hr5
  · intro va hva hout
    rw [hpv va hva]; exact hG.outside va hva hout
  · intro va hin
    obtain ⟨c1, c2, c3, c4⟩ := hG.page va hin
    obtain ⟨w1, w2, w3⟩ := hkeep _ (frameOf_aligned _ _ _) c2 c3
    rw [hfr va hin]
    refine ⟨?_, w1, w2, by rw [w3]; exact c4⟩
    unfold Mapped; rw [hpv va (hG.below va hin)]; exact c1
  · intro va va' hin hin' hf
    rw [hfr va hin, hfr va' hin'] at hf
    exact hG.distinct va va' hin hin' hf
  · intro f hf
    rcases hG.frames f hf with h | h | ⟨va, hin, hva⟩
    · by_cases hfm : f = mem
      · left; exact (e3 f).mpr (Or.inr ⟨hfm, hr5⟩)
      · by_cases hf4 : IsFree L s4 f
        · left; exact (e3 f).mpr (Or.inl hf4)
        · right; left
          exact (g5 f).mpr (hg.alloc_is_page f ((f3 f).mpr ⟨h, hfm⟩) hf4)
    · right; left
      exact (g5 f).mpr (hg.pages_mono f ((g3 f).mpr h))
    · right; right
      exact ⟨va, hin, by rw [hfr va hin]; exact hva⟩
  · intro va hin hvm hmp
    obtain ⟨r1, r2, r3', r4⟩ := hG.rest va hin hvm hmp
    obtain ⟨w1, w2, _⟩ := hkeep _ (frameOf_aligned _ _ _) r1 r2
    refine ⟨w1, w2, fun hh => r3' ((gk3 _).mp ((k5 _).mp ((gk5 _).mp hh))), ?_⟩
    intro va' hin'
    rw [hfr va' hin']; exact r4 va' hin'

/-- Undoing the pages that `uvmalloc` has mapped so far: when `uvmdealloc` returns, no
page of `[lo, a)` is mapped, the leaves outside are those of the start, and every
frame that was free at the start is free with count 0 or a page of the table. -/
theorem Grown_dealloc (L : Layout) (hN : 0 < L.NCPU) (cpu pt kpt lo a hi : Nat)
    (s0 s s' : KState) (r : Nat)
    (hG : Grown L pt kpt lo a hi s0 s) (ha : a % PGSIZE = 0) (hlo : lo % PGSIZE = 0)
    (hle : lo ≤ a) (h : uvmdealloc L cpu pt a lo s = some (r, s')) :
    (∀ va, lo ≤ va → va < MAXVA → Mapped s'.mem pt va →
      pteval s'.mem pt va = pteval s0.mem pt va) ∧
    (∀ va, va < MAXVA → ¬ (lo ≤ va ∧ va < a) → pteval s'.mem pt va = pteval s0.mem pt va) ∧
    (∀ f, IsFree L s0 f → (IsFree L s' f ∧ refcount f s' = 0) ∨ IsPtPage s'.mem pt f) := by
  have hP : 0 < PGSIZE := by decide
  by_cases hlt : lo < a
  · have hmax : a ≤ MAXVA := by
      have := hG.below (a - PGSIZE) (by unfold InRange PGSIZE at *; omega)
      rw [MAXVA_eq] at *; unfold PGSIZE at *; omega
    rw [uvmdealloc_eq L cpu pt a lo s ha hlo hlt hmax] at h
    cases hs : uvmunmapLoop L cpu pt a true PAGE_FUEL lo s with
    | none => rw [hs] at h; cases h
    | some s2 =>
      rw [hs] at h
      simp only [Option.some.injEq, Prod.mk.injEq] at h
      obtain ⟨_, h2⟩ := h
      subst h2
      have hpre : UnmapPre L pt lo a true s := by
        refine ⟨fun _ => hG.free_zero, ?_, ?_⟩
        · intro _ va hin _
          obtain ⟨_, c2, c3, _⟩ := hG.page va hin
          exact ⟨c2, c3⟩
        · intro _ va va' hin hin' _ _ hf
          exact hG.distinct va va' hin hin' hf
      have hu := uvmunmapLoop_spec L hN cpu pt a true ha PAGE_FUEL lo s s2 hG.sep hlo hpre hs
      refine ⟨?_, ?_, ?_⟩
      · intro va hlv hvm hm
        by_cases hva : va < a
        · exfalso
          have hpg : (va / PGSIZE * PGSIZE) / PGSIZE = va / PGSIZE := by
            unfold PGSIZE; omega
          have hin' : InRange lo a (va / PGSIZE * PGSIZE) := by
            unfold InRange PGSIZE at *; omega
          have hmp := (hG.page _ hin').1
          unfold Mapped at hm hmp
          rw [pteval_page s2.mem pt _ va hpg.symm, hu.cleared _ hin', if_pos hmp] at hm
          exact zero_not_valid hm
        · rw [hu.outside va hvm (by omega), hG.outside va hvm (by omega)]
      · intro va hvm hout
        rw [hu.outside va hvm hout, hG.outside va hvm hout]
      · intro f hf
        rcases hG.frames f hf with h | h | ⟨va, hin, hva⟩
        · have hnw : ¬ WasFreed s.mem pt lo a true f := by
            rintro ⟨_, va, hin, _, hfe⟩
            exact (hG.page va hin).2.1 (hfe ▸ h)
          obtain ⟨o1, o2⟩ := hu.other f (hG.sep.free.aligned f h) hnw
          left
          exact ⟨o2.mpr h, by rw [o1]; exact hG.free_zero f h⟩
        · right
          exact (IsPtPage_congr s.mem s2.mem pt hu.l1 hu.l0 f).mpr h
        · obtain ⟨c1, _, _, c4⟩ := hG.page va hin
          rw [hva] at c4
          obtain ⟨q1, q2⟩ := hu.freed f ⟨rfl, va, hin, c1, hva⟩
          have e : refcount f s2 = 0 := by rw [q1, c4]
          exact Or.inl ⟨q2.mpr e, e⟩
  · have hal : a = lo := by omega
    subst hal
    unfold uvmdealloc at h
    rw [if_pos (Nat.le_refl _)] at h
    simp only [Option.some.injEq, Prod.mk.injEq] at h
    obtain ⟨_, h2⟩ := h
    subst h2
    refine ⟨fun va hlv hvm _ => hG.outside va hvm (by omega),
      fun va hvm hout => hG.outside va hvm hout, ?_⟩
    intro f hf
    rcases hG.frames f hf with h | h | ⟨va, hin, _⟩
    · exact Or.inl ⟨h, hG.free_zero f h⟩
    · exact Or.inr h
    · unfold InRange at hin; omega

/-- When the loop of `uvmalloc` returns 0 for a new size other than 0, the pages it
had mapped are unmapped again and the frames it had taken are free again, the pages of
the table apart. -/
theorem uvmallocLoop_fail (L : Layout) (cpu : Nat) (p : Proc) (pt lo hi : Nat) (s0 : KState)
    (hc : cpu < L.NCPU) (hlo : lo % PGSIZE = 0) (hpos : 0 < hi)
    (hpre : UvmPre L pt p.kernel_pagetable lo hi s0) :
    ∀ fuel a s s', Grown L pt p.kernel_pagetable lo a hi s0 s → a % PGSIZE = 0 → lo ≤ a →
      uvmallocLoop L cpu p pt lo hi fuel a s = some (0, s') →
      (∀ va, lo ≤ va → va < MAXVA → Mapped s'.mem pt va →
        pteval s'.mem pt va = pteval s0.mem pt va) ∧
      (∀ va, va < MAXVA → va < lo → pteval s'.mem pt va = pteval s0.mem pt va) ∧
      (∀ f, IsFree L s0 f → (IsFree L s' f ∧ refcount f s' = 0) ∨ IsPtPage s'.mem pt f) := by
  have hN : 0 < L.NCPU := by omega
  have hP : 0 < PGSIZE := by decide
  have hfin : ∀ a s s' r, Grown L pt p.kernel_pagetable lo a hi s0 s → a % PGSIZE = 0 →
      lo ≤ a → uvmdealloc L cpu pt a lo s = some (r, s') →
      (∀ va, lo ≤ va → va < MAXVA → Mapped s'.mem pt va →
        pteval s'.mem pt va = pteval s0.mem pt va) ∧
      (∀ va, va < MAXVA → va < lo → pteval s'.mem pt va = pteval s0.mem pt va) ∧
      (∀ f, IsFree L s0 f → (IsFree L s' f ∧ refcount f s' = 0) ∨ IsPtPage s'.mem pt f) := by
    intro a s s' r hG ha hle hd
    obtain ⟨d1, d2, d3⟩ := Grown_dealloc L hN cpu pt _ lo a hi s0 s s' r hG ha hlo hle hd
    exact ⟨d1, fun va hvm hlt => d2 va hvm (by omega), d3⟩
  intro fuel
  induction fuel with
  | zero => intro a s s' _ _ _ h; simp [uvmallocLoop] at h
  | succ fuel ih =>
    intro a s s' hG ha hle h
    unfold uvmallocLoop at h
    by_cases hlt : a < hi
    · rw [if_pos hlt] at h
      have ha' : (a + PGSIZE) % PGSIZE = 0 := by unfold PGSIZE at *; omega
      cases hk : kalloc L cpu s with
      | none => rw [hk] at h; cases h
      | some res =>
        obtain ⟨ro, s1⟩ := res
        rw [hk] at h
        cases ro with
        | none =>
          obtain ⟨e1, _⟩ := kalloc_none L cpu s s1 hc hk
          subst e1
          simp only at h
          cases hd : uvmdealloc L cpu pt a lo s1 with
          | none => rw [hd] at h; cases h
          | some res2 =>
            obtain ⟨r, s2⟩ := res2
            rw [hd] at h
            simp only [Option.some.injEq, Prod.mk.injEq, true_and] at h
            subst h
            exact hfin a s1 s2 r hG ha hle hd
        | some mem =>
          have hp := kalloc_some L cpu s s1 mem hc hG.sep.free hk
          simp only at h
          by_cases hmax : a < MAXVA
          · rw [walk_false L cpu pt a s1 hmax] at h
            simp only at h
            by_cases hcond : (slot s1.mem pt a).isSome = true ∧
                IS_COW (s1.mem ((slot s1.mem pt a).getD 0)) = true
            · rw [if_pos hcond] at h
              cases hs : slot s1.mem pt a with
              | none => rw [hs] at hcond; cases hcond.1
              | some pte =>
                rw [hs] at h hcond
                simp only [Option.getD_some] at h hcond
                cases hun : uvmunmap L cpu pt a 1 true
                    (memmovePage mem (PTE2PA (s1.mem pte)) s1) with
                | none => rw [hun] at h; cases h
                | some s4 =>
                  rw [hun] at h
                  simp only at h
                  cases hum : proc_usermapping L cpu p (a + PGSIZE) a s4 with
                  | none => rw [hum] at h; cases h
                  | some s5 =>
                    rw [hum] at h
                    simp only at h
                    cases hm : mappages L cpu pt a PGSIZE mem (COW_WFLAGS (s1.mem pte)) s5 with
                    | none => rw [hm] at h; cases h
                    | some res3 =>
                      obtain ⟨r, s6⟩ := res3
                      rw [hm] at h
                      simp only at h
                      obtain ⟨hr, hG'⟩ := Grown_cow L hN cpu p pt lo a hi mem pte s0 s s1 s4 s5
                        s6 r hpre hG ha hle hlt hmax hp hs hcond.2 hun hum hm
                      rw [if_neg (by rw [hr]; decide)] at h
                      exact ih _ s6 s' hG' ha' (by omega) h
            · rw [if_neg hcond] at h
              cases hm : mappages L cpu pt a PGSIZE mem (PTE_W ||| PTE_X ||| PTE_R ||| PTE_U)
                  (memset mem 0 s1) with
              | none => rw [hm] at h; cases h
              | some res3 =>
                obtain ⟨r, s4⟩ := res3
                rw [hm] at h
                simp only at h
                obtain ⟨sep3, _, _, _, _, _, _, _⟩ := zeroed_frame L pt mem s s1 hG.sep hp
                have hnm : ¬ Mapped (memset mem 0 s1).mem pt a := by
                  intro hmp
                  rw [mappages_remap L cpu pt a mem _ _ ha hmax hmp] at hm
                  cases hm
                obtain ⟨r', s4', he, hg, hcase⟩ := mappages_page L cpu pt a mem
                  (PTE_W ||| PTE_X ||| PTE_R ||| PTE_U) (memset mem 0 s1) hc sep3 ha hmax hnm
                rw [hm] at he
                simp only [Option.some.injEq, Prod.mk.injEq] at he
                obtain ⟨he1, he2⟩ := he
                subst he1 he2
                rcases hcase with ⟨hr, hleaf, hoth⟩ | ⟨hr, hsame, _⟩
                · rw [if_neg (by rw [hr]; decide)] at h
                  exact ih _ s4 s' (Grown_zero L pt _ lo a hi mem s0 s s1 s4 hG ha hle hmax hp
                    hg hleaf hoth) ha' (by omega) h
                · rw [if_pos (by rw [hr]; decide)] at h
                  cases hkf : kfree L mem s4 with
                  | none => rw [hkf] at h; cases h
                  | some s5 =>
                    rw [hkf] at h
                    simp only at h
                    have hG5 := Grown_fail L hN pt _ lo a hi mem s0 s s1 s4 s5 hG hp hg hsame hkf
                    cases hd : uvmdealloc L cpu pt a lo s5 with
                    | none => rw [hd] at h; cases h
                    | some res2 =>
                      obtain ⟨r2, s6⟩ := res2
                      rw [hd] at h
                      simp only [Option.some.injEq, Prod.mk.injEq, true_and] at h
                      subst h
                      exact hfin a s5 s6 r2 hG5 ha hle hd
          · rw [walk_panic L cpu pt a false s1 (by omega)] at h
            cases h
    · rw [if_neg hlt] at h
      simp only [Option.some.injEq, Prod.mk.injEq] at h
      omega

/-- C8 (amended): when `uvmalloc(pt, oldsz, newsz)` returns 0, whichever branch the
failing call of `kalloc` or `mappages` was in, the address space is back at the
starting size: a page of `[PGROUNDUP(oldsz), newsz)` that is mapped afterwards has the
leaf it had before the call, so none that this call mapped remains mapped; the leaves
below the starting size are unchanged; and every frame that was free before the call,
so every frame the call took, is free again with count 0, unless `walk` has made it a
page of the page table. The state before the call is well formed (`UvmPre`). -/
theorem uvmalloc_failure (L : Layout) (cpu : Nat) (p : Proc) (pt oldsz newsz : Nat)
    (s s' : KState) (hc : cpu < L.NCPU)
    (hpre : UvmPre L pt p.kernel_pagetable (PGROUNDUP oldsz) newsz s)
    (h : uvmalloc L cpu p pt oldsz newsz s = some (0, s')) :
    (∀ va, InRange (PGROUNDUP oldsz) newsz va → va < MAXVA → Mapped s'.mem pt va →
      pteval s'.mem pt va = pteval s.mem pt va) ∧
    (∀ va, va < MAXVA → va < PGROUNDUP oldsz → pteval s'.mem pt va = pteval s.mem pt va) ∧
    (∀ f, IsFree L s f → (IsFree L s' f ∧ refcount f s' = 0) ∨ IsPtPage s'.mem pt f) := by
  unfold uvmalloc at h
  by_cases h1 : newsz < oldsz
  · rw [if_pos h1] at h
    simp only [Option.some.injEq, Prod.mk.injEq] at h
    omega
  · rw [if_neg h1] at h
    by_cases hpos : 0 < newsz
    · obtain ⟨a1, a2, a3⟩ := uvmallocLoop_fail L cpu p pt (PGROUNDUP oldsz) newsz s hc
        (PGROUNDUP_mod oldsz) hpos hpre PAGE_FUEL (PGROUNDUP oldsz) s s'
        (Grown_init L pt _ _ newsz s hpre) (PGROUNDUP_mod oldsz) (Nat.le_refl _) h
      exact ⟨fun va hin hvm hm => a1 va hin.1 hvm hm, a2, a3⟩
    · obtain ⟨n, hn⟩ := PAGE_FUEL_pos
      rw [hn] at h
      unfold uvmallocLoop at h
      rw [if_neg (by omega)] at h
      simp only [Option.some.injEq, Prod.mk.injEq] at h
      obtain ⟨_, h2⟩ := h
      subst h2
      exact ⟨fun _ _ _ _ => rfl, fun _ _ _ => rfl, fun f hf => Or.inl ⟨hf, hpre.free_zero f hf⟩⟩

/-- C8 (counterexample): growing the empty address space of `sEmpty` from 0 to two
pages. The call takes the frame 8192 for page 0 and `walk` takes 12288 and 16384 for
the page table; the second `kalloc` fails, `uvmdealloc` frees 8192 and `uvmalloc`
returns 0. The frame 12288, which this call allocated, has not been freed: it is a
page of the table with count 1. -/
theorem table_pages_stay_allocated :
    uvmalloc L1 0 pEx 61440 0 (2 * PGSIZE) sEmpty = some (0, sRolled) ∧
    IsFree L1 sEmpty 12288 ∧ refcount 12288 sEmpty = 0 ∧
    ¬ IsFree L1 sRolled 12288 ∧ refcount 12288 sRolled = 1 ∧
    IsPtPage sRolled.mem 61440 12288 := by
  refine ⟨rfl, ⟨0, by decide, by decide⟩, by decide, ?_, by decide, ?_⟩
  · rintro ⟨c, hc, hm⟩
    have : c = 0 := by unfold L1 at hc; simp at hc; exact hc
    subst this
    have e : sRolled.freelist 0 = [8192] := by decide
    rw [e] at hm
    simp at hm
  · right; left
    exact ⟨0, by decide⟩

theorem UvmPre_sEmpty (lo hi : Nat) : UvmPre L1 61440 57344 lo hi sEmpty := by
  have hnm : ∀ va, ¬ Mapped sEmpty.mem 61440 va := by
    intro va h
    unfold Mapped at h
    rw [pteval_zero sEmpty.mem 61440 va (fun _ => rfl)] at h
    exact zero_not_valid h
  refine ⟨Sep_sEmpty, Sep_zero L1 sEmpty 57344 rfl (fun _ => rfl) (by decide) (by decide)
    (by decide), ?_, sEmpty_free_zero, fun va _ _ h => absurd h (hnm va),
    fun va _ _ _ _ _ h => absurd h (hnm va)⟩
  intro q h1 h2
  have a := ((PT_zero sEmpty.mem 57344 (fun _ => rfl) (by decide)).2 q).mp h1
  have b := ((PT_zero sEmpty.mem 61440 (fun _ => rfl) (by decide)).2 q).mp h2
  omega

/-- C8 (witness): the failed call of `uvmalloc` on `sEmpty` from 0 to two pages: it
returns 0, neither page is mapped afterwards, and the frame 8192 that the call had
mapped at page 0 is on a free list with count 0. -/
theorem uvmalloc_failure_witness :
    uvmalloc L1 0 pEx 61440 0 (2 * PGSIZE) sEmpty = some (0, sRolled) ∧
    ¬ Mapped sRolled.mem 61440 0 ∧ ¬ Mapped sRolled.mem 61440 PGSIZE ∧
    IsFree L1 sRolled 8192 ∧ refcount 8192 sRolled = 0 := by
  have e : uvmalloc L1 0 pEx 61440 0 (2 * PGSIZE) sEmpty = some (0, sRolled) := rfl
  obtain ⟨h1, _, _⟩ := uvmalloc_failure L1 0 pEx 61440 0 (2 * PGSIZE) sEmpty sRolled
    (by decide) (UvmPre_sEmpty _ _) e
  have hnm : ∀ va, InRange (PGROUNDUP 0) (2 * PGSIZE) va → va < MAXVA →
      ¬ Mapped sRolled.mem 61440 va := by
    intro va hin hvm hm
    have := h1 va hin hvm hm
    unfold Mapped at hm
    rw [this, pteval_zero sEmpty.mem 61440 va (fun _ => rfl)] at hm
    exact zero_not_valid hm
  exact ⟨e, hnm 0 (by unfold InRange; decide) (by decide),
    hnm PGSIZE (by unfold InRange; decide) (by decide), ⟨0, by decide, by decide⟩, by decide⟩

/-- C20, evaluated at a failing input: the table of `pVma` holds the one region
`[MAXVA - 4 * PGSIZE, MAXVA - 3 * PGSIZE)` and satisfies its invariant, the range
`[MAXVA - 5 * PGSIZE, MAXVA - 2 * PGSIZE)` contains that region, and `map_vma` returns 0
for it: afterwards the entries 0 and 1 are both valid and both hold the address
`MAXVA - 4 * PGSIZE`. -/
theorem map_vma_accepts_enclosing_range :
    (pVma.vma 0).valid = 1 ∧ (∀ j, 0 < j → (pVma.vma j).valid = 0) ∧
    pVma.vma_bound = (pVma.vma 0).vm_start ∧ (pVma.vma 0).vm_end ≤ V1.TRAPFRAME ∧
    (MAXVA - 5 * PGSIZE ≤ (pVma.vma 0).vm_start ∧
      (pVma.vma 0).vm_end ≤ MAXVA - 2 * PGSIZE) ∧
    ∃ p1, map_vma V1 pVma (MAXVA - 5 * PGSIZE) (MAXVA - 2 * PGSIZE) 3 0 7 0 = some (0, p1) ∧
      (p1.vma 0).valid = 1 ∧ (p1.vma 1).valid = 1 ∧
      in_Interval (MAXVA - 4 * PGSIZE) (p1.vma 0) = true ∧
      in_Interval (MAXVA - 4 * PGSIZE) (p1.vma 1) = true := by
  refine ⟨rfl, ?_, rfl, by decide, by decide, _, rfl, rfl, rfl, by decide, by decide⟩
  intro j hj
  have : j ≠ 0 := by omega
  simp [pVma, this]

/-- C16, evaluated at a failing input: in `sVmaCow` the page `MAXVA - 4 * PGSIZE` lies
in the valid region 0 of `pVma`, at or above `vma_bound`, and holds a valid
copy-on-write leaf whose frame 20480 has count 2; whatever the file system does,
`page_fault_handler` panics on it, in `proc_usermapping` called from the
copy-on-write branch of `uvmalloc`. -/
theorem page_fault_handler_cow_vma_panics :
    (MAXVA - 4 * PGSIZE) % PGSIZE = 0 ∧ pVma.vma_bound ≤ MAXVA - 4 * PGSIZE ∧
    ¬ MAXVA - 4 * PGSIZE < pVma.sz ∧
    mmap_valid V1 pVma (MAXVA - 4 * PGSIZE) = 0 ∧ (pVma.vma 0).valid = 1 ∧
    in_Interval (MAXVA - 4 * PGSIZE) (pVma.vma 0) = true ∧
    IS_COW (pteval sVmaCow.mem pVma.pagetable (MAXVA - 4 * PGSIZE)) = true ∧
    frameOf sVmaCow.mem pVma.pagetable (MAXVA - 4 * PGSIZE) = 20480 ∧
    refcount 20480 sVmaCow = 2 ∧
    (∀ s, proc_usermapping L1 0 pVma (MAXVA - 4 * PGSIZE + PGSIZE) (MAXVA - 4 * PGSIZE) s
      = none) ∧
    ∀ E, page_fault_handler L1 0 V1 E pVma (MAXVA - 4 * PGSIZE) sVmaCow = none := by
  refine ⟨by decide, by decide, by decide, by decide, rfl, by decide, by decide, by decide,
    by decide, fun _ => rfl, fun _ => rfl⟩

theorem in_Interval_iff (t : Nat) (v : Vma) :
    in_Interval t v = true ↔ v.vm_start ≤ t ∧ t < v.vm_end := by
  unfold in_Interval
  simp

/-- The loop of `mmap_valid` on a table whose valid entries come first and whose other
entries hold no address: it leaves `i` at minus the index of a valid region that holds
`va`, or, when no valid region from `i` on holds `va`, at a value that is not
negative. -/
theorem mmapScan_spec (p : Proc) (va N : Nat)
    (hpk : ∀ i j, i < j → j < N → (p.vma j).valid ≠ 0 → (p.vma i).valid ≠ 0)
    (hem : ∀ i, i < N → (p.vma i).valid = 0 → (p.vma i).vm_end ≤ (p.vma i).vm_start) :
    ∀ n i, i + n = N →
      (∃ k, i ≤ k ∧ k < N ∧ (p.vma k).valid ≠ 0 ∧ in_Interval va (p.vma k) = true ∧
        mmapScan p va n i = -(k : Int)) ∨
      ((∀ k, i ≤ k → k < N → (p.vma k).valid ≠ 0 → in_Interval va (p.vma k) = false) ∧
        (i : Int) ≤ mmapScan p va n i) := by
  intro n
  induction n with
  | zero =>
    intro i hi
    right
    refine ⟨fun k h1 h2 => by omega, ?_⟩
    unfold mmapScan
    exact le_refl _
  | succ n ih =>
    intro i hi
    unfold mmapScan
    by_cases hin : in_Interval va (p.vma i) = true
    · rw [if_pos hin]
      left
      refine ⟨i, le_refl _, by omega, ?_, hin, rfl⟩
      intro hv
      have := hem i (by omega) hv
      rw [in_Interval_iff] at hin
      omega
    · rw [if_neg hin]
      by_cases hv : (p.vma i).valid = 0
      · rw [if_pos hv]
        right
        refine ⟨?_, le_refl _⟩
        intro k hk1 hk2 hkv
        by_cases hki : k = i
        · exact absurd (hki ▸ hv) hkv
        · exact absurd hv (hpk i k (by omega) hk2 hkv)
      · rw [if_neg hv]
        rcases ih (i + 1) (by omega) with ⟨k, h1, h2, h3, h4, h5⟩ | ⟨h1, h2⟩
        · left
          exact ⟨k, by omega, h2, h3, h4, h5⟩
        · right
          refine ⟨?_, by push_cast at h2; omega⟩
          intro k hk1 hk2 hkv
          by_cases hki : k = i
          · subst hki
            simpa using hin
          · exact h1 k (by omega) hk2 hkv

/-- On a table that satisfies its invariant `mmap_valid` returns -1 exactly when `va`
lies in no valid region. -/
theorem mmap_valid_iff (V : VmaLayout) (p : Proc) (va : Nat) (hN : 0 < V.NVMA)
    (hv : VmaOk V p) : mmap_valid V p va ≠ -1 ↔ InVma V p va := by
  unfold mmap_valid InVma
  by_cases hb : va < p.vma_bound ∨ va ≥ V.TRAPFRAME
  · rw [if_pos hb]
    constructor
    · intro h; exact absurd rfl h
    · rintro ⟨i, hi, hvi, hin⟩
      have := hv.bound i hi hvi
      rw [in_Interval_iff] at hin
      omega
  · rw [if_neg hb]
    simp only
    rcases mmapScan_spec p va V.NVMA hv.packed hv.empty V.NVMA 0 (by omega) with
      ⟨k, _, h2, h3, h4, h5⟩ | ⟨h1, h2⟩
    · rw [h5]
      constructor
      · intro _; exact ⟨k, h2, h3, h4⟩
      · intro _
        by_cases hk : k = 0
        · subst hk
          simp [h3, h4]
        · have h6 : ¬ (-(k : Int) > 0) := by omega
          have h7 : -(k : Int) < 0 := by omega
          rw [if_neg h6, if_pos h7]
          omega
    · constructor
      · intro h
        exfalso
        apply h
        by_cases hp : mmapScan p va V.NVMA 0 > 0
        · rw [if_pos hp]
        · rw [if_neg hp]
          have h3 : ¬ mmapScan p va V.NVMA 0 < 0 := by push_cast at h2; omega
          rw [if_neg h3]
          have h4 : ¬ ((p.vma 0).valid ≠ 0 ∧ in_Interval va (p.vma 0) = true) := by
            rintro ⟨a, b⟩
            have := h1 0 (le_refl _) hN a
            rw [this] at b
            cases b
          rw [if_neg h4]
      · rintro ⟨i, hi, hvi, hin⟩
        have := h1 i (Nat.zero_le _) hi hvi
        rw [this] at hin
        cases hin

/-- The test that `page_fault_handler` makes first: when it fails, -1 is returned and
the process and the state are as they were. -/
theorem page_fault_handler_rejects (L : Layout) (cpu : Nat) (V : VmaLayout) (E : Ext)
    (p : Proc) (va : Nat) (s : KState)
    (hn : ¬ ((va < p.sz ∨ mmap_valid V p va ≠ -1) ∧
      va ≠ (p.ustack + (2 ^ 64 - PGSIZE)) % 2 ^ 64)) :
    page_fault_handler L cpu V E p va s = some (-1, p, s) := by
  unfold page_fault_handler
  simp only
  rw [if_neg hn]

/-- When the first test of `page_fault_handler` holds and the call returns, it returns
0 with the process unchanged, or 1 with `killed` set. -/
theorem page_fault_handler_accepts (L : Layout) (cpu : Nat) (V : VmaLayout) (E : Ext)
    (p : Proc) (va : Nat) (s : KState)
    (hc : (va < p.sz ∨ mmap_valid V p va ≠ -1) ∧
      va ≠ (p.ustack + (2 ^ 64 - PGSIZE)) % 2 ^ 64) :
    ∀ r p1 s1, page_fault_handler L cpu V E p va s = some (r, p1, s1) →
      (r = 0 ∧ p1 = p) ∨ (r = 1 ∧ p1.killed = 1 ∧ p1.vma = p.vma) := by
  intro r p1 s1 h
  unfold page_fault_handler at h
  simp only at h
  rw [if_pos hc] at h
  cases hu : uvmalloc L cpu p p.pagetable va ((va + PGSIZE) % 2 ^ 64) s with
  | none => rw [hu] at h; cases h
  | some res =>
    obtain ⟨r0, s0⟩ := res
    rw [hu] at h
    simp only at h
    by_cases hr : r0 ≠ 0
    · rw [if_pos hr] at h
      by_cases hl : va < p.sz
      · rw [if_pos hl] at h
        cases hpu : proc_usermapping L cpu p va ((va + PGSIZE) % 2 ^ 64) s0 with
        | none => rw [hpu] at h; cases h
        | some s2 =>
          rw [hpu] at h
          cases h
          exact Or.inl ⟨rfl, rfl⟩
      · rw [if_neg hl] at h
        cases hlv : load_vma L cpu V E p va (mmap_valid V p va) s0 with
        | none => rw [hlv] at h; cases h
        | some res2 =>
          obtain ⟨r2, s2⟩ := res2
          rw [hlv] at h
          simp only at h
          by_cases h2 : r2 = -1
          · rw [if_pos h2] at h
            cases h
            exact Or.inr ⟨rfl, rfl, rfl⟩
          · rw [if_neg h2] at h
            cases h
            exact Or.inl ⟨rfl, rfl⟩
    · rw [if_neg hr] at h
      cases h
      exact Or.inr ⟨rfl, rfl, rfl⟩

/-- C14: let the table of regions of `p` satisfy its invariant: the valid entries are a
prefix of the table, an entry that is not valid is empty (`vm_end <= vm_start`), and every
valid region lies in `[vma_bound, TRAPFRAME)`. Then `page_fault_handler(p, va)` returns -1
exactly when `va` is the guard page `p->ustack - PGSIZE` or is neither below `p->sz` nor
inside a valid region; it then leaves the process (the table of regions and `killed`) and
the state (the page tables and the allocator) as they were. In every other case, if it
returns, it returns 0 with the process unchanged, or 1 with `p->killed` set and the table
of regions unchanged. -/
theorem page_fault_handler_classification (L : Layout) (cpu : Nat) (V : VmaLayout) (E : Ext)
    (p : Proc) (va : Nat) (s : KState) (hN : 0 < V.NVMA) (hv : VmaOk V p) :
    ((va = (p.ustack + (2 ^ 64 - PGSIZE)) % 2 ^ 64 ∨ (¬ va < p.sz ∧ ¬ InVma V p va)) →
      page_fault_handler L cpu V E p va s = some (-1, p, s)) ∧
    ((∃ p1 s1, page_fault_handler L cpu V E p va s = some (-1, p1, s1)) ↔
      (va = (p.ustack + (2 ^ 64 - PGSIZE)) % 2 ^ 64 ∨ (¬ va < p.sz ∧ ¬ InVma V p va))) ∧
    (¬ (va = (p.ustack + (2 ^ 64 - PGSIZE)) % 2 ^ 64 ∨ (¬ va < p.sz ∧ ¬ InVma V p va)) →
      ∀ r p1 s1, page_fault_handler L cpu V E p va s = some (r, p1, s1) →
        (r = 0 ∧ p1 = p) ∨ (r = 1 ∧ p1.killed = 1 ∧ p1.vma = p.vma)) := by
  have hiff := mmap_valid_iff V p va hN hv
  have hcond : ((va < p.sz ∨ mmap_valid V p va ≠ -1) ∧
      va ≠ (p.ustack + (2 ^ 64 - PGSIZE)) % 2 ^ 64) ↔
      ¬ (va = (p.ustack + (2 ^ 64 - PGSIZE)) % 2 ^ 64 ∨ (¬ va < p.sz ∧ ¬ InVma V p va)) := by
    rw [hiff]
    constructor
    · rintro ⟨h1, h2⟩ (h3 | ⟨h4, h5⟩)
      · exact h2 h3
      · rcases h1 with h | h
        · exact h4 h
        · exact h5 h
    · intro h
      refine ⟨?_, fun e => h (Or.inl e)⟩
      by_cases hl : va < p.sz
      · exact Or.inl hl
      · right
        by_contra hn
        exact h (Or.inr ⟨hl, hn⟩)
  have hother := fun hc => page_fault_handler_accepts L cpu V E p va s hc
  have hminus : (va = (p.ustack + (2 ^ 64 - PGSIZE)) % 2 ^ 64 ∨
      (¬ va < p.sz ∧ ¬ InVma V p va)) →
      page_fault_handler L cpu V E p va s = some (-1, p, s) :=
    fun hc => page_fault_handler_rejects L cpu V E p va s (fun hh => (hcond.mp hh) hc)
  refine ⟨hminus, ⟨?_, fun hc => ⟨p, s, hminus hc⟩⟩, fun hc => hother (hcond.mpr hc)⟩
  rintro ⟨p1, s1, h⟩
  by_contra hc
  rcases hother (hcond.mpr hc) _ _ _ h with ⟨h1, _⟩ | ⟨h1, _⟩
  · cases h1
  · cases h1

theorem VmaOk_pVma3 : VmaOk V1 pVma3 := by
  have hval : ∀ i, (pVma3.vma i).valid ≠ 0 ↔ i < 3 := by
    intro i
    by_cases h : i < 3 <;> simp [pVma3, h]
  refine ⟨?_, ?_, ?_⟩
  · intro i j hij _ hj
    rw [hval] at *
    omega
  · intro i _ hi
    have : ¬ i < 3 := fun h => ((hval i).2 h) hi
    simp [pVma3, this]
  · intro i _ hi
    have h3 := (hval i).1 hi
    interval_cases i <;> exact ⟨by decide, by decide⟩

/-- C14 fails as stated, in two ways. The handler need not return: page 0 of `pEx`,
whose table of regions is empty, is below `p->sz`, is not the guard page, and is mapped in
`sMapped` by a leaf that is not copy-on-write; `page_fault_handler` panics on it in
`mappages` (`remap`). And the test for a valid region is `mmap_valid`, which is right only
on a table that satisfies its invariant. `unmap_vma` of the middle region of `pVma3`,
whose table satisfies it, returns 0 and leaves a table with a gap and `vma_bound` at the
start of entry 0: the page `MAXVA - 5 * PGSIZE` lies in the valid entry 2 and the handler
returns -1 on it. In `pStale` the page `MAXVA - 4 * PGSIZE` lies in no valid region, but
in an entry that is not valid and not empty: `mmap_valid` returns 1 and the handler does
not return -1. In `pHigh` the page at `TRAPFRAME` lies in a valid region that ends above
`TRAPFRAME`, and the handler returns -1 on it. -/
theorem page_fault_handler_classification_fails :
    (VmaOk V1 pEx ∧ 0 % PGSIZE = 0 ∧ 0 < pEx.sz ∧
      0 ≠ (pEx.ustack + (2 ^ 64 - PGSIZE)) % 2 ^ 64 ∧
      Mapped sMapped.mem pEx.pagetable 0 ∧
      IS_COW (pteval sMapped.mem pEx.pagetable 0) = false ∧
      ∀ E, page_fault_handler L1 0 V1 E pEx 0 sMapped = none) ∧
    (VmaOk V1 pVma3 ∧
      (unmap_vma L1 0 V1 F0 pVma3 (MAXVA - 4 * PGSIZE) (MAXVA - 3 * PGSIZE) 1 sEmpty).map
        (fun r => r.1) = some 0 ∧
      (MAXVA - 5 * PGSIZE) % PGSIZE = 0 ∧
      InVma V1 pVma3Unmapped (MAXVA - 5 * PGSIZE) ∧
      MAXVA - 5 * PGSIZE ≠ (pVma3Unmapped.ustack + (2 ^ 64 - PGSIZE)) % 2 ^ 64 ∧
      ∀ E s, page_fault_handler L1 0 V1 E pVma3Unmapped (MAXVA - 5 * PGSIZE) s
        = some (-1, pVma3Unmapped, s)) ∧
    ((MAXVA - 4 * PGSIZE) % PGSIZE = 0 ∧ ¬ MAXVA - 4 * PGSIZE < pStale.sz ∧
      ¬ InVma V1 pStale (MAXVA - 4 * PGSIZE) ∧
      MAXVA - 4 * PGSIZE ≠ (pStale.ustack + (2 ^ 64 - PGSIZE)) % 2 ^ 64 ∧
      mmap_valid V1 pStale (MAXVA - 4 * PGSIZE) = 1 ∧
      ∀ E s p1 s1, page_fault_handler L1 0 V1 E pStale (MAXVA - 4 * PGSIZE) s
        ≠ some (-1, p1, s1)) ∧
    ((MAXVA - 2 * PGSIZE) % PGSIZE = 0 ∧ InVma V1 pHigh (MAXVA - 2 * PGSIZE) ∧
      MAXVA - 2 * PGSIZE ≠ (pHigh.ustack + (2 ^ 64 - PGSIZE)) % 2 ^ 64 ∧
      ∀ E s, page_fault_handler L1 0 V1 E pHigh (MAXVA - 2 * PGSIZE) s
        = some (-1, pHigh, s)) := by
  refine ⟨⟨?_, by decide, by decide, by decide, by unfold Mapped; decide, by decide,
    fun _ => rfl⟩, ⟨VmaOk_pVma3, by decide, by decide, ⟨2, by decide, by decide, by decide⟩,
    by decide, ?_⟩, ⟨by decide, by decide, ?_, by decide, by decide, ?_⟩,
    ⟨by decide, ⟨0, by decide, by decide, by decide⟩, by decide, ?_⟩⟩
  · exact ⟨fun i j _ _ hj => absurd rfl hj, fun i _ _ => Nat.le_refl _,
      fun i _ hi => absurd rfl hi⟩
  · intro E s
    exact page_fault_handler_rejects L1 0 V1 E pVma3Unmapped _ s (by decide)
  · rintro ⟨i, _, hi, hin⟩
    by_cases h0 : i = 0
    · subst h0
      revert hin
      decide
    · by_cases h1 : i = 1
      · subst h1
        exact hi (by decide)
      · apply hi
        simp [pStale, h0, h1]
  · intro E s p1 s1 h
    rcases page_fault_handler_accepts L1 0 V1 E pStale _ s
      ⟨Or.inr (by decide), by decide⟩ _ _ _ h with ⟨hr, _⟩ | ⟨hr, _⟩
    · cases hr
    · cases hr
  · intro E s
    exact page_fault_handler_rejects L1 0 V1 E pHigh _ s (by decide)

theorem VmaOk_pVma : VmaOk V1 pVma := by
  have h : ∀ i, (pVma.vma i).valid ≠ 0 → i = 0 := by
    intro i hi
    by_contra h0
    apply hi
    simp [pVma, h0]
  refine ⟨?_, ?_, ?_⟩
  · intro i j hij _ hj
    have := h j hj
    omega
  · intro i _ hi
    by_cases h0 : i = 0
    · subst h0
      exact absurd hi (by decide)
    · simp [pVma, h0]
  · intro i _ hi
    have := h i hi
    subst this
    exact ⟨by decide, by decide⟩

theorem page_fault_handler_classification_witness :
    (0 < V1.NVMA ∧ VmaOk V1 pVma) ∧
    ((MAXVA - 3 * PGSIZE = (pVma.ustack + (2 ^ 64 - PGSIZE)) % 2 ^ 64 ∨
        (¬ MAXVA - 3 * PGSIZE < pVma.sz ∧ ¬ InVma V1 pVma (MAXVA - 3 * PGSIZE))) →
      page_fault_handler L1 0 V1 E0 pVma (MAXVA - 3 * PGSIZE) sVmaCow
        = some (-1, pVma, sVmaCow)) ∧
    page_fault_handler L1 0 V1 E0 pVma (MAXVA - 3 * PGSIZE) sVmaCow
        = some (-1, pVma, sVmaCow) :=
  ⟨⟨by decide, VmaOk_pVma⟩,
    (page_fault_handler_classification L1 0 V1 E0 pVma (MAXVA - 3 * PGSIZE) sVmaCow
      (by decide) VmaOk_pVma).1, rfl⟩

/-- When the loop of `uvmalloc` returns a value other than 0, it returns the new size
and has handled every page of the range. -/
theorem uvmallocLoop_ok (L : Layout) (cpu : Nat) (p : Proc) (pt lo hi : Nat) (s0 : KState)
    (hc : cpu < L.NCPU) (hpre : UvmPre L pt p.kernel_pagetable lo hi s0) :
    ∀ fuel a s r s', Grown L pt p.kernel_pagetable lo a hi s0 s → a % PGSIZE = 0 → lo ≤ a →
      a < hi + PGSIZE → uvmallocLoop L cpu p pt lo hi fuel a s = some (r, s') → r ≠ 0 →
      r = hi ∧ ∃ a', a' % PGSIZE = 0 ∧ hi ≤ a' ∧ a' < hi + PGSIZE ∧
        Grown L pt p.kernel_pagetable lo a' hi s0 s' := by
  have hN : 0 < L.NCPU := by omega
  have hP : 0 < PGSIZE := by decide
  intro fuel
  induction fuel with
  | zero => intro a s r s' _ _ _ _ h; simp [uvmallocLoop] at h
  | succ fuel ih =>
    intro a s r s' hG ha hle hup h hr0
    unfold uvmallocLoop at h
    by_cases hlt : a < hi
    · rw [if_pos hlt] at h
      have ha' : (a + PGSIZE) % PGSIZE = 0 := by unfold PGSIZE at *; omega
      cases hk : kalloc L cpu s with
      | none => rw [hk] at h; cases h
      | some res =>
        obtain ⟨ro, s1⟩ := res
        rw [hk] at h
        cases ro with
        | none =>
          simp only at h
          cases hd : uvmdealloc L cpu pt a lo s1 with
          | none => rw [hd] at h; cases h
          | some res2 =>
            obtain ⟨r2, s2⟩ := res2
            rw [hd] at h
            simp only [Option.some.injEq, Prod.mk.injEq] at h
            exact absurd h.1.symm hr0
        | some mem =>
          have hp := kalloc_some L cpu s s1 mem hc hG.sep.free hk
          simp only at h
          by_cases hmax : a < MAXVA
          · rw [walk_false L cpu pt a s1 hmax] at h
            simp only at h
            by_cases hcond : (slot s1.mem pt a).isSome = true ∧
                IS_COW (s1.mem ((slot s1.mem pt a).getD 0)) = true
            · rw [if_pos hcond] at h
              cases hs : slot s1.mem pt a with
              | none => rw [hs] at hcond; cases hcond.1
              | some pte =>
                rw [hs] at h hcond
                simp only [Option.getD_some] at h hcond
                cases hun : uvmunmap L cpu pt a 1 true
                    (memmovePage mem (PTE2PA (s1.mem pte)) s1) with
                | none => rw [hun] at h; cases h
                | some s4 =>
                  rw [hun] at h
                  simp only at h
                  cases hum : proc_usermapping L cpu p (a + PGSIZE) a s4 with
                  | none => rw [hum] at h; cases h
                  | some s5 =>
                    rw [hum] at h
                    simp only at h
                    cases hm : mappages L cpu pt a PGSIZE mem (COW_WFLAGS (s1.mem pte)) s5 with
                    | none => rw [hm] at h; cases h
                    | some res3 =>
                      obtain ⟨r3, s6⟩ := res3
                      rw [hm] at h
                      simp only at h
                      obtain ⟨hr, hG'⟩ := Grown_cow L hN cpu p pt lo a hi mem pte s0 s s1 s4 s5
                        s6 r3 hpre hG ha hle hlt hmax hp hs hcond.2 hun hum hm
                      rw [if_neg (by rw [hr]; decide)] at h
                      exact ih _ s6 r s' hG' ha' (by omega) (by omega) h hr0
            · rw [if_neg hcond] at h
              cases hm : mappages L cpu pt a PGSIZE mem (PTE_W ||| PTE_X ||| PTE_R ||| PTE_U)
                  (memset mem 0 s1) with
              | none => rw [hm] at h; cases h
              | some res3 =>
                obtain ⟨r3, s4⟩ := res3
                rw [hm] at h
                simp only at h
                obtain ⟨sep3, _, _, _, _, _, _, _⟩ := zeroed_frame L pt mem s s1 hG.sep hp
                have hnm : ¬ Mapped (memset mem 0 s1).mem pt a := by
                  intro hmp
                  rw [mappages_remap L cpu pt a mem _ _ ha hmax hmp] at hm
                  cases hm
                obtain ⟨r', s4', he, hg, hcase⟩ := mappages_page L cpu pt a mem
                  (PTE_W ||| PTE_X ||| PTE_R ||| PTE_U) (memset mem 0 s1) hc sep3 ha hmax hnm
                rw [hm] at he
                simp only [Option.some.injEq, Prod.mk.injEq] at he
                obtain ⟨he1, he2⟩ := he
                subst he1 he2
                rcases hcase with ⟨hr, hleaf, hoth⟩ | ⟨hr, hsame, _⟩
                · rw [if_neg (by rw [hr]; decide)] at h
                  exact ih _ s4 r s' (Grown_zero L pt _ lo a hi mem s0 s s1 s4 hG ha hle hmax hp
                    hg hleaf hoth) ha' (by omega) (by omega) h hr0
                · rw [if_pos (by rw [hr]; decide)] at h
                  cases hkf : kfree L mem s4 with
                  | none => rw [hkf] at h; cases h
                  | some s5 =>
                    rw [hkf] at h
                    simp only at h
                    cases hd : uvmdealloc L cpu pt a lo s5 with
                    | none => rw [hd] at h; cases h
                    | some res2 =>
                      obtain ⟨r2, s6⟩ := res2
                      rw [hd] at h
                      simp only [Option.some.injEq, Prod.mk.injEq] at h
                      exact absurd h.1.symm hr0
          · rw [walk_panic L cpu pt a false s1 (by omega)] at h
            cases h
    · rw [if_neg hlt] at h
      simp only [Option.some.injEq, Prod.mk.injEq] at h
      obtain ⟨h1, h2⟩ := h
      subst h2
      exact ⟨h1.symm, a, ha, by omega, hup, hG⟩

/-- The growth loop of `proc_usermapping` works on the kernel table only: the user
table keeps its pages and its leaves. -/
theorem usermapLoop_other (L : Layout) (cpu : Nat) (p : Proc) (desva : Nat)
    (hc : cpu < L.NCPU) :
    ∀ fuel va s s', Sep L s p.pagetable → Sep L s p.kernel_pagetable →
      (∀ q, IsPtPage s.mem p.kernel_pagetable q → ¬ IsPtPage s.mem p.pagetable q) →
      va % PGSIZE = 0 → usermapLoop L cpu p desva fuel va s = some s' →
      Sep L s' p.pagetable ∧ Sep L s' p.kernel_pagetable ∧
      (∀ q, IsPtPage s'.mem p.kernel_pagetable q → ¬ IsPtPage s'.mem p.pagetable q) ∧
      (∀ x, pteval s'.mem p.pagetable x = pteval s.mem p.pagetable x) ∧
      (∀ q, IsPtPage s'.mem p.pagetable q ↔ IsPtPage s.mem p.pagetable q) := by
  intro fuel
  induction fuel with
  | zero => intro va s s' _ _ _ _ h; simp [usermapLoop] at h
  | succ fuel ih =>
    intro va s s' hsep hsepk hap hva h
    unfold usermapLoop at h
    have hva' : (va + PGSIZE) % PGSIZE = 0 := by unfold PGSIZE at *; omega
    by_cases hlt : va < desva
    · rw [if_pos hlt] at h
      by_cases hmax : va < MAXVA
      · rw [walk_false L cpu p.pagetable va s hmax] at h
        cases hs : slot s.mem p.pagetable va with
        | none =>
          rw [hs] at h
          exact ih _ s s' hsep hsepk hap hva' h
        | some pte =>
          rw [hs] at h
          simp only at h
          by_cases hv : PTE_FLAGS (s.mem pte) &&& PTE_V = 0
          · rw [if_pos hv] at h
            exact ih _ s s' hsep hsepk hap hva' h
          · rw [if_neg hv] at h
            cases hm : mappages L cpu p.kernel_pagetable va PGSIZE (PTE2PA (s.mem pte))
                (PTE_FLAGS (s.mem pte) &&& (2 ^ 64 - 1 - PTE_U)) s with
            | none => rw [hm] at h; cases h
            | some res =>
              obtain ⟨r, s2⟩ := res
              rw [hm] at h
              by_cases hr : r = 0
              · subst hr
                simp only at h
                have hva64 : va + PGSIZE ≤ 2 ^ 64 := by
                  rw [MAXVA_eq] at hmax; unfold PGSIZE; omega
                rw [mappages_eq L cpu _ va PGSIZE _ _ s hva (by decide) hva64] at hm
                obtain ⟨hg, _⟩ := mappagesLoop_spec L cpu p.kernel_pagetable _ _ hc
                  (by unfold PGROUNDDOWN PGSIZE; omega) PAGE_FUEL va _ s 0 s2 hsepk hva
                  (by unfold PGROUNDDOWN PGSIZE at *; omega) hm
                obtain ⟨o1, _, _, o4, o5, o6⟩ := PtGrow_other L p.kernel_pagetable p.pagetable
                  s s2 hg hsep (fun q hq hq' => hap q hq' hq)
                obtain ⟨i1, i2, i3, i4, i5⟩ := ih _ s2 s' o1 hg.sep
                  (fun q hq hq' => o6 q hq' hq) hva' h
                exact ⟨i1, i2, i3, fun x => by rw [i4 x, o4 x],
                  fun q => by rw [i5 q, o5 q]⟩
              · exfalso
                revert h
                cases r with
                | ofNat n =>
                  cases n with
                  | zero => exact absurd rfl hr
                  | succ n => intro h; cases h
                | negSucc n => intro h; cases h
      · rw [walk_panic L cpu p.pagetable va false s (by omega)] at h
        cases h
    · rw [if_neg hlt] at h
      cases h
      exact ⟨hsep, hsepk, hap, fun _ => rfl, fun _ => Iff.rfl⟩

/-- The call `proc_usermapping(p, oldsz, newsz)` works on the kernel table only: the
user table keeps its pages and its leaves. -/
theorem usermapping_other (L : Layout) (cpu : Nat) (p : Proc) (oldsz newsz : Nat)
    (s s' : KState) (hc : cpu < L.NCPU) (hsep : Sep L s p.pagetable)
    (hsepk : Sep L s p.kernel_pagetable)
    (hap : ∀ q, IsPtPage s.mem p.kernel_pagetable q → ¬ IsPtPage s.mem p.pagetable q)
    (h : proc_usermapping L cpu p oldsz newsz s = some s') :
    Sep L s' p.pagetable ∧ Sep L s' p.kernel_pagetable ∧
    (∀ q, IsPtPage s'.mem p.kernel_pagetable q → ¬ IsPtPage s'.mem p.pagetable q) ∧
    (∀ x, pteval s'.mem p.pagetable x = pteval s.mem p.pagetable x) ∧
    (∀ q, IsPtPage s'.mem p.pagetable q ↔ IsPtPage s.mem p.pagetable q) := by
  have hN : 0 < L.NCPU := by omega
  have hsame : s = s' → Sep L s' p.pagetable ∧ Sep L s' p.kernel_pagetable ∧
      (∀ q, IsPtPage s'.mem p.kernel_pagetable q → ¬ IsPtPage s'.mem p.pagetable q) ∧
      (∀ x, pteval s'.mem p.pagetable x = pteval s.mem p.pagetable x) ∧
      (∀ q, IsPtPage s'.mem p.pagetable q ↔ IsPtPage s.mem p.pagetable q) := by
    intro e; subst e; exact ⟨hsep, hsepk, hap, fun _ => rfl, fun _ => Iff.rfl⟩
  unfold proc_usermapping at h
  by_cases h1 : newsz > PGROUNDUP p.sz
  · rw [if_pos h1] at h; cases h
  · rw [if_neg h1] at h
    by_cases h2 : newsz ≥ p.vma_bound ∨ oldsz ≥ p.vma_bound
    · rw [if_pos h2] at h
      exact hsame (Option.some.inj h)
    · rw [if_neg h2] at h
      simp only at h
      by_cases h3 : (if oldsz > PLIC then PLIC else oldsz) > (if newsz > PLIC then PLIC else newsz)
      · rw [if_pos h3] at h
        obtain ⟨u1, u2, u3, u4, u5⟩ := uvmunmap_nofree L hN cpu p.kernel_pagetable _ _ s s' hsepk h
        have hfr := Sep_frame L s s' p.pagetable hsep u1.free
          (fun f hf => hsep.apart f (by
            obtain ⟨c, hc1, hc2⟩ := hf
            exact ⟨c, hc1, by rw [u3] at hc2; exact hc2⟩))
          (fun q hq x hx1 hx2 =>
            u5 q (IsPtPage_aligned s.mem p.pagetable q hsep.tree.root_aligned hq)
              (fun hh => hap q hh hq) x hx1 hx2)
        obtain ⟨f1, _, _, f4, f5⟩ := hfr
        exact ⟨f1, u1, fun q hq hq' => hap q ((u4 q).mp hq) ((f5 q).mp hq'), f4, f5⟩
      · rw [if_neg h3] at h
        by_cases h4 : (if oldsz > PLIC then PLIC else oldsz) < (if newsz > PLIC then PLIC else newsz)
        · rw [if_pos h4] at h
          exact usermapLoop_other L cpu p _ hc PAGE_FUEL _ s s' hsep hsepk hap
            (PGROUNDUP_mod _) h
        · rw [if_neg h4] at h
          exact hsame (Option.some.inj h)

/-- C15, for a page-aligned address: when `va < p->sz <= MAXVA` is page-aligned, is not
the guard page and is not mapped, a call `page_fault_handler(p, va)` that returns 0
leaves the page `va` mapped in the user page table of `p`, and the leaf of every other
page as it was, so that no other page is mapped by the call. -/
theorem page_fault_handler_maps_page (L : Layout) (cpu : Nat) (V : VmaLayout) (E : Ext)
    (p p1 : Proc) (va : Nat) (s s' : KState) (hc : cpu < L.NCPU)
    (hva : va % PGSIZE = 0) (hlt : va < p.sz) (hsz : p.sz ≤ MAXVA)
    (hguard : va ≠ (p.ustack + (2 ^ 64 - PGSIZE)) % 2 ^ 64)
    (hun : ¬ Mapped s.mem p.pagetable va)
    (hsep : Sep L s p.pagetable) (hsepk : Sep L s p.kernel_pagetable)
    (hap : ∀ q, IsPtPage s.mem p.kernel_pagetable q → ¬ IsPtPage s.mem p.pagetable q)
    (hfz : ∀ f, IsFree L s f → refcount f s = 0)
    (h : page_fault_handler L cpu V E p va s = some (0, p1, s')) :
    Mapped s'.mem p.pagetable va ∧
    (∀ va', va' < MAXVA → va' % PGSIZE = 0 → va' ≠ va →
      pteval s'.mem p.pagetable va' = pteval s.mem p.pagetable va') ∧
    (∀ va', va' < MAXVA → va' % PGSIZE = 0 → va' ≠ va →
      (Mapped s'.mem p.pagetable va' ↔ Mapped s.mem p.pagetable va')) := by
  have hP : 0 < PGSIZE := by decide
  have hmax : va + PGSIZE ≤ MAXVA := by
    rw [MAXVA_eq] at *; unfold PGSIZE at *; omega
  have hmod : (va + PGSIZE) % 2 ^ 64 = va + PGSIZE := by
    rw [MAXVA_eq] at hmax; omega
  have hsingle : ∀ x, InRange va (va + PGSIZE) x → x = va :=
    fun x hx => (InRange_single va x hva).mp hx
  have hpre : UvmPre L p.pagetable p.kernel_pagetable va (va + PGSIZE) s :=
    ⟨hsep, hsepk, hap, hfz,
      fun x hx _ hm => absurd (hsingle x hx ▸ hm) hun,
      fun x _ hx _ _ _ hm _ _ => absurd (hsingle x hx ▸ hm) hun⟩
  unfold page_fault_handler at h
  simp only at h
  rw [if_pos ⟨Or.inl hlt, hguard⟩, hmod] at h
  have hup : PGROUNDUP va = va := by unfold PGROUNDUP PGSIZE at *; omega
  unfold uvmalloc at h
  rw [if_neg (by omega), hup] at h
  cases hu : uvmallocLoop L cpu p p.pagetable va (va + PGSIZE) PAGE_FUEL va s with
  | none => rw [hu] at h; cases h
  | some res =>
    obtain ⟨r, s1⟩ := res
    rw [hu] at h
    simp only at h
    by_cases hr : r ≠ 0
    · rw [if_pos hr, if_pos hlt] at h
      obtain ⟨_, a', ha1, ha2, ha3, hG⟩ := uvmallocLoop_ok L cpu p p.pagetable va (va + PGSIZE)
        s hc hpre PAGE_FUEL va s r s1 (Grown_init L _ _ va (va + PGSIZE) s hpre) hva
        (le_refl _) (by omega) hu hr
      have ha' : a' = va + PGSIZE := by unfold PGSIZE at *; omega
      subst ha'
      cases hpu : proc_usermapping L cpu p va (va + PGSIZE) s1 with
      | none => rw [hpu] at h; cases h
      | some s2 =>
        rw [hpu] at h
        simp only [Option.some.injEq, Prod.mk.injEq, true_and] at h
        obtain ⟨_, hs⟩ := h
        subst hs
        obtain ⟨_, _, _, o4, _⟩ := usermapping_other L cpu p va (va + PGSIZE) s1 s2 hc hG.sep
          hG.sepk hG.apart hpu
        have hpage := (hG.page va ((InRange_single va va hva).mpr rfl)).1
        have hoth : ∀ va', va' < MAXVA → va' % PGSIZE = 0 → va' ≠ va →
            pteval s2.mem p.pagetable va' = pteval s.mem p.pagetable va' := by
          intro va' hm' ha' hne
          rw [o4 va']
          exact hG.outside va' hm' (by unfold PGSIZE at *; omega)
        refine ⟨?_, hoth, ?_⟩
        · unfold Mapped at *
          rw [o4 va]
          exact hpage
        · intro va' hm' ha' hne
          unfold Mapped
          rw [hoth va' hm' ha' hne]
    · rw [if_neg hr] at h
      simp only [Option.some.injEq, Prod.mk.injEq] at h
      exact absurd h.1 (by decide)

/-- C15 fails for an address that is not page-aligned: address 1 is below `p->sz`, its
page 0 is not the guard page (page 2) and is not mapped, and `page_fault_handler`
returns 0 on it; afterwards page 0 is still not mapped, and page 1, which was not
mapped either, is. -/
theorem page_fault_handler_does_not_round :
    1 < pLazy.sz ∧ PGROUNDDOWN 1 = 0 ∧
    PGROUNDDOWN 1 ≠ (pLazy.ustack + (2 ^ 64 - PGSIZE)) % 2 ^ 64 ∧
    ¬ Mapped sLazy.mem pLazy.pagetable 0 ∧ ¬ Mapped sLazy.mem pLazy.pagetable PGSIZE ∧
    page_fault_handler L1 0 V1 E0 pLazy 1 sLazy = some (0, pLazy, sLazyOff) ∧
    ¬ Mapped sLazyOff.mem pLazy.pagetable 0 ∧ Mapped sLazyOff.mem pLazy.pagetable PGSIZE := by
  refine ⟨by decide, by decide, by decide, by unfold Mapped; decide, by unfold Mapped; decide,
    rfl, by unfold Mapped; decide, by unfold Mapped; decide⟩

theorem sLazy_free_zero (f : Nat) (h : IsFree L1 sLazy f) : refcount f sLazy = 0 := by
  obtain ⟨c, hc, hm⟩ := h
  have : c = 0 := by unfold L1 at hc; simp at hc; exact hc
  subst this
  have hf : f = 8192 ∨ f = 12288 ∨ f = 16384 ∨ f = 24576 ∨ f = 28672 ∨ f = 32768 := by
    simpa [sLazy] using hm
  rcases hf with h | h | h | h | h | h <;> (rw [h]; decide)

theorem sLazy_apart (q : Nat) (h1 : IsPtPage sLazy.mem 57344 q) :
    ¬ IsPtPage sLazy.mem 61440 q := by
  intro h2
  have a := ((PT_zero sLazy.mem 57344 (fun _ => rfl) (by decide)).2 q).mp h1
  have b := ((PT_zero sLazy.mem 61440 (fun _ => rfl) (by decide)).2 q).mp h2
  omega

/-- C15 (witness): the fault at page 0 of `pLazy` in the state `sLazy`: the handler
returns 0, page 0 is mapped afterwards and page 1 is not. -/
theorem page_fault_handler_maps_page_witness :
    page_fault_handler L1 0 V1 E0 pLazy 0 sLazy = some (0, pLazy, sLazyZero) ∧
    Mapped sLazyZero.mem pLazy.pagetable 0 ∧ ¬ Mapped sLazyZero.mem pLazy.pagetable PGSIZE := by
  have e : page_fault_handler L1 0 V1 E0 pLazy 0 sLazy = some (0, pLazy, sLazyZero) := rfl
  obtain ⟨h1, _, h3⟩ := page_fault_handler_maps_page L1 0 V1 E0 pLazy pLazy 0 sLazy sLazyZero
    (by decide) (by decide) (by decide) (by decide) (by decide) (by unfold Mapped; decide)
    (Sep_zero L1 sLazy 61440 rfl (fun _ => rfl) (by decide) (by decide) (by decide))
    (Sep_zero L1 sLazy 57344 rfl (fun _ => rfl) (by decide) (by decide) (by decide))
    sLazy_apart sLazy_free_zero e
  refine ⟨e, h1, ?_⟩
  rw [h3 PGSIZE (by decide) (by decide) (by decide)]
  unfold Mapped
  decide

theorem PGROUNDDOWN_sub (a : Nat) : a - PGROUNDDOWN a = a % PGSIZE := by
  unfold PGROUNDDOWN PGSIZE; omega

theorem PGROUNDDOWN_next (a : Nat) :
    ((PGROUNDDOWN a + PGSIZE) % 2 ^ 64) % PGSIZE = 0 ∧
    PGROUNDDOWN ((PGROUNDDOWN a + PGSIZE) % 2 ^ 64) = (PGROUNDDOWN a + PGSIZE) % 2 ^ 64 := by
  unfold PGROUNDDOWN PGSIZE; omega

/-- The bytes of the first page: they are read in the frame that the first resolution
gives. -/
theorem userByteAt_first (L : Layout) (cpu : Nat) (V : VmaLayout) (E : Ext) (pt : Nat)
    (p p1 : Proc) (s s1 : KState) (srcva k pa0 : Nat)
    (hk : srcva % PGSIZE + k < PGSIZE)
    (hr : copyinPage L cpu V E pt p (PGROUNDDOWN srcva) s = some (some pa0, p1, s1)) :
    userByteAt L cpu V E pt p s srcva k = some (readByte s1 (pa0 + (srcva % PGSIZE + k))) := by
  unfold userByteAt
  have h0 : (srcva % PGSIZE + k) / PGSIZE = 0 := Nat.div_eq_of_lt hk
  rw [h0, Nat.mod_eq_of_lt hk]
  unfold resolveSeq
  rw [hr]

/-- The bytes after the first page are the bytes from the next page on, in the state
that the first resolution leaves. -/
theorem userByteAt_next (L : Layout) (cpu : Nat) (V : VmaLayout) (E : Ext) (pt : Nat)
    (p p1 : Proc) (s s1 : KState) (srcva k pa0 : Nat)
    (hr : copyinPage L cpu V E pt p (PGROUNDDOWN srcva) s = some (some pa0, p1, s1)) :
    userByteAt L cpu V E pt p s srcva (PGSIZE - srcva % PGSIZE + k) =
      userByteAt L cpu V E pt p1 s1 ((PGROUNDDOWN srcva + PGSIZE) % 2 ^ 64) k := by
  obtain ⟨e1, e2⟩ := PGROUNDDOWN_next srcva
  unfold userByteAt
  rw [e2, e1]
  have hlt : srcva % PGSIZE < PGSIZE := Nat.mod_lt _ (by decide)
  have h1 : srcva % PGSIZE + (PGSIZE - srcva % PGSIZE + k) = k + PGSIZE := by omega
  rw [h1, Nat.add_div_right _ (by decide : 0 < PGSIZE), Nat.add_mod_right, Nat.zero_add]
  conv => lhs; unfold resolveSeq
  rw [hr]

/-- The walk-based loop of `copyin` when every page of the range resolves: it returns
0, and the destination holds, from `off` on, the `len` bytes of user memory from `srcva`
on; no other byte of it has changed. -/
theorem copyinLoop_spec (L : Layout) (cpu : Nat) (V : VmaLayout) (E : Ext) (pt : Nat) :
    ∀ fuel p dst off srcva len s, len ≤ fuel →
      (∀ k, k < len → (userByteAt L cpu V E pt p s srcva k).isSome = true) →
      ∃ dst' p' s', copyinLoop L cpu V E pt fuel p dst off srcva len s = some (0, dst', p', s') ∧
        (∀ k, off ≤ k → k < off + len →
          some (dst' k) = userByteAt L cpu V E pt p s srcva (k - off)) ∧
        (∀ k, ¬ (off ≤ k ∧ k < off + len) → dst' k = dst k) := by
  intro fuel
  induction fuel with
  | zero =>
    intro p dst off srcva len s hl _
    have : len = 0 := by omega
    subst this
    refine ⟨dst, p, s, rfl, fun k h1 h2 => by omega, fun _ _ => rfl⟩
  | succ fuel ih =>
    intro p dst off srcva len s hl hres
    unfold copyinLoop
    by_cases hlen : len > 0
    · rw [if_pos hlen]
      simp only
      have hlt : srcva % PGSIZE < PGSIZE := Nat.mod_lt _ (by decide)
      -- the first page resolves
      have h0 := hres 0 hlen
      cases hr : copyinPage L cpu V E pt p (PGROUNDDOWN srcva) s with
      | none =>
        unfold userByteAt at h0
        rw [Nat.add_zero, Nat.div_eq_of_lt hlt] at h0
        unfold resolveSeq at h0
        rw [hr] at h0
        cases h0
      | some res =>
        obtain ⟨ro, p1, s1⟩ := res
        cases ro with
        | none =>
          unfold userByteAt at h0
          rw [Nat.add_zero, Nat.div_eq_of_lt hlt] at h0
          unfold resolveSeq at h0
          rw [hr] at h0
          cases h0
        | some pa0 =>
          simp only
          rw [PGROUNDDOWN_sub]
          by_cases hn : PGSIZE - srcva % PGSIZE > len
          · -- the range ends in this page
            rw [if_pos hn, Nat.sub_self]
            obtain ⟨dst', p', s', e, _, h2⟩ := ih p1 (memmoveIn dst off (pa0 + srcva % PGSIZE) len s1)
              (off + len) ((PGROUNDDOWN srcva + PGSIZE) % 2 ^ 64) 0 s1 (Nat.zero_le _)
              (fun k hk => by omega)
            refine ⟨dst', p', s', e, ?_, ?_⟩
            · intro k hk1 hk2
              rw [h2 k (by omega), userByteAt_first L cpu V E pt p p1 s s1 srcva (k - off) pa0
                (by omega) hr]
              unfold memmoveIn
              rw [if_pos ⟨hk1, hk2⟩, Nat.add_assoc]
            · intro k hk
              rw [h2 k (by omega)]
              unfold memmoveIn
              rw [if_neg hk]
          · rw [if_neg hn]
            have hn' : PGSIZE - srcva % PGSIZE ≤ len := by omega
            obtain ⟨dst', p', s', e, h1, h2⟩ := ih p1
              (memmoveIn dst off (pa0 + srcva % PGSIZE) (PGSIZE - srcva % PGSIZE) s1)
              (off + (PGSIZE - srcva % PGSIZE)) ((PGROUNDDOWN srcva + PGSIZE) % 2 ^ 64)
              (len - (PGSIZE - srcva % PGSIZE)) s1 (by omega)
              (fun k hk => by
                rw [← userByteAt_next L cpu V E pt p p1 s s1 srcva k pa0 hr]
                exact hres _ (by omega))
            refine ⟨dst', p', s', e, ?_, ?_⟩
            · intro k hk1 hk2
              by_cases hk : k < off + (PGSIZE - srcva % PGSIZE)
              · rw [h2 k (by omega), userByteAt_first L cpu V E pt p p1 s s1 srcva (k - off) pa0
                  (by omega) hr]
                unfold memmoveIn
                rw [if_pos ⟨hk1, hk⟩, Nat.add_assoc]
              · rw [h1 k (by omega) (by omega),
                  ← userByteAt_next L cpu V E pt p p1 s s1 srcva _ pa0 hr]
                congr 1
                omega
            · intro k hk
              rw [h2 k (by omega)]
              unfold memmoveIn
              rw [if_neg (by omega)]
    · rw [if_neg hlen]
      have : len = 0 := by omega
      subst this
      exact ⟨dst, p, s, rfl, fun k h1 h2 => by omega, fun _ _ => rfl⟩

/-- A page that `walkaddr` translates needs no page fault. -/
theorem copyinPage_static (L : Layout) (cpu : Nat) (V : VmaLayout) (E : Ext) (pt : Nat)
    (p : Proc) (va0 : Nat) (s : KState) (h : walkaddr L cpu pt va0 s ≠ 0) :
    copyinPage L cpu V E pt p va0 s = some (some (walkaddr L cpu pt va0 s), p, s) := by
  unfold copyinPage
  simp only
  rw [if_neg h]

/-- When `walkaddr` translates every page from `va0` to page `j`, the pages are resolved
without a page fault and the state does not change. -/
theorem resolveSeq_static (L : Layout) (cpu : Nat) (V : VmaLayout) (E : Ext) (pt : Nat)
    (p : Proc) (s : KState) :
    ∀ j va0, va0 + j * PGSIZE < 2 ^ 64 →
      (∀ i, i ≤ j → walkaddr L cpu pt (va0 + i * PGSIZE) s ≠ 0) →
      resolveSeq L cpu V E pt j va0 p s =
        some (some (walkaddr L cpu pt (va0 + j * PGSIZE) s), p, s) := by
  intro j
  induction j with
  | zero =>
    intro va0 _ h
    unfold resolveSeq
    have := h 0 (le_refl _)
    rw [Nat.zero_mul, Nat.add_zero] at this ⊢
    exact copyinPage_static L cpu V E pt p va0 s this
  | succ j ih =>
    intro va0 hlt h
    unfold resolveSeq
    have h0 := h 0 (Nat.zero_le _)
    rw [Nat.zero_mul, Nat.add_zero] at h0
    rw [copyinPage_static L cpu V E pt p va0 s h0]
    simp only
    have e : (va0 + PGSIZE) % 2 ^ 64 = va0 + PGSIZE := by
      apply Nat.mod_eq_of_lt
      have : va0 + PGSIZE ≤ va0 + (j + 1) * PGSIZE := by
        rw [Nat.add_mul]; omega
      omega
    have e2 : va0 + PGSIZE + j * PGSIZE = va0 + (j + 1) * PGSIZE := by
      rw [Nat.add_mul]; omega
    rw [e, ih (va0 + PGSIZE) (by rw [e2]; exact hlt) (fun i hi => by
      have := h (i + 1) (by omega)
      rw [Nat.add_mul] at this
      have e3 : va0 + PGSIZE + i * PGSIZE = va0 + (i * PGSIZE + 1 * PGSIZE) := by omega
      rw [e3]; exact this), e2]

/-- The byte `k` from `srcva` on when `walkaddr` translates every page up to its page:
it is the byte at its offset in the frame of its page. -/
theorem userByteAt_static (L : Layout) (cpu : Nat) (V : VmaLayout) (E : Ext) (pt : Nat)
    (p : Proc) (s : KState) (srcva k : Nat) (h64 : srcva + k < 2 ^ 64)
    (h : ∀ va0, va0 % PGSIZE = 0 → PGROUNDDOWN srcva ≤ va0 → va0 ≤ srcva + k →
      walkaddr L cpu pt va0 s ≠ 0) :
    userByteAt L cpu V E pt p s srcva k =
      some (readByte s (walkaddr L cpu pt (PGROUNDDOWN (srcva + k)) s + (srcva + k) % PGSIZE)) := by
  have hP : 0 < PGSIZE := by decide
  have hpage : PGROUNDDOWN srcva + (srcva % PGSIZE + k) / PGSIZE * PGSIZE =
      PGROUNDDOWN (srcva + k) := by
    unfold PGROUNDDOWN PGSIZE; omega
  have hoff : (srcva % PGSIZE + k) % PGSIZE = (srcva + k) % PGSIZE := by
    unfold PGSIZE; omega
  unfold userByteAt
  rw [resolveSeq_static L cpu V E pt p s _ (PGROUNDDOWN srcva)
    (by rw [hpage]; unfold PGROUNDDOWN PGSIZE; omega)
    (fun i hi => h _ (by unfold PGROUNDDOWN PGSIZE; omega) (by omega) (by
      have : i * PGSIZE ≤ (srcva % PGSIZE + k) / PGSIZE * PGSIZE :=
        Nat.mul_le_mul_right _ hi
      have := Nat.div_mul_le_self (srcva % PGSIZE + k) PGSIZE
      unfold PGROUNDDOWN PGSIZE at *; omega)), hpage, hoff]

/-- C18: let `copyin_new(pt, dst, srcva, PLIC - srcva)` copy the bytes `ub` below `PLIC`
and return 0. For `srcva < PLIC < srcva + len` (a sum that fits 64 bits) with every page
from `PLIC` on resolving, `copyin` returns 0; the first `PLIC - srcva` bytes of `dst` are
those of `copyin_new`, the next `srcva + len - PLIC` bytes are the bytes of user memory
from `PLIC` on that the walk-based loop reads, in order, and the rest of `dst` is
unchanged: the call is the walk-based loop started at `PLIC` on the buffer that
`copyin_new` has left. For `srcva < PLIC` and `srcva + len <= PLIC` the result is that
of `copyin_new`. When `walkaddr` translates every page from `PLIC` on, these pages
resolve, and the byte of user memory at an address is the byte at its offset in the
frame of its page. -/
theorem copyin_across_PLIC (L : Layout) (cpu : Nat) (V : VmaLayout) (E : Ext) (p : Proc)
    (pt : Nat) (dst : Nat → Nat) (srcva len : Nat) (s : KState) (ub : Nat → Nat)
    (hlt : srcva < PLIC) (h64 : srcva + len < 2 ^ 64)
    (hnew : E.copyin_new p pt dst srcva (PLIC - srcva) s =
      (0, fun k => if k < PLIC - srcva then ub k else dst k)) :
    (PLIC < srcva + len →
      (∀ k, k < srcva + len - PLIC → (userByteAt L cpu V E pt p s PLIC k).isSome = true) →
      (∃ dst' p' s', copyin L cpu V E p pt dst srcva len s = some (0, dst', p', s') ∧
        (∀ k, k < PLIC - srcva → dst' k = ub k) ∧
        (∀ k, PLIC - srcva ≤ k → k < len →
          some (dst' k) = userByteAt L cpu V E pt p s PLIC (k - (PLIC - srcva))) ∧
        (∀ k, len ≤ k → dst' k = dst k)) ∧
      copyin L cpu V E p pt dst srcva len s =
        copyinLoop L cpu V E pt (len - (PLIC - srcva)) p
          (E.copyin_new p pt dst srcva (PLIC - srcva) s).2 (PLIC - srcva) PLIC
          (len - (PLIC - srcva)) s) ∧
    (srcva + len ≤ PLIC →
      copyin L cpu V E p pt dst srcva len s =
        some ((E.copyin_new p pt dst srcva len s).1, (E.copyin_new p pt dst srcva len s).2,
          p, s)) ∧
    ((∀ va0, va0 % PGSIZE = 0 → PLIC ≤ va0 → va0 < srcva + len →
        walkaddr L cpu pt va0 s ≠ 0) →
      ∀ k, k < srcva + len - PLIC →
        userByteAt L cpu V E pt p s PLIC k =
          some (readByte s (walkaddr L cpu pt (PGROUNDDOWN (PLIC + k)) s +
            (PLIC + k) % PGSIZE))) := by
  refine ⟨?_, ?_, ?_⟩
  · intro hgt hres
    have hmod : ¬ (srcva + len) % 2 ^ 64 ≤ PLIC := by
      rw [Nat.mod_eq_of_lt h64]; omega
    have hcopy : copyin L cpu V E p pt dst srcva len s =
        copyinLoop L cpu V E pt (len - (PLIC - srcva)) p
          (E.copyin_new p pt dst srcva (PLIC - srcva) s).2 (PLIC - srcva) PLIC
          (len - (PLIC - srcva)) s := by
      unfold copyin
      rw [if_pos hlt, if_neg hmod]
      simp only
      rw [if_neg (by rw [hnew]; intro hh; cases hh)]
    refine ⟨?_, hcopy⟩
    rw [hcopy, hnew]
    obtain ⟨dst', p', s', e, h1, h2⟩ := copyinLoop_spec L cpu V E pt (len - (PLIC - srcva)) p
      (fun k => if k < PLIC - srcva then ub k else dst k) (PLIC - srcva) PLIC
      (len - (PLIC - srcva)) s (le_refl _) (fun k hk => hres k (by omega))
    refine ⟨dst', p', s', e, ?_, ?_, ?_⟩
    · intro k hk
      rw [h2 k (by omega), if_pos hk]
    · intro k hk1 hk2
      exact h1 k hk1 (by omega)
    · intro k hk
      rw [h2 k (by omega), if_neg (by omega)]
  · intro hle
    unfold copyin
    rw [if_pos hlt, if_pos (by rw [Nat.mod_eq_of_lt h64]; exact hle)]
  · intro hw k hk
    exact userByteAt_static L cpu V E pt p s PLIC k (by omega)
      (fun va0 h1 h2 h3 => hw va0 h1 (by
        have : PGROUNDDOWN PLIC = PLIC := by decide
        omega) (by omega))

/-- C18 (witness): two bytes from `PLIC - 1` on in the state `sPlic`, whose page at
`PLIC` is mapped: `copyin` returns 0. -/
theorem copyin_across_PLIC_witness :
    ∃ dst' p' s', copyin L1 0 V1 E1 pEx 61440 (fun _ => 0) (PLIC - 1) 2 sPlic
        = some (0, dst', p', s') ∧
      dst' 0 = ubL1 61440 sPlic (PLIC - 1) 0 ∧
      some (dst' 1) = userByteAt L1 0 V1 E1 61440 pEx sPlic PLIC 0 := by
  obtain ⟨⟨dst', p', s', e, h1, h2, _⟩, _⟩ :=
    (copyin_across_PLIC L1 0 V1 E1 pEx 61440 (fun _ => 0) (PLIC - 1) 2 sPlic
      (ubL1 61440 sPlic (PLIC - 1)) (by decide) (by decide) rfl).1 (by decide)
      (fun k hk => by
        have : k = 0 := by
          have : PLIC - 1 + 2 - PLIC = 1 := by decide
          omega
        subst this
        rfl)
  exact ⟨dst', p', s', e, h1 0 (by decide), h2 1 (by decide) (by decide)⟩

/-- The bytes of the first page, as the walk-based loops read them. -/
theorem userRead_first (L : Layout) (cpu : Nat) (V : VmaLayout) (E : Ext) (pt : Nat)
    (p : Proc) (s : KState) (srcva k : Nat) (hk : srcva % PGSIZE + k < PGSIZE) :
    userRead L cpu V E pt p s srcva k =
      match copyinPage L cpu V E pt p (PGROUNDDOWN srcva) s with
      | none => none
      | some (none, _, _) => some none
      | some (some pa, _, s1) => some (some (readByte s1 (pa + (srcva % PGSIZE + k)))) := by
  unfold userRead
  have h0 : (srcva % PGSIZE + k) / PGSIZE = 0 := Nat.div_eq_of_lt hk
  rw [h0, Nat.mod_eq_of_lt hk]
  unfold resolveSeq
  rfl

/-- The bytes after the first page are the bytes from the next page on, in the state
that the first resolution leaves. -/
theorem userRead_next (L : Layout) (cpu : Nat) (V : VmaLayout) (E : Ext) (pt : Nat)
    (p p1 : Proc) (s s1 : KState) (srcva k pa0 : Nat)
    (hr : copyinPage L cpu V E pt p (PGROUNDDOWN srcva) s = some (some pa0, p1, s1)) :
    userRead L cpu V E pt p s srcva (PGSIZE - srcva % PGSIZE + k) =
      userRead L cpu V E pt p1 s1 ((PGROUNDDOWN srcva + PGSIZE) % 2 ^ 64) k := by
  obtain ⟨e1, e2⟩ := PGROUNDDOWN_next srcva
  unfold userRead
  rw [e2, e1]
  have hlt : srcva % PGSIZE < PGSIZE := Nat.mod_lt _ (by decide)
  have h1 : srcva % PGSIZE + (PGSIZE - srcva % PGSIZE + k) = k + PGSIZE := by omega
  rw [h1, Nat.add_div_right _ (by decide : 0 < PGSIZE), Nat.add_mod_right, Nat.zero_add]
  conv => lhs; unfold resolveSeq
  rw [hr]

/-- The scan consults the string from the byte `k` on and for `n` bytes only. -/
theorem strScan_congr (rd rd' : Nat → Option (Option Nat)) :
    ∀ n k dst, (∀ i, k ≤ i → i < k + n → rd i = rd' i) →
      strScan rd n k dst = strScan rd' n k dst := by
  intro n
  induction n with
  | zero => intro k dst _; rfl
  | succ n ih =>
    intro k dst h
    unfold strScan
    rw [h k (le_refl _) (by omega)]
    cases rd' k with
    | none => rfl
    | some o =>
      cases o with
      | none => rfl
      | some b =>
        simp only
        rw [ih (k + 1) _ (fun i h1 h2 => h i (by omega) (by omega))]

/-- The scan returns 0, -1 or 1. -/
theorem strScan_range (rd : Nat → Option (Option Nat)) :
    ∀ n k dst r dst', strScan rd n k dst = some (r, dst') → r = 0 ∨ r = -1 ∨ r = 1 := by
  intro n
  induction n with
  | zero =>
    intro k dst r dst' h
    unfold strScan at h
    simp only [Option.some.injEq, Prod.mk.injEq] at h
    omega
  | succ n ih =>
    intro k dst r dst' h
    unfold strScan at h
    cases hr : rd k with
    | none => rw [hr] at h; cases h
    | some o =>
      rw [hr] at h
      cases o with
      | none =>
        simp only [Option.some.injEq, Prod.mk.injEq] at h
        omega
      | some b =>
        simp only at h
        by_cases hb : b = 0
        · rw [if_pos hb] at h
          simp only [Option.some.injEq, Prod.mk.injEq] at h
          omega
        · rw [if_neg hb] at h
          exact ih _ _ r dst' h

theorem strScan_zero (rd : Nat → Option (Option Nat)) (k : Nat) (dst : Nat → Nat) :
    strScan rd 0 k dst = some (1, dst) := rfl

theorem strScan_succ (rd : Nat → Option (Option Nat)) (n k : Nat) (dst : Nat → Nat) :
    strScan rd (n + 1) k dst =
      match rd k with
      | none => none
      | some none => some (-1, dst)
      | some (some b) =>
        if b = 0 then some (0, fun i => if i = k then 0 else dst i)
        else strScan rd n (k + 1) (fun i => if i = k then b else dst i) := rfl

/-- A scan with the budget `a + b` is a scan with the budget `a`, followed when that
budget has run out by a scan with the budget `b`. -/
theorem strScan_split (rd : Nat → Option (Option Nat)) (b : Nat) :
    ∀ a k dst, strScan rd (a + b) k dst =
      match strScan rd a k dst with
      | none => none
      | some (r, d) => if r = 1 then strScan rd b (k + a) d else some (r, d) := by
  intro a
  induction a with
  | zero =>
    intro k dst
    rw [Nat.zero_add, strScan_zero]
    simp only [if_true, Nat.add_zero]
  | succ a ih =>
    intro k dst
    have e : a + 1 + b = (a + b) + 1 := by omega
    rw [e, strScan_succ rd (a + b) k dst, strScan_succ rd a k dst]
    cases rd k with
    | none => rfl
    | some o =>
      cases o with
      | none => rfl
      | some x =>
        simp only
        by_cases hx : x = 0
        · rw [if_pos hx, if_pos hx]
          rfl
        · rw [if_neg hx, if_neg hx, ih (k + 1)]
          have e2 : k + 1 + a = k + (a + 1) := by omega
          rw [e2]

/-- The inner loop of `copyinstr` over the `n` bytes at `q` is a scan with the budget
`n`. -/
theorem copyinstrBytes_scan (s : KState) (rd : Nat → Option (Option Nat)) :
    ∀ n q dst off max, (∀ i, i < n → rd (off + i) = some (some (readByte s (q + i)))) →
      strScan rd n off dst =
        (if (copyinstrBytes s n q dst off max).1 = true
          then some (0, (copyinstrBytes s n q dst off max).2.1)
          else some (1, (copyinstrBytes s n q dst off max).2.1)) ∧
      ((copyinstrBytes s n q dst off max).1 = false →
        (copyinstrBytes s n q dst off max).2.2.1 = off + n ∧
        (copyinstrBytes s n q dst off max).2.2.2 = max - n) := by
  intro n
  induction n with
  | zero =>
    intro q dst off max _
    unfold copyinstrBytes
    exact ⟨rfl, fun _ => ⟨rfl, rfl⟩⟩
  | succ n ih =>
    intro q dst off max h
    have h0 := h 0 (by omega)
    rw [Nat.add_zero, Nat.add_zero] at h0
    rw [strScan_succ, h0]
    unfold copyinstrBytes
    simp only
    by_cases hb : readByte s q = 0
    · rw [if_pos hb, if_pos hb]
      simp
    · rw [if_neg hb, if_neg hb]
      obtain ⟨i1, i2⟩ := ih (q + 1) (fun k => if k = off then readByte s q else dst k)
        (off + 1) (max - 1) (fun i hi => by
          have := h (i + 1) (by omega)
          have e1 : off + 1 + i = off + (i + 1) := by omega
          have e2 : q + 1 + i = q + (i + 1) := by omega
          rw [e1, e2]; exact this)
      refine ⟨i1, fun hf => ?_⟩
      obtain ⟨a, b⟩ := i2 hf
      exact ⟨by omega, by omega⟩

/-- The walk-based loop of `copyinstr` is a scan of the user string with the budget
`max`, in which a budget that has run out gives -1. -/
theorem copyinstrLoop_scan (L : Layout) (cpu : Nat) (V : VmaLayout) (E : Ext) (pt : Nat) :
    ∀ fuel p dst off srcva max s, max ≤ fuel →
      Option.map (fun r => (r.1, r.2.1)) (copyinstrLoop L cpu V E pt fuel p dst off srcva max s) =
      Option.map (fun r => ((if r.1 = 1 then -1 else r.1 : Int), r.2))
        (strScan (fun k => userRead L cpu V E pt p s srcva (k - off)) max off dst) := by
  intro fuel
  induction fuel with
  | zero =>
    intro p dst off srcva max s hm
    have : max = 0 := by omega
    subst this
    unfold copyinstrLoop
    rw [strScan_zero]
    rfl
  | succ fuel ih =>
    intro p dst off srcva max s hm
    unfold copyinstrLoop
    by_cases hmax : max > 0
    · rw [if_pos hmax]
      simp only
      have hlt : srcva % PGSIZE < PGSIZE := Nat.mod_lt _ (by decide)
      obtain ⟨m, hm1⟩ : ∃ m, max = m + 1 := ⟨max - 1, by omega⟩
      have hfirst := userRead_first L cpu V E pt p s srcva
      cases hr : copyinPage L cpu V E pt p (PGROUNDDOWN srcva) s with
      | none =>
        have h0 := hfirst 0 (by omega)
        rw [hr] at h0
        simp only at h0
        rw [hm1, strScan_succ, Nat.sub_self, h0]
        rfl
      | some res =>
        obtain ⟨ro, p1, s1⟩ := res
        cases ro with
        | none =>
          have h0 := hfirst 0 (by omega)
          rw [hr] at h0
          simp only at h0
          rw [hm1, strScan_succ, Nat.sub_self, h0]
          rfl
        | some pa0 =>
          simp only
          rw [PGROUNDDOWN_sub]
          -- the number of bytes of this page
          obtain ⟨n, hn, hn1, hn2, hn3⟩ : ∃ n, n = (if PGSIZE - srcva % PGSIZE > max then max
              else PGSIZE - srcva % PGSIZE) ∧ 0 < n ∧ n ≤ max ∧
              (n < max → n = PGSIZE - srcva % PGSIZE) ∧ srcva % PGSIZE + n ≤ PGSIZE := by
            refine ⟨_, rfl, ?_⟩
            split <;> omega
          obtain ⟨hn3, hn4⟩ := hn3
          rw [← hn]
          have hrd : ∀ i, i < n →
              (fun k => userRead L cpu V E pt p s srcva (k - off)) (off + i) =
                some (some (readByte s1 (pa0 + srcva % PGSIZE + i))) := by
            intro i hi
            simp only
            rw [Nat.add_sub_cancel_left, hfirst i (by omega), hr]
            simp only
            rw [Nat.add_assoc]
          obtain ⟨c1, c2⟩ := copyinstrBytes_scan s1
            (fun k => userRead L cpu V E pt p s srcva (k - off)) n (pa0 + srcva % PGSIZE)
            dst off max hrd
          have hsplit := strScan_split (fun k => userRead L cpu V E pt p s srcva (k - off))
            (max - n) n off dst
          rw [show n + (max - n) = max by omega, c1] at hsplit
          rw [hsplit]
          by_cases hfound : (copyinstrBytes s1 n (pa0 + srcva % PGSIZE) dst off max).1 = true
          · rw [if_pos hfound, if_pos hfound]
            rfl
          · rw [if_neg hfound, if_neg hfound]
            simp only [if_true]
            have hf : (copyinstrBytes s1 n (pa0 + srcva % PGSIZE) dst off max).1 = false := by
              cases hh : (copyinstrBytes s1 n (pa0 + srcva % PGSIZE) dst off max).1
              · rfl
              · exact absurd hh hfound
            obtain ⟨d1, d2⟩ := c2 hf
            rw [d1, d2, ih p1 _ (off + n) _ (max - n) s1 (by omega)]
            refine congrArg (Option.map _) (strScan_congr _ _ _ _ _ ?_)
            intro i hi1 hi2
            have hnn : n = PGSIZE - srcva % PGSIZE := hn3 (by omega)
            have e : i - off = PGSIZE - srcva % PGSIZE + (i - (off + n)) := by omega
            have hnx := userRead_next L cpu V E pt p p1 s s1 srcva (i - (off + n)) pa0 hr
            rw [← e] at hnx
            rw [hnx]
    · rw [if_neg hmax]
      have : max = 0 := by omega
      subst this
      rw [strScan_zero]
      rfl

/-- A scan that meets the terminator at byte `i` within its budget, after bytes that are
not 0: it returns 0, the destination holds the bytes up to byte `i`, and nothing else of
it has changed. -/
theorem strScan_found (rd : Nat → Option (Option Nat)) :
    ∀ n k dst i, k ≤ i → i < k + n → rd i = some (some 0) →
      (∀ j, k ≤ j → j < i → ∃ b, b ≠ 0 ∧ rd j = some (some b)) →
      ∃ dst', strScan rd n k dst = some (0, dst') ∧
        (∀ j, k ≤ j → j ≤ i → rd j = some (some (dst' j))) ∧
        (∀ x, x < k ∨ i < x → dst' x = dst x) := by
  intro n
  induction n with
  | zero => intro k dst i h1 h2; omega
  | succ n ih =>
    intro k dst i h1 h2 hz hnz
    rw [strScan_succ]
    by_cases hk : k = i
    · subst hk
      rw [hz]
      simp only [if_true]
      refine ⟨_, rfl, ?_, ?_⟩
      · intro j hj1 hj2
        have : j = k := by omega
        subst this
        simp [hz]
      · intro x hx
        have : x ≠ k := by omega
        simp [this]
    · obtain ⟨b, hb, hrb⟩ := hnz k (le_refl _) (by omega)
      rw [hrb]
      simp only
      rw [if_neg hb]
      obtain ⟨dst', e, g1, g2⟩ := ih (k + 1) (fun i => if i = k then b else dst i) i
        (by omega) (by omega) hz (fun j hj1 hj2 => hnz j (by omega) hj2)
      refine ⟨dst', e, ?_, ?_⟩
      · intro j hj1 hj2
        by_cases hjk : j = k
        · subst hjk
          rw [g2 j (by omega), hrb]
          simp
        · exact g1 j (by omega) hj2
      · intro x hx
        rw [g2 x (by omega)]
        have : x ≠ k := by omega
        simp [this]

/-- A scan that returns 0 has met the terminator within its budget, after bytes that
are not 0. -/
theorem strScan_zero_inv (rd : Nat → Option (Option Nat)) :
    ∀ n k dst dst', strScan rd n k dst = some (0, dst') →
      ∃ i, k ≤ i ∧ i < k + n ∧ rd i = some (some 0) ∧
        ∀ j, k ≤ j → j < i → ∃ b, b ≠ 0 ∧ rd j = some (some b) := by
  intro n
  induction n with
  | zero =>
    intro k dst dst' h
    rw [strScan_zero] at h
    simp only [Option.some.injEq, Prod.mk.injEq] at h
    omega
  | succ n ih =>
    intro k dst dst' h
    rw [strScan_succ] at h
    cases hr : rd k with
    | none => rw [hr] at h; cases h
    | some o =>
      rw [hr] at h
      cases o with
      | none =>
        simp only [Option.some.injEq, Prod.mk.injEq] at h
        omega
      | some b =>
        simp only at h
        by_cases hb : b = 0
        · subst hb
          exact ⟨k, le_refl _, by omega, hr, fun j h1 h2 => by omega⟩
        · rw [if_neg hb] at h
          obtain ⟨i, i1, i2, i3, i4⟩ := ih _ _ _ h
          refine ⟨i, by omega, by omega, i3, ?_⟩
          intro j hj1 hj2
          by_cases hjk : j = k
          · subst hjk
            exact ⟨b, hb, hr⟩
          · exact i4 j (by omega) hj2

/-- A scan that comes within its budget to a page that cannot be resolved, after bytes
that are not 0, returns -1. -/
theorem strScan_fault (rd : Nat → Option (Option Nat)) :
    ∀ n k dst i, k ≤ i → i < k + n → rd i = some none →
      (∀ j, k ≤ j → j < i → ∃ b, b ≠ 0 ∧ rd j = some (some b)) →
      ∃ dst', strScan rd n k dst = some (-1, dst') := by
  intro n
  induction n with
  | zero => intro k dst i h1 h2; omega
  | succ n ih =>
    intro k dst i h1 h2 hz hnz
    rw [strScan_succ]
    by_cases hk : k = i
    · subst hk
      rw [hz]
      exact ⟨_, rfl⟩
    · obtain ⟨b, hb, hrb⟩ := hnz k (le_refl _) (by omega)
      rw [hrb]
      simp only
      rw [if_neg hb]
      exact ih (k + 1) _ i (by omega) (by omega) hz (fun j hj1 hj2 => hnz j (by omega) hj2)

/-- A scan whose budget holds no terminator and no page that cannot be resolved
returns 1. -/
theorem strScan_budget (rd : Nat → Option (Option Nat)) :
    ∀ n k dst, (∀ j, k ≤ j → j < k + n → ∃ b, b ≠ 0 ∧ rd j = some (some b)) →
      ∃ dst', strScan rd n k dst = some (1, dst') := by
  intro n
  induction n with
  | zero => intro k dst _; exact ⟨dst, rfl⟩
  | succ n ih =>
    intro k dst hnz
    rw [strScan_succ]
    obtain ⟨b, hb, hrb⟩ := hnz k (le_refl _) (by omega)
    rw [hrb]
    simp only
    rw [if_neg hb]
    exact ih (k + 1) _ (fun j hj1 hj2 => hnz j (by omega) (by omega))

/-- Under the assumption on `copyinstr_new`, `copyinstr` is a scan of the user string
with the budget `max`, in which a budget that has run out gives -1. -/
theorem copyinstr_scan (L : Layout) (cpu : Nat) (V : VmaLayout) (E : Ext) (p : Proc)
    (pt : Nat) (dst : Nat → Nat) (srcva max : Nat) (s : KState) (ub : Nat → Option Nat)
    (h64 : srcva + max < 2 ^ 64)
    (hnew : ∀ n, n ≤ PLIC - srcva →
      strScan (fun k => some (ub k)) n 0 dst = some (E.copyinstr_new p pt dst srcva n s)) :
    Option.map (fun r => (r.1, r.2.1)) (copyinstr L cpu V E p pt dst srcva max s) =
    Option.map (fun r => ((if r.1 = 1 then -1 else r.1 : Int), r.2))
      (strScan (strRead L cpu V E pt p s ub srcva) max 0 dst) := by
  unfold copyinstr
  by_cases hlt : srcva < PLIC
  · rw [if_pos hlt]
    have hfast : ∀ n, n ≤ PLIC - srcva →
        strScan (strRead L cpu V E pt p s ub srcva) n 0 dst =
          some (E.copyinstr_new p pt dst srcva n s) := by
      intro n hn
      rw [← hnew n hn]
      apply strScan_congr
      intro i _ hi
      unfold strRead
      rw [if_pos hlt, if_pos (by omega)]
    by_cases hle : (srcva + max) % 2 ^ 64 ≤ PLIC
    · rw [if_pos hle]
      rw [Nat.mod_eq_of_lt h64] at hle
      rw [hfast max (by omega)]
      simp only
      by_cases h1 : (E.copyinstr_new p pt dst srcva max s).1 = 1
      · rw [if_pos h1]
        simp [h1]
      · rw [if_neg h1]
        simp [h1]
    · rw [if_neg hle]
      rw [Nat.mod_eq_of_lt h64] at hle
      simp only
      have hsplit := strScan_split (strRead L cpu V E pt p s ub srcva) (max - (PLIC - srcva))
        (PLIC - srcva) 0 dst
      rw [show PLIC - srcva + (max - (PLIC - srcva)) = max by omega,
        hfast (PLIC - srcva) (le_refl _)] at hsplit
      rw [hsplit]
      simp only
      have hrange := strScan_range _ _ _ _ (E.copyinstr_new p pt dst srcva (PLIC - srcva) s).1
        (E.copyinstr_new p pt dst srcva (PLIC - srcva) s).2 (hfast (PLIC - srcva) (le_refl _))
      by_cases hm : (E.copyinstr_new p pt dst srcva (PLIC - srcva) s).1 = -1
      · rw [if_pos hm, if_neg (by rw [hm]; decide)]
        simp [hm]
      · rw [if_neg hm]
        by_cases h1 : (E.copyinstr_new p pt dst srcva (PLIC - srcva) s).1 = 1
        · rw [if_pos h1, if_pos h1, Nat.zero_add,
            copyinstrLoop_scan L cpu V E pt _ p _ (PLIC - srcva) PLIC _ s (le_refl _)]
          refine congrArg (Option.map _) (strScan_congr _ _ _ _ _ ?_)
          intro i hi1 hi2
          unfold strRead
          rw [if_pos hlt, if_neg (by omega)]
        · rw [if_neg h1, if_neg h1]
          have h0 : (E.copyinstr_new p pt dst srcva (PLIC - srcva) s).1 = 0 := by
            rcases hrange with hh | hh | hh
            · exact hh
            · exact absurd hh hm
            · exact absurd hh h1
          simp [h0]
  · rw [if_neg hlt, copyinstrLoop_scan L cpu V E pt _ p _ 0 srcva _ s (le_refl _)]
    refine congrArg (Option.map _) (strScan_congr _ _ _ _ _ ?_)
    intro i _ _
    unfold strRead
    rw [if_neg hlt, Nat.sub_zero]

/-- C19: let `copyinstr_new` with a budget of `n` bytes return 0 when it has met and
copied the terminator, -1 on a fault and 1 when the budget has run out, `ub` being the
bytes it reads, and let `srcva + max` fit 64 bits. With `strRead i` the byte `i` of the
user string at `srcva` (`some none` when its page cannot be resolved), `copyinstr` returns
0 if and only if some byte `i < max` is 0 and every byte before it is read and is not 0;
`dst` then holds the bytes of the string up to and including that terminator and is
unchanged beyond it; `copyinstr` returns -1 when, before any terminator, a page within
the first `max` bytes cannot be resolved, and when the first `max` bytes are read and none
is 0 (so for `max = 0`). -/
theorem copyinstr_spec (L : Layout) (cpu : Nat) (V : VmaLayout) (E : Ext) (p : Proc)
    (pt : Nat) (dst : Nat → Nat) (srcva max : Nat) (s : KState) (ub : Nat → Option Nat)
    (h64 : srcva + max < 2 ^ 64)
    (hnew : ∀ n, n ≤ PLIC - srcva →
      strScan (fun k => some (ub k)) n 0 dst = some (E.copyinstr_new p pt dst srcva n s)) :
    ((∃ dst' p' s', copyinstr L cpu V E p pt dst srcva max s = some (0, dst', p', s')) ↔
      ∃ i, i < max ∧ strRead L cpu V E pt p s ub srcva i = some (some 0) ∧
        ∀ j, j < i → ∃ b, b ≠ 0 ∧ strRead L cpu V E pt p s ub srcva j = some (some b)) ∧
    (∀ dst' p' s', copyinstr L cpu V E p pt dst srcva max s = some (0, dst', p', s') →
      ∃ i, i < max ∧ strRead L cpu V E pt p s ub srcva i = some (some 0) ∧
        (∀ j, j < i → ∃ b, b ≠ 0 ∧ strRead L cpu V E pt p s ub srcva j = some (some b)) ∧
        (∀ j, j ≤ i → strRead L cpu V E pt p s ub srcva j = some (some (dst' j))) ∧
        ∀ x, i < x → dst' x = dst x) ∧
    (∀ i, i < max → strRead L cpu V E pt p s ub srcva i = some none →
      (∀ j, j < i → ∃ b, b ≠ 0 ∧ strRead L cpu V E pt p s ub srcva j = some (some b)) →
      ∃ dst' p' s', copyinstr L cpu V E p pt dst srcva max s = some (-1, dst', p', s')) ∧
    ((∀ j, j < max → ∃ b, b ≠ 0 ∧ strRead L cpu V E pt p s ub srcva j = some (some b)) →
      ∃ dst' p' s', copyinstr L cpu V E p pt dst srcva max s = some (-1, dst', p', s')) := by
  have hscan := copyinstr_scan L cpu V E p pt dst srcva max s ub h64 hnew
  -- from the scan to the call
  have hto : ∀ r d, strScan (strRead L cpu V E pt p s ub srcva) max 0 dst = some (r, d) →
      ∃ p' s', copyinstr L cpu V E p pt dst srcva max s =
        some ((if r = 1 then -1 else r : Int), d, p', s') := by
    intro r d hR
    rw [hR] at hscan
    cases hc : copyinstr L cpu V E p pt dst srcva max s with
    | none => rw [hc] at hscan; cases hscan
    | some res =>
      obtain ⟨c, d', p', s'⟩ := res
      rw [hc] at hscan
      simp only [Option.map_some', Option.some.injEq, Prod.mk.injEq] at hscan
      obtain ⟨e1, e2⟩ := hscan
      subst e1 e2
      exact ⟨p', s', rfl⟩
  -- from the call to the scan
  have hfrom : ∀ c d p' s', copyinstr L cpu V E p pt dst srcva max s = some (c, d, p', s') →
      ∃ r, strScan (strRead L cpu V E pt p s ub srcva) max 0 dst = some (r, d) ∧
        c = (if r = 1 then -1 else r : Int) := by
    intro c d p' s' hc
    rw [hc] at hscan
    cases hR : strScan (strRead L cpu V E pt p s ub srcva) max 0 dst with
    | none => rw [hR] at hscan; cases hscan
    | some res =>
      obtain ⟨r, d'⟩ := res
      rw [hR] at hscan
      simp only [Option.map_some', Option.some.injEq, Prod.mk.injEq] at hscan
      obtain ⟨e1, e2⟩ := hscan
      subst e2
      exact ⟨r, rfl, e1⟩
  have hzero : ∀ dst' p' s', copyinstr L cpu V E p pt dst srcva max s = some (0, dst', p', s') →
      strScan (strRead L cpu V E pt p s ub srcva) max 0 dst = some (0, dst') := by
    intro dst' p' s' hc
    obtain ⟨r, hR, hr⟩ := hfrom 0 dst' p' s' hc
    by_cases h1 : r = 1
    · rw [if_pos h1] at hr; cases hr
    · rw [if_neg h1] at hr
      rw [hR, ← hr]
  have hinv : ∀ dst' p' s', copyinstr L cpu V E p pt dst srcva max s = some (0, dst', p', s') →
      ∃ i, i < max ∧ strRead L cpu V E pt p s ub srcva i = some (some 0) ∧
        (∀ j, j < i → ∃ b, b ≠ 0 ∧ strRead L cpu V E pt p s ub srcva j = some (some b)) ∧
        (∀ j, j ≤ i → strRead L cpu V E pt p s ub srcva j = some (some (dst' j))) ∧
        ∀ x, i < x → dst' x = dst x := by
    intro dst' p' s' hc
    have hR := hzero dst' p' s' hc
    obtain ⟨i, _, i2, i3, i4⟩ := strScan_zero_inv _ _ _ _ _ hR
    obtain ⟨d2, e, g1, g2⟩ := strScan_found (strRead L cpu V E pt p s ub srcva) max 0 dst i
      (Nat.zero_le _) i2 i3 i4
    rw [hR] at e
    simp only [Option.some.injEq, Prod.mk.injEq, true_and] at e
    subst e
    exact ⟨i, by omega, i3, fun j hj => i4 j (Nat.zero_le _) hj,
      fun j hj => g1 j (Nat.zero_le _) hj, fun x hx => g2 x (Or.inr hx)⟩
  refine ⟨⟨?_, ?_⟩, hinv, ?_, ?_⟩
  · rintro ⟨dst', p', s', hc⟩
    obtain ⟨i, i1, i2, i3, _⟩ := hinv dst' p' s' hc
    exact ⟨i, i1, i2, i3⟩
  · rintro ⟨i, i1, i2, i3⟩
    obtain ⟨d2, e, _, _⟩ := strScan_found (strRead L cpu V E pt p s ub srcva) max 0 dst i
      (Nat.zero_le _) (by omega) i2 (fun j _ hj => i3 j hj)
    obtain ⟨p', s', hc⟩ := hto 0 d2 e
    exact ⟨d2, p', s', hc⟩
  · intro i i1 i2 i3
    obtain ⟨d2, e⟩ := strScan_fault (strRead L cpu V E pt p s ub srcva) max 0 dst i
      (Nat.zero_le _) (by omega) i2 (fun j _ hj => i3 j hj)
    obtain ⟨p', s', hc⟩ := hto (-1) d2 e
    exact ⟨d2, p', s', hc⟩
  · intro hnz
    obtain ⟨d2, e⟩ := strScan_budget (strRead L cpu V E pt p s ub srcva) max 0 dst
      (fun j _ hj => hnz j (by omega))
    obtain ⟨p', s', hc⟩ := hto 1 d2 e
    exact ⟨d2, p', s', hc⟩

/-- A scan of a string all of whose bytes are read returns. -/
theorem strScan_total (ub : Nat → Nat) :
    ∀ n k dst, ∃ r, strScan (fun i => some (some (ub i))) n k dst = some r := by
  intro n
  induction n with
  | zero => intro k dst; exact ⟨_, rfl⟩
  | succ n ih =>
    intro k dst
    rw [strScan_succ]
    simp only
    by_cases hb : ub k = 0
    · rw [if_pos hb]; exact ⟨_, rfl⟩
    · rw [if_neg hb]; exact ih _ _

/-- C19 (witness): the string at `PLIC` in the state `sPlic`, whose page at `PLIC` holds
zeros, with a budget of one byte: `copyinstr` returns 0. -/
theorem copyinstr_spec_witness :
    strRead L1 0 V1 E1 61440 pEx sPlic (fun k => some (ubL1 61440 sPlic PLIC k)) PLIC 0
        = some (some 0) ∧
    ∃ dst' p' s', copyinstr L1 0 V1 E1 pEx 61440 (fun _ => 7) PLIC 1 sPlic
        = some (0, dst', p', s') :=
  ⟨rfl, (copyinstr_spec L1 0 V1 E1 pEx 61440 (fun _ => 7) PLIC 1 sPlic
      (fun k => some (ubL1 61440 sPlic PLIC k)) (by decide)
      (fun n _ => by
        obtain ⟨r, hr⟩ := strScan_total (ubL1 61440 sPlic PLIC) n 0 (fun _ => 7)
        show strScan (fun k => some (some (ubL1 61440 sPlic PLIC k))) n 0 (fun _ => 7) =
          some ((strScan (fun k => some (some (ubL1 61440 sPlic PLIC k))) n 0
            (fun _ => 7)).getD (1, fun _ => 7))
        rw [hr]
        rfl)).1.mpr ⟨0, by decide, rfl, fun j hj => by omega⟩⟩

/-- The effect on the child table of a call that grows it, from a state `sA` that
differs from `s` by frames `T` taken from the free lists and by writes into the pages
of `old` and into these frames. -/
theorem ChildStep_grow (L : Layout) (old new : Nat) (T : Nat → Prop) (s sA s3 : KState)
    (hg : PtGrow L new sA s3)
    (hfree : ∀ f, IsFree L sA f → IsFree L s f)
    (hfz : ∀ f, IsFree L sA f → refcount f sA = 0)
    (hpg : ∀ q, IsPtPage sA.mem new q ↔ IsPtPage s.mem new q)
    (hold : ∀ q, IsPtPage sA.mem old q ↔ IsPtPage s.mem old q)
    (hsepo : Sep L sA old)
    (hapA : ∀ q, IsPtPage sA.mem old q → ¬ IsPtPage sA.mem new q)
    (hfr : ∀ f, IsFree L s f → IsFree L sA f ∨ T f)
    (href : ∀ g, g % PGSIZE = 0 → ¬ IsFree L s g → refcount g sA = refcount g s)
    (hkeep : ∀ g, g % PGSIZE = 0 → ¬ IsFree L s g → ¬ IsPtPage s.mem new g →
      ¬ IsPtPage s.mem old g → ∀ x, g ≤ x → x < g + PGSIZE → sA.mem x = s.mem x) :
    ChildStep L old new T s s3 := by
  have hsub : ∀ f, IsFree L s3 f → IsFree L sA f := IsFree_of_suffix L sA s3 hg.suffix
  obtain ⟨o1, _, _, _, o5, o6⟩ := PtGrow_other L new old sA s3 hg hsepo hapA
  refine ⟨hg.sep, o1, o6, fun f hf => hfree f (hsub f hf), ?_, ?_,
    fun q hq => hg.pages_mono q ((hpg q).mpr hq),
    fun q => by rw [o5 q, hold q], ?_, ?_, ?_⟩
  · intro f hf
    rw [hg.ref_free f hf]
    exact hfz f (hsub f hf)
  · intro q hq
    rcases hg.pages_new q hq with h | ⟨h1, h2⟩
    · exact Or.inl ((hpg q).mp h)
    · refine Or.inr ⟨hfree q h1, ?_⟩
      rw [hg.ref_new q h1 h2, hfz q h1]
  · intro f hf
    rcases hfr f hf with h | h
    · by_cases h3 : IsFree L s3 f
      · exact Or.inl h3
      · exact Or.inr (Or.inl (hg.alloc_is_page f h h3))
    · exact Or.inr (Or.inr h)
  · intro g hg1 hg2
    rw [PtGrow_ref L new sA s3 hg g hg1 (fun h => hg2 (hfree g h))]
    exact href g hg1 hg2
  · intro g hg1 hg2 hg3 hg4 x hx1 hx2
    rw [(hg.untouched g hg1 (fun h => hg2 (hfree g h)) (fun h => hg3 ((hpg g).mp h))).2.2.2 x
      hx1 hx2]
    exact hkeep g hg1 hg2 hg3 hg4 x hx1 hx2

/-- The call of `mappages` on the child table for one page always returns, having grown
the table; with 0 the leaf of the page holds the new entry, with another value no leaf
has changed. -/
theorem mappages_child (L : Layout) (cpu new i pa perm : Nat) (sA s3 : KState) (r : Int)
    (hc : cpu < L.NCPU) (hsn : Sep L sA new) (hi : i % PGSIZE = 0) (hmax : i < MAXVA)
    (hm : mappages L cpu new i PGSIZE pa perm sA = some (r, s3)) :
    PtGrow L new sA s3 ∧ ¬ Mapped sA.mem new i ∧
    (r = 0 → pteval s3.mem new i = PA2PTE pa ||| perm ||| PTE_V ∧
      ∀ va, va < MAXVA → va / PGSIZE ≠ i / PGSIZE →
        pteval s3.mem new va = pteval sA.mem new va) ∧
    (r ≠ 0 → ∀ va, va < MAXVA → pteval s3.mem new va = pteval sA.mem new va) := by
  have hnm : ¬ Mapped sA.mem new i := by
    intro hmp
    rw [mappages_remap L cpu new i pa perm _ hi hmax hmp] at hm
    cases hm
  obtain ⟨r', s', he, g2, hcase⟩ := mappages_page L cpu new i pa perm sA hc hsn hi hmax hnm
  rw [hm] at he
  simp only [Option.some.injEq, Prod.mk.injEq] at he
  obtain ⟨he1, he2⟩ := he
  subst he1 he2
  refine ⟨g2, hnm, ?_, ?_⟩
  · intro hr
    rcases hcase with ⟨_, c2, c3⟩ | ⟨hr', _⟩
    · exact ⟨c2, c3⟩
    · rw [hr] at hr'; cases hr'
  · intro hr
    rcases hcase with ⟨hr', _⟩ | ⟨_, c2, _⟩
    · exact absurd hr' hr
    · exact c2

/-- The effect on the child table of an iteration of `copy` on a page that becomes
copy-on-write, whatever `mappages` returns. -/
theorem ChildStep_cow (L : Layout) (cpu old new i pte v pa perm : Nat) (s s3 : KState)
    (r : Int) (hc : cpu < L.NCPU) (hso : Sep L s old) (hsn : Sep L s new)
    (hap : ∀ q, IsPtPage s.mem old q → ¬ IsPtPage s.mem new q)
    (hfz : ∀ f, IsFree L s f → refcount f s = 0)
    (hi : i % PGSIZE = 0) (hmax : i < MAXVA) (hslot : slot s.mem old i = some pte)
    (hm : mappages L cpu new i PGSIZE pa perm (s.write pte v) = some (r, s3)) :
    ChildStep L old new (fun _ => False) s s3 ∧
    (r ≠ 0 → ∀ va, va < MAXVA → pteval s3.mem new va = pteval s.mem new va) := by
  have g1 : PtGrow L old s (s.write pte v) := PtGrow_leaf_write L old i pte v s hso hslot
  obtain ⟨v1, v0, _⟩ := leaf_write_views s.mem old i pte v hso.tree hslot
  have hopg : ∀ q, IsPtPage (s.write pte v).mem old q ↔ IsPtPage s.mem old q :=
    IsPtPage_congr s.mem (s.write pte v).mem old v1 v0
  obtain ⟨n1, _, _, n4, n5, n6⟩ := PtGrow_other L old new s (s.write pte v) g1 hsn
    (fun q hq hq' => hap q hq' hq)
  obtain ⟨g2, _, _, hfail⟩ := mappages_child L cpu new i pa perm _ s3 r hc n1 hi hmax hm
  have hfl : ∀ f, IsFree L (s.write pte v) f ↔ IsFree L s f :=
    IsFree_congr L s (s.write pte v) rfl
  refine ⟨ChildStep_grow L old new _ s (s.write pte v) s3 g2 (fun f hf => (hfl f).mp hf)
    (fun f hf => hfz f ((hfl f).mp hf)) n5 hopg g1.sep (fun q hq hq' => n6 q hq' hq)
    (fun f hf => Or.inl ((hfl f).mpr hf)) (fun _ _ _ => rfl) ?_, ?_⟩
  · intro g hg1 hg2 _ hg4 x hx1 hx2
    exact (g1.untouched g hg1 hg2 hg4).2.2.2 x hx1 hx2
  · intro hr va hva
    rw [hfail hr va hva, n4 va]

/-- The effect on the child table of an iteration of `copy` on the user stack page,
whatever `mappages` returns: the frame `mem` has been taken, holds a copy of the frame
`pa` and has count 1. -/
theorem ChildStep_stack (L : Layout) (cpu old new i mem pa flags : Nat) (s s1 s3 : KState)
    (r : Int) (hc : cpu < L.NCPU) (hso : Sep L s old) (hsn : Sep L s new)
    (hap : ∀ q, IsPtPage s.mem old q → ¬ IsPtPage s.mem new q)
    (hfz : ∀ f, IsFree L s f → refcount f s = 0)
    (hi : i % PGSIZE = 0) (hmax : i < MAXVA)
    (hk : kalloc L cpu s = some (some mem, s1))
    (hm : mappages L cpu new i PGSIZE mem flags (memmovePage mem pa s1) = some (r, s3)) :
    ChildStep L old new (fun f => f = mem) s s3 ∧ IsFree L s mem ∧ ¬ IsFree L s3 mem ∧
    ¬ IsPtPage s3.mem new mem ∧ refcount mem s3 = 1 ∧
    (∀ x, mem ≤ x → x < mem + PGSIZE → s3.mem x = s1.mem (pa + (x - mem))) ∧
    (∀ x, ¬ (mem ≤ x ∧ x < mem + PGSIZE) → s1.mem x = s.mem x) ∧
    (r = 0 → pteval s3.mem new i = PA2PTE mem ||| flags ||| PTE_V ∧
      ∀ va, va < MAXVA → va / PGSIZE ≠ i / PGSIZE →
        pteval s3.mem new va = pteval s.mem new va) ∧
    (r ≠ 0 → ∀ va, va < MAXVA → pteval s3.mem new va = pteval s.mem new va) := by
  have hp := kalloc_some L cpu s s1 mem hc hso.free hk
  have hma := hso.free.aligned mem hp.was_free
  obtain ⟨a1, _, _, a4, a5⟩ := Sep_popped L s s1 old mem hso hp
  obtain ⟨b1, _, _, b4, b5⟩ := Sep_popped L s s1 new mem hsn hp
  have hout : ∀ x, ¬ (mem ≤ x ∧ x < mem + PGSIZE) →
      (memmovePage mem pa s1).mem x = s1.mem x := by
    intro x hx
    unfold memmovePage
    simp only
    rw [if_neg hx]
  have hin : ∀ x, mem ≤ x → x < mem + PGSIZE →
      (memmovePage mem pa s1).mem x = s1.mem (pa + (x - mem)) := by
    intro x hx1 hx2
    unfold memmovePage
    simp only
    rw [if_pos ⟨hx1, hx2⟩]
  have hs1 : ∀ x, ¬ (mem ≤ x ∧ x < mem + PGSIZE) → s1.mem x = s.mem x := by
    intro x hx
    rw [hp.mem_eq, if_neg hx]
  obtain ⟨c1, _, _, c4, c5⟩ := Sep_page_write L s1 (memmovePage mem pa s1) old mem a1 hma
    (fun h => hso.apart mem hp.was_free ((a5 mem).mp h)) rfl hout
  obtain ⟨d1, _, _, d4, d5⟩ := Sep_page_write L s1 (memmovePage mem pa s1) new mem b1 hma
    (fun h => hsn.apart mem hp.was_free ((b5 mem).mp h)) rfl hout
  obtain ⟨g2, _, hok, hfail⟩ := mappages_child L cpu new i mem flags _ s3 r hc d1 hi hmax hm
  have hfl : ∀ f, IsFree L (memmovePage mem pa s1) f ↔ IsFree L s f ∧ f ≠ mem :=
    fun f => hp.free_iff f
  have hrefA : ∀ g, g % PGSIZE = 0 → g ≠ mem →
      refcount g (memmovePage mem pa s1) = refcount g s := by
    intro g hg hne
    show s1.ref (g / PGSIZE) = s.ref (g / PGSIZE)
    rw [hp.ref_eq, if_neg (frame_ne g mem hg hma hne)]
  have hnfA : ¬ IsFree L (memmovePage mem pa s1) mem := fun h => ((hfl mem).mp h).2 rfl
  have hnpA : ¬ IsPtPage (memmovePage mem pa s1).mem new mem :=
    fun h => hsn.apart mem hp.was_free ((b5 mem).mp ((d5 mem).mp h))
  obtain ⟨u1, u2, u3, u4⟩ := g2.untouched mem hma hnfA hnpA
  refine ⟨ChildStep_grow L old new _ s (memmovePage mem pa s1) s3 g2
    (fun f hf => ((hfl f).mp hf).1) ?_ (fun q => by rw [d5 q, b5 q])
    (fun q => by rw [c5 q, a5 q]) c1 ?_ ?_ ?_ ?_, hp.was_free, u1, u2, ?_, ?_, hs1, ?_, ?_⟩
  · intro f hf
    obtain ⟨hf1, hf2⟩ := (hfl f).mp hf
    rw [hrefA f (hso.free.aligned f hf1) hf2]
    exact hfz f hf1
  · intro q hq hq'
    exact hap q ((a5 q).mp ((c5 q).mp hq)) ((b5 q).mp ((d5 q).mp hq'))
  · intro f hf
    by_cases hfm : f = mem
    · exact Or.inr hfm
    · exact Or.inl ((hfl f).mpr ⟨hf, hfm⟩)
  · intro g hg1 hg2
    exact hrefA g hg1 (fun h => hg2 (h ▸ hp.was_free))
  · intro g hg1 hg2 _ _ x hx1 hx2
    have hne : g ≠ mem := fun h => hg2 (h ▸ hp.was_free)
    have hx : ¬ (mem ≤ x ∧ x < mem + PGSIZE) := by
      unfold PGSIZE at *; omega
    rw [hout x hx, hs1 x hx]
  · rw [u3]
    show s1.ref (mem / PGSIZE) = 1
    rw [hp.ref_eq, if_pos rfl]
    have := hfz mem hp.was_free
    unfold refcount at this
    rw [this]
  · intro x hx1 hx2
    rw [u4 x hx1 hx2, hin x hx1 hx2]
  · intro hr
    obtain ⟨e1, e2⟩ := hok hr
    exact ⟨e1, fun va hva hne => by rw [e2 va hva hne, d4 va, b4 va]⟩
  · intro hr va hva
    rw [hfail hr va hva, d4 va, b4 va]

/-- The effect on the child table of an iteration of `copy` on the user stack page in
which `mappages` fails and the frame `mem` is freed again. -/
theorem ChildStep_stack_fail (L : Layout) (old new mem : Nat) (s s3 s4 : KState)
    (hN : 0 < L.NCPU) (hso : Sep L s old)
    (hcs : ChildStep L old new (fun f => f = mem) s s3) (hmf : IsFree L s mem)
    (hnf : ¬ IsFree L s3 mem) (hnp : ¬ IsPtPage s3.mem new mem) (hr1 : refcount mem s3 = 1)
    (hleaf : ∀ va, va < MAXVA → pteval s3.mem new va = pteval s.mem new va)
    (hkf : kfree L mem s3 = some s4) :
    ChildStep L old new (fun _ => False) s s4 ∧
    (∀ va, va < MAXVA → pteval s4.mem new va = pteval s.mem new va) := by
  have hma := hso.free.aligned mem hmf
  obtain ⟨k1, _, k3, k4, k5⟩ := kfree_effect L hN mem s3 s4 hcs.sep.free (hso.free.lt mem hmf)
    hnf hkf
  have hr0 : refcount mem s4 = 0 := by rw [k4, hr1]
  have hmem : ∀ q, q % PGSIZE = 0 → q ≠ mem → ∀ x, q ≤ x → x < q + PGSIZE →
      s4.mem x = s3.mem x := by
    intro q hq hne x hx1 hx2
    exact kfree_mem L mem s3 s4 hkf x (by unfold PGSIZE at *; omega)
  have hnpo : ¬ IsPtPage s3.mem old mem :=
    fun h => hso.apart mem hmf ((hcs.old_pages mem).mp h)
  obtain ⟨n1, _, _, n4, n5⟩ := Sep_frame L s3 s4 new hcs.sep k1
    (fun f hf => by
      rcases (k3 f).mp hf with h | ⟨h, _⟩
      · exact hcs.sep.apart f h
      · rw [h]; exact hnp)
    (fun q hq x hx1 hx2 =>
      hmem q (IsPtPage_aligned s3.mem new q hcs.sep.tree.root_aligned hq)
        (fun h => hnp (h ▸ hq)) x hx1 hx2)
  obtain ⟨o1, _, _, _, o5⟩ := Sep_frame L s3 s4 old hcs.sep_old k1
    (fun f hf => by
      rcases (k3 f).mp hf with h | ⟨h, _⟩
      · exact hcs.sep_old.apart f h
      · rw [h]; exact hnpo)
    (fun q hq x hx1 hx2 =>
      hmem q (IsPtPage_aligned s3.mem old q hcs.sep_old.tree.root_aligned hq)
        (fun h => hnpo (h ▸ hq)) x hx1 hx2)
  refine ⟨⟨n1, o1, fun q hq hq' => hcs.apart q ((o5 q).mp hq) ((n5 q).mp hq'), ?_, ?_, ?_,
    fun q hq => (n5 q).mpr (hcs.pages_mono q hq), fun q => by rw [o5 q, hcs.old_pages q],
    ?_, ?_, ?_⟩, fun va hva => by rw [n4 va, hleaf va hva]⟩
  · intro f hf
    rcases (k3 f).mp hf with h | ⟨h, _⟩
    · exact hcs.free_sub f h
    · rw [h]; exact hmf
  · intro f hf
    by_cases hfm : f = mem
    · rw [hfm]; exact hr0
    · rcases (k3 f).mp hf with h | ⟨h, _⟩
      · rw [k5 f (hcs.sep.free.aligned f h) hfm]
        exact hcs.free_zero f h
      · exact absurd h hfm
  · intro q hq
    have hq3 := (n5 q).mp hq
    rcases hcs.pages q hq3 with h | ⟨h1, h2⟩
    · exact Or.inl h
    · refine Or.inr ⟨h1, ?_⟩
      rw [k5 q (IsPtPage_aligned s3.mem new q hcs.sep.tree.root_aligned hq3)
        (fun h => hnp (h ▸ hq3))]
      exact h2
  · intro f hf
    rcases hcs.frames f hf with h | h | h
    · exact Or.inl ((k3 f).mpr (Or.inl h))
    · exact Or.inr (Or.inl ((n5 f).mpr h))
    · exact Or.inl ((k3 f).mpr (Or.inr ⟨h, hr0⟩))
  · intro g hg1 hg2
    rw [k5 g hg1 (fun h => hg2 (h ▸ hmf))]
    exact hcs.ref g hg1 hg2
  · intro g hg1 hg2 hg3 hg4 x hx1 hx2
    rw [hmem g hg1 (fun h => hg2 (h ▸ hmf)) x hx1 hx2]
    exact hcs.keep g hg1 hg2 hg3 hg4 x hx1 hx2

/-- The child table before `copy` has done any page. -/
theorem Child_init (L : Layout) (u old new : Nat) (s : KState) (hsn : Sep L s new)
    (hfz : ∀ f, IsFree L s f → refcount f s = 0) : Child L u old new 0 s s := by
  have hno : ∀ va, ¬ InRange 0 0 va := by
    intro va h; unfold InRange at h; omega
  exact ⟨hsn, fun _ h => h, hfz, fun _ h => Or.inl h, fun _ h => h, fun _ => Iff.rfl,
    fun va h => absurd h (hno va), fun h => absurd h (hno u), fun _ _ _ _ => rfl,
    fun va h => absurd h (hno va), fun _ _ _ _ => rfl, fun _ h => Or.inl h,
    fun _ _ _ _ _ _ _ _ => rfl⟩

/-- The child table when `copy` passes over a page that is not valid in `old`. -/
theorem Child_skip (L : Layout) (u old new i : Nat) (s0 s : KState)
    (hC : Child L u old new i s0 s) (hi : i % PGSIZE = 0)
    (hnm : ¬ Mapped s0.mem old i) : Child L u old new (i + PGSIZE) s0 s := by
  have hlt : ∀ va, InRange 0 (i + PGSIZE) va → va ≠ i → InRange 0 i va := by
    intro va h hne
    unfold InRange PGSIZE at *
    omega
  have hne : ∀ va, InRange 0 (i + PGSIZE) va → Mapped s0.mem old va → va ≠ i :=
    fun va _ hm h => hnm (h ▸ hm)
  refine ⟨hC.sep, hC.free_sub, hC.free_zero, hC.pages, hC.pages_mono, hC.old_pages, ?_, ?_, ?_,
    ?_, ?_, ?_, hC.keep⟩
  · intro va hin hm hu
    exact hC.cow va (hlt va hin (hne va hin hm)) hm hu
  · intro hin hm
    exact hC.stack (hlt u hin (hne u hin hm)) hm
  · intro va hva hmax h
    by_cases hvi : va = i
    · rw [hvi]
      exact hC.rest i hi (hvi ▸ hmax) (Or.inl (le_refl _))
    · rcases h with h | h
      · exact hC.rest va hva hmax (Or.inl (by omega))
      · exact hC.rest va hva hmax (Or.inr h)
  · intro va hin hm hu
    exact hC.ref_cow va (hlt va hin (hne va hin hm)) hm hu
  · intro f hf hnf h
    exact hC.ref_rest f hf hnf (fun va hin hm hu =>
      h va (by unfold InRange at *; omega) hm hu)
  · intro f hf
    rcases hC.frames f hf with h | h | ⟨h1, h2, h3⟩
    · exact Or.inl h
    · exact Or.inr (Or.inl h)
    · exact Or.inr (Or.inr ⟨by unfold InRange at *; omega, h2, h3⟩)

/-- The child table after an iteration of `copy` that leaves its leaves alone. -/
theorem Child_same (L : Layout) (u old new i : Nat) (s0 s s3 : KState)
    (hC : Child L u old new i s0 s) (hcs : ChildStep L old new (fun _ => False) s s3)
    (hleaf : ∀ va, va < MAXVA → pteval s3.mem new va = pteval s.mem new va)
    (hle : i ≤ MAXVA) :
    Child L u old new i s0 s3 := by
  have hnf : ∀ g, ¬ IsFree L s0 g → ¬ IsFree L s g := fun g h h' => h (hC.free_sub g h')
  have hin : ∀ va, InRange 0 i va → va < MAXVA := by
    intro va h; unfold InRange at h; omega
  have hnp : ∀ g, ¬ IsFree L s0 g → ¬ IsPtPage s0.mem new g → ¬ IsPtPage s.mem new g := by
    intro g h1 h2 h
    rcases hC.pages g h with h' | ⟨h', _⟩
    · exact h2 h'
    · exact h1 h'
  refine ⟨hcs.sep, fun f hf => hC.free_sub f (hcs.free_sub f hf), hcs.free_zero, ?_,
    fun q hq => hcs.pages_mono q (hC.pages_mono q hq),
    fun q => by rw [hcs.old_pages q, hC.old_pages q], ?_, ?_, ?_, ?_, ?_, ?_, ?_⟩
  · intro q hq
    rcases hcs.pages q hq with h | ⟨h1, h2⟩
    · rcases hC.pages q h with h' | ⟨h1', h2'⟩
      · exact Or.inl h'
      · refine Or.inr ⟨h1', ?_⟩
        rw [hcs.ref q (IsPtPage_aligned s.mem new q hC.sep.tree.root_aligned h)
          (fun hh => hC.sep.apart q hh h)]
        exact h2'
    · exact Or.inr ⟨hC.free_sub q h1, h2⟩
  · intro va hi hm hne
    rw [hleaf va (hin va hi)]
    exact hC.cow va hi hm hne
  · intro hi hm
    obtain ⟨a1, a2, a3, a4, a5⟩ := hC.stack hi hm
    have hpv := hleaf u (hin u hi)
    have hfo : frameOf s3.mem new u = frameOf s.mem new u := frameOf_congr _ _ new u hpv
    rw [hfo]
    refine ⟨?_, a2, fun h => a3 (hcs.free_sub _ h), ?_, ?_⟩
    · unfold Mapped at *
      rw [hpv]; exact a1
    · rw [hcs.ref _ (frameOf_aligned _ _ _) a3]
      exact a4
    · intro h
      rcases hcs.pages _ h with h' | ⟨h', _⟩
      · exact a5 h'
      · exact a3 h'
  · intro va hva hmax h
    rw [hleaf va hmax]
    exact hC.rest va hva hmax h
  · intro va hi hm hne
    have hr := hC.ref_cow va hi hm hne
    have hnfree : ¬ IsFree L s (frameOf s0.mem old va) := by
      intro h
      have := hC.free_zero _ h
      omega
    rw [hcs.ref _ (frameOf_aligned _ _ _) hnfree]
    exact hr
  · intro f hf hnf0 h
    rw [hcs.ref f hf (hnf f hnf0)]
    exact hC.ref_rest f hf hnf0 h
  · intro f hf
    rcases hC.frames f hf with h | h | ⟨h1, h2, h3⟩
    · rcases hcs.frames f h with h' | h' | h'
      · exact Or.inl h'
      · exact Or.inr (Or.inl h')
      · exact absurd h' (fun x => x)
    · exact Or.inr (Or.inl (hcs.pages_mono f h))
    · refine Or.inr (Or.inr ⟨h1, h2, ?_⟩)
      rw [h3]
      exact (frameOf_congr _ _ new u (hleaf u (hin u h1))).symm
  · intro g hg1 hg2 hg3 hg4 x hx1 hx2
    rw [hcs.keep g hg1 (hnf g hg2) (hnp g hg2 hg3) (fun h => hg4 ((hC.old_pages g).mp h)) x
      hx1 hx2]
    exact hC.keep g hg1 hg2 hg3 hg4 x hx1 hx2

/-- The child table after an iteration of `copy` on a page that has become
copy-on-write. -/
theorem Child_cow (L : Layout) (u old new i sz : Nat) (s0 s s3 : KState)
    (hpre : CopyPre L u old sz s0) (hlt : i < sz) (hM : Mapped s0.mem old i) (hu : i ≠ u)
    (hC : Child L u old new i s0 s) (hi : i % PGSIZE = 0) (hmax : i < MAXVA)
    (hcs : ChildStep L old new (fun _ => False) s s3)
    (hleaf : pteval s3.mem new i =
      PA2PTE (frameOf s0.mem old i) ||| COW_FLAGS (pteval s0.mem old i))
    (hoth : ∀ va, va < MAXVA → va / PGSIZE ≠ i / PGSIZE →
      pteval s3.mem new va = pteval s.mem new va) :
    Child L u old new (i + PGSIZE) s0 (inc_refcount (frameOf s0.mem old i) s3) := by
  have hP : 0 < PGSIZE := by decide
  have hini : InRange 0 sz i := by unfold InRange; omega
  have hpa0 : ¬ IsFree L s0 (frameOf s0.mem old i) := hpre.alloc i hini hM hu
  have hpaa := frameOf_aligned s0.mem old i
  have hnf : ∀ g, ¬ IsFree L s0 g → ¬ IsFree L s g := fun g h h' => h (hC.free_sub g h')
  have hnf3 : ∀ g, ¬ IsFree L s0 g → ¬ IsFree L s3 g :=
    fun g h h' => hnf g h (hcs.free_sub g h')
  have hfl : ∀ f, IsFree L (inc_refcount (frameOf s0.mem old i) s3) f ↔ IsFree L s3 f :=
    IsFree_congr L s3 _ rfl
  have hrefo : ∀ g, g % PGSIZE = 0 → g ≠ frameOf s0.mem old i →
      refcount g (inc_refcount (frameOf s0.mem old i) s3) = refcount g s3 := by
    intro g hg hne
    exact ref_inc_other _ g s3 (frame_ne g _ hg hpaa hne)
  have hin : ∀ va, InRange 0 (i + PGSIZE) va → va < MAXVA := by
    intro va h; unfold InRange PGSIZE at *; omega
  have hlt' : ∀ va, InRange 0 (i + PGSIZE) va → va ≠ i → InRange 0 i va := by
    intro va h hne
    unfold InRange PGSIZE at *
    omega
  have hsub : ∀ va, InRange 0 i va → InRange 0 sz va := by
    intro va h; unfold InRange at *; omega
  have hpage : ∀ va, va % PGSIZE = 0 → va ≠ i → va / PGSIZE ≠ i / PGSIZE :=
    fun va hva hne => page_ne_of_lt va i hva hi hne
  have hdist : ∀ va, InRange 0 i va → Mapped s0.mem old va → va ≠ u →
      frameOf s0.mem old va ≠ frameOf s0.mem old i := by
    intro va hv hm hne hh
    have := hpre.distinct va i (hsub va hv) hini hm hM hne hu hh
    unfold InRange at hv; omega
  have hnp : ∀ g, ¬ IsFree L s0 g → ¬ IsPtPage s0.mem new g → ¬ IsPtPage s.mem new g := by
    intro g h1 h2 h
    rcases hC.pages g h with h' | ⟨h', _⟩
    · exact h2 h'
    · exact h1 h'
  have hsep : Sep L (inc_refcount (frameOf s0.mem old i) s3) new :=
    Sep_ref L s3 _ new rfl rfl hcs.sep
  refine ⟨hsep, fun f hf => hC.free_sub f (hcs.free_sub f ((hfl f).mp hf)), ?_, ?_,
    fun q hq => hcs.pages_mono q (hC.pages_mono q hq),
    fun q => by
      show IsPtPage s3.mem old q ↔ _
      rw [hcs.old_pages q, hC.old_pages q], ?_, ?_, ?_, ?_, ?_, ?_, ?_⟩
  · intro f hf
    have hf3 := (hfl f).mp hf
    rw [hrefo f (hcs.sep.free.aligned f hf3) (fun h => hnf3 _ hpa0 (h ▸ hf3))]
    exact hcs.free_zero f hf3
  · intro q hq
    have hq3 : IsPtPage s3.mem new q := hq
    have hqa := IsPtPage_aligned s3.mem new q hcs.sep.tree.root_aligned hq3
    rcases hcs.pages q hq3 with h | ⟨h1, h2⟩
    · rcases hC.pages q h with h' | ⟨h1', h2'⟩
      · exact Or.inl h'
      · refine Or.inr ⟨h1', ?_⟩
        rw [hrefo q hqa (fun hh => hpa0 (hh ▸ h1')),
          hcs.ref q hqa (fun hh => hC.sep.apart q hh h)]
        exact h2'
    · refine Or.inr ⟨hC.free_sub q h1, ?_⟩
      rw [hrefo q hqa (fun hh => hpa0 (hh ▸ hC.free_sub q h1))]
      exact h2
  · intro va hv hm hne
    show pteval s3.mem new va = _
    by_cases hvi : va = i
    · rw [hvi]; exact hleaf
    · rw [hoth va (hin va hv) (hpage va hv.2.2 hvi)]
      exact hC.cow va (hlt' va hv hvi) hm hne
  · intro hv hm
    have hui : InRange 0 i u := hlt' u hv (fun h => hu h.symm)
    obtain ⟨a1, a2, a3, a4, a5⟩ := hC.stack hui hm
    have hpv : pteval s3.mem new u = pteval s.mem new u :=
      hoth u (hin u hv) (hpage u hv.2.2 (fun h => hu h.symm))
    have hfo : frameOf (inc_refcount (frameOf s0.mem old i) s3).mem new u =
        frameOf s.mem new u := frameOf_congr _ _ new u hpv
    rw [hfo]
    refine ⟨?_, a2, fun h => a3 (hcs.free_sub _ ((hfl _).mp h)), ?_, ?_⟩
    · show pteval s3.mem new u &&& PTE_V ≠ 0
      rw [hpv]; exact a1
    · rw [hrefo _ (frameOf_aligned _ _ _) (fun hh => hpa0 (hh ▸ a2)),
        hcs.ref _ (frameOf_aligned _ _ _) a3]
      exact a4
    · intro h
      rcases hcs.pages _ h with h' | ⟨h', _⟩
      · exact a5 h'
      · exact a3 h'
  · intro va hva hvm h
    show pteval s3.mem new va = _
    have hvi : va ≠ i := by
      intro hh
      rcases h with h | h
      · omega
      · exact h (hh ▸ hM)
    rw [hoth va hvm (hpage va hva hvi)]
    rcases h with h | h
    · exact hC.rest va hva hvm (Or.inl (by omega))
    · exact hC.rest va hva hvm (Or.inr h)
  · intro va hv hm hne
    by_cases hvi : va = i
    · rw [hvi, refcount_inc_same, hcs.ref _ hpaa (hnf _ hpa0),
        hC.ref_rest _ hpaa hpa0 (fun va' hv' hm' hne' => hdist va' hv' hm' hne')]
      have := hpre.room i hini hM hu
      omega
    · have hvi' := hlt' va hv hvi
      have hr := hC.ref_cow va hvi' hm hne
      have hnfree : ¬ IsFree L s (frameOf s0.mem old va) := by
        intro h
        have := hC.free_zero _ h
        omega
      rw [hrefo _ (frameOf_aligned _ _ _) (hdist va hvi' hm hne),
        hcs.ref _ (frameOf_aligned _ _ _) hnfree]
      exact hr
  · intro f hf hnf0 h
    have hne : f ≠ frameOf s0.mem old i :=
      fun hh => h i (by unfold InRange; omega) hM hu hh.symm
    rw [hrefo f hf hne, hcs.ref f hf (hnf f hnf0)]
    exact hC.ref_rest f hf hnf0 (fun va hv hm hne' =>
      h va (by unfold InRange at *; omega) hm hne')
  · intro f hf
    rcases hC.frames f hf with h | h | ⟨h1, h2, h3⟩
    · rcases hcs.frames f h with h' | h' | h'
      · exact Or.inl ((hfl f).mpr h')
      · exact Or.inr (Or.inl h')
      · exact absurd h' (fun x => x)
    · exact Or.inr (Or.inl (hcs.pages_mono f h))
    · refine Or.inr (Or.inr ⟨by unfold InRange at *; omega, h2, ?_⟩)
      rw [h3]
      exact (frameOf_congr _ _ new u (hoth u (by unfold InRange at h1; omega)
        (hpage u h1.2.2 (fun hh => hu hh.symm)))).symm
  · intro g hg1 hg2 hg3 hg4 x hx1 hx2
    show s3.mem x = _
    rw [hcs.keep g hg1 (hnf g hg2) (hnp g hg2 hg3) (fun h => hg4 ((hC.old_pages g).mp h)) x
      hx1 hx2]
    exact hC.keep g hg1 hg2 hg3 hg4 x hx1 hx2

/-- The child table after the iteration of `copy` on the user stack page. -/
theorem Child_stack (L : Layout) (u old new mem flags : Nat) (s0 s s3 : KState)
    (hM : Mapped s0.mem old u)
    (hC : Child L u old new u s0 s) (hi : u % PGSIZE = 0) (hmax : u < MAXVA)
    (hcs : ChildStep L old new (fun f => f = mem) s s3) (hmf : IsFree L s mem)
    (hnf3 : ¬ IsFree L s3 mem) (hnp3 : ¬ IsPtPage s3.mem new mem) (hr1 : refcount mem s3 = 1)
    (hflags : flags < 1024)
    (hleaf : pteval s3.mem new u = PA2PTE mem ||| flags ||| PTE_V)
    (hoth : ∀ va, va < MAXVA → va / PGSIZE ≠ u / PGSIZE →
      pteval s3.mem new va = pteval s.mem new va) :
    Child L u old new (u + PGSIZE) s0 s3 := by
  have hP : 0 < PGSIZE := by decide
  have hma := hC.sep.free.aligned mem hmf
  have hm64 := hC.sep.free.lt mem hmf
  have hfo : frameOf s3.mem new u = mem := by
    unfold frameOf; rw [hleaf]; exact leaf_pa mem flags hma hm64 hflags
  have hnf : ∀ g, ¬ IsFree L s0 g → ¬ IsFree L s g := fun g h h' => h (hC.free_sub g h')
  have hin : ∀ va, InRange 0 (u + PGSIZE) va → va < MAXVA := by
    intro va h; unfold InRange PGSIZE at *; omega
  have hlt' : ∀ va, InRange 0 (u + PGSIZE) va → va ≠ u → InRange 0 u va := by
    intro va h hne
    unfold InRange PGSIZE at *
    omega
  have hpage : ∀ va, va % PGSIZE = 0 → va ≠ u → va / PGSIZE ≠ u / PGSIZE :=
    fun va hva hne => page_ne_of_lt va u hva hi hne
  have hnp : ∀ g, ¬ IsFree L s0 g → ¬ IsPtPage s0.mem new g → ¬ IsPtPage s.mem new g := by
    intro g h1 h2 h
    rcases hC.pages g h with h' | ⟨h', _⟩
    · exact h2 h'
    · exact h1 h'
  have hnu : ¬ InRange 0 u u := by
    intro h; unfold InRange at h; omega
  refine ⟨hcs.sep, fun f hf => hC.free_sub f (hcs.free_sub f hf), hcs.free_zero, ?_,
    fun q hq => hcs.pages_mono q (hC.pages_mono q hq),
    fun q => by rw [hcs.old_pages q, hC.old_pages q], ?_, ?_, ?_, ?_, ?_, ?_, ?_⟩
  · intro q hq
    rcases hcs.pages q hq with h | ⟨h1, h2⟩
    · rcases hC.pages q h with h' | ⟨h1', h2'⟩
      · exact Or.inl h'
      · refine Or.inr ⟨h1', ?_⟩
        rw [hcs.ref q (IsPtPage_aligned s.mem new q hC.sep.tree.root_aligned h)
          (fun hh => hC.sep.apart q hh h)]
        exact h2'
    · exact Or.inr ⟨hC.free_sub q h1, h2⟩
  · intro va hv hm hne
    rw [hoth va (hin va hv) (hpage va hv.2.2 hne)]
    exact hC.cow va (hlt' va hv hne) hm hne
  · intro _ _
    rw [hfo]
    refine ⟨?_, hC.free_sub mem hmf, hnf3, hr1, hnp3⟩
    unfold Mapped
    rw [hleaf]
    exact leaf_valid mem flags
  · intro va hva hvm h
    have hvi : va ≠ u := by
      intro hh
      rcases h with h | h
      · omega
      · exact h (hh ▸ hM)
    rw [hoth va hvm (hpage va hva hvi)]
    rcases h with h | h
    · exact hC.rest va hva hvm (Or.inl (by omega))
    · exact hC.rest va hva hvm (Or.inr h)
  · intro va hv hm hne
    have hr := hC.ref_cow va (hlt' va hv hne) hm hne
    have hnfree : ¬ IsFree L s (frameOf s0.mem old va) := by
      intro h
      have := hC.free_zero _ h
      omega
    rw [hcs.ref _ (frameOf_aligned _ _ _) hnfree]
    exact hr
  · intro f hf hnf0 h
    rw [hcs.ref f hf (hnf f hnf0)]
    exact hC.ref_rest f hf hnf0 (fun va hv hm hne' =>
      h va (by unfold InRange at *; omega) hm hne')
  · intro f hf
    have hself : InRange 0 (u + PGSIZE) u := by unfold InRange; omega
    rcases hC.frames f hf with h | h | ⟨h1, _, _⟩
    · rcases hcs.frames f h with h' | h' | h'
      · exact Or.inl h'
      · exact Or.inr (Or.inl h')
      · exact Or.inr (Or.inr ⟨hself, hM, by rw [hfo]; exact h'⟩)
    · exact Or.inr (Or.inl (hcs.pages_mono f h))
    · exact absurd h1 hnu
  · intro g hg1 hg2 hg3 hg4 x hx1 hx2
    rw [hcs.keep g hg1 (hnf g hg2) (hnp g hg2 hg3) (fun h => hg4 ((hC.old_pages g).mp h)) x
      hx1 hx2]
    exact hC.keep g hg1 hg2 hg3 hg4 x hx1 hx2

/-- The loop of `copy`, when it returns: either it returns 0 and the invariants hold up
to the end of the range, or it has left the loop at a page `i_f` of the range, through
the label `err`, in a state `s_f` in which the child table is as the pages below `i_f`
made it. -/
theorem copyLoop_child (L : Layout) (cpu : Nat) (p : Proc) (old new sz : Nat) (s0 : KState)
    (hc : cpu < L.NCPU) (hpre : CopyPre L p.ustack old sz s0) :
    ∀ fuel i s r s', Copied L p.ustack old new i s0 s → Child L p.ustack old new i s0 s →
      i % PGSIZE = 0 → i ≤ MAXVA → i < sz + PGSIZE →
      copyLoop L cpu p old new sz fuel i s = some (r, s') →
      (r = 0 ∧ ∃ i', sz ≤ i' ∧ i' < sz + PGSIZE ∧ i' ≤ MAXVA ∧ i' % PGSIZE = 0 ∧
        Copied L p.ustack old new i' s0 s' ∧ Child L p.ustack old new i' s0 s') ∨
      (∃ i_f s_f, i_f % PGSIZE = 0 ∧ i_f < sz ∧ i_f < MAXVA ∧
        Child L p.ustack old new i_f s0 s_f ∧ copyErr L cpu new i_f s_f = some (r, s')) := by
  have hN : 0 < L.NCPU := by omega
  intro fuel
  induction fuel with
  | zero => intro i s r s' _ _ _ _ _ h; simp [copyLoop] at h
  | succ fuel ih =>
    intro i s r s' hC hD hi hle hup h
    unfold copyLoop at h
    by_cases hlt : i < sz
    · rw [if_pos hlt] at h
      by_cases hmax : i < MAXVA
      · have hnext : i + PGSIZE ≤ MAXVA := by
          rw [MAXVA_eq] at *; unfold PGSIZE at *; omega
        have hi' : (i + PGSIZE) % PGSIZE = 0 := by unfold PGSIZE at *; omega
        have hold_i := hC.old_rest i hi hmax (Or.inl (Nat.le_refl _))
        rw [walk_false L cpu old i s hmax] at h
        cases hs : slot s.mem old i with
        | none =>
          rw [hs] at h
          simp only at h
          have hnm : ¬ Mapped s0.mem old i := by
            unfold Mapped
            rw [← hold_i, pteval_of_none _ _ _ hs]
            exact zero_not_valid
          exact ih _ s r s' (Copied_skip L _ old new i s0 s hC hi hnm)
            (Child_skip L _ old new i s0 s hD hi hnm) hi' hnext (by omega) h
        | some pte =>
          rw [hs] at h
          simp only at h
          have hx : s.mem pte = pteval s0.mem old i := by
            rw [← hold_i, pteval_of_slot _ _ _ _ hs]
          rw [hx] at h
          by_cases hval : pteval s0.mem old i &&& PTE_V = 0
          · rw [if_pos hval] at h
            have hnm : ¬ Mapped s0.mem old i := fun hm => hm hval
            exact ih _ s r s' (Copied_skip L _ old new i s0 s hC hi hnm)
              (Child_skip L _ old new i s0 s hD hi hnm) hi' hnext (by omega) h
          · rw [if_neg hval] at h
            have hM : Mapped s0.mem old i := hval
            by_cases hu : i = p.ustack
            · rw [if_pos hu] at h
              cases hk : kalloc L cpu s with
              | none => rw [hk] at h; cases h
              | some res =>
                obtain ⟨ro, s1⟩ := res
                rw [hk] at h
                cases ro with
                | none =>
                  obtain ⟨e1, _⟩ := kalloc_none L cpu s s1 hc hk
                  subst e1
                  exact Or.inr ⟨i, s1, hi, hlt, hmax, hD, h⟩
                | some mem =>
                  simp only at h
                  cases hm : mappages L cpu new i PGSIZE mem (PTE_FLAGS (pteval s0.mem old i))
                      (memmovePage mem (PTE2PA (pteval s0.mem old i)) s1) with
                  | none => rw [hm] at h; cases h
                  | some res2 =>
                    obtain ⟨r2, s3⟩ := res2
                    rw [hm] at h
                    simp only at h
                    obtain ⟨x1, x2, x3, x4, x5, _, _, x8, x9⟩ := ChildStep_stack L cpu old new i
                      mem _ _ s s1 s3 r2 hc hC.sep_old hC.sep_new hC.apart hD.free_zero hi hmax
                      hk hm
                    by_cases hr : r2 ≠ 0
                    · rw [if_pos hr] at h
                      cases hkf : kfree L mem s3 with
                      | none => rw [hkf] at h; cases h
                      | some s4 =>
                        rw [hkf] at h
                        simp only at h
                        obtain ⟨y1, y2⟩ := ChildStep_stack_fail L old new mem s s3 s4 hN
                          hC.sep_old x1 x2 x3 x4 x5 (x9 hr) hkf
                        exact Or.inr ⟨i, s4, hi, hlt, hmax,
                          Child_same L _ old new i s0 s s4 hD y1 y2 hle, h⟩
                    · rw [if_neg hr] at h
                      have hr0 : r2 = 0 := by
                        by_contra hh; exact hr hh
                      subst hr0
                      obtain ⟨t1, t2, t3, t4, t5, t6, t7⟩ := copy_ustack_step L cpu old new i
                        mem _ _ s s1 s3 hc hC.sep_old hC.sep_new hC.apart hi hmax hk hm
                      obtain ⟨z1, z2⟩ := x8 rfl
                      subst hu
                      exact ih _ s3 r s' (Copied_ustack L _ old new s0 s s3 sz hpre hlt hM hC hi hmax
                        t1 t2 t3 t4 t5 t6 t7)
                        (Child_stack L _ old new mem _ s0 s s3 hM hD hi hmax x1 x2 x3 x4 x5
                          (by rw [PTE_FLAGS_eq]; exact Nat.mod_lt _ (by decide)) z1 z2)
                        hi' hnext (by omega) h
            · rw [if_neg hu] at h
              have hw : (s.write pte (PA2PTE (PTE2PA (pteval s0.mem old i)) |||
                  COW_FLAGS (pteval s0.mem old i))).mem pte =
                  PA2PTE (PTE2PA (pteval s0.mem old i)) ||| COW_FLAGS (pteval s0.mem old i) := by
                unfold KState.write
                simp only [if_true]
              rw [hw] at h
              obtain ⟨_, _, e3, e4, _, _, _⟩ := cow_entry (pteval s0.mem old i) hval
              rw [e3] at h
              cases hm : mappages L cpu new i PGSIZE (PTE2PA (pteval s0.mem old i))
                  (COW_FLAGS (pteval s0.mem old i))
                  (s.write pte (PA2PTE (PTE2PA (pteval s0.mem old i)) |||
                    COW_FLAGS (pteval s0.mem old i))) with
              | none => rw [hm] at h; cases h
              | some res2 =>
                obtain ⟨r2, s3⟩ := res2
                rw [hm] at h
                simp only at h
                obtain ⟨x1, x2⟩ := ChildStep_cow L cpu old new i pte _ _ _ s s3 r2 hc hC.sep_old
                  hC.sep_new hC.apart hD.free_zero hi hmax hs hm
                by_cases hr : r2 ≠ 0
                · rw [if_pos hr] at h
                  exact Or.inr ⟨i, s3, hi, hlt, hmax,
                    Child_same L _ old new i s0 s s3 hD x1 (x2 hr) hle, h⟩
                · rw [if_neg hr] at h
                  have hr0 : r2 = 0 := by
                    by_contra hh; exact hr hh
                  subst hr0
                  obtain ⟨t1, t2, t3, t4, t5, t6, t7, _, t9, t10⟩ := copy_cow_step L cpu old new
                    i pte _ _ _ s s3 hc hC.sep_old hC.sep_new hC.apart hi hmax hs hm
                  rw [e4] at t7
                  exact ih _ _ r s' (Copied_cow L _ old new i sz s0 s s3 hpre hlt hM hu hC hi hmax
                    t1 t2 t3 t4 t5 t6 (by rw [t7, t5]) t9 t10)
                    (Child_cow L _ old new i sz s0 s s3 hpre hlt hM hu hD hi hmax x1
                      (by rw [t7]; rfl) t9) hi' hnext (by omega) h
      · rw [walk_panic L cpu old i false s (by omega)] at h
        cases h
    · rw [if_neg hlt] at h
      simp only [Option.some.injEq, Prod.mk.injEq] at h
      obtain ⟨h1, h2⟩ := h
      subst h2
      exact Or.inl ⟨h1.symm, i, by omega, hup, hle, hi, hC, hD⟩

/-- The leaves of the child table below `i`: a valid one belongs to a page that has
become copy-on-write, with the frame of `old`, or to the user stack. -/
theorem Child_leaf (L : Layout) (u old new i sz : Nat) (s0 s : KState)
    (hch : ChildPre L u old new sz s0) (hD : Child L u old new i s0 s)
    (hisz : ∀ va, InRange 0 i va → InRange 0 sz va) (hmax : i ≤ MAXVA)
    (va : Nat) (hv : InRange 0 i va) (hm : Mapped s.mem new va) :
    Mapped s0.mem old va ∧ (va ≠ u → frameOf s.mem new va = frameOf s0.mem old va) := by
  have hvm : va < MAXVA := by unfold InRange at hv; omega
  have hM : Mapped s0.mem old va := by
    by_contra hn
    have := hD.rest va hv.2.2 hvm (Or.inr hn)
    unfold Mapped at hm
    rw [this] at hm
    exact hch.empty va (hisz va hv) hm
  refine ⟨hM, fun hne => ?_⟩
  unfold frameOf
  rw [hD.cow va hv hM hne]
  exact (cow_entry (pteval s0.mem old va) hM).1

/-- The child table below `i` is one that `uvmunmap` can free. -/
theorem Child_pre (L : Layout) (u old new i sz : Nat) (s0 s : KState)
    (hpre : CopyPre L u old sz s0) (hch : ChildPre L u old new sz s0)
    (hD : Child L u old new i s0 s)
    (hisz : ∀ va, InRange 0 i va → InRange 0 sz va) (hmax : i ≤ MAXVA) :
    UnmapPre L new 0 i true s := by
  have hleaf := Child_leaf L u old new i sz s0 s hch hD hisz hmax
  refine ⟨fun _ => hD.free_zero, ?_, ?_⟩
  · intro _ va hv hm
    obtain ⟨hM, hfo⟩ := hleaf va hv hm
    by_cases hu : va = u
    · subst hu
      obtain ⟨_, _, a3, _, a5⟩ := hD.stack hv hM
      exact ⟨a3, a5⟩
    · rw [hfo hu]
      have hnf := hpre.alloc va (hisz va hv) hM hu
      refine ⟨fun h => hnf (hD.free_sub _ h), fun h => ?_⟩
      rcases hD.pages _ h with h' | ⟨h', _⟩
      · exact hch.notpage va (hisz va hv) hM hu h'
      · exact hnf h'
  · intro _ va va' hv hv' hm hm' hh
    obtain ⟨hM, hfo⟩ := hleaf va hv hm
    obtain ⟨hM', hfo'⟩ := hleaf va' hv' hm'
    by_cases hu : va = u
    · by_cases hu' : va' = u
      · rw [hu, hu']
      · exfalso
        subst hu
        obtain ⟨_, a2, _, _, _⟩ := hD.stack hv hM
        rw [hh, hfo' hu'] at a2
        exact hpre.alloc va' (hisz va' hv') hM' hu' a2
    · by_cases hu' : va' = u
      · exfalso
        subst hu'
        obtain ⟨_, a2, _, _, _⟩ := hD.stack hv' hM'
        rw [← hh, hfo hu] at a2
        exact hpre.alloc va (hisz va hv) hM hu a2
      · rw [hfo hu, hfo' hu'] at hh
        exact hpre.distinct va va' (hisz va hv) (hisz va' hv') hM hM' hu hu' hh

/-- The child table after `uvmunmap` has freed its pages below `i`: no page of the range
of `copy` is mapped, every frame that was allocated before `copy` has the count it had,
and every frame that was free is free again with count 0, unless it is a page of the
child table. -/
theorem Child_unmapped (L : Layout) (u old new i sz : Nat) (s0 s s' : KState)
    (hpre : CopyPre L u old sz s0) (hch : ChildPre L u old new sz s0)
    (hD : Child L u old new i s0 s)
    (hisz : ∀ va, InRange 0 i va → InRange 0 sz va) (hmax : i ≤ MAXVA) (hszm : sz ≤ MAXVA)
    (hU : Unmapped L new 0 i true s s') :
    (∀ va, InRange 0 sz va → ¬ Mapped s'.mem new va) ∧
    (∀ f, f % PGSIZE = 0 → ¬ IsFree L s0 f → refcount f s' = refcount f s0) ∧
    (∀ f, IsFree L s0 f → (IsFree L s' f ∧ refcount f s' = 0) ∨ IsPtPage s'.mem new f) := by
  have hleaf := Child_leaf L u old new i sz s0 s hch hD hisz hmax
  have hUpre := Child_pre L u old new i sz s0 s hpre hch hD hisz hmax
  refine ⟨?_, ?_, ?_⟩
  · intro va hv hm
    have hvm : va < MAXVA := by unfold InRange at hv; omega
    unfold Mapped at hm
    by_cases hlt : va < i
    · have hvi : InRange 0 i va := by unfold InRange at *; omega
      rw [hU.cleared va hvi] at hm
      by_cases hval : pteval s.mem new va &&& PTE_V ≠ 0
      · rw [if_pos hval] at hm
        exact zero_not_valid hm
      · rw [if_neg hval] at hm
        exact hval hm
    · rw [hU.outside va hvm (by omega), hD.rest va hv.2.2 hvm (Or.inl (by omega))] at hm
      exact hch.empty va hv hm
  · intro f hf hnf
    by_cases hw : WasFreed s.mem new 0 i true f
    · obtain ⟨_, va, hv, hm, hfo⟩ := hw
      obtain ⟨hM, hfo'⟩ := hleaf va hv hm
      have hwf : WasFreed s.mem new 0 i true f := ⟨rfl, va, hv, hm, hfo⟩
      by_cases hu : va = u
      · exfalso
        subst hu
        obtain ⟨_, a2, _, _, _⟩ := hD.stack hv hM
        rw [hfo] at a2
        exact hnf a2
      · rw [(hU.freed f hwf).1, ← hfo, hfo' hu, hD.ref_cow va hv hM hu]
        have := hpre.room va (hisz va hv) hM hu
        omega
    · rw [(hU.other f hf hw).1]
      apply hD.ref_rest f hf hnf
      intro va hv hM hu hh
      apply hw
      have hm : Mapped s.mem new va := by
        unfold Mapped
        rw [hD.cow va hv hM hu]
        exact (cow_entry (pteval s0.mem old va) hM).2.2.2.2.1
      exact ⟨rfl, va, hv, hm, by rw [(hleaf va hv hm).2 hu]; exact hh⟩
  · intro f hf
    have hpg := IsPtPage_congr s.mem s'.mem new hU.l1 hU.l0
    rcases hD.frames f hf with h | h | ⟨h1, h2, h3⟩
    · have hw : ¬ WasFreed s.mem new 0 i true f := by
        rintro ⟨_, va, hv, hm, hfo⟩
        exact (hUpre.owned rfl va hv hm).1 (hfo ▸ h)
      have hf' := ((hU.other f (hD.sep.free.aligned f h) hw).2).mpr h
      exact Or.inl ⟨hf', hU.free_zero rfl f hf'⟩
    · exact Or.inr ((hpg f).mpr h)
    · obtain ⟨a1, _, _, a4, _⟩ := hD.stack h1 h2
      have hwf : WasFreed s.mem new 0 i true f := ⟨rfl, u, h1, a1, h3.symm⟩
      obtain ⟨w1, w2⟩ := hU.freed f hwf
      have hz : refcount f s' = 0 := by
        rw [w1, h3, a4]
      exact Or.inl ⟨w2.mpr hz, hz⟩

/-- C12, for a child table without a valid leaf in `[0, sz)`: when `uvmcopy(old, new, sz)`
returns -1 (for `sz <= MAXVA`, in a well-formed state), no page of `[0, sz)` is mapped in
`new` afterwards, so none below the page at which the call failed; every frame that was
allocated before the call, so every frame mapped in the parent, has the reference count
it had; and every frame that was free before the call is free again with count 0 (the
copy of the stack page is), unless it has become a page of the child table. -/
theorem uvmcopy_failure (L : Layout) (cpu : Nat) (p : Proc) (old new sz : Nat) (s s' : KState)
    (hc : cpu < L.NCPU) (hso : Sep L s old) (hsn : Sep L s new)
    (hap : ∀ q, IsPtPage s.mem old q → ¬ IsPtPage s.mem new q)
    (hpre : CopyPre L p.ustack old sz s) (hch : ChildPre L p.ustack old new sz s)
    (hszm : sz ≤ MAXVA)
    (h : uvmcopy L cpu p old new sz s = some (-1, s')) :
    (∀ va, InRange 0 sz va → ¬ Mapped s'.mem new va) ∧
    (∀ f, f % PGSIZE = 0 → ¬ IsFree L s f → refcount f s' = refcount f s) ∧
    (∀ va, Mapped s.mem old va → ¬ IsFree L s (frameOf s.mem old va) →
      refcount (frameOf s.mem old va) s' = refcount (frameOf s.mem old va) s) ∧
    (∀ f, IsFree L s f → (IsFree L s' f ∧ refcount f s' = 0) ∨ IsPtPage s'.mem new f) := by
  have hN : 0 < L.NCPU := by omega
  unfold uvmcopy copy at h
  rcases copyLoop_child L cpu p old new sz s hc hpre PAGE_FUEL 0 s (-1) s'
    (Copied_init L _ old new s hso hsn hap) (Child_init L _ old new s hsn hch.free_zero)
    (by decide) (Nat.zero_le _) (by unfold PGSIZE; omega) h with ⟨hr, _⟩ | ⟨i, sf, hi, hlt, hmax, hD, he⟩
  · cases hr
  · unfold copyErr at he
    cases hu : uvmunmap L cpu new 0 (i / PGSIZE) true sf with
    | none => rw [hu] at he; cases he
    | some s1 =>
      rw [hu] at he
      simp only [Option.some.injEq, Prod.mk.injEq, true_and] at he
      subst he
      unfold uvmunmap at hu
      rw [if_neg (by decide)] at hu
      have hstop : (0 + i / PGSIZE * PGSIZE) % 2 ^ 64 = i := by
        rw [MAXVA_eq] at hmax
        unfold PGSIZE at *
        omega
      rw [hstop] at hu
      have hisz : ∀ va, InRange 0 i va → InRange 0 sz va := by
        intro va hv; unfold InRange at *; omega
      have hU := uvmunmapLoop_spec L hN cpu new i true hi PAGE_FUEL 0 sf s1 hD.sep (by decide)
        (Child_pre L _ old new i sz s sf hpre hch hD hisz (by omega)) hu
      obtain ⟨c1, c2, c3⟩ := Child_unmapped L _ old new i sz s sf s1 hpre hch hD hisz
        (by omega) hszm hU
      exact ⟨c1, c2, fun va _ hnf => c2 _ (frameOf_aligned _ _ _) hnf, c3⟩

/-- C12 fails for a child table that maps a page already: in `sShare` the child table
maps page 0 to the frame 20480, which the parent maps at page 1 (count 2); `uvmcopy`
returns -1 at the stack page, and the unmapping of the child below that page has freed
the frame twice: its count is 1, not 2 as before the call. -/
theorem uvmcopy_failure_shared_frame :
    uvmcopy L1 0 pShare 61440 57344 (3 * PGSIZE) sShare = some (-1, sShareFailed) ∧
    Mapped sShare.mem 57344 0 ∧ frameOf sShare.mem 57344 0 = 20480 ∧
    ¬ Mapped sShare.mem 61440 0 ∧
    Mapped sShare.mem 61440 PGSIZE ∧ frameOf sShare.mem 61440 PGSIZE = 20480 ∧
    refcount 20480 sShare = 2 ∧ refcount 20480 sShareFailed = 1 := by
  refine ⟨rfl, by unfold Mapped; decide, by decide, by unfold Mapped; decide,
    by unfold Mapped; decide, by decide, by decide, by decide⟩

theorem sParent2_facts :
    Sep L1 sParent2 61440 ∧ Sep L1 sParent2 57344 ∧
    (∀ q, IsPtPage sParent2.mem 61440 q → ¬ IsPtPage sParent2.mem 57344 q) ∧
    (∀ q, IsPtPage sParent2.mem 57344 q ↔ q = 57344) ∧
    (∀ f, IsFree L1 sParent2 f → f = 16384 ∨ f = 24576) := by
  have hso : Sep L1 sFork2 61440 :=
    Sep_zero L1 sFork2 61440 rfl (fun _ => rfl) (by decide) (by decide) (by decide)
  have hsn : Sep L1 sFork2 57344 :=
    Sep_zero L1 sFork2 57344 rfl (fun _ => rfl) (by decide) (by decide) (by decide)
  have hun : ¬ Mapped sFork2.mem 61440 0 := by
    intro h
    unfold Mapped at h
    rw [pteval_zero sFork2.mem 61440 0 (fun _ => rfl)] at h
    exact zero_not_valid h
  obtain ⟨r, s', he, hg, _⟩ := mappages_page L1 0 61440 0 20480 (PTE_R ||| PTE_W ||| PTE_U)
    sFork2 (by decide) hso (by decide) (by decide) hun
  have e : mappages L1 0 61440 0 PGSIZE 20480 (PTE_R ||| PTE_W ||| PTE_U) sFork2
      = some (0, sParent1) := rfl
  rw [e] at he
  simp only [Option.some.injEq, Prod.mk.injEq] at he
  obtain ⟨_, he2⟩ := he
  subst he2
  obtain ⟨r2, s2, he', hg2, _⟩ := mappages_page L1 0 61440 PGSIZE 28672
    (PTE_R ||| PTE_W ||| PTE_U) sParent1 (by decide) hg.sep (by decide) (by decide)
    (by unfold Mapped; decide)
  have e' : mappages L1 0 61440 PGSIZE PGSIZE 28672 (PTE_R ||| PTE_W ||| PTE_U) sParent1
      = some (0, sParent2) := rfl
  rw [e'] at he'
  simp only [Option.some.injEq, Prod.mk.injEq] at he'
  obtain ⟨_, he3⟩ := he'
  subst he3
  have hgg := PtGrow_trans L1 61440 sFork2 sParent1 sParent2 hg hg2
  have hap0 : ∀ q, IsPtPage sFork2.mem 57344 q → ¬ IsPtPage sFork2.mem 61440 q := by
    intro q h1 h2
    have a := ((PT_zero sFork2.mem 57344 (fun _ => rfl) (by decide)).2 q).mp h1
    have b := ((PT_zero sFork2.mem 61440 (fun _ => rfl) (by decide)).2 q).mp h2
    omega
  obtain ⟨o1, _, _, _, o5, o6⟩ := PtGrow_other L1 61440 57344 sFork2 sParent2 hgg hsn hap0
  refine ⟨hgg.sep, o1, fun q h1 h2 => o6 q h2 h1, ?_, ?_⟩
  · intro q
    rw [o5 q]
    exact (PT_zero sFork2.mem 57344 (fun _ => rfl) (by decide)).2 q
  · rintro f ⟨c, hc, hm⟩
    have : c = 0 := by unfold L1 at hc; simp at hc; exact hc
    subst this
    have e : sParent2.freelist 0 = [16384, 24576] := by decide
    rw [e] at hm
    simpa using hm

/-- C12 (witness): `uvmcopy` of the two pages of `pStack` in `sParent2` into the empty
table at 57344 returns -1 at the stack page, for which no frame is left; afterwards
page 0 is not mapped in the child table and the frame 20480 of the parent has count 1
as before. -/
theorem uvmcopy_failure_witness :
    uvmcopy L1 0 pStack 61440 57344 (2 * PGSIZE) sParent2 = some (-1, sCopyFailed) ∧
    ¬ Mapped sCopyFailed.mem 57344 0 ∧ frameOf sParent2.mem 61440 0 = 20480 ∧
    refcount 20480 sParent2 = 1 ∧ refcount 20480 sCopyFailed = 1 := by
  obtain ⟨hso, hsn, hap, hpg, hfree⟩ := sParent2_facts
  have e : uvmcopy L1 0 pStack 61440 57344 (2 * PGSIZE) sParent2 = some (-1, sCopyFailed) := rfl
  have hf : frameOf sParent2.mem 61440 0 = 20480 := by decide
  have hr : refcount 20480 sParent2 = 1 := by decide
  have hnf : ¬ IsFree L1 sParent2 20480 := by
    intro h
    rcases hfree _ h with h | h <;> omega
  have hcases : ∀ va, InRange 0 (2 * PGSIZE) va → va = 0 ∨ va = PGSIZE := by
    intro va hv; unfold InRange PGSIZE at *; omega
  have hpre : CopyPre L1 pStack.ustack 61440 (2 * PGSIZE) sParent2 := by
    refine ⟨?_, ?_, ?_⟩
    · intro va hv _ hu
      rcases hcases va hv with h | h
      · rw [h, hf]; exact hnf
      · exact absurd h hu
    · intro va va' hv hv' _ _ hu hu' _
      rcases hcases va hv with h | h
      · rcases hcases va' hv' with h' | h'
        · rw [h, h']
        · exact absurd h' hu'
      · exact absurd h hu
    · intro va hv _ hu
      rcases hcases va hv with h | h
      · rw [h, hf, hr]; decide
      · exact absurd h hu
  have hch : ChildPre L1 pStack.ustack 61440 57344 (2 * PGSIZE) sParent2 := by
    refine ⟨?_, ?_, ?_⟩
    · intro f hfr
      rcases hfree f hfr with h | h <;> (rw [h]; decide)
    · intro va hv
      rcases hcases va hv with h | h <;> (rw [h]; unfold Mapped; decide)
    · intro va hv _ hu
      rcases hcases va hv with h | h
      · rw [h, hf, hpg]; decide
      · exact absurd h hu
  obtain ⟨c1, c2, _, _⟩ := uvmcopy_failure L1 0 pStack 61440 57344 (2 * PGSIZE) sParent2
    sCopyFailed (by decide) hso hsn hap hpre hch (by decide) e
  refine ⟨e, c1 0 (by unfold InRange; decide), hf, hr, ?_⟩
  rw [c2 20480 (by decide) hnf]
  exact hr

/-! ## Theorems: bytes in physical memory -/

/-- Replacing byte `k` of a word changes that byte and no other. -/
theorem byte_digit (w b k j : Nat) (hk : k < 8) (hj : j < 8) (hb : b < 256) :
    (w - w / 256 ^ k % 256 * 256 ^ k + b * 256 ^ k) / 256 ^ j % 256 =
      if j = k then b else w / 256 ^ j % 256 := by
  interval_cases k <;> interval_cases j <;> simp <;> omega

theorem writeByte_mem (s : KState) (a b x : Nat) (hx : x ≠ a - a % 8) :
    (writeByte s a b).mem x = s.mem x := by
  unfold writeByte KState.write
  simp only
  rw [if_neg hx]

theorem writeByte_freelist (s : KState) (a b : Nat) : (writeByte s a b).freelist = s.freelist :=
  rfl

theorem writeByte_ref (s : KState) (a b : Nat) : (writeByte s a b).ref = s.ref := rfl

/-- A byte written is the byte read back, and no other byte changes. -/
theorem readByte_writeByte (s : KState) (a b a' : Nat) :
    readByte (writeByte s a b) a' = if a' = a then b % 256 else readByte s a' := by
  by_cases hw : a' - a' % 8 = a - a % 8
  · have h1 : (writeByte s a b).mem (a' - a' % 8) =
        s.mem (a - a % 8) - s.mem (a - a % 8) / 256 ^ (a % 8) % 256 * 256 ^ (a % 8)
          + b % 256 * 256 ^ (a % 8) := by
      unfold writeByte KState.write readByte
      simp only
      rw [if_pos hw]
    unfold readByte
    rw [h1, byte_digit _ _ _ _ (Nat.mod_lt _ (by decide)) (Nat.mod_lt _ (by decide))
      (Nat.mod_lt _ (by decide)), hw]
    by_cases he : a' = a
    · rw [if_pos (by rw [he]), if_pos he]
    · rw [if_neg (by omega), if_neg he]
  · have he : a' ≠ a := fun h => hw (by rw [h])
    rw [if_neg he]
    unfold readByte
    rw [writeByte_mem s a b _ hw]

theorem memmoveOut_freelist (dst : Nat) (src : Nat → Nat) (off n : Nat) (s : KState) :
    (memmoveOut dst src off n s).freelist = s.freelist := by
  induction n with
  | zero => rfl
  | succ n ih => unfold memmoveOut; rw [writeByte_freelist, ih]

theorem memmoveOut_ref (dst : Nat) (src : Nat → Nat) (off n : Nat) (s : KState) :
    (memmoveOut dst src off n s).ref = s.ref := by
  induction n with
  | zero => rfl
  | succ n ih => unfold memmoveOut; rw [writeByte_ref, ih]

/-- The bytes `memmove` writes are those of the source, and no other byte changes. -/
theorem memmoveOut_read (dst : Nat) (src : Nat → Nat) (off n : Nat) (s : KState) (a : Nat) :
    readByte (memmoveOut dst src off n s) a =
      if dst ≤ a ∧ a < dst + n then src (off + (a - dst)) % 256 else readByte s a := by
  induction n with
  | zero =>
    unfold memmoveOut
    rw [if_neg (by omega)]
  | succ n ih =>
    unfold memmoveOut
    rw [readByte_writeByte, ih]
    by_cases he : a = dst + n
    · rw [if_pos he, if_pos (by omega), he]
      congr 2
      omega
    · rw [if_neg he]
      by_cases hin : dst ≤ a ∧ a < dst + n
      · rw [if_pos hin, if_pos (by omega)]
      · rw [if_neg hin, if_neg (by omega)]

/-- A `memmove` into the frame `g` changes no word outside the frame. -/
theorem memmoveOut_mem (dst : Nat) (src : Nat → Nat) (off n : Nat) (s : KState) (g x : Nat)
    (hg : g % PGSIZE = 0) (h1 : g ≤ dst) (h2 : dst + n ≤ g + PGSIZE)
    (hx : ¬ (g ≤ x ∧ x < g + PGSIZE)) :
    (memmoveOut dst src off n s).mem x = s.mem x := by
  induction n with
  | zero => rfl
  | succ n ih =>
    unfold memmoveOut
    rw [writeByte_mem _ _ _ _ (by unfold PGSIZE at *; omega), ih (by omega)]

/-- The call `uvmunmap(pt, a, 1, 1)` on a mapped page: the frame is given to `kfree`
and the leaf is cleared. -/
theorem uvmunmap_one (L : Layout) (cpu pt a pte : Nat) (s s' : KState)
    (hmax : a < MAXVA) (hs : slot s.mem pt a = some pte) (hv : s.mem pte &&& PTE_V ≠ 0)
    (h : uvmunmap L cpu pt a 1 true s = some s') :
    ∃ sk, kfree L (PTE2PA (s.mem pte)) s = some sk ∧ s' = sk.write pte 0 := by
  unfold uvmunmap at h
  by_cases ha : a % PGSIZE ≠ 0
  · rw [if_pos ha] at h; cases h
  · rw [if_neg ha] at h
    have hstop : (a + 1 * PGSIZE) % 2 ^ 64 = a + PGSIZE := by
      rw [MAXVA_eq] at hmax; unfold PGSIZE; omega
    rw [hstop] at h
    have hf : PAGE_FUEL = 67108863 + 1 + 1 := by decide
    rw [hf] at h
    unfold uvmunmapLoop at h
    rw [if_pos (by unfold PGSIZE; omega), walk_false L cpu pt a s hmax, hs] at h
    simp only at h
    rw [if_neg hv] at h
    by_cases hfl : PTE_FLAGS (s.mem pte) = PTE_V
    · rw [if_pos hfl] at h; cases h
    · rw [if_neg hfl] at h
      simp only [if_true] at h
      cases hk : kfree L (PTE2PA (s.mem pte)) s with
      | none => rw [hk] at h; cases h
      | some sk =>
        rw [hk] at h
        simp only at h
        unfold uvmunmapLoop at h
        rw [if_neg (by omega)] at h
        exact ⟨sk, rfl, (Option.some.inj h).symm⟩

/-- One iteration of `uvmalloc` in the copy-on-write branch, the memory and the counts:
the new frame holds a copy of the old one and has count 1, the leaf points to it with
the flags `COW_WFLAGS`, the count of the old frame is one lower, and a frame that was
allocated and is no page of either table keeps its contents, the old frame too unless
its count has reached 0. -/
theorem cow_page_effect (L : Layout) (hN : 0 < L.NCPU) (cpu : Nat) (p : Proc)
    (pt lo a hi mem pte : Nat) (s0 s s1 s4 s5 s6 : KState) (r : Int)
    (hG : Grown L pt p.kernel_pagetable lo a hi s0 s) (ha : a % PGSIZE = 0) (hlo : lo ≤ a)
    (hlt : a < hi) (hmax : a < MAXVA) (hp : Popped L s mem s1)
    (hslot : slot s1.mem pt a = some pte) (hcow : IS_COW (s1.mem pte) = true)
    (hun : uvmunmap L cpu pt a 1 true (memmovePage mem (PTE2PA (s1.mem pte)) s1) = some s4)
    (hum : proc_usermapping L cpu p (a + PGSIZE) a s4 = some s5)
    (hm : mappages L cpu pt a PGSIZE mem (COW_WFLAGS (s1.mem pte)) s5 = some (r, s6)) :
    pteval s6.mem pt a = PA2PTE mem ||| COW_WFLAGS (pteval s0.mem pt a) ||| PTE_V ∧
    (∀ x, mem ≤ x → x < mem + PGSIZE → s6.mem x = s.mem (frameOf s0.mem pt a + (x - mem))) ∧
    (∀ g, g % PGSIZE = 0 → ¬ IsFree L s g → ¬ IsPtPage s.mem pt g →
      ¬ IsPtPage s.mem p.kernel_pagetable g →
      (g = frameOf s0.mem pt a → (refcount g s + 255) % 256 ≠ 0) →
      ∀ x, g ≤ x → x < g + PGSIZE → s6.mem x = s.mem x) ∧
    refcount (frameOf s0.mem pt a) s6 = (refcount (frameOf s0.mem pt a) s + 255) % 256 ∧
    refcount mem s6 = 1 ∧
    (∀ g, g % PGSIZE = 0 → g ≠ mem → g ≠ frameOf s0.mem pt a →
      refcount g s6 = refcount g s) ∧
    (∀ g, IsFree L s6 g → (IsFree L s g ∧ g ≠ mem) ∨
      (g = frameOf s0.mem pt a ∧ refcount g s6 = 0)) ∧
    (∀ q, IsPtPage s6.mem pt q ↔ IsPtPage s.mem pt q) ∧
    (∀ q, IsPtPage s6.mem p.kernel_pagetable q ↔ IsPtPage s.mem p.kernel_pagetable q) := by
  have hP : 0 < PGSIZE := by decide
  have hma := hG.sep.free.aligned mem hp.was_free
  have hina : InRange a hi a := by unfold InRange; omega
  -- after kalloc
  obtain ⟨a1, _, al0, a4, a5⟩ := Sep_popped L s s1 pt mem hG.sep hp
  obtain ⟨b1, _, _, _, b5⟩ := Sep_popped L s s1 p.kernel_pagetable mem hG.sepk hp
  have hx : s1.mem pte = pteval s0.mem pt a := by
    rw [← pteval_of_slot _ _ _ _ hslot, a4 a, hG.outside a hmax (by omega)]
  have hval : pteval s0.mem pt a &&& PTE_V ≠ 0 := by
    rw [← hx]; exact IS_COW_valid _ hcow
  have hfo : PTE2PA (s1.mem pte) = frameOf s0.mem pt a := by
    unfold frameOf; rw [hx]
  rw [hfo] at hun
  have hun0 := hun
  obtain ⟨r1, r2, r3, r4⟩ := hG.rest a hina hmax hval
  have hfoa := frameOf_aligned s0.mem pt a
  have hne : mem ≠ frameOf s0.mem pt a := fun hh => r1 (hh ▸ hp.was_free)
  -- after memmove
  have hout : ∀ x, ¬ (mem ≤ x ∧ x < mem + PGSIZE) →
      (memmovePage mem (frameOf s0.mem pt a) s1).mem x = s1.mem x := by
    intro x hx'
    unfold memmovePage
    simp only
    rw [if_neg hx']
  obtain ⟨c1, _, cl0, c4, c5⟩ := Sep_page_write L s1 (memmovePage mem (frameOf s0.mem pt a) s1)
    pt mem a1 hma (fun h => hG.sep.apart mem hp.was_free ((a5 mem).mp h)) rfl hout
  obtain ⟨d1, _, _, _, d5⟩ := Sep_page_write L s1 (memmovePage mem (frameOf s0.mem pt a) s1)
    p.kernel_pagetable mem b1 hma (fun h => hG.sepk.apart mem hp.was_free ((b5 mem).mp h))
    rfl hout
  have hfree3 : ∀ g, IsFree L (memmovePage mem (frameOf s0.mem pt a) s1) g ↔
      IsFree L s g ∧ g ≠ mem := fun g => hp.free_iff g
  have href3 : ∀ g, g % PGSIZE = 0 → g ≠ mem →
      refcount g (memmovePage mem (frameOf s0.mem pt a) s1) = refcount g s := by
    intro g hg hgm
    show s1.ref (g / PGSIZE) = _
    rw [hp.ref_eq, if_neg (frame_ne g mem hg hma hgm)]; rfl
  have hpv3 : pteval (memmovePage mem (frameOf s0.mem pt a) s1).mem pt a =
      pteval s0.mem pt a := by
    rw [c4 a, a4 a, hG.outside a hmax (by omega)]
  have hm3 : Mapped (memmovePage mem (frameOf s0.mem pt a) s1).mem pt a := by
    unfold Mapped; rw [hpv3]; exact hval
  have hf3 : frameOf (memmovePage mem (frameOf s0.mem pt a) s1).mem pt a =
      frameOf s0.mem pt a := frameOf_congr _ _ pt a hpv3
  -- after uvmunmap
  unfold uvmunmap at hun
  rw [if_neg (by omega)] at hun
  have hstop : (a + 1 * PGSIZE) % 2 ^ 64 = a + PGSIZE := by
    rw [MAXVA_eq] at hmax; unfold PGSIZE; omega
  rw [hstop] at hun
  have hupre : UnmapPre L pt a (a + PGSIZE) true (memmovePage mem (frameOf s0.mem pt a) s1) := by
    refine ⟨?_, ?_, ?_⟩
    · intro _ f hf
      obtain ⟨hfs, hfm⟩ := (hfree3 f).mp hf
      rw [href3 f (hG.sep.free.aligned f hfs) hfm]
      exact hG.free_zero f hfs
    · intro _ va hin _
      rw [(InRange_single a va ha).mp hin, hf3]
      exact ⟨fun hh => r1 ((hfree3 _).mp hh).1, fun hh => r2 ((a5 _).mp ((c5 _).mp hh))⟩
    · intro _ va va' hin hin' _ _ _
      rw [(InRange_single a va ha).mp hin, (InRange_single a va' ha).mp hin']
  have hu := uvmunmapLoop_spec L hN cpu pt (a + PGSIZE) true (by unfold PGSIZE at *; omega)
    PAGE_FUEL a _ s4 c1 ha hupre hun
  have hwf : ∀ g, WasFreed (memmovePage mem (frameOf s0.mem pt a) s1).mem pt a (a + PGSIZE)
      true g ↔ g = frameOf s0.mem pt a := by
    intro g
    constructor
    · rintro ⟨_, va, hin, _, hf⟩
      rw [(InRange_single a va ha).mp hin, hf3] at hf
      exact hf.symm
    · intro hg
      exact ⟨rfl, a, (InRange_single a a ha).mpr rfl, hm3, by rw [hf3, hg]⟩
  have e5 := IsPtPage_congr _ s4.mem pt hu.l1 hu.l0
  have hcl : pteval s4.mem pt a = 0 := by
    have hm3' : pteval (memmovePage mem (frameOf s0.mem pt a) s1).mem pt a &&& PTE_V ≠ 0 := hm3
    rw [hu.cleared a ((InRange_single a a ha).mpr rfl), if_pos hm3']
  have hfree4 : ∀ g, g ≠ frameOf s0.mem pt a → (IsFree L s4 g ↔ IsFree L s g ∧ g ≠ mem) := by
    intro g hg
    by_cases hal : g % PGSIZE = 0
    · rw [(hu.other g hal (fun hh => hg ((hwf g).mp hh))).2]
      exact hfree3 g
    · constructor
      · intro hh; exact absurd (hu.sep.free.aligned g hh) hal
      · intro hh; exact absurd (hG.sep.free.aligned g hh.1) hal
  have href4 : ∀ g, g % PGSIZE = 0 → g ≠ mem → g ≠ frameOf s0.mem pt a →
      refcount g s4 = refcount g s := by
    intro g hg hgm hgf
    rw [(hu.other g hg (fun hh => hgf ((hwf g).mp hh))).1]
    exact href3 g hg hgm
  have hk4 : ∀ f, IsFree L s4 f → ¬ IsPtPage (memmovePage mem (frameOf s0.mem pt a) s1).mem
      p.kernel_pagetable f := by
    intro f hf hh
    by_cases hfe : f = frameOf s0.mem pt a
    · rw [hfe] at hh
      exact r3 ((b5 _).mp ((d5 _).mp hh))
    · exact d1.apart f ((hfree3 f).mpr ((hfree4 f hfe).mp hf)) hh
  obtain ⟨f1, _, _, _, f5⟩ := Sep_frame L _ s4 p.kernel_pagetable d1 hu.sep.free hk4
    (by
      intro q hq x hx1 hx2
      have hqa := IsPtPage_aligned _ p.kernel_pagetable q d1.tree.root_aligned hq
      have hqk : IsPtPage s.mem p.kernel_pagetable q := (b5 q).mp ((d5 q).mp hq)
      have hqne : q ≠ frameOf s0.mem pt a := fun hh => r3 (hh ▸ hqk)
      exact hu.mem_other q hqa (fun hh => hqne ((hwf q).mp hh))
        (fun hh => hG.apart q hqk ((a5 q).mp ((c5 q).mp hh))) x hx1 hx2)
  -- after proc_usermapping
  obtain ⟨g1, gr, gf, g5, gm⟩ := usermapping_shrink L hN cpu p a s4 s5 f1 hum
  have hfree5 := IsFree_congr L s4 s5 gf
  have hpt4 : ∀ q, IsPtPage s4.mem pt q ↔ IsPtPage s.mem pt q := fun q => by
    rw [e5 q, c5 q, a5 q]
  have hkp4 : ∀ q, IsPtPage s4.mem p.kernel_pagetable q ↔ IsPtPage s.mem p.kernel_pagetable q :=
    fun q => by rw [f5 q, d5 q, b5 q]
  obtain ⟨h1, _, hl0, h4, h5⟩ := Sep_frame L s4 s5 pt hu.sep g1.free
    (fun f hf => hu.sep.apart f ((hfree5 f).mp hf))
    (by
      intro q hq x hx1 hx2
      have hqa := IsPtPage_aligned _ pt q hu.sep.tree.root_aligned hq
      exact gm q hqa (fun hh => hG.apart q ((hkp4 q).mp hh) ((hpt4 q).mp hq)) x hx1 hx2)
  -- mappages writes the leaf
  have hslot5 : slot s5.mem pt a = some pte := by
    rw [slot_congr _ _ pt hl0 a, slot_congr _ _ pt hu.l0 a, slot_congr _ _ pt cl0 a]
    exact hslot
  have hleaf0 : s5.mem pte = 0 := by
    rw [← pteval_of_slot _ _ _ _ hslot5, h4 a, hcl]
  rw [mappages_present L cpu pt a mem _ pte s5 ha hmax hslot5
    (by rw [hleaf0]; exact zero_not_valid)] at hm
  simp only [Option.some.injEq, Prod.mk.injEq] at hm
  obtain ⟨hr, hs6⟩ := hm
  subst hs6
  clear hr
  have hslot3 : slot (memmovePage mem (frameOf s0.mem pt a) s1).mem pt a = some pte := by
    rw [slot_congr _ _ pt cl0 a]; exact hslot
  have hv3 : (memmovePage mem (frameOf s0.mem pt a) s1).mem pte &&& PTE_V ≠ 0 := by
    rw [← pteval_of_slot _ _ _ _ hslot3]; exact hm3
  obtain ⟨sk, hk, hs4⟩ := uvmunmap_one L cpu pt a pte _ s4 hmax hslot3 hv3 hun0
  have hpa3 : PTE2PA ((memmovePage mem (frameOf s0.mem pt a) s1).mem pte) =
      frameOf s0.mem pt a := by
    rw [← pteval_of_slot _ _ _ _ hslot3]; exact hf3
  rw [hpa3] at hk
  obtain ⟨q0, hq0, hpq⟩ := slot_some s1.mem pt a pte hslot
  have hq0p : IsPtPage s.mem pt q0 := (a5 q0).mp (Or.inr (Or.inr ⟨a, hq0⟩))
  have hq0a := (l0page_aligned s1.mem pt a q0 hq0).1
  have hpin : q0 ≤ pte ∧ pte < q0 + PGSIZE := by
    have := PX_lt 0 a
    rw [hpq]; unfold PGSIZE; omega
  have hnpte : ∀ g, g % PGSIZE = 0 → ¬ IsPtPage s.mem pt g → ∀ x, g ≤ x → x < g + PGSIZE →
      x ≠ pte := by
    intro g hg hgp x hx1 hx2 hxe
    have hne' : q0 ≠ g := fun hh => hgp (hh ▸ hq0p)
    exact page_apart q0 g pte hq0a hg hne' hpin.1 hpin.2 ⟨hxe ▸ hx1, hxe ▸ hx2⟩
  have hstep : ∀ g, g % PGSIZE = 0 → ¬ IsPtPage s.mem pt g →
      ¬ IsPtPage s.mem p.kernel_pagetable g → ∀ x, g ≤ x → x < g + PGSIZE →
      (s5.write pte (PA2PTE mem ||| COW_WFLAGS (s1.mem pte) ||| PTE_V)).mem x = sk.mem x := by
    intro g hg hgp hgk x hx1 hx2
    have hxp := hnpte g hg hgp x hx1 hx2
    show (if x = pte then _ else s5.mem x) = _
    rw [if_neg hxp, gm g hg (fun hh => hgk ((hkp4 g).mp hh)) x hx1 hx2, hs4]
    show (if x = pte then _ else sk.mem x) = _
    rw [if_neg hxp]
  have hmnp : ¬ IsPtPage s.mem pt mem := hG.sep.apart mem hp.was_free
  have hmnk : ¬ IsPtPage s.mem p.kernel_pagetable mem := hG.sepk.apart mem hp.was_free
  have hs3 : ∀ x, (memmovePage mem (frameOf s0.mem pt a) s1).mem x =
      if mem ≤ x ∧ x < mem + PGSIZE then s1.mem (frameOf s0.mem pt a + (x - mem))
      else s1.mem x := fun x => rfl
  have hfreed := hu.freed (frameOf s0.mem pt a) ((hwf _).mpr rfl)
  have hwr : ∀ g, refcount g (s5.write pte (PA2PTE mem ||| COW_WFLAGS (s1.mem pte) ||| PTE_V))
      = refcount g s4 := by
    intro g
    show s5.ref (g / PGSIZE) = s4.ref (g / PGSIZE)
    rw [gr]
  have hgw := PtGrow_leaf_write L pt a pte (PA2PTE mem ||| COW_WFLAGS (s1.mem pte) ||| PTE_V)
    s5 h1 hslot5
  obtain ⟨lw1, lw0, lw⟩ := leaf_write_views s5.mem pt a pte
    (PA2PTE mem ||| COW_WFLAGS (s1.mem pte) ||| PTE_V) h1.tree hslot5
  refine ⟨?_, ?_, ?_, ?_, ?_, ?_, ?_, ?_, ?_⟩
  · have := lw a
    rw [if_pos hslot5] at this
    rw [← hx]
    exact this
  · intro x hx1 hx2
    rw [hstep mem hma hmnp hmnk x hx1 hx2,
      kfree_mem L _ _ sk hk x (page_apart mem _ x hma hfoa hne hx1 hx2), hs3, if_pos ⟨hx1, hx2⟩,
      hp.mem_eq, if_neg]
    have := page_apart (frameOf s0.mem pt a) mem (frameOf s0.mem pt a + (x - mem)) hfoa hma
      (fun hh => hne hh.symm) (by omega) (by omega)
    exact this
  · intro g hg hgf hgp hgk hsh x hx1 hx2
    have hgm : g ≠ mem := fun hh => hgf (hh ▸ hp.was_free)
    have hxm := page_apart g mem x hg hma hgm hx1 hx2
    rw [hstep g hg hgp hgk x hx1 hx2]
    have h3 : (memmovePage mem (frameOf s0.mem pt a) s1).mem x = s.mem x := by
      rw [hs3, if_neg hxm, hp.mem_eq, if_neg hxm]
    by_cases hgo : g = frameOf s0.mem pt a
    · obtain ⟨_, _, _, hcase⟩ := kfree_cases L _ _ sk hk
      rcases hcase with ⟨_, hsk⟩ | ⟨hz, _, _⟩
      · rw [hsk]
        exact h3
      · exfalso
        rw [refcount_dec_same, href3 _ hfoa (fun hh => hne hh.symm)] at hz
        exact hsh hgo (hgo ▸ hz)
    · rw [kfree_mem L _ _ sk hk x (page_apart g _ x hg hfoa hgo hx1 hx2)]
      exact h3
  · rw [hwr, hfreed.1, href3 _ hfoa (fun hh => hne hh.symm)]
  · rw [hwr, (hu.other mem hma (fun hh => hne ((hwf mem).mp hh))).1]
    show s1.ref (mem / PGSIZE) = 1
    rw [hp.ref_eq, if_pos rfl]
    have := hG.free_zero mem hp.was_free
    unfold refcount at this
    rw [this]
  · intro g hg hgm hgf
    rw [hwr]
    exact href4 g hg hgm hgf
  · intro g hg
    have hg5 : IsFree L s5 g := hg
    have hg4 := (hfree5 g).mp hg5
    by_cases hgo : g = frameOf s0.mem pt a
    · right
      refine ⟨hgo, ?_⟩
      rw [hwr, hgo]
      exact hfreed.2.mp (hgo ▸ hg4)
    · left
      exact (hfree4 g hgo).mp hg4
  · intro q
    exact (IsPtPage_congr _ _ pt lw1 lw0 q).trans ((h5 q).trans (hpt4 q))
  · intro q
    have hq0n : ¬ IsPtPage s5.mem p.kernel_pagetable q0 := fun hh =>
      hG.apart q0 ((hkp4 q0).mp ((g5 q0).mp hh)) hq0p
    obtain ⟨_, _, _, _, w5⟩ := Sep_page_write L s5
      (s5.write pte (PA2PTE mem ||| COW_WFLAGS (s1.mem pte) ||| PTE_V)) p.kernel_pagetable q0
      g1 hq0a hq0n rfl (by
        intro x hx'
        show (if x = pte then _ else s5.mem x) = _
        rw [if_neg (fun hh => hx' (by rw [hh]; exact hpin))])
    exact (w5 q).trans ((g5 q).trans (hkp4 q))

/-- The growth loop of `proc_usermapping` grows the kernel table and touches nothing
else. -/
theorem usermapLoop_grow (L : Layout) (cpu : Nat) (p : Proc) (desva : Nat)
    (hc : cpu < L.NCPU) :
    ∀ fuel va s s', Sep L s p.kernel_pagetable → va % PGSIZE = 0 →
      usermapLoop L cpu p desva fuel va s = some s' → PtGrow L p.kernel_pagetable s s' := by
  intro fuel
  induction fuel with
  | zero => intro va s s' _ _ h; simp [usermapLoop] at h
  | succ fuel ih =>
    intro va s s' hsepk hva h
    unfold usermapLoop at h
    have hva' : (va + PGSIZE) % PGSIZE = 0 := by unfold PGSIZE at *; omega
    by_cases hlt : va < desva
    · rw [if_pos hlt] at h
      by_cases hmax : va < MAXVA
      · rw [walk_false L cpu p.pagetable va s hmax] at h
        cases hs : slot s.mem p.pagetable va with
        | none =>
          rw [hs] at h
          exact ih _ s s' hsepk hva' h
        | some pte =>
          rw [hs] at h
          simp only at h
          by_cases hv : PTE_FLAGS (s.mem pte) &&& PTE_V = 0
          · rw [if_pos hv] at h
            exact ih _ s s' hsepk hva' h
          · rw [if_neg hv] at h
            cases hm : mappages L cpu p.kernel_pagetable va PGSIZE (PTE2PA (s.mem pte))
                (PTE_FLAGS (s.mem pte) &&& (2 ^ 64 - 1 - PTE_U)) s with
            | none => rw [hm] at h; cases h
            | some res =>
              obtain ⟨r, s2⟩ := res
              rw [hm] at h
              by_cases hr : r = 0
              · subst hr
                simp only at h
                have hva64 : va + PGSIZE ≤ 2 ^ 64 := by
                  rw [MAXVA_eq] at hmax; unfold PGSIZE; omega
                rw [mappages_eq L cpu _ va PGSIZE _ _ s hva (by decide) hva64] at hm
                obtain ⟨hg, _⟩ := mappagesLoop_spec L cpu p.kernel_pagetable _ _ hc
                  (by unfold PGROUNDDOWN PGSIZE; omega) PAGE_FUEL va _ s 0 s2 hsepk hva
                  (by unfold PGROUNDDOWN PGSIZE at *; omega) hm
                exact PtGrow_trans L _ s s2 s' hg (ih _ s2 s' hg.sep hva' h)
              · exfalso
                revert h
                cases r with
                | ofNat n =>
                  cases n with
                  | zero => exact absurd rfl hr
                  | succ n => intro h; cases h
                | negSucc n => intro h; cases h
      · rw [walk_panic L cpu p.pagetable va false s (by omega)] at h
        cases h
    · rw [if_neg hlt] at h
      cases h
      exact PtGrow_refl L _ s hsepk

/-- The call `proc_usermapping(p, oldsz, newsz)` with `oldsz <= newsz` grows the kernel
table and touches nothing else. -/
theorem usermapping_grow (L : Layout) (cpu : Nat) (p : Proc) (oldsz newsz : Nat)
    (s s' : KState) (hc : cpu < L.NCPU) (hsepk : Sep L s p.kernel_pagetable)
    (hle : oldsz ≤ newsz) (h : proc_usermapping L cpu p oldsz newsz s = some s') :
    PtGrow L p.kernel_pagetable s s' := by
  unfold proc_usermapping at h
  by_cases h1 : newsz > PGROUNDUP p.sz
  · rw [if_pos h1] at h; cases h
  · rw [if_neg h1] at h
    by_cases h2 : newsz ≥ p.vma_bound ∨ oldsz ≥ p.vma_bound
    · rw [if_pos h2] at h
      cases h
      exact PtGrow_refl L _ s hsepk
    · rw [if_neg h2] at h
      simp only at h
      have h3 : ¬ ((if oldsz > PLIC then PLIC else oldsz) > (if newsz > PLIC then PLIC else newsz)) := by
        split <;> split <;> omega
      rw [if_neg h3] at h
      by_cases h4 : (if oldsz > PLIC then PLIC else oldsz) < (if newsz > PLIC then PLIC else newsz)
      · rw [if_pos h4] at h
        exact usermapLoop_grow L cpu p _ hc PAGE_FUEL _ s s' hsepk (PGROUNDUP_mod _) h
      · rw [if_neg h4] at h
        cases h
        exact PtGrow_refl L _ s hsepk

/-- A fault that `page_fault_handler` resolves with 0 on a copy-on-write page `a` below
`p->sz`: the page is mapped to a frame `mem` that was free, holds a copy of the old
frame and has count 1; the count of the old frame is one lower; no other leaf of the
table has changed; a frame that was allocated and is no page of either table keeps its
contents and is not free, the old frame too unless its count has reached 0. -/
theorem cow_fault (L : Layout) (cpu : Nat) (V : VmaLayout) (E : Ext) (p p' : Proc) (a : Nat)
    (s s' : KState) (hc : cpu < L.NCPU)
    (hpre : UvmPre L p.pagetable p.kernel_pagetable a (a + PGSIZE) s)
    (ha : a % PGSIZE = 0) (hsz : a < p.sz) (hmax : a < MAXVA)
    (hcow : IS_COW (pteval s.mem p.pagetable a) = true)
    (h : page_fault_handler L cpu V E p a s = some (0, p', s')) :
    p' = p ∧ ∃ mem, IsFree L s mem ∧
      Sep L s' p.pagetable ∧ Sep L s' p.kernel_pagetable ∧
      (∀ q, IsPtPage s'.mem p.kernel_pagetable q → ¬ IsPtPage s'.mem p.pagetable q) ∧
      (∀ f, IsFree L s' f → refcount f s' = 0) ∧
      pteval s'.mem p.pagetable a =
        PA2PTE mem ||| COW_WFLAGS (pteval s.mem p.pagetable a) ||| PTE_V ∧
      (∀ va, va < MAXVA → ¬ (a ≤ va ∧ va < a + PGSIZE) →
        pteval s'.mem p.pagetable va = pteval s.mem p.pagetable va) ∧
      (∀ q, IsPtPage s'.mem p.pagetable q ↔ IsPtPage s.mem p.pagetable q) ∧
      (∀ x, mem ≤ x → x < mem + PGSIZE →
        s'.mem x = s.mem (frameOf s.mem p.pagetable a + (x - mem))) ∧
      refcount mem s' = 1 ∧ ¬ IsFree L s' mem ∧
      (∀ g, g % PGSIZE = 0 → ¬ IsFree L s g → ¬ IsPtPage s.mem p.pagetable g →
        ¬ IsPtPage s.mem p.kernel_pagetable g →
        (g = frameOf s.mem p.pagetable a → (refcount g s + 255) % 256 ≠ 0) →
        ¬ IsFree L s' g ∧ ¬ IsPtPage s'.mem p.kernel_pagetable g ∧
        refcount g s' = (if g = frameOf s.mem p.pagetable a then (refcount g s + 255) % 256
          else refcount g s) ∧
        ∀ x, g ≤ x → x < g + PGSIZE → s'.mem x = s.mem x) ∧
      (∀ g, IsFree L s' g → IsFree L s g ∨
        (g = frameOf s.mem p.pagetable a ∧ (refcount g s + 255) % 256 = 0)) := by
  have hN : 0 < L.NCPU := by omega
  have hP : 0 < PGSIZE := by decide
  have h64 : (a + PGSIZE) % 2 ^ 64 = a + PGSIZE := by
    rw [MAXVA_eq] at hmax; unfold PGSIZE; omega
  unfold page_fault_handler at h
  simp only at h
  rw [h64] at h
  split at h
  swap
  · simp only [Option.some.injEq, Prod.mk.injEq] at h
    exact absurd h.1 (by decide)
  have hup : PGROUNDUP a = a := PGROUNDUP_aligned a ha (by omega)
  unfold uvmalloc at h
  rw [if_neg (by omega), hup] at h
  have hf : PAGE_FUEL = 67108863 + 1 + 1 := by decide
  rw [hf] at h
  unfold uvmallocLoop at h
  rw [if_pos (by omega)] at h
  have hG := Grown_init L p.pagetable p.kernel_pagetable a (a + PGSIZE) s hpre
  cases hk : kalloc L cpu s with
  | none => rw [hk] at h; cases h
  | some res =>
    obtain ⟨ro, s1⟩ := res
    rw [hk] at h
    cases ro with
    | none =>
      simp only at h
      cases hd : uvmdealloc L cpu p.pagetable a a s1 with
      | none => rw [hd] at h; cases h
      | some res2 =>
        rw [hd] at h
        simp only [ne_eq, not_true_eq_false, if_false, Option.some.injEq, Prod.mk.injEq] at h
        exact absurd h.1 (by decide)
    | some mem =>
      simp only at h
      have hp := kalloc_some L cpu s s1 mem hc hpre.sep.free hk
      obtain ⟨a1, _, al0, a4, a5⟩ := Sep_popped L s s1 p.pagetable mem hpre.sep hp
      rw [walk_false L cpu p.pagetable a s1 hmax] at h
      simp only at h
      have hval : pteval s.mem p.pagetable a &&& PTE_V ≠ 0 := IS_COW_valid _ hcow
      cases hs : slot s1.mem p.pagetable a with
      | none =>
        exfalso
        have := pteval_of_none s1.mem p.pagetable a hs
        rw [a4 a] at this
        rw [this] at hval
        exact zero_not_valid hval
      | some pte =>
        rw [hs] at h
        have hx : s1.mem pte = pteval s.mem p.pagetable a := by
          rw [← pteval_of_slot _ _ _ _ hs, a4 a]
        have hcow1 : IS_COW (s1.mem pte) = true := by rw [hx]; exact hcow
        simp only [Option.isSome_some, Option.getD_some, hcow1, and_self, if_true] at h
        cases hun : uvmunmap L cpu p.pagetable a 1 true
            (memmovePage mem (PTE2PA (s1.mem pte)) s1) with
        | none => rw [hun] at h; cases h
        | some s4 =>
          rw [hun] at h
          simp only at h
          cases hum : proc_usermapping L cpu p (a + PGSIZE) a s4 with
          | none => rw [hum] at h; cases h
          | some s5 =>
            rw [hum] at h
            simp only at h
            cases hm : mappages L cpu p.pagetable a PGSIZE mem (COW_WFLAGS (s1.mem pte)) s5 with
            | none => rw [hm] at h; cases h
            | some res3 =>
              obtain ⟨r, s6⟩ := res3
              rw [hm] at h
              simp only at h
              obtain ⟨hr, hG6⟩ := Grown_cow L hN cpu p p.pagetable a a (a + PGSIZE) mem pte
                s s s1 s4 s5 s6 r hpre hG ha (Nat.le_refl _) (by omega) hmax hp hs hcow1
                hun hum hm
              obtain ⟨e1, e2, e3, e4, e5, e6, e7, e8, e9⟩ := cow_page_effect L hN cpu p
                p.pagetable a a (a + PGSIZE) mem pte s s s1 s4 s5 s6 r hG ha (Nat.le_refl _)
                (by omega) hmax hp hs hcow1 hun hum hm
              subst hr
              simp only [ne_eq, not_true_eq_false, if_false] at h
              unfold uvmallocLoop at h
              rw [if_neg (by omega)] at h
              simp only [ne_eq] at h
              rw [if_pos (by omega)] at h
              cases hum2 : proc_usermapping L cpu p a (a + PGSIZE) s6 with
              | none => rw [hum2] at h; cases h
              | some s7 =>
                rw [hum2] at h
                simp only [Option.some.injEq, Prod.mk.injEq, true_and] at h
                obtain ⟨hpe, hse⟩ := h
                subst hse
                have hgk := usermapping_grow L cpu p a (a + PGSIZE) s6 s7 hc hG6.sepk
                  (by omega) hum2
                obtain ⟨o1, _, _, o4, o5, o6⟩ := PtGrow_other L p.kernel_pagetable p.pagetable
                  s6 s7 hgk hG6.sep (fun q hq hq' => hG6.apart q hq' hq)
                have hfo6 : ∀ g, IsFree L s6 g → IsFree L s g ∨
                    (g = frameOf s.mem p.pagetable a ∧ (refcount g s + 255) % 256 = 0) := by
                  intro g hg
                  rcases e7 g hg with hh | ⟨hh1, hh2⟩
                  · exact Or.inl hh.1
                  · right
                    refine ⟨hh1, ?_⟩
                    rw [hh1] at hh2 ⊢
                    rw [← e4]
                    exact hh2
                have hmnf6 : ¬ IsFree L s6 mem := by
                  intro hh
                  rcases e7 mem hh with hh' | ⟨hh1, _⟩
                  · exact hh'.2 rfl
                  · have := (hG.rest a (by unfold InRange; omega) hmax hval).1
                    exact this (hh1 ▸ hp.was_free)
                have hmnk6 : ¬ IsPtPage s6.mem p.kernel_pagetable mem := fun hh =>
                  hpre.sepk.apart mem hp.was_free ((e9 mem).mp hh)
                have hma := hpre.sep.free.aligned mem hp.was_free
                obtain ⟨u1, u2, u3, u4⟩ := hgk.untouched mem hma hmnf6 hmnk6
                refine ⟨hpe.symm, mem, hp.was_free, o1, hgk.sep, fun q hq hq' => o6 q hq' hq,
                  ?_, ?_, ?_, ?_, ?_, ?_, u1, ?_, ?_⟩
                · intro f hf
                  rw [hgk.ref_free f hf]
                  exact hG6.free_zero f (IsFree_of_suffix L s6 s7 hgk.suffix f hf)
                · rw [o4 a]; exact e1
                · intro va hva hout
                  rw [o4 va]
                  exact hG6.outside va hva hout
                · intro q
                  exact (o5 q).trans (e8 q)
                · intro x hx1 hx2
                  rw [u4 x hx1 hx2]
                  exact e2 x hx1 hx2
                · rw [u3]; exact e5
                · intro g hg hgf hgp hgk' hsh
                  have hgm : g ≠ mem := fun hh => hgf (hh ▸ hp.was_free)
                  have hnf6 : ¬ IsFree L s6 g := by
                    intro hh
                    rcases e7 g hh with hh' | ⟨hh1, hh2⟩
                    · exact hgf hh'.1
                    · rw [hh1, e4] at hh2
                      exact hsh hh1 (hh1 ▸ hh2)
                  have hnk6 : ¬ IsPtPage s6.mem p.kernel_pagetable g := fun hh =>
                    hgk' ((e9 g).mp hh)
                  obtain ⟨v1, v2, v3, v4⟩ := hgk.untouched g hg hnf6 hnk6
                  refine ⟨v1, v2, ?_, ?_⟩
                  · rw [v3]
                    by_cases hgo : g = frameOf s.mem p.pagetable a
                    · rw [if_pos hgo, hgo]; exact e4
                    · rw [if_neg hgo]; exact e6 g hg hgm hgo
                  · intro x hx1 hx2
                    rw [v4 x hx1 hx2]
                    exact e3 g hg hgf hgp hgk' hsh x hx1 hx2
                · intro g hg
                  exact hfo6 g (IsFree_of_suffix L s6 s7 hgk.suffix g hg)

theorem COW_WFLAGS_testBit (x k : Nat) (hk : k < 10) :
    (COW_WFLAGS x).testBit k = ((x.testBit k && decide (k ≠ 8)) || decide (k = 2)) := by
  unfold COW_WFLAGS PTE_W PTE_C
  rw [Nat.testBit_or, Nat.testBit_and, PTE_FLAGS_eq]
  have m : (x % 1024).testBit k = x.testBit k := by
    have h := Nat.testBit_mod_two_pow x 10 k
    simp only [hk, decide_True, Bool.true_and] at h
    exact h
  have a : Nat.testBit (0x3FF - 256) k = decide (k ≠ 8) := by
    interval_cases k <;> decide
  have b : Nat.testBit 4 k = decide (k = 2) := by
    interval_cases k <;> decide
  rw [m, a, b]

/-- With nothing left to copy the loop of `copyout` returns 0. -/
theorem copyoutLoop_done (L : Layout) (cpu : Nat) (V : VmaLayout) (E : Ext) (pt : Nat)
    (src : Nat → Nat) (fuel : Nat) (p : Proc) (dstva off : Nat) (s : KState) :
    copyoutLoop L cpu V E pt src fuel p dstva off 0 s = some (0, p, s) := by
  cases fuel <;> rfl

/-- A `copyout` of `1 <= n <= PGSIZE` bytes to a page-aligned address consists of one
call of `copyoutPage` that finds a frame, and of the `memmove` into that frame. -/
theorem copyout_page (L : Layout) (cpu : Nat) (V : VmaLayout) (E : Ext) (p p2 : Proc)
    (pt va : Nat) (src : Nat → Nat) (n : Nat) (s s2 : KState) (r : Int)
    (hva : va % PGSIZE = 0) (hn1 : 1 ≤ n) (hn : n ≤ PGSIZE)
    (h : copyout L cpu V E p pt va src n s = some (r, p2, s2)) :
    (r = 0 ∧ ∃ pa0 s1, copyoutPage L cpu V E pt p va s = some (some pa0, p2, s1) ∧
      s2 = memmoveOut pa0 src 0 n s1) ∨
    (r = -1 ∧ copyoutPage L cpu V E pt p va s = some (none, p2, s2)) := by
  unfold copyout at h
  obtain ⟨m, hm⟩ : ∃ m, n = m + 1 := ⟨n - 1, by omega⟩
  have hd : PGROUNDDOWN va = va := by unfold PGROUNDDOWN PGSIZE at *; omega
  rw [hm] at h
  unfold copyoutLoop at h
  rw [if_pos (by omega), hd] at h
  simp only at h
  cases hp : copyoutPage L cpu V E pt p va s with
  | none => rw [hp] at h; cases h
  | some res =>
    obtain ⟨po, p1, s1⟩ := res
    rw [hp] at h
    cases po with
    | none =>
      simp only [Option.some.injEq, Prod.mk.injEq] at h
      obtain ⟨h1, h2, h3⟩ := h
      subst h2 h3
      exact Or.inr ⟨h1.symm, rfl⟩
    | some pa0 =>
      simp only at h
      have hnn : (if PGSIZE - (va - va) > m + 1 then m + 1 else PGSIZE - (va - va)) = m + 1 := by
        split <;> omega
      rw [hnn, Nat.sub_self, copyoutLoop_done] at h
      simp only [Option.some.injEq, Prod.mk.injEq] at h
      obtain ⟨h1, h2, h3⟩ := h
      subst h2
      left
      refine ⟨h1.symm, pa0, s1, rfl, ?_⟩
      rw [← h3, hm, Nat.sub_self, Nat.add_zero]

/-- C13, for `1 <= n <= PGSIZE`: let `va < sz` be a page of the parent table `old`, not
the user stack page, with a valid user leaf whose frame `f` has count 1, in a
well-formed state (`old`, the child table `new` and the kernel table of the child are
trees without a common page, `f` is a page of none of them, the child table maps no
page of `[0, sz)`). If `uvmcopy(old, new, sz)` returns 0 and then `copyout` of `n` bytes
to `va` in the child (the process whose table is `new`) returns 0, then the leaf of the
parent for `va` is valid and still points to `f`, `f` holds what it held before the
fork, the leaf of the child is valid and points to a frame other than `f`, the first
`n` bytes of that frame are the bytes written and the others are those of `f`, and `f`
has count 1. -/
theorem cow_fork_write (L : Layout) (cpu : Nat) (V : VmaLayout) (E : Ext) (p c c2 : Proc)
    (old sz va n : Nat) (src : Nat → Nat) (s s1 s2 : KState)
    (hc : cpu < L.NCPU) (hso : Sep L s old) (hsn : Sep L s c.pagetable)
    (hsk : Sep L s c.kernel_pagetable)
    (hap : ∀ q, IsPtPage s.mem old q → ¬ IsPtPage s.mem c.pagetable q)
    (hapk : ∀ q, IsPtPage s.mem c.kernel_pagetable q →
      ¬ IsPtPage s.mem old q ∧ ¬ IsPtPage s.mem c.pagetable q)
    (hpre : CopyPre L p.ustack old sz s) (hch : ChildPre L p.ustack old c.pagetable sz s)
    (hszm : sz ≤ MAXVA) (hcs : c.sz = sz)
    (hva : va % PGSIZE = 0) (hlt : va < sz) (hnu : va ≠ p.ustack)
    (hval : Mapped s.mem old va) (hu : pteval s.mem old va &&& PTE_U ≠ 0)
    (href : refcount (frameOf s.mem old va) s = 1)
    (hfo : ¬ IsPtPage s.mem old (frameOf s.mem old va))
    (hfk : ¬ IsPtPage s.mem c.kernel_pagetable (frameOf s.mem old va))
    (hn1 : 1 ≤ n) (hn : n ≤ PGSIZE)
    (h1 : uvmcopy L cpu p old c.pagetable sz s = some (0, s1))
    (h2 : copyout L cpu V E c c.pagetable va src n s1 = some (0, c2, s2)) :
    Mapped s2.mem old va ∧ frameOf s2.mem old va = frameOf s.mem old va ∧
    (∀ x, frameOf s.mem old va ≤ x → x < frameOf s.mem old va + PGSIZE →
      s2.mem x = s.mem x) ∧
    Mapped s2.mem c.pagetable va ∧ frameOf s2.mem c.pagetable va ≠ frameOf s.mem old va ∧
    (∀ k, k < n → readByte s2 (frameOf s2.mem c.pagetable va + k) = src k % 256) ∧
    (∀ k, n ≤ k → k < PGSIZE →
      readByte s2 (frameOf s2.mem c.pagetable va + k) = readByte s (frameOf s.mem old va + k)) ∧
    refcount (frameOf s.mem old va) s2 = 1 := by
  have hN : 0 < L.NCPU := by omega
  have hmax : va < MAXVA := by omega
  have hfa := frameOf_aligned s.mem old va
  have hfl := frameOf_lt s.mem old va
  -- after uvmcopy
  unfold uvmcopy copy at h1
  rcases copyLoop_child L cpu p old c.pagetable sz s hc hpre PAGE_FUEL 0 s 0 s1
    (Copied_init L _ old c.pagetable s hso hsn hap)
    (Child_init L _ old c.pagetable s hsn hch.free_zero)
    (by decide) (Nat.zero_le _) (by unfold PGSIZE; omega) h1 with
    ⟨_, i, hi1, _, _, _, hC, hD⟩ | ⟨i_f, s_f, _, _, _, _, he⟩
  swap
  · exact absurd he (copyErr_ne_zero L cpu _ _ _ _)
  have hin : InRange 0 i va := by unfold InRange; omega
  have hinsz : InRange 0 sz va := by unfold InRange; omega
  have hnf : ¬ IsFree L s (frameOf s.mem old va) := hpre.alloc va hinsz hval hnu
  have hfn : ¬ IsPtPage s.mem c.pagetable (frameOf s.mem old va) := hch.notpage va hinsz hval hnu
  obtain ⟨b1, b2, b3, b4, b5, b6, b7⟩ := cow_entry (pteval s.mem old va) hval
  have hleafo : pteval s1.mem old va =
      PA2PTE (frameOf s.mem old va) ||| COW_FLAGS (pteval s.mem old va) :=
    hC.old_done va hin hval hnu
  have hleafn : pteval s1.mem c.pagetable va =
      PA2PTE (frameOf s.mem old va) ||| COW_FLAGS (pteval s.mem old va) :=
    hD.cow va hin hval hnu
  have hf1 : frameOf s1.mem c.pagetable va = frameOf s.mem old va := by
    unfold frameOf; rw [hleafn]; exact b1
  have href1 : refcount (frameOf s.mem old va) s1 = 2 := by
    rw [hC.ref_done va hin hval hnu, href]
  have hnpg1 : ∀ q, IsPtPage s1.mem c.pagetable q → IsPtPage s.mem c.pagetable q ∨ IsFree L s q := by
    intro q hq
    rcases hD.pages q hq with hh | ⟨hh, _⟩
    · exact Or.inl hh
    · exact Or.inr hh
  -- the kernel table of the child
  obtain ⟨k1, _, _, _, k5⟩ := Sep_frame L s s1 c.kernel_pagetable hsk hC.sep_old.free
    (fun f hf => hsk.apart f (hC.free_sub f hf))
    (fun q hq x hx1 hx2 => hD.keep q
      (IsPtPage_aligned s.mem _ q hsk.tree.root_aligned hq) (fun hh => hsk.apart q hh hq)
      (hapk q hq).2 (hapk q hq).1 x hx1 hx2)
  have hnf1 : ¬ IsFree L s1 (frameOf s.mem old va) := fun hh => hnf (hC.free_sub _ hh)
  have hfn1 : ¬ IsPtPage s1.mem c.pagetable (frameOf s.mem old va) := by
    intro hh
    rcases hnpg1 _ hh with h' | h'
    · exact hfn h'
    · exact hnf h'
  have hfk1 : ¬ IsPtPage s1.mem c.kernel_pagetable (frameOf s.mem old va) := fun hh =>
    hfk ((k5 _).mp hh)
  have hupre : UvmPre L c.pagetable c.kernel_pagetable va (va + PGSIZE) s1 := by
    refine ⟨hC.sep_new, k1, ?_, hD.free_zero, ?_, ?_⟩
    · intro q hq hq'
      have hqk := (k5 q).mp hq
      rcases hnpg1 q hq' with h' | h'
      · exact (hapk q hqk).2 h'
      · exact hsk.apart q h' hqk
    · intro va' hv _ _
      rw [(InRange_single va va' hva).mp hv, hf1]
      exact ⟨hnf1, hfn1, hfk1⟩
    · intro va' va'' hv hv' _ _ _ _ _
      rw [(InRange_single va va' hva).mp hv, (InRange_single va va'' hva).mp hv']
  have hcow : IS_COW (pteval s1.mem c.pagetable va) = true := by
    unfold IS_COW
    rw [hleafn]
    simp only [decide_eq_true_eq]
    exact ⟨b5, b7⟩
  -- the write
  rcases copyout_page L cpu V E c c2 c.pagetable va src n s1 s2 0 hva hn1 hn h2 with
    ⟨_, pa0, s3, hpg, hs2⟩ | ⟨hr, _⟩
  swap
  · cases hr
  unfold copyoutPage at hpg
  simp only at hpg
  rw [if_pos hmax, walk_false L cpu c.pagetable va s1 hmax] at hpg
  simp only at hpg
  have hd : PGROUNDDOWN va = va := by unfold PGROUNDDOWN PGSIZE at *; omega
  have hslot : ∃ pte, slot s1.mem c.pagetable va = some pte := by
    cases hs : slot s1.mem c.pagetable va with
    | none =>
      exfalso
      have hv1 : pteval s1.mem c.pagetable va &&& PTE_V ≠ 0 := by
        rw [hleafn]; exact b5
      rw [pteval_of_none s1.mem c.pagetable va hs] at hv1
      exact zero_not_valid hv1
    | some pte => exact ⟨pte, rfl⟩
  obtain ⟨pte, hs⟩ := hslot
  have hx : s1.mem pte = pteval s1.mem c.pagetable va := (pteval_of_slot _ _ _ _ hs).symm
  rw [hs] at hpg
  simp only [Option.isSome_some, Option.getD_some] at hpg
  rw [hx, hcow, if_pos (Or.inr ⟨trivial, rfl⟩), hd] at hpg
  cases hh : page_fault_handler L cpu V E c va s1 with
  | none => rw [hh] at hpg; cases hpg
  | some res =>
    obtain ⟨ret, p1, s4⟩ := res
    rw [hh] at hpg
    simp only at hpg
    by_cases hret : ret = 0
    swap
    · rw [if_neg hret] at hpg
      cases hpg
    rw [if_pos hret] at hpg
    simp only [Option.some.injEq, Prod.mk.injEq] at hpg
    obtain ⟨hpa, _, hs3⟩ := hpg
    subst hret hs3
    obtain ⟨_, mem, f1, f2, f3, f4, f5, f6, f7, f8, f9, f10, f11, f12, f13⟩ :=
      cow_fault L cpu V E c p1 va s1 s4 hc hupre hva (by rw [hcs]; exact hlt) hmax hcow hh
    rw [hf1] at f9 f12 f13
    have hma := hC.sep_new.free.aligned mem f1
    have hml := hC.sep_new.free.lt mem f1
    have hmf : mem ≠ frameOf s.mem old va := fun hh' => hnf1 (hh' ▸ f1)
    -- the leaf of the child
    have hu1 : (COW_WFLAGS (pteval s1.mem c.pagetable va)) &&& PTE_U ≠ 0 := by
      have e : (PA2PTE (frameOf s.mem old va) ||| COW_FLAGS (pteval s.mem old va)).testBit 4
          = true := by
        have := cow_entry_bits (pteval s.mem old va) 4 (by decide) (by decide) (by decide)
        rw [(user_iff _).mp hu] at this
        exact this
      rw [user_iff, COW_WFLAGS_testBit _ 4 (by decide), hleafn, e]
      rfl
    have hpa0 : pa0 = mem := by
      rw [← hpa, walkaddr_eq, if_neg (by omega), f6, if_neg (leaf_valid _ _),
        if_neg (leaf_user _ _ hu1)]
      exact leaf_pa mem _ hma hml (COW_WFLAGS_lt _)
    subst hpa0
    have hout : ∀ x, ¬ (pa0 ≤ x ∧ x < pa0 + PGSIZE) → s2.mem x = s4.mem x := by
      intro x hx'
      rw [hs2]
      exact memmoveOut_mem pa0 src 0 n s4 pa0 x hma (Nat.le_refl _) (by omega) hx'
    have hrd : ∀ a, readByte s2 a =
        if pa0 ≤ a ∧ a < pa0 + n then src (0 + (a - pa0)) % 256 else readByte s4 a := by
      intro a
      rw [hs2]
      exact memmoveOut_read pa0 src 0 n s4 a
    -- frames other than the new one
    have hkeep : ∀ g, g % PGSIZE = 0 → ¬ IsFree L s1 g → ¬ IsPtPage s1.mem c.pagetable g →
        ¬ IsPtPage s1.mem c.kernel_pagetable g →
        (g = frameOf s.mem old va → (refcount g s1 + 255) % 256 ≠ 0) →
        ∀ x, g ≤ x → x < g + PGSIZE → s2.mem x = s1.mem x := by
      intro g hg hgf hgp hgk hsh x hx1 hx2
      have hgm : g ≠ pa0 := fun hh' => hgf (hh' ▸ f1)
      rw [hout x (page_apart g pa0 x hg hma hgm hx1 hx2)]
      exact (f12 g hg hgf hgp hgk hsh).2.2.2 x hx1 hx2
    have hshare : (refcount (frameOf s.mem old va) s1 + 255) % 256 ≠ 0 := by
      rw [href1]; decide
    obtain ⟨_, _, vo⟩ := views_frame s1.mem s2.mem old (by
      intro q hq x hx1 hx2
      have hqa := IsPtPage_aligned s1.mem old q hC.sep_old.tree.root_aligned hq
      have hq0 : IsPtPage s.mem old q := (hD.old_pages q).mp hq
      exact hkeep q hqa (fun hh' => hC.sep_old.apart q hh' hq) (hC.apart q hq)
        (fun hh' => (hapk q ((k5 q).mp hh')).1 hq0)
        (fun hh' => absurd (hh' ▸ hq0) hfo) x hx1 hx2)
    obtain ⟨_, _, vn⟩ := views_frame s4.mem s2.mem c.pagetable (by
      intro q hq x hx1 hx2
      have hqa := IsPtPage_aligned s4.mem _ q f2.tree.root_aligned hq
      have hqm : q ≠ pa0 := fun hh' => hC.sep_new.apart pa0 f1 ((f8 pa0).mp (hh' ▸ hq))
      exact hout x (page_apart q pa0 x hqa hma hqm hx1 hx2))
    have hfn2 : frameOf s2.mem c.pagetable va = pa0 := by
      unfold frameOf
      rw [vn va, f6]
      exact leaf_pa pa0 _ hma hml (COW_WFLAGS_lt _)
    have hf2 : ∀ x, frameOf s.mem old va ≤ x → x < frameOf s.mem old va + PGSIZE →
        s2.mem x = s.mem x := by
      intro x hx1 hx2
      rw [hkeep _ hfa hnf1 hfn1 hfk1 (fun _ => hshare) x hx1 hx2]
      exact hD.keep _ hfa hnf hfn hfo x hx1 hx2
    refine ⟨?_, ?_, hf2, ?_, ?_, ?_, ?_, ?_⟩
    · unfold Mapped; rw [vo va, hleafo]; exact b5
    · unfold frameOf; rw [vo va, hleafo]; exact b1
    · unfold Mapped; rw [vn va, f6]; exact leaf_valid _ _
    · rw [hfn2]; exact hmf
    · intro k hk
      rw [hfn2, hrd, if_pos (by omega)]
      congr 2
      omega
    · intro k hk1 hk2
      rw [hfn2, hrd, if_neg (by omega)]
      unfold readByte
      have e1 : (pa0 + k) % 8 = (frameOf s.mem old va + k) % 8 := by
        unfold PGSIZE at hma hfa; omega
      have e2 : frameOf s.mem old va + (pa0 + k - (pa0 + k) % 8 - pa0) =
          frameOf s.mem old va + k - (frameOf s.mem old va + k) % 8 := by
        unfold PGSIZE at hma hfa; omega
      rw [f9 _ (by unfold PGSIZE at hma; omega) (by unfold PGSIZE at *; omega), e2, e1]
      have hk3 : s1.mem (frameOf s.mem old va + k - (frameOf s.mem old va + k) % 8) =
          s.mem (frameOf s.mem old va + k - (frameOf s.mem old va + k) % 8) :=
        hD.keep _ hfa hnf hfn hfo _ (by unfold PGSIZE at hfa; omega)
          (by unfold PGSIZE at *; omega)
      rw [hk3]
    · have := (f12 _ hfa hnf1 hfn1 hfk1 (fun _ => hshare)).2.2.1
      rw [if_pos rfl, href1] at this
      show s2.ref _ = 1
      rw [hs2, memmoveOut_ref]
      exact this

theorem sXFork_facts :
    Sep L1 sXFork 61440 ∧ Sep L1 sXFork 57344 ∧ Sep L1 sXFork 53248 ∧
    (∀ q, IsPtPage sXFork.mem 61440 q → ¬ IsPtPage sXFork.mem 57344 q) ∧
    (∀ q, IsPtPage sXFork.mem 53248 q →
      ¬ IsPtPage sXFork.mem 61440 q ∧ ¬ IsPtPage sXFork.mem 57344 q) ∧
    (∀ q, IsPtPage sXFork.mem 57344 q ↔ q = 57344) ∧
    ¬ IsPtPage sXFork.mem 61440 20480 ∧ ¬ IsPtPage sXFork.mem 53248 20480 ∧
    (∀ f, IsFree L1 sXFork f → f = 28672 ∨ f = 32768 ∨ f = 36864) := by
  have hz : ∀ a, sFork3.mem a = 0 := fun _ => rfl
  have hso : Sep L1 sFork3 61440 :=
    Sep_zero L1 sFork3 61440 rfl hz (by decide) (by decide) (by decide)
  have hsn : Sep L1 sFork3 57344 :=
    Sep_zero L1 sFork3 57344 rfl hz (by decide) (by decide) (by decide)
  have hsk : Sep L1 sFork3 53248 :=
    Sep_zero L1 sFork3 53248 rfl hz (by decide) (by decide) (by decide)
  have po := (PT_zero sFork3.mem 61440 hz (by decide)).2
  have pn := (PT_zero sFork3.mem 57344 hz (by decide)).2
  have pk := (PT_zero sFork3.mem 53248 hz (by decide)).2
  have hfree0 : ∀ f, IsFree L1 sFork3 f → f < 53248 ∧ f ≠ 20480 := by
    rintro f ⟨c, hc, hm⟩
    have : c = 0 := by unfold L1 at hc; simp at hc; exact hc
    subst this
    have e : sFork3.freelist 0 = [8192, 12288, 16384, 24576, 28672, 32768, 36864] := rfl
    rw [e] at hm
    simp at hm
    omega
  -- the table of the parent
  obtain ⟨r, s', he, hg, _⟩ := mappages_page L1 0 61440 (2 * PGSIZE) 20480
    (PTE_R ||| PTE_W ||| PTE_U) sFork3 (by decide) hso (by decide) (by decide)
    (by unfold Mapped; rw [pteval_zero _ _ _ hz]; exact zero_not_valid)
  have e : mappages L1 0 61440 (2 * PGSIZE) PGSIZE 20480 (PTE_R ||| PTE_W ||| PTE_U) sFork3
      = some (0, sXMap1) := rfl
  rw [e] at he
  simp only [Option.some.injEq, Prod.mk.injEq] at he
  obtain ⟨_, he2⟩ := he
  subst he2
  obtain ⟨n1, _, _, _, n5, n6⟩ := PtGrow_other L1 61440 57344 sFork3 sXMap1 hg hsn
    (fun q h1 h2 => by have a := (pn q).mp h1; have b := (po q).mp h2; omega)
  obtain ⟨k1, _, _, k4, k5, k6⟩ := PtGrow_other L1 61440 53248 sFork3 sXMap1 hg hsk
    (fun q h1 h2 => by have a := (pk q).mp h1; have b := (po q).mp h2; omega)
  have hopg : ∀ q, IsPtPage sXMap1.mem 61440 q → q = 61440 ∨ IsFree L1 sFork3 q := by
    intro q hq
    rcases hg.pages_new q hq with h | ⟨h, _⟩
    · exact Or.inl ((po q).mp h)
    · exact Or.inr h
  -- the kernel table of the child
  obtain ⟨r2, s2, he', hg2, _⟩ := mappages_page L1 0 53248 (2 * PGSIZE) 20480
    (PTE_R ||| PTE_W) sXMap1 (by decide) k1 (by decide) (by decide)
    (by unfold Mapped; rw [k4, pteval_zero _ _ _ hz]; exact zero_not_valid)
  have e' : mappages L1 0 53248 (2 * PGSIZE) PGSIZE 20480 (PTE_R ||| PTE_W) sXMap1
      = some (0, sXMap2) := rfl
  rw [e'] at he'
  simp only [Option.some.injEq, Prod.mk.injEq] at he'
  obtain ⟨_, he3⟩ := he'
  subst he3
  obtain ⟨o1, _, _, _, o5, o6⟩ := PtGrow_other L1 53248 61440 sXMap1 sXMap2 hg2 hg.sep
    (fun q h1 h2 => k6 q h2 h1)
  obtain ⟨m1, _, _, _, m5, m6⟩ := PtGrow_other L1 53248 57344 sXMap1 sXMap2 hg2 n1
    (fun q h1 h2 => by
      have a := (pn q).mp ((n5 q).mp h1)
      have b := (k5 q).mp h2
      have c := (pk q).mp b
      omega)
  have hfree1 : ∀ f, IsFree L1 sXMap1 f → IsFree L1 sFork3 f :=
    IsFree_of_suffix L1 sFork3 sXMap1 hg.suffix
  have hkpg : ∀ q, IsPtPage sXMap2.mem 53248 q → q = 53248 ∨ IsFree L1 sFork3 q := by
    intro q hq
    rcases hg2.pages_new q hq with h | ⟨h, _⟩
    · exact Or.inl ((pk q).mp ((k5 q).mp h))
    · exact Or.inr (hfree1 q h)
  -- the byte
  have hout : ∀ x, ¬ (20480 ≤ x ∧ x < 20480 + PGSIZE) → sXFork.mem x = sXMap2.mem x := by
    intro x hx
    exact writeByte_mem sXMap2 20480 88 x (by unfold PGSIZE at hx; omega)
  have hfo2 : ¬ IsPtPage sXMap2.mem 61440 20480 := by
    intro h
    rcases hopg 20480 ((o5 _).mp h) with h' | h'
    · omega
    · exact (hfree0 _ h').2 rfl
  have hfn2 : ¬ IsPtPage sXMap2.mem 57344 20480 := by
    intro h
    have := (pn _).mp ((n5 _).mp ((m5 _).mp h))
    omega
  have hfk2 : ¬ IsPtPage sXMap2.mem 53248 20480 := by
    intro h
    rcases hkpg 20480 h with h' | h'
    · omega
    · exact (hfree0 _ h').2 rfl
  obtain ⟨x1, _, _, _, x5⟩ := Sep_page_write L1 sXMap2 sXFork 61440 20480 o1 (by decide) hfo2
    rfl hout
  obtain ⟨y1, _, _, _, y5⟩ := Sep_page_write L1 sXMap2 sXFork 57344 20480 m1 (by decide) hfn2
    rfl hout
  obtain ⟨z1, _, _, _, z5⟩ := Sep_page_write L1 sXMap2 sXFork 53248 20480 hg2.sep (by decide)
    hfk2 rfl hout
  refine ⟨x1, y1, z1, ?_, ?_, ?_, fun h => hfo2 ((x5 _).mp h), fun h => hfk2 ((z5 _).mp h), ?_⟩
  · intro q h1 h2
    have a := (pn q).mp ((n5 q).mp ((m5 q).mp ((y5 q).mp h2)))
    rcases hopg q ((o5 q).mp ((x5 q).mp h1)) with h' | h'
    · omega
    · have := (hfree0 q h').1; omega
  · intro q h
    have hk := (z5 q).mp h
    refine ⟨fun h1 => o6 q ((x5 q).mp h1) hk, fun h2 => ?_⟩
    have a := (pn q).mp ((n5 q).mp ((m5 q).mp ((y5 q).mp h2)))
    rcases hkpg q hk with h' | h'
    · omega
    · have := (hfree0 q h').1; omega
  · intro q
    exact (y5 q).trans ((m5 q).trans ((n5 q).trans (pn q)))
  · rintro f ⟨c, hc, hm⟩
    have : c = 0 := by unfold L1 at hc; simp at hc; exact hc
    subst this
    have e : sXFork.freelist 0 = [28672, 32768, 36864] := by decide
    rw [e] at hm
    simpa using hm

/-- C13 fails for `n = 0`: in `sXFork` the parent maps page 2 (valid, writable, user) to
the frame 20480 with count 1, which starts with the byte 88; `uvmcopy` returns 0, and a
`copyout` of 0 bytes to the address 8192 in the child returns 0 without a page fault:
the state is as after the fork, both tables map page 2 to the frame 20480, whose count
is 2. -/
theorem cow_fork_write_no_byte :
    Mapped sXFork.mem 61440 8192 ∧ pteval sXFork.mem 61440 8192 &&& PTE_W ≠ 0 ∧
    pteval sXFork.mem 61440 8192 &&& PTE_U ≠ 0 ∧ frameOf sXFork.mem 61440 8192 = 20480 ∧
    refcount 20480 sXFork = 1 ∧ readByte sXFork 20480 = 88 ∧
    uvmcopy L1 0 pXParent 61440 57344 (4 * PGSIZE) sXFork = some (0, sXForked) ∧
    copyout L1 0 V1 E0 pXChild 57344 8192 (fun _ => 89) 0 sXForked =
      some (0, pXChild, sXForked) ∧
    frameOf sXForked.mem 57344 8192 = 20480 ∧ frameOf sXForked.mem 61440 8192 = 20480 ∧
    refcount 20480 sXForked = 2 := by
  refine ⟨by unfold Mapped; decide, by decide, by decide, by decide, by decide, by decide,
    rfl, rfl, by decide, by decide, by decide⟩

/-- C13 (witness): the example of the specification. The parent has four pages, page 2
is mapped to the frame 20480 that starts with the letter X; after `uvmcopy` the child
writes the letter Y to the address 0x2000 with `copyout`. The parent still maps the page
to the frame 20480, which starts with X and has count 1 again, and the child maps it to
the frame 36864, which starts with Y. -/
theorem cow_fork_write_witness :
    uvmcopy L1 0 pXParent 61440 57344 (4 * PGSIZE) sXFork = some (0, sXForked) ∧
    copyout L1 0 V1 E0 pXChild 57344 8192 (fun _ => 89) 1 sXForked =
      some (0, pXChild, sXWritten) ∧
    readByte sXFork 20480 = 88 ∧
    frameOf sXWritten.mem 61440 8192 = 20480 ∧ readByte sXWritten 20480 = 88 ∧
    frameOf sXWritten.mem 57344 8192 = 36864 ∧ readByte sXWritten 36864 = 89 ∧
    refcount 20480 sXWritten = 1 := by
  obtain ⟨hso, hsn, hsk, hap, hapk, hpg, hfo, hfk, hfree⟩ := sXFork_facts
  have e1 : uvmcopy L1 0 pXParent 61440 pXChild.pagetable (4 * PGSIZE) sXFork =
      some (0, sXForked) := rfl
  have e2 : copyout L1 0 V1 E0 pXChild pXChild.pagetable 8192 (fun _ => 89) 1 sXForked =
      some (0, pXChild, sXWritten) := rfl
  have hf : frameOf sXFork.mem 61440 8192 = 20480 := by decide
  have hr : refcount 20480 sXFork = 1 := by decide
  have hnf : ¬ IsFree L1 sXFork 20480 := by
    intro h
    rcases hfree _ h with h | h | h <;> omega
  have hcases : ∀ va, InRange 0 (4 * PGSIZE) va →
      va = 0 ∨ va = 4096 ∨ va = 8192 ∨ va = 12288 := by
    intro va hv; unfold InRange PGSIZE at *; omega
  have hm0 : ¬ Mapped sXFork.mem 61440 0 := by unfold Mapped; decide
  have hm1 : ¬ Mapped sXFork.mem 61440 4096 := by unfold Mapped; decide
  have hm3 : ¬ Mapped sXFork.mem 61440 12288 := by unfold Mapped; decide
  have honly : ∀ va, InRange 0 (4 * PGSIZE) va → Mapped sXFork.mem 61440 va → va = 8192 := by
    intro va hv hm
    rcases hcases va hv with h | h | h | h
    · rw [h] at hm; exact absurd hm hm0
    · rw [h] at hm; exact absurd hm hm1
    · exact h
    · rw [h] at hm; exact absurd hm hm3
  have hpre : CopyPre L1 pXParent.ustack 61440 (4 * PGSIZE) sXFork := by
    refine ⟨?_, ?_, ?_⟩
    · intro va hv hm _
      rw [honly va hv hm, hf]; exact hnf
    · intro va va' hv hv' hm hm' _ _ _
      rw [honly va hv hm, honly va' hv' hm']
    · intro va hv hm _
      rw [honly va hv hm, hf, hr]; decide
  have hch : ChildPre L1 pXParent.ustack 61440 pXChild.pagetable (4 * PGSIZE) sXFork := by
    refine ⟨?_, ?_, ?_⟩
    · intro f hfr
      rcases hfree f hfr with h | h | h <;> (rw [h]; decide)
    · intro va hv
      rcases hcases va hv with h | h | h | h <;> (rw [h]; unfold Mapped; decide)
    · intro va hv hm _
      rw [honly va hv hm, hf]
      intro h
      have := (hpg _).mp h
      omega
  obtain ⟨_, c2, _, _, c5, _, _, c8⟩ := cow_fork_write L1 0 V1 E0 pXParent pXChild pXChild
    61440 (4 * PGSIZE) 8192 1 (fun _ => 89) sXFork sXForked sXWritten (by decide) hso hsn hsk
    hap hapk hpre hch (by decide) rfl (by decide) (by decide) (by decide)
    (by unfold Mapped; decide) (by decide) (by rw [hf]; exact hr) (by rw [hf]; exact hfo)
    (by rw [hf]; exact hfk) (by decide) (by decide) e1 e2
  rw [hf] at c2 c8
  exact ⟨rfl, rfl, by decide, c2, by decide, by decide, by decide, c8⟩

/-- A call `uvmalloc(pt, a, a + PGSIZE)` for a page-aligned `a` that does not return 0
has resolved the fault on page `a`, in the zero-fill branch or in the copy-on-write
branch. -/
theorem uvmalloc_page (L : Layout) (cpu : Nat) (p : Proc) (pt a : Nat) (s s' : KState)
    (r : Nat) (hc : cpu < L.NCPU)
    (hpre : UvmPre L pt p.kernel_pagetable a (a + PGSIZE) s)
    (ha : a % PGSIZE = 0) (hmax : a < MAXVA)
    (hu : Mapped s.mem pt a → pteval s.mem pt a &&& PTE_U ≠ 0)
    (h : uvmalloc L cpu p pt a (a + PGSIZE) s = some (r, s')) (hr : r ≠ 0) :
    ∃ mem, Faulted L pt p.kernel_pagetable a mem s s' := by
  have hN : 0 < L.NCPU := by omega
  have hP : 0 < PGSIZE := by decide
  have hup : PGROUNDUP a = a := PGROUNDUP_aligned a ha (by omega)
  unfold uvmalloc at h
  rw [if_neg (by omega), hup] at h
  have hf : PAGE_FUEL = 67108863 + 1 + 1 := by decide
  rw [hf] at h
  unfold uvmallocLoop at h
  rw [if_pos (by omega)] at h
  have hG := Grown_init L pt p.kernel_pagetable a (a + PGSIZE) s hpre
  have hina : InRange a (a + PGSIZE) a := by unfold InRange; omega
  cases hk : kalloc L cpu s with
  | none => rw [hk] at h; cases h
  | some res =>
    obtain ⟨ro, s1⟩ := res
    rw [hk] at h
    cases ro with
    | none =>
      simp only at h
      cases hd : uvmdealloc L cpu pt a a s1 with
      | none => rw [hd] at h; cases h
      | some res2 =>
        rw [hd] at h
        simp only [Option.some.injEq, Prod.mk.injEq] at h
        exact absurd h.1.symm hr
    | some mem =>
      simp only at h
      have hp := kalloc_some L cpu s s1 mem hc hpre.sep.free hk
      have hma := hpre.sep.free.aligned mem hp.was_free
      have hml := hpre.sep.free.lt mem hp.was_free
      obtain ⟨a1, _, al0, a4, a5⟩ := Sep_popped L s s1 pt mem hpre.sep hp
      rw [walk_false L cpu pt a s1 hmax] at h
      simp only at h
      by_cases hcw : (slot s1.mem pt a).isSome ∧ IS_COW (s1.mem ((slot s1.mem pt a).getD 0)) = true
      · -- the copy-on-write branch
        rw [if_pos hcw] at h
        obtain ⟨hsome, hcow1⟩ := hcw
        obtain ⟨pte, hs⟩ := Option.isSome_iff_exists.mp hsome
        rw [hs] at h hcow1
        simp only [Option.getD_some] at h hcow1
        have hx : s1.mem pte = pteval s.mem pt a := by
          rw [← pteval_of_slot _ _ _ _ hs, a4 a]
        have hval : Mapped s.mem pt a := by
          unfold Mapped; rw [← hx]; exact IS_COW_valid _ hcow1
        cases hun : uvmunmap L cpu pt a 1 true
            (memmovePage mem (PTE2PA (s1.mem pte)) s1) with
        | none => rw [hun] at h; cases h
        | some s4 =>
          rw [hun] at h
          simp only at h
          cases hum : proc_usermapping L cpu p (a + PGSIZE) a s4 with
          | none => rw [hum] at h; cases h
          | some s5 =>
            rw [hum] at h
            simp only at h
            cases hm : mappages L cpu pt a PGSIZE mem (COW_WFLAGS (s1.mem pte)) s5 with
            | none => rw [hm] at h; cases h
            | some res3 =>
              obtain ⟨r3, s6⟩ := res3
              rw [hm] at h
              simp only at h
              obtain ⟨hr3, hG6⟩ := Grown_cow L hN cpu p pt a a (a + PGSIZE) mem pte
                s s s1 s4 s5 s6 r3 hpre hG ha (Nat.le_refl _) (by omega) hmax hp hs hcow1
                hun hum hm
              obtain ⟨e1, e2, e3, e4, e5, e6, e7, e8, e9⟩ := cow_page_effect L hN cpu p
                pt a a (a + PGSIZE) mem pte s s s1 s4 s5 s6 r3 hG ha (Nat.le_refl _)
                (by omega) hmax hp hs hcow1 hun hum hm
              subst hr3
              simp only [ne_eq, not_true_eq_false, if_false] at h
              unfold uvmallocLoop at h
              rw [if_neg (by omega)] at h
              simp only [Option.some.injEq, Prod.mk.injEq] at h
              obtain ⟨_, hs'⟩ := h
              subst hs'
              have hu1 : (COW_WFLAGS (pteval s.mem pt a)) &&& PTE_U ≠ 0 := by
                rw [user_iff, COW_WFLAGS_testBit _ 4 (by decide), (user_iff _).mp (hu hval)]
                rfl
              have hfr : frameOf s6.mem pt a = mem := by
                unfold frameOf; rw [e1]
                exact leaf_pa mem _ hma hml (COW_WFLAGS_lt _)
              have hnf6 : ¬ IsFree L s6 mem := by
                intro hh
                rcases e7 mem hh with hh' | ⟨hh1, _⟩
                · exact hh'.2 rfl
                · exact (hpre.owned a hina hmax hval).1 (hh1 ▸ hp.was_free)
              refine ⟨mem, hp.was_free, hG6.sep, hG6.sepk, hG6.apart, hG6.free_zero, ?_, ?_, hfr,
                hG6.outside, ⟨hnf6, fun hh => hpre.sep.apart mem hp.was_free ((e8 mem).mp hh),
                  fun hh => hpre.sepk.apart mem hp.was_free ((e9 mem).mp hh)⟩, ?_, ?_⟩
              · unfold Mapped; rw [e1]; exact leaf_valid _ _
              · rw [e1]; exact leaf_user _ _ hu1
              · intro g hg hgf hgp hgk hgo
                have hgo' := hgo hval
                refine ⟨?_, fun hh => hgp ((e8 g).mp hh), fun hh => hgk ((e9 g).mp hh),
                  e3 g hg hgf hgp hgk (fun hh => absurd hh hgo')⟩
                intro hh
                rcases e7 g hh with hh' | ⟨hh1, _⟩
                · exact hgf hh'.1
                · exact hgo' hh1
              · intro g hg
                rcases e7 g hg with hh' | ⟨hh1, _⟩
                · exact Or.inl hh'.1
                · exact Or.inr ⟨hval, hh1⟩
      · -- the zero-fill branch
        rw [if_neg hcw] at h
        obtain ⟨z1, z2, z3, z4, z5, z6, z7, z8⟩ := zeroed_frame L pt mem s s1 hpre.sep hp
        obtain ⟨y1, _, y3, _, _, _, _, _⟩ := zeroed_frame L p.kernel_pagetable mem s s1
          hpre.sepk hp
        by_cases hmp : Mapped (memset mem 0 s1).mem pt a
        · rw [mappages_remap L cpu pt a mem _ (memset mem 0 s1) ha hmax hmp] at h
          cases h
        · obtain ⟨r4, s4, he, hg, hcase⟩ := mappages_page L cpu pt a mem
            (PTE_W ||| PTE_X ||| PTE_R ||| PTE_U) (memset mem 0 s1) hc z1 ha hmax hmp
          rw [he] at h
          simp only at h
          rcases hcase with ⟨hr4, hleaf, hoth⟩ | ⟨hr4, _, _⟩
          swap
          · subst hr4
            simp only [ne_eq, Int.reduceNeg, Int.neg_eq_zero, OfNat.ofNat_ne_zero,
              not_false_eq_true, if_true] at h
            cases hkf : kfree L mem s4 with
            | none => rw [hkf] at h; cases h
            | some s5 =>
              rw [hkf] at h
              simp only at h
              cases hd : uvmdealloc L cpu pt a a s5 with
              | none => rw [hd] at h; cases h
              | some res2 =>
                rw [hd] at h
                rw [if_pos (by decide)] at h
                simp only [Option.some.injEq, Prod.mk.injEq] at h
                exact absurd h.1.symm hr
          subst hr4
          simp only [ne_eq, not_true_eq_false, if_false] at h
          unfold uvmallocLoop at h
          rw [if_neg (by omega)] at h
          simp only [Option.some.injEq, Prod.mk.injEq] at h
          obtain ⟨_, hs'⟩ := h
          subst hs'
          have hG4 := Grown_zero L pt p.kernel_pagetable a a (a + PGSIZE) mem s s s1 s4 hG ha
            (Nat.le_refl _) hmax hp hg hleaf hoth
          obtain ⟨o1, _, _, _, o5, _⟩ := PtGrow_other L pt p.kernel_pagetable _ s4 hg y1
            (fun q hq hq' => hpre.apart q ((y3 q).mp hq) ((z3 q).mp hq'))
          have hnm : ¬ Mapped s.mem pt a := by
            intro hh
            apply hmp
            unfold Mapped at *
            rw [z2 a]; exact hh
          have hm3 : ¬ IsFree L (memset mem 0 s1) mem := fun hh => ((z4 mem).mp hh).2 rfl
          have hmp3 : ¬ IsPtPage (memset mem 0 s1).mem pt mem := fun hh =>
            hpre.sep.apart mem hp.was_free ((z3 mem).mp hh)
          obtain ⟨u1, u2, _, _⟩ := hg.untouched mem hma hm3 hmp3
          have hfr : frameOf s4.mem pt a = mem := by
            unfold frameOf; rw [hleaf]
            exact leaf_pa mem _ hma hml (by decide)
          refine ⟨mem, hp.was_free, hG4.sep, hG4.sepk, hG4.apart, hG4.free_zero, ?_, ?_, hfr,
            hG4.outside, ⟨u1, u2, fun hh => hpre.sepk.apart mem hp.was_free
              ((y3 mem).mp ((o5 mem).mp hh))⟩, ?_, ?_⟩
          · unfold Mapped; rw [hleaf]; exact leaf_valid _ _
          · rw [hleaf]; exact leaf_user _ _ (by decide)
          · intro g hg' hgf hgp hgk _
            have hgm : g ≠ mem := fun hh => hgf (hh ▸ hp.was_free)
            obtain ⟨v1, v2, _, v4⟩ := hg.untouched g hg'
              (fun hh => hgf ((z4 g).mp hh).1) (fun hh => hgp ((z3 g).mp hh))
            refine ⟨v1, v2, fun hh => hgk ((y3 g).mp ((o5 g).mp hh)), ?_⟩
            intro x hx1 hx2
            rw [v4 x hx1 hx2]
            exact z8 x (page_apart g mem x hg' hma hgm hx1 hx2)
          · intro g hg'
            exact Or.inl ((z4 g).mp (IsFree_of_suffix L _ s4 hg.suffix g hg')).1

/-- A fault that has been resolved stays resolved when the kernel table grows. -/
theorem Faulted_kgrow (L : Layout) (pt kpt a mem : Nat) (s s1 s2 : KState)
    (hF : Faulted L pt kpt a mem s s1) (hg : PtGrow L kpt s1 s2) :
    Faulted L pt kpt a mem s s2 := by
  obtain ⟨o1, _, _, o4, o5, o6⟩ := PtGrow_other L kpt pt s1 s2 hg hF.sep
    (fun q hq hq' => hF.apart q hq' hq)
  have hma : mem % PGSIZE = 0 := by rw [← hF.frame]; exact frameOf_aligned _ _ _
  obtain ⟨u1, u2, _, _⟩ := hg.untouched mem hma hF.fresh.1 hF.fresh.2.2
  refine ⟨hF.was_free, o1, hg.sep, fun q hq hq' => o6 q hq' hq, ?_, ?_, ?_, ?_, ?_,
    ⟨u1, fun hh => hF.fresh.2.1 ((o5 mem).mp hh), u2⟩, ?_, ?_⟩
  · intro f hf
    rw [hg.ref_free f hf]
    exact hF.free_zero f (IsFree_of_suffix L s1 s2 hg.suffix f hf)
  · unfold Mapped; rw [o4 a]; exact hF.valid
  · rw [o4 a]; exact hF.user
  · unfold frameOf; rw [o4 a]; exact hF.frame
  · intro va h1 h2
    rw [o4 va]; exact hF.others va h1 h2
  · intro g hg' hgf hgp hgk hgo
    obtain ⟨k1, k2, k3, k4⟩ := hF.keep g hg' hgf hgp hgk hgo
    obtain ⟨v1, v2, _, v4⟩ := hg.untouched g hg' k1 k3
    refine ⟨v1, fun hh => k2 ((o5 g).mp hh), v2, ?_⟩
    intro x hx1 hx2
    rw [v4 x hx1 hx2]
    exact k4 x hx1 hx2
  · intro g hg'
    exact hF.free_sub g (IsFree_of_suffix L s1 s2 hg.suffix g hg')

/-- The leaf that `load_vma` writes: it is valid, a user page, and keeps the frame. -/
theorem vma_leaf (pa perm : Nat) (h1 : pa % PGSIZE = 0) (h2 : pa < 2 ^ 64) (hp : perm < 1024) :
    (PA2PTE pa ||| perm ||| PTE_V ||| PTE_U) &&& PTE_V ≠ 0 ∧
    (PA2PTE pa ||| perm ||| PTE_V ||| PTE_U) &&& PTE_U ≠ 0 ∧
    PTE2PA (PA2PTE pa ||| perm ||| PTE_V ||| PTE_U) = pa := by
  refine ⟨?_, ?_, ?_⟩
  · rw [valid_iff]
    simp [Nat.testBit_or, PTE_V]
  · rw [user_iff, Nat.testBit_or]
    have : PTE_U.testBit 4 = true := by decide
    rw [this, Bool.or_true]
  · have e : PA2PTE pa ||| perm ||| PTE_V ||| PTE_U = PA2PTE pa ||| (perm ||| PTE_V ||| PTE_U) := by
      rw [Nat.or_assoc, Nat.or_assoc, ← Nat.or_assoc perm]
    rw [e]
    exact PTE2PA_make pa _ h1 h2 (@Nat.or_lt_two_pow _ _ 10 (or_V_lt perm hp) (by decide))

/-- A fault that has been resolved stays resolved when `load_vma` has read the page
from its file and has set the permissions of the leaf. -/
theorem Faulted_load (L : Layout) (cpu : Nat) (V : VmaLayout) (E : Ext) (p : Proc)
    (a mem : Nat) (index r2 : Int) (s s1 s2 : KState) (hR : ReadiFrame E)
    (ha : a % PGSIZE = 0) (hmax : a < MAXVA)
    (hF : Faulted L p.pagetable p.kernel_pagetable a mem s s1)
    (h : load_vma L cpu V E p a index s1 = some (r2, s2)) (hr : r2 ≠ -1) :
    Faulted L p.pagetable p.kernel_pagetable a mem s s2 := by
  have hma : mem % PGSIZE = 0 := by rw [← hF.frame]; exact frameOf_aligned _ _ _
  have hml : mem < 2 ^ 64 := by rw [← hF.frame]; exact frameOf_lt _ _ _
  unfold load_vma at h
  simp only at h
  generalize hrd : E.readi (p.vma index.toNat).file a _ _ p s1 = rr at h
  obtain ⟨q1, q2, q3⟩ : rr.2.freelist = s1.freelist ∧ rr.2.ref = s1.ref ∧
      ∀ x, ¬ (frameOf s1.mem p.pagetable a ≤ x ∧ x < frameOf s1.mem p.pagetable a + PGSIZE) →
        rr.2.mem x = s1.mem x := by
    rw [← hrd]; exact hR _ _ _ _ _ _
  rw [hF.frame] at q3
  split at h
  · simp only [Option.some.injEq, Prod.mk.injEq] at h
    exact absurd h.1.symm hr
  split at h
  · simp only [Option.some.injEq, Prod.mk.injEq] at h
    exact absurd h.1.symm hr
  obtain ⟨c1, _, cl0, c4, c5⟩ := Sep_page_write L s1 rr.2 p.pagetable mem hF.sep hma
    hF.fresh.2.1 q1 q3
  obtain ⟨d1, _, _, _, d5⟩ := Sep_page_write L s1 rr.2 p.kernel_pagetable mem hF.sepk hma
    hF.fresh.2.2 q1 q3
  rw [walk_false L cpu p.pagetable a rr.2 hmax] at h
  cases hs : slot rr.2.mem p.pagetable a with
  | none =>
    rw [hs] at h
    simp only [Option.some.injEq, Prod.mk.injEq] at h
    exact absurd h.1.symm hr
  | some pte =>
    rw [hs] at h
    simp only at h
    split at h
    · cases h
    simp only [Option.some.injEq, Prod.mk.injEq, true_and] at h
    have hpa : PTE2PA (rr.2.mem pte) = mem := by
      rw [← pteval_of_slot _ _ _ _ hs, c4 a]
      exact hF.frame
    rw [hpa] at h
    have hp3 : ∀ (c1 c2 c3 : Prop) [Decidable c1] [Decidable c2] [Decidable c3],
        ((if c1 then PTE_R else 0) ||| (if c2 then PTE_W else 0) |||
          (if c3 then PTE_X else 0)) < 1024 := by
      intro c1 c2 c3 _ _ _
      refine @Nat.or_lt_two_pow _ _ 10 (@Nat.or_lt_two_pow _ _ 10 ?_ ?_) ?_ <;>
        (split <;> decide)
    obtain ⟨perm, hplt, hs2⟩ : ∃ perm, perm < 1024 ∧
        rr.2.write pte (PA2PTE mem ||| perm ||| PTE_V ||| PTE_U) = s2 :=
      ⟨_, hp3 _ _ _, h.2⟩
    clear h
    obtain ⟨b1, b2, b3⟩ := vma_leaf mem perm hma hml hplt
    have hgw := PtGrow_leaf_write L p.pagetable a pte (PA2PTE mem ||| perm ||| PTE_V ||| PTE_U)
      rr.2 c1 hs
    obtain ⟨lw1, lw0, lw⟩ := leaf_write_views rr.2.mem p.pagetable a pte
      (PA2PTE mem ||| perm ||| PTE_V ||| PTE_U) c1.tree hs
    subst hs2
    have e5 := IsPtPage_congr rr.2.mem _ p.pagetable lw1 lw0
    obtain ⟨o1, _, _, _, o5, o6⟩ := PtGrow_other L p.pagetable p.kernel_pagetable rr.2 _ hgw d1
      (fun q hq hq' => hF.apart q ((d5 q).mp hq) ((c5 q).mp hq'))
    have hleaf : pteval (rr.2.write pte (PA2PTE mem ||| perm ||| PTE_V ||| PTE_U)).mem
        p.pagetable a = PA2PTE mem ||| perm ||| PTE_V ||| PTE_U := by
      have := lw a
      rw [if_pos hs] at this
      exact this
    have hfree : ∀ g, IsFree L (rr.2.write pte (PA2PTE mem ||| perm ||| PTE_V ||| PTE_U)) g ↔
        IsFree L s1 g := IsFree_congr L s1 _ q1
    have hcont : ∀ g, g % PGSIZE = 0 → g ≠ mem → ¬ IsFree L s1 g →
        ¬ IsPtPage s1.mem p.pagetable g → ∀ x, g ≤ x → x < g + PGSIZE →
        (rr.2.write pte (PA2PTE mem ||| perm ||| PTE_V ||| PTE_U)).mem x = s1.mem x := by
      intro g hg hgm hgf hgp x hx1 hx2
      have hnp : ¬ IsPtPage rr.2.mem p.pagetable g := fun hh => hgp ((c5 g).mp hh)
      obtain ⟨_, _, _, v4⟩ := hgw.untouched g hg
        (fun hh => hgf ((IsFree_congr L s1 rr.2 q1 g).mp hh)) hnp
      rw [v4 x hx1 hx2]
      exact q3 x (page_apart g mem x hg hma hgm hx1 hx2)
    refine ⟨hF.was_free, hgw.sep, o1, fun q hq hq' => o6 q hq hq', ?_, ?_, ?_, ?_, ?_,
      ⟨fun hh => hF.fresh.1 ((hfree mem).mp hh),
        fun hh => hF.fresh.2.1 ((c5 mem).mp ((e5 mem).mp hh)),
        fun hh => hF.fresh.2.2 ((d5 mem).mp ((o5 mem).mp hh))⟩, ?_, ?_⟩
    · intro f hf
      show rr.2.ref (f / PGSIZE) = 0
      rw [q2]
      exact hF.free_zero f ((hfree f).mp hf)
    · unfold Mapped; rw [hleaf]; exact b1
    · rw [hleaf]; exact b2
    · unfold frameOf; rw [hleaf]; exact b3
    · intro va h1 h2
      have := lw va
      rw [if_neg (fun hh => h2 (by
        have := slot_inj rr.2.mem p.pagetable a va pte c1.tree hmax h1 hs hh
        unfold PGSIZE at *; omega))] at this
      exact this.trans ((c4 va).trans (hF.others va h1 h2))
    · intro g hg hgf hgp hgk hgo
      obtain ⟨k1, k2, k3, k4⟩ := hF.keep g hg hgf hgp hgk hgo
      have hgm : g ≠ mem := fun hh => hgf (hh ▸ hF.was_free)
      refine ⟨fun hh => k1 ((hfree g).mp hh), fun hh => k2 ((c5 g).mp ((e5 g).mp hh)),
        fun hh => k3 ((d5 g).mp ((o5 g).mp hh)), ?_⟩
      intro x hx1 hx2
      rw [hcont g hg hgm k1 k2 x hx1 hx2]
      exact k4 x hx1 hx2
    · intro g hg
      exact hF.free_sub g ((hfree g).mp hg)

/-- A page fault on a page-aligned address that `page_fault_handler` resolves with 0:
the process is unchanged and the page is mapped as `Faulted` says. -/
theorem fault_effect (L : Layout) (cpu : Nat) (V : VmaLayout) (E : Ext) (p p1 : Proc)
    (a : Nat) (s s' : KState) (hc : cpu < L.NCPU) (hR : ReadiFrame E)
    (hpre : UvmPre L p.pagetable p.kernel_pagetable a (a + PGSIZE) s)
    (ha : a % PGSIZE = 0) (hmax : a < MAXVA)
    (hu : Mapped s.mem p.pagetable a → pteval s.mem p.pagetable a &&& PTE_U ≠ 0)
    (h : page_fault_handler L cpu V E p a s = some (0, p1, s')) :
    p1 = p ∧ ∃ mem, Faulted L p.pagetable p.kernel_pagetable a mem s s' := by
  have h64 : (a + PGSIZE) % 2 ^ 64 = a + PGSIZE := by
    rw [MAXVA_eq] at hmax; unfold PGSIZE; omega
  unfold page_fault_handler at h
  simp only at h
  rw [h64] at h
  split at h
  swap
  · simp only [Option.some.injEq, Prod.mk.injEq] at h
    exact absurd h.1 (by decide)
  cases hua : uvmalloc L cpu p p.pagetable a (a + PGSIZE) s with
  | none => rw [hua] at h; cases h
  | some res =>
    obtain ⟨r, s1⟩ := res
    rw [hua] at h
    simp only at h
    by_cases hr : r ≠ 0
    swap
    · rw [if_neg hr] at h
      simp only [Option.some.injEq, Prod.mk.injEq] at h
      exact absurd h.1 (by decide)
    rw [if_pos hr] at h
    obtain ⟨mem, hF⟩ := uvmalloc_page L cpu p p.pagetable a s s1 r hc hpre ha hmax hu hua hr
    by_cases hsz : a < p.sz
    · rw [if_pos hsz] at h
      cases hum : proc_usermapping L cpu p a (a + PGSIZE) s1 with
      | none => rw [hum] at h; cases h
      | some s2 =>
        rw [hum] at h
        simp only [Option.some.injEq, Prod.mk.injEq, true_and] at h
        obtain ⟨hpe, hse⟩ := h
        subst hse
        exact ⟨hpe.symm, mem, Faulted_kgrow L _ _ a mem s s1 s2 hF
          (usermapping_grow L cpu p a (a + PGSIZE) s1 s2 hc hF.sepk (by omega) hum)⟩
    · rw [if_neg hsz] at h
      cases hl : load_vma L cpu V E p a (mmap_valid V p a) s1 with
      | none => rw [hl] at h; cases h
      | some res2 =>
        obtain ⟨r2, s2⟩ := res2
        rw [hl] at h
        simp only at h
        by_cases hr2 : r2 = -1
        · rw [if_pos hr2] at h
          simp only [Option.some.injEq, Prod.mk.injEq] at h
          exact absurd h.1 (by decide)
        · rw [if_neg hr2] at h
          simp only [Option.some.injEq, Prod.mk.injEq, true_and] at h
          obtain ⟨hpe, hse⟩ := h
          subst hse
          exact ⟨hpe.symm, mem, Faulted_load L cpu V E p a mem _ r2 s s1 s2 hR ha hmax hF hl hr2⟩

/-- Two page-aligned addresses of which the second lies in the page of the first are
equal. -/
theorem same_page (a va : Nat) (ha : a % PGSIZE = 0) (hva : va % PGSIZE = 0)
    (h : a ≤ va ∧ va < a + PGSIZE) : va = a := by
  unfold PGSIZE at *; omega

/-- The user pages stay well formed when a fault on one of them is resolved, and the
frames of the other pages keep their contents. -/
theorem UserOk_faulted (L : Layout) (p : Proc) (lo hi a mem : Nat) (s s' : KState)
    (hU : UserOk L p lo hi s) (hin : InRange lo hi a) (hmax : a < MAXVA)
    (hF : Faulted L p.pagetable p.kernel_pagetable a mem s s') :
    UserOk L p lo hi s' ∧
    (∀ va, InRange lo hi va → va < MAXVA → va ≠ a → Mapped s.mem p.pagetable va →
      ∀ x, frameOf s.mem p.pagetable va ≤ x → x < frameOf s.mem p.pagetable va + PGSIZE →
        s'.mem x = s.mem x) := by
  have hoth : ∀ va, InRange lo hi va → va < MAXVA → va ≠ a →
      pteval s'.mem p.pagetable va = pteval s.mem p.pagetable va := by
    intro va hv hm hne
    exact hF.others va hm (fun hh => hne (same_page a va hin.2.2 hv.2.2 hh))
  have hkeep : ∀ va, InRange lo hi va → va < MAXVA → va ≠ a → Mapped s.mem p.pagetable va →
      ¬ IsFree L s' (frameOf s.mem p.pagetable va) ∧
      ¬ IsPtPage s'.mem p.pagetable (frameOf s.mem p.pagetable va) ∧
      ¬ IsPtPage s'.mem p.kernel_pagetable (frameOf s.mem p.pagetable va) ∧
      ∀ x, frameOf s.mem p.pagetable va ≤ x → x < frameOf s.mem p.pagetable va + PGSIZE →
        s'.mem x = s.mem x := by
    intro va hv hm hne hmp
    obtain ⟨w1, w2, w3⟩ := hU.pre.owned va hv hm hmp
    exact hF.keep _ (frameOf_aligned _ _ _) w1 w2 w3
      (fun hma hh => hne (hU.pre.distinct va a hv hin hm hmax hmp hma hh))
  have hmnf : ∀ va, InRange lo hi va → va < MAXVA → Mapped s.mem p.pagetable va →
      frameOf s.mem p.pagetable va ≠ mem := by
    intro va hv hm hmp hh
    exact (hU.pre.owned va hv hm hmp).1 (hh ▸ hF.was_free)
  have hmz : mem ≠ 0 := fun hh => hU.free_nz (hh ▸ hF.was_free)
  refine ⟨⟨⟨hF.sep, hF.sepk, hF.apart, hF.free_zero, ?_, ?_⟩, ?_, ?_, ?_⟩, ?_⟩
  · intro va hv hm hmp
    by_cases hne : va = a
    · rw [hne, hF.frame]; exact hF.fresh
    · have e := hoth va hv hm hne
      have hmp0 : Mapped s.mem p.pagetable va := by unfold Mapped at *; rw [← e]; exact hmp
      rw [frameOf_congr _ _ _ _ e]
      obtain ⟨k1, k2, k3, _⟩ := hkeep va hv hm hne hmp0
      exact ⟨k1, k2, k3⟩
  · intro va va' hv hv' hm hm' hmp hmp' hfe
    by_cases hne : va = a
    · by_cases hne' : va' = a
      · rw [hne, hne']
      · exfalso
        have e' := hoth va' hv' hm' hne'
        have hmp0 : Mapped s.mem p.pagetable va' := by unfold Mapped at *; rw [← e']; exact hmp'
        rw [hne, hF.frame, frameOf_congr _ _ _ _ e'] at hfe
        exact hmnf va' hv' hm' hmp0 hfe.symm
    · have e := hoth va hv hm hne
      have hmp0 : Mapped s.mem p.pagetable va := by unfold Mapped at *; rw [← e]; exact hmp
      by_cases hne' : va' = a
      · exfalso
        rw [hne', hF.frame, frameOf_congr _ _ _ _ e] at hfe
        exact hmnf va hv hm hmp0 hfe
      · have e' := hoth va' hv' hm' hne'
        have hmp0' : Mapped s.mem p.pagetable va' := by
          unfold Mapped at *; rw [← e']; exact hmp'
        rw [frameOf_congr _ _ _ _ e, frameOf_congr _ _ _ _ e'] at hfe
        exact hU.pre.distinct va va' hv hv' hm hm' hmp0 hmp0' hfe
  · intro va hv hm hmp
    by_cases hne : va = a
    · rw [hne]; exact hF.user
    · have e := hoth va hv hm hne
      rw [e]
      exact hU.user va hv hm (by unfold Mapped at *; rw [← e]; exact hmp)
  · intro va hv hm hmp
    by_cases hne : va = a
    · rw [hne, hF.frame]; exact hmz
    · have e := hoth va hv hm hne
      rw [frameOf_congr _ _ _ _ e]
      exact hU.frame_nz va hv hm (by unfold Mapped at *; rw [← e]; exact hmp)
  · intro hh
    rcases hF.free_sub 0 hh with h0 | ⟨h1, h2⟩
    · exact hU.free_nz h0
    · exact hU.frame_nz a hin hmax h1 h2.symm
  · intro va hv hm hne hmp
    exact (hkeep va hv hm hne hmp).2.2.2

/-- The user pages stay well formed when `memmove` writes into the frame of one of
them; no leaf changes, and no word outside that frame. -/
theorem UserOk_write (L : Layout) (p : Proc) (lo hi a : Nat) (s : KState)
    (dst : Nat) (src : Nat → Nat) (off n : Nat)
    (hU : UserOk L p lo hi s) (hin : InRange lo hi a) (hmax : a < MAXVA)
    (hm : Mapped s.mem p.pagetable a) (h1 : frameOf s.mem p.pagetable a ≤ dst)
    (h2 : dst + n ≤ frameOf s.mem p.pagetable a + PGSIZE) :
    UserOk L p lo hi (memmoveOut dst src off n s) ∧
    (∀ va, pteval (memmoveOut dst src off n s).mem p.pagetable va = pteval s.mem p.pagetable va) ∧
    (∀ x, ¬ (frameOf s.mem p.pagetable a ≤ x ∧ x < frameOf s.mem p.pagetable a + PGSIZE) →
      (memmoveOut dst src off n s).mem x = s.mem x) := by
  have hfa := frameOf_aligned s.mem p.pagetable a
  obtain ⟨w1, w2, w3⟩ := hU.pre.owned a hin hmax hm
  have hout : ∀ x, ¬ (frameOf s.mem p.pagetable a ≤ x ∧
      x < frameOf s.mem p.pagetable a + PGSIZE) →
      (memmoveOut dst src off n s).mem x = s.mem x :=
    fun x hx => memmoveOut_mem dst src off n s _ x hfa h1 h2 hx
  have hfl := memmoveOut_freelist dst src off n s
  have hrf := memmoveOut_ref dst src off n s
  obtain ⟨c1, _, _, c4, c5⟩ := Sep_page_write L s _ p.pagetable _ hU.pre.sep hfa w2 hfl hout
  obtain ⟨d1, _, _, _, d5⟩ := Sep_page_write L s _ p.kernel_pagetable _ hU.pre.sepk hfa w3
    hfl hout
  have hfree := IsFree_congr L s _ hfl
  have hmp : ∀ va, Mapped (memmoveOut dst src off n s).mem p.pagetable va →
      Mapped s.mem p.pagetable va := by
    intro va hh; unfold Mapped at *; rw [← c4 va]; exact hh
  refine ⟨⟨⟨c1, d1, ?_, ?_, ?_, ?_⟩, ?_, ?_, ?_⟩, c4, hout⟩
  · intro q hq hq'
    exact hU.pre.apart q ((d5 q).mp hq) ((c5 q).mp hq')
  · intro f hf
    show (memmoveOut dst src off n s).ref (f / PGSIZE) = 0
    rw [hrf]
    exact hU.pre.free_zero f ((hfree f).mp hf)
  · intro va hv hmx hmp'
    rw [frameOf_congr _ _ _ _ (c4 va)]
    obtain ⟨k1, k2, k3⟩ := hU.pre.owned va hv hmx (hmp va hmp')
    exact ⟨fun hh => k1 ((hfree _).mp hh), fun hh => k2 ((c5 _).mp hh),
      fun hh => k3 ((d5 _).mp hh)⟩
  · intro va va' hv hv' hmx hmx' hmp1 hmp2 hfe
    rw [frameOf_congr _ _ _ _ (c4 va), frameOf_congr _ _ _ _ (c4 va')] at hfe
    exact hU.pre.distinct va va' hv hv' hmx hmx' (hmp va hmp1) (hmp va' hmp2) hfe
  · intro va hv hmx hmp'
    rw [c4 va]
    exact hU.user va hv hmx (hmp va hmp')
  · intro va hv hmx hmp'
    rw [frameOf_congr _ _ _ _ (c4 va)]
    exact hU.frame_nz va hv hmx (hmp va hmp')
  · intro hh
    exact hU.free_nz ((hfree 0).mp hh)

/-- C21, evaluated at a failing input: the table of `pVma15` holds fifteen valid
one-page regions in the entries 0 to 14, sorted by start descending, and its entry 15 is
not valid. `map_vma` of the page below them returns 0 and puts the region into entry 15,
so that the lowest start in the table is `MAXVA - 18 * PGSIZE`; but `vma_bound` is read
from the entry 16, which lies behind the table of `NVMA = 16` entries: it is 0 when that
memory holds zeroes, and 4096 when it holds 4096. -/
theorem map_vma_last_slot_reads_past_table :
    (∀ i, i < 15 → ((pVma15 ⟨0, 0, 0, 0, 0, 0, 0⟩).vma i).valid = 1 ∧
      ((pVma15 ⟨0, 0, 0, 0, 0, 0, 0⟩).vma i).vm_start = MAXVA - (i + 3) * PGSIZE) ∧
    ((pVma15 ⟨0, 0, 0, 0, 0, 0, 0⟩).vma 15).valid = 0 ∧
    (map_vma V1 (pVma15 ⟨0, 0, 0, 0, 0, 0, 0⟩) (MAXVA - 18 * PGSIZE) (MAXVA - 17 * PGSIZE)
      3 0 7 0).map (fun r => r.1) = some 0 ∧
    (map_vma V1 (pVma15 ⟨0, 4096, 0, 0, 0, 0, 0⟩) (MAXVA - 18 * PGSIZE) (MAXVA - 17 * PGSIZE)
      3 0 7 0).map (fun r => r.1) = some 0 ∧
    ((pVma16 ⟨0, 0, 0, 0, 0, 0, 0⟩).vma 15).valid = 1 ∧
    ((pVma16 ⟨0, 0, 0, 0, 0, 0, 0⟩).vma 15).vm_start = MAXVA - 18 * PGSIZE ∧
    (pVma16 ⟨0, 0, 0, 0, 0, 0, 0⟩).vma_bound = 0 ∧
    (pVma16 ⟨0, 4096, 0, 0, 0, 0, 0⟩).vma_bound = 4096 := by
  refine ⟨?_, by decide, by decide, by decide, by decide, by decide, by decide, by decide⟩
  intro i hi
  simp [pVma15, hi]

/-- C22, evaluated at a failing input: the table of `pVma3` holds three valid one-page
regions in the entries 0, 1 and 2, disjoint and sorted by start descending, and
`vma_bound` is the lowest start. `unmap_vma` of the whole middle region (index 1)
returns 0 and closes its file; afterwards entry 1 is not valid while entry 2 still is,
so that the valid entries are no prefix of the table, and `vma_bound` is the start of
entry 0, not the start `MAXVA - 5 * PGSIZE` of the lowest valid region. -/
theorem unmap_vma_middle_entry_leaves_gap :
    (∀ i, i < 3 → (pVma3.vma i).valid = 1 ∧ (pVma3.vma i).vm_start = MAXVA - (i + 3) * PGSIZE ∧
      (pVma3.vma i).vm_end = MAXVA - (i + 2) * PGSIZE) ∧
    (∀ i, 3 ≤ i → (pVma3.vma i).valid = 0) ∧
    pVma3.vma_bound = MAXVA - 5 * PGSIZE ∧
    (unmap_vma L1 0 V1 F0 pVma3 (MAXVA - 4 * PGSIZE) (MAXVA - 3 * PGSIZE) 1 sEmpty).map
      (fun r => (r.1, r.2.2.2)) = some (0, [FileOp.close 8]) ∧
    (pVma3Unmapped.vma 0).valid = 1 ∧ (pVma3Unmapped.vma 1).valid = 0 ∧
    (pVma3Unmapped.vma 2).valid = 1 ∧ (pVma3Unmapped.vma 2).vm_start = MAXVA - 5 * PGSIZE ∧
    pVma3Unmapped.vma_bound = MAXVA - 3 * PGSIZE := by
  refine ⟨?_, ?_, by decide, by decide, by decide, by decide, by decide, by decide, by decide⟩
  · intro i hi
    simp [pVma3, hi]
  · intro i hi
    have : ¬ i < 3 := by omega
    simp [pVma3, this]

/-- C23: `unmap_vma(p, begin, end, index)` returns -1 without any effect, that is with
the process (the table of regions and `vma_bound`), the state (the user page table and
the allocator) and the list of calls into the file system (no `writei`, no `fileclose`)
as they were, when `index` is -1, when `end < begin`, when `[begin, end)` does not lie
within the region `[vm_start, vm_end)`, or when `begin` is not `vm_start` and `end` is
not `vm_end`. -/
theorem unmap_vma_rejects (L : Layout) (cpu : Nat) (V : VmaLayout) (F : FsExt) (p : Proc)
    (begin stop : Nat) (index : Int) (s : KState)
    (h : index = -1 ∨ stop < begin ∨
      ¬ ((p.vma index.toNat).vm_start ≤ begin ∧ stop ≤ (p.vma index.toNat).vm_end) ∨
      (begin ≠ (p.vma index.toNat).vm_start ∧ stop ≠ (p.vma index.toNat).vm_end)) :
    unmap_vma L cpu V F p begin stop index s = some (-1, p, s, []) := by
  unfold unmap_vma
  simp only
  by_cases h1 : index = -1
  · rw [if_pos h1]
  · rw [if_neg h1]
    by_cases h2 : (p.vma index.toNat).vm_start > begin ∨ (p.vma index.toNat).vm_end < stop ∨
        stop < begin
    · rw [if_pos h2]
    · rw [if_neg h2]
      by_cases h3 : (p.vma index.toNat).vm_start ≠ begin ∧ (p.vma index.toNat).vm_end ≠ stop
      · rw [if_pos h3]
      · exfalso
        rcases h with h | h | h | h
        · exact h1 h
        · omega
        · omega
        · exact h3 ⟨fun e => h.1 e.symm, fun e => h.2 e.symm⟩

/-- C23 (witness): the middle page of the three pages of the region of `pVmaTail` touches
neither end of the region: `unmap_vma` returns -1 and nothing has changed. -/
theorem unmap_vma_rejects_witness :
    (MAXVA - 4 * PGSIZE ≠ (pVmaTail.vma 0).vm_start ∧
      MAXVA - 3 * PGSIZE ≠ (pVmaTail.vma 0).vm_end) ∧
    unmap_vma L1 0 V1 F0 pVmaTail (MAXVA - 4 * PGSIZE) (MAXVA - 3 * PGSIZE) 0 sVmaTail =
      some (-1, pVmaTail, sVmaTail, []) :=
  ⟨by decide, unmap_vma_rejects L1 0 V1 F0 pVmaTail (MAXVA - 4 * PGSIZE) (MAXVA - 3 * PGSIZE) 0
    sVmaTail (Or.inr (Or.inr (Or.inr (by decide))))⟩

/-- C24, evaluated at a failing input: the region of `pVmaTail` has three pages, of which
the second and the third are mapped. `unmap_vma` of the range of these two pages, which
ends where the region ends, returns 0 and retracts the end of the region to the start of
the range; the third page is unmapped, but the second page, the first of the range, is
still mapped. -/
theorem unmap_vma_tail_keeps_first_page :
    (pVmaTail.vma 0).valid = 1 ∧ (pVmaTail.vma 0).vm_start = MAXVA - 5 * PGSIZE ∧
    (pVmaTail.vma 0).vm_end = MAXVA - 2 * PGSIZE ∧
    pteval sVmaTail.mem 61440 (MAXVA - 4 * PGSIZE) &&& PTE_V ≠ 0 ∧
    pteval sVmaTail.mem 61440 (MAXVA - 3 * PGSIZE) &&& PTE_V ≠ 0 ∧
    (unmap_vma L1 0 V1 F0 pVmaTail (MAXVA - 4 * PGSIZE) (MAXVA - 2 * PGSIZE) 0 sVmaTail).map
      (fun r => (r.1, r.2.2.2)) = some (0, []) ∧
    (pVmaTailUnmapped.vma 0).vm_end = MAXVA - 4 * PGSIZE ∧
    pteval sVmaTailUnmapped.mem 61440 (MAXVA - 4 * PGSIZE) &&& PTE_V ≠ 0 ∧
    frameOf sVmaTailUnmapped.mem 61440 (MAXVA - 4 * PGSIZE) = 20480 ∧
    refcount 20480 sVmaTailUnmapped = 1 ∧
    pteval sVmaTailUnmapped.mem 61440 (MAXVA - 3 * PGSIZE) &&& PTE_V = 0 := by
  decide

/-- The leaf that `load_vma` writes, with the bits in the order of the specification. -/
theorem vma_leaf_order (x r w e : Nat) :
    x ||| (r ||| w ||| e) ||| PTE_V ||| PTE_U = x ||| PTE_V ||| PTE_U ||| r ||| w ||| e := by
  apply Nat.eq_of_testBit_eq
  intro k
  simp only [Nat.testBit_or]
  cases x.testBit k <;> cases r.testBit k <;> cases w.testBit k <;> cases e.testBit k <;>
    cases PTE_V.testBit k <;> cases PTE_U.testBit k <;> rfl

/-- C25, for a region and an offset without 32-bit overflow: let `va` be a page-aligned
address of the region `index` whose leaf is valid and maps the frame `pa`, in a
well-formed state (the user table is a tree, `pa` is no page of it, `va < MAXVA`), with
`(va - vm_start) + offset < 2^32` and `vm_end - va < 2^32`, and let `readi` write into
the frame of the page only. When `readi` of `min(PGSIZE, vm_end - va)` bytes at the file
offset `(va - vm_start) + offset` returns a positive value, `load_vma` returns 0; the
state it leaves is the one `readi` has left for these arguments, with the leaf replaced
by `PA2PTE(pa) | V | U | (R iff PROT_READ) | (W iff PROT_WRITE) | (X iff PROT_EXEC)`: the
frame is `pa` and the flags are just these bits. -/
theorem load_vma_sets_permissions (L : Layout) (cpu : Nat) (V : VmaLayout) (E : Ext)
    (p : Proc) (va pa : Nat) (index : Int) (s : KState)
    (hR : ReadiFrame E) (hsep : Sep L s p.pagetable) (hmax : va < MAXVA)
    (hin : (p.vma index.toNat).vm_start ≤ va ∧ va < (p.vma index.toNat).vm_end)
    (ho32 : (p.vma index.toNat).offset < 2 ^ 32)
    (hoff : va - (p.vma index.toNat).vm_start + (p.vma index.toNat).offset < 2 ^ 32)
    (hlen : (p.vma index.toNat).vm_end - va < 2 ^ 32)
    (hm : Mapped s.mem p.pagetable va) (hpa : frameOf s.mem p.pagetable va = pa)
    (hnp : ¬ IsPtPage s.mem p.pagetable pa)
    (hread : 0 < (E.readi (p.vma index.toNat).file va
      (va - (p.vma index.toNat).vm_start + (p.vma index.toNat).offset)
      (min PGSIZE ((p.vma index.toNat).vm_end - va)) p s).1) :
    ∃ pte s', slot s.mem p.pagetable va = some pte ∧
      load_vma L cpu V E p va index s = some (0, s') ∧
      s' = (E.readi (p.vma index.toNat).file va
          (va - (p.vma index.toNat).vm_start + (p.vma index.toNat).offset)
          (min PGSIZE ((p.vma index.toNat).vm_end - va)) p s).2.write pte
        (PA2PTE pa ||| PTE_V ||| PTE_U |||
          (if (p.vma index.toNat).vm_prot &&& V.PROT_READ ≠ 0 then PTE_R else 0) |||
          (if (p.vma index.toNat).vm_prot &&& V.PROT_WRITE ≠ 0 then PTE_W else 0) |||
          (if (p.vma index.toNat).vm_prot &&& V.PROT_EXEC ≠ 0 then PTE_X else 0)) ∧
      pteval s'.mem p.pagetable va = PA2PTE pa ||| PTE_V ||| PTE_U |||
          (if (p.vma index.toNat).vm_prot &&& V.PROT_READ ≠ 0 then PTE_R else 0) |||
          (if (p.vma index.toNat).vm_prot &&& V.PROT_WRITE ≠ 0 then PTE_W else 0) |||
          (if (p.vma index.toNat).vm_prot &&& V.PROT_EXEC ≠ 0 then PTE_X else 0) ∧
      frameOf s'.mem p.pagetable va = pa ∧
      PTE_FLAGS (pteval s'.mem p.pagetable va) = PTE_V ||| PTE_U |||
          (if (p.vma index.toNat).vm_prot &&& V.PROT_READ ≠ 0 then PTE_R else 0) |||
          (if (p.vma index.toNat).vm_prot &&& V.PROT_WRITE ≠ 0 then PTE_W else 0) |||
          (if (p.vma index.toNat).vm_prot &&& V.PROT_EXEC ≠ 0 then PTE_X else 0) := by
  have hpal : pa % PGSIZE = 0 := by rw [← hpa]; exact frameOf_aligned _ _ _
  have hpl : pa < 2 ^ 64 := by rw [← hpa]; exact frameOf_lt _ _ _
  have e1 : (va + (2 ^ 64 - (p.vma index.toNat).vm_start % 2 ^ 64) +
      (p.vma index.toNat).offset) % 2 ^ 32 =
      va - (p.vma index.toNat).vm_start + (p.vma index.toNat).offset := by
    rw [MAXVA_eq] at hmax
    omega
  have e2 : (if ((p.vma index.toNat).vm_end + (2 ^ 64 - va % 2 ^ 64)) % 2 ^ 32 < PGSIZE
      then ((p.vma index.toNat).vm_end + (2 ^ 64 - va % 2 ^ 64)) % 2 ^ 32 else PGSIZE) =
      min PGSIZE ((p.vma index.toNat).vm_end - va) := by
    have : ((p.vma index.toNat).vm_end + (2 ^ 64 - va % 2 ^ 64)) % 2 ^ 32 =
        (p.vma index.toNat).vm_end - va := by
      rw [MAXVA_eq] at hmax
      omega
    rw [this]
    unfold PGSIZE
    split <;> omega
  unfold load_vma
  simp only
  rw [e1, e2]
  generalize hrd : E.readi (p.vma index.toNat).file va
    (va - (p.vma index.toNat).vm_start + (p.vma index.toNat).offset)
    (min PGSIZE ((p.vma index.toNat).vm_end - va)) p s = rr at hread ⊢
  obtain ⟨q1, _, q3⟩ : rr.2.freelist = s.freelist ∧ rr.2.ref = s.ref ∧
      ∀ x, ¬ (frameOf s.mem p.pagetable va ≤ x ∧ x < frameOf s.mem p.pagetable va + PGSIZE) →
        rr.2.mem x = s.mem x := by
    rw [← hrd]; exact hR _ _ _ _ _ _
  rw [hpa] at q3
  obtain ⟨c1, _, cl0, c4, _⟩ := Sep_page_write L s rr.2 p.pagetable pa hsep hpal hnp q1 q3
  rw [if_neg (by omega), if_neg (by omega), walk_false L cpu p.pagetable va rr.2 hmax]
  cases hs : slot s.mem p.pagetable va with
  | none =>
    exfalso
    unfold Mapped at hm
    rw [pteval_of_none _ _ _ hs] at hm
    exact zero_not_valid hm
  | some pte =>
    have hs' : slot rr.2.mem p.pagetable va = some pte := by
      rw [slot_congr _ _ _ cl0 va]; exact hs
    have hleaf : rr.2.mem pte = pteval s.mem p.pagetable va := by
      rw [← pteval_of_slot _ _ _ _ hs', c4 va]
    have hv : ¬ (rr.2.mem pte &&& PTE_V = 0) := by rw [hleaf]; exact hm
    have hfr : PTE2PA (rr.2.mem pte) = pa := by rw [hleaf]; exact hpa
    rw [hs']
    simp only
    rw [if_neg hv, hfr, vma_leaf_order]
    obtain ⟨_, _, lw⟩ := leaf_write_views rr.2.mem p.pagetable va pte
      (PA2PTE pa ||| PTE_V ||| PTE_U |||
        (if (p.vma index.toNat).vm_prot &&& V.PROT_READ ≠ 0 then PTE_R else 0) |||
        (if (p.vma index.toNat).vm_prot &&& V.PROT_WRITE ≠ 0 then PTE_W else 0) |||
        (if (p.vma index.toNat).vm_prot &&& V.PROT_EXEC ≠ 0 then PTE_X else 0)) c1.tree hs'
    have hl0 := lw va
    rw [if_pos hs'] at hl0
    have hl : pteval (rr.2.write pte (PA2PTE pa ||| PTE_V ||| PTE_U |||
        (if (p.vma index.toNat).vm_prot &&& V.PROT_READ ≠ 0 then PTE_R else 0) |||
        (if (p.vma index.toNat).vm_prot &&& V.PROT_WRITE ≠ 0 then PTE_W else 0) |||
        (if (p.vma index.toNat).vm_prot &&& V.PROT_EXEC ≠ 0 then PTE_X else 0))).mem
        p.pagetable va = PA2PTE pa ||| PTE_V ||| PTE_U |||
        (if (p.vma index.toNat).vm_prot &&& V.PROT_READ ≠ 0 then PTE_R else 0) |||
        (if (p.vma index.toNat).vm_prot &&& V.PROT_WRITE ≠ 0 then PTE_W else 0) |||
        (if (p.vma index.toNat).vm_prot &&& V.PROT_EXEC ≠ 0 then PTE_X else 0) := hl0
    have hfl : PTE_V ||| PTE_U |||
        (if (p.vma index.toNat).vm_prot &&& V.PROT_READ ≠ 0 then PTE_R else 0) |||
        (if (p.vma index.toNat).vm_prot &&& V.PROT_WRITE ≠ 0 then PTE_W else 0) |||
        (if (p.vma index.toNat).vm_prot &&& V.PROT_EXEC ≠ 0 then PTE_X else 0) < 1024 := by
      refine @Nat.or_lt_two_pow _ _ 10 (@Nat.or_lt_two_pow _ _ 10
        (@Nat.or_lt_two_pow _ _ 10 (by decide) ?_) ?_) ?_ <;> (split <;> decide)
    have hassoc : ∀ a b c d : Nat, PA2PTE pa ||| PTE_V ||| PTE_U ||| a ||| b ||| c =
        PA2PTE pa ||| (PTE_V ||| PTE_U ||| a ||| b ||| c) := by
      intro a b c d
      simp only [Nat.or_assoc]
    refine ⟨pte, _, rfl, rfl, rfl, hl, ?_, ?_⟩
    · unfold frameOf
      rw [hl, hassoc _ _ _ 0]
      exact PTE2PA_make pa _ hpal hpl hfl
    · rw [hl, hassoc _ _ _ 0]
      exact PTE_FLAGS_make pa _ hpl hfl

/-- C25 fails for a region of 4 GiB: the region of `pVmaBig` is valid and page-aligned,
its first page `va` has a valid leaf, and `readi` of `min(PGSIZE, vm_end - va)` = 4096
bytes at the offset 0 succeeds; but `load_vma` computes `vm_end - va` in 32 bits, asks
`readi` for 0 bytes and returns -1, leaving the leaf as `uvmalloc` has written it. -/
theorem load_vma_truncates_length :
    (pVmaBig.vma 0).valid = 1 ∧ (pVmaBig.vma 0).vm_start = MAXVA - 2 * PGSIZE - 2 ^ 32 ∧
    (pVmaBig.vma 0).vm_end = MAXVA - 2 * PGSIZE ∧
    (MAXVA - 2 * PGSIZE - 2 ^ 32) % PGSIZE = 0 ∧
    pteval sVmaBig.mem 61440 (MAXVA - 2 * PGSIZE - 2 ^ 32) &&& PTE_V ≠ 0 ∧
    min PGSIZE ((pVmaBig.vma 0).vm_end - (MAXVA - 2 * PGSIZE - 2 ^ 32)) = 4096 ∧
    0 < (ELong.readi 7 (MAXVA - 2 * PGSIZE - 2 ^ 32) 0 4096 pVmaBig sVmaBig).1 ∧
    (load_vma L1 0 V1 ELong pVmaBig (MAXVA - 2 * PGSIZE - 2 ^ 32) 0 sVmaBig).map
      (fun r => (r.1, pteval r.2.mem 61440 (MAXVA - 2 * PGSIZE - 2 ^ 32))) =
      some (-1, PA2PTE 20480 ||| (PTE_W ||| PTE_X ||| PTE_R ||| PTE_U) ||| PTE_V) := by
  decide

/-- C25 (witness): the page of the region of `pVmaOne`, readable and writable, is mapped
to the frame 20480 with the flags of `uvmalloc`; `load_vma` returns 0 and the leaf
is `PA2PTE(20480) | V | U | R | W`. -/
theorem load_vma_sets_permissions_witness :
    ∃ s', load_vma L1 0 V1 ELong pVmaOne (MAXVA - 3 * PGSIZE) 0 sVmaOne = some (0, s') ∧
      pteval s'.mem 61440 (MAXVA - 3 * PGSIZE) =
        PA2PTE 20480 ||| PTE_V ||| PTE_U ||| PTE_R ||| PTE_W ||| 0 := by
  have hR : ReadiFrame ELong := fun _ _ _ _ _ _ => ⟨rfl, rfl, fun _ _ => rfl⟩
  have hun : ¬ Mapped sEmpty.mem 61440 (MAXVA - 3 * PGSIZE) := by
    unfold Mapped
    rw [pteval_zero sEmpty.mem 61440 _ (fun _ => rfl)]
    exact zero_not_valid
  obtain ⟨r, s1, he, hg, _⟩ := mappages_page L1 0 61440 (MAXVA - 3 * PGSIZE) 20480
    (PTE_W ||| PTE_X ||| PTE_R ||| PTE_U) sEmpty (by decide) Sep_sEmpty (by decide)
    (by decide) hun
  have e : mappages L1 0 61440 (MAXVA - 3 * PGSIZE) PGSIZE 20480
      (PTE_W ||| PTE_X ||| PTE_R ||| PTE_U) sEmpty = some (0, sVmaOne) := rfl
  rw [e] at he
  simp only [Option.some.injEq, Prod.mk.injEq] at he
  obtain ⟨_, he2⟩ := he
  subst he2
  have hnp : ¬ IsPtPage sVmaOne.mem 61440 20480 := by
    intro h
    rcases hg.pages_new 20480 h with h' | ⟨h', _⟩
    · have := ((PT_zero sEmpty.mem 61440 (fun _ => rfl) (by decide)).2 20480).mp h'
      omega
    · rcases sEmpty_free 20480 h' with h'' | h'' | h'' <;> omega
  obtain ⟨pte, s', _, h1, _, h2, _, _⟩ := load_vma_sets_permissions L1 0 V1 ELong pVmaOne
    (MAXVA - 3 * PGSIZE) 20480 0 sVmaOne hR hg.sep (by decide) (by decide) (by decide)
    (by decide) (by decide) (by unfold Mapped; decide) (by decide) hnp (by decide)
  exact ⟨s', h1, h2⟩

/-! ## bio.c: linked lists -/

theorem Path_congr (s s1 : BState) : ∀ (l : List BNode) (x z : BNode),
    (∀ y ∈ x :: l, s1.next y = s.next y) → (∀ y ∈ l ++ [z], s1.prev y = s.prev y) →
    Path s x l z → Path s1 x l z := by
  intro l
  induction l with
  | nil =>
    intro x z hn hp h
    simp only [Path] at h ⊢
    rw [hn x (by simp), hp z (by simp)]
    exact h
  | cons y l ih =>
    intro x z hn hp h
    simp only [Path] at h ⊢
    rw [hn x (by simp), hp y (by simp)]
    refine ⟨h.1, h.2.1, ih y z ?_ ?_ h.2.2⟩
    · intro w hw
      exact hn w (List.mem_cons_of_mem _ hw)
    · intro w hw
      exact hp w (by simp only [List.cons_append, List.mem_cons]; exact Or.inr hw)

theorem Path_split (s : BState) (b z : BNode) (l2 : List BNode) : ∀ (l1 : List BNode)
    (x : BNode), Path s x (l1 ++ b :: l2) z ↔ Path s x l1 b ∧ Path s b l2 z := by
  intro l1
  induction l1 with
  | nil =>
    intro x
    simp only [List.nil_append, Path]
    tauto
  | cons a l1 ih =>
    intro x
    show Path s x (a :: (l1 ++ b :: l2)) z ↔ _
    simp only [Path]
    rw [ih a]
    tauto

theorem Path_next_mem (s : BState) (l : List BNode) (x z : BNode) (h : Path s x l z) :
    s.next x ∈ l ++ [z] := by
  cases l with
  | nil => simp only [Path] at h; simp [h.1]
  | cons y l => simp only [Path] at h; simp [h.1]

theorem Path_prev_mem (s : BState) : ∀ (l : List BNode) (x z : BNode), Path s x l z →
    s.prev z ∈ x :: l := by
  intro l
  induction l with
  | nil => intro x z h; simp only [Path] at h; simp [h.2]
  | cons y l ih =>
    intro x z h
    simp only [Path] at h
    exact List.mem_cons_of_mem _ (ih y z h.2.2)

theorem Path_next_prev (s : BState) : ∀ (l : List BNode) (x z : BNode), Path s x l z →
    ∀ y ∈ x :: l, s.prev (s.next y) = y := by
  intro l
  induction l with
  | nil =>
    intro x z h y hy
    simp only [Path] at h
    simp only [List.mem_singleton] at hy
    rw [hy, h.1, h.2]
  | cons a l ih =>
    intro x z h y hy
    simp only [Path] at h
    rcases List.mem_cons.1 hy with e | e
    · rw [e, h.1, h.2.1]
    · exact ih a z h.2.2 y e

theorem Path_prev_next (s : BState) : ∀ (l : List BNode) (x z : BNode), Path s x l z →
    ∀ y ∈ l ++ [z], s.next (s.prev y) = y := by
  intro l
  induction l with
  | nil =>
    intro x z h y hy
    simp only [Path] at h
    simp only [List.nil_append, List.mem_singleton] at hy
    rw [hy, h.2, h.1]
  | cons a l ih =>
    intro x z h y hy
    simp only [Path] at h
    simp only [List.cons_append, List.mem_cons] at hy
    rcases hy with e | e
    · rw [e, h.2.1, h.1]
    · exact ih a z h.2.2 y e

/-- Taking `b` out of a list: `b->prev->next = b->next` and `b->next->prev = b->prev`,
whatever becomes of the fields of `b` itself. -/
theorem Path_remove (s s1 : BState) (b z : BNode) (l2 : List BNode)
    (hn : ∀ y, y ≠ b → s1.next y = if y = s.prev b then s.next b else s.next y)
    (hp : ∀ y, y ≠ b → s1.prev y = if y = s.next b then s.prev b else s.prev y) :
    ∀ (l1 : List BNode) (x : BNode), Path s x (l1 ++ b :: l2) z →
      (x :: (l1 ++ b :: l2)).Nodup → z ∉ l1 ++ b :: l2 → Path s1 x (l1 ++ l2) z := by
  intro l1
  induction l1 with
  | nil =>
    intro x h hnd hz
    simp only [List.nil_append, Path] at h
    simp only [List.nil_append, List.nodup_cons, List.mem_cons, not_or] at hnd hz
    obtain ⟨hxb, hb, h2⟩ := h
    have hxne : x ≠ b := hnd.1.1
    have hzb : z ≠ b := hz.1
    cases l2 with
    | nil =>
      simp only [Path] at h2
      simp only [List.nil_append, Path]
      rw [hn x hxne, hp z hzb, hb, h2.1]
      simp
    | cons y l2 =>
      simp only [Path] at h2
      simp only [List.mem_cons, not_or] at hnd hz
      simp only [List.nil_append, Path]
      have hyb : y ≠ b := fun e => hnd.2.1.1 e.symm
      rw [hn x hxne, hp y hyb, hb, h2.1]
      refine ⟨by simp, by simp, ?_⟩
      refine Path_congr s s1 l2 y z ?_ ?_ h2.2.2
      · intro w hw
        have hwb : w ≠ b := by
          intro e
          rw [e] at hw
          rcases List.mem_cons.1 hw with e1 | e1
          · exact hnd.2.1.1 e1
          · exact hnd.2.1.2 e1
        have hwx : w ≠ x := by
          intro e
          rw [e] at hw
          rcases List.mem_cons.1 hw with e1 | e1
          · exact hnd.1.2.1 e1
          · exact hnd.1.2.2 e1
        rw [hn w hwb, hb, if_neg hwx]
      · intro w hw
        have hwb : w ≠ b := by
          intro e
          rw [e] at hw
          rcases List.mem_append.1 hw with e1 | e1
          · exact hnd.2.1.2 e1
          · exact hz.1 (List.mem_singleton.1 e1).symm
        have hwy : w ≠ y := by
          intro e
          rw [e] at hw
          rcases List.mem_append.1 hw with e1 | e1
          · exact (List.nodup_cons.1 hnd.2.2).1 e1
          · exact hz.2.1 (List.mem_singleton.1 e1).symm
        rw [hp w hwb, h2.1, if_neg hwy]
  | cons a l1 ih =>
    intro x h hnd hz
    have h : Path s x (a :: (l1 ++ b :: l2)) z := h
    simp only [Path] at h
    obtain ⟨hxa, ha, h2⟩ := h
    have hnd2 : (a :: (l1 ++ b :: l2)).Nodup := (List.nodup_cons.1 hnd).2
    have hxn : x ∉ a :: (l1 ++ b :: l2) := (List.nodup_cons.1 hnd).1
    have hz2 : z ∉ l1 ++ b :: l2 := fun e => hz (List.mem_cons_of_mem _ e)
    have hza : z ≠ a := fun e => hz (by rw [e]; simp)
    have ih2 := ih a h2 hnd2 hz2
    have hsp := (Path_split s b z l2 l1 a).1 h2
    have hpm := Path_prev_mem s l1 a b hsp.1
    have hnm := Path_next_mem s l2 b z hsp.2
    have hxb : x ≠ b := by
      intro e
      exact hxn (by rw [e]; simp)
    have hab : a ≠ b := by
      intro e
      have := (List.nodup_cons.1 hnd2).1
      exact this (by rw [e]; simp)
    have hxp : x ≠ s.prev b := by
      intro e
      rw [← e] at hpm
      exact hxn (by
        rcases List.mem_cons.1 hpm with e1 | e1
        · rw [e1]; simp
        · simp [e1])
    have han : a ≠ s.next b := by
      intro e
      rw [← e] at hnm
      rcases List.mem_append.1 hnm with e1 | e1
      · exact (List.nodup_cons.1 hnd2).1 (by simp [e1])
      · exact hza (List.mem_singleton.1 e1).symm
    show Path s1 x (a :: (l1 ++ l2)) z
    simp only [Path]
    rw [hn x hxb, if_neg hxp, hp a hab, if_neg han]
    exact ⟨hxa, ha, ih2⟩

/-- Putting `b` behind the sentinel `h` of a ring. -/
theorem Path_insert (s s1 : BState) (h b : BNode) (l : List BNode)
    (hr : Path s h l h) (hnd : (b :: h :: l).Nodup)
    (hnb : s1.next b = s.next h) (hpb : s1.prev b = h) (hnh : s1.next h = b)
    (hpn : s1.prev (s.next h) = b)
    (hn : ∀ y, y ≠ b → y ≠ h → s1.next y = s.next y)
    (hp : ∀ y, y ≠ b → y ≠ s.next h → s1.prev y = s.prev y) :
    Path s1 h (b :: l) h := by
  simp only [List.nodup_cons, List.mem_cons, not_or] at hnd
  obtain ⟨⟨hbh, hbl⟩, hhl, hl⟩ := hnd
  cases l with
  | nil =>
    simp only [Path] at hr ⊢
    rw [hr.1] at hnb hpn
    exact ⟨hnh, hpb, hnb, hpn⟩
  | cons y l =>
    simp only [Path] at hr ⊢
    simp only [List.mem_cons, not_or, List.nodup_cons] at hbl hhl hl
    rw [hr.1] at hnb hpn hp
    refine ⟨hnh, hpb, hnb, hpn, ?_⟩
    refine Path_congr s s1 l y h ?_ ?_ hr.2.2
    · intro w hw
      have hwb : w ≠ b := by
        intro e
        rw [e] at hw
        rcases List.mem_cons.1 hw with e1 | e1
        · exact hbl.1 e1
        · exact hbl.2 e1
      have hwh : w ≠ h := by
        intro e
        rw [e] at hw
        rcases List.mem_cons.1 hw with e1 | e1
        · exact hhl.1 e1
        · exact hhl.2 e1
      exact hn w hwb hwh
    · intro w hw
      have hwb : w ≠ b := by
        intro e
        rw [e] at hw
        rcases List.mem_append.1 hw with e1 | e1
        · exact hbl.2 e1
        · exact hbh (List.mem_singleton.1 e1)
      have hwy : w ≠ y := by
        intro e
        rw [e] at hw
        rcases List.mem_append.1 hw with e1 | e1
        · exact hl.1 e1
        · exact hhl.1 (List.mem_singleton.1 e1).symm
      exact hp w hwb hwy

theorem isSentinel_buf (h : BNode) (i : Nat) (hs : isSentinel h = true) : h ≠ BNode.buf i := by
  intro e
  rw [e] at hs
  simp [isSentinel] at hs

theorem isSentinel_null (h : BNode) (hs : isSentinel h = true) : h ≠ BNode.null := by
  intro e
  rw [e] at hs
  simp [isSentinel] at hs

theorem mem_map_buf (i : Nat) (l : List Nat) : BNode.buf i ∈ l.map BNode.buf ↔ i ∈ l := by
  simp

theorem sentinel_not_mem (h : BNode) (l : List Nat) (hs : isSentinel h = true) :
    h ∉ l.map BNode.buf := by
  intro e
  obtain ⟨i, _, hi⟩ := List.mem_map.1 e
  exact isSentinel_buf h i hs hi.symm

theorem null_not_mem (l : List Nat) : BNode.null ∉ l.map BNode.buf := by
  intro e
  obtain ⟨i, _, hi⟩ := List.mem_map.1 e
  exact BNode.noConfusion hi

theorem nodup_map_buf (l : List Nat) (h : l.Nodup) : (l.map BNode.buf).Nodup :=
  List.Nodup.map (fun _ _ e => BNode.buf.inj e) h

/-- The nodes of two lists are different. -/
theorem BLists_apart (s : BState) (L : BNode → List Nat) (hL : BLists s L) (h h1 y : BNode)
    (hs : isSentinel h = true) (hs1 : isSentinel h1 = true) (hne : h1 ≠ h)
    (hy : y ∈ h :: (L h).map BNode.buf) : y ∉ h1 :: (L h1).map BNode.buf := by
  intro e
  rcases List.mem_cons.1 hy with e1 | e1
  · rw [e1] at e
    rcases List.mem_cons.1 e with e2 | e2
    · exact hne e2.symm
    · exact sentinel_not_mem h _ hs e2
  · obtain ⟨i, hi, hiy⟩ := List.mem_map.1 e1
    rw [← hiy] at e
    rcases List.mem_cons.1 e with e2 | e2
    · exact isSentinel_buf h1 i hs1 e2.symm
    · exact hne (hL.disj h h1 i hi ((mem_map_buf i _).1 e2)).symm

/-- The neighbours of a buffer on a list. -/
theorem BLists_links (s : BState) (L : BNode → List Nat) (hL : BLists s L) (h : BNode)
    (i : Nat) (hi : i ∈ L h) :
    s.prev (BNode.buf i) ∈ h :: (L h).map BNode.buf ∧
    s.next (BNode.buf i) ∈ h :: (L h).map BNode.buf ∧
    s.prev (BNode.buf i) ≠ BNode.buf i ∧ s.next (BNode.buf i) ≠ BNode.buf i ∧
    s.prev (BNode.buf i) ≠ BNode.null ∧ s.next (BNode.buf i) ≠ BNode.null := by
  have hs := hL.sent h i hi
  have hr := hL.ring h hs
  have hnd := hL.nodup h
  obtain ⟨l1, l2, e⟩ := List.append_of_mem hi
  unfold Ring at hr
  rw [e] at hr hnd
  rw [e]
  rw [List.map_append, List.map_cons] at hr
  have hsp := (Path_split s (BNode.buf i) h (l2.map BNode.buf) (l1.map BNode.buf) h).1 hr
  have hp := Path_prev_mem s _ _ _ hsp.1
  have hn := Path_next_mem s _ _ _ hsp.2
  have hi1 : i ∉ l1 := by
    intro e1
    have := List.nodup_append.1 hnd
    exact this.2.2 e1 (List.mem_cons_self _ _)
  have hi2 : i ∉ l2 := by
    have := (List.nodup_append.1 hnd).2.1
    exact (List.nodup_cons.1 this).1
  have hp1 : s.prev (BNode.buf i) ≠ BNode.buf i := by
    intro e1
    rw [e1] at hp
    rcases List.mem_cons.1 hp with e2 | e2
    · exact isSentinel_buf h i hs e2.symm
    · exact hi1 ((mem_map_buf i _).1 e2)
  have hn1 : s.next (BNode.buf i) ≠ BNode.buf i := by
    intro e1
    rw [e1] at hn
    rcases List.mem_append.1 hn with e2 | e2
    · exact hi2 ((mem_map_buf i _).1 e2)
    · exact isSentinel_buf h i hs (List.mem_singleton.1 e2).symm
  have hp0 : s.prev (BNode.buf i) ≠ BNode.null := by
    intro e1
    rw [e1] at hp
    rcases List.mem_cons.1 hp with e2 | e2
    · exact isSentinel_null h hs e2.symm
    · exact null_not_mem _ e2
  have hn0 : s.next (BNode.buf i) ≠ BNode.null := by
    intro e1
    rw [e1] at hn
    rcases List.mem_append.1 hn with e2 | e2
    · exact null_not_mem _ e2
    · exact isSentinel_null h hs (List.mem_singleton.1 e2).symm
  refine ⟨?_, ?_, hp1, hn1, hp0, hn0⟩
  · rcases List.mem_cons.1 hp with e2 | e2
    · rw [e2]; simp
    · refine List.mem_cons_of_mem _ ?_
      rw [List.map_append]
      exact List.mem_append_left _ e2
  · rcases List.mem_append.1 hn with e2 | e2
    · refine List.mem_cons_of_mem _ ?_
      rw [List.map_append, List.map_cons]
      exact List.mem_append_right _ (List.mem_cons_of_mem _ e2)
    · rw [List.mem_singleton.1 e2]; simp

/-- The sentinel of a list and its neighbours. -/
theorem BLists_sentinel (s : BState) (L : BNode → List Nat) (hL : BLists s L) (h : BNode)
    (hs : isSentinel h = true) :
    s.next h ∈ h :: (L h).map BNode.buf ∧ s.prev h ∈ h :: (L h).map BNode.buf ∧
    s.next h ≠ BNode.null ∧ s.prev h ≠ BNode.null := by
  have hr := hL.ring h hs
  unfold Ring at hr
  have hp := Path_prev_mem s _ _ _ hr
  have hn := Path_next_mem s _ _ _ hr
  have hn2 : s.next h ∈ h :: (L h).map BNode.buf := by
    rcases List.mem_append.1 hn with e2 | e2
    · exact List.mem_cons_of_mem _ e2
    · rw [List.mem_singleton.1 e2]; simp
  refine ⟨hn2, hp, ?_, ?_⟩
  · intro e1
    rw [e1] at hn2
    rcases List.mem_cons.1 hn2 with e2 | e2
    · exact isSentinel_null h hs e2.symm
    · exact null_not_mem _ e2
  · intro e1
    rw [e1] at hp
    rcases List.mem_cons.1 hp with e2 | e2
    · exact isSentinel_null h hs e2.symm
    · exact null_not_mem _ e2

/-- Taking the buffer `i` out of its list leaves the lists of the buffer cache, with the
list of `h` without `i`. -/
theorem BLists_remove (s s1 : BState) (L : BNode → List Nat) (h : BNode) (i : Nat)
    (hL : BLists s L) (hi : i ∈ L h)
    (hn : ∀ y, y ≠ BNode.buf i →
      s1.next y = if y = s.prev (BNode.buf i) then s.next (BNode.buf i) else s.next y)
    (hp : ∀ y, y ≠ BNode.buf i →
      s1.prev y = if y = s.next (BNode.buf i) then s.prev (BNode.buf i) else s.prev y) :
    BLists s1 (Function.update L h ((L h).erase i)) := by
  have hs := hL.sent h i hi
  have hlk := BLists_links s L hL h i hi
  refine ⟨?_, ?_, ?_, ?_⟩
  · intro h1 hs1
    by_cases e : h1 = h
    · rw [e, Function.update_same]
      have hr := hL.ring h hs
      have hnd := hL.nodup h
      obtain ⟨l1, l2, e1⟩ := List.append_of_mem hi
      unfold Ring at hr ⊢
      rw [e1] at hr hnd
      rw [e1]
      have hi1 : i ∉ l1 := by
        intro e2
        exact (List.nodup_append.1 hnd).2.2 e2 (List.mem_cons_self _ _)
      rw [List.erase_append_right _ hi1, List.erase_cons_head, List.map_append]
      rw [List.map_append, List.map_cons] at hr
      refine Path_remove s s1 (BNode.buf i) h _ hn hp _ h hr ?_ ?_
      · rw [← List.map_cons, ← List.map_append]
        exact List.nodup_cons.2 ⟨sentinel_not_mem h _ hs, nodup_map_buf _ hnd⟩
      · rw [← List.map_cons, ← List.map_append]
        exact sentinel_not_mem h _ hs
    · rw [Function.update_noteq e]
      have hr := hL.ring h1 hs1
      unfold Ring at hr ⊢
      refine Path_congr s s1 _ h1 h1 ?_ ?_ hr
      · intro y hy
        have hyb : y ≠ BNode.buf i := by
          intro e1
          rw [e1] at hy
          exact BLists_apart s L hL h h1 _ hs hs1 e
            (List.mem_cons_of_mem _ ((mem_map_buf i _).2 hi)) hy
        have hyp : y ≠ s.prev (BNode.buf i) := by
          intro e1
          rw [e1] at hy
          exact BLists_apart s L hL h h1 _ hs hs1 e hlk.1 hy
        rw [hn y hyb, if_neg hyp]
      · intro y hy
        have hy2 : y ∈ h1 :: (L h1).map BNode.buf := by
          rcases List.mem_append.1 hy with e2 | e2
          · exact List.mem_cons_of_mem _ e2
          · rw [List.mem_singleton.1 e2]; simp
        have hyb : y ≠ BNode.buf i := by
          intro e1
          rw [e1] at hy2
          exact BLists_apart s L hL h h1 _ hs hs1 e
            (List.mem_cons_of_mem _ ((mem_map_buf i _).2 hi)) hy2
        have hyp : y ≠ s.next (BNode.buf i) := by
          intro e1
          rw [e1] at hy2
          exact BLists_apart s L hL h h1 _ hs hs1 e hlk.2.1 hy2
        rw [hp y hyb, if_neg hyp]
  · intro h1
    by_cases e : h1 = h
    · rw [e, Function.update_same]
      exact (hL.nodup h).erase i
    · rw [Function.update_noteq e]
      exact hL.nodup h1
  · intro h1 h2 j hj1 hj2
    have a1 : j ∈ L h1 := by
      by_cases e : h1 = h
      · rw [e, Function.update_same] at hj1
        rw [e]
        exact List.mem_of_mem_erase hj1
      · rw [Function.update_noteq e] at hj1
        exact hj1
    have a2 : j ∈ L h2 := by
      by_cases e : h2 = h
      · rw [e, Function.update_same] at hj2
        rw [e]
        exact List.mem_of_mem_erase hj2
      · rw [Function.update_noteq e] at hj2
        exact hj2
    exact hL.disj h1 h2 j a1 a2
  · intro h1 j hj
    by_cases e : h1 = h
    · rw [e]; exact hs
    · rw [Function.update_noteq e] at hj
      exact hL.sent h1 j hj

/-- Putting the buffer `i`, which is on no list, behind the sentinel `h` leaves the lists
of the buffer cache, with `i` the first buffer of the list of `h`. -/
theorem BLists_insert (s s1 : BState) (L : BNode → List Nat) (h : BNode) (i : Nat)
    (hL : BLists s L) (hs : isSentinel h = true) (hi : ∀ h1, i ∉ L h1)
    (hnb : s1.next (BNode.buf i) = s.next h) (hpb : s1.prev (BNode.buf i) = h)
    (hnh : s1.next h = BNode.buf i) (hpn : s1.prev (s.next h) = BNode.buf i)
    (hn : ∀ y, y ≠ BNode.buf i → y ≠ h → s1.next y = s.next y)
    (hp : ∀ y, y ≠ BNode.buf i → y ≠ s.next h → s1.prev y = s.prev y) :
    BLists s1 (Function.update L h (i :: L h)) := by
  have hsn := BLists_sentinel s L hL h hs
  refine ⟨?_, ?_, ?_, ?_⟩
  · intro h1 hs1
    by_cases e : h1 = h
    · rw [e, Function.update_same]
      have hr := hL.ring h hs
      unfold Ring at hr ⊢
      rw [List.map_cons]
      refine Path_insert s s1 h (BNode.buf i) _ hr ?_ hnb hpb hnh hpn hn hp
      refine List.nodup_cons.2 ⟨?_, List.nodup_cons.2
        ⟨sentinel_not_mem h _ hs, nodup_map_buf _ (hL.nodup h)⟩⟩
      intro e1
      rcases List.mem_cons.1 e1 with e2 | e2
      · exact isSentinel_buf h i hs e2.symm
      · exact hi h ((mem_map_buf i _).1 e2)
    · rw [Function.update_noteq e]
      have hr := hL.ring h1 hs1
      unfold Ring at hr ⊢
      have hb : ∀ y, y ∈ h1 :: (L h1).map BNode.buf → y ≠ BNode.buf i := by
        intro y hy e1
        rw [e1] at hy
        rcases List.mem_cons.1 hy with e2 | e2
        · exact isSentinel_buf h1 i hs1 e2.symm
        · exact hi h1 ((mem_map_buf i _).1 e2)
      refine Path_congr s s1 _ h1 h1 ?_ ?_ hr
      · intro y hy
        have hyh : y ≠ h := by
          intro e1
          rw [e1] at hy
          exact BLists_apart s L hL h h1 _ hs hs1 e (List.mem_cons_self _ _) hy
        exact hn y (hb y hy) hyh
      · intro y hy
        have hy2 : y ∈ h1 :: (L h1).map BNode.buf := by
          rcases List.mem_append.1 hy with e2 | e2
          · exact List.mem_cons_of_mem _ e2
          · rw [List.mem_singleton.1 e2]; simp
        have hyn : y ≠ s.next h := by
          intro e1
          rw [e1] at hy2
          exact BLists_apart s L hL h h1 _ hs hs1 e hsn.1 hy2
        exact hp y (hb y hy2) hyn
  · intro h1
    by_cases e : h1 = h
    · rw [e, Function.update_same]
      exact List.nodup_cons.2 ⟨hi h, hL.nodup h⟩
    · rw [Function.update_noteq e]
      exact hL.nodup h1
  · intro h1 h2 j hj1 hj2
    by_cases e1 : h1 = h
    · by_cases e2 : h2 = h
      · rw [e1, e2]
      · rw [Function.update_noteq e2] at hj2
        rw [e1, Function.update_same] at hj1
        rcases List.mem_cons.1 hj1 with e3 | e3
        · rw [e3] at hj2
          exact absurd hj2 (hi h2)
        · rw [e1]
          exact hL.disj h h2 j e3 hj2
    · rw [Function.update_noteq e1] at hj1
      by_cases e2 : h2 = h
      · rw [e2, Function.update_same] at hj2
        rcases List.mem_cons.1 hj2 with e3 | e3
        · rw [e3] at hj1
          exact absurd hj1 (hi h1)
        · rw [e2]
          exact hL.disj h1 h j hj1 e3
      · rw [Function.update_noteq e2] at hj2
        exact hL.disj h1 h2 j hj1 hj2
  · intro h1 j hj
    by_cases e : h1 = h
    · rw [e]; exact hs
    · rw [Function.update_noteq e] at hj
      exact hL.sent h1 j hj

/-- A change of fields other than the links leaves the lists. -/
theorem BLists_same (s s1 : BState) (L : BNode → List Nat) (hL : BLists s L)
    (hn : s1.next = s.next) (hp : s1.prev = s.prev) : BLists s1 L := by
  refine ⟨?_, hL.nodup, hL.disj, hL.sent⟩
  intro h hs
  have hr := hL.ring h hs
  unfold Ring at hr ⊢
  exact Path_congr s s1 _ h h (fun y _ => by rw [hn]) (fun y _ => by rw [hp]) hr

theorem SameBlocks_refl (s : BState) : SameBlocks s s := ⟨rfl, rfl, rfl, rfl, rfl, rfl⟩

theorem SameBlocks_trans (s s1 s2 : BState) (h1 : SameBlocks s s1) (h2 : SameBlocks s1 s2) :
    SameBlocks s s2 :=
  ⟨h2.1.trans h1.1, h2.2.1.trans h1.2.1, h2.2.2.1.trans h1.2.2.1,
    h2.2.2.2.1.trans h1.2.2.2.1, h2.2.2.2.2.1.trans h1.2.2.2.2.1,
    h2.2.2.2.2.2.trans h1.2.2.2.2.2⟩

/-- The four assignments of `bucket_insert` and `unused_insert` put a buffer that is on
no list at the head of the list of `h`. -/
theorem insertAfter_spec (s : BState) (L : BNode → List Nat) (h : BNode) (i : Nat)
    (hL : BLists s L) (hs : isSentinel h = true) (hi : ∀ h1, i ∉ L h1) :
    ∃ s1, insertAfter h (BNode.buf i) s = some s1 ∧
      BLists s1 (Function.update L h (i :: L h)) ∧ SameBlocks s s1 := by
  have hsn := BLists_sentinel s L hL h hs
  have hhb : h ≠ BNode.buf i := isSentinel_buf h i hs
  have hnb : s.next h ≠ BNode.buf i := by
    intro e
    rw [e] at hsn
    rcases List.mem_cons.1 hsn.1 with e2 | e2
    · exact hhb e2.symm
    · exact hi h ((mem_map_buf i _).1 e2)
  unfold insertAfter
  simp only [BState.setNext, BState.setPrev, if_neg hhb]
  rw [if_neg hsn.2.2.1]
  refine ⟨_, rfl, ?_, ⟨rfl, rfl, rfl, rfl, rfl, rfl⟩⟩
  refine BLists_insert s _ L h i hL hs hi ?_ ?_ ?_ ?_ ?_ ?_
  · simp [hhb.symm]
  · simp [hnb.symm]
  · simp
  · simp
  · intro y h1 h2
    simp [h1, h2]
  · intro y h1 h2
    simp [h1, h2]

theorem unused_insert_spec (s : BState) (L : BNode → List Nat) (i : Nat)
    (hL : BLists s L) (hi : ∀ h1, i ∉ L h1) :
    ∃ s1, unused_insert (BNode.buf i) s = some s1 ∧
      BLists s1 (Function.update L (BNode.unused (i % NBUCKET))
        (i :: L (BNode.unused (i % NBUCKET)))) ∧ SameBlocks s s1 := by
  have hs : isSentinel (BNode.unused (i % NBUCKET)) = true := by
    simp only [isSentinel, decide_eq_true_eq]
    exact Nat.mod_lt _ (by decide)
  exact insertAfter_spec s L _ i hL hs hi

theorem bucket_insert_spec (s : BState) (L : BNode → List Nat) (k i : Nat) (hk : k < NBUCKET)
    (hL : BLists s L) (hi : ∀ h1, i ∉ L h1) :
    ∃ s1, bucket_insert k (BNode.buf i) s = some s1 ∧
      BLists s1 (Function.update L (BNode.head k) (i :: L (BNode.head k))) ∧
      SameBlocks s s1 := by
  have hs : isSentinel (BNode.head k) = true := by
    simp only [isSentinel, decide_eq_true_eq]
    exact hk
  unfold bucket_insert
  have : ¬ k ≥ 13 := by unfold NBUCKET at hk; omega
  rw [if_neg this]
  exact insertAfter_spec s L _ i hL hs hi

/-- After a buffer is taken out of its list, it is on no list. -/
theorem erase_not_mem (L : BNode → List Nat) (s : BState) (hL : BLists s L) (h : BNode)
    (i : Nat) (hi : i ∈ L h) : ∀ h1, i ∉ Function.update L h ((L h).erase i) h1 := by
  intro h1
  by_cases e : h1 = h
  · rw [e, Function.update_same]
    exact fun e1 => ((hL.nodup h).mem_erase_iff.1 e1).1 rfl
  · rw [Function.update_noteq e]
    intro e1
    exact e (hL.disj h1 h i e1 hi)

/-- The function `unused_fetch` on the lists of the buffer cache: the list is empty and the
result is null, or the result is the last buffer of the list, taken out of it. -/
theorem unused_fetch_spec (s : BState) (L : BNode → List Nat) (k : Nat) (hk : k < NBUCKET)
    (hL : BLists s L) :
    (L (BNode.unused k) = [] ∧ unused_fetch k s = some (BNode.null, s)) ∨
    (∃ i s1, i ∈ L (BNode.unused k) ∧ unused_fetch k s = some (BNode.buf i, s1) ∧
      BLists s1 (Function.update L (BNode.unused k) ((L (BNode.unused k)).erase i)) ∧
      SameBlocks s s1) := by
  have hs : isSentinel (BNode.unused k) = true := by
    simp only [isSentinel, decide_eq_true_eq]
    exact hk
  have hr := hL.ring _ hs
  unfold Ring at hr
  rcases List.eq_nil_or_concat (L (BNode.unused k)) with e | ⟨l, i, e⟩
  · left
    refine ⟨e, ?_⟩
    rw [e] at hr
    simp only [List.map_nil, Path] at hr
    unfold unused_fetch
    simp only [hr.2, ne_eq, not_true_eq_false, if_false]
  · right
    have hi : i ∈ L (BNode.unused k) := by rw [e]; simp
    have hlk := BLists_links s L hL _ i hi
    rw [e, List.concat_eq_append, List.map_append, List.map_cons, List.map_nil] at hr
    have hsp := (Path_split s (BNode.buf i) _ [] _ _).1 hr
    have hpu : s.prev (BNode.unused k) = BNode.buf i := by
      have := hsp.2
      simp only [Path] at this
      exact this.2
    unfold unused_fetch unlink
    simp only [hpu, ne_eq, BState.setNext, BState.setPrev]
    rw [if_pos (fun e1 => BNode.noConfusion e1), if_neg (fun e1 => BNode.noConfusion e1),
      if_neg hlk.2.2.2.2.1, if_neg hlk.2.2.1.symm, if_neg hlk.2.2.2.2.2]
    refine ⟨i, _, hi, rfl, ?_, ⟨rfl, rfl, rfl, rfl, rfl, rfl⟩⟩
    refine BLists_remove s _ L _ i hL hi ?_ ?_
    · intro y hy
      simp [hy, hlk.2.2.1.symm]
    · intro y hy
      simp [hy, hlk.2.2.1.symm]

/-- The loop of `unused_steal` on the lists of the buffer cache: the unused lists of the
buckets from `i` up to `bucket` are empty and the result is null, or the result is the last
buffer of the first of them that is not empty, taken out of it. -/
theorem unusedStealLoop_spec (s : BState) (L : BNode → List Nat) (k : Nat) (hk : k < NBUCKET)
    (hL : BLists s L) : ∀ (fuel i : Nat), i < NBUCKET → (k + NBUCKET - i) % NBUCKET < fuel →
    ((∀ j, j < NBUCKET → (j + NBUCKET - i) % NBUCKET < (k + NBUCKET - i) % NBUCKET →
        L (BNode.unused j) = []) ∧
      unusedStealLoop k fuel i s = some (BNode.null, s)) ∨
    (∃ j b s1, j < NBUCKET ∧ b ∈ L (BNode.unused j) ∧
      unusedStealLoop k fuel i s = some (BNode.buf b, s1) ∧
      BLists s1 (Function.update L (BNode.unused j) ((L (BNode.unused j)).erase b)) ∧
      SameBlocks s s1) := by
  intro fuel
  induction fuel with
  | zero => intro i _ h; omega
  | succ fuel ih =>
    intro i hi hf
    unfold NBUCKET at hk hi hf
    by_cases e : i = k
    · left
      refine ⟨?_, ?_⟩
      · intro j _ hj
        unfold NBUCKET at hj
        rw [e] at hj
        omega
      · unfold unusedStealLoop
        rw [if_neg (by simp only [ne_eq, not_not]; exact e)]
    · rcases unused_fetch_spec s L i hi hL with ⟨hnil, hfe⟩ | ⟨b, s1, hb, hfe, hL1, hsb⟩
      · have hi2 : (i + 1) % NBUCKET < NBUCKET := Nat.mod_lt _ (by decide)
        have hf2 : (k + NBUCKET - (i + 1) % NBUCKET) % NBUCKET < fuel := by
          unfold NBUCKET
          omega
        rcases ih ((i + 1) % NBUCKET) hi2 hf2 with ⟨hall, hres⟩ | ⟨j, b, s1, h1, h2, h3, h4⟩
        · left
          refine ⟨?_, ?_⟩
          · intro j hj hd
            by_cases ej : j = i
            · rw [ej]; exact hnil
            · refine hall j hj ?_
              unfold NBUCKET at hj hd ⊢
              omega
          · unfold unusedStealLoop
            rw [if_pos e, hfe]
            simp only [ne_eq, not_true_eq_false, if_false]
            exact hres
        · right
          refine ⟨j, b, s1, h1, h2, ?_, h4⟩
          unfold unusedStealLoop
          rw [if_pos e, hfe]
          simp only [ne_eq, not_true_eq_false, if_false]
          exact h3
      · right
        refine ⟨i, b, s1, hi, hb, ?_, hL1, hsb⟩
        unfold unusedStealLoop
        rw [if_pos e, hfe]
        simp only [ne_eq]
        rw [if_pos (fun e1 => BNode.noConfusion e1)]

/-- The function `unused_get` on the lists of the buffer cache: all unused lists are empty
and the result is null, or the result is a buffer of an unused list, taken out of it. -/
theorem unused_get_spec (s : BState) (L : BNode → List Nat) (k : Nat) (hk : k < NBUCKET)
    (hL : BLists s L) :
    ((∀ j, j < NBUCKET → L (BNode.unused j) = []) ∧
      unused_get k s = some (BNode.null, s)) ∨
    (∃ j b s1, j < NBUCKET ∧ b ∈ L (BNode.unused j) ∧
      unused_get k s = some (BNode.buf b, s1) ∧
      BLists s1 (Function.update L (BNode.unused j) ((L (BNode.unused j)).erase b)) ∧
      SameBlocks s s1) := by
  rcases unused_fetch_spec s L k hk hL with ⟨hnil, hfe⟩ | ⟨b, s1, hb, hfe, hL1, hsb⟩
  · have hi2 : (k + 1) % NBUCKET < NBUCKET := Nat.mod_lt _ (by decide)
    have hf2 : (k + NBUCKET - (k + 1) % NBUCKET) % NBUCKET < NBUCKET := Nat.mod_lt _ (by decide)
    rcases unusedStealLoop_spec s L k hk hL NBUCKET ((k + 1) % NBUCKET) hi2 hf2 with
      ⟨hall, hres⟩ | ⟨j, b, s1, h1, h2, h3, h4⟩
    · left
      refine ⟨?_, ?_⟩
      · intro j hj
        by_cases ej : j = k
        · rw [ej]; exact hnil
        · refine hall j hj ?_
          unfold NBUCKET at hj hk ⊢
          omega
      · unfold unused_get unused_steal
        rw [hfe]
        simp only [if_true]
        exact hres
    · right
      refine ⟨j, b, s1, h1, h2, ?_, h4⟩
      unfold unused_get unused_steal
      rw [hfe]
      simp only [if_true]
      exact h3
  · right
    refine ⟨k, b, s1, hk, hb, ?_, hL1, hsb⟩
    unfold unused_get
    rw [hfe]
    simp only
    rw [if_neg (fun e1 => BNode.noConfusion e1)]

/-- The loop of `bget` over an active list finds the first buffer that holds the block. -/
theorem bgetScan_spec (s : BState) (k dev blockno : Nat) : ∀ (l : List Nat) (x : BNode)
    (fuel : Nat), Path s x (l.map BNode.buf) (BNode.head k) → l.length < fuel →
    bgetScan s k dev blockno fuel (s.next x) =
      some (match findBlock s dev blockno l with
        | some i => BNode.buf i
        | none => BNode.null) := by
  intro l
  induction l with
  | nil =>
    intro x fuel h hf
    simp only [List.map_nil, Path] at h
    cases fuel with
    | zero => simp at hf
    | succ fuel =>
      rw [h.1]
      unfold bgetScan
      simp [findBlock]
  | cons i l ih =>
    intro x fuel h hf
    simp only [List.map_cons, Path] at h
    cases fuel with
    | zero => simp at hf
    | succ fuel =>
      rw [h.1]
      unfold bgetScan
      rw [if_neg (fun e1 => BNode.noConfusion e1), if_neg (fun e1 => BNode.noConfusion e1)]
      by_cases hm : s.dev (BNode.buf i) = dev ∧ s.blockno (BNode.buf i) = blockno
      · rw [if_pos hm]
        simp [findBlock, List.find?, hm]
      · rw [if_neg hm]
        rw [ih (BNode.buf i) fuel h.2.2 (by simpa using hf)]
        simp only [findBlock, List.find?, hm, decide_False]

/-- A list of the buffer cache holds at most `n` buffers. -/
theorem BRep_length (n : Nat) (s : BState) (L : BNode → List Nat) (hR : BRep n s L)
    (h : BNode) : (L h).length ≤ n := by
  have hsub : L h ⊆ List.range n := by
    intro i hi
    exact List.mem_range.2 ((hR.2 i).2 ⟨h, hi⟩)
  have := (List.Nodup.subperm (hR.1.nodup h) hsub).length_le
  rwa [List.length_range] at this

theorem isSentinel_head (k : Nat) (hk : k < NBUCKET) : isSentinel (BNode.head k) = true := by
  simp only [isSentinel, decide_eq_true_eq]
  exact hk

theorem isSentinel_unused (k : Nat) (hk : k < NBUCKET) :
    isSentinel (BNode.unused k) = true := by
  simp only [isSentinel, decide_eq_true_eq]
  exact hk

/-- The function `bget` when the block is cached: the result is the first buffer of the
active list of its bucket that holds the block, with one more reference. -/
theorem bget_hit (NBUF : Nat) (s : BState) (L : BNode → List Nat) (dev blockno i : Nat)
    (hR : BRep NBUF s L)
    (hf : findBlock s dev blockno (L (BNode.head (blockno % NBUCKET))) = some i) :
    bget NBUF dev blockno s =
      some (BNode.buf i, s.setRefcnt (BNode.buf i) ((s.refcnt (BNode.buf i) + 1) % 2 ^ 32)) := by
  have hk : blockno % NBUCKET < NBUCKET := Nat.mod_lt _ (by decide)
  have hr := hR.1.ring _ (isSentinel_head _ hk)
  have hsc := bgetScan_spec s (blockno % NBUCKET) dev blockno _ _ (NBUF + 1) hr
    (Nat.lt_succ_of_le (BRep_length NBUF s L hR _))
  rw [hf] at hsc
  unfold bget hash
  simp only [hsc, ne_eq]
  rw [if_pos (fun e1 => BNode.noConfusion e1)]

/-- The function `bget` when the block is not cached: all unused lists are empty and
`bget` panics, or a buffer of an unused list becomes the first buffer of the active list
of the bucket of the block, with the block, `valid = 0` and one reference. -/
theorem bget_miss (NBUF : Nat) (s : BState) (L : BNode → List Nat) (dev blockno : Nat)
    (hR : BRep NBUF s L)
    (hf : findBlock s dev blockno (L (BNode.head (blockno % NBUCKET))) = none) :
    ((∀ j, j < NBUCKET → L (BNode.unused j) = []) ∧ bget NBUF dev blockno s = none) ∨
    (∃ j i s1, j < NBUCKET ∧ i ∈ L (BNode.unused j) ∧
      bget NBUF dev blockno s = some (BNode.buf i, s1) ∧
      BLists s1 (moveTo L (BNode.unused j) (BNode.head (blockno % NBUCKET)) i) ∧
      s1.dev = (fun y => if y = BNode.buf i then dev else s.dev y) ∧
      s1.blockno = (fun y => if y = BNode.buf i then blockno else s.blockno y) ∧
      s1.valid = (fun y => if y = BNode.buf i then 0 else s.valid y) ∧
      s1.refcnt = (fun y => if y = BNode.buf i then 1 else s.refcnt y) ∧
      s1.data = s.data ∧ s1.reads = s.reads) := by
  have hk : blockno % NBUCKET < NBUCKET := Nat.mod_lt _ (by decide)
  have hr := hR.1.ring _ (isSentinel_head _ hk)
  have hsc := bgetScan_spec s (blockno % NBUCKET) dev blockno _ _ (NBUF + 1) hr
    (Nat.lt_succ_of_le (BRep_length NBUF s L hR _))
  rw [hf] at hsc
  rcases unused_get_spec s L _ hk hR.1 with ⟨hall, hres⟩ | ⟨j, i, s1, hj, hi, hres, hL1, hsb⟩
  · left
    refine ⟨hall, ?_⟩
    unfold bget hash
    simp only [hsc, ne_eq, not_true_eq_false, if_false, hres]
  · right
    obtain ⟨a1, a2, a3, a4, a5, a6⟩ := hsb
    have hL2 : BLists
        ((((s1.setDev (BNode.buf i) dev).setBlockno (BNode.buf i) blockno).setValid
          (BNode.buf i) 0).setRefcnt (BNode.buf i) 1)
        (Function.update L (BNode.unused j) ((L (BNode.unused j)).erase i)) :=
      BLists_same s1 _ _ hL1 rfl rfl
    obtain ⟨s3, hins, hL3, b1, b2, b3, b4, b5, b6⟩ := bucket_insert_spec _ _ _ i hk hL2
      (erase_not_mem L s hR.1 _ i hi)
    refine ⟨j, i, s3, hj, hi, ?_, hL3, ?_, ?_, ?_, ?_, ?_, ?_⟩
    · unfold bget hash
      simp only [hsc, ne_eq, not_true_eq_false, if_false, hres]
      rw [if_pos (fun e1 => BNode.noConfusion e1)]
      simp only [hins]
    · rw [b1, ← a1]; rfl
    · rw [b2, ← a2]; rfl
    · rw [b3, ← a3]; rfl
    · rw [b4, ← a4]; rfl
    · rw [b5, ← a5]; rfl
    · rw [b6, ← a6]; rfl

/-- The function `brelse` on a buffer of a list: the reference count goes down by one; at
0 the buffer becomes the first buffer of the unused list of the bucket of its index. -/
theorem brelse_effect (s : BState) (L : BNode → List Nat) (h : BNode) (i : Nat)
    (hL : BLists s L) (hi : i ∈ L h) :
    ((s.refcnt (BNode.buf i) + (2 ^ 32 - 1)) % 2 ^ 32 = 0 →
      ∃ s1, brelse true (BNode.buf i) s = some s1 ∧
        BLists s1 (moveTo L h (BNode.unused (i % NBUCKET)) i) ∧
        s1.refcnt = (fun y => if y = BNode.buf i then 0 else s.refcnt y) ∧
        s1.dev = s.dev ∧ s1.blockno = s.blockno ∧ s1.valid = s.valid ∧ s1.data = s.data ∧
        s1.reads = s.reads) ∧
    ((s.refcnt (BNode.buf i) + (2 ^ 32 - 1)) % 2 ^ 32 ≠ 0 →
      brelse true (BNode.buf i) s = some (s.setRefcnt (BNode.buf i)
        ((s.refcnt (BNode.buf i) + (2 ^ 32 - 1)) % 2 ^ 32))) := by
  have hlk := BLists_links s L hL h i hi
  refine ⟨?_, ?_⟩
  · intro h0
    have hL1 : BLists
        (((s.setRefcnt (BNode.buf i) 0).setPrev
          (s.next (BNode.buf i)) (s.prev (BNode.buf i))).setNext
          (s.prev (BNode.buf i)) (s.next (BNode.buf i)))
        (Function.update L h ((L h).erase i)) := by
      refine BLists_remove s _ L h i hL hi ?_ ?_
      · intro y _
        simp [BState.setNext, BState.setPrev, BState.setRefcnt]
      · intro y _
        simp [BState.setNext, BState.setPrev, BState.setRefcnt]
    obtain ⟨s3, hins, hL3, b1, b2, b3, b4, b5, b6⟩ := unused_insert_spec _ _ i hL1
      (erase_not_mem L s hL h i hi)
    refine ⟨s3, ?_, hL3, ?_, ?_, ?_, ?_, ?_, ?_⟩
    · unfold brelse
      simp only [Bool.not_true, Bool.false_eq_true, if_false, if_true, h0, BState.setRefcnt]
      simp only [BState.setPrev, BState.setNext]
      rw [if_neg hlk.2.2.2.2.2, if_neg hlk.2.2.2.1.symm, if_neg hlk.2.2.2.2.1]
      exact hins
    · rw [b4]
      rfl
    · exact b1
    · exact b2
    · exact b3
    · exact b5
    · exact b6
  · intro h0
    unfold brelse
    simp only [Bool.not_true, Bool.false_eq_true, if_false, if_true, h0, BState.setRefcnt]

/-- The buffers of the lists after a buffer has gone from one list to another. -/
theorem moveTo_mem (s : BState) (L : BNode → List Nat) (hL : BLists s L) (h0 h1 h : BNode)
    (i x : Nat) (hi : i ∈ L h0) :
    x ∈ moveTo L h0 h1 i h ↔ (x = i ∧ h = h1) ∨ (x ≠ i ∧ x ∈ L h) := by
  have hm : ∀ h2, x ∈ Function.update L h0 ((L h0).erase i) h2 ↔ x ≠ i ∧ x ∈ L h2 := by
    intro h2
    by_cases e : h2 = h0
    · rw [e, Function.update_same, (hL.nodup h0).mem_erase_iff]
    · rw [Function.update_noteq e]
      constructor
      · intro hx
        refine ⟨?_, hx⟩
        intro e1
        rw [e1] at hx
        exact e (hL.disj h2 h0 i hx hi)
      · exact fun hx => hx.2
  unfold moveTo
  by_cases e : h = h1
  · rw [e, Function.update_same, List.mem_cons, hm h1]
    constructor
    · rintro (h2 | h2)
      · exact Or.inl ⟨h2, rfl⟩
      · exact Or.inr h2
    · rintro (h2 | h2)
      · exact Or.inl h2.1
      · exact Or.inr h2
  · rw [Function.update_noteq e, hm h]
    constructor
    · exact fun h2 => Or.inr h2
    · rintro (h2 | h2)
      · exact absurd h2.2 e
      · exact h2

/-- The lists hold the same buffers after a buffer has gone from one list to another. -/
theorem moveTo_cover (s : BState) (L : BNode → List Nat) (hL : BLists s L) (h0 h1 : BNode)
    (i x : Nat) (hi : i ∈ L h0) : (∃ h, x ∈ moveTo L h0 h1 i h) ↔ ∃ h, x ∈ L h := by
  constructor
  · rintro ⟨h, hx⟩
    rcases (moveTo_mem s L hL h0 h1 h i x hi).1 hx with h2 | h2
    · rw [h2.1]; exact ⟨h0, hi⟩
    · exact ⟨h, h2.2⟩
  · rintro ⟨h, hx⟩
    by_cases e : x = i
    · exact ⟨h1, (moveTo_mem s L hL h0 h1 h1 i x hi).2 (Or.inl ⟨e, rfl⟩)⟩
    · exact ⟨h, (moveTo_mem s L hL h0 h1 h i x hi).2 (Or.inr ⟨e, hx⟩)⟩

theorem moveTo_BRep (n : Nat) (s s1 : BState) (L : BNode → List Nat) (hR : BRep n s L)
    (h0 h1 : BNode) (i : Nat) (hi : i ∈ L h0) (hL1 : BLists s1 (moveTo L h0 h1 i)) :
    BRep n s1 (moveTo L h0 h1 i) := by
  refine ⟨hL1, ?_⟩
  intro x
  rw [moveTo_cover s L hR.1 h0 h1 i x hi]
  exact hR.2 x

theorem binitHeads_head (s : BState) : ∀ (n k : Nat), k < n →
    (binitHeads n s).next (BNode.head k) = BNode.head k ∧
    (binitHeads n s).prev (BNode.head k) = BNode.head k := by
  intro n
  induction n with
  | zero => intro k hk; omega
  | succ n ih =>
    intro k hk
    unfold binitHeads
    simp only [BState.setNext, BState.setPrev]
    by_cases e : k = n
    · rw [e]; simp
    · have := ih k (by omega)
      have e2 : BNode.head k ≠ BNode.head n := fun e1 => e (BNode.head.inj e1)
      rw [if_neg e2, if_neg e2]
      exact this

theorem binitHeads_other (s : BState) (x : BNode) (hx : ∀ k, x ≠ BNode.head k) : ∀ (n : Nat),
    (binitHeads n s).next x = s.next x ∧ (binitHeads n s).prev x = s.prev x := by
  intro n
  induction n with
  | zero => exact ⟨rfl, rfl⟩
  | succ n ih =>
    unfold binitHeads
    simp only [BState.setNext, BState.setPrev]
    rw [if_neg (hx n), if_neg (hx n)]
    exact ih

theorem binitHeads_same (s : BState) : ∀ (n : Nat), SameBlocks s (binitHeads n s) := by
  intro n
  induction n with
  | zero => exact SameBlocks_refl s
  | succ n ih => exact ih

theorem binitUnused_unused (s : BState) : ∀ (n k : Nat), k < n →
    (binitUnused n s).next (BNode.unused k) = BNode.unused k ∧
    (binitUnused n s).prev (BNode.unused k) = BNode.unused k := by
  intro n
  induction n with
  | zero => intro k hk; omega
  | succ n ih =>
    intro k hk
    unfold binitUnused
    simp only [BState.setNext, BState.setPrev]
    by_cases e : k = n
    · rw [e]; simp
    · have := ih k (by omega)
      have e2 : BNode.unused k ≠ BNode.unused n := fun e1 => e (BNode.unused.inj e1)
      rw [if_neg e2, if_neg e2]
      exact this

theorem binitUnused_other (s : BState) (x : BNode) (hx : ∀ k, x ≠ BNode.unused k) :
    ∀ (n : Nat), (binitUnused n s).next x = s.next x ∧ (binitUnused n s).prev x = s.prev x := by
  intro n
  induction n with
  | zero => exact ⟨rfl, rfl⟩
  | succ n ih =>
    unfold binitUnused
    simp only [BState.setNext, BState.setPrev]
    rw [if_neg (hx n), if_neg (hx n)]
    exact ih

theorem binitUnused_same (s : BState) : ∀ (n : Nat), SameBlocks s (binitUnused n s) := by
  intro n
  induction n with
  | zero => exact SameBlocks_refl s
  | succ n ih => exact ih

/-- After the first loops of `binit` all lists are empty. -/
theorem binit_empty (s : BState) :
    BLists (binitUnused NBUCKET (binitHeads NBUCKET s)) (fun _ => []) := by
  refine ⟨?_, fun _ => List.nodup_nil, ?_, ?_⟩
  · intro h hs
    unfold Ring
    simp only [List.map_nil, Path]
    cases h with
    | buf i => simp [isSentinel] at hs
    | null => simp [isSentinel] at hs
    | head k =>
      simp only [isSentinel, decide_eq_true_eq] at hs
      have h1 := binitUnused_other (binitHeads NBUCKET s) (BNode.head k)
        (fun _ e => BNode.noConfusion e) NBUCKET
      have h2 := binitHeads_head s NBUCKET k hs
      rw [h1.1, h1.2]
      exact h2
    | unused k =>
      simp only [isSentinel, decide_eq_true_eq] at hs
      exact binitUnused_unused _ NBUCKET k hs
  · intro h h1 i hi
    simp at hi
  · intro h i hi
    simp at hi

/-- The last loop of `binit` puts the buffers below `n` on the unused lists. -/
theorem binitBufs_spec (s0 : BState) (h0 : BLists s0 (fun _ => [])) : ∀ (n : Nat),
    ∃ s L, binitBufs n s0 = some s ∧ BRep n s L ∧
      (∀ h i, i ∈ L h → ∃ k, h = BNode.unused k) ∧ SameBlocks s0 s := by
  intro n
  induction n with
  | zero =>
    refine ⟨s0, fun _ => [], rfl, ⟨h0, ?_⟩, ?_, SameBlocks_refl s0⟩
    · intro i
      simp
    · intro h i hi
      simp at hi
  | succ n ih =>
    obtain ⟨s, L, hb, hR, hu, hsb⟩ := ih
    have hn : ∀ h1, n ∉ L h1 := by
      intro h1 e
      have := (hR.2 n).2 ⟨h1, e⟩
      omega
    obtain ⟨s1, hins, hL1, hsb1⟩ := unused_insert_spec s L n hR.1 hn
    refine ⟨s1, _, ?_, ⟨hL1, ?_⟩, ?_, SameBlocks_trans _ _ _ hsb hsb1⟩
    · unfold binitBufs
      rw [hb]
      exact hins
    · intro i
      constructor
      · intro hi
        by_cases e : i = n
        · refine ⟨BNode.unused (n % NBUCKET), ?_⟩
          rw [Function.update_same, e]
          exact List.mem_cons_self _ _
        · obtain ⟨h, hh⟩ := (hR.2 i).1 (by omega)
          refine ⟨h, ?_⟩
          by_cases e1 : h = BNode.unused (n % NBUCKET)
          · rw [e1, Function.update_same]
            rw [e1] at hh
            exact List.mem_cons_of_mem _ hh
          · rw [Function.update_noteq e1]
            exact hh
      · rintro ⟨h, hh⟩
        by_cases e1 : h = BNode.unused (n % NBUCKET)
        · rw [e1, Function.update_same] at hh
          rcases List.mem_cons.1 hh with e2 | e2
          · omega
          · have := (hR.2 i).2 ⟨_, e2⟩
            omega
        · rw [Function.update_noteq e1] at hh
          have := (hR.2 i).2 ⟨_, hh⟩
          omega
    · intro h i hh
      by_cases e1 : h = BNode.unused (n % NBUCKET)
      · exact ⟨_, e1⟩
      · rw [Function.update_noteq e1] at hh
        exact hu h i hh

/-- The function `binit` returns: all buffers are on unused lists, and the other fields
are those of the zeroed memory. -/
theorem binit_spec (NBUF : Nat) (s0 : BState) :
    ∃ s L, binit NBUF s0 = some s ∧ BRep NBUF s L ∧
      (∀ h i, i ∈ L h → ∃ k, h = BNode.unused k) ∧ SameBlocks s0 s := by
  obtain ⟨s, L, h1, h2, h3, h4⟩ := binitBufs_spec _ (binit_empty s0) NBUF
  refine ⟨s, L, h1, h2, h3, ?_⟩
  exact SameBlocks_trans _ _ _ (SameBlocks_trans _ _ _ (binitHeads_same s0 NBUCKET)
    (binitUnused_same _ NBUCKET)) h4

theorem findBlock_some (s : BState) (dev blockno : Nat) (l : List Nat) (i : Nat)
    (h : findBlock s dev blockno l = some i) :
    i ∈ l ∧ s.dev (BNode.buf i) = dev ∧ s.blockno (BNode.buf i) = blockno := by
  unfold findBlock at h
  have h1 := List.find?_some h
  simp only [decide_eq_true_eq] at h1
  exact ⟨List.mem_of_find?_eq_some h, h1⟩

theorem findBlock_none (s : BState) (dev blockno : Nat) (l : List Nat)
    (h : findBlock s dev blockno l = none) :
    ∀ x ∈ l, ¬ (s.dev (BNode.buf x) = dev ∧ s.blockno (BNode.buf x) = blockno) := by
  unfold findBlock at h
  intro x hx
  have := List.find?_eq_none.1 h x hx
  simpa using this

/-- The three ways of `bget`: the block is cached; it is not and no buffer is unused
(panic); it is not and an unused buffer is recycled. -/
theorem bget_cases (NBUF : Nat) (s : BState) (L : BNode → List Nat) (dev blockno : Nat)
    (hR : BRep NBUF s L) :
    (∃ i, i ∈ L (BNode.head (blockno % NBUCKET)) ∧ s.dev (BNode.buf i) = dev ∧
      s.blockno (BNode.buf i) = blockno ∧
      bget NBUF dev blockno s =
        some (BNode.buf i, s.setRefcnt (BNode.buf i) ((s.refcnt (BNode.buf i) + 1) % 2 ^ 32))) ∨
    ((∀ x ∈ L (BNode.head (blockno % NBUCKET)),
        ¬ (s.dev (BNode.buf x) = dev ∧ s.blockno (BNode.buf x) = blockno)) ∧
      (∀ j, j < NBUCKET → L (BNode.unused j) = []) ∧ bget NBUF dev blockno s = none) ∨
    ((∀ x ∈ L (BNode.head (blockno % NBUCKET)),
        ¬ (s.dev (BNode.buf x) = dev ∧ s.blockno (BNode.buf x) = blockno)) ∧
      ∃ j i s1, j < NBUCKET ∧ i ∈ L (BNode.unused j) ∧
        bget NBUF dev blockno s = some (BNode.buf i, s1) ∧
        BRep NBUF s1 (moveTo L (BNode.unused j) (BNode.head (blockno % NBUCKET)) i) ∧
        s1.dev = (fun y => if y = BNode.buf i then dev else s.dev y) ∧
        s1.blockno = (fun y => if y = BNode.buf i then blockno else s.blockno y) ∧
        s1.valid = (fun y => if y = BNode.buf i then 0 else s.valid y) ∧
        s1.refcnt = (fun y => if y = BNode.buf i then 1 else s.refcnt y) ∧
        s1.data = s.data ∧ s1.reads = s.reads) := by
  cases hf : findBlock s dev blockno (L (BNode.head (blockno % NBUCKET))) with
  | some i =>
    left
    obtain ⟨h1, h2, h3⟩ := findBlock_some s dev blockno _ i hf
    exact ⟨i, h1, h2, h3, bget_hit NBUF s L dev blockno i hR hf⟩
  | none =>
    right
    have hno := findBlock_none s dev blockno _ hf
    rcases bget_miss NBUF s L dev blockno hR hf with ⟨h1, h2⟩ |
      ⟨j, i, s1, hj, hi, hg, hL1, hrest⟩
    · exact Or.inl ⟨hno, h1, h2⟩
    · exact Or.inr ⟨hno, j, i, s1, hj, hi, hg, moveTo_BRep NBUF s s1 L hR _ _ i hi hL1, hrest⟩

theorem BRep_same (n : Nat) (s s1 : BState) (L : BNode → List Nat) (hR : BRep n s L)
    (hn : s1.next = s.next) (hp : s1.prev = s.prev) : BRep n s1 L :=
  ⟨BLists_same s s1 L hR.1 hn hp, hR.2⟩

theorem BIdent_same (s s1 : BState) (L : BNode → List Nat) (hI : BIdent s L)
    (hd : s1.dev = s.dev) (hb : s1.blockno = s.blockno) : BIdent s1 L := by
  refine ⟨?_, ?_⟩
  · intro k i hi
    rw [hb]
    exact hI.bucket k i hi
  · intro k k1 i j hi hj
    rw [hd, hb]
    exact hI.unique k k1 i j hi hj

theorem BCount_same (s s1 : BState) (L : BNode → List Nat) (hC : BCount s L)
    (hr : s1.refcnt = s.refcnt) : BCount s1 L := by
  intro h i hi
  rw [hr]
  exact hC h i hi

/-- The function `bget` keeps the blocks of the active lists apart. -/
theorem bget_ident (NBUF : Nat) (s s1 : BState) (L : BNode → List Nat) (dev blockno : Nat)
    (b : BNode) (hR : BRep NBUF s L) (hI : BIdent s L)
    (hg : bget NBUF dev blockno s = some (b, s1)) :
    ∃ L1, BRep NBUF s1 L1 ∧ BIdent s1 L1 := by
  rcases bget_cases NBUF s L dev blockno hR with ⟨i, _, _, _, hg1⟩ | ⟨_, _, hg1⟩ |
    ⟨hno, j, i, s2, hj, hi, hg1, hR1, hd, hb, _, _, _, _⟩
  · rw [hg1] at hg
    have e := (Prod.mk.inj (Option.some.inj hg)).2
    rw [← e]
    exact ⟨L, BRep_same NBUF s _ L hR rfl rfl, BIdent_same s _ L hI rfl rfl⟩
  · rw [hg1] at hg
    exact Option.noConfusion hg
  · rw [hg1] at hg
    have e := (Prod.mk.inj (Option.some.inj hg)).2
    rw [← e]
    refine ⟨_, hR1, ?_, ?_⟩
    · intro k x hx
      rcases (moveTo_mem s L hR.1 _ _ _ i x hi).1 hx with h2 | h2
      · rw [hb, h2.1]
        simp only [if_true]
        exact (BNode.head.inj h2.2).symm
      · rw [hb]
        have : BNode.buf x ≠ BNode.buf i := fun e1 => h2.1 (BNode.buf.inj e1)
        simp only [this, if_false]
        exact hI.bucket k x h2.2
    · intro k k1 x y hx hy
      rw [hd, hb]
      rcases (moveTo_mem s L hR.1 _ _ _ i x hi).1 hx with h2 | h2
      · rcases (moveTo_mem s L hR.1 _ _ _ i y hi).1 hy with h3 | h3
        · intro _ _
          rw [h2.1, h3.1]
        · have ny : BNode.buf y ≠ BNode.buf i := fun e1 => h3.1 (BNode.buf.inj e1)
          rw [h2.1]
          simp only [ny, if_true, if_false]
          intro e1 e2
          have hk := hI.bucket k1 y h3.2
          rw [← e2] at hk
          rw [← hk] at h3
          exact absurd ⟨e1.symm, e2.symm⟩ (hno y h3.2)
      · rcases (moveTo_mem s L hR.1 _ _ _ i y hi).1 hy with h3 | h3
        · have nx : BNode.buf x ≠ BNode.buf i := fun e1 => h2.1 (BNode.buf.inj e1)
          rw [h3.1]
          simp only [nx, if_true, if_false]
          intro e1 e2
          have hk := hI.bucket k x h2.2
          rw [e2] at hk
          rw [← hk] at h2
          exact absurd ⟨e1, e2⟩ (hno x h2.2)
        · have nx : BNode.buf x ≠ BNode.buf i := fun e1 => h2.1 (BNode.buf.inj e1)
          have ny : BNode.buf y ≠ BNode.buf i := fun e1 => h3.1 (BNode.buf.inj e1)
          simp only [nx, ny, if_false]
          exact hI.unique k k1 x y h2.2 h3.2

/-- The function `bget` keeps the buffers without reference on the unused lists, as long
as the reference count does not wrap. -/
theorem bget_count (NBUF : Nat) (s s1 : BState) (L : BNode → List Nat) (dev blockno : Nat)
    (b : BNode) (hR : BRep NBUF s L) (hC : BCount s L)
    (hb : ∀ i, i < NBUF → s.refcnt (BNode.buf i) < 2 ^ 32 - 1)
    (hg : bget NBUF dev blockno s = some (b, s1)) :
    ∃ L1, BRep NBUF s1 L1 ∧ BCount s1 L1 := by
  rcases bget_cases NBUF s L dev blockno hR with ⟨i, hi, _, _, hg1⟩ | ⟨_, _, hg1⟩ |
    ⟨hno, j, i, s2, hj, hi, hg1, hR1, _, _, _, hr, _, _⟩
  · rw [hg1] at hg
    have e := (Prod.mk.inj (Option.some.inj hg)).2
    rw [← e]
    refine ⟨L, BRep_same NBUF s _ L hR rfl rfl, ?_⟩
    intro h x hx
    simp only [BState.setRefcnt]
    by_cases e1 : x = i
    · rw [e1] at hx
      have eh := hR.1.disj _ _ i hx hi
      have hlt := hb i ((hR.2 i).2 ⟨_, hi⟩)
      rw [e1, eh]
      simp only [if_true]
      constructor
      · rintro ⟨k, hk⟩
        exact BNode.noConfusion hk
      · intro h0
        rw [Nat.mod_eq_of_lt (by omega)] at h0
        omega
    · have : BNode.buf x ≠ BNode.buf i := fun e2 => e1 (BNode.buf.inj e2)
      simp only [this, if_false]
      exact hC h x hx
  · rw [hg1] at hg
    exact Option.noConfusion hg
  · rw [hg1] at hg
    have e := (Prod.mk.inj (Option.some.inj hg)).2
    rw [← e]
    refine ⟨_, hR1, ?_⟩
    intro h x hx
    rw [hr]
    rcases (moveTo_mem s L hR.1 _ _ _ i x hi).1 hx with h2 | h2
    · rw [h2.1, h2.2]
      simp only [if_true]
      constructor
      · rintro ⟨k, hk⟩
        exact BNode.noConfusion hk
      · intro h0
        omega
    · have : BNode.buf x ≠ BNode.buf i := fun e2 => h2.1 (BNode.buf.inj e2)
      simp only [this, if_false]
      exact hC h x h2.2

/-- The function `bread` is `bget` followed by a change of `valid` and `data`. -/
theorem bread_bget (NBUF : Nat) (disk : Nat → Nat → Nat → Nat) (dev blockno : Nat)
    (s s2 : BState) (b : BNode) (h : bread NBUF disk dev blockno s = some (b, s2)) :
    ∃ s1, bget NBUF dev blockno s = some (b, s1) ∧ s2.next = s1.next ∧ s2.prev = s1.prev ∧
      s2.dev = s1.dev ∧ s2.blockno = s1.blockno ∧ s2.refcnt = s1.refcnt := by
  unfold bread at h
  cases hg : bget NBUF dev blockno s with
  | none => rw [hg] at h; exact Option.noConfusion h
  | some r =>
    obtain ⟨b1, s1⟩ := r
    rw [hg] at h
    simp only at h
    by_cases hv : s1.valid b1 = 0
    · rw [if_pos hv] at h
      have e := Prod.mk.inj (Option.some.inj h)
      rw [← e.1, ← e.2]
      exact ⟨s1, rfl, rfl, rfl, rfl, rfl, rfl⟩
    · rw [if_neg hv] at h
      have e := Prod.mk.inj (Option.some.inj h)
      rw [← e.1, ← e.2]
      exact ⟨s1, rfl, rfl, rfl, rfl, rfl, rfl⟩

/-- The function `brelse` keeps the blocks of the active lists apart. -/
theorem brelse_ident (NBUF : Nat) (s s1 : BState) (L : BNode → List Nat) (i : Nat)
    (hR : BRep NBUF s L) (hI : BIdent s L) (hi : i < NBUF)
    (hg : brelse true (BNode.buf i) s = some s1) :
    ∃ L1, BRep NBUF s1 L1 ∧ BIdent s1 L1 := by
  obtain ⟨h, hh⟩ := (hR.2 i).1 hi
  obtain ⟨e0, e1⟩ := brelse_effect s L h i hR.1 hh
  by_cases h0 : (s.refcnt (BNode.buf i) + (2 ^ 32 - 1)) % 2 ^ 32 = 0
  · obtain ⟨s2, hb, hL1, _, hd, hbk, _⟩ := e0 h0
    rw [hb] at hg
    rw [← Option.some.inj hg]
    refine ⟨_, moveTo_BRep NBUF s s2 L hR _ _ i hh hL1, ?_, ?_⟩
    · intro k x hx
      rcases (moveTo_mem s L hR.1 _ _ _ i x hh).1 hx with h2 | h2
      · exact BNode.noConfusion h2.2
      · rw [hbk]
        exact hI.bucket k x h2.2
    · intro k k1 x y hx hy
      rcases (moveTo_mem s L hR.1 _ _ _ i x hh).1 hx with h2 | h2
      · exact BNode.noConfusion h2.2
      · rcases (moveTo_mem s L hR.1 _ _ _ i y hh).1 hy with h3 | h3
        · exact BNode.noConfusion h3.2
        · rw [hd, hbk]
          exact hI.unique k k1 x y h2.2 h3.2
  · rw [e1 h0] at hg
    rw [← Option.some.inj hg]
    exact ⟨L, BRep_same NBUF s _ L hR rfl rfl, BIdent_same s _ L hI rfl rfl⟩

/-- The function `brelse` on a buffer with a reference keeps the buffers without reference
on the unused lists. -/
theorem brelse_count (NBUF : Nat) (s s1 : BState) (L : BNode → List Nat) (i : Nat)
    (hR : BRep NBUF s L) (hC : BCount s L) (hi : i < NBUF)
    (hr : 1 ≤ s.refcnt (BNode.buf i))
    (hg : brelse true (BNode.buf i) s = some s1) :
    ∃ L1, BRep NBUF s1 L1 ∧ BCount s1 L1 := by
  obtain ⟨h, hh⟩ := (hR.2 i).1 hi
  obtain ⟨e0, e1⟩ := brelse_effect s L h i hR.1 hh
  by_cases h0 : (s.refcnt (BNode.buf i) + (2 ^ 32 - 1)) % 2 ^ 32 = 0
  · obtain ⟨s2, hb, hL1, hrc, _⟩ := e0 h0
    rw [hb] at hg
    rw [← Option.some.inj hg]
    refine ⟨_, moveTo_BRep NBUF s s2 L hR _ _ i hh hL1, ?_⟩
    intro h1 x hx
    rw [hrc]
    rcases (moveTo_mem s L hR.1 _ _ _ i x hh).1 hx with h2 | h2
    · rw [h2.1, h2.2]
      simp only [if_true, iff_true]
      exact ⟨_, rfl⟩
    · have : BNode.buf x ≠ BNode.buf i := fun e2 => h2.1 (BNode.buf.inj e2)
      simp only [this, if_false]
      exact hC h1 x h2.2
  · rw [e1 h0] at hg
    rw [← Option.some.inj hg]
    refine ⟨L, BRep_same NBUF s _ L hR rfl rfl, ?_⟩
    intro h1 x hx
    simp only [BState.setRefcnt]
    by_cases e2 : x = i
    · rw [e2] at hx
      have eh := hR.1.disj _ _ i hx hh
      rw [e2, eh]
      simp only [if_true]
      constructor
      · intro hu
        have := (hC h i hh).1 hu
        omega
      · intro hz
        exact absurd hz h0
    · have : BNode.buf x ≠ BNode.buf i := fun e3 => e2 (BNode.buf.inj e3)
      simp only [this, if_false]
      exact hC h1 x hx

theorem some_of_isSome {α : Type} (o : Option α) (d : α) (h : o.isSome = true) :
    o = some (o.getD d) := by
  cases o with
  | none => simp at h
  | some a => rfl

theorem some_of_fst {α β : Type} (o : Option (α × β)) (a : α) (d : β)
    (h : o.map Prod.fst = some a) : o = some (a, (o.map Prod.snd).getD d) := by
  cases o with
  | none => simp at h
  | some r =>
    simp only [Option.map_some', Option.some.injEq] at h
    rw [← h]
    rfl

/-- The states that `binit`, `bget`, `bread`, `brelse`, `bpin` and `bunpin` reach keep the
lists of the buffer cache and the blocks of the active lists apart. -/
theorem BReachPin_inv (NBUF : Nat) (disk : Nat → Nat → Nat → Nat) (s : BState)
    (h : BReachPin NBUF disk s) : ∃ L, BRep NBUF s L ∧ BIdent s L := by
  induction h with
  | binit s hb =>
    obtain ⟨s1, L, h1, hR, hu, _⟩ := binit_spec NBUF bzero
    rw [hb] at h1
    rw [Option.some.inj h1]
    refine ⟨L, hR, ?_, ?_⟩
    · intro k i hi
      obtain ⟨k1, e⟩ := hu _ i hi
      exact BNode.noConfusion e
    · intro k k1 i j hi
      obtain ⟨k2, e⟩ := hu _ i hi
      exact BNode.noConfusion e
  | bget s s1 dev blockno b _ hg ih =>
    obtain ⟨L, hR, hI⟩ := ih
    exact bget_ident NBUF s s1 L dev blockno b hR hI hg
  | bread s s2 dev blockno b _ hg ih =>
    obtain ⟨L, hR, hI⟩ := ih
    obtain ⟨s1, hg1, hn, hp, hd, hbk, _⟩ := bread_bget NBUF disk dev blockno s s2 b hg
    obtain ⟨L1, hR1, hI1⟩ := bget_ident NBUF s s1 L dev blockno b hR hI hg1
    exact ⟨L1, BRep_same NBUF s1 s2 L1 hR1 hn hp, BIdent_same s1 s2 L1 hI1 hd hbk⟩
  | brelse s s1 i _ hi _ hg ih =>
    obtain ⟨L, hR, hI⟩ := ih
    exact brelse_ident NBUF s s1 L i hR hI hi hg
  | bpin s i _ _ ih =>
    obtain ⟨L, hR, hI⟩ := ih
    exact ⟨L, BRep_same NBUF s _ L hR rfl rfl, BIdent_same s _ L hI rfl rfl⟩
  | bunpin s i _ _ _ ih =>
    obtain ⟨L, hR, hI⟩ := ih
    exact ⟨L, BRep_same NBUF s _ L hR rfl rfl, BIdent_same s _ L hI rfl rfl⟩

/-- The states that `binit`, `bget`, `bread` and `brelse` reach keep the lists of the
buffer cache, with the buffers without reference on the unused lists. -/
theorem BReach_inv (NBUF : Nat) (disk : Nat → Nat → Nat → Nat) (s : BState)
    (h : BReach NBUF disk s) : ∃ L, BRep NBUF s L ∧ BCount s L := by
  induction h with
  | binit s hb =>
    obtain ⟨s1, L, h1, hR, hu, hsb⟩ := binit_spec NBUF bzero
    rw [hb] at h1
    rw [Option.some.inj h1]
    refine ⟨L, hR, ?_⟩
    intro h i hi
    rw [hsb.2.2.2.1]
    simp only [bzero, iff_true]
    exact hu h i hi
  | bget s s1 dev blockno b _ hb hg ih =>
    obtain ⟨L, hR, hC⟩ := ih
    exact bget_count NBUF s s1 L dev blockno b hR hC hb hg
  | bread s s2 dev blockno b _ hb hg ih =>
    obtain ⟨L, hR, hC⟩ := ih
    obtain ⟨s1, hg1, hn, hp, _, _, hr⟩ := bread_bget NBUF disk dev blockno s s2 b hg
    obtain ⟨L1, hR1, hC1⟩ := bget_count NBUF s s1 L dev blockno b hR hC hb hg1
    exact ⟨L1, BRep_same NBUF s1 s2 L1 hR1 hn hp, BCount_same s1 s2 L1 hC1 hr⟩
  | brelse s s1 i _ hi hr hg ih =>
    obtain ⟨L, hR, hC⟩ := ih
    exact brelse_count NBUF s s1 L i hR hC hi hr hg

/-- The example state `sB0` is the result of `binit`, with all reference counts 0. -/
theorem sB0_facts : binit 30 bzero = some sB0 ∧ sB0.refcnt = (fun _ => 0) ∧
    sB0.valid = (fun _ => 0) := by
  obtain ⟨s1, L, h1, _, _, hsb⟩ := binit_spec 30 bzero
  have e : sB0 = s1 := by
    unfold sB0
    rw [h1]
    rfl
  rw [e]
  exact ⟨h1, hsb.2.2.2.1, hsb.2.2.1⟩

/-- C26: in every state that `binit`, `bget`, `bread`, `brelse`, `bpin` and `bunpin` reach
(`brelse` and `bunpin` on a buffer with a reference count of at least 1), the lists of
the buffer cache are rings `L` that hold the `NBUF` buffers, a buffer on the active list
of bucket `k` has `blockno % NBUCKET = k`, and two buffers on active lists with the same
`dev` and `blockno` are the same buffer on the same list. -/
theorem bcache_identity_unique (NBUF : Nat) (disk : Nat → Nat → Nat → Nat) (s : BState)
    (h : BReachPin NBUF disk s) :
    ∃ L : BNode → List Nat, BRep NBUF s L ∧
      (∀ k i, i ∈ L (BNode.head k) → s.blockno (BNode.buf i) % NBUCKET = k) ∧
      (∀ k k1 i j, i ∈ L (BNode.head k) → j ∈ L (BNode.head k1) →
        s.dev (BNode.buf i) = s.dev (BNode.buf j) →
        s.blockno (BNode.buf i) = s.blockno (BNode.buf j) → i = j ∧ k = k1) := by
  obtain ⟨L, hR, hI⟩ := BReachPin_inv NBUF disk s h
  refine ⟨L, hR, hI.bucket, ?_⟩
  intro k k1 i j hi hj hd hb
  have e := hI.unique k k1 i j hi hj hd hb
  refine ⟨e, ?_⟩
  rw [← e] at hj
  exact BNode.head.inj (hR.1.disj _ _ i hi hj)

theorem bcache_identity_unique_witness :
    sB3.refcnt (BNode.buf 0) = 2 ∧ sB3.next (BNode.head 0) = BNode.buf 0 ∧
    ∃ L : BNode → List Nat, BRep 30 sB3 L ∧
      (∀ k i, i ∈ L (BNode.head k) → sB3.blockno (BNode.buf i) % NBUCKET = k) ∧
      (∀ k k1 i j, i ∈ L (BNode.head k) → j ∈ L (BNode.head k1) →
        sB3.dev (BNode.buf i) = sB3.dev (BNode.buf j) →
        sB3.blockno (BNode.buf i) = sB3.blockno (BNode.buf j) → i = j ∧ k = k1) := by
  refine ⟨by decide, by decide, ?_⟩
  refine bcache_identity_unique 30 disk0 sB3 ?_
  refine BReachPin.bpin sB1 0 ?_ (by decide)
  refine BReachPin.bread sB0 sB1 1 0 (BNode.buf 0) (BReachPin.binit sB0 sB0_facts.1) ?_
  exact some_of_fst _ _ _ (by decide)

/-- C27: in every state that `binit`, `bget`, `bread` and `brelse` reach (`brelse` on a
buffer that is held, with a reference count of at least 1; the reference counts below the
largest `uint`), each of the `2 * NBUCKET` lists is a ring `L h` through its sentinel `h`
with `x.next.prev = x` and `x.prev.next = x` for all its nodes, each of the `NBUF`
buffers is on exactly one list and occurs there once, the lists hold no other buffers,
and a buffer is on an unused list exactly when its `refcnt` is 0. -/
theorem bcache_lists_partition (NBUF : Nat) (disk : Nat → Nat → Nat → Nat) (s : BState)
    (h : BReach NBUF disk s) :
    ∃ L : BNode → List Nat,
      (∀ h, isSentinel h = true → Ring s h (L h) ∧
        ∀ x ∈ h :: (L h).map BNode.buf, s.prev (s.next x) = x ∧ s.next (s.prev x) = x) ∧
      (∀ i, i < NBUF → ∃ h, isSentinel h = true ∧ (L h).count i = 1 ∧
        ∀ h1, h1 ≠ h → i ∉ L h1) ∧
      (∀ h i, i ∈ L h → i < NBUF ∧ isSentinel h = true) ∧
      (∀ i, i < NBUF →
        ((∃ k, k < NBUCKET ∧ i ∈ L (BNode.unused k)) ↔ s.refcnt (BNode.buf i) = 0)) := by
  obtain ⟨L, hR, hC⟩ := BReach_inv NBUF disk s h
  refine ⟨L, ?_, ?_, ?_, ?_⟩
  · intro h hs
    have hr := hR.1.ring h hs
    refine ⟨hr, ?_⟩
    intro x hx
    unfold Ring at hr
    refine ⟨Path_next_prev s _ h h hr x hx, Path_prev_next s _ h h hr x ?_⟩
    rcases List.mem_cons.1 hx with e | e
    · rw [e]; simp
    · exact List.mem_append_left _ e
  · intro i hi
    obtain ⟨h, hh⟩ := (hR.2 i).1 hi
    refine ⟨h, hR.1.sent h i hh, List.count_eq_one_of_mem (hR.1.nodup h) hh, ?_⟩
    intro h1 hne e
    exact hne (hR.1.disj h1 h i e hh)
  · intro h i hi
    exact ⟨(hR.2 i).2 ⟨h, hi⟩, hR.1.sent h i hi⟩
  · intro i hi
    constructor
    · rintro ⟨k, _, hk⟩
      exact (hC _ i hk).1 ⟨k, rfl⟩
    · intro h0
      obtain ⟨h, hh⟩ := (hR.2 i).1 hi
      obtain ⟨k, hk⟩ := (hC h i hh).2 h0
      have hs := hR.1.sent h i hh
      rw [hk] at hs hh
      simp only [isSentinel, decide_eq_true_eq] at hs
      exact ⟨k, hs, hh⟩

theorem bcache_lists_partition_witness :
    sB1.refcnt (BNode.buf 0) = 1 ∧ sB1.next (BNode.head 0) = BNode.buf 0 ∧
    sB2.refcnt (BNode.buf 0) = 0 ∧ sB2.next (BNode.unused 0) = BNode.buf 0 ∧
    ∃ L : BNode → List Nat,
      (∀ h, isSentinel h = true → Ring sB2 h (L h) ∧
        ∀ x ∈ h :: (L h).map BNode.buf, sB2.prev (sB2.next x) = x ∧ sB2.next (sB2.prev x) = x) ∧
      (∀ i, i < 30 → ∃ h, isSentinel h = true ∧ (L h).count i = 1 ∧
        ∀ h1, h1 ≠ h → i ∉ L h1) ∧
      (∀ h i, i ∈ L h → i < 30 ∧ isSentinel h = true) ∧
      (∀ i, i < 30 →
        ((∃ k, k < NBUCKET ∧ i ∈ L (BNode.unused k)) ↔ sB2.refcnt (BNode.buf i) = 0)) := by
  refine ⟨by decide, by decide, by decide, by decide, ?_⟩
  refine bcache_lists_partition 30 disk0 sB2 ?_
  refine BReach.brelse sB1 sB2 0 ?_ (by decide) (by decide) (some_of_isSome _ _ (by decide))
  refine BReach.bread sB0 sB1 1 0 (BNode.buf 0) (BReach.binit sB0 sB0_facts.1) ?_ ?_
  · intro i _
    rw [sB0_facts.2.1]
    exact Nat.lt_of_lt_of_le Nat.zero_lt_one (by decide)
  · exact some_of_fst _ _ _ (by decide)

/-- The example state `sB0` has the lists of a buffer cache with 30 buffers. -/
theorem sB0_rep : ∃ L, BRep 30 sB0 L := by
  obtain ⟨s1, L, h1, hR, _, _⟩ := binit_spec 30 bzero
  have e : sB0 = s1 := by
    unfold sB0
    rw [h1]
    rfl
  rw [e]
  exact ⟨L, hR⟩

/-- The buffer that `bget` returns: it is on the active list of the bucket of the block and
holds the block; its `valid` is 0 or 1 and its reference count is not 0 when this is so
for all buffers before; `bget` asks for no disk read. -/
theorem bget_result (NBUF : Nat) (s : BState) (L : BNode → List Nat) (dev blockno : Nat)
    (hR : BRep NBUF s L) (b : BNode) (s1 : BState)
    (hg : bget NBUF dev blockno s = some (b, s1)) :
    ∃ i L1, b = BNode.buf i ∧ BRep NBUF s1 L1 ∧ i ∈ L1 (BNode.head (blockno % NBUCKET)) ∧
      s1.dev b = dev ∧ s1.blockno b = blockno ∧ s1.reads = s.reads ∧ s1.data = s.data ∧
      ((∀ i, i < NBUF → s.valid (BNode.buf i) ≤ 1) → s1.valid b ≤ 1) ∧
      ((∀ i, i < NBUF → s.refcnt (BNode.buf i) < 2 ^ 32 - 1) → 1 ≤ s1.refcnt b) := by
  rcases bget_cases NBUF s L dev blockno hR with ⟨i, hi, hd, hbk, hg1⟩ | ⟨_, _, hg1⟩ |
    ⟨_, j, i, s2, hj, hi, hg1, hR1, hd, hbk, hv, hr, hda, hre⟩
  · rw [hg1] at hg
    have e := Prod.mk.inj (Option.some.inj hg)
    rw [← e.1, ← e.2]
    have hlt := (hR.2 i).2 ⟨_, hi⟩
    refine ⟨i, L, rfl, BRep_same NBUF s _ L hR rfl rfl, hi, hd, hbk, rfl, rfl, ?_, ?_⟩
    · intro hv
      exact hv i hlt
    · intro hb
      have := hb i hlt
      simp only [BState.setRefcnt, if_true]
      rw [Nat.mod_eq_of_lt (by omega)]
      omega
  · rw [hg1] at hg
    exact Option.noConfusion hg
  · rw [hg1] at hg
    have e := Prod.mk.inj (Option.some.inj hg)
    rw [← e.1, ← e.2]
    refine ⟨i, _, rfl, hR1, (moveTo_mem s L hR.1 _ _ _ i i hi).2 (Or.inl ⟨rfl, rfl⟩), ?_, ?_,
      hre, hda, ?_, ?_⟩
    · rw [hd]; simp
    · rw [hbk]; simp
    · intro _
      rw [hv]; simp
    · intro _
      rw [hr]; simp

/-- C28: on the lists `L` of a buffer cache (reference counts below the largest `uint`),
`bget(dev, blockno)` panics exactly when no buffer on the active list of bucket
`blockno % NBUCKET` holds the block and all `NBUCKET` unused lists are empty; when it
returns, the result is a buffer `b` with `b.dev = dev` and `b.blockno = blockno` on that
active list: if the block was cached, a buffer of the list that held it, the lists
unchanged, `refcnt` one more and `valid` unchanged; if not, a buffer from an unused list
that is now the first of the active list, with `valid = 0` and `refcnt = 1`. -/
theorem bget_panics_iff (NBUF : Nat) (s : BState) (L : BNode → List Nat) (dev blockno : Nat)
    (hR : BRep NBUF s L) (hb : ∀ i, i < NBUF → s.refcnt (BNode.buf i) < 2 ^ 32 - 1) :
    (bget NBUF dev blockno s = none ↔
      (∀ x ∈ L (BNode.head (blockno % NBUCKET)),
        ¬ (s.dev (BNode.buf x) = dev ∧ s.blockno (BNode.buf x) = blockno)) ∧
      ∀ j, j < NBUCKET → L (BNode.unused j) = []) ∧
    (∀ b s1, bget NBUF dev blockno s = some (b, s1) →
      ∃ i L1, b = BNode.buf i ∧ BRep NBUF s1 L1 ∧ i ∈ L1 (BNode.head (blockno % NBUCKET)) ∧
        s1.dev b = dev ∧ s1.blockno b = blockno ∧
        ((∃ x ∈ L (BNode.head (blockno % NBUCKET)),
            s.dev (BNode.buf x) = dev ∧ s.blockno (BNode.buf x) = blockno) →
          i ∈ L (BNode.head (blockno % NBUCKET)) ∧ s.dev b = dev ∧ s.blockno b = blockno ∧
          L1 = L ∧ s1.refcnt b = s.refcnt b + 1 ∧ s1.valid b = s.valid b) ∧
        ((∀ x ∈ L (BNode.head (blockno % NBUCKET)),
            ¬ (s.dev (BNode.buf x) = dev ∧ s.blockno (BNode.buf x) = blockno)) →
          (∃ j, j < NBUCKET ∧ i ∈ L (BNode.unused j) ∧
            L1 = moveTo L (BNode.unused j) (BNode.head (blockno % NBUCKET)) i) ∧
          s1.valid b = 0 ∧ s1.refcnt b = 1)) := by
  rcases bget_cases NBUF s L dev blockno hR with ⟨i, hi, hd, hbk, hg⟩ | ⟨hno, hall, hg⟩ |
    ⟨hno, j, i, s2, hj, hi, hg, hR1, hd, hbk, hv, hr, _, _⟩
  · refine ⟨?_, ?_⟩
    · rw [hg]
      constructor
      · intro e
        exact Option.noConfusion e
      · intro e
        exact absurd ⟨hd, hbk⟩ (e.1 i hi)
    · intro b s1 hg1
      rw [hg] at hg1
      have e := Prod.mk.inj (Option.some.inj hg1)
      rw [← e.1, ← e.2]
      have hlt := hb i ((hR.2 i).2 ⟨_, hi⟩)
      refine ⟨i, L, rfl, BRep_same NBUF s _ L hR rfl rfl, hi, hd, hbk, ?_, ?_⟩
      · intro _
        refine ⟨hi, hd, hbk, rfl, ?_, rfl⟩
        simp only [BState.setRefcnt, if_true]
        exact Nat.mod_eq_of_lt (by omega)
      · intro hno
        exact absurd ⟨hd, hbk⟩ (hno i hi)
  · refine ⟨?_, ?_⟩
    · rw [hg]
      exact ⟨fun _ => ⟨hno, hall⟩, fun _ => rfl⟩
    · intro b s1 hg1
      rw [hg] at hg1
      exact Option.noConfusion hg1
  · have him : i ∈ moveTo L (BNode.unused j) (BNode.head (blockno % NBUCKET)) i
        (BNode.head (blockno % NBUCKET)) :=
      (moveTo_mem s L hR.1 _ _ _ i i hi).2 (Or.inl ⟨rfl, rfl⟩)
    refine ⟨?_, ?_⟩
    · rw [hg]
      constructor
      · intro e
        exact Option.noConfusion e
      · intro e
        rw [e.2 j hj] at hi
        simp at hi
    · intro b s1 hg1
      rw [hg] at hg1
      have e := Prod.mk.inj (Option.some.inj hg1)
      rw [← e.1, ← e.2]
      refine ⟨i, _, rfl, hR1, him, ?_, ?_, ?_, ?_⟩
      · rw [hd]; simp
      · rw [hbk]; simp
      · rintro ⟨x, hx, hm⟩
        exact absurd hm (hno x hx)
      · intro _
        refine ⟨⟨j, hj, hi, rfl⟩, ?_, ?_⟩
        · rw [hv]; simp
        · rw [hr]; simp

theorem bget_panics_iff_witness :
    (bget 0 1 0 sBNone).isNone = true ∧
    (bget 30 1 0 sB0).map (fun r => (r.1, r.2.valid r.1, r.2.refcnt r.1)) =
      some (BNode.buf 0, 0, 1) ∧
    ∃ L, BRep 30 sB0 L ∧
      (bget 30 1 0 sB0 = none ↔
        (∀ x ∈ L (BNode.head (0 % NBUCKET)),
          ¬ (sB0.dev (BNode.buf x) = 1 ∧ sB0.blockno (BNode.buf x) = 0)) ∧
        ∀ j, j < NBUCKET → L (BNode.unused j) = []) := by
  refine ⟨by decide, by decide, ?_⟩
  obtain ⟨L, hR⟩ := sB0_rep
  refine ⟨L, hR, (bget_panics_iff 30 sB0 L 1 0 hR ?_).1⟩
  intro i _
  rw [sB0_facts.2.1]
  exact Nat.lt_of_lt_of_le Nat.zero_lt_one (by decide)

/-- C29: for a buffer `b = bcache.buf[i]` on the active list of bucket `k`, held, with a
reference count `n` from 1 on (a `uint`), `brelse(b)` returns with `refcnt = n - 1` and
`dev`, `blockno`, `valid`, `data` and the reference counts of the other buffers
unchanged; if `n - 1 = 0`, `b` is taken out of its active list and is the first buffer
of the unused list of bucket `i % NBUCKET`, the other lists unchanged; if `n - 1 > 0`,
no link changes. -/
theorem brelse_spec (NBUF : Nat) (s : BState) (L : BNode → List Nat) (k i : Nat)
    (hR : BRep NBUF s L) (hi : i ∈ L (BNode.head k)) (h1 : 1 ≤ s.refcnt (BNode.buf i))
    (h2 : s.refcnt (BNode.buf i) < 2 ^ 32) :
    ∃ s1, brelse true (BNode.buf i) s = some s1 ∧
      s1.refcnt (BNode.buf i) = s.refcnt (BNode.buf i) - 1 ∧
      (∀ y, y ≠ BNode.buf i → s1.refcnt y = s.refcnt y) ∧
      s1.dev = s.dev ∧ s1.blockno = s.blockno ∧ s1.valid = s.valid ∧ s1.data = s.data ∧
      (s.refcnt (BNode.buf i) - 1 = 0 →
        ∃ L1, BRep NBUF s1 L1 ∧ L1 (BNode.head k) = (L (BNode.head k)).erase i ∧
          L1 (BNode.unused (i % NBUCKET)) = i :: L (BNode.unused (i % NBUCKET)) ∧
          s1.next (BNode.unused (i % NBUCKET)) = BNode.buf i ∧
          ∀ h, h ≠ BNode.head k → h ≠ BNode.unused (i % NBUCKET) → L1 h = L h) ∧
      (0 < s.refcnt (BNode.buf i) - 1 → s1.next = s.next ∧ s1.prev = s.prev) := by
  obtain ⟨e0, e1⟩ := brelse_effect s L _ i hR.1 hi
  have hm : (s.refcnt (BNode.buf i) + (2 ^ 32 - 1)) % 2 ^ 32 = s.refcnt (BNode.buf i) - 1 := by
    have : s.refcnt (BNode.buf i) + (2 ^ 32 - 1) = s.refcnt (BNode.buf i) - 1 + 2 ^ 32 := by
      omega
    rw [this, Nat.add_mod_right]
    exact Nat.mod_eq_of_lt (by omega)
  by_cases h0 : s.refcnt (BNode.buf i) - 1 = 0
  · obtain ⟨s1, hb, hL1, hrc, hd, hbk, hv, hda, _⟩ := e0 (by rw [hm]; exact h0)
    have hne : BNode.head k ≠ BNode.unused (i % NBUCKET) := fun e => BNode.noConfusion e
    refine ⟨s1, hb, ?_, ?_, hd, hbk, hv, hda, ?_, ?_⟩
    · rw [hrc, h0]
      simp
    · intro y hy
      rw [hrc]
      simp [hy]
    · intro _
      have hR1 := moveTo_BRep NBUF s s1 L hR _ (BNode.unused (i % NBUCKET)) i hi hL1
      have hl1 : moveTo L (BNode.head k) (BNode.unused (i % NBUCKET)) i
          (BNode.unused (i % NBUCKET)) = i :: L (BNode.unused (i % NBUCKET)) := by
        unfold moveTo
        rw [Function.update_same, Function.update_noteq hne.symm]
      refine ⟨_, hR1, ?_, hl1, ?_, ?_⟩
      · unfold moveTo
        rw [Function.update_noteq hne, Function.update_same]
      · have hr := hR1.1.ring (BNode.unused (i % NBUCKET))
          (isSentinel_unused _ (Nat.mod_lt _ (by decide)))
        unfold Ring at hr
        rw [hl1] at hr
        simp only [List.map_cons, Path] at hr
        exact hr.1
      · intro h ha hb
        unfold moveTo
        rw [Function.update_noteq hb, Function.update_noteq ha]
    · intro hpos
      omega
  · have hb := e1 (by rw [hm]; exact h0)
    refine ⟨_, hb, ?_, ?_, rfl, rfl, rfl, rfl, ?_, ?_⟩
    · simp only [BState.setRefcnt, if_true]
      exact hm
    · intro y hy
      simp only [BState.setRefcnt, if_neg hy]
    · intro hz
      exact absurd hz h0
    · intro _
      exact ⟨rfl, rfl⟩

theorem brelse_spec_witness :
    sB1.blockno (BNode.buf 0) = 0 ∧ sB1.refcnt (BNode.buf 0) = 1 ∧
    sB1.next (BNode.head 0) = BNode.buf 0 ∧
    ∃ s1, brelse true (BNode.buf 0) sB1 = some s1 ∧ s1.refcnt (BNode.buf 0) = 0 ∧
      s1.next (BNode.unused 0) = BNode.buf 0 ∧ s1.dev = sB1.dev ∧
      s1.blockno = sB1.blockno ∧ s1.valid = sB1.valid ∧ s1.data = sB1.data := by
  refine ⟨by decide, by decide, by decide, ?_⟩
  obtain ⟨L0, hR0⟩ := sB0_rep
  have hg : bread 30 disk0 1 0 sB0 = some (BNode.buf 0, sB1) := some_of_fst _ _ _ (by decide)
  obtain ⟨s1, hg1, hn, hp, _, _, _⟩ := bread_bget 30 disk0 1 0 sB0 sB1 _ hg
  obtain ⟨i, L1, hbi, hR1, hi, _⟩ := bget_result 30 sB0 L0 1 0 hR0 _ s1 hg1
  have ei : i = 0 := (BNode.buf.inj hbi).symm
  rw [ei] at hi
  have hR2 : BRep 30 sB1 L1 := BRep_same 30 s1 sB1 L1 hR1 hn hp
  obtain ⟨s2, a1, a2, _, a4, a5, a6, a7, a8, _⟩ := brelse_spec 30 sB1 L1 (0 % NBUCKET) 0 hR2 hi
    (by decide) (by decide)
  obtain ⟨_, _, _, _, a9, _⟩ := a8 (by decide)
  exact ⟨s2, a1, by rw [a2]; decide, a9, a4, a5, a6, a7⟩

/-- C30: on the lists `L` of a buffer cache (`valid` 0 or 1, reference counts below the
largest `uint`), `bread(dev, blockno)` returns whenever `bget` does: the result is the
buffer `b` of `bget` with `b.dev = dev`, `b.blockno = blockno`, `b.valid = 1` and
`b.refcnt >= 1`; if `bget` left `valid = 0`, the disk driver is asked to read `b` and the
data of `b` are the block; if not, the driver is not asked and no data change. -/
theorem bread_returns (NBUF : Nat) (disk : Nat → Nat → Nat → Nat) (s : BState)
    (L : BNode → List Nat) (dev blockno : Nat) (hR : BRep NBUF s L)
    (hv : ∀ i, i < NBUF → s.valid (BNode.buf i) ≤ 1)
    (hb : ∀ i, i < NBUF → s.refcnt (BNode.buf i) < 2 ^ 32 - 1) :
    (bread NBUF disk dev blockno s = none ↔ bget NBUF dev blockno s = none) ∧
    ∀ b s1, bget NBUF dev blockno s = some (b, s1) →
      ∃ s2, bread NBUF disk dev blockno s = some (b, s2) ∧ s2.dev b = dev ∧
        s2.blockno b = blockno ∧ s2.valid b = 1 ∧ 1 ≤ s2.refcnt b ∧
        (s1.valid b = 0 → s2.reads = b :: s.reads ∧ s2.data b = disk dev blockno) ∧
        (s1.valid b ≠ 0 → s2.reads = s.reads ∧ s2.data = s.data) := by
  refine ⟨?_, ?_⟩
  · unfold bread
    cases hg : bget NBUF dev blockno s with
    | none => simp
    | some r =>
      obtain ⟨b, s1⟩ := r
      simp only
      by_cases h0 : s1.valid b = 0
      · rw [if_pos h0]; simp
      · rw [if_neg h0]
  · intro b s1 hg
    obtain ⟨i, L1, _, _, _, hd, hbk, hre, hda, h1, h2⟩ :=
      bget_result NBUF s L dev blockno hR b s1 hg
    have hv1 := h1 hv
    have hr1 := h2 hb
    unfold bread
    rw [hg]
    simp only
    by_cases h0 : s1.valid b = 0
    · rw [if_pos h0]
      refine ⟨_, rfl, hd, hbk, ?_, hr1, ?_, ?_⟩
      · simp [BState.setValid]
      · intro _
        refine ⟨?_, ?_⟩
        · simp only [BState.setValid, virtio_disk_read]
          rw [hre]
        · simp only [BState.setValid, virtio_disk_read, if_true]
          rw [hd, hbk]
      · intro hne
        exact absurd h0 hne
    · rw [if_neg h0]
      refine ⟨s1, rfl, hd, hbk, by omega, hr1, ?_, ?_⟩
      · intro hz
        exact absurd hz h0
      · intro _
        exact ⟨hre, hda⟩

set_option maxRecDepth 100000 in
theorem bread_returns_witness :
    (breadAll 30 disk0 1 17 sB0).map Prod.fst =
      some ((List.range 17).map (fun i => (BNode.buf i, 1, i))) ∧
    (bget 30 1 0 sB0).map (fun r => (r.1, r.2.valid r.1)) = some (BNode.buf 0, 0) ∧
    ∃ s2, bread 30 disk0 1 0 sB0 = some (BNode.buf 0, s2) ∧ s2.dev (BNode.buf 0) = 1 ∧
      s2.blockno (BNode.buf 0) = 0 ∧ s2.valid (BNode.buf 0) = 1 ∧
      1 ≤ s2.refcnt (BNode.buf 0) ∧ s2.reads = BNode.buf 0 :: sB0.reads ∧
      s2.data (BNode.buf 0) = disk0 1 0 := by
  refine ⟨by decide, by decide, ?_⟩
  obtain ⟨L0, hR0⟩ := sB0_rep
  have hv0 : ∀ i, i < 30 → sB0.valid (BNode.buf i) ≤ 1 := by
    intro i _
    rw [sB0_facts.2.2]
    exact Nat.zero_le 1
  have hb0 : ∀ i, i < 30 → sB0.refcnt (BNode.buf i) < 2 ^ 32 - 1 := by
    intro i _
    rw [sB0_facts.2.1]
    exact Nat.lt_of_lt_of_le Nat.zero_lt_one (by decide)
  have hg : bget 30 1 0 sB0 = some (BNode.buf 0, ((bget 30 1 0 sB0).map Prod.snd).getD bzero) :=
    some_of_fst _ _ _ (by decide)
  obtain ⟨s2, a1, a2, a3, a4, a5, a6, _⟩ :=
    (bread_returns 30 disk0 sB0 L0 1 0 hR0 hv0 hb0).2 _ _ hg
  obtain ⟨a7, a8⟩ := a6 (by decide)
  exact ⟨s2, a1, a2, a3, a4, a5, a7, a8⟩

/-- The precondition of `uvmalloc` for one page of the user pages. -/
theorem UserOk_page (L : Layout) (p : Proc) (lo hi a : Nat) (s : KState)
    (hU : UserOk L p lo hi s) (hin : InRange lo hi a) :
    UvmPre L p.pagetable p.kernel_pagetable a (a + PGSIZE) s := by
  have hone : ∀ va, InRange a (a + PGSIZE) va → va = a := by
    intro va hv
    exact same_page a va hin.2.2 hv.2.2 ⟨hv.1, hv.2.1⟩
  refine ⟨hU.pre.sep, hU.pre.sepk, hU.pre.apart, hU.pre.free_zero, ?_, ?_⟩
  · intro va hv hm hmp
    rw [hone va hv] at hm hmp ⊢
    exact hU.pre.owned a hin hm hmp
  · intro va va' hv hv' _ _ _ _ _
    rw [hone va hv, hone va' hv']

/-- The part of `copyout` that finds the frame of a page, on well-formed user pages:
when it finds a frame, the page is mapped to it as a user page, the user pages are
still well formed, and the other pages keep their leaves and the contents of their
frames. -/
theorem copyoutPage_ok (L : Layout) (cpu : Nat) (V : VmaLayout) (E : Ext) (p p1 : Proc)
    (lo hi va0 pa0 : Nat) (s s1 : KState) (hc : cpu < L.NCPU) (hR : ReadiFrame E)
    (hU : UserOk L p lo hi s) (hin : InRange lo hi va0)
    (h : copyoutPage L cpu V E p.pagetable p va0 s = some (some pa0, p1, s1)) :
    p1 = p ∧ UserOk L p lo hi s1 ∧ va0 < MAXVA ∧ Mapped s1.mem p.pagetable va0 ∧
    pteval s1.mem p.pagetable va0 &&& PTE_U ≠ 0 ∧ pa0 = frameOf s1.mem p.pagetable va0 ∧
    (∀ va, InRange lo hi va → va < MAXVA → va ≠ va0 → Mapped s.mem p.pagetable va →
      pteval s1.mem p.pagetable va = pteval s.mem p.pagetable va ∧
      ∀ x, frameOf s.mem p.pagetable va ≤ x → x < frameOf s.mem p.pagetable va + PGSIZE →
        s1.mem x = s.mem x) := by
  have hd : PGROUNDDOWN va0 = va0 := by
    have := hin.2.2
    unfold PGROUNDDOWN PGSIZE at *; omega
  unfold copyoutPage at h
  simp only at h
  by_cases hmax : va0 < MAXVA
  swap
  · rw [if_neg hmax] at h
    cases h
  rw [if_pos hmax, walk_false L cpu p.pagetable va0 s hmax] at h
  simp only at h
  have hwa := walkaddr_eq L cpu p.pagetable va0 s
  rw [if_neg (by omega)] at hwa
  split at h
  · -- the page fault
    rw [hd] at h
    cases hh : page_fault_handler L cpu V E p va0 s with
    | none => rw [hh] at h; cases h
    | some res =>
      obtain ⟨ret, p2, s2⟩ := res
      rw [hh] at h
      simp only at h
      by_cases hret : ret = 0
      swap
      · rw [if_neg hret] at h
        cases h
      rw [if_pos hret] at h
      simp only [Option.some.injEq, Prod.mk.injEq] at h
      obtain ⟨hpa, hp2, hs2⟩ := h
      subst hret hs2 hp2
      obtain ⟨hpe, mem, hF⟩ := fault_effect L cpu V E p p2 va0 s s2 hc hR
        (UserOk_page L p lo hi va0 s hU hin) hin.2.2 hmax (hU.user va0 hin hmax) hh
      obtain ⟨hU2, hkeep⟩ := UserOk_faulted L p lo hi va0 mem s s2 hU hin hmax hF
      refine ⟨hpe, hU2, hmax, hF.valid, hF.user, ?_, ?_⟩
      · rw [← hpa, walkaddr_eq, if_neg (by omega), if_neg hF.valid, if_neg hF.user]
        rfl
      · intro va hv hm hne hmp
        refine ⟨hF.others va hm (fun hh2 => hne (same_page va0 va hin.2.2 hv.2.2 hh2)), ?_⟩
        exact hkeep va hv hm hne hmp
  · -- no page fault
    rename_i hcond
    simp only [Option.some.injEq, Prod.mk.injEq] at h
    obtain ⟨hpa, hp2, hs2⟩ := h
    subst hs2 hp2
    have hnz : walkaddr L cpu p.pagetable va0 s ≠ 0 := fun e => hcond (Or.inl e)
    have hv : ¬ pteval s.mem p.pagetable va0 &&& PTE_V = 0 := by
      intro e
      rw [if_pos e] at hwa
      exact hnz hwa
    rw [if_neg hv] at hwa
    have hu : ¬ pteval s.mem p.pagetable va0 &&& PTE_U = 0 := by
      intro e
      rw [if_pos e] at hwa
      exact hnz hwa
    rw [if_neg hu] at hwa
    refine ⟨rfl, hU, hmax, hv, hu, ?_, ?_⟩
    · rw [← hpa, hwa]
      rfl
    · intro va _ _ _ _
      exact ⟨rfl, fun _ _ _ => rfl⟩

theorem readByte_congr (s s1 : KState) (a : Nat) (h : s1.mem (a - a % 8) = s.mem (a - a % 8)) :
    readByte s1 a = readByte s a := by
  unfold readByte
  rw [h]

/-- A byte of a frame is read in a word of the frame. -/
theorem readByte_frame (s s1 : KState) (f a : Nat) (hf : f % PGSIZE = 0) (h1 : f ≤ a)
    (h2 : a < f + PGSIZE) (h : ∀ x, f ≤ x → x < f + PGSIZE → s1.mem x = s.mem x) :
    readByte s1 a = readByte s a :=
  readByte_congr s s1 a (h _ (by unfold PGSIZE at *; omega) (by unfold PGSIZE at *; omega))

/-- The translation of a page that is mapped as a user page. -/
theorem walkaddr_mapped (L : Layout) (cpu pt va : Nat) (s : KState) (hm : va < MAXVA)
    (hv : Mapped s.mem pt va) (hu : pteval s.mem pt va &&& PTE_U ≠ 0) :
    walkaddr L cpu pt va s = frameOf s.mem pt va := by
  rw [walkaddr_eq, if_neg (by omega), if_neg hv, if_neg hu]
  rfl

/-- The loop of `copyout` on well-formed user pages, when it returns 0: the user pages
are still well formed, the bytes of the range are those of the source, and the pages
below the range keep their leaves and the contents of their frames. -/
theorem copyoutLoop_written (L : Layout) (cpu : Nat) (V : VmaLayout) (E : Ext)
    (src : Nat → Nat) (lo hi : Nat) (hc : cpu < L.NCPU) (hR : ReadiFrame E) :
    ∀ (fuel : Nat) (p p1 : Proc) (dstva off len : Nat) (s s1 : KState),
      UserOk L p lo hi s → (len > 0 → lo ≤ PGROUNDDOWN dstva ∧ dstva + len ≤ hi) →
      copyoutLoop L cpu V E p.pagetable src fuel p dstva off len s = some (0, p1, s1) →
      p1 = p ∧ UserOk L p lo hi s1 ∧
      (∀ k, k < len →
        PGROUNDDOWN (dstva + k) < MAXVA ∧
        Mapped s1.mem p.pagetable (PGROUNDDOWN (dstva + k)) ∧
        pteval s1.mem p.pagetable (PGROUNDDOWN (dstva + k)) &&& PTE_U ≠ 0 ∧
        readByte s1 (frameOf s1.mem p.pagetable (PGROUNDDOWN (dstva + k)) +
          (dstva + k) % PGSIZE) = src (off + k) % 256) ∧
      (∀ va, InRange lo hi va → va < MAXVA → va + PGSIZE ≤ dstva →
        Mapped s.mem p.pagetable va →
        pteval s1.mem p.pagetable va = pteval s.mem p.pagetable va ∧
        ∀ x, frameOf s.mem p.pagetable va ≤ x → x < frameOf s.mem p.pagetable va + PGSIZE →
          s1.mem x = s.mem x) := by
  intro fuel
  induction fuel with
  | zero =>
    intro p p1 dstva off len s s1 hU _ h
    unfold copyoutLoop at h
    by_cases hl : len > 0
    · rw [if_pos hl] at h
      cases h
    · rw [if_neg hl] at h
      simp only [Option.some.injEq, Prod.mk.injEq, true_and] at h
      obtain ⟨hp, hs⟩ := h
      subst hp hs
      exact ⟨rfl, hU, fun k hk => by omega, fun _ _ _ _ _ => ⟨rfl, fun _ _ _ => rfl⟩⟩
  | succ fuel ih =>
    intro p p1 dstva off len s s1 hU hrange h
    unfold copyoutLoop at h
    by_cases hl : len > 0
    swap
    · rw [if_neg hl] at h
      simp only [Option.some.injEq, Prod.mk.injEq, true_and] at h
      obtain ⟨hp, hs⟩ := h
      subst hp hs
      exact ⟨rfl, hU, fun k hk => by omega, fun _ _ _ _ _ => ⟨rfl, fun _ _ _ => rfl⟩⟩
    rw [if_pos hl] at h
    simp only at h
    obtain ⟨hlo, hhi⟩ := hrange hl
    have hdn : PGROUNDDOWN dstva ≤ dstva ∧ dstva < PGROUNDDOWN dstva + PGSIZE ∧
        PGROUNDDOWN dstva % PGSIZE = 0 := by
      unfold PGROUNDDOWN PGSIZE; omega
    have hin : InRange lo hi (PGROUNDDOWN dstva) := ⟨hlo, by omega, hdn.2.2⟩
    cases hpg : copyoutPage L cpu V E p.pagetable p (PGROUNDDOWN dstva) s with
    | none => rw [hpg] at h; cases h
    | some res =>
      obtain ⟨po, p2, s2⟩ := res
      rw [hpg] at h
      cases po with
      | none =>
        simp only [Option.some.injEq, Prod.mk.injEq] at h
        exact absurd h.1 (by decide)
      | some pa0 =>
        simp only at h
        obtain ⟨hp2, hU2, hmax, hmp, hus, hpa, hoth⟩ :=
          copyoutPage_ok L cpu V E p p2 lo hi (PGROUNDDOWN dstva) pa0 s s2 hc hR hU hin hpg
        subst hp2
        have hnext : (PGROUNDDOWN dstva + PGSIZE) % 2 ^ 64 = PGROUNDDOWN dstva + PGSIZE := by
          rw [MAXVA_eq] at hmax
          unfold PGSIZE
          omega
        rw [hnext] at h
        -- the bytes of this page
        generalize hn : (if PGSIZE - (dstva - PGROUNDDOWN dstva) > len then len
          else PGSIZE - (dstva - PGROUNDDOWN dstva)) = n at h
        have hn1 : n ≤ len ∧ (dstva - PGROUNDDOWN dstva) + n ≤ PGSIZE ∧
            (n < len → dstva + n = PGROUNDDOWN dstva + PGSIZE) := by
          rw [← hn]
          split <;> omega
        have hfa := frameOf_aligned s2.mem p2.pagetable (PGROUNDDOWN dstva)
        obtain ⟨hU3, hpt3, hmem3⟩ := UserOk_write L p2 lo hi (PGROUNDDOWN dstva) s2
          (pa0 + (dstva - PGROUNDDOWN dstva)) src off n hU2 hin hmax hmp (by omega) (by omega)
        obtain ⟨hp1, hU1, hbytes, hkeep⟩ := ih p2 p1 (PGROUNDDOWN dstva + PGSIZE) (off + n)
          (len - n) _ s1 hU3 (fun hpos => by
            have e : PGROUNDDOWN (PGROUNDDOWN dstva + PGSIZE) = PGROUNDDOWN dstva + PGSIZE := by
              unfold PGROUNDDOWN PGSIZE; omega
            rw [e]
            have := hn1.2.2 (by omega)
            omega) h
        have hmp3 : Mapped (memmoveOut (pa0 + (dstva - PGROUNDDOWN dstva)) src off n s2).mem
            p2.pagetable (PGROUNDDOWN dstva) := by
          unfold Mapped
          rw [hpt3]
          exact hmp
        obtain ⟨hk1, hk2⟩ := hkeep (PGROUNDDOWN dstva) hin hmax (le_refl _) hmp3
        have hf3 : frameOf (memmoveOut (pa0 + (dstva - PGROUNDDOWN dstva)) src off n s2).mem
            p2.pagetable (PGROUNDDOWN dstva) = pa0 := by
          rw [frameOf_congr _ _ _ _ (hpt3 _)]
          exact hpa.symm
        rw [hf3] at hk2
        have hf1 : frameOf s1.mem p2.pagetable (PGROUNDDOWN dstva) = pa0 := by
          rw [← hf3]
          exact frameOf_congr _ _ _ _ hk1
        refine ⟨hp1, hU1, ?_, ?_⟩
        · intro k hk
          by_cases hkn : k < n
          · have hpage : PGROUNDDOWN (dstva + k) = PGROUNDDOWN dstva := by
              unfold PGROUNDDOWN PGSIZE at *; omega
            have hoffs : (dstva + k) % PGSIZE = dstva - PGROUNDDOWN dstva + k := by
              unfold PGROUNDDOWN PGSIZE at *; omega
            rw [hpage, hf1, hoffs]
            refine ⟨hmax, ?_, ?_, ?_⟩
            · unfold Mapped
              rw [hk1, hpt3]
              exact hmp
            · rw [hk1, hpt3]
              exact hus
            · rw [← hpa] at hfa
              have e : pa0 + (dstva - PGROUNDDOWN dstva + k) -
                  (pa0 + (dstva - PGROUNDDOWN dstva)) = k := by omega
              rw [readByte_frame _ s1 pa0 _ hfa (by omega) (by omega) hk2, memmoveOut_read,
                if_pos (by omega), e]
          · have hnl : n < len := by omega
            have hdst := hn1.2.2 hnl
            obtain ⟨b1, b2, b3, b4⟩ := hbytes (k - n) (by omega)
            have e1 : PGROUNDDOWN dstva + PGSIZE + (k - n) = dstva + k := by omega
            have e2 : off + n + (k - n) = off + k := by omega
            rw [e1] at b1 b2 b3 b4
            rw [e2] at b4
            exact ⟨b1, b2, b3, b4⟩
        · intro va hv hm hle hmpa
          have hne : va ≠ PGROUNDDOWN dstva := by omega
          obtain ⟨o1, o2⟩ := hoth va hv hm hne hmpa
          have hmp2 : Mapped s2.mem p2.pagetable va := by
            unfold Mapped
            rw [o1]
            exact hmpa
          have hmpv3 : Mapped (memmoveOut (pa0 + (dstva - PGROUNDDOWN dstva)) src off n s2).mem
              p2.pagetable va := by
            unfold Mapped
            rw [hpt3]
            exact hmp2
          obtain ⟨q1, q2⟩ := hkeep va hv hm (by omega) hmpv3
          have hfe2 : frameOf s2.mem p2.pagetable va = frameOf s.mem p2.pagetable va :=
            frameOf_congr _ _ _ _ o1
          have hfe3 : frameOf (memmoveOut (pa0 + (dstva - PGROUNDDOWN dstva)) src off n s2).mem
              p2.pagetable va = frameOf s.mem p2.pagetable va := by
            rw [frameOf_congr _ _ _ _ (hpt3 va)]
            exact hfe2
          rw [hfe3] at q2
          have hdist : frameOf s2.mem p2.pagetable va ≠
              frameOf s2.mem p2.pagetable (PGROUNDDOWN dstva) := fun e =>
            hne (hU2.pre.distinct va _ hv hin hm hmax hmp2 hmp e)
          have hfva := frameOf_aligned s2.mem p2.pagetable va
          refine ⟨by rw [q1, hpt3, o1], ?_⟩
          intro x hx1 hx2
          rw [q2 x hx1 hx2, hmem3 x (by
            rw [← hfe2] at hx1 hx2
            unfold PGSIZE at *
            omega)]
          exact o2 x hx1 hx2

/-- The walk-based loop of `copyin` over a range whose pages `walkaddr` translates: it
returns 0 and the destination holds the bytes of the frames of the pages. -/
theorem copyinLoop_mapped (L : Layout) (cpu : Nat) (V : VmaLayout) (E : Ext) (pt : Nat)
    (p : Proc) (dst : Nat → Nat) (off srcva len : Nat) (s : KState)
    (h64 : srcva + len < 2 ^ 64)
    (hw : ∀ k, k < len → walkaddr L cpu pt (PGROUNDDOWN (srcva + k)) s ≠ 0) :
    ∃ dst1 p1 s1, copyinLoop L cpu V E pt len p dst off srcva len s = some (0, dst1, p1, s1) ∧
      (∀ k, k < len → dst1 (off + k) =
        readByte s (walkaddr L cpu pt (PGROUNDDOWN (srcva + k)) s + (srcva + k) % PGSIZE)) ∧
      (∀ k, ¬ (off ≤ k ∧ k < off + len) → dst1 k = dst k) := by
  have hst : ∀ k, k < len → userByteAt L cpu V E pt p s srcva k =
      some (readByte s (walkaddr L cpu pt (PGROUNDDOWN (srcva + k)) s +
        (srcva + k) % PGSIZE)) := by
    intro k hk
    refine userByteAt_static L cpu V E pt p s srcva k (by omega) ?_
    intro va0 h1 h2 h3
    by_cases hle : va0 ≤ srcva
    · have e : va0 = PGROUNDDOWN (srcva + 0) := by
        unfold PGROUNDDOWN PGSIZE at *; omega
      rw [e]
      exact hw 0 (by omega)
    · have e : va0 = PGROUNDDOWN (srcva + (va0 - srcva)) := by
        unfold PGROUNDDOWN PGSIZE at *; omega
      rw [e]
      exact hw _ (by omega)
  obtain ⟨dst1, p1, s1, e, a1, a2⟩ := copyinLoop_spec L cpu V E pt len p dst off srcva len s
    (le_refl _) (fun k hk => by rw [hst k hk]; rfl)
  refine ⟨dst1, p1, s1, e, ?_, a2⟩
  intro k hk
  have := a1 (off + k) (by omega) (by omega)
  rw [Nat.add_sub_cancel_left, hst k hk] at this
  exact Option.some.inj this

/-- C17: for a process `p` whose user pages of the range are well formed (`UserOk`: the
tables are well formed, the pages that are mapped are user pages with frames of their
own), with `copyin_new` reading the user pages through `walkaddr`: if
`copyout(p->pagetable, va, src, len)` returns 0, then `copyin(p->pagetable, dst, va, len)`
in the state it leaves returns 0, the first `len` bytes of `dst` are the bytes of `src`
(as `char` values), and the rest of `dst` is unchanged. -/
theorem copyout_copyin (L : Layout) (cpu : Nat) (V : VmaLayout) (E : Ext) (p p1 : Proc)
    (va len : Nat) (src dst : Nat → Nat) (s s1 : KState) (hc : cpu < L.NCPU)
    (hR : ReadiFrame E) (hva : va < 2 ^ 64)
    (hU : UserOk L p (PGROUNDDOWN va) (va + len) s)
    (hout : copyout L cpu V E p p.pagetable va src len s = some (0, p1, s1))
    (hnew : ∀ n, n ≤ len → E.copyin_new p1 p.pagetable dst va n s1 =
      (0, fun k => if k < n
        then readByte s1 (walkaddr L cpu p.pagetable (PGROUNDDOWN (va + k)) s1 +
          (va + k) % PGSIZE)
        else dst k)) :
    ∃ dst1 p2 s2, copyin L cpu V E p1 p.pagetable dst va len s1 = some (0, dst1, p2, s2) ∧
      (∀ k, k < len → dst1 k = src k % 256) ∧ (∀ k, len ≤ k → dst1 k = dst k) := by
  unfold copyout at hout
  obtain ⟨_, hU1, hbytes, _⟩ := copyoutLoop_written L cpu V E src (PGROUNDDOWN va) (va + len)
    hc hR len p p1 va 0 len s s1 hU (fun _ => ⟨le_refl _, le_refl _⟩) hout
  have hwa : ∀ k, k < len → walkaddr L cpu p.pagetable (PGROUNDDOWN (va + k)) s1 =
      frameOf s1.mem p.pagetable (PGROUNDDOWN (va + k)) := by
    intro k hk
    obtain ⟨b1, b2, b3, _⟩ := hbytes k hk
    exact walkaddr_mapped L cpu _ _ s1 b1 b2 b3
  have hnz : ∀ k, k < len → walkaddr L cpu p.pagetable (PGROUNDDOWN (va + k)) s1 ≠ 0 := by
    intro k hk
    obtain ⟨b1, b2, _, _⟩ := hbytes k hk
    rw [hwa k hk]
    refine hU1.frame_nz _ ⟨?_, ?_, ?_⟩ b1 b2
    · unfold PGROUNDDOWN PGSIZE; omega
    · unfold PGROUNDDOWN PGSIZE; omega
    · unfold PGROUNDDOWN PGSIZE; omega
  have hub : ∀ k, k < len → readByte s1 (walkaddr L cpu p.pagetable (PGROUNDDOWN (va + k)) s1 +
      (va + k) % PGSIZE) = src k % 256 := by
    intro k hk
    obtain ⟨_, _, _, b4⟩ := hbytes k hk
    rw [hwa k hk, b4, Nat.zero_add]
  have h64 : va + len < 2 ^ 64 := by
    by_cases hl : len = 0
    · omega
    · obtain ⟨b1, _⟩ := hbytes (len - 1) (by omega)
      rw [MAXVA_eq] at b1
      unfold PGROUNDDOWN PGSIZE at b1
      omega
  unfold copyin
  by_cases hlt : va < PLIC
  · rw [if_pos hlt]
    by_cases hle : (va + len) % 2 ^ 64 ≤ PLIC
    · rw [if_pos hle, hnew len (le_refl _)]
      refine ⟨_, p1, s1, rfl, ?_, ?_⟩
      · intro k hk
        simp only [hk, if_true]
        exact hub k hk
      · intro k hk
        simp only [Nat.not_lt.2 hk, if_false]
    · rw [if_neg hle]
      rw [Nat.mod_eq_of_lt h64] at hle
      simp only
      rw [hnew (PLIC - va) (by omega)]
      simp only
      rw [if_neg (by decide)]
      obtain ⟨dst1, p2, s2, e, a1, a2⟩ := copyinLoop_mapped L cpu V E p.pagetable p1
        (fun k => if k < PLIC - va
          then readByte s1 (walkaddr L cpu p.pagetable (PGROUNDDOWN (va + k)) s1 +
            (va + k) % PGSIZE)
          else dst k) (PLIC - va) PLIC (len - (PLIC - va)) s1 (by omega)
        (fun k hk => by
          have e : PLIC + k = va + (PLIC - va + k) := by omega
          rw [e]
          exact hnz _ (by omega))
      refine ⟨dst1, p2, s2, e, ?_, ?_⟩
      · intro k hk
        by_cases hk1 : k < PLIC - va
        · rw [a2 k (by omega), if_pos hk1]
          exact hub k hk
        · have e1 : k = PLIC - va + (k - (PLIC - va)) := by omega
          have e2 : PLIC + (k - (PLIC - va)) = va + k := by omega
          rw [e1, a1 _ (by omega), e2, ← e1]
          exact hub k hk
      · intro k hk
        rw [a2 k (by omega), if_neg (by omega)]
  · rw [if_neg hlt]
    obtain ⟨dst1, p2, s2, e, a1, a2⟩ := copyinLoop_mapped L cpu V E p.pagetable p1 dst 0 va len
      s1 h64 hnz
    refine ⟨dst1, p2, s2, e, ?_, ?_⟩
    · intro k hk
      have := a1 k hk
      rw [Nat.zero_add] at this
      rw [this]
      exact hub k hk
    · intro k hk
      exact a2 k (by omega)

/-- The state `sLazy` is well formed for the process `pLazy`, none of whose pages is
mapped. -/
theorem sLazy_ok (hi : Nat) : UserOk L1 pLazy 0 hi sLazy := by
  have hz : ∀ a, sLazy.mem a = 0 := fun _ => rfl
  have hfl : sLazy.freelist 0 = [8192, 12288, 16384, 24576, 28672, 32768] := rfl
  have hmem : ∀ f, f ∈ sLazy.freelist 0 →
      f = 8192 ∨ f = 12288 ∨ f = 16384 ∨ f = 24576 ∨ f = 28672 ∨ f = 32768 := by
    intro f hf
    rw [hfl] at hf
    simpa using hf
  have hfree : ∀ f, IsFree L1 sLazy f →
      f = 8192 ∨ f = 12288 ∨ f = 16384 ∨ f = 24576 ∨ f = 28672 ∨ f = 32768 := by
    rintro f ⟨c, hc, hm⟩
    have : c = 0 := by unfold L1 at hc; simp at hc; exact hc
    subst this
    exact hmem f hm
  have hnm : ∀ va, ¬ Mapped sLazy.mem pLazy.pagetable va := by
    intro va
    unfold Mapped
    rw [pteval_zero _ _ _ hz]
    exact zero_not_valid
  have hso : Sep L1 sLazy 61440 := by
    refine Sep_zero L1 sLazy 61440 rfl hz (by decide) (by rw [hfl]; decide) ?_
    intro f hf
    rcases hmem f hf with h | h | h | h | h | h <;> (rw [h]; decide)
  have hsk : Sep L1 sLazy 57344 := by
    refine Sep_zero L1 sLazy 57344 rfl hz (by decide) (by rw [hfl]; decide) ?_
    intro f hf
    rcases hmem f hf with h | h | h | h | h | h <;> (rw [h]; decide)
  have po := (PT_zero sLazy.mem 61440 hz (by decide)).2
  have pk := (PT_zero sLazy.mem 57344 hz (by decide)).2
  refine ⟨⟨hso, hsk, ?_, ?_, ?_, ?_⟩, ?_, ?_, ?_⟩
  · intro q h1 h2
    have a := (pk q).mp h1
    have b := (po q).mp h2
    omega
  · intro f hf
    rcases hfree f hf with h | h | h | h | h | h <;> (rw [h]; decide)
  · intro va _ _ hm
    exact absurd hm (hnm va)
  · intro va va' _ _ _ _ hm
    exact absurd hm (hnm va)
  · intro va _ _ hm
    exact absurd hm (hnm va)
  · intro va _ _ hm
    exact absurd hm (hnm va)
  · intro h
    rcases hfree 0 h with h | h | h | h | h | h <;> omega

theorem copyout_copyin_witness :
    ∃ p1 s1 dst1 p2 s2,
      copyout L1 0 V1 E1 pLazy pLazy.pagetable 4094 (fun k => 65 + k) 4 sLazy =
        some (0, p1, s1) ∧
      copyin L1 0 V1 E1 p1 pLazy.pagetable (fun _ => 0) 4094 4 s1 = some (0, dst1, p2, s2) ∧
      dst1 0 = 65 ∧ dst1 1 = 66 ∧ dst1 2 = 67 ∧ dst1 3 = 68 ∧ dst1 4 = 0 := by
  have hev : (copyout L1 0 V1 E1 pLazy pLazy.pagetable 4094 (fun k => 65 + k) 4 sLazy).map
      (fun r => r.1) = some 0 := by decide
  obtain ⟨p1, s1, hout⟩ : ∃ p1 s1,
      copyout L1 0 V1 E1 pLazy pLazy.pagetable 4094 (fun k => 65 + k) 4 sLazy =
        some (0, p1, s1) := by
    cases ho : copyout L1 0 V1 E1 pLazy pLazy.pagetable 4094 (fun k => 65 + k) 4 sLazy with
    | none => rw [ho] at hev; cases hev
    | some r =>
      obtain ⟨r1, p1, s1⟩ := r
      rw [ho] at hev
      simp only [Option.map_some', Option.some.injEq] at hev
      rw [hev]
      exact ⟨p1, s1, rfl⟩
  have hR : ReadiFrame E1 := fun _ _ _ _ _ _ => ⟨rfl, rfl, fun _ _ => rfl⟩
  obtain ⟨dst1, p2, s2, e, a1, a2⟩ := copyout_copyin L1 0 V1 E1 pLazy p1 4094 4
    (fun k => 65 + k) (fun _ => 0) sLazy s1 (by decide) hR (by decide)
    (by
      have : PGROUNDDOWN 4094 = 0 := by decide
      rw [this]
      exact sLazy_ok _)
    hout (fun n _ => rfl)
  exact ⟨p1, s1, dst1, p2, s2, hout, e, a1 0 (by decide), a1 1 (by decide), a1 2 (by decide),
    a1 3 (by decide), a2 4 (by decide)⟩

/-- The loop of `uvmunmap` does not get past a page at or above `MAXVA`: `walk` panics
there. -/
theorem uvmunmapLoop_high (L : Layout) (cpu pt stop bad : Nat) (do_free : Bool)
    (hbad : bad % PGSIZE = 0) (hlt : bad < stop) (hhigh : MAXVA ≤ bad) :
    ∀ fuel a s, a % PGSIZE = 0 → a ≤ bad →
      uvmunmapLoop L cpu pt stop do_free fuel a s = none := by
  intro fuel
  induction fuel with
  | zero => intro a s _ _; rfl
  | succ fuel ih =>
    intro a s ha hab
    unfold uvmunmapLoop
    rw [if_pos (by omega)]
    by_cases hmax : a < MAXVA
    · have ha1 : (a + PGSIZE) % PGSIZE = 0 := by unfold PGSIZE at *; omega
      have hle : a + PGSIZE ≤ bad := by unfold PGSIZE at *; omega
      rw [walk_false L cpu pt a s hmax]
      cases hs : slot s.mem pt a with
      | none => exact ih _ _ ha1 hle
      | some p =>
        simp only
        split
        · exact ih _ _ ha1 hle
        · split
          · rfl
          · split
            · rfl
            · exact ih _ _ ha1 hle
    · rw [walk_panic L cpu pt a false s (by omega)]

/-- The loop of `uvmunmap` does not get past a page `bad` of its range whose entry has
the flags `PTE_V` alone: whatever the fuel, it ends in a panic. -/
theorem uvmunmapLoop_not_a_leaf (L : Layout) (hN : 0 < L.NCPU) (cpu pt stop bad : Nat)
    (do_free : Bool) (hbad : bad % PGSIZE = 0) (hlt : bad < stop) :
    ∀ fuel a s, Sep L s pt → a % PGSIZE = 0 → a ≤ bad → UnmapPre L pt a bad do_free s →
      (bad < MAXVA → PTE_FLAGS (pteval s.mem pt bad) = PTE_V) →
      uvmunmapLoop L cpu pt stop do_free fuel a s = none := by
  intro fuel
  induction fuel with
  | zero => intro a s _ _ _ _ _; rfl
  | succ fuel ih =>
    intro a s hsep ha hab hpre hfl
    unfold uvmunmapLoop
    rw [if_pos (by omega)]
    by_cases hmax : a < MAXVA
    · rw [walk_false L cpu pt a s hmax]
      by_cases he : a = bad
      · subst he
        have hf := hfl hmax
        cases hs : slot s.mem pt a with
        | none =>
          rw [pteval_of_none _ _ _ hs] at hf
          exact absurd hf (by decide)
        | some p =>
          rw [pteval_of_slot _ _ _ _ hs] at hf
          simp only
          have hv : ¬ (s.mem p &&& PTE_V = 0) := by
            intro h0
            have h1 : PTE_FLAGS (s.mem p) &&& PTE_V = PTE_V := by rw [hf]; decide
            unfold PTE_FLAGS at h1
            rw [Nat.and_assoc] at h1
            have h2 : (1023 : Nat) &&& PTE_V = PTE_V := by decide
            rw [h2, h0] at h1
            exact absurd h1 (by decide)
          rw [if_neg hv, if_pos hf]
      · have ha' : (a + PGSIZE) % PGSIZE = 0 := by unfold PGSIZE at *; omega
        have hle : a + PGSIZE ≤ bad := by unfold PGSIZE at *; omega
        have hpre1 := UnmapPre_sub L pt a bad a (a + PGSIZE) do_free s (Nat.le_refl _) hle hpre
        have finish : ∀ s1, Unmapped L pt a (a + PGSIZE) do_free s s1 →
            uvmunmapLoop L cpu pt stop do_free fuel (a + PGSIZE) s1 = none := by
          intro s1 hu
          by_cases hbm : bad < MAXVA
          · have hpre2 := UnmapPre_rest L pt a (a + PGSIZE) bad do_free s s1 (by omega) hpre
              (fun va hin => by unfold InRange at hin; omega) hu
            refine ih (a + PGSIZE) s1 hu.sep ha' hle hpre2 (fun _ => ?_)
            rw [hu.outside bad hbm (by omega)]
            exact hfl hbm
          · exact uvmunmapLoop_high L cpu pt stop bad do_free hbad hlt (by omega) fuel _ s1 ha' hle
        cases hs : slot s.mem pt a with
        | none =>
          simp only
          have hnm : ¬ Mapped s.mem pt a := by
            unfold Mapped; rw [pteval_of_none _ _ _ hs]; exact zero_not_valid
          exact finish s (Unmapped_skip L pt a do_free s hsep ha hmax hpre1 hnm)
        | some p =>
          simp only
          by_cases hv : s.mem p &&& PTE_V = 0
          · rw [if_pos hv]
            have hnm : ¬ Mapped s.mem pt a := by
              unfold Mapped; rw [pteval_of_slot _ _ _ _ hs]; exact not_not.mpr hv
            exact finish s (Unmapped_skip L pt a do_free s hsep ha hmax hpre1 hnm)
          · rw [if_neg hv]
            split
            · rfl
            · cases hk : (if do_free = true then kfree L (PTE2PA (s.mem p)) s else some s) with
              | none => rfl
              | some s2 =>
                exact finish _ (Unmapped_page L hN pt a p do_free s s2 hsep ha hmax hpre1 hs hv hk)
    · rw [walk_panic L cpu pt a false s (by omega)]

/-- C31 (amended): the call `uvmunmap(pagetable, va, npages, do_free)` on a well-formed
table panics when a page `bad` of its range has an entry whose flag bits are `PTE_V`
alone, that is, a valid entry with none of the bits R, W, X and no other flag bit either;
the pages before `bad` are well-formed for the call. -/
theorem uvmunmap_not_a_leaf (L : Layout) (hN : 0 < L.NCPU) (cpu pt va npages bad : Nat)
    (do_free : Bool) (s : KState) (hsep : Sep L s pt)
    (hpre : UnmapPre L pt va bad do_free s)
    (hin : InRange va ((va + npages * PGSIZE) % 2 ^ 64) bad)
    (hflags : PTE_FLAGS (pteval s.mem pt bad) = PTE_V) :
    uvmunmap L cpu pt va npages do_free s = none := by
  unfold uvmunmap
  by_cases hva : va % PGSIZE ≠ 0
  · rw [if_pos hva]
  · rw [if_neg hva]
    exact uvmunmapLoop_not_a_leaf L hN cpu pt _ bad do_free hin.2.2 hin.2.1 PAGE_FUEL va s
      hsep (by omega) hin.1 hpre (fun _ => hflags)

theorem sBare_facts : Sep L1 sBare 61440 ∧
    pteval sBare.mem 61440 0 = PA2PTE 20480 ||| 0 ||| PTE_V := by
  have h : mappages L1 0 61440 0 PGSIZE 20480 0 sEmpty = some (0, sBare) := rfl
  rw [mappages_eq L1 0 61440 0 PGSIZE 20480 _ sEmpty (by decide) (by decide) (by decide)] at h
  obtain ⟨g, k, _, hk2, _, hk4, _⟩ := mappagesLoop_spec L1 0 61440 _ _ (by decide) (by decide)
    PAGE_FUEL 0 20480 sEmpty 0 sBare Sep_sEmpty (by decide) (by decide) h
  have hk := hk4 rfl
  have hk1 : k = 1 := by
    have e : PGROUNDDOWN (0 + PGSIZE - 1) = 0 := by decide
    rw [e] at hk
    unfold PGSIZE at hk
    omega
  obtain ⟨_, _, b3⟩ := hk2 0 (by omega)
  simp only [Nat.zero_mul, Nat.add_zero] at b3
  exact ⟨g.sep, b3⟩

/-- C31 (witness): in `sBare` the entry of page 0 has the flags `PTE_V` alone, and
unmapping the pages 0 and 4096 panics. -/
theorem uvmunmap_not_a_leaf_witness :
    PTE_FLAGS (pteval sBare.mem 61440 0) = PTE_V ∧
    uvmunmap L1 0 61440 0 2 false sBare = none :=
  have hf : PTE_FLAGS (pteval sBare.mem 61440 0) = PTE_V := by
    rw [sBare_facts.2, leaf_flags 20480 0 (by decide) (by decide)]; decide
  ⟨hf, uvmunmap_not_a_leaf L1 (by decide) 0 61440 0 2 0 false sBare sBare_facts.1
    ⟨(fun hh => by cases hh), (fun hh => by cases hh), (fun hh => by cases hh)⟩
    ⟨by decide, by decide, by decide⟩ hf⟩

/-- C31 (counterexample): in `sUserOnly` the entry of page 0 is valid and has none of the
bits R, W, X, but it carries the U bit; `uvmunmap` of that page does not panic: it
returns, and the entry is cleared as if it were a leaf. -/
theorem uvmunmap_user_entry_no_panic :
    pteval sUserOnly.mem 61440 0 &&& PTE_V ≠ 0 ∧
    pteval sUserOnly.mem 61440 0 &&& (PTE_R ||| PTE_W ||| PTE_X) = 0 ∧
    pteval sUserOnly.mem 61440 0 &&& PTE_U ≠ 0 ∧
    (uvmunmap L1 0 61440 0 1 false sUserOnly).map (fun s => pteval s.mem 61440 0) = some 0 := by
  decide

/-- The logged loop returns what the loop of `ksteal` returns. -/
theorem kstealLoopLog_erase (L : Layout) (c : Nat) :
    ∀ fuel i s, (kstealLoopLog L c fuel i s).map (fun x => x.2) = kstealLoop L c fuel i s := by
  intro fuel
  induction fuel with
  | zero => intro i s; rfl
  | succ fuel ih =>
    intro i s
    unfold kstealLoopLog kstealLoop
    by_cases h1 : i = c
    · rw [if_pos h1, if_pos h1]; rfl
    · rw [if_neg h1, if_neg h1]
      simp only
      by_cases h2 : i = L.NCPU ∧ (if i = L.NCPU then 0 else i) = c
      · rw [if_pos h2, if_pos h2]; rfl
      · rw [if_neg h2, if_neg h2]
        cases hk : kget (if i = L.NCPU then 0 else i) s with
        | mk r s1 =>
          cases r with
          | none =>
            simp only
            rw [← ih, Option.map_map]
            rfl
          | some f => rfl

/-- The index of the loop of `ksteal` after `d` steps from `c`. -/
theorem ksteal_index (c d N : Nat) (hc : c < N) (hd : d < N) (h1 : 1 ≤ d) :
    (if c + d ≤ N then c + d else c + d - N) ≠ c ∧
    (if (if c + d ≤ N then c + d else c + d - N) = N then 0
      else (if c + d ≤ N then c + d else c + d - N)) = (c + d) % N ∧
    (c + d) % N ≠ c ∧
    (c + d) % N + 1 = (if c + (d + 1) ≤ N then c + (d + 1) else c + (d + 1) - N) := by
  rw [add_mod_cases c d N hc hd]
  by_cases h2 : c + d < N
  · rw [if_pos (by omega), if_pos h2, if_neg (by omega), if_pos (by omega)]
    omega
  · by_cases h3 : c + d = N
    · rw [if_pos (by omega), if_neg h2, if_pos h3, if_neg (by omega)]
      omega
    · rw [if_neg (by omega), if_neg h2, if_neg (by omega), if_neg (by omega)]
      omega

/-- One turn of the logged loop `d` steps from `c`, with `d < NCPU`: the list of the CPU
`(c + d) % NCPU` is passed to `kget`. -/
theorem kstealLoopLog_step (L : Layout) (c d fuel : Nat) (s : KState) (hc : c < L.NCPU)
    (h1 : 1 ≤ d) (hd : d < L.NCPU) :
    kstealLoopLog L c (fuel + 1) (if c + d ≤ L.NCPU then c + d else c + d - L.NCPU) s =
      match kget ((c + d) % L.NCPU) s with
      | (some r, s1) => some ([(c + d) % L.NCPU], some r, s1)
      | (none, s1) =>
        (kstealLoopLog L c fuel
          (if c + (d + 1) ≤ L.NCPU then c + (d + 1) else c + (d + 1) - L.NCPU) s1).map
          (fun x => ((c + d) % L.NCPU :: x.1, x.2)) := by
  obtain ⟨a1, a2, a3, a4⟩ := ksteal_index c d L.NCPU hc hd h1
  rw [kstealLoopLog, if_neg a1]
  simp only
  rw [a2, if_neg (fun h => a3 h.2), a4]

/-- The last turn of the logged loop, `NCPU` steps from `c`: the scan is back at `c` and
ends without a call of `kget`. -/
theorem kstealLoopLog_last (L : Layout) (c fuel : Nat) (s : KState) (hc : c < L.NCPU) :
    kstealLoopLog L c (fuel + 1)
      (if c + L.NCPU ≤ L.NCPU then c + L.NCPU else c + L.NCPU - L.NCPU) s =
      some ([], none, s) := by
  rw [kstealLoopLog]
  by_cases hc0 : c = 0
  · subst hc0; simp
  · have : ¬ (c + L.NCPU ≤ L.NCPU) := by omega
    simp [this]

/-- The CPUs `(c + d) % N, (c + d + 1) % N, ...`, `k` of them. -/
theorem range_probe_cons (c d N k : Nat) :
    (c + d) % N :: (List.range k).map (fun e => (c + (d + 1) + e) % N) =
      (List.range (k + 1)).map (fun e => (c + d + e) % N) := by
  rw [List.range_succ_eq_map, List.map_cons, List.map_map]
  refine congrArg₂ _ rfl (List.map_congr_left (fun e _ => ?_))
  show (c + (d + 1) + e) % N = (c + d + (e + 1)) % N
  rw [show c + (d + 1) + e = c + d + (e + 1) by omega]

/-- The logged loop, started `d` steps from `c` with the lists passed so far empty. -/
theorem kstealLoopLog_spec (L : Layout) (c : Nat) (s : KState) (hc : c < L.NCPU) :
    ∀ fuel d, 1 ≤ d → d ≤ L.NCPU → L.NCPU + 1 ≤ fuel + d →
      (∀ e, 1 ≤ e → e < d → s.freelist ((c + e) % L.NCPU) = []) →
      ∃ k r s', kstealLoopLog L c fuel (if c + d ≤ L.NCPU then c + d else c + d - L.NCPU) s
          = some ((List.range k).map (fun e => (c + d + e) % L.NCPU), r, s') ∧
        d + k ≤ L.NCPU ∧
        ((r = none ∧ s' = s ∧ d + k = L.NCPU ∧
            ∀ e, 1 ≤ e → e < L.NCPU → s.freelist ((c + e) % L.NCPU) = []) ∨
         (∃ f rest, r = some f ∧ 1 ≤ k ∧
            (∀ e, 1 ≤ e → e < d + k - 1 → s.freelist ((c + e) % L.NCPU) = []) ∧
            s.freelist ((c + (d + k - 1)) % L.NCPU) = f :: rest ∧
            s' = s.setList ((c + (d + k - 1)) % L.NCPU) rest)) := by
  intro fuel
  induction fuel with
  | zero => intro d h1 h2 h3; omega
  | succ fuel ih =>
    intro d h1 h2 h3 hemp
    by_cases hdN : d = L.NCPU
    · subst hdN
      exact ⟨0, none, s, kstealLoopLog_last L c fuel s hc, by omega,
        Or.inl ⟨rfl, rfl, by omega, hemp⟩⟩
    · have hd : d < L.NCPU := by omega
      rw [kstealLoopLog_step L c d fuel s hc h1 hd]
      cases hl : s.freelist ((c + d) % L.NCPU) with
      | nil =>
        rw [kget_nil _ s hl]
        simp only
        obtain ⟨k, r, s', hrun, hk, hres⟩ := ih (d + 1) (by omega) (by omega) (by omega) (by
          intro e he1 he2
          by_cases hed : e = d
          · subst hed; exact hl
          · exact hemp e he1 (by omega))
        refine ⟨k + 1, r, s', ?_, by omega, ?_⟩
        · rw [hrun, ← range_probe_cons]; rfl
        · rcases hres with ⟨a1, a2, a3, a4⟩ | ⟨f, rest, a1, a2, a3, a4, a5⟩
          · exact Or.inl ⟨a1, a2, by omega, a4⟩
          · have e1 : d + (k + 1) - 1 = d + 1 + k - 1 := by omega
            rw [e1]
            exact Or.inr ⟨f, rest, a1, by omega, a3, a4, a5⟩
      | cons f rest =>
        rw [kget_cons _ f rest s hl]
        simp only
        refine ⟨1, some f, s.setList ((c + d) % L.NCPU) rest, ?_, by omega,
          Or.inr ⟨f, rest, rfl, Nat.le_refl _, ?_, ?_, ?_⟩⟩
        · rfl
        · intro e he1 he2; exact hemp e he1 (by omega)
        · exact hl
        · rfl

/-- C33: for every `NCPU >= 1` and `cpuid < NCPU` the scan of `ksteal(cpuid)` ends. It
passes to `kget` the lists of the CPUs `(cpuid + 1) % NCPU`, `(cpuid + 2) % NCPU`, ... in
this order, `k` of them with `k <= NCPU - 1`, each one once and never `cpuid`. Either
every other list is empty, all `NCPU - 1` of them were tried, and the result is null
with the state unchanged; or the last list tried is the first non-empty one, and its
head is the result, unlinked from that list and from no other. The result is null
exactly when every other list is empty, and with one CPU no list is tried. -/
theorem ksteal_probes (L : Layout) (c : Nat) (s : KState) (hc : c < L.NCPU) :
    ∃ k r s', kstealLog L c s =
        some ((List.range k).map (fun e => (c + 1 + e) % L.NCPU), r, s') ∧
      ksteal L c s = some (r, s') ∧
      k ≤ L.NCPU - 1 ∧
      c ∉ (List.range k).map (fun e => (c + 1 + e) % L.NCPU) ∧
      ((List.range k).map (fun e => (c + 1 + e) % L.NCPU)).Nodup ∧
      ((r = none ∧ s' = s ∧ k = L.NCPU - 1) ∨
       (∃ f rest, r = some f ∧ 1 ≤ k ∧
          (∀ e, e < k - 1 → s.freelist ((c + 1 + e) % L.NCPU) = []) ∧
          s.freelist ((c + 1 + (k - 1)) % L.NCPU) = f :: rest ∧
          s' = s.setList ((c + 1 + (k - 1)) % L.NCPU) rest)) ∧
      (r = none ↔ ∀ i, i < L.NCPU → i ≠ c → s.freelist i = []) ∧
      (L.NCPU = 1 → k = 0 ∧ r = none) := by
  obtain ⟨k, r, s', hrun, hk, hres⟩ := kstealLoopLog_spec L c s hc (L.NCPU + 1) 1
    (Nat.le_refl _) (by omega) (by omega) (by intro e h1 h2; omega)
  rw [if_pos (by omega)] at hrun
  have hmodne : ∀ e, e < k → (c + 1 + e) % L.NCPU ≠ c := by
    intro e he
    have := (ksteal_index c (1 + e) L.NCPU hc (by omega) (by omega)).2.2.1
    rw [show c + (1 + e) = c + 1 + e by omega] at this
    exact this
  have hothers : (∀ e, 1 ≤ e → e < L.NCPU → s.freelist ((c + e) % L.NCPU) = []) ↔
      ∀ i, i < L.NCPU → i ≠ c → s.freelist i = [] := by
    constructor
    · intro h i hi hic
      by_cases hlt : c < i
      · have := h (i - c) (by omega) (by omega)
        rw [show c + (i - c) = i by omega, Nat.mod_eq_of_lt hi] at this
        exact this
      · have := h (i + L.NCPU - c) (by omega) (by omega)
        rw [show c + (i + L.NCPU - c) = i + L.NCPU by omega, Nat.add_mod_right,
          Nat.mod_eq_of_lt hi] at this
        exact this
    · intro h e he1 he2
      refine h _ (Nat.mod_lt _ (by omega)) ?_
      exact (ksteal_index c e L.NCPU hc he2 he1).2.2.1
  refine ⟨k, r, s', hrun, ?_, by omega, ?_, ?_, ?_, ?_, ?_⟩
  · unfold ksteal
    rw [← kstealLoopLog_erase, hrun]
    rfl
  · intro hmem
    obtain ⟨e, he, hec⟩ := List.mem_map.mp hmem
    exact hmodne e (List.mem_range.mp he) hec
  · refine (List.nodup_range k).map_on ?_
    intro a ha b hb hab
    have ha1 := List.mem_range.mp ha
    have hb1 := List.mem_range.mp hb
    have e1 := add_mod_cases c (1 + a) L.NCPU hc (by omega)
    have e2 := add_mod_cases c (1 + b) L.NCPU hc (by omega)
    rw [show c + (1 + a) = c + 1 + a by omega] at e1
    rw [show c + (1 + b) = c + 1 + b by omega] at e2
    rw [e1, e2] at hab
    split at hab <;> split at hab <;> omega
  · rcases hres with ⟨a1, a2, a3, _⟩ | ⟨f, rest, a1, a2, a3, a4, a5⟩
    · exact Or.inl ⟨a1, a2, by omega⟩
    · refine Or.inr ⟨f, rest, a1, a2, ?_, ?_, ?_⟩
      · intro e he
        have := a3 (1 + e) (by omega) (by omega)
        rw [show c + (1 + e) = c + 1 + e by omega] at this
        exact this
      · rw [show c + 1 + (k - 1) = c + (1 + k - 1) by omega]; exact a4
      · rw [show c + 1 + (k - 1) = c + (1 + k - 1) by omega]; exact a5
  · rcases hres with ⟨a1, _, _, a4⟩ | ⟨f, rest, a1, a2, _, a4, _⟩
    · exact ⟨fun _ => hothers.mp a4, fun _ => a1⟩
    · constructor
      · intro hr; rw [hr] at a1; cases a1
      · intro h
        have := hothers.mpr h (1 + k - 1) (by omega) (by omega)
        rw [this] at a4
        cases a4
  · intro hN
    have hk0 : k = 0 := by omega
    refine ⟨hk0, ?_⟩
    rcases hres with ⟨a1, _⟩ | ⟨f, rest, _, a2, _⟩
    · exact a1
    · omega

/-- C33 (witness): on the machine `L4`, `ksteal(2)` finds the list of CPU 3 empty and
takes the head 8192 of the list of CPU 0; the list of CPU 1 is not tried. -/
theorem ksteal_probes_witness :
    (kstealLog L4 2 sSteal).map (fun x => (x.1, x.2.1)) = some ([3, 0], some 8192) ∧
    ∃ k r s', kstealLog L4 2 sSteal =
        some ((List.range k).map (fun e => (2 + 1 + e) % L4.NCPU), r, s') ∧
      ksteal L4 2 sSteal = some (r, s') ∧
      k ≤ L4.NCPU - 1 ∧
      2 ∉ (List.range k).map (fun e => (2 + 1 + e) % L4.NCPU) ∧
      ((List.range k).map (fun e => (2 + 1 + e) % L4.NCPU)).Nodup ∧
      ((r = none ∧ s' = sSteal ∧ k = L4.NCPU - 1) ∨
       (∃ f rest, r = some f ∧ 1 ≤ k ∧
          (∀ e, e < k - 1 → sSteal.freelist ((2 + 1 + e) % L4.NCPU) = []) ∧
          sSteal.freelist ((2 + 1 + (k - 1)) % L4.NCPU) = f :: rest ∧
          s' = sSteal.setList ((2 + 1 + (k - 1)) % L4.NCPU) rest)) ∧
      (r = none ↔ ∀ i, i < L4.NCPU → i ≠ 2 → sSteal.freelist i = []) ∧
      (L4.NCPU = 1 → k = 0 ∧ r = none) :=
  ⟨by decide, ksteal_probes L4 2 sSteal (by decide)⟩

/-- The logged loop returns what the loop of `unused_steal` returns. -/
theorem unusedStealLoopLog_erase (k : Nat) :
    ∀ fuel i s, (unusedStealLoopLog k fuel i s).map (fun x => x.2) =
      unusedStealLoop k fuel i s := by
  intro fuel
  induction fuel with
  | zero => intro i s; rfl
  | succ fuel ih =>
    intro i s
    unfold unusedStealLoopLog unusedStealLoop
    by_cases h1 : i ≠ k
    · rw [if_pos h1, if_pos h1]
      cases hf : unused_fetch i s with
      | none => rfl
      | some x =>
        obtain ⟨b, s1⟩ := x
        simp only
        by_cases h2 : b ≠ BNode.null
        · rw [if_pos h2, if_pos h2]; rfl
        · rw [if_neg h2, if_neg h2, ← ih, Option.map_map]
          rfl
    · rw [if_neg h1, if_neg h1]; rfl

/-- The logged `unused_get` returns what `unused_get` returns. -/
theorem unused_getLog_erase (k : Nat) (s : BState) :
    (unused_getLog k s).map (fun x => x.2) = unused_get k s := by
  unfold unused_getLog unused_get unused_steal
  cases hf : unused_fetch k s with
  | none => rfl
  | some x =>
    obtain ⟨b, s1⟩ := x
    simp only
    by_cases h2 : b = BNode.null
    · rw [if_pos h2, if_pos h2, ← unusedStealLoopLog_erase, Option.map_map]
      rfl
    · rw [if_neg h2, if_neg h2]; rfl

/-- What `unused_fetch` returns when it is not null: the buffer before the sentinel, with
both links set to null. -/
theorem unused_fetch_fst (k : Nat) (s s1 : BState) (b : BNode)
    (h : unused_fetch k s = some (b, s1)) (hb : b ≠ BNode.null) :
    b = s.prev (BNode.unused k) ∧ s1.next b = BNode.null ∧ s1.prev b = BNode.null := by
  unfold unused_fetch at h
  simp only at h
  split at h
  · split at h
    · cases h
    · cases hu : unlink (s.prev (BNode.unused k)) s with
      | none => rw [hu] at h; cases h
      | some s2 =>
        rw [hu] at h
        simp only [Option.some.injEq, Prod.mk.injEq] at h
        obtain ⟨h1, h2⟩ := h
        subst h1
        subst h2
        simp [BState.setNext, BState.setPrev]
  · simp only [Option.some.injEq, Prod.mk.injEq] at h
    exact absurd h.1.symm hb

/-- The function `unused_fetch` on the lists of the buffer cache: the unused list of the
bucket is empty and the result is null, or the result is the last buffer of the list,
taken out of it. -/
theorem unused_fetch_tail (s : BState) (L : BNode → List Nat) (k : Nat) (hk : k < NBUCKET)
    (hL : BLists s L) :
    (L (BNode.unused k) = [] ∧ unused_fetch k s = some (BNode.null, s)) ∨
    (∃ l i s1, L (BNode.unused k) = l ++ [i] ∧ unused_fetch k s = some (BNode.buf i, s1) ∧
      BLists s1 (Function.update L (BNode.unused k) l) ∧ SameBlocks s s1 ∧
      s1.next (BNode.buf i) = BNode.null ∧ s1.prev (BNode.buf i) = BNode.null) := by
  rcases unused_fetch_spec s L k hk hL with h | ⟨i, s1, hi, hfe, hL1, hsb⟩
  · exact Or.inl h
  · right
    obtain ⟨f1, f2, f3⟩ := unused_fetch_fst k s s1 _ hfe (fun e => BNode.noConfusion e)
    have hs : isSentinel (BNode.unused k) = true := by
      simp only [isSentinel, decide_eq_true_eq]
      exact hk
    have hr := hL.ring _ hs
    unfold Ring at hr
    rcases List.eq_nil_or_concat (L (BNode.unused k)) with e | ⟨l, j, e⟩
    · rw [e] at hi; cases hi
    · rw [List.concat_eq_append] at e
      have hpu : s.prev (BNode.unused k) = BNode.buf j := by
        rw [e, List.map_append, List.map_cons, List.map_nil] at hr
        have := ((Path_split s (BNode.buf j) _ [] _ _).1 hr).2
        simp only [Path] at this
        exact this.2
      have hij : i = j := by
        rw [hpu] at f1
        exact BNode.buf.inj f1
      subst hij
      refine ⟨l, i, s1, e, hfe, ?_, hsb, f2, f3⟩
      have hnd := hL.nodup (BNode.unused k)
      rw [e] at hnd
      have hnl : i ∉ l := by
        intro hm
        have := (List.nodup_append.1 hnd).2.2
        exact this hm (List.mem_singleton_self i)
      have he : (L (BNode.unused k)).erase i = l := by
        rw [e, List.erase_append_right _ hnl]
        simp
      rw [he] at hL1
      exact hL1

/-- The logged loop of `unused_steal` on the lists of the buffer cache, started `d`
buckets from `k` with the unused lists passed so far empty. -/
theorem unusedStealLoopLog_spec (s : BState) (L : BNode → List Nat) (k : Nat)
    (hk : k < NBUCKET) (hL : BLists s L) :
    ∀ fuel d, 1 ≤ d → d ≤ NBUCKET → NBUCKET + 1 ≤ fuel + d →
      (∀ e, e < d → L (BNode.unused ((k + e) % NBUCKET)) = []) →
      ∃ n b s1, unusedStealLoopLog k fuel ((k + d) % NBUCKET) s =
          some ((List.range n).map (fun e => (k + d + e) % NBUCKET), b, s1) ∧
        d + n ≤ NBUCKET ∧
        ((b = BNode.null ∧ s1 = s ∧ d + n = NBUCKET ∧
            ∀ e, e < NBUCKET → L (BNode.unused ((k + e) % NBUCKET)) = []) ∨
         (∃ l i, b = BNode.buf i ∧ 1 ≤ n ∧
            (∀ e, e < d + n - 1 → L (BNode.unused ((k + e) % NBUCKET)) = []) ∧
            L (BNode.unused ((k + (d + n - 1)) % NBUCKET)) = l ++ [i] ∧
            BLists s1 (Function.update L (BNode.unused ((k + (d + n - 1)) % NBUCKET)) l) ∧
            SameBlocks s s1 ∧
            s1.next (BNode.buf i) = BNode.null ∧ s1.prev (BNode.buf i) = BNode.null)) := by
  intro fuel
  induction fuel with
  | zero => intro d h1 h2 h3; omega
  | succ fuel ih =>
    intro d h1 h2 h3 hemp
    by_cases hdN : d = NBUCKET
    · subst hdN
      refine ⟨0, BNode.null, s, ?_, by omega, Or.inl ⟨rfl, rfl, by omega, hemp⟩⟩
      have e : (k + NBUCKET) % NBUCKET = k := by unfold NBUCKET at *; omega
      rw [e, unusedStealLoopLog, if_neg (fun h => h rfl)]
      rfl
    · have hd : d < NBUCKET := by omega
      have hne : (k + d) % NBUCKET ≠ k := by unfold NBUCKET at *; omega
      have hnext : ((k + d) % NBUCKET + 1) % NBUCKET = (k + (d + 1)) % NBUCKET := by
        unfold NBUCKET; omega
      rw [unusedStealLoopLog, if_pos hne]
      rcases unused_fetch_tail s L ((k + d) % NBUCKET) (Nat.mod_lt _ (by decide)) hL with
        ⟨hnil, hfe⟩ | ⟨l, i, s1, hl, hfe, hL1, hsb, hn1, hn2⟩
      · rw [hfe]
        simp only
        rw [if_neg (fun h => h rfl), hnext]
        obtain ⟨n, b, s1, hrun, hn, hres⟩ := ih (d + 1) (by omega) (by omega) (by omega) (by
          intro e he
          by_cases hed : e = d
          · subst hed; exact hnil
          · exact hemp e (by omega))
        refine ⟨n + 1, b, s1, ?_, by omega, ?_⟩
        · rw [hrun, ← range_probe_cons]; rfl
        · rcases hres with ⟨a1, a2, a3, a4⟩ | ⟨l, i, a1, a2, a3, a4, a5⟩
          · exact Or.inl ⟨a1, a2, by omega, a4⟩
          · have e1 : d + (n + 1) - 1 = d + 1 + n - 1 := by omega
            rw [e1]
            exact Or.inr ⟨l, i, a1, by omega, a3, a4, a5⟩
      · rw [hfe]
        simp only
        rw [if_pos (fun e => BNode.noConfusion e)]
        refine ⟨1, BNode.buf i, s1, rfl, by omega,
          Or.inr ⟨l, i, rfl, Nat.le_refl _, ?_, hl, hL1, hsb, hn1, hn2⟩⟩
        intro e he; exact hemp e (by omega)

/-- C32: on well-formed lists `unused_get(b)`, for every bucket `b` below `NBUCKET`,
passes to `unused_fetch` the buckets `b`, `(b + 1) % NBUCKET`, ... in this order, `n` of
them with `n <= NBUCKET`, so that `b` is tried first and never again. Either all `NBUCKET`
unused lists are empty and the result is null with the state unchanged; or the last list
tried is the first one that is not empty, and the result is its last buffer, the tail:
the buffer is taken out of that list with both links null, and every list keeps its
other buffers in their order. The result is null exactly when all unused lists are
empty. The function `unused_insert` puts a buffer at the front of its list, so the tail
is the buffer that was put on the list first. -/
theorem unused_get_tail (s : BState) (L : BNode → List Nat) (k : Nat) (hk : k < NBUCKET)
    (hL : BLists s L) :
    (∃ n b s1, unused_getLog k s =
        some ((List.range n).map (fun e => (k + e) % NBUCKET), b, s1) ∧
      unused_get k s = some (b, s1) ∧ 1 ≤ n ∧ n ≤ NBUCKET ∧
      (∀ e, 1 ≤ e → e < n → (k + e) % NBUCKET ≠ k) ∧
      ((b = BNode.null ∧ s1 = s ∧ n = NBUCKET) ∨
       (∃ l i, b = BNode.buf i ∧
          (∀ e, e < n - 1 → L (BNode.unused ((k + e) % NBUCKET)) = []) ∧
          L (BNode.unused ((k + (n - 1)) % NBUCKET)) = l ++ [i] ∧
          BLists s1 (Function.update L (BNode.unused ((k + (n - 1)) % NBUCKET)) l) ∧
          SameBlocks s s1 ∧
          s1.next (BNode.buf i) = BNode.null ∧ s1.prev (BNode.buf i) = BNode.null)) ∧
      (b = BNode.null ↔ ∀ j, j < NBUCKET → L (BNode.unused j) = [])) ∧
    (∀ i, (∀ h, i ∉ L h) → ∃ s1, unused_insert (BNode.buf i) s = some s1 ∧
      BLists s1 (Function.update L (BNode.unused (i % NBUCKET))
        (i :: L (BNode.unused (i % NBUCKET)))) ∧ SameBlocks s s1) := by
  refine ⟨?_, fun i hi => unused_insert_spec s L i hL hi⟩
  have hk0 : (k + 0) % NBUCKET = k := Nat.mod_eq_of_lt hk
  have hall : (∀ e, e < NBUCKET → L (BNode.unused ((k + e) % NBUCKET)) = []) ↔
      ∀ j, j < NBUCKET → L (BNode.unused j) = [] := by
    constructor
    · intro h j hj
      have := h ((j + NBUCKET - k) % NBUCKET) (Nat.mod_lt _ (by decide))
      have e : (k + (j + NBUCKET - k) % NBUCKET) % NBUCKET = j := by
        unfold NBUCKET at *; omega
      rw [e] at this
      exact this
    · intro h e _
      exact h _ (Nat.mod_lt _ (by decide))
  have hnot : ∀ n, n ≤ NBUCKET → ∀ e, 1 ≤ e → e < n → (k + e) % NBUCKET ≠ k := by
    intro n hn e h1 h2
    unfold NBUCKET at *
    omega
  have herase := unused_getLog_erase k s
  rcases unused_fetch_tail s L k hk hL with ⟨hnil, hfe⟩ | ⟨l, i, s1, hl, hfe, hL1, hsb, hn1, hn2⟩
  · obtain ⟨n, b, s1, hrun, hn, hres⟩ := unusedStealLoopLog_spec s L k hk hL NBUCKET 1
      (Nat.le_refl _) (by decide) (by omega) (by
        intro e he
        have : e = 0 := by omega
        subst this
        rw [hk0]; exact hnil)
    have hlog : unused_getLog k s =
        some ((List.range (n + 1)).map (fun e => (k + e) % NBUCKET), b, s1) := by
      unfold unused_getLog
      rw [hfe]
      simp only [if_true]
      rw [hrun]
      have := range_probe_cons k 0 NBUCKET n
      rw [hk0] at this
      show some (k :: List.map (fun e => (k + 1 + e) % NBUCKET) (List.range n), b, s1) = _
      rw [show (fun e => (k + 1 + e) % NBUCKET) = (fun e => (k + (0 + 1) + e) % NBUCKET) from
        funext (fun e => by rw [Nat.zero_add]), this]
      rfl
    refine ⟨n + 1, b, s1, hlog, ?_, by omega, by omega, hnot _ (by omega), ?_, ?_⟩
    · rw [← herase, hlog]; rfl
    · rcases hres with ⟨a1, a2, a3, _⟩ | ⟨l, i, a1, a2, a3, a4, a5⟩
      · exact Or.inl ⟨a1, a2, by omega⟩
      · have e1 : 1 + n - 1 = n + 1 - 1 := by omega
        rw [e1] at a3 a4 a5
        exact Or.inr ⟨l, i, a1, a3, a4, a5⟩
    · rcases hres with ⟨a1, _, _, a4⟩ | ⟨l, i, a1, a2, _, a4, _⟩
      · exact ⟨fun _ => hall.mp a4, fun _ => a1⟩
      · constructor
        · intro hb; rw [hb] at a1; cases a1
        · intro h
          rw [h _ (Nat.mod_lt _ (by decide))] at a4
          exact absurd a4.symm (by simp)
  · have hlog : unused_getLog k s =
        some ((List.range 1).map (fun e => (k + e) % NBUCKET), BNode.buf i, s1) := by
      unfold unused_getLog
      rw [hfe]
      simp only
      rw [if_neg (fun e => BNode.noConfusion e)]
      show _ = some ([(k + 0) % NBUCKET], BNode.buf i, s1)
      rw [hk0]
    refine ⟨1, BNode.buf i, s1, hlog, ?_, Nat.le_refl _, by decide, hnot _ (by decide), ?_, ?_⟩
    · rw [← herase, hlog]; rfl
    · refine Or.inr ⟨l, i, rfl, fun e he => by omega, ?_, ?_, hsb, hn1, hn2⟩
      · show L (BNode.unused ((k + 0) % NBUCKET)) = l ++ [i]
        rw [hk0]; exact hl
      · show BLists s1 (Function.update L (BNode.unused ((k + 0) % NBUCKET)) l)
        rw [hk0]; exact hL1
    · constructor
      · intro hb; cases hb
      · intro h
        rw [h k hk] at hl
        exact absurd hl (by simp)

/-- C32 (witness): after `binit` with three buffers, `unused_get(11)` finds the unused
lists of the buckets 11 and 12 empty and returns the buffer 0 from the list of bucket
0. -/
theorem unused_get_tail_witness :
    (unused_getLog 11 sBFew).map (fun x => (x.1, x.2.1)) = some ([11, 12, 0], BNode.buf 0) ∧
    ∃ L : BNode → List Nat, BLists sBFew L ∧
      ((∃ n b s1, unused_getLog 11 sBFew =
          some ((List.range n).map (fun e => (11 + e) % NBUCKET), b, s1) ∧
        unused_get 11 sBFew = some (b, s1) ∧ 1 ≤ n ∧ n ≤ NBUCKET ∧
        (∀ e, 1 ≤ e → e < n → (11 + e) % NBUCKET ≠ 11) ∧
        ((b = BNode.null ∧ s1 = sBFew ∧ n = NBUCKET) ∨
         (∃ l i, b = BNode.buf i ∧
            (∀ e, e < n - 1 → L (BNode.unused ((11 + e) % NBUCKET)) = []) ∧
            L (BNode.unused ((11 + (n - 1)) % NBUCKET)) = l ++ [i] ∧
            BLists s1 (Function.update L (BNode.unused ((11 + (n - 1)) % NBUCKET)) l) ∧
            SameBlocks sBFew s1 ∧
            s1.next (BNode.buf i) = BNode.null ∧ s1.prev (BNode.buf i) = BNode.null)) ∧
        (b = BNode.null ↔ ∀ j, j < NBUCKET → L (BNode.unused j) = [])) ∧
      (∀ i, (∀ h, i ∉ L h) → ∃ s1, unused_insert (BNode.buf i) sBFew = some s1 ∧
        BLists s1 (Function.update L (BNode.unused (i % NBUCKET))
          (i :: L (BNode.unused (i % NBUCKET)))) ∧ SameBlocks sBFew s1)) := by
  refine ⟨by decide, ?_⟩
  obtain ⟨s1, L, h1, hR, _, _⟩ := binit_spec 3 bzero
  have e : sBFew = s1 := by
    unfold sBFew
    rw [h1]
    rfl
  rw [e]
  exact ⟨L, hR.1, unused_get_tail s1 L 11 (by decide) hR.1⟩

/-- The buffers between two nodes are determined by the links, when the node at the end
is not a buffer. -/
theorem Path_unique (s : BState) (z : BNode) (hz : ∀ i, z ≠ BNode.buf i) :
    ∀ (l l1 : List Nat) (x : BNode), Path s x (l.map BNode.buf) z →
      Path s x (l1.map BNode.buf) z → l = l1 := by
  intro l
  induction l with
  | nil =>
    intro l1 x h h1
    cases l1 with
    | nil => rfl
    | cons b t =>
      simp only [List.map_nil, List.map_cons, Path] at h h1
      exact absurd (h.1.symm.trans h1.1) (hz b)
  | cons a t ih =>
    intro l1 x h h1
    cases l1 with
    | nil =>
      simp only [List.map_nil, List.map_cons, Path] at h h1
      exact absurd (h1.1.symm.trans h.1) (hz a)
    | cons b t1 =>
      simp only [List.map_cons, Path] at h h1
      have e : a = b := BNode.buf.inj (h.1.symm.trans h1.1)
      subst e
      rw [ih t1 _ h.2.2 h1.2.2]

/-- The lists of the buffer cache are determined by the state. -/
theorem BLists_unique (s : BState) (L L1 : BNode → List Nat) (hL : BLists s L)
    (hL1 : BLists s L1) : L = L1 := by
  funext h
  by_cases hs : isSentinel h = true
  · exact Path_unique s h (fun i => isSentinel_buf h i hs) _ _ h (hL.ring h hs) (hL1.ring h hs)
  · have e : ∀ (M : BNode → List Nat), BLists s M → M h = [] := by
      intro M hM
      refine List.eq_nil_iff_forall_not_mem.2 (fun i hi => hs (hM.sent h i hi))
    rw [e L hL, e L1 hL1]

/-- A state of `BReachHeld` is a state of `BReachPin`. -/
theorem BReachHeld_pin (NBUF : Nat) (disk : Nat → Nat → Nat → Nat) (s : BState)
    (h : BReachHeld NBUF disk s) : BReachPin NBUF disk s := by
  induction h with
  | binit s hb => exact BReachPin.binit s hb
  | bget s s1 dev blockno b _ hg ih => exact BReachPin.bget s s1 dev blockno b ih hg
  | bread s s1 dev blockno b _ hg ih => exact BReachPin.bread s s1 dev blockno b ih hg
  | brelse s s1 i _ hi hr hg ih => exact BReachPin.brelse s s1 i ih hi hr hg
  | bpin s i _ hi _ ih => exact BReachPin.bpin s i ih hi
  | bunpin s i _ hi hr ih => exact BReachPin.bunpin s i ih hi hr

/-- A change of the reference count of a buffer that has a reference keeps the buffers of
the unused lists without reference. -/
theorem BIdle_setRefcnt (s : BState) (L : BNode → List Nat) (i v : Nat) (hI : BIdle s L)
    (hr : s.refcnt (BNode.buf i) ≠ 0) : BIdle (s.setRefcnt (BNode.buf i) v) L := by
  intro k x hx
  have hne : BNode.buf x ≠ BNode.buf i := by
    intro e
    rw [BNode.buf.inj e] at hx
    exact hr (hI k i hx)
  simp only [BState.setRefcnt, hne, if_false]
  exact hI k x hx

/-- The function `bget` keeps the buffers of the unused lists without reference. -/
theorem bget_idle (NBUF : Nat) (s s1 : BState) (L : BNode → List Nat) (dev blockno : Nat)
    (b : BNode) (hR : BRep NBUF s L) (hI : BIdle s L)
    (hg : bget NBUF dev blockno s = some (b, s1)) :
    ∃ L1, BRep NBUF s1 L1 ∧ BIdle s1 L1 := by
  rcases bget_cases NBUF s L dev blockno hR with ⟨i, hi, _, _, hg1⟩ | ⟨_, _, hg1⟩ |
    ⟨hno, j, i, s2, hj, hi, hg1, hR1, _, _, _, hr, _, _⟩
  · rw [hg1] at hg
    have e := (Prod.mk.inj (Option.some.inj hg)).2
    rw [← e]
    refine ⟨L, BRep_same NBUF s _ L hR rfl rfl, ?_⟩
    intro k x hx
    have hne : BNode.buf x ≠ BNode.buf i := by
      intro e1
      rw [BNode.buf.inj e1] at hx
      exact BNode.noConfusion (hR.1.disj _ _ i hx hi)
    simp only [BState.setRefcnt, hne, if_false]
    exact hI k x hx
  · rw [hg1] at hg
    exact Option.noConfusion hg
  · rw [hg1] at hg
    have e := (Prod.mk.inj (Option.some.inj hg)).2
    rw [← e]
    refine ⟨_, hR1, ?_⟩
    intro k x hx
    rcases (moveTo_mem s L hR.1 _ _ _ i x hi).1 hx with h2 | h2
    · exact BNode.noConfusion h2.2
    · have hne : BNode.buf x ≠ BNode.buf i := fun e2 => h2.1 (BNode.buf.inj e2)
      rw [hr]
      simp only [hne, if_false]
      exact hI k x h2.2

/-- The function `brelse` on a buffer with a reference keeps the buffers of the unused
lists without reference. -/
theorem brelse_idle (NBUF : Nat) (s s1 : BState) (L : BNode → List Nat) (i : Nat)
    (hR : BRep NBUF s L) (hI : BIdle s L) (hi : i < NBUF)
    (hr : 1 ≤ s.refcnt (BNode.buf i))
    (hg : brelse true (BNode.buf i) s = some s1) :
    ∃ L1, BRep NBUF s1 L1 ∧ BIdle s1 L1 := by
  obtain ⟨h, hh⟩ := (hR.2 i).1 hi
  obtain ⟨e0, e1⟩ := brelse_effect s L h i hR.1 hh
  by_cases h0 : (s.refcnt (BNode.buf i) + (2 ^ 32 - 1)) % 2 ^ 32 = 0
  · obtain ⟨s2, hb, hL1, hrc, _⟩ := e0 h0
    rw [hb] at hg
    rw [← Option.some.inj hg]
    refine ⟨_, moveTo_BRep NBUF s s2 L hR _ _ i hh hL1, ?_⟩
    intro k x hx
    rw [hrc]
    rcases (moveTo_mem s L hR.1 _ _ _ i x hh).1 hx with h2 | h2
    · rw [h2.1]
      simp only [if_true]
    · have hne : BNode.buf x ≠ BNode.buf i := fun e2 => h2.1 (BNode.buf.inj e2)
      simp only [hne, if_false]
      exact hI k x h2.2
  · rw [e1 h0] at hg
    rw [← Option.some.inj hg]
    exact ⟨L, BRep_same NBUF s _ L hR rfl rfl, BIdle_setRefcnt s L i _ hI (by omega)⟩

/-- The states of `BReachHeld` keep the lists of the buffer cache, with the buffers of
the unused lists without reference. -/
theorem BReachHeld_idle (NBUF : Nat) (disk : Nat → Nat → Nat → Nat) (s : BState)
    (h : BReachHeld NBUF disk s) : ∃ L, BRep NBUF s L ∧ BIdle s L := by
  induction h with
  | binit s hb =>
    obtain ⟨s1, L, h1, hR, hu, hsb⟩ := binit_spec NBUF bzero
    rw [hb] at h1
    rw [Option.some.inj h1]
    refine ⟨L, hR, ?_⟩
    intro k i _
    rw [hsb.2.2.2.1]
    rfl
  | bget s s1 dev blockno b _ hg ih =>
    obtain ⟨L, hR, hI⟩ := ih
    exact bget_idle NBUF s s1 L dev blockno b hR hI hg
  | bread s s2 dev blockno b _ hg ih =>
    obtain ⟨L, hR, hI⟩ := ih
    obtain ⟨s1, hg1, hn, hp, _, _, hrc⟩ := bread_bget NBUF disk dev blockno s s2 b hg
    obtain ⟨L1, hR1, hI1⟩ := bget_idle NBUF s s1 L dev blockno b hR hI hg1
    refine ⟨L1, BRep_same NBUF s1 s2 L1 hR1 hn hp, ?_⟩
    intro k x hx
    rw [hrc]
    exact hI1 k x hx
  | brelse s s1 i _ hi hr hg ih =>
    obtain ⟨L, hR, hI⟩ := ih
    exact brelse_idle NBUF s s1 L i hR hI hi hr hg
  | bpin s i _ _ hr ih =>
    obtain ⟨L, hR, hI⟩ := ih
    exact ⟨L, BRep_same NBUF s _ L hR rfl rfl, BIdle_setRefcnt s L i _ hI (by omega)⟩
  | bunpin s i _ _ hr ih =>
    obtain ⟨L, hR, hI⟩ := ih
    exact ⟨L, BRep_same NBUF s _ L hR rfl rfl, BIdle_setRefcnt s L i _ hI (by omega)⟩

/-- The states of `BReachHeld` keep the lists of the buffer cache, with the blocks of the
active lists apart and the buffers of the unused lists without reference. -/
theorem BReachHeld_inv (NBUF : Nat) (disk : Nat → Nat → Nat → Nat) (s : BState)
    (h : BReachHeld NBUF disk s) : ∃ L, BRep NBUF s L ∧ BIdent s L ∧ BIdle s L := by
  obtain ⟨L, hR, hI⟩ := BReachHeld_idle NBUF disk s h
  obtain ⟨L1, hR1, hI1⟩ := BReachPin_inv NBUF disk s (BReachHeld_pin NBUF disk s h)
  have e := BLists_unique s L L1 hR.1 hR1.1
  rw [← e] at hI1
  exact ⟨L, hR, hI1, hI⟩

/-- C35: in every state that `binit`, `bget`, `bread`, `brelse`, `bpin` and `bunpin`
reach (the last three called by a holder of the buffer), let `brelse` be called on a
buffer `i` whose reference count is 1. The call returns and the count is 0; the buffer
is on the unused list of the bucket `i % NBUCKET`, and no buffer of an active list holds
its block `(dev, blockno)`. The next `bget(dev, blockno)` therefore does not panic and
returns a buffer `j` taken from an unused list, with `valid = 0`, one reference and the
block; when `j` is another buffer, `i` stays on its unused list with the stale `dev` and
`blockno`. So `bread(dev, blockno)` asks the disk driver for the block again. -/
theorem released_block_misses (NBUF : Nat) (disk : Nat → Nat → Nat → Nat) (s : BState)
    (i : Nat) (hs : BReachHeld NBUF disk s) (hi : i < NBUF)
    (hr : s.refcnt (BNode.buf i) = 1) :
    ∃ s1 L1, brelse true (BNode.buf i) s = some s1 ∧ s1.refcnt (BNode.buf i) = 0 ∧
      s1.dev (BNode.buf i) = s.dev (BNode.buf i) ∧
      s1.blockno (BNode.buf i) = s.blockno (BNode.buf i) ∧
      BRep NBUF s1 L1 ∧ i ∈ L1 (BNode.unused (i % NBUCKET)) ∧
      (∀ k x, x ∈ L1 (BNode.head k) → ¬ (s1.dev (BNode.buf x) = s.dev (BNode.buf i) ∧
        s1.blockno (BNode.buf x) = s.blockno (BNode.buf i))) ∧
      ∃ j k s2 s3, k < NBUCKET ∧ j ∈ L1 (BNode.unused k) ∧
        bget NBUF (s.dev (BNode.buf i)) (s.blockno (BNode.buf i)) s1 = some (BNode.buf j, s2) ∧
        s2.valid (BNode.buf j) = 0 ∧ s2.refcnt (BNode.buf j) = 1 ∧
        s2.dev (BNode.buf j) = s.dev (BNode.buf i) ∧
        s2.blockno (BNode.buf j) = s.blockno (BNode.buf i) ∧
        BRep NBUF s2 (moveTo L1 (BNode.unused k)
          (BNode.head (s.blockno (BNode.buf i) % NBUCKET)) j) ∧
        (j ≠ i → s2.dev (BNode.buf i) = s.dev (BNode.buf i) ∧
          s2.blockno (BNode.buf i) = s.blockno (BNode.buf i) ∧
          s2.refcnt (BNode.buf i) = 0 ∧
          i ∈ moveTo L1 (BNode.unused k) (BNode.head (s.blockno (BNode.buf i) % NBUCKET)) j
            (BNode.unused (i % NBUCKET))) ∧
        bread NBUF disk (s.dev (BNode.buf i)) (s.blockno (BNode.buf i)) s1 =
          some (BNode.buf j, s3) ∧
        s3.reads = BNode.buf j :: s1.reads ∧
        s3.data (BNode.buf j) = disk (s.dev (BNode.buf i)) (s.blockno (BNode.buf i)) ∧
        s3.valid (BNode.buf j) = 1 := by
  obtain ⟨L, hR, hId, hIdle⟩ := BReachHeld_inv NBUF disk s hs
  obtain ⟨h, hh⟩ := (hR.2 i).1 hi
  have hsent := hR.1.sent h i hh
  obtain ⟨k0, hk0⟩ : ∃ k0, h = BNode.head k0 := by
    cases h with
    | buf a => simp [isSentinel] at hsent
    | head a => exact ⟨a, rfl⟩
    | unused a =>
      have := hIdle a i hh
      omega
    | null => simp [isSentinel] at hsent
  subst hk0
  have h0 : (s.refcnt (BNode.buf i) + (2 ^ 32 - 1)) % 2 ^ 32 = 0 := by rw [hr]; decide
  obtain ⟨s1, hb, hL1, hrc, hd, hbk, hv, hda, hre⟩ := (brelse_effect s L _ i hR.1 hh).1 h0
  have hR1 := moveTo_BRep NBUF s s1 L hR _ (BNode.unused (i % NBUCKET)) i hh hL1
  have hmem := moveTo_mem s L hR.1 (BNode.head k0) (BNode.unused (i % NBUCKET))
  have hi1 : i ∈ moveTo L (BNode.head k0) (BNode.unused (i % NBUCKET)) i
      (BNode.unused (i % NBUCKET)) := (hmem _ i i hh).2 (Or.inl ⟨rfl, rfl⟩)
  have hno : ∀ k x, x ∈ moveTo L (BNode.head k0) (BNode.unused (i % NBUCKET)) i (BNode.head k) →
      ¬ (s1.dev (BNode.buf x) = s.dev (BNode.buf i) ∧
        s1.blockno (BNode.buf x) = s.blockno (BNode.buf i)) := by
    intro k x hx
    rcases (hmem _ i x hh).1 hx with h2 | h2
    · exact BNode.noConfusion h2.2
    · rw [hd, hbk]
      rintro ⟨e1, e2⟩
      exact h2.1 (hId.unique k k0 x i h2.2 hh e1 e2)
  have hrc0 : s1.refcnt (BNode.buf i) = 0 := by rw [hrc]; simp only [if_true]
  refine ⟨s1, _, hb, hrc0, by rw [hd], by rw [hbk], hR1, hi1, hno, ?_⟩
  rcases bget_cases NBUF s1 _ (s.dev (BNode.buf i)) (s.blockno (BNode.buf i)) hR1 with
    ⟨x, hx, e1, e2, _⟩ | ⟨_, hall, _⟩ | ⟨_, k, j, s2, hk, hj, hg, hR2, gd, gb, gv, gr, gda, gre⟩
  · exact absurd ⟨e1, e2⟩ (hno _ x hx)
  · rw [hall _ (Nat.mod_lt _ (by decide))] at hi1
    cases hi1
  · have gv1 : s2.valid (BNode.buf j) = 0 := by rw [gv]; simp only [if_true]
    have gd1 : s2.dev (BNode.buf j) = s.dev (BNode.buf i) := by rw [gd]; simp only [if_true]
    have gb1 : s2.blockno (BNode.buf j) = s.blockno (BNode.buf i) := by
      rw [gb]; simp only [if_true]
    refine ⟨j, k, s2, (virtio_disk_read disk (BNode.buf j) s2).setValid (BNode.buf j) 1, hk, hj,
      hg, gv1, by rw [gr]; simp only [if_true], gd1, gb1, hR2, ?_, ?_, ?_, ?_, ?_⟩
    · intro hji
      have hne : BNode.buf i ≠ BNode.buf j := fun e => hji (BNode.buf.inj e).symm
      refine ⟨?_, ?_, ?_, ?_⟩
      · rw [gd]; simp only [hne, if_false]; rw [hd]
      · rw [gb]; simp only [hne, if_false]; rw [hbk]
      · rw [gr]; simp only [hne, if_false]; exact hrc0
      · exact (moveTo_mem s1 _ hR1.1 _ _ _ j i hj).2 (Or.inr ⟨fun e => hji e.symm, hi1⟩)
    · unfold bread
      rw [hg]
      simp only
      rw [if_pos gv1]
    · show BNode.buf j :: s2.reads = BNode.buf j :: s1.reads
      rw [gre]
    · show (if BNode.buf j = BNode.buf j then disk (s2.dev (BNode.buf j))
        (s2.blockno (BNode.buf j)) else s2.data (BNode.buf j)) = _
      rw [if_pos rfl, gd1, gb1]
    · show (if BNode.buf j = BNode.buf j then 1 else _) = 1
      rw [if_pos rfl]

/-- The example state `sB1` is reached by `binit` and `bread(1, 0)`. -/
theorem sB1_reach : BReachHeld 30 disk0 sB1 :=
  BReachHeld.bread sB0 sB1 1 0 (BNode.buf 0) (BReachHeld.binit sB0 sB0_facts.1)
    (some_of_fst _ _ _ (by decide))

/-- C35 (witness): in `sB1` the buffer 0 holds the block `(1, 0)` with one reference.
After `brelse` the next `bget(1, 0)` returns the buffer 13, the last one of the unused
list of bucket 0, and `bread(1, 0)` reads the block from the disk again. -/
theorem released_block_misses_witness :
    sB1.dev (BNode.buf 0) = 1 ∧ sB1.blockno (BNode.buf 0) = 0 ∧
    (bget 30 1 0 sB2).map Prod.fst = some (BNode.buf 13) ∧
    ((bread 30 disk0 1 0 sB2).map (fun x => x.2.reads)) =
      some [BNode.buf 13, BNode.buf 0] ∧
    ∃ s1 L1, brelse true (BNode.buf 0) sB1 = some s1 ∧ s1.refcnt (BNode.buf 0) = 0 ∧
      s1.dev (BNode.buf 0) = sB1.dev (BNode.buf 0) ∧
      s1.blockno (BNode.buf 0) = sB1.blockno (BNode.buf 0) ∧
      BRep 30 s1 L1 ∧ 0 ∈ L1 (BNode.unused (0 % NBUCKET)) ∧
      (∀ k x, x ∈ L1 (BNode.head k) → ¬ (s1.dev (BNode.buf x) = sB1.dev (BNode.buf 0) ∧
        s1.blockno (BNode.buf x) = sB1.blockno (BNode.buf 0))) ∧
      ∃ j k s2 s3, k < NBUCKET ∧ j ∈ L1 (BNode.unused k) ∧
        bget 30 (sB1.dev (BNode.buf 0)) (sB1.blockno (BNode.buf 0)) s1 =
          some (BNode.buf j, s2) ∧
        s2.valid (BNode.buf j) = 0 ∧ s2.refcnt (BNode.buf j) = 1 ∧
        s2.dev (BNode.buf j) = sB1.dev (BNode.buf 0) ∧
        s2.blockno (BNode.buf j) = sB1.blockno (BNode.buf 0) ∧
        BRep 30 s2 (moveTo L1 (BNode.unused k)
          (BNode.head (sB1.blockno (BNode.buf 0) % NBUCKET)) j) ∧
        (j ≠ 0 → s2.dev (BNode.buf 0) = sB1.dev (BNode.buf 0) ∧
          s2.blockno (BNode.buf 0) = sB1.blockno (BNode.buf 0) ∧
          s2.refcnt (BNode.buf 0) = 0 ∧
          0 ∈ moveTo L1 (BNode.unused k) (BNode.head (sB1.blockno (BNode.buf 0) % NBUCKET)) j
            (BNode.unused (0 % NBUCKET))) ∧
        bread 30 disk0 (sB1.dev (BNode.buf 0)) (sB1.blockno (BNode.buf 0)) s1 =
          some (BNode.buf j, s3) ∧
        s3.reads = BNode.buf j :: s1.reads ∧
        s3.data (BNode.buf j) = disk0 (sB1.dev (BNode.buf 0)) (sB1.blockno (BNode.buf 0)) ∧
        s3.valid (BNode.buf j) = 1 :=
  ⟨by decide, by decide, by decide, by decide,
    released_block_misses 30 disk0 sB1 0 sB1_reach (by decide) (by decide)⟩

/-- The test of the V bit on the flags of an entry is the test on the entry. -/
theorem PTE_FLAGS_valid (x : Nat) : PTE_FLAGS x &&& PTE_V = x &&& PTE_V := by
  unfold PTE_FLAGS
  rw [Nat.and_assoc]
  rfl

/-- The growth loop of `proc_usermapping` on the pages of `[va, desva)`: each page is
below `MAXVA`; where the user table has a valid entry the kernel table gets the entry
with the same frame and the flags without U; every other leaf of the kernel table is as
before. -/
theorem usermapLoop_leaves (L : Layout) (cpu : Nat) (p : Proc) (desva : Nat)
    (hc : cpu < L.NCPU) (hdes : desva % PGSIZE = 0) :
    ∀ fuel va s s', Sep L s p.pagetable → Sep L s p.kernel_pagetable →
      (∀ q, IsPtPage s.mem p.kernel_pagetable q → ¬ IsPtPage s.mem p.pagetable q) →
      va % PGSIZE = 0 → usermapLoop L cpu p desva fuel va s = some s' →
      (∀ a, InRange va desva a → a < MAXVA) ∧
      (∀ a, InRange va desva a → Mapped s.mem p.pagetable a →
        pteval s'.mem p.kernel_pagetable a =
          PA2PTE (PTE2PA (pteval s.mem p.pagetable a)) |||
            (PTE_FLAGS (pteval s.mem p.pagetable a) &&& (2 ^ 64 - 1 - PTE_U)) ||| PTE_V) ∧
      (∀ a, InRange va desva a → ¬ Mapped s.mem p.pagetable a →
        pteval s'.mem p.kernel_pagetable a = pteval s.mem p.kernel_pagetable a) ∧
      (∀ a, a < MAXVA → (a < va ∨ desva ≤ a) →
        pteval s'.mem p.kernel_pagetable a = pteval s.mem p.kernel_pagetable a) := by
  intro fuel
  induction fuel with
  | zero => intro va s s' _ _ _ _ h; simp [usermapLoop] at h
  | succ fuel ih =>
    intro va s s' hsep hsepk hap hva h
    unfold usermapLoop at h
    have hva' : (va + PGSIZE) % PGSIZE = 0 := by unfold PGSIZE at *; omega
    by_cases hlt : va < desva
    · rw [if_pos hlt] at h
      by_cases hmax : va < MAXVA
      · rw [walk_false L cpu p.pagetable va s hmax] at h
        have hcase : ∀ a, InRange va desva a → a = va ∨ InRange (va + PGSIZE) desva a := by
          intro a ha; unfold InRange PGSIZE at *; omega
        have hout : ∀ a, (a < va ∨ desva ≤ a) → (a < va + PGSIZE ∨ desva ≤ a) ∧
            a / PGSIZE ≠ va / PGSIZE := by
          intro a ha; unfold PGSIZE at *; omega
        have hself : va < va + PGSIZE ∨ desva ≤ va := Or.inl (by unfold PGSIZE; omega)
        -- a page that is skipped
        have skip : ¬ Mapped s.mem p.pagetable va →
            usermapLoop L cpu p desva fuel (va + PGSIZE) s = some s' →
            (∀ a, InRange va desva a → a < MAXVA) ∧
            (∀ a, InRange va desva a → Mapped s.mem p.pagetable a →
              pteval s'.mem p.kernel_pagetable a =
                PA2PTE (PTE2PA (pteval s.mem p.pagetable a)) |||
                  (PTE_FLAGS (pteval s.mem p.pagetable a) &&& (2 ^ 64 - 1 - PTE_U)) ||| PTE_V) ∧
            (∀ a, InRange va desva a → ¬ Mapped s.mem p.pagetable a →
              pteval s'.mem p.kernel_pagetable a = pteval s.mem p.kernel_pagetable a) ∧
            (∀ a, a < MAXVA → (a < va ∨ desva ≤ a) →
              pteval s'.mem p.kernel_pagetable a = pteval s.mem p.kernel_pagetable a) := by
          intro hnm hrest
          obtain ⟨i0, i1, i2, i3⟩ := ih _ s s' hsep hsepk hap hva' hrest
          refine ⟨?_, ?_, ?_, ?_⟩
          · intro a ha
            rcases hcase a ha with e | e
            · rw [e]; exact hmax
            · exact i0 a e
          · intro a ha hm
            rcases hcase a ha with e | e
            · rw [e] at hm; exact absurd hm hnm
            · exact i1 a e hm
          · intro a ha hm
            rcases hcase a ha with e | e
            · rw [e]; exact i3 va hmax hself
            · exact i2 a e hm
          · intro a ha1 ha2
            exact i3 a ha1 (hout a ha2).1
        cases hs : slot s.mem p.pagetable va with
        | none =>
          rw [hs] at h
          refine skip ?_ h
          unfold Mapped; rw [pteval_of_none _ _ _ hs]; exact zero_not_valid
        | some pte =>
          rw [hs] at h
          simp only at h
          have hpv : pteval s.mem p.pagetable va = s.mem pte := pteval_of_slot _ _ _ _ hs
          by_cases hv : PTE_FLAGS (s.mem pte) &&& PTE_V = 0
          · rw [if_pos hv] at h
            refine skip ?_ h
            unfold Mapped; rw [hpv, ← PTE_FLAGS_valid]; exact not_not.mpr hv
          · rw [if_neg hv] at h
            cases hm : mappages L cpu p.kernel_pagetable va PGSIZE (PTE2PA (s.mem pte))
                (PTE_FLAGS (s.mem pte) &&& (2 ^ 64 - 1 - PTE_U)) s with
            | none => rw [hm] at h; cases h
            | some res =>
              obtain ⟨r, s2⟩ := res
              rw [hm] at h
              by_cases hr : r = 0
              · subst hr
                simp only at h
                have hva64 : va + PGSIZE ≤ 2 ^ 64 := by
                  rw [MAXVA_eq] at hmax; unfold PGSIZE; omega
                rw [mappages_eq L cpu _ va PGSIZE _ _ s hva (by decide) hva64] at hm
                obtain ⟨hg, k, _, hk2, hk3, hk4, _⟩ :=
                  mappagesLoop_spec L cpu p.kernel_pagetable _ _ hc
                    (by unfold PGROUNDDOWN PGSIZE; omega) PAGE_FUEL va _ s 0 s2 hsepk hva
                    (by unfold PGROUNDDOWN PGSIZE at *; omega) hm
                have hk1 : k = 1 := by
                  have := hk4 rfl
                  unfold PGROUNDDOWN at this
                  unfold PGSIZE at this hva
                  omega
                subst hk1
                have hnew := (hk2 0 (by omega)).2.2
                simp only [Nat.zero_mul, Nat.add_zero] at hnew
                have hoth : ∀ a, a < MAXVA → a / PGSIZE ≠ va / PGSIZE →
                    pteval s2.mem p.kernel_pagetable a = pteval s.mem p.kernel_pagetable a := by
                  intro a ha hne
                  refine hk3 a ha (fun j hj => ?_)
                  have : j = 0 := by omega
                  subst this
                  simp only [Nat.zero_mul, Nat.add_zero]
                  exact hne
                obtain ⟨o1, _, _, o4, _, o6⟩ := PtGrow_other L p.kernel_pagetable p.pagetable
                  s s2 hg hsep (fun q hq hq' => hap q hq' hq)
                obtain ⟨i0, i1, i2, i3⟩ := ih _ s2 s' o1 hg.sep
                  (fun q hq hq' => o6 q hq' hq) hva' h
                have hin : ∀ a, InRange (va + PGSIZE) desva a → a / PGSIZE ≠ va / PGSIZE := by
                  intro a ha; unfold InRange PGSIZE at *; omega
                refine ⟨?_, ?_, ?_, ?_⟩
                · intro a ha
                  rcases hcase a ha with e | e
                  · rw [e]; exact hmax
                  · exact i0 a e
                · intro a ha hma
                  rcases hcase a ha with e | e
                  · rw [e, i3 va hmax hself, hnew, hpv]
                  · have hma2 : Mapped s2.mem p.pagetable a := by
                      unfold Mapped at *; rw [o4 a]; exact hma
                    rw [i1 a e hma2, o4 a]
                · intro a ha hma
                  rcases hcase a ha with e | e
                  · exfalso
                    rw [e] at hma
                    apply hma
                    unfold Mapped
                    rw [hpv, ← PTE_FLAGS_valid]
                    exact hv
                  · have hma2 : ¬ Mapped s2.mem p.pagetable a := by
                      unfold Mapped at *; rw [o4 a]; exact hma
                    rw [i2 a e hma2]
                    exact hoth a (i0 a e) (hin a e)
                · intro a ha1 ha2
                  rw [i3 a ha1 (hout a ha2).1]
                  exact hoth a ha1 (hout a ha2).2
              · exfalso
                revert h
                cases r with
                | ofNat n =>
                  cases n with
                  | zero => exact absurd rfl hr
                  | succ n => intro h; cases h
                | negSucc n => intro h; cases h
      · rw [walk_panic L cpu p.pagetable va false s (by omega)] at h
        cases h
    · rw [if_neg hlt] at h
      cases h
      refine ⟨?_, ?_, fun _ _ _ => rfl, fun _ _ _ => rfl⟩
      · intro a ha; unfold InRange at ha; omega
      · intro a ha; unfold InRange at ha; omega

/-- The flags `PTE_FLAGS(e) & ~PTE_U` of a valid entry keep the V bit. -/
theorem flags_clear_user (f : Nat) (hv : f &&& PTE_V ≠ 0) :
    (f &&& (2 ^ 64 - 1 - PTE_U)) ||| PTE_V = f &&& (2 ^ 64 - 1 - PTE_U) := by
  have hf0 : f.testBit 0 = true := (valid_iff f).1 hv
  have hm0 : (2 ^ 64 - 1 - PTE_U).testBit 0 = true := by decide
  have hV : PTE_V = 1 := by decide
  apply Nat.eq_of_testBit_eq
  intro i
  rw [Nat.testBit_or, hV]
  cases i with
  | zero => rw [Nat.testBit_and, hf0, hm0]; rfl
  | succ i =>
    have : Nat.testBit 1 (i + 1) = false := by
      rw [Nat.testBit_succ]
      exact Nat.zero_testBit i
    rw [this, Bool.or_false]

/-- C34: let `oldsz < newsz <= PGROUNDUP(p->sz)` with both below `p->vma_bound`, on
well-formed user and kernel tables of `p` that share no page, and let
`proc_usermapping(p, oldsz, newsz)` return. Each page `va` of
`[PGROUNDUP(oldsz), PGROUNDUP(min(newsz, PLIC)))` with a valid entry `e` in the user
table then has in the kernel table the valid entry made of the physical address of `e`
and of the flags of `e` without `PTE_U`. Every other leaf of the kernel table, and so
every leaf at or above `PLIC`, is as before, and the user table is unchanged: its pages,
its leaves and the memory of its pages. -/
theorem proc_usermapping_shadow (L : Layout) (cpu : Nat) (p : Proc) (oldsz newsz : Nat)
    (s s' : KState) (hc : cpu < L.NCPU) (hsep : Sep L s p.pagetable)
    (hsepk : Sep L s p.kernel_pagetable)
    (hap : ∀ q, IsPtPage s.mem p.kernel_pagetable q → ¬ IsPtPage s.mem p.pagetable q)
    (h1 : oldsz < newsz) (h2 : newsz ≤ PGROUNDUP p.sz)
    (h3 : newsz < p.vma_bound) (h4 : oldsz < p.vma_bound)
    (h : proc_usermapping L cpu p oldsz newsz s = some s') :
    (∀ va, InRange (PGROUNDUP oldsz) (PGROUNDUP (min newsz PLIC)) va →
      Mapped s.mem p.pagetable va →
      pteval s'.mem p.kernel_pagetable va =
        PA2PTE (PTE2PA (pteval s.mem p.pagetable va)) |||
          (PTE_FLAGS (pteval s.mem p.pagetable va) &&& (2 ^ 64 - 1 - PTE_U)) ||| PTE_V ∧
      Mapped s'.mem p.kernel_pagetable va ∧
      PTE2PA (pteval s'.mem p.kernel_pagetable va) = PTE2PA (pteval s.mem p.pagetable va) ∧
      PTE_FLAGS (pteval s'.mem p.kernel_pagetable va) =
        PTE_FLAGS (pteval s.mem p.pagetable va) &&& (2 ^ 64 - 1 - PTE_U) ∧
      pteval s'.mem p.kernel_pagetable va &&& PTE_U = 0) ∧
    (∀ va, va < MAXVA →
      (va < PGROUNDUP oldsz ∨ PGROUNDUP (min newsz PLIC) ≤ va) →
      pteval s'.mem p.kernel_pagetable va = pteval s.mem p.kernel_pagetable va) ∧
    (∀ va, va < MAXVA → PLIC ≤ va →
      pteval s'.mem p.kernel_pagetable va = pteval s.mem p.kernel_pagetable va) ∧
    (∀ x, pteval s'.mem p.pagetable x = pteval s.mem p.pagetable x) ∧
    (∀ q, IsPtPage s'.mem p.pagetable q ↔ IsPtPage s.mem p.pagetable q) ∧
    (∀ q, IsPtPage s.mem p.pagetable q → ∀ x, q ≤ x → x < q + PGSIZE →
      s'.mem x = s.mem x) := by
  obtain ⟨_, _, _, u4, u5⟩ := usermapping_other L cpu p oldsz newsz s s' hc hsep hsepk hap h
  have hg := usermapping_grow L cpu p oldsz newsz s s' hc hsepk (Nat.le_of_lt h1) h
  have hmem : ∀ q, IsPtPage s.mem p.pagetable q → ∀ x, q ≤ x → x < q + PGSIZE →
      s'.mem x = s.mem x := by
    intro q hq x hx1 hx2
    exact (hg.untouched q (IsPtPage_aligned s.mem p.pagetable q hsep.tree.root_aligned hq)
      (fun hf => hsep.apart q hf hq) (fun hk => hap q hk hq)).2.2.2 x hx1 hx2
  have hmin : (if newsz > PLIC then PLIC else newsz) = min newsz PLIC := by
    split <;> omega
  have hup : PGROUNDUP (min newsz PLIC) ≤ PLIC := by
    unfold PGROUNDUP PGSIZE PLIC; omega
  have hbig : newsz ≤ 2 ^ 64 - 4096 := by
    unfold PGROUNDUP PGSIZE at h2; omega
  -- the leaves of the kernel table
  have hleaves : (∀ va, InRange (PGROUNDUP oldsz) (PGROUNDUP (min newsz PLIC)) va →
        Mapped s.mem p.pagetable va →
        pteval s'.mem p.kernel_pagetable va =
          PA2PTE (PTE2PA (pteval s.mem p.pagetable va)) |||
            (PTE_FLAGS (pteval s.mem p.pagetable va) &&& (2 ^ 64 - 1 - PTE_U)) ||| PTE_V) ∧
      (∀ va, va < MAXVA →
        (va < PGROUNDUP oldsz ∨ PGROUNDUP (min newsz PLIC) ≤ va) →
        pteval s'.mem p.kernel_pagetable va = pteval s.mem p.kernel_pagetable va) := by
    unfold proc_usermapping at h
    rw [if_neg (by omega), if_neg (by omega)] at h
    simp only at h
    rw [hmin] at h
    have hnogt : ¬ ((if oldsz > PLIC then PLIC else oldsz) > min newsz PLIC) := by
      split <;> omega
    rw [if_neg hnogt] at h
    by_cases hlt : (if oldsz > PLIC then PLIC else oldsz) < min newsz PLIC
    · rw [if_pos hlt] at h
      have hold : (if oldsz > PLIC then PLIC else oldsz) = oldsz := by
        split at hlt <;> split <;> omega
      rw [hold] at h
      obtain ⟨_, i1, _, i3⟩ := usermapLoop_leaves L cpu p _ hc (PGROUNDUP_mod _) PAGE_FUEL _
        s s' hsep hsepk hap (PGROUNDUP_mod _) h
      exact ⟨i1, i3⟩
    · rw [if_neg hlt] at h
      cases h
      have hempty : PGROUNDUP (min newsz PLIC) ≤ PGROUNDUP oldsz := by
        have : PLIC ≤ oldsz := by
          split at hlt <;> omega
        unfold PGROUNDUP PGSIZE PLIC at *
        omega
      refine ⟨?_, fun _ _ _ => rfl⟩
      intro va hin
      unfold InRange at hin
      omega
  obtain ⟨l1, l2⟩ := hleaves
  refine ⟨?_, l2, fun va hva hpl => l2 va hva (Or.inr (by omega)), u4, u5, hmem⟩
  intro va hin hm
  have hval := l1 va hin hm
  have hfl : PTE_FLAGS (pteval s.mem p.pagetable va) < 1024 := by
    rw [PTE_FLAGS_eq]; omega
  have hperm : PTE_FLAGS (pteval s.mem p.pagetable va) &&& (2 ^ 64 - 1 - PTE_U) < 1024 :=
    Nat.lt_of_le_of_lt Nat.and_le_left hfl
  have hfv : PTE_FLAGS (pteval s.mem p.pagetable va) &&& PTE_V ≠ 0 := by
    rw [PTE_FLAGS_valid]; exact hm
  have hflags : PTE_FLAGS (pteval s'.mem p.kernel_pagetable va) =
      PTE_FLAGS (pteval s.mem p.pagetable va) &&& (2 ^ 64 - 1 - PTE_U) := by
    rw [hval, leaf_flags _ _ (PTE2PA_lt _) hperm, flags_clear_user _ hfv]
  refine ⟨hval, ?_, ?_, hflags, ?_⟩
  · unfold Mapped; rw [hval]; exact leaf_valid _ _
  · rw [hval]
    exact leaf_pa _ _ (PTE2PA_aligned _) (PTE2PA_lt _) hperm
  · have e : pteval s'.mem p.kernel_pagetable va &&& PTE_U =
        PTE_FLAGS (pteval s'.mem p.kernel_pagetable va) &&& PTE_U := by
      unfold PTE_FLAGS
      rw [Nat.and_assoc]
      rfl
    rw [e, hflags, Nat.and_assoc]
    have : (2 ^ 64 - 1 - PTE_U) &&& PTE_U = 0 := by decide
    rw [this, Nat.and_zero]

/-- The example state `sRoomyMapped` with the two tables of the process `pEx`: both are
well-formed and share no page. -/
theorem sRoomyMapped_tables : Sep L1 sRoomyMapped 61440 ∧ Sep L1 sRoomyMapped 57344 ∧
    ∀ q, IsPtPage sRoomyMapped.mem 57344 q → ¬ IsPtPage sRoomyMapped.mem 61440 q := by
  have hu : Sep L1 sRoomy 61440 :=
    Sep_zero L1 sRoomy 61440 rfl (fun _ => rfl) (by decide) (by decide) (by decide)
  have hk : Sep L1 sRoomy 57344 :=
    Sep_zero L1 sRoomy 57344 rfl (fun _ => rfl) (by decide) (by decide) (by decide)
  have hap : ∀ q, IsPtPage sRoomy.mem 57344 q → ¬ IsPtPage sRoomy.mem 61440 q := by
    intro q h1 h2
    have e1 := ((PT_zero sRoomy.mem 57344 (fun _ => rfl) (by decide)).2 q).mp h1
    have e2 := ((PT_zero sRoomy.mem 61440 (fun _ => rfl) (by decide)).2 q).mp h2
    omega
  have h : mappages L1 0 61440 0 PGSIZE 20480 (PTE_R ||| PTE_W ||| PTE_U) sRoomy
      = some (0, sRoomyMapped) := rfl
  rw [mappages_eq L1 0 61440 0 PGSIZE 20480 _ sRoomy (by decide) (by decide) (by decide)] at h
  obtain ⟨g, _⟩ := mappagesLoop_spec L1 0 61440 _ _ (by decide) (by decide)
    PAGE_FUEL 0 20480 sRoomy 0 sRoomyMapped hu (by decide) (by decide) h
  obtain ⟨o1, _, _, _, _, o6⟩ := PtGrow_other L1 61440 57344 sRoomy sRoomyMapped g hk hap
  exact ⟨g.sep, o1, o6⟩

/-- C34 (witness): for the process `pEx`, whose page 0 is mapped to the frame 20480 with
R, W and U, the call `proc_usermapping(p, 0, PGSIZE)` returns; the entry 5143 of the user
table gives the entry 5127 of the kernel table: the same frame, R and W, without U. -/
theorem proc_usermapping_shadow_witness :
    (proc_usermapping L1 0 pEx 0 PGSIZE sRoomyMapped).isSome = true ∧
    pteval sRoomyMapped.mem 61440 0 = 5143 ∧ pteval sShadow.mem 57344 0 = 5127 ∧
    ((∀ va, InRange (PGROUNDUP 0) (PGROUNDUP (min PGSIZE PLIC)) va →
        Mapped sRoomyMapped.mem pEx.pagetable va →
        pteval sShadow.mem pEx.kernel_pagetable va =
          PA2PTE (PTE2PA (pteval sRoomyMapped.mem pEx.pagetable va)) |||
            (PTE_FLAGS (pteval sRoomyMapped.mem pEx.pagetable va) &&& (2 ^ 64 - 1 - PTE_U)) |||
              PTE_V ∧
        Mapped sShadow.mem pEx.kernel_pagetable va ∧
        PTE2PA (pteval sShadow.mem pEx.kernel_pagetable va) =
          PTE2PA (pteval sRoomyMapped.mem pEx.pagetable va) ∧
        PTE_FLAGS (pteval sShadow.mem pEx.kernel_pagetable va) =
          PTE_FLAGS (pteval sRoomyMapped.mem pEx.pagetable va) &&& (2 ^ 64 - 1 - PTE_U) ∧
        pteval sShadow.mem pEx.kernel_pagetable va &&& PTE_U = 0) ∧
      (∀ va, va < MAXVA →
        (va < PGROUNDUP 0 ∨ PGROUNDUP (min PGSIZE PLIC) ≤ va) →
        pteval sShadow.mem pEx.kernel_pagetable va =
          pteval sRoomyMapped.mem pEx.kernel_pagetable va) ∧
      (∀ va, va < MAXVA → PLIC ≤ va →
        pteval sShadow.mem pEx.kernel_pagetable va =
          pteval sRoomyMapped.mem pEx.kernel_pagetable va) ∧
      (∀ x, pteval sShadow.mem pEx.pagetable x = pteval sRoomyMapped.mem pEx.pagetable x) ∧
      (∀ q, IsPtPage sShadow.mem pEx.pagetable q ↔
        IsPtPage sRoomyMapped.mem pEx.pagetable q) ∧
      (∀ q, IsPtPage sRoomyMapped.mem pEx.pagetable q → ∀ x, q ≤ x → x < q + PGSIZE →
        sShadow.mem x = sRoomyMapped.mem x)) :=
  ⟨by decide, by decide, by decide,
    proc_usermapping_shadow L1 0 pEx 0 PGSIZE sRoomyMapped sShadow (by decide) sRoomyMapped_tables.1
      sRoomyMapped_tables.2.1 sRoomyMapped_tables.2.2 (by decide) (by decide)
      (by decide) (by decide)
      (some_of_isSome _ _ (by decide))⟩

end Xv6
